import Mathlib

/-! # THEMEed text-editing engine: a shallow embedding of `TextEditor`

The definitions below follow `src/libs/ImGuiColorTextEdit/TextEditor.cpp` and
`TextEditor.h`.  Conventions of the embedding:

* a `std::string` / `const char*` is a `List Nat` of bytes; a C string stops at
  its first `0` byte;
* `int` values are `Int` (coordinates, indices returned to callers) or `Nat`
  when the source keeps them non-negative by construction (loop counters that
  start at `0` and only grow, the clamped tab size); 32-bit overflow is not
  modelled;
* `std::vector` is `List`; an out-of-range read yields a default element and an
  out-of-range `erase`/`insert` position is clamped to the end of the vector
  (the source has undefined behaviour there);
* `while`/`for` loops are structural recursions on a fuel argument, and every
  caller passes fuel that is at least the number of iterations the loop can make;
* callbacks to the host (`OnContentUpdate`, `OnBreakpointRemove`,
  `OnBreakpointUpdate`) are recorded in an event log; the host clipboard is a
  field of the editor state.
-/

namespace TextEditor

/-- Palette classes of `enum class PaletteIndex`. -/
inductive PaletteIndex where
  | Default | Keyword | Number | String | CharLiteral | Punctuation | Preprocessor
  | Identifier | KnownIdentifier | PreprocIdentifier | Comment | MultiLineComment
  | Background | Cursor | Selection | ErrorMarker | Breakpoint | BreakpointOutline
  | CurrentLineIndicator | CurrentLineIndicatorOutline | LineNumber | CurrentLineFill
  | CurrentLineFillInactive | CurrentLineEdge | ErrorMessage | BreakpointDisabled
  | UserFunction | UserType | UniformVariable | GlobalVariable | LocalVariable
  | FunctionArgument | Max
  deriving DecidableEq, Repr, Inhabited

/-- Selection modes of `enum class SelectionMode`. -/
inductive SelectionMode where
  | Normal | Word | Line
  deriving DecidableEq, Repr, Inhabited

/-- A breakpoint: `struct Breakpoint`. -/
structure Breakpoint where
  mLine : Int := -1
  mEnabled : Bool := false
  mCondition : String := ""
  deriving DecidableEq, Repr, Inhabited

/-- A `(line, visual column)` pair: `struct Coordinates`. -/
structure Coordinates where
  mLine : Int := 0
  mColumn : Int := 0
  deriving DecidableEq, Repr, Inhabited

namespace Coordinates

/-- The source `operator<`. -/
def lt (a o : Coordinates) : Bool :=
  if a.mLine ≠ o.mLine then decide (a.mLine < o.mLine) else decide (a.mColumn < o.mColumn)

/-- The source `operator>`. -/
def gt (a o : Coordinates) : Bool :=
  if a.mLine ≠ o.mLine then decide (a.mLine > o.mLine) else decide (a.mColumn > o.mColumn)

/-- The source `operator<=`. -/
def le (a o : Coordinates) : Bool :=
  if a.mLine ≠ o.mLine then decide (a.mLine < o.mLine) else decide (a.mColumn ≤ o.mColumn)

/-- The source `operator>=`. -/
def ge (a o : Coordinates) : Bool :=
  if a.mLine ≠ o.mLine then decide (a.mLine > o.mLine) else decide (a.mColumn ≥ o.mColumn)

end Coordinates

/-- One stored byte with its derived classification: `struct Glyph`
(the constructor `Glyph(aChar, aColorIndex)` clears the three flags). -/
structure Glyph where
  mChar : Nat
  mColorIndex : PaletteIndex := PaletteIndex.Default
  mComment : Bool := false
  mMultiLineComment : Bool := false
  mPreprocessor : Bool := false
  deriving DecidableEq, Repr

instance : Inhabited Glyph := ⟨{ mChar := 0 }⟩

/-- A line: `typedef std::vector<Glyph> Line`. -/
abbrev Line := List Glyph

/-- The document: `typedef std::vector<Line> Lines`. -/
abbrev Lines := List Line

/-- Selection and cursor: `struct EditorState`. -/
structure EditorState where
  mSelectionStart : Coordinates := {}
  mSelectionEnd : Coordinates := {}
  mCursorPosition : Coordinates := {}
  deriving DecidableEq, Repr, Inhabited

/-- An undo record: `class UndoRecord` (data members). -/
structure UndoRecord where
  mAdded : List Nat := []
  mAddedStart : Coordinates := {}
  mAddedEnd : Coordinates := {}
  mRemoved : List Nat := []
  mRemovedStart : Coordinates := {}
  mRemovedEnd : Coordinates := {}
  mBefore : EditorState := {}
  mAfter : EditorState := {}
  deriving DecidableEq, Repr, Inhabited

/-- A call made to a host callback. -/
inductive Event where
  | ContentUpdate
  | BreakpointRemove (line : Int)
  | BreakpointUpdate (line : Int) (condition : String) (enabled : Bool)
  deriving DecidableEq, Repr

/-- The tokenizer callbacks the repository installs in `LanguageDefinition::mTokenize`:
`LanguageDefinition::CPlusPlus()` and `LanguageDefinition::C()` install the same lambda,
`CStyle`.  A null callback is `none` in the language definition. -/
inductive TokenizeCallback where
  | CStyle
  deriving DecidableEq, Repr, Inhabited

/-- The data of `struct LanguageDefinition` that the edit engine and the colorizer read;
the defaults are those of its constructor.  The two identifier tables are kept as the
lists of their keys, the keyword set as a list. -/
structure LanguageDefinition where
  mKeywords : List (List Nat) := []
  mIdentifiers : List (List Nat) := []
  mPreprocIdentifiers : List (List Nat) := []
  mCommentStart : List Nat := []
  mCommentEnd : List Nat := []
  mSingleLineComment : List Nat := []
  mPreprocChar : Nat := 35
  mAutoIndentation : Bool := true
  mTokenize : Option TokenizeCallback := none
  mCaseSensitive : Bool := true
  deriving DecidableEq, Repr, Inhabited

/-- A program symbol registered for highlighting: `struct FunctionData`. -/
structure FunctionData where
  LineStart : Int := 0
  LineEnd : Int := 0
  Arguments : List (List Nat) := []
  Locals : List (List Nat) := []
  deriving DecidableEq, Repr, Inhabited

/-- A compiled pattern of `mRegexList`, as `std::regex_search` with `match_continuous`
uses it: `run s` is the length of the match that starts at the first byte of `s`, if
there is one; a match lies inside the searched range. -/
structure Regex where
  run : List Nat → Option Nat
  bound : ∀ s n, run s = some n → n ≤ s.length

instance : Repr Regex := ⟨fun _ _ => Std.Format.text "regex"⟩

end TextEditor

open TextEditor in
/-- The editor state: the data members of `class TextEditor` that the document,
coordinate, edit, undo and colorizer code reads or writes.  The defaults are the values
the constructor `TextEditor::TextEditor()` stores, except for the language: the
constructor installs `LanguageDefinition::HLSL()` with its compiled patterns, the default
here is the default-constructed `LanguageDefinition` with no pattern. -/
structure TextEditor where
  mLines : Lines := [[]]
  mState : EditorState := {}
  mUndoBuffer : List UndoRecord := []
  mUndoIndex : Int := 0
  mTabSize : Nat := 4
  mInsertSpaces : Bool := false
  mOverwrite : Bool := false
  mReadOnly : Bool := false
  mDebugCurrentLine : Int := -1
  mCompleteBraces : Bool := true
  mSmartIndent : Bool := true
  mAutoindentOnPaste : Bool := false
  mLanguageDefinition : LanguageDefinition := {}
  mActiveAutocomplete : Bool := false
  mACOpened : Bool := false
  m_requestAutocomplete : Bool := false
  m_readyForAutocomplete : Bool := false
  mWithinRender : Bool := false
  mScrollToCursor : Bool := false
  mScrollToTop : Bool := false
  mTextChanged : Bool := false
  mCursorPositionChanged : Bool := false
  mColorRangeMin : Int := 0
  mColorRangeMax : Int := 0
  mCheckComments : Bool := true
  mColorizerEnabled : Bool := true
  mReplaceIndex : Int := 0
  mErrorMarkers : List (Int × String) := []
  mBreakpoints : List Breakpoint := []
  mSnippetTagStart : List Coordinates := []
  mSnippetTagEnd : List Coordinates := []
  mSnippetTagID : List Int := []
  mSnippetTagHighlight : List Bool := []
  mIsSnippet : Bool := false
  mRegexList : List (Regex × PaletteIndex) := []
  mACFunctions : List (List Nat × FunctionData) := []
  mACUserTypes : List (List Nat) := []
  mACUniforms : List (List Nat) := []
  mACGlobals : List (List Nat) := []
  mSnippetTagSelected : Int := 0
  mSnippetTagLength : Int := 0
  mSnippetTagPreviousLength : Int := 0
  mACEntrySearch : List (List Nat) := []
  mACEntries : List (List Nat × List Nat) := []
  mACWord : List Nat := []
  mACSuggestions : List (List Nat × List Nat) := []
  mACIndex : Int := 0
  mACSwitched : Bool := false
  mACPosition : Coordinates := {}
  mClipboard : Option (List Nat) := none
  mEvents : List Event := []
  deriving Repr

namespace TextEditor

/-! ## UTF-8 helpers -/

/-- The source `UTF8CharLength`: the sequence length announced by a lead byte. -/
def UTF8CharLength (c : Nat) : Nat :=
  if c &&& 0xFE = 0xFC then 6
  else if c &&& 0xFC = 0xF8 then 5
  else if c &&& 0xF8 = 0xF0 then 4
  else if c &&& 0xF0 = 0xE0 then 3
  else if c &&& 0xE0 = 0xC0 then 2
  else 1

/-- The source `IsUTFSequence`: a continuation byte `10xxxxxx`. -/
def IsUTFSequence (c : Nat) : Bool :=
  c &&& 0xC0 = 0x80

/-- The libc `isspace` in the "C" locale. -/
def isspace (c : Nat) : Bool :=
  c = 32 || (9 ≤ c && c ≤ 13)

/-- The libc `isblank` in the "C" locale. -/
def isblank (c : Nat) : Bool :=
  c = 32 || c = 9

/-- The libc `isascii`. -/
def isascii (c : Nat) : Bool :=
  c < 128

/-- The libc `isalpha` in the "C" locale. -/
def isalpha (c : Nat) : Bool :=
  (65 ≤ c && c ≤ 90) || (97 ≤ c && c ≤ 122)

/-- Element `i` of a line, as read by `line[i]`. -/
def glyphAt (line : Line) (i : Nat) : Glyph :=
  line.getD i default

/-- Line `i` of the document, as read by `mLines[i]`. -/
def lineAt (lines : Lines) (i : Int) : Line :=
  lines.getD i.toNat []

/-- The tab-stop step used in every column walk:
`c = (c / mTabSize) * mTabSize + mTabSize` for a tab, `++c` otherwise.  The source
divides `int` by `int`, which is undefined for `mTabSize = 0` (a value that
`SetTabSize(0)` stores); the quotient here is the source's for `mTabSize ≥ 1`, and the
statements below that walk over a tab assume such a tab size. -/
def advanceColumn (mTabSize : Nat) (ch : Nat) (c : Nat) : Nat :=
  if ch = 9 then (c / mTabSize) * mTabSize + mTabSize else c + 1

/-! ## Coordinate system -/

/-- The loop of `GetCharacterIndex`: `for (; i < line.size() && c < column;)`. -/
def GetCharacterIndex.loop (line : Line) (mTabSize : Nat) (column : Int) :
    Nat → Nat → Nat → Nat
  | 0, i, _ => i
  | fuel + 1, i, c =>
    if i < line.length ∧ (c : Int) < column then
      GetCharacterIndex.loop line mTabSize column fuel
        (i + UTF8CharLength (glyphAt line i).mChar)
        (advanceColumn mTabSize (glyphAt line i).mChar c)
    else i

/-- The source `TextEditor::GetCharacterIndex`.  The line test compares an `int`
with a `size_t`, so a negative line is out of range too. -/
def GetCharacterIndex (e : TextEditor) (aCoordinates : Coordinates) : Int :=
  if aCoordinates.mLine < 0 ∨ aCoordinates.mLine ≥ e.mLines.length then -1
  else
    let line := lineAt e.mLines aCoordinates.mLine
    (GetCharacterIndex.loop line e.mTabSize aCoordinates.mColumn line.length 0 0 : Nat)

/-- The loop of `GetCharacterColumn`: `while (i < aIndex && i < line.size())`. -/
def GetCharacterColumn.loop (line : Line) (mTabSize : Nat) (aIndex : Int) :
    Nat → Nat → Nat → Nat
  | 0, _, col => col
  | fuel + 1, i, col =>
    if (i : Int) < aIndex ∧ i < line.length then
      GetCharacterColumn.loop line mTabSize aIndex fuel
        (i + UTF8CharLength (glyphAt line i).mChar)
        (advanceColumn mTabSize (glyphAt line i).mChar col)
    else col

/-- The source `TextEditor::GetCharacterColumn`. -/
def GetCharacterColumn (e : TextEditor) (aLine : Int) (aIndex : Int) : Int :=
  if aLine < 0 ∨ aLine ≥ e.mLines.length then 0
  else
    let line := lineAt e.mLines aLine
    (GetCharacterColumn.loop line e.mTabSize aIndex line.length 0 0 : Nat)

/-- The loop of `GetLineCharacterCount`. -/
def GetLineCharacterCount.loop (line : Line) : Nat → Nat → Nat → Nat
  | 0, _, c => c
  | fuel + 1, i, c =>
    if i < line.length then
      GetLineCharacterCount.loop line fuel (i + UTF8CharLength (glyphAt line i).mChar) (c + 1)
    else c

/-- The source `TextEditor::GetLineCharacterCount`. -/
def GetLineCharacterCount (e : TextEditor) (aLine : Int) : Int :=
  if aLine < 0 ∨ aLine ≥ e.mLines.length then 0
  else
    let line := lineAt e.mLines aLine
    (GetLineCharacterCount.loop line line.length 0 0 : Nat)

/-- The loop of `GetLineMaxColumn`: `for (unsigned i = 0; i < line.size(); )`. -/
def GetLineMaxColumn.loop (line : Line) (mTabSize : Nat) : Nat → Nat → Nat → Nat
  | 0, _, col => col
  | fuel + 1, i, col =>
    if i < line.length then
      GetLineMaxColumn.loop line mTabSize fuel
        (i + UTF8CharLength (glyphAt line i).mChar)
        (advanceColumn mTabSize (glyphAt line i).mChar col)
    else col

/-- The source `TextEditor::GetLineMaxColumn`. -/
def GetLineMaxColumn (e : TextEditor) (aLine : Int) : Int :=
  if aLine < 0 ∨ aLine ≥ e.mLines.length then 0
  else
    let line := lineAt e.mLines aLine
    (GetLineMaxColumn.loop line e.mTabSize line.length 0 0 : Nat)

/-- The source `TextEditor::SanitizeCoordinates`. -/
def SanitizeCoordinates (e : TextEditor) (aValue : Coordinates) : Coordinates :=
  if aValue.mLine ≥ e.mLines.length then
    if e.mLines.isEmpty then ⟨0, 0⟩
    else ⟨(e.mLines.length : Int) - 1, GetLineMaxColumn e ((e.mLines.length : Int) - 1)⟩
  else
    ⟨aValue.mLine,
      if e.mLines.isEmpty then 0 else min aValue.mColumn (GetLineMaxColumn e aValue.mLine)⟩

/-- The source `TextEditor::GetActualCursorCoordinates`. -/
def GetActualCursorCoordinates (e : TextEditor) : Coordinates :=
  SanitizeCoordinates e e.mState.mCursorPosition

/-! ## Text get/set -/

/-- The `while` loop of `GetText(aStart, aEnd)`. -/
def GetText.loop (mLines : Lines) (lend iend : Int) :
    Nat → Int → Int → List Nat → List Nat
  | 0, _, _, result => result
  | fuel + 1, lstart, istart, result =>
    if istart < iend ∨ lstart < lend then
      if lstart ≥ mLines.length then result
      else if istart < (lineAt mLines lstart).length then
        GetText.loop mLines lend iend fuel lstart (istart + 1)
          (result ++ [(glyphAt (lineAt mLines lstart) istart.toNat).mChar])
      else
        GetText.loop mLines lend iend fuel (lstart + 1) 0
          (if ¬ (lstart = lend - 1 ∧ iend = -1) then result ++ [10] else result)
    else result

/-- Fuel for the loop of `GetText`: one step per stored byte and one per line end. -/
def GetText.fuel (mLines : Lines) : Nat :=
  (mLines.map (fun l => l.length + 1)).sum + 1

/-- The source `TextEditor::GetText(const Coordinates&, const Coordinates&)`. -/
def GetText (e : TextEditor) (aStart aEnd : Coordinates) : List Nat :=
  GetText.loop e.mLines aEnd.mLine (GetCharacterIndex e aEnd) (GetText.fuel e.mLines)
    aStart.mLine (GetCharacterIndex e aStart) []

/-- The source `TextEditor::GetText()`. -/
def GetTextAll (e : TextEditor) : List Nat :=
  GetText e {} ⟨e.mLines.length, 0⟩

/-- The source `TextEditor::GetSelectedText`. -/
def GetSelectedText (e : TextEditor) : List Nat :=
  GetText e e.mState.mSelectionStart e.mState.mSelectionEnd

/-- The source `TextEditor::Colorize(aFromLine, aLines)`: widens the dirty range.
The header defaults are `aFromLine = 0`, `aLines = -1`. -/
def Colorize (e : TextEditor) (aFromLine : Int) (aLines : Int) : TextEditor :=
  let toLine : Int := if aLines = -1 then e.mLines.length else min e.mLines.length (aFromLine + aLines)
  let cmin := min e.mColorRangeMin aFromLine
  let cmax := max e.mColorRangeMax toLine
  let cmin := max 0 cmin
  let cmax := max cmin cmax
  { e with mColorRangeMin := cmin, mColorRangeMax := cmax, mCheckComments := true }

/-- The character loop of `SetText`. -/
def SetText.loop : List Nat → Lines → Lines
  | [], lines => lines
  | chr :: rest, lines =>
    if chr = 13 then SetText.loop rest lines
    else if chr = 10 then SetText.loop rest (lines ++ [[]])
    else SetText.loop rest (lines.dropLast ++ [lines.getLastD [] ++ [{ mChar := chr }]])

/-- The source `TextEditor::SetText`. -/
def SetText (e : TextEditor) (aText : List Nat) : TextEditor :=
  Colorize { e with
    mLines := SetText.loop aText [[]]
    mTextChanged := true
    mScrollToTop := true
    mUndoBuffer := []
    mUndoIndex := 0 } 0 (-1)

/-- The source `TextEditor::SetTextLines`. -/
def SetTextLines (e : TextEditor) (aLines : List (List Nat)) : TextEditor :=
  Colorize { e with
    mLines := if aLines.isEmpty then [[]]
              else aLines.map (fun aLine => aLine.map (fun c => ({ mChar := c } : Glyph)))
    mTextChanged := true
    mScrollToTop := true
    mUndoBuffer := []
    mUndoIndex := 0 } 0 (-1)

/-! ## Breakpoints, error markers and line structure -/

/-- Erase the first breakpoint on `line` (the loop of `RemoveBreakpoint`). -/
def eraseBreakpoint (line : Int) : List Breakpoint → List Breakpoint
  | [] => []
  | b :: rest => if b.mLine = line then rest else b :: eraseBreakpoint line rest

/-- The source `TextEditor::RemoveBreakpoint`. -/
def RemoveBreakpoint (e : TextEditor) (line : Int) : TextEditor :=
  { e with
    mBreakpoints := eraseBreakpoint line e.mBreakpoints
    mEvents := e.mEvents ++ [Event.BreakpointRemove line] }

/-- The source `TextEditor::AddBreakpoint`. -/
def AddBreakpoint (e : TextEditor) (line : Int) (condition : String) (enabled : Bool) :
    TextEditor :=
  let e := RemoveBreakpoint e line
  { e with
    mEvents := e.mEvents ++ [Event.BreakpointUpdate line condition enabled]
    mBreakpoints := e.mBreakpoints ++ [{ mLine := line, mCondition := condition, mEnabled := enabled }] }

/-- The `std::map::insert` of an error marker: sorted by line, an existing key wins. -/
def insertMarker (m : Int × String) : List (Int × String) → List (Int × String)
  | [] => [m]
  | x :: rest =>
    if m.1 < x.1 then m :: x :: rest
    else if m.1 = x.1 then x :: rest
    else x :: insertMarker m rest

/-- The source `TextEditor::InsertLine`; the returned reference is line `aIndex`. -/
def InsertLine (e : TextEditor) (aIndex : Int) : TextEditor :=
  let e := { e with mLines := e.mLines.take aIndex.toNat ++ [] :: e.mLines.drop aIndex.toNat }
  let etmp := e.mErrorMarkers.foldl
    (fun etmp i => insertMarker (if i.1 ≥ aIndex then i.1 + 1 else i.1, i.2) etmp) []
  let e := { e with mErrorMarkers := etmp }
  let btmp := e.mBreakpoints
  let e := { e with mBreakpoints := [] }
  let e := btmp.foldl (fun e i => RemoveBreakpoint e i.mLine) e
  btmp.foldl
    (fun e i => AddBreakpoint e (if i.mLine ≥ aIndex then i.mLine + 1 else i.mLine)
      i.mCondition i.mEnabled) e

/-- The source `TextEditor::RemoveLine(int aStart, int aEnd)`. -/
def RemoveLineRange (e : TextEditor) (aStart aEnd : Int) : TextEditor :=
  let etmp := e.mErrorMarkers.foldl
    (fun etmp i =>
      let k := if i.1 ≥ aStart then i.1 - 1 else i.1
      if k ≥ aStart ∧ k ≤ aEnd then etmp else insertMarker (k, i.2) etmp) []
  let e := { e with mErrorMarkers := etmp }
  let btmp := e.mBreakpoints
  let e := { e with mBreakpoints := [] }
  let e := btmp.foldl
    (fun e i =>
      if i.mLine ≥ aStart ∧ i.mLine ≤ aEnd then RemoveBreakpoint e i.mLine
      else AddBreakpoint e (if i.mLine ≥ aStart then i.mLine - 1 else i.mLine)
        i.mCondition i.mEnabled) e
  { e with
    mLines := e.mLines.take aStart.toNat ++ e.mLines.drop aEnd.toNat
    mTextChanged := true
    mEvents := e.mEvents ++ [Event.ContentUpdate] }

/-- The source `TextEditor::RemoveLine(int aIndex)`. -/
def RemoveLine (e : TextEditor) (aIndex : Int) : TextEditor :=
  let etmp := e.mErrorMarkers.foldl
    (fun etmp i =>
      let k := if i.1 > aIndex then i.1 - 1 else i.1
      if k - 1 = aIndex then etmp else insertMarker (k, i.2) etmp) []
  let e := { e with mErrorMarkers := etmp }
  let btmp := e.mBreakpoints
  let e := { e with mBreakpoints := [] }
  let e := btmp.foldl
    (fun e i =>
      if i.mLine = aIndex then RemoveBreakpoint e i.mLine
      else AddBreakpoint e (if i.mLine ≥ aIndex then i.mLine - 1 else i.mLine)
        i.mCondition i.mEnabled) e
  { e with
    mLines := e.mLines.take aIndex.toNat ++ e.mLines.drop (aIndex.toNat + 1)
    mTextChanged := true
    mEvents := e.mEvents ++ [Event.ContentUpdate] }

/-! ## Range edits -/

/-- The source `TextEditor::DeleteRange`. -/
def DeleteRange (e : TextEditor) (aStart aEnd : Coordinates) : TextEditor :=
  if aEnd = aStart then e
  else
    let istart := GetCharacterIndex e aStart
    let iend := GetCharacterIndex e aEnd
    let e :=
      if aStart.mLine = aEnd.mLine then
        let line := lineAt e.mLines aStart.mLine
        let n := GetLineMaxColumn e aStart.mLine
        let line :=
          if aEnd.mColumn ≥ n then line.take istart.toNat
          else line.take istart.toNat ++ line.drop iend.toNat
        { e with mLines := e.mLines.set aStart.mLine.toNat line }
      else
        let firstLine := (lineAt e.mLines aStart.mLine).take istart.toNat
        let lastLine := (lineAt e.mLines aEnd.mLine).drop iend.toNat
        let e := { e with
          mLines := (e.mLines.set aStart.mLine.toNat firstLine).set aEnd.mLine.toNat lastLine }
        let e :=
          if aStart.mLine < aEnd.mLine then
            { e with mLines := e.mLines.set aStart.mLine.toNat (firstLine ++ lastLine) }
          else e
        if aStart.mLine < aEnd.mLine then RemoveLineRange e (aStart.mLine + 1) (aEnd.mLine + 1)
        else e
    { e with mTextChanged := true, mEvents := e.mEvents ++ [Event.ContentUpdate] }

/-- The leading-whitespace scan at the top of `InsertTextAt`
(`' '` counts 1, `'\t'` counts `mTabSize`, anything else stops the scan). -/
def InsertTextAt.indentStart (mTabSize : Nat) : Line → Int
  | [] => 0
  | g :: rest =>
    if g.mChar = 32 then 1 + InsertTextAt.indentStart mTabSize rest
    else if g.mChar = 9 then mTabSize + InsertTextAt.indentStart mTabSize rest
    else 0

/-- The inner loop `while (d-- > 0 && *aValue != '\0') line.insert(line.begin() + cindex++, ...)`.
Returns the line, the index after the inserted bytes and the unread text. -/
def InsertTextAt.insertChars : Nat → List Nat → Line → Int → Line × Int × List Nat
  | 0, aValue, line, cindex => (line, cindex, aValue)
  | _ + 1, [], line, cindex => (line, cindex, [])
  | d + 1, c :: rest, line, cindex =>
    if c = 0 then (line, cindex, c :: rest)
    else InsertTextAt.insertChars d rest
      (line.take cindex.toNat ++ { mChar := c } :: line.drop cindex.toNat) (cindex + 1)

/-- Move the snippet tags anchored on `line` by `delta` columns
(`mSnippetTagStart[i]` and `mSnippetTagEnd[i]` together). -/
def shiftSnippetTags (line delta : Int) :
    List Coordinates → List Coordinates → List Coordinates × List Coordinates
  | s :: ss, t :: ts =>
    let r := shiftSnippetTags line delta ss ts
    if s.mLine = line then
      ({ s with mColumn := s.mColumn + delta } :: r.1, { t with mColumn := t.mColumn + delta } :: r.2)
    else (s :: r.1, t :: r.2)
  | ss, ts => (ss, ts)

/-- The two loops that put indentation in front of a new line: `count` times insert
the byte `ch` at the line start and move the tags of that line by `delta`. -/
def InsertTextAt.addIndent (ch : Nat) (delta : Int) (lineNo : Int) : Nat → TextEditor → TextEditor
  | 0, e => e
  | count + 1, e =>
    let line := lineAt e.mLines lineNo
    let tags := shiftSnippetTags lineNo delta e.mSnippetTagStart e.mSnippetTagEnd
    InsertTextAt.addIndent ch delta lineNo count
      { e with
        mLines := e.mLines.set lineNo.toNat ({ mChar := ch } :: line)
        mSnippetTagStart := tags.1
        mSnippetTagEnd := tags.2 }

/-- The scan `while (*bracketSearch != '\0' && isspace(*bracketSearch) && *bracketSearch != '\n')`:
the first byte it stops at (`0` at the end of the text). -/
def InsertTextAt.bracketSearch : List Nat → Nat
  | [] => 0
  | c :: rest =>
    if c ≠ 0 ∧ isspace c ∧ c ≠ 10 then InsertTextAt.bracketSearch rest else c

/-- The line break of `InsertTextAt` at a `'\n'`: a new line after line `aWhere.mLine`
that receives the bytes from `cindex` on, when there are any. -/
def InsertTextAt.breakLine (e : TextEditor) (aWhere : Coordinates) (cindex : Int) : TextEditor :=
  if cindex < (lineAt e.mLines aWhere.mLine).length then
    let e := InsertLine e (aWhere.mLine + 1)
    let line := lineAt e.mLines aWhere.mLine
    let e := { e with
      mLines := e.mLines.set (aWhere.mLine + 1).toNat
        (line.drop cindex.toNat ++ lineAt e.mLines (aWhere.mLine + 1)) }
    { e with mLines := e.mLines.set aWhere.mLine.toNat (line.take cindex.toNat) }
  else InsertLine e (aWhere.mLine + 1)

/-- The `if (indent)` block of `InsertTextAt` after a line break, `rest` being the text
that follows the `'\n'` and `lineNo` the new line: returns the editor, the column
`actualAutoIndent`, the new `cindex` and the new `autoIndent`.  As in the source, the
division `actualAutoIndent / mTabSize` is made before `mInsertSpaces` is tested; it is
undefined in the source for `mTabSize = 0`, and the statements below about an insertion
with `indent` assume a tab size `≥ 1`. -/
def InsertTextAt.indentNewLine (e : TextEditor) (lineNo : Int) (rest : List Nat)
    (autoIndentStart autoIndent : Int) : TextEditor × Int × Int × Int :=
  let next := rest.headD 0
  let lineIsAlreadyIndent := isspace next && next ≠ 10 && next ≠ 13
  let autoIndent :=
    if InsertTextAt.bracketSearch rest = 125 then max 0 (autoIndent - e.mTabSize)
    else autoIndent
  let actualAutoIndent := if lineIsAlreadyIndent then autoIndentStart else autoIndent
  let tabCount := actualAutoIndent / e.mTabSize
  let spaceCount := actualAutoIndent - tabCount * e.mTabSize
  let tabCount := if e.mInsertSpaces then 0 else tabCount
  let spaceCount := if e.mInsertSpaces then actualAutoIndent else spaceCount
  let e1 := InsertTextAt.addIndent 32 1 lineNo spaceCount.toNat e
  let e2 := InsertTextAt.addIndent 9 e.mTabSize lineNo tabCount.toNat e1
  (e2, actualAutoIndent, tabCount + spaceCount, autoIndent)

/-- The main `while (*aValue != '\0')` loop of `InsertTextAt`.  The state is the editor,
the in/out position `aWhere`, `cindex`, `totalLines` and `autoIndent`. -/
def InsertTextAt.loop (indent : Bool) (autoIndentStart : Int) :
    Nat → List Nat → TextEditor → Coordinates → Int → Int → Int → TextEditor × Coordinates × Int
  | 0, _, e, aWhere, _, totalLines, _ => (e, aWhere, totalLines)
  | _ + 1, [], e, aWhere, _, totalLines, _ => (e, aWhere, totalLines)
  | fuel + 1, c :: rest, e, aWhere, cindex, totalLines, autoIndent =>
    if c = 0 then (e, aWhere, totalLines)
    else if c = 13 then
      InsertTextAt.loop indent autoIndentStart fuel rest e aWhere cindex totalLines autoIndent
    else if c = 10 then
      if indent then
        InsertTextAt.loop indent autoIndentStart fuel rest
          (InsertTextAt.indentNewLine (InsertTextAt.breakLine e aWhere cindex) (aWhere.mLine + 1)
            rest autoIndentStart autoIndent).1
          ⟨aWhere.mLine + 1,
            (InsertTextAt.indentNewLine (InsertTextAt.breakLine e aWhere cindex) (aWhere.mLine + 1)
              rest autoIndentStart autoIndent).2.1⟩
          (InsertTextAt.indentNewLine (InsertTextAt.breakLine e aWhere cindex) (aWhere.mLine + 1)
            rest autoIndentStart autoIndent).2.2.1
          (totalLines + 1)
          (InsertTextAt.indentNewLine (InsertTextAt.breakLine e aWhere cindex) (aWhere.mLine + 1)
            rest autoIndentStart autoIndent).2.2.2
      else
        InsertTextAt.loop indent autoIndentStart fuel rest (InsertTextAt.breakLine e aWhere cindex)
          ⟨aWhere.mLine + 1, 0⟩ 0 (totalLines + 1) autoIndent
    else
      let r := InsertTextAt.insertChars (UTF8CharLength c) (c :: rest)
        (lineAt e.mLines aWhere.mLine) cindex
      InsertTextAt.loop indent autoIndentStart fuel r.2.2
        { e with mLines := e.mLines.set aWhere.mLine.toNat r.1 }
        ⟨aWhere.mLine, aWhere.mColumn + (if c = 9 then (e.mTabSize : Int) else 1)⟩
        r.2.1 totalLines (if c = 123 then autoIndent + e.mTabSize else autoIndent)

/-- The source `TextEditor::InsertTextAt`: returns the editor, the final value of the
in/out argument `aWhere` and the number of lines created.  The header default of
`indent` is `false`. -/
def InsertTextAt (e : TextEditor) (aWhere : Coordinates) (aValue : List Nat) (indent : Bool) :
    TextEditor × Coordinates × Int :=
  let autoIndentStart : Int :=
    if indent then InsertTextAt.indentStart e.mTabSize (lineAt e.mLines aWhere.mLine) else 0
  let cindex := GetCharacterIndex e aWhere
  let r := InsertTextAt.loop indent autoIndentStart aValue.length aValue e aWhere cindex 0
    autoIndentStart
  ({ r.1 with mTextChanged := true, mEvents := r.1.mEvents ++ [Event.ContentUpdate] }, r.2.1, r.2.2)

/-! ## Undo log -/

/-- The `std::vector::resize` of the undo buffer. -/
def resizeUndoBuffer (buf : List UndoRecord) (n : Nat) : List UndoRecord :=
  buf.take n ++ List.replicate (n - buf.length) default

/-- The source `TextEditor::AddUndo`. -/
def AddUndo (e : TextEditor) (aValue : UndoRecord) : TextEditor :=
  let buf := resizeUndoBuffer e.mUndoBuffer (e.mUndoIndex + 1).toNat
  { e with
    mUndoBuffer := buf.set (buf.length - 1) aValue
    mUndoIndex := e.mUndoIndex + 1 }

/-- The source `TextEditor::SetCurrentLineIndicator`, as far as the modelled state goes:
the debugger's current line (1-based; a value `≤ 0` means that no debugging goes on). -/
def SetCurrentLineIndicator (e : TextEditor) (line : Int) : TextEditor :=
  { e with mDebugCurrentLine := line }

/-- The source `TextEditor::IsDebugging` (TextEditor.h): `mDebugCurrentLine > 0`. -/
def IsDebugging (e : TextEditor) : Bool :=
  decide (e.mDebugCurrentLine > 0)

/-- The source `TextEditor::IsReadOnly` (TextEditor.h): `mReadOnly || IsDebugging()`. -/
def IsReadOnly (e : TextEditor) : Bool :=
  e.mReadOnly || IsDebugging e

/-- The source `TextEditor::CanUndo`. -/
def CanUndo (e : TextEditor) : Bool :=
  !IsReadOnly e && decide (e.mUndoIndex > 0)

/-- The source `TextEditor::CanRedo`. -/
def CanRedo (e : TextEditor) : Bool :=
  !IsReadOnly e && decide (e.mUndoIndex < (e.mUndoBuffer.length : Int))

/-! ## Cursor and selection -/

/-- The source `TextEditor::EnsureCursorVisible`.  Outside of rendering it only requests
a scroll; within rendering it moves the host scroll position, which is not part of
the modelled state. -/
def EnsureCursorVisible (e : TextEditor) : TextEditor :=
  if !e.mWithinRender then { e with mScrollToCursor := true } else e

/-- The source `TextEditor::SetCursorPosition`. -/
def SetCursorPosition (e : TextEditor) (aPosition : Coordinates) : TextEditor :=
  if e.mState.mCursorPosition ≠ aPosition then
    EnsureCursorVisible { e with
      mState := { e.mState with mCursorPosition := aPosition }
      mCursorPositionChanged := true }
  else e

/-- The source `TextEditor::HasSelection`. -/
def HasSelection (e : TextEditor) : Bool :=
  e.mState.mSelectionEnd.gt e.mState.mSelectionStart

/-- First loop of `FindWordStart`: `while (cindex > 0 && isspace(line[cindex].mChar)) --cindex`. -/
def FindWordStart.skipSpaces (line : Line) : Nat → Nat
  | 0 => 0
  | n + 1 => if isspace (glyphAt line (n + 1)).mChar then FindWordStart.skipSpaces line n else n + 1

/-- Second loop of `FindWordStart`: `while (cindex > 0) { ... --cindex; }`. -/
def FindWordStart.loop (line : Line) (cstart : PaletteIndex) : Nat → Nat
  | 0 => 0
  | n + 1 =>
    let c := (glyphAt line (n + 1)).mChar
    if c &&& 0xC0 ≠ 0x80 then
      if c ≤ 32 ∧ isspace c then n + 2
      else if cstart ≠ (glyphAt line n).mColorIndex then n + 1
      else FindWordStart.loop line cstart n
    else FindWordStart.loop line cstart n

/-- The source `TextEditor::FindWordStart`. -/
def FindWordStart (e : TextEditor) (aFrom : Coordinates) : Coordinates :=
  if aFrom.mLine ≥ e.mLines.length then aFrom
  else
    let line := lineAt e.mLines aFrom.mLine
    let cindex := GetCharacterIndex e aFrom
    if cindex ≥ line.length then aFrom
    else
      let cindex := FindWordStart.skipSpaces line cindex.toNat
      let cstart := (glyphAt line cindex).mColorIndex
      let cindex := FindWordStart.loop line cstart cindex
      ⟨aFrom.mLine, GetCharacterColumn e aFrom.mLine cindex⟩

/-- The inner loop of `FindWordEnd`:
`while (cindex < (int)line.size() && isspace(line[cindex].mChar)) ++cindex`. -/
def FindWordEnd.skipSpaces (line : Line) : Nat → Nat → Nat
  | 0, cindex => cindex
  | fuel + 1, cindex =>
    if cindex < line.length ∧ isspace (glyphAt line cindex).mChar then
      FindWordEnd.skipSpaces line fuel (cindex + 1)
    else cindex

/-- The outer loop of `FindWordEnd`. -/
def FindWordEnd.loop (line : Line) (prevspace : Bool) (cstart : PaletteIndex) : Nat → Nat → Nat
  | 0, cindex => cindex
  | fuel + 1, cindex =>
    if cindex < line.length then
      let c := (glyphAt line cindex).mChar
      if cstart ≠ (glyphAt line cindex).mColorIndex then cindex
      else if prevspace ≠ isspace c then
        if isspace c then FindWordEnd.skipSpaces line line.length cindex else cindex
      else FindWordEnd.loop line prevspace cstart fuel (cindex + UTF8CharLength c)
    else cindex

/-- The source `TextEditor::FindWordEnd`. -/
def FindWordEnd (e : TextEditor) (aFrom : Coordinates) : Coordinates :=
  if aFrom.mLine ≥ e.mLines.length then aFrom
  else
    let line := lineAt e.mLines aFrom.mLine
    let cindex := GetCharacterIndex e aFrom
    if cindex ≥ line.length then aFrom
    else
      let prevspace := isspace (glyphAt line cindex.toNat).mChar
      let cstart := (glyphAt line cindex.toNat).mColorIndex
      let cindex := FindWordEnd.loop line prevspace cstart line.length cindex.toNat
      ⟨aFrom.mLine, GetCharacterColumn e aFrom.mLine cindex⟩

/-- The source `TextEditor::IsOnWordBoundary`. -/
def IsOnWordBoundary (e : TextEditor) (aAt : Coordinates) : Bool :=
  if aAt.mLine ≥ e.mLines.length ∨ aAt.mColumn = 0 then true
  else
    let line := lineAt e.mLines aAt.mLine
    let cindex := GetCharacterIndex e aAt
    if cindex ≥ line.length then true
    else if e.mColorizerEnabled then
      (glyphAt line cindex.toNat).mColorIndex ≠ (glyphAt line (cindex - 1).toNat).mColorIndex
    else
      isspace (glyphAt line cindex.toNat).mChar ≠ isspace (glyphAt line (cindex - 1).toNat).mChar

/-- The source `TextEditor::SetSelection`.  The header default of `aMode` is `Normal`. -/
def SetSelection (e : TextEditor) (aStart aEnd : Coordinates) (aMode : SelectionMode) :
    TextEditor :=
  let oldSelStart := e.mState.mSelectionStart
  let oldSelEnd := e.mState.mSelectionEnd
  let s := SanitizeCoordinates e aStart
  let t := SanitizeCoordinates e aEnd
  let st : EditorState :=
    if s.gt t then { e.mState with mSelectionStart := t, mSelectionEnd := s }
    else { e.mState with mSelectionStart := s, mSelectionEnd := t }
  let e := { e with mState := st }
  let e :=
    match aMode with
    | SelectionMode.Normal => e
    | SelectionMode.Word =>
      let e := { e with
        mState := { e.mState with mSelectionStart := FindWordStart e e.mState.mSelectionStart } }
      if !IsOnWordBoundary e e.mState.mSelectionEnd then
        { e with
          mState := { e.mState with
            mSelectionEnd := FindWordEnd e (FindWordStart e e.mState.mSelectionEnd) } }
      else e
    | SelectionMode.Line =>
      let lineNo := e.mState.mSelectionEnd.mLine
      { e with
        mState := { e.mState with
          mSelectionStart := ⟨e.mState.mSelectionStart.mLine, 0⟩
          mSelectionEnd := ⟨lineNo, GetLineMaxColumn e lineNo⟩ } }
  let e :=
    if e.mState.mSelectionStart ≠ oldSelStart ∨ e.mState.mSelectionEnd ≠ oldSelEnd then
      { e with mCursorPositionChanged := true }
    else e
  let lineSum := ((List.range e.mState.mCursorPosition.mLine.toNat).map
    (fun ln => GetLineCharacterCount e ln + 1)).sum
  { e with mReplaceIndex := lineSum + e.mState.mCursorPosition.mColumn }

/-- The source `TextEditor::InsertText(const char*, bool)`. -/
def InsertText (e : TextEditor) (aValue : List Nat) (indent : Bool) : TextEditor :=
  let pos := GetActualCursorCoordinates e
  let start := if e.mState.mSelectionStart.lt pos then e.mState.mSelectionStart else pos
  let totalLines := pos.mLine - start.mLine
  let r := InsertTextAt e pos aValue indent
  let totalLines := totalLines + r.2.2
  let e := SetSelection r.1 r.2.1 r.2.1 SelectionMode.Normal
  let e := SetCursorPosition e r.2.1
  Colorize e (start.mLine - 1) (totalLines + 2)

/-- The source `TextEditor::DeleteSelection`. -/
def DeleteSelection (e : TextEditor) : TextEditor :=
  if e.mState.mSelectionEnd = e.mState.mSelectionStart then e
  else
    let e := DeleteRange e e.mState.mSelectionStart e.mState.mSelectionEnd
    let e := SetSelection e e.mState.mSelectionStart e.mState.mSelectionStart SelectionMode.Normal
    let e := SetCursorPosition e e.mState.mSelectionStart
    Colorize e e.mState.mSelectionStart.mLine 1

/-- The source `TextEditor::Advance`, returning the advanced coordinates. -/
def Advance (e : TextEditor) (aCoordinates : Coordinates) : Coordinates :=
  if aCoordinates.mLine < e.mLines.length then
    let line := lineAt e.mLines aCoordinates.mLine
    let cindex := GetCharacterIndex e aCoordinates
    if cindex + 1 < line.length then
      let delta := UTF8CharLength (glyphAt line cindex.toNat).mChar
      let cindex := min (cindex + delta) ((line.length : Int) - 1)
      ⟨aCoordinates.mLine, GetCharacterColumn e aCoordinates.mLine cindex⟩
    else
      ⟨aCoordinates.mLine + 1, GetCharacterColumn e (aCoordinates.mLine + 1) 0⟩
  else aCoordinates

/-! ## Clipboard -/

/-- The bytes of a `std::string` seen through `c_str()`: everything before the first `0`. -/
def cstr (s : List Nat) : List Nat :=
  s.takeWhile (fun c => c ≠ 0)

/-- The source `TextEditor::Copy`. -/
def Copy (e : TextEditor) : TextEditor :=
  if HasSelection e then { e with mClipboard := some (cstr (GetSelectedText e)) }
  else if !e.mLines.isEmpty then
    let line := lineAt e.mLines (GetActualCursorCoordinates e).mLine
    { e with mClipboard := some (cstr (line.map (fun g => g.mChar))) }
  else e

/-! ## Edit commands -/

/-- The loop `while (d-- > 0 && cindex < (int)line.size()) line.erase(line.begin() + cindex)`
of `Delete` and of the overwrite branch of `EnterCharacter`; also returns the erased bytes. -/
def eraseChars (cindex : Nat) : Nat → Line → List Nat → Line × List Nat
  | 0, line, removed => (line, removed)
  | d + 1, line, removed =>
    if cindex < line.length then
      eraseChars cindex d (line.eraseIdx cindex) (removed ++ [(glyphAt line cindex).mChar])
    else (line, removed)

/-- The source `TextEditor::Delete`. -/
def Delete (e : TextEditor) : TextEditor :=
  if e.mLines.isEmpty then e
  else
    let mBefore := e.mState
    if HasSelection e then
      let u : UndoRecord := {
        mBefore := mBefore
        mRemoved := GetSelectedText e
        mRemovedStart := e.mState.mSelectionStart
        mRemovedEnd := e.mState.mSelectionEnd }
      let e := DeleteSelection e
      AddUndo e { u with mAfter := e.mState }
    else
      let pos := GetActualCursorCoordinates e
      let e := SetCursorPosition e pos
      let line := lineAt e.mLines pos.mLine
      if pos.mColumn = GetLineMaxColumn e pos.mLine then
        if pos.mLine = (e.mLines.length : Int) - 1 then e
        else
          let u : UndoRecord := {
            mBefore := mBefore
            mRemoved := [10]
            mRemovedStart := GetActualCursorCoordinates e
            mRemovedEnd := Advance e (GetActualCursorCoordinates e) }
          let nextLine := lineAt e.mLines (pos.mLine + 1)
          let e := { e with mLines := e.mLines.set pos.mLine.toNat (line ++ nextLine) }
          let e := RemoveLine e (pos.mLine + 1)
          let e := { e with mTextChanged := true, mEvents := e.mEvents ++ [Event.ContentUpdate] }
          let e := Colorize e pos.mLine 1
          AddUndo e { u with mAfter := e.mState }
      else
        let cindex := GetCharacterIndex e pos
        let removedStart := GetActualCursorCoordinates e
        let removedEnd : Coordinates := ⟨removedStart.mLine, removedStart.mColumn + 1⟩
        let u : UndoRecord := {
          mBefore := mBefore
          mRemovedStart := removedStart
          mRemovedEnd := removedEnd
          mRemoved := GetText e removedStart removedEnd }
        let d := UTF8CharLength (glyphAt line cindex.toNat).mChar
        let e := { e with
          mLines := e.mLines.set pos.mLine.toNat (eraseChars cindex.toNat d line []).1 }
        let e := { e with mTextChanged := true, mEvents := e.mEvents ++ [Event.ContentUpdate] }
        let e := Colorize e pos.mLine 1
        AddUndo e { u with mAfter := e.mState }

/-- The loop `while (cindex > 0 && IsUTFSequence(line[cindex].mChar)) --cindex` of `Backspace`. -/
def Backspace.leadIndex (line : Line) : Nat → Nat
  | 0 => 0
  | n + 1 => if IsUTFSequence (glyphAt line (n + 1)).mChar then Backspace.leadIndex line n else n + 1

/-- The loop of `Backspace` that computes `actualLoc`: one pass over the whole line,
`actualLoc -= GetTabSize() - 1` for every tab. -/
def Backspace.actualLoc (mTabSize : Nat) (line : Line) (column : Int) : Int :=
  line.foldl (fun loc g => if g.mChar = 9 then loc - ((mTabSize : Int) - 1) else loc) column

/-- The erase loop of `Backspace`: `while (cindex < line.size() && cend-- > cindex)`.
The state is the line, the removed text, `mRemovedStart.mColumn` and the cursor column. -/
def Backspace.eraseLoop (mTabSize : Nat) (cindex : Nat) :
    Nat → Int → Line → List Nat → Int → Int → Line × List Nat × Int × Int
  | 0, _, line, removed, startCol, curCol => (line, removed, startCol, curCol)
  | fuel + 1, cend, line, removed, startCol, curCol =>
    if cindex < line.length ∧ cend > (cindex : Int) then
      let chVal := (glyphAt line cindex).mChar
      let w : Int := if chVal = 9 then mTabSize else 1
      Backspace.eraseLoop mTabSize cindex fuel (cend - 1) (line.eraseIdx cindex)
        (removed ++ [chVal]) (startCol - w) (curCol - w)
    else (line, removed, startCol, curCol)

/-- The end of `Backspace`: `u.mAfter = mState; AddUndo(u);` and the autocomplete request. -/
def Backspace.finish (e : TextEditor) (u : UndoRecord) : TextEditor :=
  let e := AddUndo e { u with mAfter := e.mState }
  if e.mActiveAutocomplete && e.mACOpened then
    { e with m_requestAutocomplete := true, m_readyForAutocomplete := false }
  else e

/-- The branch of `Backspace` at column 0 of a line other than the first: the line is
appended to the previous one and removed.  `pos` is the sanitized cursor, which is also
`mState.mCursorPosition`; returns the editor after `Colorize` and the undo record. -/
def Backspace.joinLine (e : TextEditor) (pos : Coordinates) (mBefore : EditorState) :
    TextEditor × UndoRecord :=
  let cur := e.mState.mCursorPosition
  let removedStart : Coordinates := ⟨pos.mLine - 1, GetLineMaxColumn e (pos.mLine - 1)⟩
  let u : UndoRecord := {
    mBefore := mBefore
    mRemoved := [10]
    mRemovedStart := removedStart
    mRemovedEnd := Advance e removedStart }
  let line := lineAt e.mLines cur.mLine
  let prevLine := lineAt e.mLines (cur.mLine - 1)
  let prevSize := GetLineMaxColumn e (cur.mLine - 1)
  let e := { e with mLines := e.mLines.set (cur.mLine - 1).toNat (prevLine ++ line) }
  let etmp := e.mErrorMarkers.foldl
    (fun etmp i => insertMarker (if i.1 - 1 = cur.mLine then i.1 - 1 else i.1, i.2) etmp) []
  let e := { e with mErrorMarkers := etmp }
  let e := RemoveLine e cur.mLine
  let e := { e with
    mState := { e.mState with mCursorPosition := ⟨cur.mLine - 1, prevSize⟩ } }
  let e := { e with mTextChanged := true, mEvents := e.mEvents ++ [Event.ContentUpdate] }
  let e := EnsureCursorVisible e
  (Colorize e e.mState.mCursorPosition.mLine 1, u)

/-- The call of `Delete()` that `Backspace` makes between a matching pair of brackets
when brace completion is on (`actualLoc` is the column less the extra width of the
line's tabs). -/
def Backspace.deletePair (e : TextEditor) (line : Line) (pos : Coordinates) : TextEditor :=
  let actualLoc := Backspace.actualLoc e.mTabSize line pos.mColumn
  if e.mCompleteBraces ∧ actualLoc > 0 ∧ actualLoc < line.length then
    let a := (glyphAt line (actualLoc - 1).toNat).mChar
    let b := (glyphAt line actualLoc.toNat).mChar
    if (a = 40 ∧ b = 41) ∨ (a = 123 ∧ b = 125) ∨ (a = 91 ∧ b = 93) then Delete e else e
  else e

/-- The branch of `Backspace` inside a line: the character before the cursor is erased.
`pos` is the sanitized cursor; returns the editor after `Colorize` and the undo record. -/
def Backspace.eraseBefore (e : TextEditor) (pos : Coordinates) (mBefore : EditorState) :
    TextEditor × UndoRecord :=
  let cur := e.mState.mCursorPosition
  let line := lineAt e.mLines cur.mLine
  let cindex0 := GetCharacterIndex e pos - 1
  let cend := cindex0 + 1
  let cindex := Backspace.leadIndex line cindex0.toNat
  let e := Backspace.deletePair e line pos
  let removedEnd := GetActualCursorCoordinates e
  let r := Backspace.eraseLoop e.mTabSize cindex (lineAt e.mLines cur.mLine).length cend
    (lineAt e.mLines cur.mLine) [] removedEnd.mColumn e.mState.mCursorPosition.mColumn
  let u : UndoRecord := {
    mBefore := mBefore
    mRemoved := r.2.1
    mRemovedStart := ⟨removedEnd.mLine, r.2.2.1⟩
    mRemovedEnd := removedEnd }
  let e := { e with
    mLines := e.mLines.set cur.mLine.toNat r.1
    mState := { e.mState with
      mCursorPosition := ⟨e.mState.mCursorPosition.mLine, r.2.2.2⟩ } }
  let e := { e with mTextChanged := true, mEvents := e.mEvents ++ [Event.ContentUpdate] }
  let e := EnsureCursorVisible e
  (Colorize e e.mState.mCursorPosition.mLine 1, u)

/-- The source `TextEditor::Backspace`. -/
def Backspace (e : TextEditor) : TextEditor :=
  if e.mLines.isEmpty then e
  else if HasSelection e then
    Backspace.finish (DeleteSelection e)
      { mBefore := e.mState
        mRemoved := GetSelectedText e
        mRemovedStart := e.mState.mSelectionStart
        mRemovedEnd := e.mState.mSelectionEnd }
  else
    let pos := GetActualCursorCoordinates e
    let e1 := SetCursorPosition e pos
    if e1.mState.mCursorPosition.mColumn = 0 then
      if e1.mState.mCursorPosition.mLine = 0 then e1
      else
        Backspace.finish (Backspace.joinLine e1 pos e.mState).1 (Backspace.joinLine e1 pos e.mState).2
    else
      Backspace.finish (Backspace.eraseBefore e1 pos e.mState).1
        (Backspace.eraseBefore e1 pos e.mState).2

/-- The source `TextEditor::Cut`. -/
def Cut (e : TextEditor) : TextEditor :=
  if IsReadOnly e then Copy e
  else if HasSelection e then
    let u : UndoRecord := {
      mBefore := e.mState
      mRemoved := GetSelectedText e
      mRemovedStart := e.mState.mSelectionStart
      mRemovedEnd := e.mState.mSelectionEnd }
    let e := Copy e
    let e := DeleteSelection e
    AddUndo e { u with mAfter := e.mState }
  else e

/-- The source `TextEditor::Paste`; `ImGui::GetClipboardText()` is `mClipboard`. -/
def Paste (e : TextEditor) : TextEditor :=
  if IsReadOnly e then e
  else
    match e.mClipboard with
    | none => e
    | some clip =>
      let clipText := cstr clip
      if clipText.length > 0 then
        let u : UndoRecord := { mBefore := e.mState }
        let r : TextEditor × UndoRecord :=
          if HasSelection e then
            (DeleteSelection e,
              { u with
                mRemoved := GetSelectedText e
                mRemovedStart := e.mState.mSelectionStart
                mRemovedEnd := e.mState.mSelectionEnd })
          else (e, u)
        let e := r.1
        let u := { r.2 with mAdded := clipText, mAddedStart := GetActualCursorCoordinates e }
        let e := InsertText e clipText e.mAutoindentOnPaste
        AddUndo e { u with mAddedEnd := GetActualCursorCoordinates e, mAfter := e.mState }
      else e

/-- The source `ImTextCharToUtf8` with a 7-byte buffer: the bytes written
(the casts to `char` keep the low 8 bits); the empty list is the return value `0`. -/
def ImTextCharToUtf8 (c : Nat) : List Nat :=
  if c < 0x80 then [c % 256]
  else if c < 0x800 then [(0xc0 + (c >>> 6)) % 256, (0x80 + (c &&& 0x3f)) % 256]
  else if c ≥ 0xdc00 ∧ c < 0xe000 then []
  else if c ≥ 0xd800 ∧ c < 0xdc00 then
    [(0xf0 + (c >>> 18)) % 256, (0x80 + ((c >>> 12) &&& 0x3f)) % 256,
      (0x80 + ((c >>> 6) &&& 0x3f)) % 256, (0x80 + (c &&& 0x3f)) % 256]
  else
    [(0xe0 + (c >>> 12)) % 256, (0x80 + ((c >>> 6) &&& 0x3f)) % 256, (0x80 + (c &&& 0x3f)) % 256]

/-- The shift-tab loop on one line of a block selection:
`for (int j = 0; j < mTabSize && !line.empty() && line.front().mChar == ' '; j++)`. -/
def EnterCharacter.stripSpaces : Nat → Line → Line × Bool
  | 0, line => (line, false)
  | j + 1, line =>
    match line with
    | [] => ([], false)
    | g :: rest => if g.mChar = 32 then ((EnterCharacter.stripSpaces j rest).1, true) else (g :: rest, false)

/-- The body of the block (un)indent loop of `EnterCharacter` for one line:
the new line and whether it sets `modified`. -/
def EnterCharacter.indentLine (mTabSize : Nat) (mInsertSpaces aShift : Bool) (line : Line) :
    Line × Bool :=
  if aShift then
    match line with
    | [] => ([], false)
    | g :: rest =>
      if g.mChar = 9 then (rest, true) else EnterCharacter.stripSpaces mTabSize (g :: rest)
  else if mInsertSpaces then
    (List.replicate mTabSize { mChar := 32, mColorIndex := PaletteIndex.Background } ++ line, true)
  else ({ mChar := 9, mColorIndex := PaletteIndex.Background } :: line, true)

/-- The block (un)indent loop `for (int i = start.mLine; i <= end.mLine; i++)`:
walks the document with the current line number. -/
def EnterCharacter.indentLines (mTabSize : Nat) (mInsertSpaces aShift : Bool) (lo hi : Int) :
    Int → Lines → Lines × Bool
  | _, [] => ([], false)
  | i, line :: rest =>
    let r := EnterCharacter.indentLines mTabSize mInsertSpaces aShift lo hi (i + 1) rest
    if lo ≤ i ∧ i ≤ hi then
      let l := EnterCharacter.indentLine mTabSize mInsertSpaces aShift line
      (l.1 :: r.1, l.2 || r.2)
    else (line :: r.1, r.2)

/-- The leading blanks copied to a new line by `EnterCharacter('\n')`:
`for (it = 0; it < line.size() && isascii(line[it].mChar) && isblank(line[it].mChar); ++it)`. -/
def EnterCharacter.leadingBlanks : Line → Line
  | [] => []
  | g :: rest =>
    if isascii g.mChar && isblank g.mChar then g :: EnterCharacter.leadingBlanks rest else []

/-- The insertion loop `for (auto p = buf; *p != '\0'; p++, ++cindex)` of `EnterCharacter`. -/
def EnterCharacter.insertBuf : List Nat → Line → Nat → Line × Nat
  | [], line, cindex => (line, cindex)
  | c :: rest, line, cindex =>
    if c = 0 then (line, cindex)
    else EnterCharacter.insertBuf rest (line.take cindex ++ { mChar := c } :: line.drop cindex)
      (cindex + 1)

/-- The bounds of the block that a tab typed over a multi-line selection works on:
`start` (column 0 of the first line), `end` (the end of the last line) and `originalEnd`. -/
def EnterCharacter.blockBounds (e : TextEditor) : Coordinates × Coordinates × Coordinates :=
  let start0 := e.mState.mSelectionStart
  let end0 := e.mState.mSelectionEnd
  let originalEnd := end0
  let start1 := if start0.gt end0 then end0 else start0
  let end1 := if start0.gt end0 then start0 else end0
  let start : Coordinates := ⟨start1.mLine, 0⟩
  let endLine : Int := if end1.mColumn = 0 ∧ end1.mLine > 0 then end1.mLine - 1 else end1.mLine
  let endLine : Int :=
    if endLine ≥ e.mLines.length then
      (if e.mLines.isEmpty then 0 else (e.mLines.length : Int) - 1)
    else endLine
  (start, ⟨endLine, GetLineMaxColumn e endLine⟩, originalEnd)

/-- The `if (modified)` block of the block indent: `e0` is the editor before the lines
were changed (its text is the removed text), `e` the editor after. -/
def EnterCharacter.blockCommit (e0 e : TextEditor) (start end2 originalEnd : Coordinates) :
    TextEditor :=
  let u : UndoRecord := {
    mBefore := e0.mState
    mRemovedStart := start
    mRemovedEnd := end2
    mRemoved := GetText e0 start end2 }
  let start : Coordinates := ⟨start.mLine, GetCharacterColumn e start.mLine 0⟩
  let end3 : Coordinates :=
    if originalEnd.mColumn ≠ 0 then ⟨end2.mLine, GetLineMaxColumn e end2.mLine⟩
    else ⟨originalEnd.mLine, 0⟩
  let rangeEnd : Coordinates :=
    if originalEnd.mColumn ≠ 0 then end3
    else ⟨end3.mLine - 1, GetLineMaxColumn e (end3.mLine - 1)⟩
  let u := { u with
    mAdded := GetText e start rangeEnd
    mAddedStart := start
    mAddedEnd := rangeEnd
    mAfter := e.mState }
  let e := { e with mState := { e.mState with mSelectionStart := start, mSelectionEnd := end3 } }
  let e := AddUndo e u
  let e := { e with mTextChanged := true, mEvents := e.mEvents ++ [Event.ContentUpdate] }
  EnsureCursorVisible e

/-- The branch of `EnterCharacter` for a tab typed over a selection that spans several
lines: block indent (or unindent with shift), up to its `return`. -/
def EnterCharacter.blockIndent (e : TextEditor) (aShift : Bool) : TextEditor :=
  let b := EnterCharacter.blockBounds e
  let r := EnterCharacter.indentLines e.mTabSize e.mInsertSpaces aShift b.1.mLine b.2.1.mLine
    0 e.mLines
  if r.2 then EnterCharacter.blockCommit e { e with mLines := r.1 } b.1 b.2.1 b.2.2
  else { e with mLines := r.1 }

/-- The start of `EnterCharacter` outside the block-indent branch: `u.mBefore = mState`,
and a selection, if there is one, is recorded as removed and deleted. -/
def EnterCharacter.deleteSelected (e : TextEditor) : TextEditor × UndoRecord :=
  if HasSelection e then
    (DeleteSelection e,
      { mBefore := e.mState
        mRemoved := GetSelectedText e
        mRemovedStart := e.mState.mSelectionStart
        mRemovedEnd := e.mState.mSelectionEnd })
  else (e, { mBefore := e.mState })

/-- The branch `aChar == '\n'` of `EnterCharacter`: split the line at the cursor `coord`,
copy the leading blanks when smart indentation is on, and move the cursor. -/
def EnterCharacter.newLine (e : TextEditor) (coord : Coordinates) : TextEditor :=
  let e := InsertLine e (coord.mLine + 1)
  let line := lineAt e.mLines coord.mLine
  let newLine := lineAt e.mLines (coord.mLine + 1)
  let newLine :=
    if e.mLanguageDefinition.mAutoIndentation && e.mSmartIndent then
      newLine ++ EnterCharacter.leadingBlanks line
    else newLine
  let whitespaceSize := newLine.length
  let cindex := GetCharacterIndex e coord
  let e := { e with
    mLines := (e.mLines.set (coord.mLine + 1).toNat (newLine ++ line.drop cindex.toNat)).set
      coord.mLine.toNat (line.take cindex.toNat) }
  SetCursorPosition e ⟨coord.mLine + 1, GetCharacterColumn e (coord.mLine + 1) whitespaceSize⟩

/-- The branch of `EnterCharacter` that puts the bytes `buf` of one character at the
cursor `coord`, after erasing the character under the cursor in overwrite mode. -/
def EnterCharacter.typeChar (e : TextEditor) (coord : Coordinates) (u : UndoRecord)
    (buf : List Nat) : TextEditor × UndoRecord :=
  let line := lineAt e.mLines coord.mLine
  let cindex := GetCharacterIndex e coord
  let r : Line × UndoRecord :=
    if e.mOverwrite ∧ cindex < line.length then
      let d := UTF8CharLength (glyphAt line cindex.toNat).mChar
      let er := eraseChars cindex.toNat d line u.mRemoved
      (er.1,
        { u with
          mRemovedStart := e.mState.mCursorPosition
          mRemovedEnd := ⟨coord.mLine, GetCharacterColumn e coord.mLine (cindex + d)⟩
          mRemoved := er.2 })
    else (line, u)
  let ins := EnterCharacter.insertBuf buf r.1 cindex.toNat
  let e := { e with mLines := e.mLines.set coord.mLine.toNat ins.1 }
  (SetCursorPosition e ⟨coord.mLine, GetCharacterColumn e coord.mLine ins.2⟩,
    { r.2 with mAdded := cstr buf })

/-- The part of `EnterCharacter` between the edit and the brace completion: autocomplete
request, content-changed notification, completion of the undo record, `AddUndo`,
`Colorize`, `EnsureCursorVisible`. -/
def EnterCharacter.record (e : TextEditor) (coord : Coordinates) (u : UndoRecord)
    (aChar : Nat) : TextEditor :=
  let e :=
    if e.mActiveAutocomplete ∧ aChar ≤ 127 ∧ (isalpha aChar ∨ aChar = 95) then
      { e with m_requestAutocomplete := true, m_readyForAutocomplete := false }
    else e
  let e := { e with mTextChanged := true, mEvents := e.mEvents ++ [Event.ContentUpdate] }
  let u := { u with mAddedEnd := GetActualCursorCoordinates e, mAfter := e.mState }
  let e := AddUndo e u
  let e := Colorize e (coord.mLine - 1) 3
  EnsureCursorVisible e

/-- The last statement of the brace completion: `mState.mCursorPosition.mColumn--`. -/
def EnterCharacter.stepBack (e : TextEditor) : TextEditor :=
  { e with
    mState := { e.mState with
      mCursorPosition := ⟨e.mState.mCursorPosition.mLine, e.mState.mCursorPosition.mColumn - 1⟩ } }

/-- The source `TextEditor::EnterCharacter`.  The recursive calls of the brace completion
spend one unit of `depth`; the characters they enter complete no brace, so depth 2 is
enough for every call. -/
def EnterCharacter.go : Nat → TextEditor → Nat → Bool → TextEditor
  | 0, e, _, _ => e
  | depth + 1, e, aChar, aShift =>
    if HasSelection e ∧ aChar = 9 ∧ e.mState.mSelectionStart.mLine ≠ e.mState.mSelectionEnd.mLine then
      EnterCharacter.blockIndent e aShift
    else
      let r := EnterCharacter.deleteSelected e
      let coord := GetActualCursorCoordinates r.1
      let u := { r.2 with mAddedStart := coord }
      let e := if r.1.mLines.isEmpty then { r.1 with mLines := [[]] } else r.1
      let complete (e : TextEditor) : TextEditor :=
        if e.mCompleteBraces then
          let e :=
            if aChar = 123 then
              EnterCharacter.go depth (EnterCharacter.go depth e 10 false) 125 false
            else if aChar = 40 then EnterCharacter.go depth e 41 false
            else if aChar = 91 then EnterCharacter.go depth e 93 false
            else e
          if aChar = 123 ∨ aChar = 40 ∨ aChar = 91 then EnterCharacter.stepBack e else e
        else e
      if aChar = 10 then
        complete (EnterCharacter.record (EnterCharacter.newLine e coord) coord
          { u with mAdded := [10] } aChar)
      else
        let buf := ImTextCharToUtf8 aChar
        if buf.length > 0 then
          let buf :=
            if e.mInsertSpaces ∧ buf = [9] then List.replicate e.mTabSize 32 else buf
          let r := EnterCharacter.typeChar e coord u buf
          complete (EnterCharacter.record r.1 coord r.2 aChar)
        else e

/-- The source `TextEditor::EnterCharacter`. -/
def EnterCharacter (e : TextEditor) (aChar : Nat) (aShift : Bool) : TextEditor :=
  EnterCharacter.go 2 e aChar aShift

/-! ## Undo and redo -/

/-- The source `TextEditor::UndoRecord::Undo`. -/
def UndoRecord.Undo (u : UndoRecord) (aEditor : TextEditor) : TextEditor :=
  let e := aEditor
  let e :=
    if !u.mAdded.isEmpty then
      Colorize (DeleteRange e u.mAddedStart u.mAddedEnd) (u.mAddedStart.mLine - 1)
        (u.mAddedEnd.mLine - u.mAddedStart.mLine + 2)
    else e
  let e :=
    if !u.mRemoved.isEmpty then
      Colorize (InsertTextAt e u.mRemovedStart (cstr u.mRemoved) false).1 (u.mRemovedStart.mLine - 1)
        (u.mRemovedEnd.mLine - u.mRemovedStart.mLine + 2)
    else e
  EnsureCursorVisible { e with mState := u.mBefore }

/-- The source `TextEditor::UndoRecord::Redo`. -/
def UndoRecord.Redo (u : UndoRecord) (aEditor : TextEditor) : TextEditor :=
  let e := aEditor
  let e :=
    if !u.mRemoved.isEmpty then
      Colorize (DeleteRange e u.mRemovedStart u.mRemovedEnd) (u.mRemovedStart.mLine - 1)
        (u.mRemovedEnd.mLine - u.mRemovedStart.mLine + 1)
    else e
  let e :=
    if !u.mAdded.isEmpty then
      Colorize (InsertTextAt e u.mAddedStart (cstr u.mAdded) false).1 (u.mAddedStart.mLine - 1)
        (u.mAddedEnd.mLine - u.mAddedStart.mLine + 1)
    else e
  EnsureCursorVisible { e with mState := u.mAfter }

/-- The source `TextEditor::Undo(int aSteps)`: `while (CanUndo() && aSteps-- > 0)`. -/
def Undo.loop : Nat → TextEditor → TextEditor
  | 0, e => e
  | aSteps + 1, e =>
    if CanUndo e then
      let e := { e with mUndoIndex := e.mUndoIndex - 1 }
      Undo.loop aSteps ((e.mUndoBuffer.getD e.mUndoIndex.toNat default).Undo e)
    else e

/-- The source `TextEditor::Undo`.  The header default of `aSteps` is 1. -/
def Undo (e : TextEditor) (aSteps : Int) : TextEditor :=
  Undo.loop aSteps.toNat e

/-- The source `TextEditor::Redo(int aSteps)`: `while (CanRedo() && aSteps-- > 0)`. -/
def Redo.loop : Nat → TextEditor → TextEditor
  | 0, e => e
  | aSteps + 1, e =>
    if CanRedo e then
      let u := e.mUndoBuffer.getD e.mUndoIndex.toNat default
      let e := { e with mUndoIndex := e.mUndoIndex + 1 }
      Redo.loop aSteps (u.Redo e)
    else e

/-- The source `TextEditor::Redo`.  The header default of `aSteps` is 1. -/
def Redo (e : TextEditor) (aSteps : Int) : TextEditor :=
  Redo.loop aSteps.toNat e

/-! ## Colorizer -/

/-- The comparison `a == b.mChar` of a `char` of a language-definition string with a glyph
byte (`uint8_t`), and `c == mPreprocChar` alike: both sides are promoted to `int`, so a
`char` holding a byte above `0x7F` (negative, `char` being signed on the supported
platforms) equals no glyph byte. -/
def sameChar (a : Nat) (c : Nat) : Bool :=
  decide (a < 128) && a == c

/-- The source `equals` template with the predicate `a == b.mChar`: the two ranges have
the same length and agree element by element. -/
def equals : List Nat → Line → Bool
  | [], [] => true
  | a :: s, g :: t => sameChar a g.mChar && equals s t
  | _, _ => false

/-- An assignment to a member of `line[i]`; outside the line nothing is stored. -/
def modifyGlyph (line : Line) (i : Nat) (f : Glyph → Glyph) : Line :=
  line.set i (f (glyphAt line i))

/-- The local variables of the comment scan of `ColorizeInternal`.  The sentinel for
"no comment open" is `commentStartLine = endLine`, `commentStartIndex = 0`. -/
structure ColorizeInternal.ScanState where
  commentStartLine : Nat
  commentStartIndex : Nat := 0
  withinString : Bool := false
  withinSingleLineComment : Bool := false
  withinPreproc : Bool := false
  firstChar : Bool := true
  concatenate : Bool := false
  currentLine : Nat := 0
  currentIndex : Nat := 0
  deriving DecidableEq, Repr

/-- The expression `commentStartLine < currentLine || (commentStartLine == currentLine &&
commentStartIndex <= currentIndex)` of the comment scan. -/
def ColorizeInternal.inComment (s : ColorizeInternal.ScanState) : Bool :=
  decide (s.commentStartLine < s.currentLine)
    || (s.commentStartLine == s.currentLine && decide (s.commentStartIndex ≤ s.currentIndex))

/-- Top of the scan loop: at index 0 of a line that does not continue the previous one
the per-line states are reset; then `concatenate = false`. -/
def ColorizeInternal.lineStart (s : ColorizeInternal.ScanState) : ColorizeInternal.ScanState :=
  let s := if s.currentIndex = 0 && !s.concatenate then
      { s with withinSingleLineComment := false, withinPreproc := false, firstChar := true }
    else s
  { s with concatenate := false }

/-- The two tests made on the current byte `c` before the string test: `firstChar` is
cleared by a byte that is neither the preprocessor character nor a space, and
`concatenate` is set on the last glyph of a line that ends with a backslash. -/
def ColorizeInternal.lookAt (lang : LanguageDefinition) (line : Line) (c : Nat)
    (s : ColorizeInternal.ScanState) : ColorizeInternal.ScanState :=
  let s := if !sameChar lang.mPreprocChar c && !isspace c then { s with firstChar := false } else s
  if s.currentIndex + 1 = line.length && (glyphAt line (line.length - 1)).mChar = 92 then
    { s with concatenate := true }
  else s

/-- The branch `if (withinString)` of the comment scan. -/
def ColorizeInternal.inString (line : Line) (c : Nat) (s : ColorizeInternal.ScanState) :
    Line × ColorizeInternal.ScanState :=
  let inC := ColorizeInternal.inComment s
  let line := modifyGlyph line s.currentIndex (fun g => { g with mMultiLineComment := inC })
  if c = 34 then
    if s.currentIndex + 1 < line.length ∧ (glyphAt line (s.currentIndex + 1)).mChar = 34 then
      let s := { s with currentIndex := s.currentIndex + 1 }
      (if s.currentIndex < line.length then
          modifyGlyph line s.currentIndex (fun g => { g with mMultiLineComment := inC })
        else line, s)
    else (line, { s with withinString := false })
  else if c = 92 then
    let s := { s with currentIndex := s.currentIndex + 1 }
    (if s.currentIndex < line.length then
        modifyGlyph line s.currentIndex (fun g => { g with mMultiLineComment := inC })
      else line, s)
  else (line, s)

/-- The delimiter test `currentIndex + d.size() <= line.size() && equals(d.begin(),
d.end(), from, from + d.size(), pred)` of the comment scan, with `from` at index `i`. -/
def ColorizeInternal.startsAt (d : List Nat) (line : Line) (i : Nat) : Bool :=
  decide (i + d.length ≤ line.length) && equals d ((line.drop i).take d.length)

/-- The delimiter test `currentIndex + 1 >= (int)d.size() && equals(d.begin(), d.end(),
from + 1 - d.size(), from + 1, pred)` of the comment scan, with `from` at index `i`. -/
def ColorizeInternal.endsAt (d : List Nat) (line : Line) (i : Nat) : Bool :=
  decide (d.length ≤ i + 1) && equals d ((line.drop (i + 1 - d.length)).take d.length)

/-- The delimiter tests of the comment scan outside a string: a single-line delimiter at
the current index sets `withinSingleLineComment`; otherwise, outside a single-line
comment, a comment-start delimiter at the current index records the comment start. -/
def ColorizeInternal.openComment (lang : LanguageDefinition) (line : Line)
    (s : ColorizeInternal.ScanState) : ColorizeInternal.ScanState :=
  if decide (0 < lang.mSingleLineComment.length)
      && ColorizeInternal.startsAt lang.mSingleLineComment line s.currentIndex then
    { s with withinSingleLineComment := true }
  else if !s.withinSingleLineComment
      && ColorizeInternal.startsAt lang.mCommentStart line s.currentIndex then
    { s with commentStartLine := s.currentLine, commentStartIndex := s.currentIndex }
  else s

/-- The comment-end test of the comment scan: when the comment-end delimiter ends at the
current index the comment start is set back to the sentinel. -/
def ColorizeInternal.closeComment (lang : LanguageDefinition) (endLine : Nat) (line : Line)
    (s : ColorizeInternal.ScanState) : ColorizeInternal.ScanState :=
  if ColorizeInternal.endsAt lang.mCommentEnd line s.currentIndex then
    { s with commentStartIndex := 0, commentStartLine := endLine }
  else s

/-- The branch `else` of `if (withinString)` in the comment scan. -/
def ColorizeInternal.inCode (lang : LanguageDefinition) (endLine : Nat) (line : Line) (c : Nat)
    (s : ColorizeInternal.ScanState) : Line × ColorizeInternal.ScanState :=
  let inC := ColorizeInternal.inComment s
  let s := if s.firstChar && sameChar lang.mPreprocChar c then { s with withinPreproc := true } else s
  if c = 34 then
    (modifyGlyph line s.currentIndex (fun g => { g with mMultiLineComment := inC }),
      { s with withinString := true })
  else
    let s := ColorizeInternal.openComment lang line s
    let line := modifyGlyph line s.currentIndex (fun g =>
      { g with mMultiLineComment := ColorizeInternal.inComment s,
               mComment := s.withinSingleLineComment })
    (line, ColorizeInternal.closeComment lang endLine line s)

/-- End of the scan-loop body for a non-empty line: the preprocessor flag is stored at
the current index (which the string branch may have moved on by one), the index
advances by the length the current byte announces and wraps to the next line. -/
def ColorizeInternal.advance (c : Nat) (r : Line × ColorizeInternal.ScanState) :
    Line × ColorizeInternal.ScanState :=
  let line := modifyGlyph r.1 r.2.currentIndex (fun g => { g with mPreprocessor := r.2.withinPreproc })
  if line.length ≤ r.2.currentIndex + UTF8CharLength c then
    (line, { r.2 with currentIndex := 0, currentLine := r.2.currentLine + 1 })
  else (line, { r.2 with currentIndex := r.2.currentIndex + UTF8CharLength c })

/-- One iteration of the scan loop on a non-empty line. -/
def ColorizeInternal.scanGlyph (lang : LanguageDefinition) (endLine : Nat) (line : Line)
    (s : ColorizeInternal.ScanState) : Line × ColorizeInternal.ScanState :=
  let c := (glyphAt line s.currentIndex).mChar
  let s := ColorizeInternal.lookAt lang line c s
  ColorizeInternal.advance c
    (if s.withinString then ColorizeInternal.inString line c s
      else ColorizeInternal.inCode lang endLine line c s)

/-- One iteration of the scan loop `while (currentLine < endLine || currentIndex < endIndex)`. -/
def ColorizeInternal.scanStep (lang : LanguageDefinition) (endLine : Nat) (lines : Lines)
    (s : ColorizeInternal.ScanState) : Lines × ColorizeInternal.ScanState :=
  let line := lines.getD s.currentLine []
  let s := ColorizeInternal.lineStart s
  if line = [] then (lines, { s with currentIndex := 0, currentLine := s.currentLine + 1 })
  else
    let r := ColorizeInternal.scanGlyph lang endLine line s
    (lines.set s.currentLine r.1, r.2)

/-- The scan loop of `ColorizeInternal`; `endIndex` is the constant `0`. -/
def ColorizeInternal.scan (lang : LanguageDefinition) (endLine : Nat) :
    Nat → Lines → ColorizeInternal.ScanState → Lines
  | 0, lines, _ => lines
  | fuel + 1, lines, s =>
    if s.currentLine < endLine ∨ s.currentIndex < 0 then
      ColorizeInternal.scan lang endLine fuel
        (ColorizeInternal.scanStep lang endLine lines s).1
        (ColorizeInternal.scanStep lang endLine lines s).2
    else lines

/-- Fuel for the scan loop: every iteration either leaves a line or moves on by at least
one glyph in it. -/
def ColorizeInternal.fuel (lines : Lines) : Nat :=
  (lines.map (fun l => l.length + 1)).sum

/-- The comment scan of `ColorizeInternal` (the block under `if (mCheckComments)`). -/
def ColorizeInternal.checkComments (lang : LanguageDefinition) (lines : Lines) : Lines :=
  ColorizeInternal.scan lang lines.length (ColorizeInternal.fuel lines) lines
    { commentStartLine := lines.length }

/-- The number of leading bytes of `s` that satisfy `p`: a loop
`while (p < in_end && cond(*p)) p++`. -/
def spanLength (p : Nat → Bool) : List Nat → Nat
  | [] => 0
  | c :: s => if p c then spanLength p s + 1 else 0

/-- The scan of `TokenizeCStyleString` after the opening quote; `p` is the offset of the
first byte of the argument. -/
def TokenizeCStyleString.loop : List Nat → Nat → Option Nat
  | [], _ => none
  | [c], p => if c = 34 then some (p + 1) else none
  | c :: d :: s, p =>
    if c = 34 then some (p + 1)
    else if c = 92 ∧ d = 34 then TokenizeCStyleString.loop s (p + 2)
    else TokenizeCStyleString.loop (d :: s) (p + 1)

/-- The source `TokenizeCStyleString` on the bytes `[in_begin, in_end)`: the token starts
at `in_begin`, the result is its length. -/
def TokenizeCStyleString (s : List Nat) : Option Nat :=
  match s with
  | [] => none
  | c :: rest => if c = 34 then TokenizeCStyleString.loop rest 1 else none

/-- The source `TokenizeCStyleCharacterLiteral`. -/
def TokenizeCStyleCharacterLiteral (s : List Nat) : Option Nat :=
  if s.headD 0 = 39 then
    let p := 1
    let p := if p < s.length ∧ s.getD p 0 = 92 then p + 1 else p
    let p := if p < s.length then p + 1 else p
    if p < s.length ∧ s.getD p 0 = 39 then some (p + 1) else none
  else none

/-- A byte in `[a-zA-Z_]`. -/
def isIdentifierStart (c : Nat) : Bool :=
  (97 ≤ c && c ≤ 122) || (65 ≤ c && c ≤ 90) || c = 95

/-- A byte in `[a-zA-Z0-9_]`. -/
def isIdentifierChar (c : Nat) : Bool :=
  (97 ≤ c && c ≤ 122) || (65 ≤ c && c ≤ 90) || (48 ≤ c && c ≤ 57) || c = 95

/-- The source `TokenizeCStyleIdentifier`. -/
def TokenizeCStyleIdentifier (s : List Nat) : Option Nat :=
  match s with
  | [] => none
  | c :: rest => if isIdentifierStart c then some (1 + spanLength isIdentifierChar rest) else none

/-- A byte in `[0-9]`. -/
def isDigit (c : Nat) : Bool :=
  48 ≤ c && c ≤ 57

/-- A byte in `[0-9a-fA-F]`. -/
def isHexDigit (c : Nat) : Bool :=
  (48 ≤ c && c ≤ 57) || (97 ≤ c && c ≤ 102) || (65 ≤ c && c ≤ 70)

/-- A byte in `[01]`. -/
def isBinaryDigit (c : Nat) : Bool :=
  48 ≤ c && c ≤ 49

/-- The part of `TokenizeCStyleNumber` after the leading digits: the fraction, the
hexadecimal or the binary digits.  The result is the new offset and the flags
`isFloat`, `isHex || isBinary`. -/
def TokenizeCStyleNumber.body (s : List Nat) (p : Nat) : Nat × Bool × Bool :=
  if p < s.length then
    if s.getD p 0 = 46 then (p + 1 + spanLength isDigit (s.drop (p + 1)), true, false)
    else if s.getD p 0 = 120 ∨ s.getD p 0 = 88 then
      (p + 1 + spanLength isHexDigit (s.drop (p + 1)), false, true)
    else if s.getD p 0 = 98 ∨ s.getD p 0 = 66 then
      (p + 1 + spanLength isBinaryDigit (s.drop (p + 1)), false, true)
    else (p, false, false)
  else (p, false, false)

/-- The exponent part of `TokenizeCStyleNumber`: `none` when an exponent letter is not
followed by digits, else the new offset and whether an exponent was read. -/
def TokenizeCStyleNumber.exponent (s : List Nat) (p : Nat) : Option (Nat × Bool) :=
  if p < s.length ∧ (s.getD p 0 = 101 ∨ s.getD p 0 = 69) then
    let p := p + 1
    let p := if p < s.length ∧ (s.getD p 0 = 43 ∨ s.getD p 0 = 45) then p + 1 else p
    if 0 < spanLength isDigit (s.drop p) then some (p + spanLength isDigit (s.drop p), true)
    else none
  else some (p, false)

/-- The integer-suffix bytes `u`, `U`, `l`, `L`. -/
def isIntegerSuffix (c : Nat) : Bool :=
  c = 117 || c = 85 || c = 108 || c = 76

/-- The tail of `TokenizeCStyleNumber` from the exponent on. -/
def TokenizeCStyleNumber.tail (s : List Nat) (b : Nat × Bool × Bool) : Option Nat :=
  if b.2.2 then some (b.1 + spanLength isIntegerSuffix (s.drop b.1))
  else
    match TokenizeCStyleNumber.exponent s b.1 with
    | none => none
    | some (p, isExp) =>
      let p := if p < s.length ∧ s.getD p 0 = 102 then p + 1 else p
      if b.2.1 || isExp then some p
      else some (p + spanLength isIntegerSuffix (s.drop p))

/-- The source `TokenizeCStyleNumber`. -/
def TokenizeCStyleNumber (s : List Nat) : Option Nat :=
  let startsWithNumber := isDigit (s.headD 0)
  if s.headD 0 ≠ 43 ∧ s.headD 0 ≠ 45 ∧ startsWithNumber = false then none
  else
    let p := 1 + spanLength isDigit (s.drop 1)
    if (startsWithNumber || decide (0 < spanLength isDigit (s.drop 1))) = false then none
    else TokenizeCStyleNumber.tail s (TokenizeCStyleNumber.body s p)

/-- The source `TokenizeCStylePunctuation`. -/
def TokenizeCStylePunctuation (s : List Nat) : Option Nat :=
  if s.headD 0 ∈ [91, 93, 123, 125, 33, 37, 94, 38, 42, 40, 41, 45, 43, 61, 126, 124, 60, 62,
      63, 58, 47, 59, 44, 46] then some 1
  else none

/-- The `mTokenize` lambda of `LanguageDefinition::CPlusPlus()` and `LanguageDefinition::C()`
on the bytes `[in_begin, in_end)`: on success the offsets of `out_begin` and `out_end` from
`in_begin`, and the palette index. -/
def TokenizeCStyle (s : List Nat) : Option (Nat × Nat × PaletteIndex) :=
  let k := spanLength (fun c => isascii c && isblank c) s
  let t := s.drop k
  if t = [] then some (s.length, s.length, PaletteIndex.Default)
  else
    match TokenizeCStyleString t with
    | some n => some (k, k + n, PaletteIndex.String)
    | none =>
    match TokenizeCStyleCharacterLiteral t with
    | some n => some (k, k + n, PaletteIndex.CharLiteral)
    | none =>
    match TokenizeCStyleIdentifier t with
    | some n => some (k, k + n, PaletteIndex.Identifier)
    | none =>
    match TokenizeCStyleNumber t with
    | some n => some (k, k + n, PaletteIndex.Number)
    | none =>
    match TokenizeCStylePunctuation t with
    | some n => some (k, k + n, PaletteIndex.Punctuation)
    | none => none

/-- A call of a tokenizer callback. -/
def TokenizeCallback.run : TokenizeCallback → List Nat → Option (Nat × Nat × PaletteIndex)
  | TokenizeCallback.CStyle, s => TokenizeCStyle s

/-- The libc `toupper` in the "C" locale. -/
def toupper (c : Nat) : Nat :=
  if 97 ≤ c ∧ c ≤ 122 then c - 32 else c

/-- The comparison `strcmp(a.c_str(), b.c_str()) == 0`. -/
def strcmpEq (a b : List Nat) : Bool :=
  a.takeWhile (fun c => c ≠ 0) == b.takeWhile (fun c => c ≠ 0)

/-- The loop over `mACFunctions` in `ColorizeRange`, in iteration order: a function of
that name, or an argument or a local of a function whose lines include line `i`. -/
def ColorizeRange.findFunction (i : Int) (id : List Nat) :
    List (List Nat × FunctionData) → Option PaletteIndex
  | [] => none
  | func :: rest =>
    if strcmpEq func.1 id then some PaletteIndex.UserFunction
    else if func.2.LineStart - 3 ≤ i ∧ i ≤ func.2.LineEnd + 1 then
      if func.2.Arguments.any (fun arg => strcmpEq arg id) then some PaletteIndex.FunctionArgument
      else if func.2.Locals.any (fun loc => strcmpEq loc id) then some PaletteIndex.LocalVariable
      else ColorizeRange.findFunction i id rest
    else ColorizeRange.findFunction i id rest

/-- The search of the program symbols in `ColorizeRange` for an identifier that is in none
of the language tables. -/
def ColorizeRange.findSymbol (e : TextEditor) (i : Int) (id : List Nat) : PaletteIndex :=
  match ColorizeRange.findFunction i id e.mACFunctions with
  | some color => color
  | none =>
    if e.mACUniforms.any (fun unif => strcmpEq unif id) then PaletteIndex.UniformVariable
    else if e.mACGlobals.any (fun glob => strcmpEq glob id) then PaletteIndex.GlobalVariable
    else if e.mACUserTypes.any (fun userType => strcmpEq userType id) then PaletteIndex.UserType
    else PaletteIndex.Identifier

/-- The block `if (token_color == PaletteIndex::Identifier)` of `ColorizeRange` for the
token text `token` on line `i`; `preproc` is `line[first - bufferBegin].mPreprocessor`. -/
def ColorizeRange.classify (e : TextEditor) (i : Int) (preproc : Bool) (token : List Nat) :
    PaletteIndex :=
  let id := if e.mLanguageDefinition.mCaseSensitive then token else token.map toupper
  if preproc = false then
    if id ∈ e.mLanguageDefinition.mKeywords then PaletteIndex.Keyword
    else if id ∈ e.mLanguageDefinition.mIdentifiers then PaletteIndex.KnownIdentifier
    else if id ∈ e.mLanguageDefinition.mPreprocIdentifiers then PaletteIndex.PreprocIdentifier
    else ColorizeRange.findSymbol e i id
  else
    if id ∈ e.mLanguageDefinition.mPreprocIdentifiers then PaletteIndex.PreprocIdentifier
    else PaletteIndex.Identifier

/-- The loop over `mRegexList` in `ColorizeRange`: the first pattern that matches at the
scan position gives the token, which begins there. -/
def ColorizeRange.firstMatch : List (Regex × PaletteIndex) → List Nat →
    Option (Nat × Nat × PaletteIndex)
  | [], _ => none
  | p :: rest, s =>
    match p.1.run s with
    | some n => some (0, n, p.2)
    | none => ColorizeRange.firstMatch rest s

/-- The token search of `ColorizeRange` on the bytes from the scan position to the end of
the line: the tokenizer callback if there is one, else (or when it reports nothing) the
patterns.  The result gives `token_begin` and `token_end` as offsets from the scan
position, and the class. -/
def ColorizeRange.nextToken (e : TextEditor) (s : List Nat) : Option (Nat × Nat × PaletteIndex) :=
  match e.mLanguageDefinition.mTokenize with
  | some t =>
    match t.run s with
    | some r => some r
    | none => ColorizeRange.firstMatch e.mRegexList s
  | none => ColorizeRange.firstMatch e.mRegexList s

/-- The loop `for (j = 0; j < token_length; ++j) line[token_begin + j].mColorIndex = token_color`. -/
def ColorizeRange.paint (color : PaletteIndex) (line : Line) (tokenBegin : Nat) : Nat → Line
  | 0 => line
  | n + 1 =>
    modifyGlyph (ColorizeRange.paint color line tokenBegin n) (tokenBegin + n)
      (fun g => { g with mColorIndex := color })

/-- The body of the token loop of `ColorizeRange` when a token was found at the scan
position `first`: the identifier block, the painting of the token, and the new scan
position `token_end`. -/
def ColorizeRange.takeToken (e : TextEditor) (i : Int) (buffer : List Nat) (line : Line)
    (first : Nat) (t : Nat × Nat × PaletteIndex) : Line × Nat :=
  let tokenBegin := first + t.1
  let tokenEnd := first + t.2.1
  let color :=
    if t.2.2 = PaletteIndex.Identifier then
      ColorizeRange.classify e i (glyphAt line first).mPreprocessor
        ((buffer.drop tokenBegin).take (tokenEnd - tokenBegin))
    else t.2.2
  (ColorizeRange.paint color line tokenBegin (tokenEnd - tokenBegin), tokenEnd)

/-- The token loop `for (auto first = bufferBegin; first != last; )` of `ColorizeRange` on
line `i` with bytes `buffer`; the result is the line and the final scan position.  The
fuel bounds the number of iterations: the line length is enough as long as no reported
token is empty (an empty match would make the source loop forever). -/
def ColorizeRange.tokenLoop (e : TextEditor) (i : Int) (buffer : List Nat) :
    Nat → Line → Nat → Line × Nat
  | 0, line, first => (line, first)
  | fuel + 1, line, first =>
    if first ≠ buffer.length then
      match ColorizeRange.nextToken e (buffer.drop first) with
      | none => ColorizeRange.tokenLoop e i buffer fuel line (first + 1)
      | some t =>
        ColorizeRange.tokenLoop e i buffer fuel
          (ColorizeRange.takeToken e i buffer line first t).1
          (ColorizeRange.takeToken e i buffer line first t).2
    else (line, first)

/-- The body of the line loop of `ColorizeRange` for a non-empty line `i`: every glyph
is set back to `Default`, then the token loop runs. -/
def ColorizeRange.colorLine (e : TextEditor) (i : Int) (line : Line) : Line :=
  (ColorizeRange.tokenLoop e i (line.map (fun g => g.mChar)) line.length
    (line.map (fun g => { g with mColorIndex := PaletteIndex.Default })) 0).1

/-- The line loop `for (int i = aFromLine; i < endLine; ++i)` of `ColorizeRange`.  A
negative `i` (the source reads `mLines[i]` there) is skipped. -/
def ColorizeRange.loop (e : TextEditor) (endLine : Int) : Nat → Int → Lines → Lines
  | 0, _, lines => lines
  | fuel + 1, i, lines =>
    if i < endLine then
      if i < 0 ∨ lineAt lines i = [] then ColorizeRange.loop e endLine fuel (i + 1) lines
      else
        ColorizeRange.loop e endLine fuel (i + 1)
          (lines.set i.toNat (ColorizeRange.colorLine e i (lineAt lines i)))
    else lines

/-- The source `TextEditor::ColorizeRange(aFromLine, aToLine)`. -/
def ColorizeRange (e : TextEditor) (aFromLine aToLine : Int) : TextEditor :=
  if e.mLines = [] ∨ e.mColorizerEnabled = false then e
  else
    let endLine : Int := max 0 (min (e.mLines.length : Int) aToLine)
    { e with mLines := ColorizeRange.loop e endLine (endLine - aFromLine).toNat aFromLine e.mLines }

/-- The range step of `ColorizeInternal` (the block under
`if (mColorRangeMin < mColorRangeMax)`). -/
def ColorizeInternal.rangeStep (e : TextEditor) : TextEditor :=
  if e.mColorRangeMin < e.mColorRangeMax then
    let increment : Int := if e.mLanguageDefinition.mTokenize = none then 10 else 10000
    let upTo := min (e.mColorRangeMin + increment) e.mColorRangeMax
    let e := ColorizeRange e e.mColorRangeMin upTo
    let e := { e with mColorRangeMin := upTo }
    if e.mColorRangeMax = e.mColorRangeMin then
      { e with mColorRangeMin := 2147483647, mColorRangeMax := 0 }
    else e
  else e

/-- The source `TextEditor::ColorizeInternal`. -/
def ColorizeInternal (e : TextEditor) : TextEditor :=
  if e.mLines = [] ∨ e.mColorizerEnabled = false then e
  else
    ColorizeInternal.rangeStep
      (if e.mCheckComments then
        { e with
          mLines := ColorizeInternal.checkComments e.mLanguageDefinition e.mLines
          mCheckComments := false }
      else e)

/-! ## Snippet parsing -/

/-- The libc `strtol(nptr, &endptr, 10)` on the bytes from `nptr` on, for a 64-bit
`long`: white space is skipped, then an optional sign and the decimal digits are read.
The result is the value, clamped to the range of `long`, and the offset of `endptr` from
`nptr`, which is `0` when there is no digit to convert. -/
def strtol (s : List Nat) : Int × Nat :=
  let ws := spanLength isspace s
  let sign := if (s.drop ws).headD 0 = 45 ∨ (s.drop ws).headD 0 = 43 then 1 else 0
  let n := spanLength isDigit (s.drop (ws + sign))
  let v : Int :=
    ((s.drop (ws + sign)).take n).foldl (fun (a : Int) (c : Nat) => a * 10 + ((c : Int) - 48)) 0
  if n = 0 then (0, 0)
  else if (s.drop ws).headD 0 = 45 then (max (-v) (-9223372036854775808), ws + sign + n)
  else (min v 9223372036854775807, ws + sign + n)

/-- The conversion of a `long` to `int`: the value modulo `2^32` in the range of `int`. -/
def longToInt (v : Int) : Int :=
  (v + 2147483648) % 4294967296 - 2147483648

/-- The local variables of `mAutcompleteParse` and the four snippet-tag vectors it
fills; `buffer`, `tagPlaceholderStart` and `tagStart` are offsets into `str`, and
`tagPlaceholders` lists the entries of the `unordered_map`, the newest first. -/
structure mAutcompleteParse.State where
  buffer : Nat := 0
  tagPlaceholderStart : Nat := 0
  tagStart : Nat := 0
  parsingTag : Bool := false
  parsingTagPlaceholder : Bool := false
  tagIds : List Int := []
  tagLocations : List Nat := []
  tagLengths : List Nat := []
  tagPlaceholders : List (Int × List Nat) := []
  mSnippetTagStart : List Coordinates := []
  mSnippetTagEnd : List Coordinates := []
  mSnippetTagID : List Int := []
  mSnippetTagHighlight : List Bool := []
  cursor : Coordinates := {}
  tagStartCoord : Coordinates := {}
  tagId : Int := -1
  modif : Int := 0
  deriving DecidableEq, Repr

/-- The value `tagPlaceholders[id]`, the empty string when there is no entry. -/
def mAutcompleteParse.placeholder (m : List (Int × List Nat)) (id : Int) : List Nat :=
  match m.find? (fun p => p.1 = id) with
  | some p => p.2
  | none => []

/-- The block `if (*buffer == '{' && *(buffer + 1) == '$')` of `mAutcompleteParse`: a tag
starts, `strtol` reads its id and moves `buffer` behind it, and a `':'` there starts the
placeholder. -/
def mAutcompleteParse.openTag (str : List Nat) (s : mAutcompleteParse.State) :
    mAutcompleteParse.State :=
  if str.getD s.buffer 0 = 123 ∧ str.getD (s.buffer + 1) 0 = 36 then
    let r := strtol (str.drop (s.buffer + 2))
    let s1 : mAutcompleteParse.State :=
      { s with
        parsingTagPlaceholder := false
        parsingTag := true
        tagStart := s.buffer
        tagStartCoord := s.cursor
        tagId := longToInt r.1
        buffer := s.buffer + 2 + r.2
        cursor := { s.cursor with mColumn := s.cursor.mColumn + ((2 + r.2 : Nat) : Int) } }
    if str.getD s1.buffer 0 = 58 then
      { s1 with tagPlaceholderStart := s1.buffer + 1, parsingTagPlaceholder := true }
    else s1
  else s

/-- The block `if (*buffer == '}' && parsingTag)` of `mAutcompleteParse`: the tag is
recorded with its span; a non-empty placeholder, or the first tag of an id, defines the
text of the id and is highlighted. -/
def mAutcompleteParse.closeTag (str : List Nat) (s : mAutcompleteParse.State) :
    mAutcompleteParse.State :=
  if str.getD s.buffer 0 = 125 ∧ s.parsingTag = true then
    let tagPlaceholder :=
      if s.parsingTagPlaceholder then
        (str.drop s.tagPlaceholderStart).take (s.buffer - s.tagPlaceholderStart)
      else []
    let tagLength := s.buffer - s.tagStart + 1
    let tagStartCoord : Coordinates :=
      { s.tagStartCoord with mColumn := max 0 (s.tagStartCoord.mColumn - s.modif) }
    let defines : Bool :=
      decide (tagPlaceholder ≠ []) || (s.tagPlaceholders.find? (fun p => p.1 = s.tagId)).isNone
    let text :=
      if tagPlaceholder ≠ [] then tagPlaceholder
      else if defines then [32]
      else mAutcompleteParse.placeholder s.tagPlaceholders s.tagId
    let tagPlaceholders :=
      if defines then (s.tagId, text) :: s.tagPlaceholders else s.tagPlaceholders
    { s with
      tagIds := s.tagIds ++ [s.tagId]
      tagLocations := s.tagLocations ++ [s.tagStart]
      tagLengths := s.tagLengths ++ [tagLength]
      tagStartCoord := tagStartCoord
      mSnippetTagStart := s.mSnippetTagStart ++ [tagStartCoord]
      mSnippetTagEnd := s.mSnippetTagEnd
        ++ [{ tagStartCoord with mColumn := tagStartCoord.mColumn + (text.length : Int) }]
      mSnippetTagID := s.mSnippetTagID ++ [s.tagId]
      mSnippetTagHighlight := s.mSnippetTagHighlight ++ [defines]
      tagPlaceholders := tagPlaceholders
      modif := s.modif + ((tagLength : Int) - (text.length : Int))
      parsingTagPlaceholder := false
      parsingTag := false
      tagId := -1 }
  else s

/-- The end of the loop body of `mAutcompleteParse`: the cursor moves to the next line
at a `'\n'` and one column on otherwise, and `buffer` moves one byte on. -/
def mAutcompleteParse.next (str : List Nat) (s : mAutcompleteParse.State) :
    mAutcompleteParse.State :=
  if str.getD s.buffer 0 = 10 then
    { s with
      cursor := { mLine := s.cursor.mLine + 1, mColumn := 0 }
      modif := 0
      buffer := s.buffer + 1 }
  else
    { s with
      cursor := { s.cursor with mColumn := s.cursor.mColumn + 1 }
      buffer := s.buffer + 1 }

/-- The loop `while (*buffer != '\0')` of `mAutcompleteParse`; a read behind the end of
`str` yields the terminating `0`. -/
def mAutcompleteParse.loop (str : List Nat) :
    Nat → mAutcompleteParse.State → mAutcompleteParse.State
  | 0, s => s
  | fuel + 1, s =>
    if str.getD s.buffer 0 ≠ 0 then
      mAutcompleteParse.loop str fuel
        (mAutcompleteParse.next str
          (mAutcompleteParse.closeTag str (mAutcompleteParse.openTag str s)))
    else s

/-- The loop at the end of `mAutcompleteParse`, from the last tag to the first: the
marker is erased and the text of its id inserted in its place. -/
def mAutcompleteParse.substitute (m : List (Int × List Nat)) :
    List Int → List Nat → List Nat → List Nat → List Nat
  | id :: ids, loc :: locs, len :: lens, ret =>
    (mAutcompleteParse.substitute m ids locs lens ret).take loc
      ++ mAutcompleteParse.placeholder m id
      ++ (mAutcompleteParse.substitute m ids locs lens ret).drop (loc + len)
  | _, _, _, ret => ret

/-- The source `TextEditor::mAutcompleteParse(str, start)`: the editor with the snippet
tags it records, and the returned string. -/
def mAutcompleteParse (e : TextEditor) (str : List Nat) (start : Coordinates) :
    TextEditor × List Nat :=
  let s := mAutcompleteParse.loop str (str.length + 1) { cursor := start }
  ({ e with
      mSnippetTagStart := s.mSnippetTagStart
      mSnippetTagEnd := s.mSnippetTagEnd
      mSnippetTagID := s.mSnippetTagID
      mSnippetTagHighlight := s.mSnippetTagHighlight
      mIsSnippet := !s.tagIds.isEmpty },
    mAutcompleteParse.substitute s.tagPlaceholders s.tagIds s.tagLocations s.tagLengths str)

/-! ## Settings -/

/-- The source `SetTabSize` (TextEditor.h):
`mTabSize = std::max<int>(0, std::min<int>(32, s))`. -/
def SetTabSize (e : TextEditor) (s : Int) : TextEditor :=
  { e with mTabSize := (max 0 (min 32 s)).toNat }

/-- The source `SetInsertSpaces` (TextEditor.h). -/
def SetInsertSpaces (e : TextEditor) (s : Bool) : TextEditor :=
  { e with mInsertSpaces := s }

/-- The writes that the character branch of `EnterCharacter` makes to its `char buf[7]`
after `ImTextCharToUtf8` when the character is a tab and `mInsertSpaces` is on:
`buf[i] = ' '` for every `i < mTabSize`, then `buf[e] = '\0'` with `e = mTabSize`.
The pairs are (index, byte), in the order the writes are made. -/
def EnterCharacter.tabBufferWrites (mTabSize : Nat) : List (Nat × Nat) :=
  (List.range mTabSize).map (fun i => (i, 32)) ++ [(mTabSize, 0)]

/-! ## Autocomplete -/

/-- The libc `tolower` in the "C" locale. -/
def tolower (c : Nat) : Nat :=
  if 65 ≤ c ∧ c ≤ 90 then c + 32 else c

/-- The search of `std::string::find(w)` from the position `p` of the string on: the
first position at which `w` begins, if there is one. -/
def stringFind.search (w : List Nat) : List Nat → Nat → Option Nat
  | [], p => if w = [] then some p else none
  | c :: s, p => if w.isPrefixOf (c :: s) then some p else stringFind.search w s (p + 1)

/-- The library `std::string::find(w)`: the first position at which `w` begins in `s`,
`none` for `npos`. -/
def stringFind (s w : List Nat) : Option Nat :=
  stringFind.search w s 0

/-- The source `TextEditor::GetWordAt`. -/
def GetWordAt (e : TextEditor) (aCoords : Coordinates) : List Nat :=
  let istart := GetCharacterIndex e (FindWordStart e aCoords)
  let iend := GetCharacterIndex e (FindWordEnd e aCoords)
  (List.range (iend - istart).toNat).map
    (fun k => (glyphAt (lineAt e.mLines aCoords.mLine) (istart + (k : Int)).toNat).mChar)

/-- The source `TextEditor::GetWordUnderCursor`. -/
def GetWordUnderCursor (e : TextEditor) : List Nat :=
  let c := GetActualCursorCoordinates e
  GetWordAt e { c with mColumn := max (c.mColumn - 1) 0 }

/-- The local `struct ACEntry` of `m_buildSuggestions`. -/
structure ACEntry where
  DisplayString : List Nat
  Value : List Nat
  Location : Nat
  deriving DecidableEq, Repr

/-- The step that every source loop of `m_buildSuggestions` makes for one candidate:
the key is lower-cased and searched for `acWord`, and when it is found an entry with the
position is pushed to `weights`. -/
def m_buildSuggestions.push (acWord key display value : List Nat) (weights : List ACEntry) :
    List ACEntry :=
  match stringFind (key.map tolower) acWord with
  | some loc => weights ++ [{ DisplayString := display, Value := value, Location := loc }]
  | none => weights

/-- The loop of `m_buildSuggestions` over `mACFunctions`: for a function whose line
range (widened by two lines before and one after) holds the cursor line, its locals and
then its arguments, and then the function itself, completed with `()` when brace
completion is on. -/
def m_buildSuggestions.functions (e : TextEditor) (acWord : List Nat)
    (weights : List ACEntry) : List ACEntry :=
  e.mACFunctions.foldl
    (fun w func =>
      let w :=
        if e.mState.mCursorPosition.mLine ≥ func.2.LineStart - 2
            ∧ e.mState.mCursorPosition.mLine ≤ func.2.LineEnd + 1 then
          func.2.Arguments.foldl (fun w str => m_buildSuggestions.push acWord str str str w)
            (func.2.Locals.foldl (fun w str => m_buildSuggestions.push acWord str str str w) w)
        else w
      m_buildSuggestions.push acWord func.1 func.1
        (if e.mCompleteBraces then func.1 ++ [40, 41] else func.1) w)
    weights

/-- The list `weights` that `m_buildSuggestions` collects from its sources, in this
order: the registered entries, the functions, the uniforms, the globals, the user
types, the keywords and the identifiers of the language.  The unordered containers are
lists in their iteration order. -/
def m_buildSuggestions.weights (e : TextEditor) (acWord : List Nat) : List ACEntry :=
  let w := (List.range e.mACEntrySearch.length).foldl
    (fun w i => m_buildSuggestions.push acWord (e.mACEntrySearch.getD i [])
      (e.mACEntries.getD i ([], [])).1 (e.mACEntries.getD i ([], [])).2 w) []
  let w := m_buildSuggestions.functions e acWord w
  let w := e.mACUniforms.foldl (fun w str => m_buildSuggestions.push acWord str str str w) w
  let w := e.mACGlobals.foldl (fun w str => m_buildSuggestions.push acWord str str str w) w
  let w := e.mACUserTypes.foldl (fun w str => m_buildSuggestions.push acWord str str str w) w
  let w := e.mLanguageDefinition.mKeywords.foldl
    (fun w str => m_buildSuggestions.push acWord str str str w) w
  e.mLanguageDefinition.mIdentifiers.foldl
    (fun w str => m_buildSuggestions.push acWord str str
      (if e.mCompleteBraces then str ++ [40, 41] else str) w) w

/-- The source `TextEditor::m_buildSuggestions(bool* keepACOpened)`; both call sites
pass the address of a local flag, whose value is the second argument and the second
component of the result. -/
def m_buildSuggestions (e : TextEditor) (keepACOpened : Bool) : TextEditor × Bool :=
  let e : TextEditor := { e with mACWord := GetWordUnderCursor e }
  if e.mACWord.any (fun c => decide ((97 ≤ c ∧ c ≤ 122) ∨ (65 ≤ c ∧ c ≤ 90))) then
    let weights := m_buildSuggestions.weights e (e.mACWord.map tolower)
    let e : TextEditor := { e with
      mACIndex := 0
      mACSwitched := false
      mACSuggestions :=
        (weights.filter (fun entry => entry.Location = 0)).map
            (fun entry => (entry.DisplayString, entry.Value))
          ++ (weights.filter (fun entry => entry.Location ≠ 0)).map
            (fun entry => (entry.DisplayString, entry.Value)) }
    if 0 < e.mACSuggestions.length then
      let curCursor := GetActualCursorCoordinates e
      ({ e with
          mACOpened := true
          mACPosition := FindWordStart e { curCursor with mColumn := curCursor.mColumn - 1 } },
        true)
    else (e, keepACOpened)
  else (e, keepACOpened)

/-- The source `TextEditor::mAutocompleteSelect`. -/
def mAutocompleteSelect (e : TextEditor) : TextEditor :=
  let cur := GetActualCursorCoordinates e
  let curCoord : Coordinates := { cur with mColumn := max (cur.mColumn - 1) 0 }
  let acStart := FindWordStart e curCoord
  let acEnd := FindWordEnd e curCoord
  let acEntry := e.mACSuggestions.getD e.mACIndex.toNat ([], [])
  let r := mAutcompleteParse e acEntry.2 acStart
  let e := SetSelection r.1 acStart acEnd SelectionMode.Normal
  let e := Backspace e
  let e := InsertText e r.2 true
  let e :=
    if e.mIsSnippet ∧ 0 < e.mSnippetTagStart.length then
      let e := SetSelection e (e.mSnippetTagStart.getD 0 {}) (e.mSnippetTagEnd.getD 0 {})
        SelectionMode.Normal
      let e := SetCursorPosition e (e.mSnippetTagEnd.getD 0 {})
      { e with
        mSnippetTagSelected := 0
        mSnippetTagLength := 0
        mSnippetTagPreviousLength :=
          (e.mSnippetTagEnd.getD 0 {}).mColumn - (e.mSnippetTagStart.getD 0 {}).mColumn }
    else e
  { e with m_requestAutocomplete := false, mACOpened := false }

/-! ## Snippet session: the character input of `HandleKeyboardInputs` -/

/-- The value `modif[line]` of the local `std::unordered_map<int, int> modif`, `0` when
there is no entry; the entries are listed newest first. -/
def HandleKeyboardInputs.modifAt (modif : List (Int × Int)) (line : Int) : Int :=
  match modif.find? (fun p => p.1 = line) with
  | some p => p.2
  | none => 0

/-- One round `j` of the loop over the snippet tags in the character input of
`HandleKeyboardInputs`: a tag other than the selected one is moved by the change
recorded for its line; a tag of the id of the selected one adds the length change to
that record and, when it is not the selected tag itself, has its text replaced by
`curWord`. -/
def HandleKeyboardInputs.mirrorStep (curWord : List Nat) (j : Nat)
    (s : TextEditor × List (Int × Int)) : TextEditor × List (Int × Int) :=
  let e := s.1
  let e :=
    if (j : Int) ≠ e.mSnippetTagSelected then
      let d := HandleKeyboardInputs.modifAt s.2 (e.mSnippetTagStart.getD j {}).mLine
      { e with
        mSnippetTagStart := e.mSnippetTagStart.set j
          { e.mSnippetTagStart.getD j {} with
            mColumn := (e.mSnippetTagStart.getD j {}).mColumn + d }
        mSnippetTagEnd := e.mSnippetTagEnd.set j
          { e.mSnippetTagEnd.getD j {} with
            mColumn := (e.mSnippetTagEnd.getD j {}).mColumn + d } }
    else e
  if e.mSnippetTagID.getD j 0 = e.mSnippetTagID.getD e.mSnippetTagSelected.toNat 0 then
    let line := (e.mSnippetTagStart.getD j {}).mLine
    let modif := (line, HandleKeyboardInputs.modifAt s.2 line
      + (e.mSnippetTagLength - e.mSnippetTagPreviousLength)) :: s.2
    if (j : Int) ≠ e.mSnippetTagSelected then
      let e := SetSelection e (e.mSnippetTagStart.getD j {}) (e.mSnippetTagEnd.getD j {})
        SelectionMode.Normal
      let e := Backspace e
      let e := InsertText e curWord false
      ({ e with
          mSnippetTagEnd := e.mSnippetTagEnd.set j
            { e.mSnippetTagEnd.getD j {} with
              mColumn := (e.mSnippetTagStart.getD j {}).mColumn + e.mSnippetTagLength } },
        modif)
    else (e, modif)
  else (e, s.2)

/-- The loop `for (int j = 0; j < mSnippetTagStart.size(); j++)` of the character input;
the number of tags does not change in the loop, so the fuel is that number. -/
def HandleKeyboardInputs.mirrorLoop (curWord : List Nat) :
    Nat → Nat → TextEditor × List (Int × Int) → TextEditor × List (Int × Int)
  | 0, _, s => s
  | fuel + 1, j, s =>
    if j < s.1.mSnippetTagStart.length then
      HandleKeyboardInputs.mirrorLoop curWord fuel (j + 1)
        (HandleKeyboardInputs.mirrorStep curWord j s)
    else s

/-- The body of the loop over `io.InputQueueCharacters` in `HandleKeyboardInputs`, for
one queued character `ch`: `c = (unsigned char)ch` is entered with `EnterCharacter`
when it is a line feed or not a control character, and in a snippet session the text
typed into the selected tag is copied to the other tags of its id.  The argument
`(char)c` of `EnterCharacter` is `c` for an ASCII character and is sign-extended to the
16-bit `ImWchar` otherwise. -/
def HandleKeyboardInputs.inputCharacter (e : TextEditor) (ch : Nat) (shift : Bool) :
    TextEditor :=
  let c := ch % 256
  if c ≠ 0 ∧ (c = 10 ∨ c ≥ 32) then
    let e := EnterCharacter e (if c < 128 then c else 65280 + c) shift
    if e.mIsSnippet then
      let e := { e with mSnippetTagLength := e.mSnippetTagLength + 1 }
      let sel := e.mSnippetTagSelected.toNat
      let e := { e with
        mSnippetTagEnd := e.mSnippetTagEnd.set sel
          { e.mSnippetTagEnd.getD sel {} with
            mColumn := (e.mSnippetTagStart.getD sel {}).mColumn + e.mSnippetTagLength } }
      let curCursor := GetActualCursorCoordinates e
      let e := SetSelection e (e.mSnippetTagStart.getD sel {}) (e.mSnippetTagEnd.getD sel {})
        SelectionMode.Normal
      let curWord := GetSelectedText e
      let r := HandleKeyboardInputs.mirrorLoop curWord e.mSnippetTagStart.length 0
        (e, [(curCursor.mLine, 0)])
      let e := SetSelection r.1 curCursor curCursor SelectionMode.Normal
      let e := SetCursorPosition e curCursor
      let e := EnsureCursorVisible e
      { e with mSnippetTagPreviousLength := e.mSnippetTagLength }
    else e
  else e

/-! ## Specification-level notions used to state the properties -/

/-- The bytes of a line. -/
def lineText (line : Line) : List Nat :=
  line.map (fun g => g.mChar)

/-- The glyphs `SetText` stores for a list of bytes. -/
def toLine (s : List Nat) : Line :=
  s.map (fun c => ({ mChar := c } : Glyph))

/-- The document text: the lines joined with `'\n'`, no trailing newline. -/
def docText (lines : Lines) : List Nat :=
  List.intercalate [10] (lines.map lineText)

/-- A line read from `skip` pending continuation bytes on consists of complete
sequences: every lead byte is followed by the `UTF8CharLength - 1` bytes it announces. -/
def completeFrom : Nat → Line → Bool
  | skip, [] => skip == 0
  | 0, g :: rest => completeFrom (UTF8CharLength g.mChar - 1) rest
  | skip + 1, _ :: rest => completeFrom skip rest

/-- The line is made of complete UTF-8 sequences (it does not end inside one). -/
def Complete (line : Line) : Prop :=
  completeFrom 0 line = true

instance (line : Line) : Decidable (Complete line) := by
  unfold Complete; infer_instance

/-- Byte index `i` of the line is a character start or the line length:
the first `i` bytes are complete sequences. -/
def IsCharBoundary (line : Line) (i : Nat) : Prop :=
  i ≤ line.length ∧ Complete (line.take i)

instance (line : Line) (i : Nat) : Decidable (IsCharBoundary line i) := by
  unfold IsCharBoundary; infer_instance

/-- The tab-stop division is defined on the line: a tab only occurs with a tab size ≥ 1. -/
def TabStopsDefined (mTabSize : Nat) (line : Line) : Prop :=
  ∀ g ∈ line, g.mChar = 9 → 0 < mTabSize

instance (mTabSize : Nat) (line : Line) : Decidable (TabStopsDefined mTabSize line) := by
  unfold TabStopsDefined; infer_instance

/-- Sanitized coordinates (spec, data model): non-negative, on an existing line, and
not beyond that line's maximum column. -/
def Sanitized (e : TextEditor) (c : Coordinates) : Prop :=
  0 ≤ c.mLine ∧ c.mLine < e.mLines.length ∧ 0 ≤ c.mColumn ∧ c.mColumn ≤ GetLineMaxColumn e c.mLine

instance (e : TextEditor) (c : Coordinates) : Decidable (Sanitized e c) := by
  unfold Sanitized; infer_instance

/-- The visual column reached after the bytes of `line`, starting at column `c` with
`skip` continuation bytes pending (structural form of the column walks). -/
def colWalk (mTabSize : Nat) : Nat → Line → Nat → Nat
  | _, [], c => c
  | 0, g :: rest, c => colWalk mTabSize (UTF8CharLength g.mChar - 1) rest (advanceColumn mTabSize g.mChar c)
  | skip + 1, _ :: rest, c => colWalk mTabSize skip rest c

/-- The number of bytes `GetCharacterIndex` walks over on a complete line
(structural form of its loop). -/
def idxWalk (mTabSize : Nat) (column : Int) : Nat → Line → Nat → Nat
  | _, [], _ => 0
  | 0, g :: rest, c =>
    if (c : Int) < column then
      1 + idxWalk mTabSize column (UTF8CharLength g.mChar - 1) rest (advanceColumn mTabSize g.mChar c)
    else 0
  | skip + 1, _ :: rest, c => 1 + idxWalk mTabSize column skip rest c

/-- The text of whole lines, each followed by `'\n'`. -/
def joinPre (pre : Lines) : List Nat :=
  (pre.map (fun l => lineText l ++ [10])).flatten

/-- The text of whole lines, each preceded by `'\n'`. -/
def joinPost (post : Lines) : List Nat :=
  (post.map (fun l => 10 :: lineText l)).flatten

/-- The text between byte `i` of the first line of `rest` and byte `ie` of its line
number `k`, line ends included as `'\n'`. -/
def spanText : Lines → Nat → Nat → Nat → List Nat
  | [], _, _, _ => []
  | x :: _, i, 0, ie => lineText ((x.drop i).take (ie - i))
  | x :: rest, i, k + 1, ie => lineText (x.drop i) ++ 10 :: spanText rest 0 k ie

/-- Side conditions of `spanText`: the start and end indices lie on their lines. -/
def spanOK : Lines → Nat → Nat → Nat → Prop
  | [], _, _, _ => False
  | x :: _, i, 0, ie => i ≤ ie ∧ ie ≤ x.length
  | x :: rest, i, k + 1, ie => i ≤ x.length ∧ spanOK rest 0 k ie

/-- Text read from `skip` pending continuation bytes on is well-formed UTF-8 as far as
the editor looks at it: every lead byte is followed by exactly the `UTF8CharLength - 1`
continuation bytes `10xxxxxx` it announces. -/
def validFrom : Nat → List Nat → Bool
  | skip, [] => skip == 0
  | 0, c :: rest => validFrom (UTF8CharLength c - 1) rest
  | skip + 1, c :: rest => IsUTFSequence c && validFrom skip rest

/-- The text is valid UTF-8 in the sense of `validFrom` (every text that is valid UTF-8
in the sense of the standard is). -/
def ValidUTF8 (t : List Nat) : Prop :=
  validFrom 0 t = true

instance (t : List Nat) : Decidable (ValidUTF8 t) := by
  unfold ValidUTF8; infer_instance

/-- What the loop of `InsertTextAt` (auto-indent off) must return when it inserts the
text `t` at byte `k` of the line `x` standing between the lines `pre` and `post`:
the result `r` is the triple (editor, final `aWhere`, `totalLines`). -/
def InsertSpec (pre : Lines) (x : Line) (post : Lines) (k : Nat) (t : List Nat)
    (total line : Int) (r : TextEditor × Coordinates × Int) : Prop :=
  docText r.1.mLines
      = joinPre pre ++ (lineText (x.take k) ++ (t.filter (fun c => c ≠ 13)
          ++ (lineText (x.drop k) ++ joinPost post)))
    ∧ r.1.mLines.length = (pre ++ x :: post).length + t.count 10
    ∧ r.2.2 = total + t.count 10
    ∧ r.2.1.mLine = line + t.count 10

/-- The undo log and the settings: what neither a range edit nor a cursor move nor the
colorizer bookkeeping touches. -/
def logFrame (e : TextEditor) :=
  (e.mUndoBuffer, e.mUndoIndex, (e.mReadOnly, e.mDebugCurrentLine), e.mTabSize,
    e.mInsertSpaces, e.mOverwrite, e.mCompleteBraces, e.mSmartIndent, e.mAutoindentOnPaste,
    e.mLanguageDefinition, e.mActiveAutocomplete, e.mACOpened)

/-- What a range edit (`DeleteRange`, `InsertTextAt`, `InsertLine`, `RemoveLine`) leaves
alone: selection and cursor, the undo log and the settings. -/
def editFrame (e : TextEditor) :=
  (e.mState, logFrame e)

/-- What a cursor or selection move and the colorizer bookkeeping leave alone: the
lines, the undo log and the settings. -/
def viewFrame (e : TextEditor) :=
  (e.mLines, logFrame e)

/-- The undo log is usable: the editor is not read-only (`IsReadOnly()` is false: the
read-only flag is off and no debugging goes on) and the undo index lies within the undo
buffer. -/
def ValidLog (e : TextEditor) : Prop :=
  IsReadOnly e = false ∧ 0 ≤ e.mUndoIndex ∧ e.mUndoIndex ≤ (e.mUndoBuffer.length : Int)

instance (e : TextEditor) : Decidable (ValidLog e) := by
  unfold ValidLog; infer_instance

/-- The record that `Undo` would apply next: the one just below the undo index. -/
def lastRecord (e : TextEditor) : UndoRecord :=
  e.mUndoBuffer.getD (e.mUndoIndex - 1).toNat default

/-- The command that led from `e0` to `e` appended an undo record as its last action on
the log, with the selection and cursor of `e0` as the "before" snapshot and those of `e`
as the "after" snapshot. -/
def Recorded (e0 e : TextEditor) : Prop :=
  ValidLog e ∧ 0 < e.mUndoIndex ∧ (lastRecord e).mBefore = e0.mState
    ∧ (lastRecord e).mAfter = e.mState

instance (e0 e : TextEditor) : Decidable (Recorded e0 e) := by
  unfold Recorded; infer_instance

/-- The command that led from `e0` to `e` appended an undo record as its last action on
the log, with the selection and cursor of `e0` as the "before" snapshot. -/
def RecordedBefore (e0 e : TextEditor) : Prop :=
  ValidLog e ∧ 0 < e.mUndoIndex ∧ (lastRecord e).mBefore = e0.mState

instance (e0 e : TextEditor) : Decidable (RecordedBefore e0 e) := by
  unfold RecordedBefore; infer_instance

/-- The settings that the edit commands, `Undo` and `Redo` read and never write. -/
def settings (e : TextEditor) :=
  ((e.mReadOnly, e.mDebugCurrentLine), e.mTabSize, e.mInsertSpaces, e.mOverwrite,
    e.mCompleteBraces)

/-- The edit commands that append undo records: `EnterCharacter`, `Backspace`, `Delete`,
`Cut` and `Paste`. -/
inductive EditCommand where
  | enterCharacter (aChar : Nat) (aShift : Bool)
  | backspace
  | delete
  | cut
  | paste

/-- Running one edit command on the editor. -/
def EditCommand.run : EditCommand → TextEditor → TextEditor
  | .enterCharacter aChar aShift, e => EnterCharacter e aChar aShift
  | .backspace, e => Backspace e
  | .delete, e => Delete e
  | .cut, e => Cut e
  | .paste, e => Paste e

/-- The command is an `EnterCharacter` that goes on to complete a brace: `'{'`, `'('` or
`'['` typed while `mCompleteBraces` is on (`EnterCharacter` then calls itself for the
closing character, and each call appends a record of its own). -/
def EditCommand.completesBrace (e : TextEditor) : EditCommand → Bool
  | .enterCharacter aChar _ => e.mCompleteBraces && (aChar == 123 || aChar == 40 || aChar == 91)
  | _ => false

/-- A printable ASCII character that `EnterCharacter` inserts as is: not `'{'`, `'('` or
`'['` while brace completion is on. -/
def PlainChar (e : TextEditor) (c : Nat) : Prop :=
  32 ≤ c ∧ c < 127 ∧ (e.mCompleteBraces = true → c ≠ 123 ∧ c ≠ 40 ∧ c ≠ 91)

instance (e : TextEditor) (c : Nat) : Decidable (PlainChar e c) := by
  unfold PlainChar; infer_instance

/-- The states in which a character is typed at the cursor: usable undo log, overwrite
off, no selection, a non-empty document of complete UTF-8 lines on which the tab-stop
division is defined, and a cursor with non-negative coordinates. -/
def Typable (e : TextEditor) : Prop :=
  ValidLog e ∧ e.mOverwrite = false ∧ HasSelection e = false ∧ e.mLines ≠ []
    ∧ 0 ≤ e.mState.mCursorPosition.mLine ∧ 0 ≤ e.mState.mCursorPosition.mColumn
    ∧ (∀ line ∈ e.mLines, Complete line)
    ∧ (∀ line ∈ e.mLines, TabStopsDefined e.mTabSize line)

instance (e : TextEditor) : Decidable (Typable e) := by
  unfold Typable; infer_instance

/-- The selection is one that can be removed and put back by `InsertTextAt`: it is not
empty, its ends are sanitized, the document consists of complete UTF-8 lines on which the
tab-stop division is defined, and the selected text is NUL-free, `'\r'`-free valid UTF-8. -/
def RemovableSelection (e : TextEditor) : Prop :=
  HasSelection e = true
    ∧ Sanitized e e.mState.mSelectionStart ∧ Sanitized e e.mState.mSelectionEnd
    ∧ (∀ line ∈ e.mLines, Complete line)
    ∧ (∀ line ∈ e.mLines, TabStopsDefined e.mTabSize line)
    ∧ 0 ∉ GetSelectedText e ∧ 13 ∉ GetSelectedText e ∧ ValidUTF8 (GetSelectedText e)

instance (e : TextEditor) : Decidable (RemovableSelection e) := by
  unfold RemovableSelection; infer_instance

/-- Typing the characters `cs` one after the other (`EnterCharacter`, no shift). -/
def typeAll (e : TextEditor) (cs : List Nat) : TextEditor :=
  cs.foldl (fun e c => EnterCharacter e c false) e

/-- The call `Undo()` made `n` times in a row. -/
def undoTimes (n : Nat) (e : TextEditor) : TextEditor :=
  Nat.iterate (fun e => Undo e 1) n e

/-- The call `Redo()` made `n` times in a row. -/
def redoTimes (n : Nat) (e : TextEditor) : TextEditor :=
  Nat.iterate (fun e => Redo e 1) n e

/-- The edit from `e` to `E` is faithfully logged by the record `u`: `u` is the record
appended to the log of `e`, applying `u.Undo` to the document of `E` gives the document
and the selection of `e`, and applying `u.Redo` to the document of `e` gives those of `E`. -/
def Faithful (e E : TextEditor) (u : UndoRecord) : Prop :=
  ValidLog e
    ∧ E.mUndoBuffer = e.mUndoBuffer.take e.mUndoIndex.toNat ++ [u]
    ∧ E.mUndoIndex = e.mUndoIndex + 1
    ∧ settings E = settings e
    ∧ u.mBefore = e.mState ∧ u.mAfter = E.mState
    ∧ (∀ x : TextEditor, x.mLines = E.mLines → x.mTabSize = E.mTabSize →
        (u.Undo x).mLines = e.mLines)
    ∧ (∀ y : TextEditor, y.mLines = e.mLines → y.mTabSize = e.mTabSize →
        (u.Redo y).mLines = E.mLines)

/-- A run of `n` faithfully logged edits from `e` to `E`. -/
inductive Run : TextEditor → Nat → TextEditor → Prop where
  | nil (e : TextEditor) : Run e 0 e
  | snoc {e e1 E : TextEditor} {n : Nat} (u : UndoRecord) :
      Run e n e1 → Faithful e1 E u → Run e (n + 1) E

/-- The byte string `d` occurs in the line at byte index `i`. -/
def occursAt (d : List Nat) (line : Line) (i : Nat) : Prop :=
  i + d.length ≤ line.length ∧ ((lineText line).drop i).take d.length = d

instance (d : List Nat) (line : Line) (i : Nat) : Decidable (occursAt d line i) := by
  unfold occursAt; infer_instance

/-- The line ends with a backslash. -/
def endsWithBackslash (line : Line) : Prop :=
  line ≠ [] ∧ (glyphAt line (line.length - 1)).mChar = 92

instance (line : Line) : Decidable (endsWithBackslash line) := by
  unfold endsWithBackslash; infer_instance

/-- The single-line comment state that the backslash continuations before line `l`
carry into it: the line before ends with a backslash, and a single-line comment was
carried into that line or started on it. -/
def commentCarried (d : List Nat) (lines : Lines) : Nat → Prop
  | 0 => False
  | l + 1 =>
    endsWithBackslash (lines.getD l [])
      ∧ (commentCarried d lines l ∨ ∃ j, occursAt d (lines.getD l []) j)

/-- A byte that leaves a line's "no character so far" state as it is: the preprocessor
character or white space. -/
def blankOrPreproc (P : Nat) (c : Nat) : Prop :=
  c = P ∨ isspace c = true

/-- Whether line `l` starts in the "no character so far" state: it does unless the line
before ends with a backslash and did not keep that state to its end. -/
def firstCharCarried (P : Nat) (lines : Lines) : Nat → Prop
  | 0 => True
  | l + 1 =>
    endsWithBackslash (lines.getD l []) →
      firstCharCarried P lines l
        ∧ ∀ k, k < (lines.getD l []).length → blankOrPreproc P (glyphAt (lines.getD l []) k).mChar

/-- The number of double quotes that precede byte `i` of line `l` in the document. -/
def quotesBefore (lines : Lines) (l i : Nat) : Nat :=
  ((lines.take l).map (fun ln => (lineText ln).count 34)).sum
    + ((lineText (lines.getD l [])).take i).count 34

/-- Byte `i` of line `l` is inside a string, as the comment scan sees strings when none
of them holds an escape: an odd number of double quotes precedes the byte.  The double
quote that opens a string is outside it and the one that closes it is inside. -/
def InString (lines : Lines) (l i : Nat) : Prop :=
  quotesBefore lines l i % 2 = 1

instance (lines : Lines) (l i : Nat) : Decidable (InString lines l i) := by
  unfold InString; infer_instance

/-- No string of the document holds an escape: no byte inside a string is a backslash,
and no double quote inside a string, that is the one that closes it, is directly
followed by another double quote. -/
def EscapeFree (lines : Lines) : Prop :=
  ∀ l, l < lines.length → ∀ i, i < (lines.getD l []).length → InString lines l i →
    (glyphAt (lines.getD l []) i).mChar ≠ 92
      ∧ ¬ ((glyphAt (lines.getD l []) i).mChar = 34
            ∧ i + 1 < (lines.getD l []).length
            ∧ (glyphAt (lines.getD l []) (i + 1)).mChar = 34)

instance (lines : Lines) : Decidable (EscapeFree lines) := by
  unfold EscapeFree; infer_instance

/-- The preprocessor state that the backslash continuations before line `l` carry into
it: the line before ends with a backslash, and the preprocessor state was carried into
that line or set on it by a preprocessor character outside a string in the "no character
so far" state. -/
def preprocCarried (P : Nat) (lines : Lines) : Nat → Prop
  | 0 => False
  | l + 1 =>
    endsWithBackslash (lines.getD l [])
      ∧ (preprocCarried P lines l
          ∨ (firstCharCarried P lines l
              ∧ ∃ j, j < (lines.getD l []).length ∧ (glyphAt (lines.getD l []) j).mChar = P
                  ∧ ¬ InString lines l j
                  ∧ ∀ k, k < j → blankOrPreproc P (glyphAt (lines.getD l []) k).mChar))

/-- The multi-line comment state in the words of the specification: the glyph at byte
`i` of line `l` lies between the first byte of a comment-start delimiter `S` and the last
byte of the next comment-end delimiter `E` that begins after that start delimiter ends.
That is, a start delimiter begins at or before the glyph, at `(l0, i0)`, and every end
delimiter that begins at or after the end of that start delimiter, at `(l1, i1)`, has its
last byte at or after the glyph (so has the first of them; if there is none the comment
is not terminated). -/
def InMultiLineComment (S E : List Nat) (lines : Lines) (l i : Nat) : Prop :=
  ∃ l0 i0, occursAt S (lines.getD l0 []) i0 ∧ (l0 < l ∨ (l0 = l ∧ i0 ≤ i))
    ∧ ∀ l1 i1, occursAt E (lines.getD l1 []) i1 →
        (l0 < l1 ∨ (l0 = l1 ∧ i0 + S.length ≤ i1)) →
        (l < l1 ∨ (l = l1 ∧ i ≤ i1 + E.length - 1))

/-- A comment is open when the scan arrives at byte `i` of line `l`: a start delimiter
begins before that position and no end delimiter has its last byte from the first byte
of that start delimiter on and before the position. -/
def commentOpenAt (S E : List Nat) (lines : Lines) (l i : Nat) : Prop :=
  ∃ l0 i0, occursAt S (lines.getD l0 []) i0 ∧ (l0 < l ∨ (l0 = l ∧ i0 < i))
    ∧ ∀ l1 i1, occursAt E (lines.getD l1 []) i1 →
        (l0 < l1 ∨ (l0 = l1 ∧ i0 ≤ i1 + E.length - 1)) →
        (l < l1 ∨ (l = l1 ∧ i ≤ i1 + E.length - 1))

/-- A marker of a snippet: `{$<id>:<placeholder>}`, or `{$<id>}` when the placeholder is
empty; `digits` are the decimal digits of the id as written. -/
structure SnippetMarker where
  digits : List Nat
  placeholder : List Nat
  deriving DecidableEq, Repr

/-- The id of a marker: the number its digits denote. -/
def SnippetMarker.id (m : SnippetMarker) : Nat :=
  m.digits.foldl (fun a c => a * 10 + (c - 48)) 0

/-- The bytes of a marker. -/
def SnippetMarker.text (m : SnippetMarker) : List Nat :=
  [123, 36] ++ m.digits ++ (if m.placeholder = [] then [] else 58 :: m.placeholder) ++ [125]

/-- A snippet: pieces of plain text each followed by a marker, and a last piece of plain
text. -/
structure Snippet where
  pieces : List (List Nat × SnippetMarker)
  last : List Nat
  deriving DecidableEq, Repr

/-- The bytes of the pieces of a snippet. -/
def Snippet.piecesText (pieces : List (List Nat × SnippetMarker)) : List Nat :=
  (pieces.map (fun p => p.1 ++ p.2.text)).flatten

/-- The snippet string. -/
def Snippet.text (s : Snippet) : List Nat :=
  Snippet.piecesText s.pieces ++ s.last

/-- Plain text of a single-line snippet: no NUL, no line break, and no `{$`. -/
def PlainText (t : List Nat) : Prop :=
  0 ∉ t ∧ 10 ∉ t ∧ ∀ k, k < t.length → t.getD k 0 = 123 → t.getD (k + 1) 0 ≠ 36

instance (t : List Nat) : Decidable (PlainText t) := by
  unfold PlainText; infer_instance

/-- A marker is well formed: its id is a non-empty string of decimal digits that denotes
a number in the range of `int`, and its placeholder is plain text without `}`. -/
def SnippetMarker.WellFormed (m : SnippetMarker) : Prop :=
  m.digits ≠ [] ∧ (∀ c ∈ m.digits, isDigit c = true) ∧ m.id < 2147483648
    ∧ PlainText m.placeholder ∧ 125 ∉ m.placeholder

instance (m : SnippetMarker) : Decidable m.WellFormed := by
  unfold SnippetMarker.WellFormed; infer_instance

/-- The pieces of a snippet are well formed after markers with the ids `seen`: the texts
are plain, the markers well formed, the first marker of an id carries a non-empty
placeholder and the later markers of the id carry none. -/
def Snippet.piecesWellFormed : List Nat → List (List Nat × SnippetMarker) → Prop
  | _, [] => True
  | seen, p :: rest =>
    PlainText p.1 ∧ p.2.WellFormed
      ∧ (p.2.id ∈ seen → p.2.placeholder = [])
      ∧ (p.2.id ∉ seen → p.2.placeholder ≠ [])
      ∧ Snippet.piecesWellFormed (seen ++ [p.2.id]) rest

instance : ∀ (seen : List Nat) (pieces : List (List Nat × SnippetMarker)),
    Decidable (Snippet.piecesWellFormed seen pieces)
  | _, [] => isTrue trivial
  | seen, p :: rest => by
    unfold Snippet.piecesWellFormed
    have := instDecidablePiecesWellFormed (seen ++ [p.2.id]) rest
    infer_instance

/-- The snippets of the claim: single-line strings whose markers have the form
`{$<id>:<placeholder>}` or `{$<id>}`, each id's first marker carrying a non-empty
placeholder and its later markers none. -/
def Snippet.WellFormed (s : Snippet) : Prop :=
  Snippet.piecesWellFormed [] s.pieces ∧ PlainText s.last

instance (s : Snippet) : Decidable s.WellFormed := by
  unfold Snippet.WellFormed; infer_instance

/-- The placeholder of an id in a snippet: the one its first marker carries. -/
def Snippet.placeholderOf (pieces : List (List Nat × SnippetMarker)) (id : Nat) : List Nat :=
  match pieces.find? (fun p => p.2.id = id) with
  | some p => p.2.placeholder
  | none => []

/-- The pieces with every marker replaced by the placeholder `P` gives for its id. -/
def Snippet.expandPieces (P : Nat → List Nat) (pieces : List (List Nat × SnippetMarker)) :
    List Nat :=
  (pieces.map (fun p => p.1 ++ P p.2.id)).flatten

/-- The snippet string with every marker replaced by its id's placeholder. -/
def Snippet.expansion (s : Snippet) : List Nat :=
  Snippet.expandPieces (Snippet.placeholderOf s.pieces) s.pieces ++ s.last

/-- The span of a snippet tag in the expanded string, in bytes: `[start, stop)`, the id
of the marker, and whether it is the first marker of its id. -/
structure SnippetSpan where
  start : Nat
  stop : Nat
  id : Nat
  highlighted : Bool
  deriving DecidableEq, Repr

/-- One span per marker, for pieces that begin at byte `off` of the expanded string
after markers with the ids `seen`: the span covers the placeholder that stands for the
marker. -/
def Snippet.spansFrom (P : Nat → List Nat) :
    Nat → List Nat → List (List Nat × SnippetMarker) → List SnippetSpan
  | _, _, [] => []
  | off, seen, p :: rest =>
    { start := off + p.1.length, stop := off + p.1.length + (P p.2.id).length, id := p.2.id,
      highlighted := decide (p.2.id ∉ seen) }
      :: Snippet.spansFrom P (off + p.1.length + (P p.2.id).length) (seen ++ [p.2.id]) rest

/-- The spans of the tags of a snippet, one per marker. -/
def Snippet.spans (s : Snippet) : List SnippetSpan :=
  Snippet.spansFrom (Snippet.placeholderOf s.pieces) 0 [] s.pieces

/-- The offsets of the markers in the snippet string, for pieces that begin at byte
`off` of it. -/
def Snippet.markerLocations : Nat → List (List Nat × SnippetMarker) → List Nat
  | _, [] => []
  | off, p :: rest =>
    (off + p.1.length) :: Snippet.markerLocations (off + p.1.length + p.2.text.length) rest

/-- The state of the loop of `mAutcompleteParse` between two pieces of a snippet, when
the pieces `done` have been read: `buffer` stands behind them, the cursor has moved one
column per byte, `modif` is the number of bytes by which the markers read are longer
than their placeholders, one tag is recorded per marker read, and the map holds the
placeholder `P` gives for each id met. -/
def mAutcompleteParse.Invariant (P : Nat → List Nat) (start : Coordinates)
    (done : List (List Nat × SnippetMarker)) (s : mAutcompleteParse.State) : Prop :=
  s.buffer = (Snippet.piecesText done).length
    ∧ s.parsingTag = false
    ∧ s.cursor = { start with mColumn := start.mColumn + ((Snippet.piecesText done).length : Int) }
    ∧ s.modif = ((Snippet.piecesText done).length : Int) - ((Snippet.expandPieces P done).length : Int)
    ∧ s.tagIds = done.map (fun p => (p.2.id : Int))
    ∧ s.tagLocations = Snippet.markerLocations 0 done
    ∧ s.tagLengths = done.map (fun p => p.2.text.length)
    ∧ (∀ id : Nat, id ∈ done.map (fun p => p.2.id) →
        ∃ q, s.tagPlaceholders.find? (fun p => p.1 = (id : Int)) = some q ∧ q.2 = P id)
    ∧ (∀ id : Nat, id ∉ done.map (fun p => p.2.id) →
        s.tagPlaceholders.find? (fun p => p.1 = (id : Int)) = none)
    ∧ s.mSnippetTagStart = (Snippet.spansFrom P 0 [] done).map
        (fun t => { start with mColumn := start.mColumn + (t.start : Int) })
    ∧ s.mSnippetTagEnd = (Snippet.spansFrom P 0 [] done).map
        (fun t => { start with mColumn := start.mColumn + (t.stop : Int) })
    ∧ s.mSnippetTagID = (Snippet.spansFrom P 0 [] done).map (fun t => (t.id : Int))
    ∧ s.mSnippetTagHighlight = (Snippet.spansFrom P 0 [] done).map (fun t => t.highlighted)

/-- A candidate of the autocomplete: the key it is searched by, the string displayed and
the value inserted. -/
structure Candidate where
  key : List Nat
  display : List Nat
  value : List Nat
  deriving DecidableEq, Repr

/-- A candidate that is searched by, displayed as and inserted as the same string. -/
def Candidate.plain (s : List Nat) : Candidate :=
  { key := s, display := s, value := s }

/-- A candidate that names something callable: inserted with `()` when brace completion
is on. -/
def Candidate.callable (mCompleteBraces : Bool) (s : List Nat) : Candidate :=
  { key := s, display := s, value := if mCompleteBraces then s ++ [40, 41] else s }

/-- The candidates of `m_buildSuggestions` in the order in which the sources are scanned:
the registered entries (searched by `mACEntrySearch[i]`), for every function its locals
and arguments when the cursor line is within the function (two lines before to one line
after) and then the function, the uniforms, the globals, the user types, the keywords
and the identifiers of the language. -/
def candidates (e : TextEditor) : List Candidate :=
  (List.range e.mACEntrySearch.length).map
      (fun i =>
        { key := e.mACEntrySearch.getD i [], display := (e.mACEntries.getD i ([], [])).1,
          value := (e.mACEntries.getD i ([], [])).2 })
    ++ e.mACFunctions.flatMap
      (fun func =>
        (if e.mState.mCursorPosition.mLine ≥ func.2.LineStart - 2
              ∧ e.mState.mCursorPosition.mLine ≤ func.2.LineEnd + 1 then
            func.2.Locals.map Candidate.plain ++ func.2.Arguments.map Candidate.plain
          else [])
          ++ [Candidate.callable e.mCompleteBraces func.1])
    ++ e.mACUniforms.map Candidate.plain
    ++ e.mACGlobals.map Candidate.plain
    ++ e.mACUserTypes.map Candidate.plain
    ++ e.mLanguageDefinition.mKeywords.map Candidate.plain
    ++ e.mLanguageDefinition.mIdentifiers.map (Candidate.callable e.mCompleteBraces)

/-- The placeholder texts in force behind a marker, newest first: a non-empty
placeholder becomes the text of its id, and a marker without placeholder whose id has no
text yet gives it a blank. -/
def Snippet.define (env : List (Nat × List Nat)) (m : SnippetMarker) : List (Nat × List Nat) :=
  if m.placeholder ≠ [] then (m.id, m.placeholder) :: env
  else if env.find? (fun p => p.1 = m.id) = none then (m.id, [32]) :: env
  else env

/-- The placeholder texts in force behind the markers of `pieces`. -/
def Snippet.defineAll (env : List (Nat × List Nat)) (pieces : List (List Nat × SnippetMarker)) :
    List (Nat × List Nat) :=
  pieces.foldl (fun env p => Snippet.define env p.2) env

/-- The text in force for an id, empty when it has none. -/
def Snippet.textOf (env : List (Nat × List Nat)) (id : Nat) : List Nat :=
  match env.find? (fun p => p.1 = id) with
  | some p => p.2
  | none => []

/-- The pieces with every marker replaced by the text in force for its id right behind
that marker. -/
def Snippet.interim (env : List (Nat × List Nat)) :
    List (List Nat × SnippetMarker) → List Nat
  | [] => []
  | p :: rest =>
    p.1 ++ Snippet.textOf (Snippet.define env p.2) p.2.id
      ++ Snippet.interim (Snippet.define env p.2) rest

/-- One span per marker, for pieces that begin at byte `off`: the span begins where the
marker begins once the markers before it are replaced by the texts then in force, and
has the length of the text in force for its id right behind the marker; it is
highlighted when the marker defines the text of its id. -/
def Snippet.spansWith (env : List (Nat × List Nat)) :
    Nat → List (List Nat × SnippetMarker) → List SnippetSpan
  | _, [] => []
  | off, p :: rest =>
    { start := off + p.1.length
      stop := off + p.1.length + (Snippet.textOf (Snippet.define env p.2) p.2.id).length
      id := p.2.id
      highlighted := decide (p.2.placeholder ≠ []) || decide (env.find? (fun q => q.1 = p.2.id) = none) }
      :: Snippet.spansWith (Snippet.define env p.2)
          (off + p.1.length + (Snippet.textOf (Snippet.define env p.2) p.2.id).length) rest

/-- The placeholder of the last marker of the id that carries a non-empty placeholder; a
blank when no marker of the id carries one. -/
def Snippet.lastPlaceholder (pieces : List (List Nat × SnippetMarker)) (id : Nat) : List Nat :=
  match pieces.reverse.find? (fun p => decide (p.2.id = id) && decide (p.2.placeholder ≠ [])) with
  | some p => p.2.placeholder
  | none => [32]

/-- The snippet consists of plain text and markers of the form `{$<id>:<placeholder>}`
or `{$<id>}`; any marker may carry a placeholder. -/
def Snippet.Formed (s : Snippet) : Prop :=
  (∀ p ∈ s.pieces, PlainText p.1 ∧ p.2.WellFormed) ∧ PlainText s.last

instance (s : Snippet) : Decidable s.Formed := by
  unfold Snippet.Formed; infer_instance

/-- The state of the loop of `mAutcompleteParse` between two pieces of a snippet, when
the pieces `done` have been read, for any placeholders: as `mAutcompleteParse.Invariant`,
with the texts in force at each marker in place of the final ones. -/
def mAutcompleteParse.Progress (start : Coordinates)
    (done : List (List Nat × SnippetMarker)) (s : mAutcompleteParse.State) : Prop :=
  s.buffer = (Snippet.piecesText done).length
    ∧ s.parsingTag = false
    ∧ s.cursor = { start with mColumn := start.mColumn + ((Snippet.piecesText done).length : Int) }
    ∧ s.modif = ((Snippet.piecesText done).length : Int) - ((Snippet.interim [] done).length : Int)
    ∧ s.tagIds = done.map (fun p => (p.2.id : Int))
    ∧ s.tagLocations = Snippet.markerLocations 0 done
    ∧ s.tagLengths = done.map (fun p => p.2.text.length)
    ∧ s.tagPlaceholders = (Snippet.defineAll [] done).map (fun p => ((p.1 : Int), p.2))
    ∧ s.mSnippetTagStart = (Snippet.spansWith [] 0 done).map
        (fun t => { start with mColumn := start.mColumn + (t.start : Int) })
    ∧ s.mSnippetTagEnd = (Snippet.spansWith [] 0 done).map
        (fun t => { start with mColumn := start.mColumn + (t.stop : Int) })
    ∧ s.mSnippetTagID = (Snippet.spansWith [] 0 done).map (fun t => (t.id : Int))
    ∧ s.mSnippetTagHighlight = (Snippet.spansWith [] 0 done).map (fun t => t.highlighted)

/-- What the token classification of `ColorizeRange` reads of the editor besides the
line at hand: the language definition, the compiled patterns and the program symbols. -/
def colorFrame (e : TextEditor) :=
  (e.mLanguageDefinition, e.mRegexList, e.mACFunctions, e.mACUniforms, e.mACGlobals,
    e.mACUserTypes)

/-- The number of lines one `ColorizeInternal` call re-tokenizes at most: 10 when the
language has patterns only, 10000 when it has a tokenizer callback. -/
def lineBudget (e : TextEditor) : Nat :=
  if e.mLanguageDefinition.mTokenize = none then 10 else 10000

/-- The lines as the comment scan of a `ColorizeInternal` call leaves them: scanned when
`mCheckComments` is set, untouched otherwise. -/
def scannedLines (e : TextEditor) : Lines :=
  if e.mCheckComments then ColorizeInternal.checkComments e.mLanguageDefinition e.mLines
  else e.mLines

/-- Indentation of width `a` with tab size `T`: `a / T` tabs followed by `a % T` spaces. -/
def indentation (T a : Nat) : Line :=
  List.replicate (a / T) { mChar := 9 } ++ List.replicate (a % T) { mChar := 32 }

/-- The lines that auto-indenting insertion of the text `t` yields between the bytes `cur`
and `sfx` of a line, in the words of the specification, byte by byte: `w` is the
indentation width of the line the text goes into, `a` the running indentation width.
A `'\r'` is dropped; a `'{'` raises the running width by one tab size; a `'\n'` ends the
current line, lowers the running width by one tab size, not below 0, when the first
character after it that is not whitespace (line breaks apart) is `'}'`, and starts the
next line with indentation of the running width, or of the width `w` when the text goes
on with whitespace of its own. -/
def autoIndentLines (T w : Nat) : Nat → Line → List Nat → Line → Lines
  | _, cur, [], sfx => [cur ++ sfx]
  | a, cur, c :: rest, sfx =>
    if c = 13 then autoIndentLines T w a cur rest sfx
    else if c = 10 then
      cur :: autoIndentLines T w
        (if InsertTextAt.bracketSearch rest = 125 then a - T else a)
        (indentation T
          (if isspace (rest.headD 0) && rest.headD 0 ≠ 10 && rest.headD 0 ≠ 13 then w
            else if InsertTextAt.bracketSearch rest = 125 then a - T else a))
        rest sfx
    else autoIndentLines T w (if c = 123 then a + T else a) (cur ++ [{ mChar := c }]) rest sfx

/-- The number of leading spaces of a line. -/
def leadingSpaces : Line → Nat
  | [] => 0
  | g :: rest => if g.mChar = 32 then leadingSpaces rest + 1 else 0

/-- What shift-tab takes from one selected line, in the words of the specification:
one leading tab if the line begins with a tab, otherwise its first
`min(tab size, number of leading spaces)` spaces. -/
def unindentLine (T : Nat) (line : Line) : Line :=
  match line with
  | [] => []
  | g :: rest => if g.mChar = 9 then rest else (g :: rest).drop (min T (leadingSpaces (g :: rest)))

/-- The state of the loop of `InsertTextAt` seen from the insertion point: the text went
in between the bytes `pfx` and `sfx` of one line, which stood between the lines `pre0`
and `post0`.  The current line `X` holds the rest `sfx` from byte `K` on, the in/out
position `W` is on that line at the column reached after its first `K` bytes, and the
bytes `pfx` start either that line or the first of the lines created so far. -/
def Spliced (T : Nat) (pre0 : Lines) (pfx sfx : Line) (post0 : Lines)
    (lines : Lines) (W : Coordinates) (K : Nat) : Prop :=
  ∃ (PRE : Lines) (X : Line),
    lines = PRE ++ X :: post0 ∧ W = ⟨(PRE.length : Int), (colWalk T 0 (X.take K) 0 : Nat)⟩
      ∧ K ≤ X.length ∧ completeFrom 0 (X.take K) = true ∧ TabStopsDefined T (X.take K)
      ∧ X.drop K = sfx
      ∧ ((PRE = pre0 ∧ X.take pfx.length = pfx ∧ pfx.length ≤ K)
        ∨ ∃ (F : Line) (mid : Lines), PRE = pre0 ++ F :: mid ∧ F.take pfx.length = pfx
            ∧ pfx.length ≤ F.length ∧ completeFrom 0 F = true ∧ TabStopsDefined T F)

/-- The breakpoint that `InsertLine(aIndex)` adds for the breakpoint `b`: moved down by
one line when it is at or after `aIndex`, condition and enabled flag kept. -/
def insertShift (aIndex : Int) (b : Breakpoint) : Breakpoint :=
  { mLine := if b.mLine ≥ aIndex then b.mLine + 1 else b.mLine
    mCondition := b.mCondition
    mEnabled := b.mEnabled }

/-- The breakpoint that `RemoveLine` adds for a breakpoint `b` that it keeps: moved up by
one line when it is at or after `aStart`, condition and enabled flag kept. -/
def removeShift (aStart : Int) (b : Breakpoint) : Breakpoint :=
  { mLine := if b.mLine ≥ aStart then b.mLine - 1 else b.mLine
    mCondition := b.mCondition
    mEnabled := b.mEnabled }

/-- The notifications of `InsertLine(aIndex)` for the breakpoint list `bs`, in the order
they are made: `OnBreakpointRemove` with the old line of every breakpoint, then for every
breakpoint `OnBreakpointRemove` and `OnBreakpointUpdate` with its new line. -/
def insertLineEvents (aIndex : Int) (bs : List Breakpoint) : List Event :=
  bs.map (fun b => Event.BreakpointRemove b.mLine)
    ++ bs.flatMap (fun b =>
        [Event.BreakpointRemove (insertShift aIndex b).mLine,
          Event.BreakpointUpdate (insertShift aIndex b).mLine b.mCondition b.mEnabled])

/-- The breakpoint notifications of `RemoveLine(aStart, aEnd)` for the breakpoint list
`bs`, in the order they are made: `OnBreakpointRemove` with the line of a breakpoint in
the range, `OnBreakpointRemove` and `OnBreakpointUpdate` with the new line of any other. -/
def removeRangeEvents (aStart aEnd : Int) (bs : List Breakpoint) : List Event :=
  bs.flatMap (fun b =>
    if b.mLine ≥ aStart ∧ b.mLine ≤ aEnd then [Event.BreakpointRemove b.mLine]
    else
      [Event.BreakpointRemove (removeShift aStart b).mLine,
        Event.BreakpointUpdate (removeShift aStart b).mLine b.mCondition b.mEnabled])

/-- One round of the breakpoint loop of `RemoveLine(aStart, aEnd)` on the list and the log. -/
def removeRangeStep (aStart aEnd : Int) (s : List Breakpoint × List Event) (b : Breakpoint) :
    List Breakpoint × List Event :=
  if b.mLine ≥ aStart ∧ b.mLine ≤ aEnd then
    (eraseBreakpoint b.mLine s.1, s.2 ++ [Event.BreakpointRemove b.mLine])
  else
    (eraseBreakpoint (removeShift aStart b).mLine s.1 ++ [removeShift aStart b],
      s.2 ++ [Event.BreakpointRemove (removeShift aStart b).mLine,
        Event.BreakpointUpdate (removeShift aStart b).mLine b.mCondition b.mEnabled])

/-! ## Example documents -/

/-- An editor holding the given lines of bytes, everything else as constructed. -/
def ofLines (ls : List (List Nat)) : TextEditor :=
  { mLines := ls.map toLine }

/-- An editor holding the given lines, with cursor and empty selection at `cur`. -/
def ofLinesAt (ls : List (List Nat)) (cur : Coordinates) : TextEditor :=
  { mLines := ls.map toLine
    mState := { mSelectionStart := cur, mSelectionEnd := cur, mCursorPosition := cur } }

/-- An editor holding the given lines and breakpoints, everything else as constructed. -/
def withBreakpoints (ls : List (List Nat)) (bs : List Breakpoint) : TextEditor :=
  { mLines := ls.map toLine, mBreakpoints := bs }

/-- An editor holding the given lines and error markers, everything else as constructed. -/
def withMarkers (ls : List (List Nat)) (ms : List (Int × String)) : TextEditor :=
  { mLines := ls.map toLine, mErrorMarkers := ms }

/-- A case-sensitive language with the keyword set `{"if"}`, empty identifier tables and
the C-style tokenizer. -/
def ifLanguage : LanguageDefinition :=
  { mKeywords := [[105, 102]], mTokenize := some TokenizeCallback.CStyle }

/-- A document with the given lines in the given language, with no program symbols. -/
def withLanguage (lang : LanguageDefinition) (ls : List (List Nat)) : TextEditor :=
  { mLines := ls.map toLine, mLanguageDefinition := lang }

/-- A glyph of byte `c` flagged as preprocessor text. -/
def preprocGlyph (c : Nat) : Glyph :=
  { mChar := c, mPreprocessor := true }

/-- The comment delimiters and the tokenizer of `LanguageDefinition::CPlusPlus()`, with
empty keyword and identifier tables. -/
def cLikeLanguage : LanguageDefinition :=
  { mCommentStart := [47, 42], mCommentEnd := [42, 47], mSingleLineComment := [47, 47],
    mTokenize := some TokenizeCallback.CStyle }

/-- The language `cLikeLanguage` with the keyword set `{"if"}`; the preprocessor
character is `'#'`. -/
def ifKeywordLanguage : LanguageDefinition :=
  { cLikeLanguage with mKeywords := [[105, 102]] }

/-- The snippet `foo({$1:bar}, {$1})`. -/
def fooSnippet : Snippet :=
  { pieces := [([102, 111, 111, 40], { digits := [49], placeholder := [98, 97, 114] }),
               ([44, 32], { digits := [49], placeholder := [] })],
    last := [41] }

/-- The snippet `{$1:a}{$1:bcd}`: two markers of the id 1 with different placeholders. -/
def twoPlaceholders : Snippet :=
  { pieces := [([], { digits := [49], placeholder := [97] }),
               ([], { digits := [49], placeholder := [98, 99, 100] })],
    last := [] }

/-- The editor in which the word "fo" has been typed and the autocomplete offers the
suggestion "foo" with the expansion `foo({$1:bar}, {$1})`. -/
def suggestionOffered : TextEditor :=
  { mLines := [toLine [102, 111]]
    mState := { mCursorPosition := ⟨0, 2⟩ }
    mACSuggestions := [([102, 111, 111],
      [102, 111, 111, 40, 123, 36, 49, 58, 98, 97, 114, 125, 44, 32, 123, 36, 49, 125, 41])]
    mACIndex := 0
    mACOpened := true }

/-- The editor in which "xs In" has been typed on a line of the function `main`, which
has the local `pin` and the argument `index`; the program has the uniforms `input`,
`Index` and `win`, and the language the keywords `int` and `if` and the identifiers
`sin` and `min`. -/
def wordTyped : TextEditor :=
  { mLines := [toLine [120, 115, 32, 73, 110]]
    mState := { mCursorPosition := ⟨0, 5⟩ }
    mACFunctions := [([109, 97, 105, 110],
      { LineStart := 0, LineEnd := 3, Arguments := [[105, 110, 100, 101, 120]],
        Locals := [[112, 105, 110]] })]
    mACUniforms := [[105, 110, 112, 117, 116], [73, 110, 100, 101, 120], [119, 105, 110]]
    mLanguageDefinition :=
      { mKeywords := [[105, 110, 116], [105, 102]]
        mIdentifiers := [[115, 105, 110], [109, 105, 110]] } }

/-! ## Undo and redo at the level of the text -/

/-- The texts of the lines of a document. -/
def lineTexts (lines : Lines) : List (List Nat) :=
  lines.map lineText

/-- The editors hold the same text, line by line, and use the same tab size: all that
the range edits, `Undo` and `Redo` read of a document to change its text. -/
def SameText (x e : TextEditor) : Prop :=
  lineTexts x.mLines = lineTexts e.mLines ∧ x.mTabSize = e.mTabSize

/-- No line of the document holds a line break: the lines are the text split at every
`'\n'`, as `SetText`, `InsertTextAt` and `EnterCharacter` store it. -/
def NoLineBreak (lines : Lines) : Prop :=
  ∀ line ∈ lines, 10 ∉ lineText line

instance (lines : Lines) : Decidable (NoLineBreak lines) := by
  unfold NoLineBreak; infer_instance

/-- The edit from `e` to `E` is faithfully logged by the record `u` as far as the text
goes: `u` is the record appended to the log of `e`, with the selection and cursor of `e`
and of `E` as its snapshots; applying `u.Undo` to a document with the text of `E` gives
the text of `e`, and applying `u.Redo` to a document with the text of `e` gives the text
of `E`. -/
def TextFaithful (e E : TextEditor) (u : UndoRecord) : Prop :=
  ValidLog e
    ∧ E.mUndoBuffer = e.mUndoBuffer.take e.mUndoIndex.toNat ++ [u]
    ∧ E.mUndoIndex = e.mUndoIndex + 1
    ∧ settings E = settings e
    ∧ u.mBefore = e.mState ∧ u.mAfter = E.mState
    ∧ (∀ x : TextEditor, SameText x E → SameText (u.Undo x) e)
    ∧ (∀ y : TextEditor, SameText y e → SameText (u.Redo y) E)

/-- A run of `n` edits from `e` to `E`, each faithfully logged as far as the text goes. -/
inductive TextRun : TextEditor → Nat → TextEditor → Prop where
  | nil (e : TextEditor) : TextRun e 0 e
  | snoc {e e1 E : TextEditor} {n : Nat} (u : UndoRecord) :
      TextRun e n e1 → TextFaithful e1 E u → TextRun e (n + 1) E


/-- The edit from `e` to `E` can be undone as far as the text goes: the record that
`Undo` applies next to `E` gives, on a document with the text of `E`, the text of `e`. -/
def UndoLogged (e E : TextEditor) : Prop :=
  ∀ x : TextEditor, SameText x E → SameText ((lastRecord E).Undo x) e

/-- The removal of the text `R` at `a` that leads from the text of `e` to the text of `M`
can be undone, as the undo records see it: a record that holds `R` and `a` as its removed
text and its start and adds nothing gives, undone on a document with the text of `M`, the
text of `e`. -/
def RemovalUndone (e M : TextEditor) (R : List Nat) (a : Coordinates) : Prop :=
  ∀ (v : UndoRecord) (x : TextEditor), v.mAdded = [] → v.mRemoved = R → v.mRemovedStart = a →
    SameText x M → SameText (v.Undo x) e

/-- The removal of the text `R` between `a` and `b` that leads from the text of `e` to the
text of `M` can be redone, as the undo records see it: a record that holds `R`, `a` and
`b` as its removed text and range and adds nothing gives, redone on a document with the
text of `e`, the text of `M`. -/
def RemovalRedone (e M : TextEditor) (R : List Nat) (a b : Coordinates) : Prop :=
  ∀ (v : UndoRecord) (y : TextEditor), v.mAdded = [] → v.mRemoved = R →
    v.mRemovedStart = a → v.mRemovedEnd = b → SameText y e → SameText (v.Redo y) M

/-- The removal of the text `R` between `a` and `b` leads from the text of `e` to the text
of `M`, as the undo records see it: it can be undone and redone. -/
def RemovalLogged (e M : TextEditor) (R : List Nat) (a b : Coordinates) : Prop :=
  RemovalUndone e M R a ∧ RemovalRedone e M R a b

/-- The edit from `e` to `E` is logged by the record `u` so that it can be undone as far
as the text goes: `u` is the record appended to the log of `e`, with the selection and
cursor of `e` and of `E` as its snapshots, and applying `u.Undo` to a document with the
text of `E` gives the text of `e`. -/
def UndoFaithful (e E : TextEditor) (u : UndoRecord) : Prop :=
  ValidLog e
    ∧ E.mUndoBuffer = e.mUndoBuffer.take e.mUndoIndex.toNat ++ [u]
    ∧ E.mUndoIndex = e.mUndoIndex + 1
    ∧ settings E = settings e
    ∧ u.mBefore = e.mState ∧ u.mAfter = E.mState
    ∧ (∀ x : TextEditor, SameText x E → SameText (u.Undo x) e)

/-- The position is at a character start of its line, in the column that the code
computes for it: `GetCharacterColumn` of `GetCharacterIndex` gives the column back (the
position is not inside a tab or past the end of the line). -/
def AtCharacter (e : TextEditor) (p : Coordinates) : Prop :=
  p.mColumn = GetCharacterColumn e p.mLine (GetCharacterIndex e p)

instance (e : TextEditor) (p : Coordinates) : Decidable (AtCharacter e p) := by
  unfold AtCharacter; infer_instance

/-- The document is text as the editor stores it: lines of complete UTF-8 sequences on
which the tab-stop division is defined, none holding a line break. -/
def TextDocument (e : TextEditor) : Prop :=
  (∀ line ∈ e.mLines, Complete line)
    ∧ (∀ line ∈ e.mLines, TabStopsDefined e.mTabSize line)
    ∧ NoLineBreak e.mLines

instance (e : TextEditor) : Decidable (TextDocument e) := by
  unfold TextDocument; infer_instance

/-- The cursor is in a document: there is a line, and the cursor coordinates are not
negative. -/
def CursorInDocument (e : TextEditor) : Prop :=
  e.mLines ≠ [] ∧ 0 ≤ e.mState.mCursorPosition.mLine ∧ 0 ≤ e.mState.mCursorPosition.mColumn

instance (e : TextEditor) : Decidable (CursorInDocument e) := by
  unfold CursorInDocument; infer_instance

/-- Text that `InsertTextAt` puts back as it is: NUL-free, `'\r'`-free valid UTF-8. -/
def RestorableText (t : List Nat) : Prop :=
  0 ∉ t ∧ 13 ∉ t ∧ ValidUTF8 t

instance (t : List Nat) : Decidable (RestorableText t) := by
  unfold RestorableText; infer_instance

/-- The states in which `Delete` removes text that `Undo` puts back: a removable
selection; or no selection and the cursor in the document, either at the end of a line
other than the last (the lines are joined) or at the start of a character that is
restorable text. -/
def Delete.Restorable (e : TextEditor) : Prop :=
  if HasSelection e = true then RemovableSelection e
  else CursorInDocument e ∧
    (if (GetActualCursorCoordinates e).mColumn
        = GetLineMaxColumn e (GetActualCursorCoordinates e).mLine then
      (GetActualCursorCoordinates e).mLine ≠ (e.mLines.length : Int) - 1
    else AtCharacter e (GetActualCursorCoordinates e)
      ∧ RestorableText (GetText e (GetActualCursorCoordinates e)
          ⟨(GetActualCursorCoordinates e).mLine, (GetActualCursorCoordinates e).mColumn + 1⟩))

instance (e : TextEditor) : Decidable (Delete.Restorable e) := by
  unfold Delete.Restorable; infer_instance

/-- The byte before the cursor, which `Backspace` erases. -/
def Backspace.erasedChar (e : TextEditor) : Nat :=
  (glyphAt (lineAt e.mLines (GetActualCursorCoordinates e).mLine)
    ((GetCharacterIndex e (GetActualCursorCoordinates e)).toNat - 1)).mChar

/-- The start of the range that `Backspace` records as removed: the cursor moved left by
the tab size for a tab and by one column for any other byte. -/
def Backspace.erasedFrom (e : TextEditor) : Coordinates :=
  ⟨(GetActualCursorCoordinates e).mLine,
    (GetActualCursorCoordinates e).mColumn
      - (if Backspace.erasedChar e = 9 then (e.mTabSize : Int) else 1)⟩

/-- The test that `Backspace` makes before it also deletes the closing bracket: brace
completion is on and the bytes around `actualLoc` are a matching pair of brackets. -/
def Backspace.betweenBrackets (e : TextEditor) : Prop :=
  e.mCompleteBraces = true
    ∧ Backspace.actualLoc e.mTabSize (lineAt e.mLines (GetActualCursorCoordinates e).mLine)
        (GetActualCursorCoordinates e).mColumn > 0
    ∧ Backspace.actualLoc e.mTabSize (lineAt e.mLines (GetActualCursorCoordinates e).mLine)
        (GetActualCursorCoordinates e).mColumn
        < (lineAt e.mLines (GetActualCursorCoordinates e).mLine).length
    ∧ (((glyphAt (lineAt e.mLines (GetActualCursorCoordinates e).mLine)
            (Backspace.actualLoc e.mTabSize (lineAt e.mLines (GetActualCursorCoordinates e).mLine)
              (GetActualCursorCoordinates e).mColumn - 1).toNat).mChar = 40
          ∧ (glyphAt (lineAt e.mLines (GetActualCursorCoordinates e).mLine)
            (Backspace.actualLoc e.mTabSize (lineAt e.mLines (GetActualCursorCoordinates e).mLine)
              (GetActualCursorCoordinates e).mColumn).toNat).mChar = 41)
        ∨ ((glyphAt (lineAt e.mLines (GetActualCursorCoordinates e).mLine)
            (Backspace.actualLoc e.mTabSize (lineAt e.mLines (GetActualCursorCoordinates e).mLine)
              (GetActualCursorCoordinates e).mColumn - 1).toNat).mChar = 123
          ∧ (glyphAt (lineAt e.mLines (GetActualCursorCoordinates e).mLine)
            (Backspace.actualLoc e.mTabSize (lineAt e.mLines (GetActualCursorCoordinates e).mLine)
              (GetActualCursorCoordinates e).mColumn).toNat).mChar = 125)
        ∨ ((glyphAt (lineAt e.mLines (GetActualCursorCoordinates e).mLine)
            (Backspace.actualLoc e.mTabSize (lineAt e.mLines (GetActualCursorCoordinates e).mLine)
              (GetActualCursorCoordinates e).mColumn - 1).toNat).mChar = 91
          ∧ (glyphAt (lineAt e.mLines (GetActualCursorCoordinates e).mLine)
            (Backspace.actualLoc e.mTabSize (lineAt e.mLines (GetActualCursorCoordinates e).mLine)
              (GetActualCursorCoordinates e).mColumn).toNat).mChar = 93))

instance (e : TextEditor) : Decidable (Backspace.betweenBrackets e) := by
  unfold Backspace.betweenBrackets; infer_instance

/-- The states in which `Backspace` removes text that `Undo` puts back: a removable
selection; or no selection and the cursor in the document, either at the start of a line
other than the first (the lines are joined) or at a character start behind an ASCII byte
other than NUL and `'\r'` that takes the columns the code gives it (one column, or the
full tab size for a tab), the cursor not standing between a pair of brackets that brace
completion deletes together. -/
def Backspace.Restorable (e : TextEditor) : Prop :=
  if HasSelection e = true then RemovableSelection e
  else CursorInDocument e ∧
    (if (GetActualCursorCoordinates e).mColumn = 0 then (GetActualCursorCoordinates e).mLine ≠ 0
    else AtCharacter e (GetActualCursorCoordinates e)
      ∧ AtCharacter e (Backspace.erasedFrom e)
      ∧ GetCharacterIndex e (Backspace.erasedFrom e) + 1
          = GetCharacterIndex e (GetActualCursorCoordinates e)
      ∧ 0 < Backspace.erasedChar e ∧ Backspace.erasedChar e < 128 ∧ Backspace.erasedChar e ≠ 13
      ∧ ¬ Backspace.betweenBrackets e)

instance (e : TextEditor) : Decidable (Backspace.Restorable e) := by
  unfold Backspace.Restorable; infer_instance

/-- The text that `Paste` inserts: the clipboard text up to its first NUL (nothing when
the clipboard is empty). -/
def Paste.text (e : TextEditor) : List Nat :=
  match e.mClipboard with
  | none => []
  | some clip => cstr clip

/-- The states in which `Paste` makes an edit that `Undo` takes back: the clipboard text
is non-empty tab-free valid UTF-8 (the tab size being `≥ 1` where it has several lines and
auto-indent on paste is on), and the text goes in at a character start, which is the start
of a removable selection or, without a selection, the cursor. -/
def Paste.Restorable (e : TextEditor) : Prop :=
  Paste.text e ≠ [] ∧ 9 ∉ Paste.text e ∧ ValidUTF8 (Paste.text e)
    ∧ (e.mAutoindentOnPaste = true → 10 ∈ Paste.text e → 0 < e.mTabSize)
    ∧ (if HasSelection e = true then
        RemovableSelection e ∧ AtCharacter e e.mState.mSelectionStart
      else CursorInDocument e ∧ AtCharacter e (GetActualCursorCoordinates e))

instance (e : TextEditor) : Decidable (Paste.Restorable e) := by
  unfold Paste.Restorable; infer_instance

/-- The characters that `EnterCharacter` types as text: a character of the Basic
Multilingual Plane other than NUL and the low surrogates (for which nothing is typed), a
tab only with a tab size `≥ 1`, and none of `'{'`, `'('`, `'['` while brace completion is
on. -/
def EnterCharacter.Typed (e : TextEditor) (c : Nat) : Prop :=
  c ≠ 0 ∧ c < 0x10000 ∧ ¬ (0xdc00 ≤ c ∧ c < 0xe000) ∧ (c = 9 → 0 < e.mTabSize)
    ∧ (e.mCompleteBraces = true → c ≠ 123 ∧ c ≠ 40 ∧ c ≠ 91)

instance (e : TextEditor) (c : Nat) : Decidable (EnterCharacter.Typed e c) := by
  unfold EnterCharacter.Typed; infer_instance

/-- The test that `EnterCharacter` makes before it types over the character under the
cursor: overwrite mode is on and the cursor is not at the end of its line. -/
def EnterCharacter.overwrites (e : TextEditor) : Prop :=
  e.mOverwrite = true
    ∧ GetCharacterIndex e (GetActualCursorCoordinates e)
      < ((lineAt e.mLines (GetActualCursorCoordinates e).mLine).length : Nat)

instance (e : TextEditor) : Decidable (EnterCharacter.overwrites e) := by
  unfold EnterCharacter.overwrites; infer_instance

/-- The bytes that `EnterCharacter` erases in overwrite mode: those of the character
under the cursor. -/
def EnterCharacter.overwritten (e : TextEditor) : List Nat :=
  (eraseChars (GetCharacterIndex e (GetActualCursorCoordinates e)).toNat
    (UTF8CharLength (glyphAt (lineAt e.mLines (GetActualCursorCoordinates e).mLine)
      (GetCharacterIndex e (GetActualCursorCoordinates e)).toNat).mChar)
    (lineAt e.mLines (GetActualCursorCoordinates e).mLine) []).2

/-- The test that `EnterCharacter` makes before it indents or unindents the selected
lines: a tab is typed over a selection that spans several lines. -/
def EnterCharacter.indentsBlock (e : TextEditor) (c : Nat) : Prop :=
  HasSelection e = true ∧ c = 9
    ∧ e.mState.mSelectionStart.mLine ≠ e.mState.mSelectionEnd.mLine

instance (e : TextEditor) (c : Nat) : Decidable (EnterCharacter.indentsBlock e c) := by
  unfold EnterCharacter.indentsBlock; infer_instance

/-- The states in which the block indent makes an edit that `Undo` takes back: the
selection lies on lines of the document, the tab size is `≥ 1`, and the text of the block,
which the record keeps as removed, is restorable text. -/
def EnterCharacter.BlockRestorable (e : TextEditor) : Prop :=
  0 ≤ e.mState.mSelectionStart.mLine ∧ e.mState.mSelectionEnd.mLine < e.mLines.length
    ∧ 0 < e.mTabSize
    ∧ RestorableText (GetText e (EnterCharacter.blockBounds e).1 (EnterCharacter.blockBounds e).2.1)

instance (e : TextEditor) : Decidable (EnterCharacter.BlockRestorable e) := by
  unfold EnterCharacter.BlockRestorable; infer_instance

/-- The states in which `EnterCharacter(c)` makes an edit that `Undo` takes back.  A tab
over a selection of several lines (block indent): a restorable block.  A line break: over
a removable selection, or with the cursor in the document.  Any other character: one typed
as text, over a removable selection or, without a selection, at the cursor in the
document; where the character is typed over another one (overwrite mode, after the removal
of the selection), the character typed over is restorable text. -/
def EnterCharacter.Restorable (e : TextEditor) (c : Nat) : Prop :=
  if EnterCharacter.indentsBlock e c then EnterCharacter.BlockRestorable e
  else if c = 10 then
    (if HasSelection e = true then RemovableSelection e else CursorInDocument e)
  else EnterCharacter.Typed e c ∧
    (if HasSelection e = true then
      RemovableSelection e
        ∧ (EnterCharacter.overwrites (DeleteSelection e) →
            RestorableText (EnterCharacter.overwritten (DeleteSelection e)))
    else CursorInDocument e ∧
      (EnterCharacter.overwrites e → RestorableText (EnterCharacter.overwritten e)))

instance (e : TextEditor) (c : Nat) : Decidable (EnterCharacter.Restorable e c) := by
  unfold EnterCharacter.Restorable; infer_instance

/-- The blanks that `EnterCharacter('\n')` copies to the start of the new line: the
leading blanks of the cursor line (after the removal of the selection) when the language
asks for auto-indentation and smart indentation is on. -/
def EnterCharacter.copiedBlanks (e : TextEditor) : Line :=
  if ((EnterCharacter.deleteSelected e).1.mLanguageDefinition.mAutoIndentation
      && (EnterCharacter.deleteSelected e).1.mSmartIndent) = true then
    EnterCharacter.leadingBlanks
      (lineAt (EnterCharacter.deleteSelected e).1.mLines
        (GetActualCursorCoordinates (EnterCharacter.deleteSelected e).1).mLine)
  else []

/-- The states in which the edit command makes an edit that `Undo` takes back. -/
def EditCommand.Restorable (e : TextEditor) : EditCommand → Prop
  | .enterCharacter aChar _ => EnterCharacter.Restorable e aChar
  | .backspace => Backspace.Restorable e
  | .delete => Delete.Restorable e
  | .cut => RemovableSelection e
  | .paste => Paste.Restorable e

instance (e : TextEditor) (cmd : EditCommand) : Decidable (cmd.Restorable e) := by
  cases cmd <;> simp only [EditCommand.Restorable] <;> infer_instance

/-- The states in which the edit command makes an edit that `Undo` takes back and `Redo`
makes again: those in which `Undo` takes it back, where `EnterCharacter` indents no block,
types no `'\r'`, types a line break only where the new line is given no leading blanks,
and types over a character only without a selection, and where `Paste` puts in a text of
several lines only with auto-indent off. -/
def EditCommand.Redoable (e : TextEditor) : EditCommand → Prop
  | .enterCharacter aChar _ =>
    EnterCharacter.Restorable e aChar ∧ ¬ EnterCharacter.indentsBlock e aChar ∧ aChar ≠ 13
      ∧ (aChar = 10 → EnterCharacter.copiedBlanks e = [])
      ∧ (aChar ≠ 10 → HasSelection e = true → ¬ EnterCharacter.overwrites (DeleteSelection e))
  | .backspace => Backspace.Restorable e
  | .delete => Delete.Restorable e
  | .cut => RemovableSelection e
  | .paste => Paste.Restorable e ∧ (e.mAutoindentOnPaste = false ∨ 10 ∉ Paste.text e)

instance (e : TextEditor) (cmd : EditCommand) : Decidable (cmd.Redoable e) := by
  cases cmd <;> simp only [EditCommand.Redoable] <;> infer_instance

/-- Running the edit commands one after the other. -/
def runAll (e : TextEditor) (cmds : List EditCommand) : TextEditor :=
  cmds.foldl (fun e cmd => cmd.run e) e

/-- Every command of the list is run in a state in which its edit can be undone and
redone, on a document that is text as the editor stores it. -/
def RedoableRun : TextEditor → List EditCommand → Prop
  | _, [] => True
  | e, cmd :: rest => TextDocument e ∧ cmd.Redoable e ∧ RedoableRun (cmd.run e) rest

/-- Deciding `RedoableRun` by running the commands. -/
def RedoableRun.dec : (e : TextEditor) → (cmds : List EditCommand) → Decidable (RedoableRun e cmds)
  | _, [] => isTrue trivial
  | e, cmd :: rest =>
    match (inferInstance : Decidable (TextDocument e)) with
    | isFalse h => isFalse (fun hr => h hr.1)
    | isTrue h1 =>
      match (inferInstance : Decidable (cmd.Redoable e)) with
      | isFalse h => isFalse (fun hr => h hr.2.1)
      | isTrue h2 =>
        match RedoableRun.dec (cmd.run e) rest with
        | isFalse h => isFalse (fun hr => h hr.2.2)
        | isTrue h3 => isTrue ⟨h1, h2, h3⟩

instance (e : TextEditor) (cmds : List EditCommand) : Decidable (RedoableRun e cmds) :=
  RedoableRun.dec e cmds

/-! ## Lemmas on the UTF-8 and column walks -/
theorem UTF8CharLength_pos (c : Nat) : 1 ≤ UTF8CharLength c := by
  unfold UTF8CharLength; split_ifs <;> omega

theorem UTF8CharLength_le (c : Nat) : UTF8CharLength c ≤ 6 := by
  unfold UTF8CharLength; split_ifs <;> omega

theorem advanceColumn_tab_gt (T c : Nat) (hT : 0 < T) : c < (c / T) * T + T := by
  have h := Nat.div_add_mod c T
  have h2 := Nat.mod_lt c hT
  have h3 : T * (c / T) = (c / T) * T := Nat.mul_comm _ _
  omega

theorem advanceColumn_gt (T ch c : Nat) (h : ch = 9 → 0 < T) : c < advanceColumn T ch c := by
  unfold advanceColumn
  split_ifs with h9
  · exact advanceColumn_tab_gt T c (h h9)
  · omega

theorem glyphAt_append_length (pre : Line) (g : Glyph) (rest : Line) :
    glyphAt (pre ++ g :: rest) pre.length = g := by
  unfold glyphAt
  rw [List.getD_eq_getElem?_getD, List.getElem?_append_right (Nat.le_refl _)]
  simp

/-- Splitting off the pending continuation bytes of a complete suffix. -/
theorem completeFrom_split (s : Nat) (l : Line) (h : completeFrom s l = true) :
    ∃ tl suf, l = tl ++ suf ∧ tl.length = s ∧ completeFrom 0 suf = true := by
  induction l generalizing s with
  | nil =>
    cases s with
    | zero => exact ⟨[], [], rfl, rfl, rfl⟩
    | succ n => simp [completeFrom] at h
  | cons g rest ih =>
    cases s with
    | zero => exact ⟨[], g :: rest, rfl, rfl, h⟩
    | succ n =>
      simp only [completeFrom] at h
      obtain ⟨tl, suf, h1, h2, h3⟩ := ih n h
      exact ⟨g :: tl, suf, by simp [h1], by simp [h2], h3⟩

theorem completeFrom_append (s : Nat) (tl suf : Line) (h : tl.length = s) :
    completeFrom s (tl ++ suf) = completeFrom 0 suf := by
  induction tl generalizing s with
  | nil => simp at h; subst h; rfl
  | cons g rest ih =>
    cases s with
    | zero => simp at h
    | succ n =>
      simp only [List.cons_append, completeFrom]
      exact ih n (by simpa using h)

theorem colWalk_append (T s : Nat) (tl suf : Line) (c : Nat) (h : tl.length = s) :
    colWalk T s (tl ++ suf) c = colWalk T 0 suf c := by
  induction tl generalizing s with
  | nil => simp at h; subst h; rfl
  | cons g rest ih =>
    cases s with
    | zero => simp at h
    | succ n =>
      simp only [List.cons_append, colWalk]
      exact ih n (by simpa using h)

theorem idxWalk_append (T : Nat) (col : Int) (s : Nat) (tl suf : Line) (c : Nat)
    (h : tl.length = s) :
    idxWalk T col s (tl ++ suf) c = s + idxWalk T col 0 suf c := by
  induction tl generalizing s with
  | nil => simp at h; subst h; simp
  | cons g rest ih =>
    cases s with
    | zero => simp at h
    | succ n =>
      have := ih n (by simpa using h)
      simp only [List.cons_append, idxWalk, List.append_eq, this]; omega

/-- The loop of `GetCharacterIndex` on a complete suffix is the structural walk. -/
theorem GetCharacterIndex_loop_eq (T : Nat) (col : Int) (fuel : Nat) :
    ∀ (pre suf : Line) (c : Nat), completeFrom 0 suf = true → suf.length ≤ fuel →
      GetCharacterIndex.loop (pre ++ suf) T col fuel pre.length c
        = pre.length + idxWalk T col 0 suf c := by
  induction fuel with
  | zero =>
    intro pre suf c _ hf
    have : suf = [] := List.length_eq_zero.mp (Nat.le_zero.mp hf)
    subst this; simp [GetCharacterIndex.loop, idxWalk]
  | succ n ih =>
    intro pre suf c hc hf
    cases suf with
    | nil => simp [GetCharacterIndex.loop, idxWalk]
    | cons g rest =>
      simp only [GetCharacterIndex.loop, idxWalk, glyphAt_append_length]
      simp only [completeFrom] at hc
      obtain ⟨tl, suf', h1, h2, h3⟩ := completeFrom_split _ _ hc
      subst h1
      have hlen : pre.length < (pre ++ g :: (tl ++ suf')).length := by simp
      by_cases hcol : (c : Int) < col
      · simp only [hlen, hcol, and_self, if_true]
        have hpre : pre ++ g :: (tl ++ suf') = (pre ++ g :: tl) ++ suf' := by simp
        have hl : (pre ++ g :: tl).length = pre.length + UTF8CharLength g.mChar := by
          have := UTF8CharLength_pos g.mChar
          simp [h2]; omega
        rw [hpre, ← hl, ih (pre ++ g :: tl) suf' _ h3 (by simp at hf; omega)]
        rw [idxWalk_append T col _ tl suf' _ h2, hl]
        have := UTF8CharLength_pos g.mChar
        omega
      · simp [hcol]

theorem loop_index_ge (line : Line) (T : Nat) (aIndex : Int) (fuel i col : Nat)
    (h : line.length ≤ i) : GetCharacterColumn.loop line T aIndex fuel i col = col := by
  cases fuel with
  | zero => rfl
  | succ n => simp [GetCharacterColumn.loop]; intro _ h2; omega

theorem colWalk_skip (T : Nat) (s : Nat) (l : Line) (c : Nat) :
    colWalk T s l c = colWalk T 0 (l.drop s) c := by
  induction l generalizing s with
  | nil => cases s <;> simp [colWalk]
  | cons g rest ih =>
    cases s with
    | zero => rfl
    | succ n => simp only [colWalk, List.drop_succ_cons]; exact ih n

/-- The loop of `GetCharacterColumn` is the structural column walk over the first
`aIndex` bytes. -/
theorem GetCharacterColumn_loop_eq (T : Nat) (aIndex : Int) (fuel : Nat) :
    ∀ (pre suf : Line) (col : Nat), suf.length ≤ fuel →
      GetCharacterColumn.loop (pre ++ suf) T aIndex fuel pre.length col
        = colWalk T 0 (suf.take (aIndex - pre.length).toNat) col := by
  induction fuel with
  | zero =>
    intro pre suf col hf
    have : suf = [] := List.length_eq_zero.mp (Nat.le_zero.mp hf)
    subst this; simp [GetCharacterColumn.loop, colWalk]
  | succ n ih =>
    intro pre suf col hf
    cases suf with
    | nil => simp [GetCharacterColumn.loop, colWalk]
    | cons g rest =>
      simp only [GetCharacterColumn.loop, glyphAt_append_length]
      have hlen : pre.length < (pre ++ g :: rest).length := by simp
      by_cases hidx : (pre.length : Int) < aIndex
      · simp only [hidx, hlen, and_self, if_true]
        obtain ⟨k, hk⟩ : ∃ k : Nat, (aIndex - pre.length).toNat = k + 1 :=
          ⟨(aIndex - pre.length).toNat - 1, by omega⟩
        rw [hk, List.take_succ_cons]
        simp only [colWalk]
        rw [colWalk_skip, List.drop_take]
        have hpos := UTF8CharLength_pos g.mChar
        by_cases hshort : UTF8CharLength g.mChar - 1 ≤ rest.length
        · have hpre : pre ++ g :: rest
              = (pre ++ g :: rest.take (UTF8CharLength g.mChar - 1))
                ++ rest.drop (UTF8CharLength g.mChar - 1) := by simp
          have hl : (pre ++ g :: rest.take (UTF8CharLength g.mChar - 1)).length
              = pre.length + UTF8CharLength g.mChar := by
            simp [List.length_take]; omega
          rw [hpre, ← hl, ih _ _ _ (by simp at hf ⊢; omega), hl]
          congr 2
          omega
        · rw [loop_index_ge _ _ _ _ _ _ (by simp; omega)]
          rw [List.drop_eq_nil_of_le (by omega)]
          simp [colWalk]
      · have : (aIndex - pre.length).toNat = 0 := by omega
        simp [hidx, this, colWalk]

theorem maxcol_loop_index_ge (line : Line) (T : Nat) (fuel i col : Nat)
    (h : line.length ≤ i) : GetLineMaxColumn.loop line T fuel i col = col := by
  cases fuel with
  | zero => rfl
  | succ n => simp [GetLineMaxColumn.loop]; omega

/-- The loop of `GetLineMaxColumn` is the structural column walk over the whole line. -/
theorem GetLineMaxColumn_loop_eq (T : Nat) (fuel : Nat) :
    ∀ (pre suf : Line) (col : Nat), suf.length ≤ fuel →
      GetLineMaxColumn.loop (pre ++ suf) T fuel pre.length col = colWalk T 0 suf col := by
  induction fuel with
  | zero =>
    intro pre suf col hf
    have : suf = [] := List.length_eq_zero.mp (Nat.le_zero.mp hf)
    subst this; simp [GetLineMaxColumn.loop, colWalk]
  | succ n ih =>
    intro pre suf col hf
    cases suf with
    | nil => simp [GetLineMaxColumn.loop, colWalk]
    | cons g rest =>
      simp only [GetLineMaxColumn.loop, glyphAt_append_length]
      have hlen : pre.length < (pre ++ g :: rest).length := by simp
      simp only [hlen, if_true, colWalk]
      rw [colWalk_skip]
      have hpos := UTF8CharLength_pos g.mChar
      by_cases hshort : UTF8CharLength g.mChar - 1 ≤ rest.length
      · have hpre : pre ++ g :: rest
            = (pre ++ g :: rest.take (UTF8CharLength g.mChar - 1))
              ++ rest.drop (UTF8CharLength g.mChar - 1) := by simp
        have hl : (pre ++ g :: rest.take (UTF8CharLength g.mChar - 1)).length
            = pre.length + UTF8CharLength g.mChar := by
          simp [List.length_take]; omega
        rw [hpre, ← hl, ih _ _ _ (by simp at hf ⊢; omega)]
      · rw [maxcol_loop_index_ge _ _ _ _ _ (by simp; omega)]
        rw [List.drop_eq_nil_of_le (by omega)]
        simp [colWalk]

/-! ### The three coordinate functions in structural form -/

theorem lineAt_natCast (lines : Lines) (l : Nat) : lineAt lines (l : Int) = lines.getD l [] := by
  simp [lineAt]

theorem GetLineMaxColumn_eq (e : TextEditor) (l : Int) (h0 : 0 ≤ l) (h1 : l < e.mLines.length) :
    GetLineMaxColumn e l = (colWalk e.mTabSize 0 (lineAt e.mLines l) 0 : Nat) := by
  unfold GetLineMaxColumn
  rw [if_neg (by omega)]
  have := GetLineMaxColumn_loop_eq e.mTabSize (lineAt e.mLines l).length [] (lineAt e.mLines l) 0
    (Nat.le_refl _)
  simp only [List.nil_append, List.length_nil] at this
  simp [this]

theorem GetCharacterColumn_eq (e : TextEditor) (l : Int) (aIndex : Int) (h0 : 0 ≤ l)
    (h1 : l < e.mLines.length) :
    GetCharacterColumn e l aIndex
      = (colWalk e.mTabSize 0 ((lineAt e.mLines l).take aIndex.toNat) 0 : Nat) := by
  unfold GetCharacterColumn
  rw [if_neg (by omega)]
  have := GetCharacterColumn_loop_eq e.mTabSize aIndex (lineAt e.mLines l).length []
    (lineAt e.mLines l) 0 (Nat.le_refl _)
  simp only [List.nil_append, List.length_nil] at this
  simp [this]

theorem GetCharacterIndex_eq (e : TextEditor) (c : Coordinates) (h0 : 0 ≤ c.mLine)
    (h1 : c.mLine < e.mLines.length) (hc : Complete (lineAt e.mLines c.mLine)) :
    GetCharacterIndex e c
      = (idxWalk e.mTabSize c.mColumn 0 (lineAt e.mLines c.mLine) 0 : Nat) := by
  unfold GetCharacterIndex
  rw [if_neg (by omega)]
  have := GetCharacterIndex_loop_eq e.mTabSize c.mColumn (lineAt e.mLines c.mLine).length []
    (lineAt e.mLines c.mLine) 0 hc (Nat.le_refl _)
  simp only [List.nil_append, List.length_nil] at this
  simp [this]

/-! ### Properties of the structural walks -/

/-- Induction over a complete line, one UTF-8 sequence at a time. -/
theorem complete_induction (P : Line → Prop) (hnil : P [])
    (hstep : ∀ (g : Glyph) (tl suf : Line), tl.length = UTF8CharLength g.mChar - 1 →
      completeFrom 0 suf = true → P suf → P (g :: (tl ++ suf))) :
    ∀ l : Line, completeFrom 0 l = true → P l := by
  intro l
  induction' hn : l.length using Nat.strong_induction_on with n ih generalizing l
  intro hl
  cases l with
  | nil => exact hnil
  | cons g rest =>
    simp only [completeFrom] at hl
    obtain ⟨tl, suf, h1, h2, h3⟩ := completeFrom_split _ _ hl
    subst h1
    exact hstep g tl suf h2 h3 (ih suf.length (by simp at hn; omega) suf rfl h3)

theorem complete_cons (g : Glyph) (tl suf : Line) (h : tl.length = UTF8CharLength g.mChar - 1) :
    completeFrom 0 (g :: (tl ++ suf)) = completeFrom 0 suf := by
  simp only [completeFrom]
  exact completeFrom_append _ tl suf h

theorem complete_append (pre suf : Line) (hp : completeFrom 0 pre = true) :
    completeFrom 0 (pre ++ suf) = completeFrom 0 suf := by
  revert hp
  refine complete_induction (fun pre => completeFrom 0 (pre ++ suf) = completeFrom 0 suf)
    rfl ?_ pre
  intro g tl s htl _ ih
  have : g :: (tl ++ s) ++ suf = g :: (tl ++ (s ++ suf)) := by simp
  rw [this, complete_cons g tl _ htl, ih]

theorem colWalk_cons (T : Nat) (g : Glyph) (tl suf : Line) (c : Nat)
    (h : tl.length = UTF8CharLength g.mChar - 1) :
    colWalk T 0 (g :: (tl ++ suf)) c = colWalk T 0 suf (advanceColumn T g.mChar c) := by
  simp only [colWalk]
  exact colWalk_append T _ tl suf _ h

theorem idxWalk_cons (T : Nat) (col : Int) (g : Glyph) (tl suf : Line) (c : Nat)
    (h : tl.length = UTF8CharLength g.mChar - 1) :
    idxWalk T col 0 (g :: (tl ++ suf)) c
      = if (c : Int) < col then
          UTF8CharLength g.mChar + idxWalk T col 0 suf (advanceColumn T g.mChar c)
        else 0 := by
  simp only [idxWalk]
  rw [idxWalk_append T col _ tl suf _ h]
  have := UTF8CharLength_pos g.mChar
  split_ifs <;> omega

theorem idxWalk_le_length (T : Nat) (col : Int) (s : Nat) (l : Line) (c : Nat) :
    idxWalk T col s l c ≤ l.length := by
  induction l generalizing s c with
  | nil => cases s <;> simp [idxWalk]
  | cons g rest ih =>
    cases s with
    | zero =>
      simp only [idxWalk]
      split_ifs
      · have := ih (UTF8CharLength g.mChar - 1) (advanceColumn T g.mChar c)
        simp; omega
      · simp
    | succ n =>
      simp only [idxWalk]
      have := ih n c
      simp; omega

theorem TabStopsDefined_cons {T : Nat} {g : Glyph} {tl suf : Line}
    (h : TabStopsDefined T (g :: (tl ++ suf))) :
    (g.mChar = 9 → 0 < T) ∧ TabStopsDefined T suf := by
  constructor
  · exact h g (by simp)
  · intro x hx; exact h x (by simp [hx])

theorem TabStopsDefined_append_left {T : Nat} {a b : Line} (h : TabStopsDefined T (a ++ b)) :
    TabStopsDefined T a := by
  intro x hx; exact h x (by simp [hx])

theorem TabStopsDefined_append_right {T : Nat} {a b : Line} (h : TabStopsDefined T (a ++ b)) :
    TabStopsDefined T b := by
  intro x hx; exact h x (by simp [hx])

theorem TabStopsDefined_of_pos {T : Nat} (hT : 0 < T) (l : Line) : TabStopsDefined T l :=
  fun _ _ _ => hT

/-- Columns never decrease along a walk whose tab stops are defined. -/
theorem le_colWalk (T : Nat) (l : Line) (hl : completeFrom 0 l = true) :
    TabStopsDefined T l → ∀ c, c ≤ colWalk T 0 l c := by
  refine complete_induction (fun l => TabStopsDefined T l → ∀ c, c ≤ colWalk T 0 l c) ?_ ?_ l hl
  · intro _ c; simp [colWalk]
  · intro g tl suf htl _ ih htab c
    rw [colWalk_cons T g tl suf c htl]
    have h1 := advanceColumn_gt T g.mChar c (TabStopsDefined_cons htab).1
    have h2 := ih (TabStopsDefined_cons htab).2 (advanceColumn T g.mChar c)
    omega

/-- Walking to the column reached after a complete run of bytes stops exactly after it. -/
theorem idxWalk_colWalk (T : Nat) (pre : Line) (hp : completeFrom 0 pre = true) :
    TabStopsDefined T pre → ∀ (c : Nat) (post : Line),
      idxWalk T (colWalk T 0 pre c : Nat) 0 (pre ++ post) c = pre.length := by
  refine complete_induction (fun pre => TabStopsDefined T pre → ∀ (c : Nat) (post : Line),
      idxWalk T (colWalk T 0 pre c : Nat) 0 (pre ++ post) c = pre.length) ?_ ?_ pre hp
  · intro _ c post
    cases post with
    | nil => simp [idxWalk]
    | cons g rest => simp [idxWalk, colWalk]
  · intro g tl suf htl hsuf ih htab c post
    have happ : g :: (tl ++ suf) ++ post = g :: (tl ++ (suf ++ post)) := by simp
    rw [happ, idxWalk_cons T _ g tl _ c htl, colWalk_cons T g tl suf c htl]
    have h1 := advanceColumn_gt T g.mChar c (TabStopsDefined_cons htab).1
    have h2 := le_colWalk T suf hsuf (TabStopsDefined_cons htab).2 (advanceColumn T g.mChar c)
    rw [if_pos (by exact_mod_cast (by omega : c < colWalk T 0 suf (advanceColumn T g.mChar c)))]
    rw [ih (TabStopsDefined_cons htab).2]
    have := UTF8CharLength_pos g.mChar
    simp [htl]; omega

/-- The walk of `GetCharacterIndex` stops at a character boundary. -/
theorem idxWalk_boundary (T : Nat) (col : Int) (l : Line) (hl : completeFrom 0 l = true) :
    ∀ c, completeFrom 0 (l.take (idxWalk T col 0 l c)) = true
      ∧ completeFrom 0 (l.drop (idxWalk T col 0 l c)) = true := by
  refine complete_induction (fun l => ∀ c, completeFrom 0 (l.take (idxWalk T col 0 l c)) = true
      ∧ completeFrom 0 (l.drop (idxWalk T col 0 l c)) = true) ?_ ?_ l hl
  · intro c; simp [idxWalk, completeFrom]
  · intro g tl suf htl hsuf ih c
    rw [idxWalk_cons T col g tl suf c htl]
    split_ifs with h
    · have hpos := UTF8CharLength_pos g.mChar
      obtain ⟨k, hk⟩ : ∃ k, UTF8CharLength g.mChar = k + 1 := ⟨UTF8CharLength g.mChar - 1, by omega⟩
      have htl' : tl.length = k := by omega
      obtain ⟨i1, i2⟩ := ih (advanceColumn T g.mChar c)
      constructor
      · rw [hk, Nat.add_right_comm, List.take_succ_cons, ← htl', List.take_append]
        rw [complete_cons g tl _ htl]; exact i1
      · rw [hk, Nat.add_right_comm, List.drop_succ_cons, ← htl', List.drop_append]
        exact i2
    · simp only [List.take_zero, List.drop_zero]
      exact ⟨rfl, by rw [complete_cons g tl suf htl]; exact hsuf⟩

/-- Where the walk of `GetCharacterIndex` stops, the column is at least the target,
provided the target does not exceed the line's maximum column. -/
theorem le_colWalk_take_idxWalk (T : Nat) (col : Int) (l : Line) (hl : completeFrom 0 l = true) :
    ∀ c, col ≤ (colWalk T 0 l c : Nat) →
      col ≤ (colWalk T 0 (l.take (idxWalk T col 0 l c)) c : Nat) := by
  refine complete_induction (fun l => ∀ c, col ≤ (colWalk T 0 l c : Nat) →
      col ≤ (colWalk T 0 (l.take (idxWalk T col 0 l c)) c : Nat)) ?_ ?_ l hl
  · intro c h; simpa [colWalk, idxWalk] using h
  · intro g tl suf htl _ ih c h
    rw [idxWalk_cons T col g tl suf c htl]
    rw [colWalk_cons T g tl suf c htl] at h
    split_ifs with hlt
    · have hpos := UTF8CharLength_pos g.mChar
      obtain ⟨k, hk⟩ : ∃ k, UTF8CharLength g.mChar = k + 1 := ⟨UTF8CharLength g.mChar - 1, by omega⟩
      have htl' : tl.length = k := by omega
      rw [hk, Nat.add_right_comm, List.take_succ_cons, ← htl', List.take_append,
        colWalk_cons T g tl _ c htl]
      exact ih _ h
    · simp only [List.take_zero, colWalk]; omega

/-- The bytes after the stopping point do not influence where the walk stops. -/
theorem idxWalk_append_of_le (T : Nat) (col : Int) (pre : Line) (hp : completeFrom 0 pre = true) :
    ∀ (c : Nat) (post : Line), col ≤ (colWalk T 0 pre c : Nat) →
      idxWalk T col 0 (pre ++ post) c = idxWalk T col 0 pre c := by
  refine complete_induction (fun pre => ∀ (c : Nat) (post : Line),
      col ≤ (colWalk T 0 pre c : Nat) →
      idxWalk T col 0 (pre ++ post) c = idxWalk T col 0 pre c) ?_ ?_ pre hp
  · intro c post h
    simp only [colWalk] at h
    cases post with
    | nil => rfl
    | cons g rest => simp only [List.nil_append, idxWalk]; rw [if_neg (by omega)]
  · intro g tl suf htl _ ih c post h
    have happ : g :: (tl ++ suf) ++ post = g :: (tl ++ (suf ++ post)) := by simp
    rw [happ, idxWalk_cons T _ g tl _ c htl, idxWalk_cons T _ g tl _ c htl]
    rw [colWalk_cons T g tl suf c htl] at h
    split_ifs
    · rw [ih _ _ h]
    · rfl

/-- The walk of `GetCharacterIndex` is monotone in the target column. -/
theorem idxWalk_mono (T : Nat) (col1 col2 : Int) (hcol : col1 ≤ col2) (s : Nat) (l : Line) :
    ∀ c, idxWalk T col1 s l c ≤ idxWalk T col2 s l c := by
  induction l generalizing s with
  | nil => intro c; cases s <;> simp [idxWalk]
  | cons g rest ih =>
    intro c
    cases s with
    | zero =>
      simp only [idxWalk]
      by_cases h1 : (c : Int) < col1
      · rw [if_pos h1, if_pos (by omega)]
        have := ih (UTF8CharLength g.mChar - 1) (advanceColumn T g.mChar c)
        omega
      · rw [if_neg h1]; omega
    | succ n =>
      simp only [idxWalk]
      have := ih n c
      omega

/-- A target at or beyond the maximum column sends the walk to the end of the line. -/
theorem idxWalk_eq_length (T : Nat) (col : Int) (l : Line) (hl : completeFrom 0 l = true) :
    TabStopsDefined T l → ∀ c, (colWalk T 0 l c : Nat) ≤ col →
      idxWalk T col 0 l c = l.length := by
  refine complete_induction (fun l => TabStopsDefined T l → ∀ c, (colWalk T 0 l c : Nat) ≤ col →
      idxWalk T col 0 l c = l.length) ?_ ?_ l hl
  · intro _ c _; simp [idxWalk]
  · intro g tl suf htl hsuf ih htab c h
    rw [idxWalk_cons T col g tl suf c htl]
    rw [colWalk_cons T g tl suf c htl] at h
    have h1 := advanceColumn_gt T g.mChar c (TabStopsDefined_cons htab).1
    have h2 := le_colWalk T suf hsuf (TabStopsDefined_cons htab).2 (advanceColumn T g.mChar c)
    rw [if_pos (by omega), ih (TabStopsDefined_cons htab).2 _ h]
    have := UTF8CharLength_pos g.mChar
    simp [htl]; omega

/-! ## Coordinate system: claims C7 to C10 -/

theorem colWalk_short (T s : Nat) (l : Line) (c : Nat) (h : l.length ≤ s) :
    colWalk T s l c = c := by
  rw [colWalk_skip, List.drop_eq_nil_of_le h]; rfl

theorem colWalk_complete_append (T : Nat) (pre : Line) (hp : completeFrom 0 pre = true) :
    ∀ (c : Nat) (post : Line),
      colWalk T 0 (pre ++ post) c = colWalk T 0 post (colWalk T 0 pre c) := by
  refine complete_induction (fun pre => ∀ (c : Nat) (post : Line),
      colWalk T 0 (pre ++ post) c = colWalk T 0 post (colWalk T 0 pre c)) ?_ ?_ pre hp
  · intro c post; rfl
  · intro g tl suf htl _ ih c post
    have happ : g :: (tl ++ suf) ++ post = g :: (tl ++ (suf ++ post)) := by simp
    rw [happ, colWalk_cons T g tl _ c htl, colWalk_cons T g tl _ c htl, ih]

theorem GetLineMaxColumn_nonneg (e : TextEditor) (l : Int) : 0 ≤ GetLineMaxColumn e l := by
  unfold GetLineMaxColumn
  split_ifs
  · exact le_refl _
  · exact Int.natCast_nonneg _

/-- C7: for every tab size >= 1, every line made of complete UTF-8 sequences and every
byte index `i` that is a character start or the line length,
`GetCharacterIndex((line, GetCharacterColumn(line, i))) = i`. -/
theorem C7_index_of_column_roundtrip (e : TextEditor) (l : Int) (i : Nat)
    (hT : 1 ≤ e.mTabSize) (h0 : 0 ≤ l) (h1 : l < e.mLines.length)
    (hline : Complete (lineAt e.mLines l)) (hi : IsCharBoundary (lineAt e.mLines l) i) :
    GetCharacterIndex e ⟨l, GetCharacterColumn e l i⟩ = i := by
  rw [GetCharacterIndex_eq e _ h0 h1 hline, GetCharacterColumn_eq e l i h0 h1]
  simp only [Int.toNat_ofNat]
  have hsplit : lineAt e.mLines l = (lineAt e.mLines l).take i ++ (lineAt e.mLines l).drop i :=
    (List.take_append_drop i _).symm
  have key := idxWalk_colWalk e.mTabSize ((lineAt e.mLines l).take i) hi.2
    (TabStopsDefined_of_pos hT _) 0 ((lineAt e.mLines l).drop i)
  rw [← hsplit] at key
  rw [key, List.length_take, Nat.min_eq_left hi.1]

theorem C7_index_of_column_roundtrip_witness :
    GetCharacterIndex (ofLines [[9, 195, 169, 88]]) ⟨0, GetCharacterColumn (ofLines [[9, 195, 169, 88]]) 0 3⟩ = 3 :=
  C7_index_of_column_roundtrip (ofLines [[9, 195, 169, 88]]) 0 3 (by decide) (by decide) (by decide)
    (by decide) (by decide)

theorem tab_stop_least (T c m : Nat) (hT : 0 < T) (hdvd : T ∣ m) (hlt : c < m) :
    (c / T) * T + T ≤ m := by
  obtain ⟨k, rfl⟩ := hdvd
  have h1 : c / T < k := by
    rw [Nat.div_lt_iff_lt_mul hT]; rw [Nat.mul_comm]; exact hlt
  have h2 : (c / T + 1) * T ≤ k * T := Nat.mul_le_mul_right T h1
  rw [Nat.add_mul, Nat.one_mul] at h2
  rw [Nat.mul_comm T k]; exact h2

/-- C8: `GetCharacterColumn` computes the tab-expanded column.  With tab size 4 and the
line "\tX" the columns of the byte indices 0, 1 and 2 are 0, 4 and 5.  In general the
column of index 0 is 0, and the character starting at a boundary `j` takes the column of
every index in `(j, j + length]` to the column at `j` plus 1 when it is not a tab, and to
the smallest multiple of the tab size strictly greater than the column at `j` when it is. -/
theorem C8_character_column_tab_expansion :
    (GetCharacterColumn (ofLines [[9, 88]]) 0 0 = 0
      ∧ GetCharacterColumn (ofLines [[9, 88]]) 0 1 = 4
      ∧ GetCharacterColumn (ofLines [[9, 88]]) 0 2 = 5)
    ∧ ∀ (e : TextEditor) (l : Int), 0 ≤ l → l < e.mLines.length →
        GetCharacterColumn e l 0 = 0
        ∧ ∀ (j i : Nat), 1 ≤ e.mTabSize → IsCharBoundary (lineAt e.mLines l) j →
            j < (lineAt e.mLines l).length → j < i →
            i ≤ j + UTF8CharLength (glyphAt (lineAt e.mLines l) j).mChar →
            if (glyphAt (lineAt e.mLines l) j).mChar = 9 then
              (e.mTabSize : Int) ∣ GetCharacterColumn e l i
              ∧ GetCharacterColumn e l j < GetCharacterColumn e l i
              ∧ ∀ m : Nat, e.mTabSize ∣ m → GetCharacterColumn e l j < m →
                  GetCharacterColumn e l i ≤ m
            else GetCharacterColumn e l i = GetCharacterColumn e l j + 1 := by
  refine ⟨by decide, ?_⟩
  intro e l h0 h1
  refine ⟨by rw [GetCharacterColumn_eq e l 0 h0 h1]; simp [colWalk], ?_⟩
  intro j i hT hj hjlt hji hij
  rw [GetCharacterColumn_eq e l i h0 h1, GetCharacterColumn_eq e l j h0 h1]
  simp only [Int.toNat_ofNat]
  generalize hline : lineAt e.mLines l = line at *
  -- split the first `i` bytes at the boundary `j`
  have htake : line.take i = line.take j ++ (line.drop j).take (i - j) := by
    have := List.take_add line j (i - j)
    rwa [Nat.add_sub_cancel' (Nat.le_of_lt hji)] at this
  obtain ⟨g, rest, hdrop⟩ : ∃ g rest, line.drop j = g :: rest := by
    cases hd : line.drop j with
    | nil => simp at hd; omega
    | cons g rest => exact ⟨g, rest, rfl⟩
  have hg : glyphAt line j = g := by
    have hlen : (line.take j).length = j := by simp [List.length_take]; omega
    have h := glyphAt_append_length (line.take j) g rest
    rw [← hdrop, List.take_append_drop, hlen] at h
    exact h
  rw [hg] at hij ⊢
  obtain ⟨k, hk⟩ : ∃ k, i - j = k + 1 := ⟨i - j - 1, by omega⟩
  rw [htake, colWalk_complete_append _ _ hj.2, hdrop, hk, List.take_succ_cons]
  simp only [colWalk]
  rw [colWalk_short _ _ _ _ (by simp [List.length_take]; omega)]
  generalize colWalk e.mTabSize 0 (List.take j line) 0 = c
  unfold advanceColumn
  split_ifs with h9
  · refine ⟨?_, ?_, ?_⟩
    · exact Int.natCast_dvd_natCast.mpr ⟨c / e.mTabSize + 1, by ring⟩
    · exact_mod_cast advanceColumn_tab_gt e.mTabSize c hT
    · intro m hm hlt
      exact_mod_cast tab_stop_least e.mTabSize c m hT hm (by exact_mod_cast hlt)
  · push_cast; ring

theorem C8_character_column_tab_expansion_witness :
    (4 : Int) ∣ GetCharacterColumn (ofLines [[9, 88]]) 0 1
      ∧ GetCharacterColumn (ofLines [[9, 88]]) 0 0 < GetCharacterColumn (ofLines [[9, 88]]) 0 1
      ∧ ∀ m : Nat, 4 ∣ m → GetCharacterColumn (ofLines [[9, 88]]) 0 0 < m →
          GetCharacterColumn (ofLines [[9, 88]]) 0 1 ≤ m :=
  (C8_character_column_tab_expansion.2 (ofLines [[9, 88]]) 0 (by decide) (by decide)).2 0 1
    (by decide) (by decide) (by decide) (by decide) (by decide)

/-- C9: for every non-empty document on which the tab-stop division is defined (tab
size `≥ 1` when a line holds a tab) and every coordinate `c` with line >= 0 and
column >= 0, `s = SanitizeCoordinates(c)` satisfies `s.line < line count`,
`0 <= s.column <= GetLineMaxColumn(s.line)`, and `SanitizeCoordinates(s) = s`. -/
theorem C9_sanitize_in_range_idempotent (e : TextEditor) (c : Coordinates)
    (hne : e.mLines ≠ []) (_htab : ∀ line ∈ e.mLines, TabStopsDefined e.mTabSize line)
    (h0 : 0 ≤ c.mLine) (h1 : 0 ≤ c.mColumn) :
    0 ≤ (SanitizeCoordinates e c).mLine
      ∧ (SanitizeCoordinates e c).mLine < e.mLines.length
      ∧ 0 ≤ (SanitizeCoordinates e c).mColumn
      ∧ (SanitizeCoordinates e c).mColumn ≤ GetLineMaxColumn e (SanitizeCoordinates e c).mLine
      ∧ SanitizeCoordinates e (SanitizeCoordinates e c) = SanitizeCoordinates e c := by
  have hlen : 0 < e.mLines.length := List.length_pos.mpr hne
  have hemp : e.mLines.isEmpty = false := by
    cases h : e.mLines with
    | nil => exact absurd h hne
    | cons a b => rfl
  have hmax := GetLineMaxColumn_nonneg e
  unfold SanitizeCoordinates
  by_cases hl : c.mLine ≥ e.mLines.length
  · simp only [hl, hemp, if_true, Bool.false_eq_true, if_false]
    refine ⟨by omega, by omega, hmax _, le_refl _, ?_⟩
    rw [if_neg (by omega)]
    simp
  · simp only [hl, hemp, if_false, Bool.false_eq_true]
    refine ⟨h0, by omega, le_min h1 (hmax _), min_le_right _ _, ?_⟩
    simp

theorem C9_sanitize_in_range_idempotent_witness :
    0 ≤ (SanitizeCoordinates (ofLines [[97, 98, 99]]) ⟨5, 1⟩).mLine
      ∧ (SanitizeCoordinates (ofLines [[97, 98, 99]]) ⟨5, 1⟩).mLine < (ofLines [[97, 98, 99]]).mLines.length
      ∧ 0 ≤ (SanitizeCoordinates (ofLines [[97, 98, 99]]) ⟨5, 1⟩).mColumn
      ∧ (SanitizeCoordinates (ofLines [[97, 98, 99]]) ⟨5, 1⟩).mColumn
          ≤ GetLineMaxColumn (ofLines [[97, 98, 99]]) (SanitizeCoordinates (ofLines [[97, 98, 99]]) ⟨5, 1⟩).mLine
      ∧ SanitizeCoordinates (ofLines [[97, 98, 99]]) (SanitizeCoordinates (ofLines [[97, 98, 99]]) ⟨5, 1⟩)
          = SanitizeCoordinates (ofLines [[97, 98, 99]]) ⟨5, 1⟩ :=
  C9_sanitize_in_range_idempotent (ofLines [[97, 98, 99]]) ⟨5, 1⟩ (by decide) (by decide)
    (by decide) (by decide)

/-- C10, as stated, fails: on the one-line document "abc" the coordinate (5, 1) is
sanitized to (0, 3), not to (0, min(1, 3)) = (0, 1). -/
theorem C10_counterexample :
    SanitizeCoordinates (ofLines [[97, 98, 99]]) ⟨5, 1⟩ = ⟨0, 3⟩
      ∧ ¬ ((SanitizeCoordinates (ofLines [[97, 98, 99]]) ⟨5, 1⟩).mColumn
            = min 1 (GetLineMaxColumn (ofLines [[97, 98, 99]])
                (SanitizeCoordinates (ofLines [[97, 98, 99]]) ⟨5, 1⟩).mLine)) := by
  decide

/-- C10 (amended): for a non-empty document on which the tab-stop division is defined
(tab size `≥ 1` when a line holds a tab) and a coordinate `c` with line >= 0 and
column >= 0, the sanitized line is `min(c.line, last line)`; the sanitized column is
`min(c.column, GetLineMaxColumn(c.line))` when `c.line` is a line of the document, and
`GetLineMaxColumn(last line)` whatever `c.column` is when `c.line` is past the last line.
For an empty document the result is (0,0). -/
theorem C10_sanitize_clamp (e : TextEditor) (c : Coordinates)
    (_htab : ∀ line ∈ e.mLines, TabStopsDefined e.mTabSize line)
    (h0 : 0 ≤ c.mLine) (_h1 : 0 ≤ c.mColumn) :
    (e.mLines = [] → SanitizeCoordinates e c = ⟨0, 0⟩)
      ∧ (e.mLines ≠ [] →
          (SanitizeCoordinates e c).mLine = min c.mLine ((e.mLines.length : Int) - 1)
          ∧ (SanitizeCoordinates e c).mColumn
              = if c.mLine < e.mLines.length then min c.mColumn (GetLineMaxColumn e c.mLine)
                else GetLineMaxColumn e ((e.mLines.length : Int) - 1)) := by
  constructor
  · intro hnil
    unfold SanitizeCoordinates
    simp [hnil, h0]
  · intro hne
    have hlen : 0 < e.mLines.length := List.length_pos.mpr hne
    have hemp : e.mLines.isEmpty = false := by
      cases h : e.mLines with
      | nil => exact absurd h hne
      | cons a b => rfl
    unfold SanitizeCoordinates
    by_cases hl : c.mLine ≥ e.mLines.length
    · simp only [hl, hemp, if_true, Bool.false_eq_true, if_false]
      refine ⟨by rw [min_eq_right]; omega, by rw [if_neg (by omega)]⟩
    · simp only [hl, hemp, if_false, Bool.false_eq_true]
      refine ⟨by rw [min_eq_left]; omega, by rw [if_pos (by omega)]⟩

theorem C10_sanitize_clamp_witness :
    (SanitizeCoordinates (ofLines [[97, 98, 99]]) ⟨5, 1⟩).mLine = min 5 (((ofLines [[97, 98, 99]]).mLines.length : Int) - 1)
      ∧ (SanitizeCoordinates (ofLines [[97, 98, 99]]) ⟨5, 1⟩).mColumn
          = if (5 : Int) < (ofLines [[97, 98, 99]]).mLines.length
            then min 1 (GetLineMaxColumn (ofLines [[97, 98, 99]]) 5)
            else GetLineMaxColumn (ofLines [[97, 98, 99]]) (((ofLines [[97, 98, 99]]).mLines.length : Int) - 1) :=
  (C10_sanitize_clamp (ofLines [[97, 98, 99]]) ⟨5, 1⟩ (by decide) (by decide) (by decide)).2
    (by decide)

/-! ## Undo log: claim C6 -/

theorem resize_set_last (r : UndoRecord) (buf : List UndoRecord) (n : Nat) (h : n ≤ buf.length) :
    (resizeUndoBuffer buf (n + 1)).set ((resizeUndoBuffer buf (n + 1)).length - 1) r
      = buf.take n ++ [r] := by
  unfold resizeUndoBuffer
  rcases Nat.lt_or_eq_of_le h with hlt | heq
  · have h0 : n + 1 - buf.length = 0 := by omega
    have htake : buf.take (n + 1) = buf.take n ++ [buf[n]] := by
      rw [List.take_succ, List.getElem?_eq_getElem hlt]; rfl
    rw [h0, List.replicate_zero, List.append_nil, htake]
    have hlen : (buf.take n ++ [buf[n]]).length - 1 = (buf.take n).length := by
      rw [List.length_append]; simp
    rw [hlen, List.set_append_right _ _ (Nat.le_refl _)]
    simp
  · subst heq
    have h1 : buf.length + 1 - buf.length = 1 := by omega
    rw [h1, List.take_of_length_le (by omega), List.take_of_length_le (Nat.le_refl _)]
    have hlen : (buf ++ List.replicate 1 default).length - 1 = buf.length := by
      rw [List.length_append]; simp
    rw [hlen, List.set_append_right _ _ (Nat.le_refl _)]
    simp

theorem AddUndo_truncates (e : TextEditor) (r : UndoRecord)
    (h0 : 0 ≤ e.mUndoIndex) (h1 : e.mUndoIndex ≤ e.mUndoBuffer.length) :
    (AddUndo e r).mUndoBuffer = e.mUndoBuffer.take e.mUndoIndex.toNat ++ [r]
      ∧ (AddUndo e r).mUndoIndex = e.mUndoIndex + 1
      ∧ (AddUndo e r).mUndoIndex = (AddUndo e r).mUndoBuffer.length
      ∧ CanRedo (AddUndo e r) = false := by
  have hn : (e.mUndoIndex + 1).toNat = e.mUndoIndex.toNat + 1 := by omega
  have hbuf : (AddUndo e r).mUndoBuffer = e.mUndoBuffer.take e.mUndoIndex.toNat ++ [r] := by
    simp only [AddUndo, hn]
    exact resize_set_last r e.mUndoBuffer e.mUndoIndex.toNat (by omega)
  have hidx : (AddUndo e r).mUndoIndex = e.mUndoIndex + 1 := rfl
  have hlen : (AddUndo e r).mUndoIndex = (AddUndo e r).mUndoBuffer.length := by
    rw [hidx, hbuf]
    simp [List.length_take]
    omega
  refine ⟨hbuf, hidx, hlen, ?_⟩
  unfold CanRedo
  rw [hlen]
  simp

/-- C6: for every undo buffer and undo index `i` with `0 <= i <= buffer length`,
`AddUndo(r)` leaves the first `i` records unchanged, stores `r` as record `i`, discards
every record that was at a position `>= i`, and sets the index to `i + 1`, the new buffer
length, so that `CanRedo()` is false right after a record is appended. -/
theorem C6_add_undo_truncates (e : TextEditor) (r : UndoRecord)
    (h0 : 0 ≤ e.mUndoIndex) (h1 : e.mUndoIndex ≤ e.mUndoBuffer.length) :
    (AddUndo e r).mUndoBuffer = e.mUndoBuffer.take e.mUndoIndex.toNat ++ [r]
      ∧ (AddUndo e r).mUndoIndex = e.mUndoIndex + 1
      ∧ (AddUndo e r).mUndoIndex = (AddUndo e r).mUndoBuffer.length
      ∧ CanRedo (AddUndo e r) = false :=
  AddUndo_truncates e r h0 h1

theorem C6_add_undo_truncates_witness :
    (AddUndo { mUndoBuffer := [{ mAdded := [97] }, { mAdded := [98] }], mUndoIndex := 1 }
        { mAdded := [99] }).mUndoBuffer
      = [{ mAdded := [97] }, { mAdded := [99] }] :=
  (C6_add_undo_truncates { mUndoBuffer := [{ mAdded := [97] }, { mAdded := [98] }], mUndoIndex := 1 }
    { mAdded := [99] } (by decide) (by decide)).1

/-! ## The loop of `GetText` in closed form -/

theorem lineAt_append_length (pre : Lines) (x : Line) (post : Lines) :
    lineAt (pre ++ x :: post) (pre.length : Int) = x := by
  unfold lineAt
  rw [Int.toNat_ofNat, List.getD_eq_getElem?_getD, List.getElem?_append_right (Nat.le_refl _)]
  simp

theorem glyphAt_mChar (x : Line) (i : Nat) (h : i < x.length) :
    [(glyphAt x i).mChar] = lineText ((x.drop i).take 1) := by
  unfold glyphAt lineText
  rw [List.getD_eq_getElem?_getD, List.getElem?_eq_getElem h, List.drop_eq_getElem_cons h]
  rfl

/-- Reading `k` bytes of one line. -/
theorem GetText_loop_chars (pre : Lines) (x : Line) (post : Lines) (lend iend : Int) (k : Nat) :
    ∀ (fuel i : Nat) (acc : List Nat), i + k ≤ x.length →
      (((i + k : Nat) : Int) ≤ iend ∨ (pre.length : Int) < lend) →
      GetText.loop (pre ++ x :: post) lend iend (fuel + k) pre.length i acc
        = GetText.loop (pre ++ x :: post) lend iend fuel pre.length ((i + k : Nat) : Int)
            (acc ++ lineText ((x.drop i).take k)) := by
  induction k with
  | zero => intro fuel i acc _ _; simp [lineText]
  | succ k ih =>
    intro fuel i acc hik hcond
    have hfuel : fuel + (k + 1) = (fuel + k) + 1 := by omega
    rw [hfuel]
    simp only [GetText.loop]
    have hc : ((i : Int) < iend ∨ (pre.length : Int) < lend) := by omega
    have hl : ¬ ((pre.length : Int) ≥ ((pre ++ x :: post).length : Int)) := by
      simp only [List.length_append, List.length_cons]; push_cast; omega
    rw [if_pos hc, if_neg hl, lineAt_append_length, if_pos (by omega)]
    rw [Int.toNat_ofNat, glyphAt_mChar x i (by omega)]
    have h1 : (i : Int) + 1 = ((i + 1 : Nat) : Int) := by push_cast; rfl
    rw [h1, ih fuel (i + 1) _ (by omega) (by rw [show i + 1 + k = i + (k + 1) by omega]; exact hcond)]
    have h2 : i + 1 + k = i + (k + 1) := by omega
    rw [h2, List.append_assoc]
    congr 2
    unfold lineText
    rw [← List.map_append]
    congr 1
    rw [List.drop_eq_getElem_cons (show i < x.length by omega)]
    rfl

/-- Passing the end of a line. -/
theorem GetText_loop_eol (pre : Lines) (x : Line) (post : Lines) (lend iend : Int)
    (fuel : Nat) (acc : List Nat)
    (hcond : (x.length : Int) < iend ∨ (pre.length : Int) < lend) :
    GetText.loop (pre ++ x :: post) lend iend (fuel + 1) pre.length x.length acc
      = GetText.loop (pre ++ x :: post) lend iend fuel ((pre.length : Int) + 1) 0
          (if ¬ ((pre.length : Int) = lend - 1 ∧ iend = -1) then acc ++ [10] else acc) := by
  simp only [GetText.loop]
  have hl : ¬ ((pre.length : Int) ≥ ((pre ++ x :: post).length : Int)) := by
    simp only [List.length_append, List.length_cons]; push_cast; omega
  rw [if_pos hcond, if_neg hl, lineAt_append_length, if_neg (by omega)]

theorem GetText_loop_stop (lines : Lines) (lend iend : Int) (fuel : Nat) (l i : Int)
    (acc : List Nat) (h : ¬ (i < iend ∨ l < lend)) :
    GetText.loop lines lend iend fuel l i acc = acc := by
  cases fuel with
  | zero => rfl
  | succ n => simp only [GetText.loop]; rw [if_neg h]

/-- The loop of `GetText` between two positions of the document. -/
theorem GetText_loop_span (k : Nat) :
    ∀ (pre rest : Lines) (i ie fuel : Nat) (acc : List Nat), spanOK rest i k ie →
      (rest.map (fun l => l.length + 1)).sum ≤ fuel + i →
      GetText.loop (pre ++ rest) ((pre.length + k : Nat) : Int) (ie : Int) fuel pre.length i acc
        = acc ++ spanText rest i k ie := by
  induction k with
  | zero =>
    intro pre rest i ie fuel acc hok hf
    cases rest with
    | nil => exact absurd hok (by simp [spanOK])
    | cons x post =>
      simp only [spanOK] at hok
      simp only [List.map_cons, List.sum_cons] at hf
      obtain ⟨f', hf'⟩ : ∃ f', fuel = f' + (ie - i) := ⟨fuel - (ie - i), by omega⟩
      rw [hf', GetText_loop_chars pre x post _ _ (ie - i) f' i acc (by omega)
        (Or.inl (by push_cast; omega))]
      rw [GetText_loop_stop _ _ _ _ _ _ _ (by push_cast; omega)]
      simp [spanText]
  | succ k ih =>
    intro pre rest i ie fuel acc hok hf
    cases rest with
    | nil => exact absurd hok (by simp [spanOK])
    | cons x post =>
      simp only [spanOK] at hok
      simp only [List.map_cons, List.sum_cons] at hf
      obtain ⟨f', hf'⟩ : ∃ f', fuel = (f' + 1) + (x.length - i) :=
        ⟨fuel - (x.length - i) - 1, by omega⟩
      rw [hf', GetText_loop_chars pre x post _ _ (x.length - i) (f' + 1) i acc (by omega)
        (Or.inr (by push_cast; omega))]
      have hi : i + (x.length - i) = x.length := by omega
      rw [hi, GetText_loop_eol pre x post _ _ f' _ (Or.inr (by push_cast; omega))]
      rw [if_pos (by omega)]
      have hpre : pre ++ x :: post = (pre ++ [x]) ++ post := by simp
      have hlen : ((pre.length : Int) + 1) = ((pre ++ [x]).length : Int) := by simp
      have hlend : ((pre.length + (k + 1) : Nat) : Int) = (((pre ++ [x]).length + k : Nat) : Int) := by
        simp; omega
      rw [hpre, hlen, hlend]
      have := ih (pre ++ [x]) post 0 ie f' (acc ++ lineText ((x.drop i).take (x.length - i)) ++ [10])
        hok.2 (by omega)
      simp only [Nat.cast_zero] at this
      rw [this]
      simp [spanText, List.take_of_length_le]

/-- The loop of `GetText` from a position to the end of the document. -/
theorem GetText_loop_suffix (post : Lines) :
    ∀ (pre : Lines) (x : Line) (i fuel : Nat) (acc : List Nat), i ≤ x.length →
      (x.length + 1 - i) + (post.map (fun l => l.length + 1)).sum ≤ fuel →
      GetText.loop (pre ++ x :: post) ((pre ++ x :: post).length : Int) (-1) fuel pre.length i acc
        = acc ++ lineText (x.drop i) ++ joinPost post := by
  induction post with
  | nil =>
    intro pre x i fuel acc hi hf
    simp only [List.map_nil, List.sum_nil] at hf
    obtain ⟨f', hf'⟩ : ∃ f', fuel = (f' + 1) + (x.length - i) :=
      ⟨fuel - (x.length - i) - 1, by omega⟩
    rw [hf', GetText_loop_chars pre x [] _ _ (x.length - i) (f' + 1) i acc (by omega)
      (Or.inr (by simp))]
    have hi' : i + (x.length - i) = x.length := by omega
    rw [hi', GetText_loop_eol pre x [] _ _ f' _ (Or.inr (by simp))]
    rw [if_neg (by simp), GetText_loop_stop _ _ _ _ _ _ _ (by simp)]
    simp [joinPost, List.take_of_length_le]
  | cons y post ih =>
    intro pre x i fuel acc hi hf
    simp only [List.map_cons, List.sum_cons] at hf
    obtain ⟨f', hf'⟩ : ∃ f', fuel = (f' + 1) + (x.length - i) :=
      ⟨fuel - (x.length - i) - 1, by omega⟩
    have hlt : (pre.length : Int) < ((pre ++ x :: y :: post).length : Int) := by
      simp only [List.length_append, List.length_cons]; push_cast; omega
    rw [hf', GetText_loop_chars pre x (y :: post) _ _ (x.length - i) (f' + 1) i acc (by omega)
      (Or.inr hlt)]
    have hi' : i + (x.length - i) = x.length := by omega
    rw [hi', GetText_loop_eol pre x (y :: post) _ _ f' _ (Or.inr hlt)]
    rw [if_pos (by simp only [List.length_append, List.length_cons]; push_cast; omega)]
    have hpre : pre ++ x :: y :: post = (pre ++ [x]) ++ y :: post := by simp
    have hlen : ((pre.length : Int) + 1) = ((pre ++ [x]).length : Int) := by simp
    rw [hpre, hlen]
    have := ih (pre ++ [x]) y 0 f' (acc ++ lineText ((x.drop i).take (x.length - i)) ++ [10])
      (Nat.zero_le _) (by omega)
    simp only [Nat.cast_zero] at this
    rw [this]
    simp [joinPost, List.take_of_length_le]

/-! ## Document text -/

theorem docText_cons (x : Line) (post : Lines) :
    docText (x :: post) = lineText x ++ joinPost post := by
  induction post generalizing x with
  | nil => simp [docText, joinPost, List.intercalate]
  | cons y post ih =>
    have h := ih y
    simp only [docText, List.intercalate, List.map_cons, List.intersperse_cons_cons,
      List.flatten_cons] at h ⊢
    rw [h]
    simp [joinPost]

theorem joinPre_append (a b : Lines) : joinPre (a ++ b) = joinPre a ++ joinPre b := by
  simp [joinPre]

theorem joinPost_append (a b : Lines) : joinPost (a ++ b) = joinPost a ++ joinPost b := by
  simp [joinPost]

theorem joinPre_cons_joinPost (x : Line) (post : Lines) :
    lineText x ++ joinPost post = docText (x :: post) := (docText_cons x post).symm

theorem docText_decomp (pre : Lines) (x : Line) (post : Lines) :
    docText (pre ++ x :: post) = joinPre pre ++ (lineText x ++ joinPost post) := by
  induction pre with
  | nil => simp [joinPre, docText_cons]
  | cons p pre ih =>
    rw [List.cons_append, docText_cons]
    have : joinPost (pre ++ x :: post) = 10 :: docText (pre ++ x :: post) := by
      cases pre with
      | nil => simp [joinPost, docText_cons]
      | cons q pre => simp [joinPost, docText_cons]
    rw [this, ih]
    simp [joinPre]

theorem lineText_append (a b : Line) : lineText (a ++ b) = lineText a ++ lineText b := by
  simp [lineText]

theorem spanOK_decomp (pre : Lines) (x : Line) (post : Lines) (ie : Nat) (h : ie ≤ x.length) :
    spanOK (pre ++ x :: post) 0 pre.length ie := by
  induction pre with
  | nil => exact ⟨Nat.zero_le _, h⟩
  | cons p pre ih => exact ⟨Nat.zero_le _, ih⟩

theorem spanText_decomp (pre : Lines) (x : Line) (post : Lines) (ie : Nat) :
    spanText (pre ++ x :: post) 0 pre.length ie = joinPre pre ++ lineText (x.take ie) := by
  induction pre with
  | nil => simp [spanText, joinPre]
  | cons p pre ih =>
    show spanText (p :: (pre ++ x :: post)) 0 (pre.length + 1) ie = _
    simp only [spanText]
    rw [ih]
    simp [joinPre]

theorem GetText_fuel_decomp (pre : Lines) (x : Line) (post : Lines) :
    GetText.fuel (pre ++ x :: post)
      = (pre.map (fun l => l.length + 1)).sum + (x.length + 1)
        + (post.map (fun l => l.length + 1)).sum + 1 := by
  simp [GetText.fuel]; omega

theorem GetCharacterIndex_loop_nonpos (line : Line) (T : Nat) (col : Int) (hcol : col ≤ 0)
    (fuel i c : Nat) : GetCharacterIndex.loop line T col fuel i c = i := by
  cases fuel with
  | zero => rfl
  | succ n =>
    simp only [GetCharacterIndex.loop]
    rw [if_neg (by omega)]

theorem GetCharacterIndex_origin (e : TextEditor) (h : e.mLines ≠ []) :
    GetCharacterIndex e {} = 0 := by
  unfold GetCharacterIndex
  have hlen : 0 < e.mLines.length := List.length_pos.mpr h
  have h0 : ({} : Coordinates).mLine = 0 := rfl
  have h1 : ({} : Coordinates).mColumn = 0 := rfl
  rw [h0, h1, if_neg (by omega)]
  simp only []
  rw [GetCharacterIndex_loop_nonpos _ _ _ (le_refl _)]
  rfl

theorem GetCharacterIndex_past_end (e : TextEditor) (col : Int) :
    GetCharacterIndex e ⟨e.mLines.length, col⟩ = -1 := by
  unfold GetCharacterIndex
  rw [if_pos (Or.inr (le_refl _))]

/-- The text that `GetText()` returns is the lines joined with `'\n'`. -/
theorem GetTextAll_eq (e : TextEditor) : GetTextAll e = docText e.mLines := by
  unfold GetTextAll GetText
  rw [GetCharacterIndex_past_end]
  cases hl : e.mLines with
  | nil =>
    simp [GetText.fuel, GetText.loop, docText, List.intercalate]
  | cons x post =>
    rw [GetCharacterIndex_origin e (by rw [hl]; simp)]
    have := GetText_loop_suffix post [] x 0 (GetText.fuel (x :: post)) [] (Nat.zero_le _)
      (by simp [GetText.fuel])
    simp only [List.nil_append, List.length_nil, Nat.cast_zero, List.drop_zero] at this
    have h0 : ({} : Coordinates).mLine = 0 := rfl
    rw [h0, this, docText_cons]

/-- The text before a position of the document. -/
theorem GetText_before (e : TextEditor) (a : Coordinates) (pre : Lines) (x : Line) (post : Lines)
    (ia : Nat) (hl : e.mLines = pre ++ x :: post) (ha : a.mLine = pre.length)
    (hia : GetCharacterIndex e a = ia) (hle : ia ≤ x.length) :
    GetText e {} a = joinPre pre ++ lineText (x.take ia) := by
  unfold GetText
  rw [GetCharacterIndex_origin e (by rw [hl]; simp), hia, ha, hl]
  have := GetText_loop_span pre.length [] (pre ++ x :: post) 0 ia
    (GetText.fuel (pre ++ x :: post)) [] (spanOK_decomp pre x post ia hle)
    (by rw [GetText_fuel_decomp]; simp; omega)
  simp only [List.nil_append, List.length_nil, Nat.cast_zero, Nat.zero_add] at this
  rw [spanText_decomp] at this
  exact this

/-- The text from a position of the document to its end. -/
theorem GetText_after (e : TextEditor) (b : Coordinates) (pre : Lines) (x : Line) (post : Lines)
    (ib : Nat) (hl : e.mLines = pre ++ x :: post) (hb : b.mLine = pre.length)
    (hib : GetCharacterIndex e b = ib) (hle : ib ≤ x.length) :
    GetText e b ⟨e.mLines.length, 0⟩ = lineText (x.drop ib) ++ joinPost post := by
  unfold GetText
  rw [GetCharacterIndex_past_end, hib, hb, hl]
  have := GetText_loop_suffix post pre x ib (GetText.fuel (pre ++ x :: post)) [] hle
    (by rw [GetText_fuel_decomp]; omega)
  simpa using this

/-! ## `SetText` and `GetText`: claim C1 -/

theorem docText_concat (init : Lines) (last : Line) :
    docText (init ++ [last]) = joinPre init ++ lineText last := by
  rw [docText_decomp]; simp [joinPost]

theorem SetText_loop_spec (s : List Nat) :
    ∀ (init : Lines) (last : Line), (∀ line ∈ init ++ [last], 10 ∉ lineText line) →
      docText (SetText.loop s (init ++ [last]))
          = docText (init ++ [last]) ++ s.filter (fun c => c ≠ 13)
        ∧ (SetText.loop s (init ++ [last])).length = (init ++ [last]).length + s.count 10
        ∧ ∀ line ∈ SetText.loop s (init ++ [last]), 10 ∉ lineText line := by
  induction s with
  | nil =>
    intro init last h
    simp only [SetText.loop, List.filter_nil, List.append_nil, List.count_nil, Nat.add_zero]
    exact ⟨trivial, trivial, h⟩
  | cons chr rest ih =>
    intro init last h
    simp only [SetText.loop]
    by_cases h13 : chr = 13
    · subst h13
      have := ih init last h
      simpa [List.count_cons] using this
    · rw [if_neg h13]
      by_cases h10 : chr = 10
      · subst h10
        rw [if_pos rfl]
        have hpre : init ++ [last] ++ [[]] = (init ++ [last]) ++ [([] : Line)] := rfl
        obtain ⟨i1, i2, i3⟩ := ih (init ++ [last]) [] (by
          intro line hl
          rcases List.mem_append.mp hl with hl | hl
          · exact h line hl
          · simp at hl; subst hl; simp [lineText])
        refine ⟨?_, ?_, i3⟩
        · rw [i1, docText_concat, docText_concat, joinPre_append]
          simp [joinPre, lineText]
        · rw [i2]; simp [List.count_cons]; omega
      · rw [if_neg h10]
        have hdl : (init ++ [last]).dropLast = init := List.dropLast_concat
        have hgl : (init ++ [last]).getLastD [] = last := by simp
        rw [hdl, hgl]
        obtain ⟨i1, i2, i3⟩ := ih init (last ++ [{ mChar := chr }]) (by
          intro line hl
          rcases List.mem_append.mp hl with hl | hl
          · exact h line (List.mem_append_left _ hl)
          · simp at hl; subst hl
            have := h last (by simp)
            simp [lineText] at this ⊢
            exact ⟨this, fun hc => h10 hc.symm⟩)
        refine ⟨?_, ?_, i3⟩
        · rw [i1, docText_concat, docText_concat]
          simp [lineText, h13]
        · rw [i2]; simp [List.count_cons, h10]

theorem SetText_mLines (e : TextEditor) (s : List Nat) :
    (SetText e s).mLines = SetText.loop s [[]] := rfl

/-- C1: for every byte string `s` that contains no `'\r'`, `GetText()` called right after
`SetText(s)` returns exactly `s`: the lines are `s` split at every `'\n'` (one line more
than `s` has `'\n'` bytes, none of them holding a `'\n'`), and `GetText` joins them with
`'\n'` without adding a trailing newline. -/
theorem C1_set_text_get_text (e : TextEditor) (s : List Nat) (hs : 13 ∉ s) :
    GetTextAll (SetText e s) = s
      ∧ (SetText e s).mLines.length = s.count 10 + 1
      ∧ (∀ line ∈ (SetText e s).mLines, 10 ∉ lineText line)
      ∧ GetTextAll (SetText e s) = List.intercalate [10] ((SetText e s).mLines.map lineText) := by
  obtain ⟨h1, h2, h3⟩ := SetText_loop_spec s [] [] (by simp [lineText])
  have hfilter : s.filter (fun c => c ≠ 13) = s := by
    rw [List.filter_eq_self]
    intro c hc
    simp only [ne_eq, decide_not, Bool.not_eq_true', decide_eq_false_iff_not]
    intro h; subst h; exact hs hc
  rw [GetTextAll_eq, SetText_mLines]
  simp only [List.nil_append] at h1 h2 h3
  refine ⟨?_, ?_, h3, rfl⟩
  · rw [h1, hfilter]; simp [docText, List.intercalate, lineText]
  · rw [h2]; simp; omega

theorem C1_set_text_get_text_witness :
    GetTextAll (SetText {} [97, 10, 10, 98, 9, 10]) = [97, 10, 10, 98, 9, 10] :=
  (C1_set_text_get_text {} [97, 10, 10, 98, 9, 10] (by decide)).1

/-! ## Frame lemmas: what the line-structure operations do to `mLines` -/

theorem lines_decomp (lines : Lines) (l : Int) (h0 : 0 ≤ l) (h1 : l < lines.length) :
    ∃ pre x post, lines = pre ++ x :: post ∧ (pre.length : Int) = l ∧ l.toNat = pre.length := by
  have hlt : l.toNat < lines.length := by omega
  refine ⟨lines.take l.toNat, lines[l.toNat], lines.drop (l.toNat + 1), ?_, ?_, ?_⟩
  · rw [List.getElem_cons_drop, List.take_append_drop]
  · rw [List.length_take]; omega
  · rw [List.length_take]; omega

theorem set_decomp {α : Type} (pre : List α) (x v : α) (post : List α) :
    (pre ++ x :: post).set pre.length v = pre ++ v :: post := by
  rw [List.set_append_right _ _ (Nat.le_refl _)]; simp

theorem take_decomp {α : Type} (pre : List α) (rest : List α) :
    (pre ++ rest).take pre.length = pre := by
  simp

theorem drop_decomp {α : Type} (pre : List α) (rest : List α) :
    (pre ++ rest).drop pre.length = rest := by
  simp

theorem foldl_mLines {β : Type} (f : TextEditor → β → TextEditor)
    (hf : ∀ e i, (f e i).mLines = e.mLines) (l : List β) (e : TextEditor) :
    (l.foldl f e).mLines = e.mLines := by
  induction l generalizing e with
  | nil => rfl
  | cons b l ih => rw [List.foldl_cons, ih, hf]

theorem foldl_mTabSize {β : Type} (f : TextEditor → β → TextEditor)
    (hf : ∀ e i, (f e i).mTabSize = e.mTabSize) (l : List β) (e : TextEditor) :
    (l.foldl f e).mTabSize = e.mTabSize := by
  induction l generalizing e with
  | nil => rfl
  | cons b l ih => rw [List.foldl_cons, ih, hf]

theorem RemoveLineRange_mLines (e : TextEditor) (s t : Int) :
    (RemoveLineRange e s t).mLines = e.mLines.take s.toNat ++ e.mLines.drop t.toNat := by
  unfold RemoveLineRange
  simp only []
  rw [foldl_mLines]
  intro e i
  split_ifs <;> rfl

theorem InsertLine_mLines (e : TextEditor) (aIndex : Int) :
    (InsertLine e aIndex).mLines
      = e.mLines.take aIndex.toNat ++ [] :: e.mLines.drop aIndex.toNat := by
  unfold InsertLine
  simp only []
  rw [foldl_mLines, foldl_mLines]
  all_goals (intro e i; rfl)

theorem InsertLine_mTabSize (e : TextEditor) (aIndex : Int) :
    (InsertLine e aIndex).mTabSize = e.mTabSize := by
  unfold InsertLine
  simp only []
  rw [foldl_mTabSize, foldl_mTabSize]
  all_goals (intro e i; rfl)

/-! ## `DeleteRange`: claim C2 -/

/-- The lines after a deletion inside one line. -/
theorem DeleteRange_mLines_same (e : TextEditor) (a b : Coordinates) (hne : b ≠ a)
    (hline : a.mLine = b.mLine) :
    (DeleteRange e a b).mLines
      = e.mLines.set a.mLine.toNat
          (if b.mColumn ≥ GetLineMaxColumn e a.mLine then
            (lineAt e.mLines a.mLine).take (GetCharacterIndex e a).toNat
           else (lineAt e.mLines a.mLine).take (GetCharacterIndex e a).toNat
              ++ (lineAt e.mLines a.mLine).drop (GetCharacterIndex e b).toNat) := by
  unfold DeleteRange
  rw [if_neg hne]
  simp only [hline, if_true]

/-- The lines after a deletion across lines. -/
theorem DeleteRange_mLines_cross (e : TextEditor) (a b : Coordinates) (hlt : a.mLine < b.mLine) :
    (DeleteRange e a b).mLines
      = (((e.mLines.set a.mLine.toNat ((lineAt e.mLines a.mLine).take (GetCharacterIndex e a).toNat)).set
            b.mLine.toNat ((lineAt e.mLines b.mLine).drop (GetCharacterIndex e b).toNat)).set
            a.mLine.toNat ((lineAt e.mLines a.mLine).take (GetCharacterIndex e a).toNat
              ++ (lineAt e.mLines b.mLine).drop (GetCharacterIndex e b).toNat)).take
          (a.mLine + 1).toNat
        ++ (((e.mLines.set a.mLine.toNat ((lineAt e.mLines a.mLine).take (GetCharacterIndex e a).toNat)).set
            b.mLine.toNat ((lineAt e.mLines b.mLine).drop (GetCharacterIndex e b).toNat)).set
            a.mLine.toNat ((lineAt e.mLines a.mLine).take (GetCharacterIndex e a).toNat
              ++ (lineAt e.mLines b.mLine).drop (GetCharacterIndex e b).toNat)).drop
          (b.mLine + 1).toNat := by
  have hne : b ≠ a := by intro h; rw [h] at hlt; exact lt_irrefl _ hlt
  have hne2 : ¬ a.mLine = b.mLine := ne_of_lt hlt
  unfold DeleteRange
  rw [if_neg hne]
  simp only [hne2, hlt, if_true, if_false]
  rw [RemoveLineRange_mLines]

theorem cross_lines (pre mid post : Lines) (x y x1 y1 : Line) :
    ((((pre ++ x :: (mid ++ y :: post)).set pre.length x1).set (pre.length + 1 + mid.length)
          y1).set pre.length (x1 ++ y1)).take (pre.length + 1)
      ++ ((((pre ++ x :: (mid ++ y :: post)).set pre.length x1).set (pre.length + 1 + mid.length)
          y1).set pre.length (x1 ++ y1)).drop (pre.length + 1 + mid.length + 1)
      = pre ++ (x1 ++ y1) :: post := by
  rw [set_decomp]
  have h1 : pre ++ x1 :: (mid ++ y :: post) = (pre ++ x1 :: mid) ++ y :: post := by simp
  have hl1 : (pre ++ x1 :: mid).length = pre.length + 1 + mid.length := by simp; omega
  rw [h1, ← hl1, set_decomp]
  have h2 : (pre ++ x1 :: mid) ++ y1 :: post = pre ++ x1 :: (mid ++ y1 :: post) := by simp
  rw [h2, set_decomp]
  have h3 : pre ++ (x1 ++ y1) :: (mid ++ y1 :: post)
      = (pre ++ [x1 ++ y1]) ++ (mid ++ y1 :: post) := by simp
  have hl3 : (pre ++ [x1 ++ y1]).length = pre.length + 1 := by simp
  rw [h3, ← hl3, take_decomp]
  have h4 : (pre ++ [x1 ++ y1]) ++ (mid ++ y1 :: post)
      = (pre ++ (x1 ++ y1) :: mid ++ [y1]) ++ post := by simp
  have hl4 : (pre ++ (x1 ++ y1) :: mid ++ [y1]).length = (pre ++ x1 :: mid).length + 1 := by
    simp; omega
  rw [h4, ← hl4, drop_decomp]
  simp

theorem lineAt_mem (lines : Lines) (l : Int) (h0 : 0 ≤ l) (h1 : l < lines.length) :
    lineAt lines l ∈ lines := by
  obtain ⟨pre, x, post, hl, hlen, _⟩ := lines_decomp lines l h0 h1
  rw [hl, ← hlen, lineAt_append_length]
  simp

/-- The position data of a sanitized coordinate on a complete line. -/
theorem sanitized_decomp (e : TextEditor) (a : Coordinates) (ha : Sanitized e a)
    (hc : Complete (lineAt e.mLines a.mLine)) :
    ∃ pre x post, e.mLines = pre ++ x :: post ∧ (pre.length : Int) = a.mLine
      ∧ a.mLine.toNat = pre.length ∧ lineAt e.mLines a.mLine = x ∧ Complete x
      ∧ GetCharacterIndex e a = (idxWalk e.mTabSize a.mColumn 0 x 0 : Nat)
      ∧ idxWalk e.mTabSize a.mColumn 0 x 0 ≤ x.length
      ∧ GetLineMaxColumn e a.mLine = (colWalk e.mTabSize 0 x 0 : Nat) := by
  obtain ⟨h0, h1, _, _⟩ := ha
  obtain ⟨pre, x, post, hl, hlen, hnat⟩ := lines_decomp e.mLines a.mLine h0 h1
  have hx : lineAt e.mLines a.mLine = x := by
    rw [hl, ← hlen, lineAt_append_length]
  have hcx : Complete x := by rw [← hx]; exact hc
  refine ⟨pre, x, post, hl, hlen, hnat, hx, hcx, ?_, idxWalk_le_length _ _ _ _ _, ?_⟩
  · rw [GetCharacterIndex_eq e a h0 h1 hc, hx]
  · rw [GetLineMaxColumn_eq e a.mLine h0 h1, hx]

/-- C2: for every document of well-formed UTF-8 lines (on which the tab-stop division
is defined) and every pair of sanitized coordinates `a <= b`, after `DeleteRange(a, b)`
the whole document text equals the old text that preceded `a` concatenated with the old
text that followed `b`; a cross-line deletion leaves on line `a.line` the head of the
start line followed by the tail of the end line and removes the lines in between. -/
theorem C2_delete_range_text (e : TextEditor) (a b : Coordinates)
    (hc : ∀ line ∈ e.mLines, Complete line)
    (htab : ∀ line ∈ e.mLines, TabStopsDefined e.mTabSize line)
    (ha : Sanitized e a) (hb : Sanitized e b) (hab : a.le b = true) :
    GetTextAll (DeleteRange e a b) = GetText e {} a ++ GetText e b ⟨e.mLines.length, 0⟩
      ∧ (a.mLine < b.mLine →
          (DeleteRange e a b).mLines
            = e.mLines.take a.mLine.toNat
              ++ ((lineAt e.mLines a.mLine).take (GetCharacterIndex e a).toNat
                    ++ (lineAt e.mLines b.mLine).drop (GetCharacterIndex e b).toNat)
                :: e.mLines.drop (b.mLine.toNat + 1)) := by
  obtain ⟨pre, x, rest, hl, hlen, hnat, hx, hcx, hia, hiale, hmaxa⟩ :=
    sanitized_decomp e a ha (hc _ (lineAt_mem _ _ ha.1 ha.2.1))
  obtain ⟨pre', y, post, hl', hlen', hnat', hy, hcy, hib, hible, hmaxb⟩ :=
    sanitized_decomp e b hb (hc _ (lineAt_mem _ _ hb.1 hb.2.1))
  have hbefore := GetText_before e a pre x rest _ hl hlen.symm hia hiale
  have hafter := GetText_after e b pre' y post _ hl' hlen'.symm hib hible
  rw [GetTextAll_eq, hbefore, hafter]
  unfold Coordinates.le at hab
  by_cases hline : a.mLine = b.mLine
  · -- deletion inside one line
    have hpre : pre' = pre := by
      have h1 : pre'.length = pre.length := by omega
      have := hl.symm.trans hl'
      exact ((List.append_inj this h1.symm).1).symm
    subst hpre
    have hxy : y = x := by rw [← hy, ← hx, hline]
    subst hxy
    have hpost : post = rest := by
      have := hl.symm.trans hl'
      simpa using this.symm
    subst hpost
    refine ⟨?_, fun h => absurd h (by omega)⟩
    rw [if_neg (by simpa using hline)] at hab
    have hcol : a.mColumn ≤ b.mColumn := by simpa using hab
    have hmono := idxWalk_mono e.mTabSize a.mColumn b.mColumn hcol 0 y 0
    by_cases heq : b = a
    · rw [heq] at hafter ⊢
      unfold DeleteRange
      rw [if_pos rfl, hl, docText_decomp]
      have hsplit : lineText y = lineText (y.take (idxWalk e.mTabSize a.mColumn 0 y 0))
          ++ lineText (y.drop (idxWalk e.mTabSize a.mColumn 0 y 0)) := by
        rw [← lineText_append, List.take_append_drop]
      rw [hsplit]
      simp
    · rw [DeleteRange_mLines_same e a b heq hline, hx, hia, hib, hmaxa, hnat, hl, set_decomp,
        docText_decomp]
      simp only [Int.toNat_ofNat]
      split_ifs with hge
      · have hfull := idxWalk_eq_length e.mTabSize b.mColumn y hcy
          (htab y (by rw [hl]; simp)) 0 hge
        rw [hfull, List.drop_length]
        simp [lineText]
      · rw [lineText_append]
        simp
  · -- deletion across lines
    rw [if_pos (by simpa using hline)] at hab
    have hlt : a.mLine < b.mLine := by simpa using hab
    -- the end line lies in `rest`
    have hrest : ∃ mid, rest = mid ++ y :: post ∧ pre' = pre ++ x :: mid := by
      have hlen2 : pre.length + 1 ≤ pre'.length := by omega
      have heq := hl.symm.trans hl'
      refine ⟨(pre'.drop (pre.length + 1)), ?_, ?_⟩
      · have h1 : (pre ++ x :: rest).drop (pre.length + 1) = rest := by
          have : pre ++ x :: rest = (pre ++ [x]) ++ rest := by simp
          rw [this]
          have hl1 : (pre ++ [x]).length = pre.length + 1 := by simp
          rw [← hl1, drop_decomp]
        rw [← h1, heq, List.drop_append_of_le_length hlen2]
      · have h2 : (pre' ++ y :: post).take (pre.length + 1) = pre'.take (pre.length + 1) :=
          List.take_append_of_le_length hlen2
        have h3 : (pre ++ x :: rest).take (pre.length + 1) = pre ++ [x] := by
          have : pre ++ x :: rest = (pre ++ [x]) ++ rest := by simp
          rw [this]
          have hl1 : (pre ++ [x]).length = pre.length + 1 := by simp
          rw [← hl1, take_decomp]
        rw [heq, h2] at h3
        have := List.take_append_drop (pre.length + 1) pre'
        rw [h3] at this
        simpa using this.symm
    obtain ⟨mid, hmid, hpre'⟩ := hrest
    subst hmid
    subst hpre'
    have hbnat : b.mLine.toNat = pre.length + 1 + mid.length := by
      rw [hnat']; simp; omega
    have hmlines : (DeleteRange e a b).mLines
        = pre ++ (x.take (idxWalk e.mTabSize a.mColumn 0 x 0)
            ++ y.drop (idxWalk e.mTabSize b.mColumn 0 y 0)) :: post := by
      rw [DeleteRange_mLines_cross e a b hlt, hx, hy, hia, hib]
      simp only [Int.toNat_ofNat]
      have h1 : (a.mLine + 1).toNat = pre.length + 1 := by omega
      have h2 : (b.mLine + 1).toNat = pre.length + 1 + mid.length + 1 := by omega
      rw [h1, h2, hnat, hbnat, hl]
      exact cross_lines pre mid post x y _ _
    refine ⟨?_, fun _ => ?_⟩
    · rw [hmlines, docText_decomp, lineText_append]
      simp
    · rw [hmlines, hx, hy, hia, hib, hnat, hbnat, hl]
      simp only [Int.toNat_ofNat]
      rw [take_decomp]
      have h4 : pre ++ x :: (mid ++ y :: post) = (pre ++ x :: mid ++ [y]) ++ post := by simp
      have hl4 : (pre ++ x :: mid ++ [y]).length = pre.length + 1 + mid.length + 1 := by
        simp; omega
      rw [h4, ← hl4, drop_decomp]

theorem C2_delete_range_text_witness :
    GetTextAll (DeleteRange (ofLines [[97, 9, 99], [195, 169, 101], [103, 104]]) ⟨0, 4⟩ ⟨2, 1⟩)
      = GetText (ofLines [[97, 9, 99], [195, 169, 101], [103, 104]]) {} ⟨0, 4⟩
        ++ GetText (ofLines [[97, 9, 99], [195, 169, 101], [103, 104]]) ⟨2, 1⟩
            ⟨(ofLines [[97, 9, 99], [195, 169, 101], [103, 104]]).mLines.length, 0⟩ :=
  (C2_delete_range_text (ofLines [[97, 9, 99], [195, 169, 101], [103, 104]]) ⟨0, 4⟩ ⟨2, 1⟩
    (by decide) (by decide) (by decide) (by decide) (by decide)).1

/-! ## `InsertTextAt`: claim C3 -/

theorem IsUTFSequence_ne (c : Nat) (h : IsUTFSequence c = true) : c ≠ 0 ∧ c ≠ 10 ∧ c ≠ 13 := by
  unfold IsUTFSequence at h
  refine ⟨?_, ?_, ?_⟩ <;> (rintro rfl; simp at h)

/-- Splitting the pending continuation bytes off a valid text. -/
theorem validFrom_split (s : Nat) (t : List Nat) (h : validFrom s t = true) :
    ∃ tl rest, t = tl ++ rest ∧ tl.length = s ∧ (∀ c ∈ tl, IsUTFSequence c = true)
      ∧ validFrom 0 rest = true := by
  induction t generalizing s with
  | nil =>
    cases s with
    | zero => exact ⟨[], [], rfl, rfl, by simp, rfl⟩
    | succ n => simp [validFrom] at h
  | cons c rest ih =>
    cases s with
    | zero => exact ⟨[], c :: rest, rfl, rfl, by simp, h⟩
    | succ n =>
      simp only [validFrom, Bool.and_eq_true] at h
      obtain ⟨tl, suf, h1, h2, h3, h4⟩ := ih n h.2
      refine ⟨c :: tl, suf, by simp [h1], by simp [h2], ?_, h4⟩
      intro d hd
      rcases List.mem_cons.mp hd with rfl | hd
      · exact h.1
      · exact h3 d hd

theorem insertChars_spec (tl : List Nat) :
    ∀ (rest : List Nat) (line : Line) (k : Nat), (∀ c ∈ tl, c ≠ 0) → k ≤ line.length →
      InsertTextAt.insertChars tl.length (tl ++ rest) line k
        = (line.take k ++ toLine tl ++ line.drop k, ((k + tl.length : Nat) : Int), rest) := by
  induction tl with
  | nil => intro rest line k _ _; simp [InsertTextAt.insertChars, toLine]
  | cons c tl ih =>
    intro rest line k hnz hk
    have hc : c ≠ 0 := hnz c (by simp)
    simp only [List.length_cons, List.cons_append, InsertTextAt.insertChars, List.append_eq]
    rw [if_neg hc, Int.toNat_ofNat]
    have h1 : (k : Int) + 1 = ((k + 1 : Nat) : Int) := by push_cast; rfl
    rw [h1, ih rest _ (k + 1) (fun d hd => hnz d (by simp [hd])) (by simp; omega)]
    have htake : (line.take k ++ { mChar := c } :: line.drop k).take (k + 1)
        = line.take k ++ [{ mChar := c }] := by
      have : line.take k ++ { mChar := c } :: line.drop k
          = (line.take k ++ [{ mChar := c }]) ++ line.drop k := by simp
      rw [this]
      have hl : (line.take k ++ [({ mChar := c } : Glyph)]).length = k + 1 := by
        simp [List.length_take]; omega
      rw [← hl, take_decomp]
    have hdrop : (line.take k ++ { mChar := c } :: line.drop k).drop (k + 1) = line.drop k := by
      have : line.take k ++ { mChar := c } :: line.drop k
          = (line.take k ++ [{ mChar := c }]) ++ line.drop k := by simp
      rw [this]
      have hl : (line.take k ++ [({ mChar := c } : Glyph)]).length = k + 1 := by
        simp [List.length_take]; omega
      rw [← hl, drop_decomp]
    rw [htake, hdrop]
    simp [toLine]
    omega

/-- The lines after the line break of `InsertTextAt` at byte `k` of the line `x`. -/
theorem newline_lines (pre : Lines) (x : Line) (post : Lines) (k : Nat) :
    (((pre ++ x :: post).take (pre.length + 1) ++ [] :: (pre ++ x :: post).drop (pre.length + 1)).set
        (pre.length + 1) (x.drop k ++ [])).set pre.length (x.take k)
      = pre ++ x.take k :: x.drop k :: post := by
  have h0 : pre ++ x :: post = (pre ++ [x]) ++ post := by simp
  have hl0 : (pre ++ [x]).length = pre.length + 1 := by simp
  rw [h0, ← hl0, take_decomp, drop_decomp, set_decomp]
  have h1 : (pre ++ [x]) ++ (x.drop k ++ []) :: post = pre ++ x :: (x.drop k :: post) := by simp
  rw [h1, set_decomp]

theorem insertLine_lines (pre : Lines) (x : Line) (post : Lines) :
    (pre ++ x :: post).take (pre.length + 1) ++ [] :: (pre ++ x :: post).drop (pre.length + 1)
      = pre ++ x :: [] :: post := by
  have h0 : pre ++ x :: post = (pre ++ [x]) ++ post := by simp
  have hl0 : (pre ++ [x]).length = pre.length + 1 := by simp
  rw [h0, ← hl0, take_decomp, drop_decomp]
  simp

theorem lineText_toLine (s : List Nat) : lineText (toLine s) = s := by
  induction s with
  | nil => rfl
  | cons c s ih =>
    simp only [lineText, toLine, List.map_cons, List.cons.injEq, true_and] at ih ⊢
    exact ih

theorem InsertSpec_nil (pre : Lines) (x : Line) (post : Lines) (k : Nat) (total : Int)
    (e : TextEditor) (aWhere : Coordinates) (hl : e.mLines = pre ++ x :: post) :
    InsertSpec pre x post k [] total aWhere.mLine (e, aWhere, total) := by
  unfold InsertSpec
  refine ⟨?_, by simp [hl], by simp, by simp⟩
  simp only [hl, docText_decomp, List.filter_nil, List.nil_append]
  have hsplit : lineText x = lineText (x.take k) ++ lineText (x.drop k) := by
    rw [← lineText_append, List.take_append_drop]
  rw [hsplit]
  simp

/-- The lines after the line break of `InsertTextAt` at byte `k` of line `x`. -/
theorem breakLine_mLines (e : TextEditor) (aWhere : Coordinates) (k : Nat)
    (pre : Lines) (x : Line) (post : Lines) (hl : e.mLines = pre ++ x :: post)
    (hline : aWhere.mLine = pre.length) (hk : k ≤ x.length) :
    (InsertTextAt.breakLine e aWhere k).mLines = pre ++ x.take k :: x.drop k :: post := by
  have hnat : aWhere.mLine.toNat = pre.length := by omega
  have hnat1 : (aWhere.mLine + 1).toNat = pre.length + 1 := by omega
  have hx : lineAt e.mLines aWhere.mLine = x := by
    rw [hl, hline, lineAt_append_length]
  have hil : (InsertLine e (aWhere.mLine + 1)).mLines = pre ++ x :: [] :: post := by
    rw [InsertLine_mLines, hnat1, hl, insertLine_lines]
  unfold InsertTextAt.breakLine
  split_ifs with hlt
  · simp only [hil]
    have hx1 : lineAt (pre ++ x :: [] :: post) aWhere.mLine = x := by
      rw [hline, lineAt_append_length]
    have hx2 : lineAt (pre ++ x :: [] :: post) (aWhere.mLine + 1) = [] := by
      have : pre ++ x :: [] :: post = (pre ++ [x]) ++ [] :: post := by simp
      rw [this, hline]
      have hl2 : ((pre.length : Int) + 1) = ((pre ++ [x]).length : Int) := by simp
      rw [hl2, lineAt_append_length]
    rw [hx1, hx2, hnat, hnat1, Int.toNat_ofNat, ← insertLine_lines, newline_lines]
  · rw [hil]
    rw [hx] at hlt
    have hkx : k = x.length := by omega
    subst hkx
    simp

/-- The loop of `InsertTextAt` with auto-indent off inserts the text at the insertion
point, dropping `'\r'` and breaking the line at every `'\n'`. -/
theorem InsertTextAt_loop_spec (s : Int) (fuel : Nat) :
    ∀ (t : List Nat) (e : TextEditor) (aWhere : Coordinates) (k : Nat) (total ai : Int)
      (pre : Lines) (x : Line) (post : Lines),
      t.length ≤ fuel → 0 ∉ t → validFrom 0 t = true → e.mLines = pre ++ x :: post →
      aWhere.mLine = pre.length → k ≤ x.length →
      InsertSpec pre x post k t total aWhere.mLine
        (InsertTextAt.loop false s fuel t e aWhere k total ai) := by
  induction fuel with
  | zero =>
    intro t e aWhere k total ai pre x post hf _ _ hl _ _
    have : t = [] := List.length_eq_zero.mp (Nat.le_zero.mp hf)
    subst this
    exact InsertSpec_nil pre x post k total e aWhere hl
  | succ n ih =>
    intro t e aWhere k total ai pre x post hf hnul hvalid hl hline hk
    cases t with
    | nil => exact InsertSpec_nil pre x post k total e aWhere hl
    | cons c rest =>
      have hc0 : c ≠ 0 := fun h => hnul (by simp [h])
      have hrest0 : 0 ∉ rest := fun h => hnul (by simp [h])
      have hfr : rest.length ≤ n := by simp at hf; omega
      simp only [InsertTextAt.loop]
      rw [if_neg hc0]
      by_cases h13 : c = 13
      · -- carriage return: skipped
        subst h13
        rw [if_pos rfl]
        have hv : validFrom 0 rest = true := by simpa [validFrom, UTF8CharLength] using hvalid
        have key := ih rest e aWhere k total ai pre x post hfr hrest0 hv hl hline hk
        unfold InsertSpec at key ⊢
        simpa [List.count_cons] using key
      · rw [if_neg h13]
        by_cases h10 : c = 10
        · -- line break
          subst h10
          rw [if_pos rfl]
          have hv : validFrom 0 rest = true := by simpa [validFrom, UTF8CharLength] using hvalid
          simp only [Bool.false_eq_true, if_false]
          have hnat : aWhere.mLine.toNat = pre.length := by omega
          have hnat1 : (aWhere.mLine + 1).toNat = pre.length + 1 := by omega
          have hx : lineAt e.mLines aWhere.mLine = x := by
            rw [hl, hline, lineAt_append_length]
          have key := ih rest (InsertTextAt.breakLine e aWhere k)
            ⟨aWhere.mLine + 1, 0⟩ 0 (total + 1) ai (pre ++ [x.take k]) (x.drop k) post hfr hrest0 hv
            (by rw [breakLine_mLines e aWhere k pre x post hl hline hk]; simp)
            (by simp [hline]) (Nat.zero_le _)
          unfold InsertSpec at key ⊢
          simp only [Nat.cast_zero] at key
          obtain ⟨k1, k2, k3, k4⟩ := key
          refine ⟨?_, ?_, ?_, ?_⟩
          · rw [k1]; simp [joinPre, lineText]
          · rw [k2]; simp [List.count_cons]; omega
          · rw [k3]; simp [List.count_cons]; omega
          · rw [k4]; simp [List.count_cons]; omega
        · -- an ordinary character: `UTF8CharLength c` bytes go into the line
          rw [if_neg h10]
          simp only [validFrom] at hvalid
          obtain ⟨tl, rest', hsplit, htl, hcont, hv⟩ := validFrom_split _ _ hvalid
          subst hsplit
          have hx : lineAt e.mLines aWhere.mLine = x := by
            rw [hl, hline, lineAt_append_length]
          have hnat : aWhere.mLine.toNat = pre.length := by omega
          have hpos := UTF8CharLength_pos c
          have hlen : UTF8CharLength c = (c :: tl).length := by simp; omega
          have hins := insertChars_spec (c :: tl) rest' x k
            (by
              intro d hd
              rcases List.mem_cons.mp hd with rfl | hd
              · exact hc0
              · exact (IsUTFSequence_ne d (hcont d hd)).1) hk
          rw [← hlen] at hins
          have hcons : c :: (tl ++ rest') = (c :: tl) ++ rest' := rfl
          rw [hx, hcons, hins]
          simp only []
          have htake : (x.take k ++ toLine (c :: tl) ++ x.drop k).take (k + (c :: tl).length)
              = x.take k ++ toLine (c :: tl) := by
            have hl : (x.take k ++ toLine (c :: tl)).length = k + (c :: tl).length := by
              simp [toLine, List.length_take]; omega
            rw [← hl, take_decomp]
          have hdrop : (x.take k ++ toLine (c :: tl) ++ x.drop k).drop (k + (c :: tl).length)
              = x.drop k := by
            have hl : (x.take k ++ toLine (c :: tl)).length = k + (c :: tl).length := by
              simp [toLine, List.length_take]; omega
            rw [← hl, drop_decomp]
          have hfilter : (tl ++ rest').filter (fun c => c ≠ 13)
              = tl ++ rest'.filter (fun c => c ≠ 13) := by
            rw [List.filter_append]
            congr 1
            rw [List.filter_eq_self]
            intro d hd
            have := (IsUTFSequence_ne d (hcont d hd)).2.2
            simpa using this
          have hcount : (tl ++ rest').count 10 = rest'.count 10 := by
            rw [List.count_append]
            have : tl.count 10 = 0 := by
              rw [List.count_eq_zero]
              intro h
              exact (IsUTFSequence_ne 10 (hcont 10 h)).2.1 rfl
            omega
          have step : ∀ r : TextEditor × Coordinates × Int,
              InsertSpec pre (x.take k ++ toLine (c :: tl) ++ x.drop k) post
                (k + (c :: tl).length) rest' total aWhere.mLine r →
              InsertSpec pre x post k ((c :: tl) ++ rest') total aWhere.mLine r := by
            intro r key
            unfold InsertSpec at key ⊢
            obtain ⟨k1, k2, k3, k4⟩ := key
            rw [htake, hdrop] at k1
            refine ⟨?_, ?_, ?_, ?_⟩
            · rw [k1, List.cons_append, List.filter_cons, hfilter, lineText_append,
                lineText_toLine]
              simp [h13]
            · rw [k2, List.cons_append, List.count_cons, hcount]; simp [h10]
            · rw [k3, List.cons_append, List.count_cons, hcount]; simp [h10]
            · rw [k4, List.cons_append, List.count_cons, hcount]; simp [h10]
          apply step
          rw [hlen]
          exact ih rest' _ ⟨aWhere.mLine, _⟩ (k + (c :: tl).length) total _ pre
            (x.take k ++ toLine (c :: tl) ++ x.drop k) post
            (by simp at hfr; omega) (fun h => hrest0 (by simp [h])) hv
            (by simp only []; rw [hnat, hl, set_decomp])
            hline (by simp [toLine, List.length_take]; omega)

/-- C3, as stated, fails on a document line that ends inside a UTF-8 sequence: on the
lines "\xC3", "ab" the position (0,1) is sanitized, and inserting "\n" there yields the
text "\xC3\n\nab", while the old text before the position is "\xC3\nab" and the old text
from the position on is "\nab". -/
theorem C3_counterexample :
    Sanitized (ofLines [[195], [97, 98]]) ⟨0, 1⟩
      ∧ GetTextAll (InsertTextAt (ofLines [[195], [97, 98]]) ⟨0, 1⟩ [10] false).1
          = [195, 10, 10, 97, 98]
      ∧ GetText (ofLines [[195], [97, 98]]) {} ⟨0, 1⟩ = [195, 10, 97, 98]
      ∧ GetText (ofLines [[195], [97, 98]]) ⟨0, 1⟩ ⟨2, 0⟩ = [10, 97, 98]
      ∧ ¬ (GetTextAll (InsertTextAt (ofLines [[195], [97, 98]]) ⟨0, 1⟩ [10] false).1
            = GetText (ofLines [[195], [97, 98]]) {} ⟨0, 1⟩
              ++ [10].filter (fun c => c ≠ 13)
              ++ GetText (ofLines [[195], [97, 98]]) ⟨0, 1⟩
                  ⟨(ofLines [[195], [97, 98]]).mLines.length, 0⟩) := by
  decide

/-- C3 (amended): with autoIndent off, for every document, every sanitized position `p`
on a line made of complete UTF-8 sequences on which the tab-stop division is defined
(tab size `≥ 1` when the line holds a tab) and every NUL-free valid-UTF-8 text `t`, after
`InsertTextAt(p, t)` the whole document text equals (old text before `p`) ++ `t'` ++
(old text from `p` on), where `t'` is `t` with every `'\r'` removed; every `'\n'` of `t`
is a line break: the document grows by as many lines as `t` has `'\n'` bytes, which is
also the returned count, and the in/out position advances by that many lines. -/
theorem C3_insert_text_at (e : TextEditor) (p : Coordinates) (t : List Nat)
    (hp : Sanitized e p) (hline : Complete (lineAt e.mLines p.mLine))
    (_htab : TabStopsDefined e.mTabSize (lineAt e.mLines p.mLine))
    (hnul : 0 ∉ t) (hvalid : ValidUTF8 t) :
    GetTextAll (InsertTextAt e p t false).1
        = GetText e {} p ++ t.filter (fun c => c ≠ 13) ++ GetText e p ⟨e.mLines.length, 0⟩
      ∧ (InsertTextAt e p t false).1.mLines.length = e.mLines.length + t.count 10
      ∧ (InsertTextAt e p t false).2.2 = t.count 10
      ∧ (InsertTextAt e p t false).2.1.mLine = p.mLine + t.count 10 := by
  obtain ⟨pre, x, post, hl, hlen, hnat, hx, hcx, hi, hile, _⟩ := sanitized_decomp e p hp hline
  have hbefore := GetText_before e p pre x post _ hl hlen.symm hi hile
  have hafter := GetText_after e p pre x post _ hl hlen.symm hi hile
  have key := InsertTextAt_loop_spec 0 t.length t e p (idxWalk e.mTabSize p.mColumn 0 x 0) 0 0
    pre x post (Nat.le_refl _) hnul hvalid hl hlen.symm hile
  unfold InsertSpec at key
  obtain ⟨k1, k2, k3, k4⟩ := key
  have hdef : InsertTextAt e p t false
      = ({ (InsertTextAt.loop false 0 t.length t e p (GetCharacterIndex e p) 0 0).1 with
            mTextChanged := true
            mEvents := (InsertTextAt.loop false 0 t.length t e p (GetCharacterIndex e p) 0 0).1.mEvents
              ++ [Event.ContentUpdate] },
          (InsertTextAt.loop false 0 t.length t e p (GetCharacterIndex e p) 0 0).2.1,
          (InsertTextAt.loop false 0 t.length t e p (GetCharacterIndex e p) 0 0).2.2) := by
    unfold InsertTextAt
    simp
  rw [hdef, hi, GetTextAll_eq, hbefore, hafter]
  simp only []
  refine ⟨?_, ?_, ?_, ?_⟩
  · rw [k1]; simp
  · rw [k2, hl]
  · rw [k3]; simp
  · rw [k4]

theorem C3_insert_text_at_witness :
    GetTextAll (InsertTextAt (ofLines [[9, 97], [195, 169, 98]]) ⟨1, 1⟩ [120, 13, 10, 226, 130, 172, 10, 121] false).1
      = GetText (ofLines [[9, 97], [195, 169, 98]]) {} ⟨1, 1⟩
        ++ [120, 13, 10, 226, 130, 172, 10, 121].filter (fun c => c ≠ 13)
        ++ GetText (ofLines [[9, 97], [195, 169, 98]]) ⟨1, 1⟩
            ⟨(ofLines [[9, 97], [195, 169, 98]]).mLines.length, 0⟩ :=
  (C3_insert_text_at (ofLines [[9, 97], [195, 169, 98]]) ⟨1, 1⟩ [120, 13, 10, 226, 130, 172, 10, 121]
    (by decide) (by decide) (by decide) (by decide) (by decide)).1

/-! ## Frame lemmas for the edit commands -/

theorem foldl_proj {α β : Type} (proj : TextEditor → α) (f : TextEditor → β → TextEditor)
    (hf : ∀ e i, proj (f e i) = proj e) (l : List β) (e : TextEditor) :
    proj (l.foldl f e) = proj e := by
  induction l generalizing e with
  | nil => rfl
  | cons b l ih => rw [List.foldl_cons, ih, hf]

theorem InsertLine_editFrame (e : TextEditor) (aIndex : Int) :
    editFrame (InsertLine e aIndex) = editFrame e := by
  unfold InsertLine
  simp only []
  rw [foldl_proj editFrame, foldl_proj editFrame]
  all_goals first | rfl | (intro e i; rfl)

theorem RemoveLineRange_editFrame (e : TextEditor) (s t : Int) :
    editFrame (RemoveLineRange e s t) = editFrame e := by
  unfold RemoveLineRange
  simp only []
  show editFrame (List.foldl _ _ _) = _
  rw [foldl_proj editFrame]
  · rfl
  · intro e i; split_ifs <;> rfl

theorem RemoveLine_editFrame (e : TextEditor) (aIndex : Int) :
    editFrame (RemoveLine e aIndex) = editFrame e := by
  unfold RemoveLine
  simp only []
  show editFrame (List.foldl _ _ _) = _
  rw [foldl_proj editFrame]
  · rfl
  · intro e i; split_ifs <;> rfl

theorem RemoveLine_mLines (e : TextEditor) (aIndex : Int) :
    (RemoveLine e aIndex).mLines
      = e.mLines.take aIndex.toNat ++ e.mLines.drop (aIndex.toNat + 1) := by
  unfold RemoveLine
  simp only []
  rw [foldl_mLines]
  intro e i
  split_ifs <;> rfl

theorem DeleteRange_editFrame (e : TextEditor) (a b : Coordinates) :
    editFrame (DeleteRange e a b) = editFrame e := by
  unfold DeleteRange
  split_ifs
  · rfl
  · rfl
  · show editFrame (RemoveLineRange _ _ _) = _
    rw [RemoveLineRange_editFrame]; rfl
  · rfl

theorem addIndent_editFrame (ch : Nat) (delta lineNo : Int) (count : Nat) (e : TextEditor) :
    editFrame (InsertTextAt.addIndent ch delta lineNo count e) = editFrame e := by
  induction count generalizing e with
  | zero => rfl
  | succ n ih => simp only [InsertTextAt.addIndent]; rw [ih]; rfl

theorem breakLine_editFrame (e : TextEditor) (aWhere : Coordinates) (cindex : Int) :
    editFrame (InsertTextAt.breakLine e aWhere cindex) = editFrame e := by
  unfold InsertTextAt.breakLine
  split_ifs
  · show editFrame (InsertLine _ _) = _
    rw [InsertLine_editFrame]
  · rw [InsertLine_editFrame]

theorem indentNewLine_editFrame (e : TextEditor) (lineNo : Int) (rest : List Nat) (s ai : Int) :
    editFrame (InsertTextAt.indentNewLine e lineNo rest s ai).1 = editFrame e := by
  unfold InsertTextAt.indentNewLine
  simp only [addIndent_editFrame]

theorem InsertTextAt_loop_editFrame (indent : Bool) (s : Int) (fuel : Nat) :
    ∀ (t : List Nat) (e : TextEditor) (aWhere : Coordinates) (cindex total ai : Int),
      editFrame (InsertTextAt.loop indent s fuel t e aWhere cindex total ai).1 = editFrame e := by
  induction fuel with
  | zero => intro t e aWhere cindex total ai; rfl
  | succ n ih =>
    intro t e aWhere cindex total ai
    cases t with
    | nil => rfl
    | cons c rest =>
      simp only [InsertTextAt.loop]
      by_cases h0 : c = 0
      · rw [if_pos h0]
      · rw [if_neg h0]
        by_cases h13 : c = 13
        · rw [if_pos h13, ih]
        · rw [if_neg h13]
          by_cases h10 : c = 10
          · rw [if_pos h10]
            by_cases hind : indent = true
            · rw [if_pos hind, ih, indentNewLine_editFrame, breakLine_editFrame]
            · rw [if_neg hind, ih, breakLine_editFrame]
          · rw [if_neg h10, ih]
            rfl

theorem InsertTextAt_editFrame (e : TextEditor) (aWhere : Coordinates) (t : List Nat)
    (indent : Bool) : editFrame (InsertTextAt e aWhere t indent).1 = editFrame e := by
  unfold InsertTextAt
  show editFrame (InsertTextAt.loop _ _ _ _ _ _ _ _ _).1 = _
  rw [InsertTextAt_loop_editFrame]

theorem Colorize_viewFrame (e : TextEditor) (a b : Int) :
    viewFrame (Colorize e a b) = viewFrame e := rfl

theorem Colorize_mState (e : TextEditor) (a b : Int) : (Colorize e a b).mState = e.mState := rfl

theorem EnsureCursorVisible_viewFrame (e : TextEditor) :
    viewFrame (EnsureCursorVisible e) = viewFrame e := by
  unfold EnsureCursorVisible; split_ifs <;> rfl

theorem EnsureCursorVisible_mState (e : TextEditor) :
    (EnsureCursorVisible e).mState = e.mState := by
  unfold EnsureCursorVisible; split_ifs <;> rfl

theorem SetCursorPosition_viewFrame (e : TextEditor) (p : Coordinates) :
    viewFrame (SetCursorPosition e p) = viewFrame e := by
  unfold SetCursorPosition
  split_ifs
  · rw [EnsureCursorVisible_viewFrame]; rfl
  · rfl

theorem SetCursorPosition_mState (e : TextEditor) (p : Coordinates) :
    (SetCursorPosition e p).mState = { e.mState with mCursorPosition := p } := by
  unfold SetCursorPosition
  split_ifs with h
  · rw [EnsureCursorVisible_mState]
  · have : e.mState.mCursorPosition = p := by simpa using h
    rw [← this]

theorem SetSelection_viewFrame (e : TextEditor) (a b : Coordinates) (m : SelectionMode) :
    viewFrame (SetSelection e a b m) = viewFrame e := by
  unfold SetSelection
  cases m <;> simp only [] <;> split_ifs <;> rfl

theorem AddUndo_mLines (e : TextEditor) (u : UndoRecord) : (AddUndo e u).mLines = e.mLines := rfl

theorem AddUndo_mState (e : TextEditor) (u : UndoRecord) : (AddUndo e u).mState = e.mState := rfl

theorem Copy_mLines (e : TextEditor) : (Copy e).mLines = e.mLines := by
  unfold Copy; split_ifs <;> rfl

theorem Copy_mState (e : TextEditor) : (Copy e).mState = e.mState := by
  unfold Copy; split_ifs <;> rfl

theorem editFrame_eq {e e' : TextEditor} (h : editFrame e' = editFrame e) :
    e'.mState = e.mState ∧ logFrame e' = logFrame e := by
  simp only [editFrame, Prod.mk.injEq] at h
  exact h

theorem viewFrame_eq {e e' : TextEditor} (h : viewFrame e' = viewFrame e) :
    e'.mLines = e.mLines ∧ logFrame e' = logFrame e := by
  simp only [viewFrame, Prod.mk.injEq] at h
  exact h

theorem logFrame_eq {e e' : TextEditor} (h : logFrame e' = logFrame e) :
    e'.mUndoBuffer = e.mUndoBuffer ∧ e'.mUndoIndex = e.mUndoIndex
      ∧ IsReadOnly e' = IsReadOnly e ∧ e'.mTabSize = e.mTabSize
      ∧ e'.mInsertSpaces = e.mInsertSpaces ∧ e'.mOverwrite = e.mOverwrite
      ∧ e'.mCompleteBraces = e.mCompleteBraces := by
  simp only [logFrame, Prod.mk.injEq] at h
  refine ⟨h.1, h.2.1, ?_, h.2.2.2.1, h.2.2.2.2.1, h.2.2.2.2.2.1, h.2.2.2.2.2.2.1⟩
  unfold IsReadOnly IsDebugging
  rw [h.2.2.1.1, h.2.2.1.2]

theorem ValidLog_of_logFrame {e e' : TextEditor} (h : logFrame e' = logFrame e)
    (hv : ValidLog e) : ValidLog e' := by
  obtain ⟨h1, h2, h3, _⟩ := logFrame_eq h
  unfold ValidLog at hv ⊢
  rw [h1, h2, h3]; exact hv

/-! ## The undo log: applying and appending records -/

theorem AddUndo_spec (e : TextEditor) (u : UndoRecord) (h : ValidLog e) :
    ValidLog (AddUndo e u) ∧ (AddUndo e u).mUndoIndex = e.mUndoIndex + 1
      ∧ lastRecord (AddUndo e u) = u
      ∧ (AddUndo e u).mUndoBuffer = e.mUndoBuffer.take e.mUndoIndex.toNat ++ [u] := by
  obtain ⟨hro, h0, h1⟩ := h
  obtain ⟨c1, c2, c3, _⟩ := AddUndo_truncates e u h0 h1
  refine ⟨⟨hro, by rw [c2]; omega, by rw [← c3]⟩, c2, ?_, c1⟩
  unfold lastRecord
  rw [c1, c2]
  have hlen : (e.mUndoBuffer.take e.mUndoIndex.toNat).length = e.mUndoIndex.toNat := by
    rw [List.length_take]; omega
  have hidx : (e.mUndoIndex + 1 - 1).toNat = (e.mUndoBuffer.take e.mUndoIndex.toNat).length := by
    rw [hlen]; omega
  rw [hidx, List.getD_eq_getElem?_getD, List.getElem?_append_right (Nat.le_refl _)]
  simp

theorem AddUndo_recorded (e0 e : TextEditor) (u : UndoRecord) (h : ValidLog e)
    (hb : u.mBefore = e0.mState) (ha : u.mAfter = e.mState) : Recorded e0 (AddUndo e u) := by
  obtain ⟨s1, s2, s3, _⟩ := AddUndo_spec e u h
  exact ⟨s1, by rw [s2]; have := h.2.1; omega, by rw [s3, hb], by rw [s3, ha]; rfl⟩

theorem UndoRecord_Undo_mState (u : UndoRecord) (e : TextEditor) :
    (u.Undo e).mState = u.mBefore := by
  unfold UndoRecord.Undo
  rw [EnsureCursorVisible_mState]

theorem UndoRecord_Redo_mState (u : UndoRecord) (e : TextEditor) :
    (u.Redo e).mState = u.mAfter := by
  unfold UndoRecord.Redo
  rw [EnsureCursorVisible_mState]

theorem Undo_one (e : TextEditor) (h : ValidLog e) (hpos : 0 < e.mUndoIndex) :
    Undo e 1 = (lastRecord e).Undo { e with mUndoIndex := e.mUndoIndex - 1 } := by
  unfold Undo
  have h1 : (1 : Int).toNat = 1 := rfl
  rw [h1]
  simp only [Undo.loop, CanUndo, h.1, hpos, Bool.not_false, decide_True, Bool.and_self, if_true,
    lastRecord]

/-- After a command that recorded its edit, `Undo()` restores the selection and cursor
the command started from. -/
theorem Undo_recorded_mState (e0 e : TextEditor) (h : Recorded e0 e) :
    (Undo e 1).mState = e0.mState := by
  obtain ⟨hv, hpos, hb, _⟩ := h
  rw [Undo_one e hv hpos, UndoRecord_Undo_mState, hb]

/-! ## The edit commands record their edit -/

theorem logFrame_of_viewFrame {e e' : TextEditor} (h : viewFrame e' = viewFrame e) :
    logFrame e' = logFrame e := (viewFrame_eq h).2

theorem logFrame_of_editFrame {e e' : TextEditor} (h : editFrame e' = editFrame e) :
    logFrame e' = logFrame e := (editFrame_eq h).2

theorem Copy_logFrame (e : TextEditor) : logFrame (Copy e) = logFrame e := by
  unfold Copy; split_ifs <;> rfl

theorem Colorize_logFrame (e : TextEditor) (a b : Int) : logFrame (Colorize e a b) = logFrame e :=
  rfl

theorem SetCursorPosition_logFrame (e : TextEditor) (p : Coordinates) :
    logFrame (SetCursorPosition e p) = logFrame e :=
  logFrame_of_viewFrame (SetCursorPosition_viewFrame e p)

theorem SetSelection_logFrame (e : TextEditor) (a b : Coordinates) (m : SelectionMode) :
    logFrame (SetSelection e a b m) = logFrame e :=
  logFrame_of_viewFrame (SetSelection_viewFrame e a b m)

theorem DeleteRange_logFrame (e : TextEditor) (a b : Coordinates) :
    logFrame (DeleteRange e a b) = logFrame e :=
  logFrame_of_editFrame (DeleteRange_editFrame e a b)

theorem RemoveLine_logFrame (e : TextEditor) (i : Int) :
    logFrame (RemoveLine e i) = logFrame e :=
  logFrame_of_editFrame (RemoveLine_editFrame e i)

theorem InsertLine_logFrame (e : TextEditor) (i : Int) :
    logFrame (InsertLine e i) = logFrame e :=
  logFrame_of_editFrame (InsertLine_editFrame e i)

theorem EnsureCursorVisible_logFrame (e : TextEditor) :
    logFrame (EnsureCursorVisible e) = logFrame e :=
  logFrame_of_viewFrame (EnsureCursorVisible_viewFrame e)

theorem DeleteSelection_logFrame (e : TextEditor) :
    logFrame (DeleteSelection e) = logFrame e := by
  unfold DeleteSelection
  split_ifs
  · rfl
  · simp only []
    rw [Colorize_logFrame, SetCursorPosition_logFrame, SetSelection_logFrame, DeleteRange_logFrame]

theorem Colorize_mLines (e : TextEditor) (a b : Int) : (Colorize e a b).mLines = e.mLines := rfl

theorem SetCursorPosition_mLines (e : TextEditor) (p : Coordinates) :
    (SetCursorPosition e p).mLines = e.mLines :=
  (viewFrame_eq (SetCursorPosition_viewFrame e p)).1

theorem SetSelection_mLines (e : TextEditor) (a b : Coordinates) (m : SelectionMode) :
    (SetSelection e a b m).mLines = e.mLines :=
  (viewFrame_eq (SetSelection_viewFrame e a b m)).1

theorem EnsureCursorVisible_mLines (e : TextEditor) : (EnsureCursorVisible e).mLines = e.mLines :=
  (viewFrame_eq (EnsureCursorVisible_viewFrame e)).1

theorem DeleteSelection_mLines (e : TextEditor) :
    (DeleteSelection e).mLines
      = (DeleteRange e e.mState.mSelectionStart e.mState.mSelectionEnd).mLines := by
  unfold DeleteSelection
  split_ifs with h
  · unfold DeleteRange; rw [if_pos h]
  · simp only []
    rw [Colorize_mLines, SetCursorPosition_mLines, SetSelection_mLines]

theorem InsertText_logFrame (e : TextEditor) (t : List Nat) (indent : Bool) :
    logFrame (InsertText e t indent) = logFrame e := by
  unfold InsertText
  simp only []
  rw [Colorize_logFrame, SetCursorPosition_logFrame, SetSelection_logFrame]
  exact logFrame_of_editFrame (InsertTextAt_editFrame e _ t indent)

/-- Whenever `Cut` appends to the undo log, it records its edit. -/
theorem Cut_recorded (e : TextEditor) (hv : ValidLog e)
    (hrec : (Cut e).mUndoIndex ≠ e.mUndoIndex) : Recorded e (Cut e) := by
  unfold Cut at hrec ⊢
  rw [if_neg (by simp [hv.1])] at hrec ⊢
  split_ifs at hrec ⊢ with hsel
  · exact AddUndo_recorded e _ _
      (ValidLog_of_logFrame ((DeleteSelection_logFrame _).trans (Copy_logFrame e)) hv) rfl rfl
  · exact absurd rfl hrec

/-- Whenever `Paste` appends to the undo log, it records its edit. -/
theorem Paste_recorded (e : TextEditor) (hv : ValidLog e)
    (hrec : (Paste e).mUndoIndex ≠ e.mUndoIndex) : Recorded e (Paste e) := by
  unfold Paste at hrec ⊢
  rw [if_neg (by simp [hv.1])] at hrec ⊢
  cases hclip : e.mClipboard with
  | none => rw [hclip] at hrec; exact absurd rfl hrec
  | some clip =>
    rw [hclip] at hrec
    simp only [] at hrec ⊢
    split_ifs at hrec ⊢ with hlen hsel
    · refine AddUndo_recorded e _ _ (ValidLog_of_logFrame ?_ hv) rfl rfl
      rw [InsertText_logFrame, DeleteSelection_logFrame]
    · refine AddUndo_recorded e _ _ (ValidLog_of_logFrame ?_ hv) rfl rfl
      rw [InsertText_logFrame]
    · exact absurd rfl hrec

/-- Whenever `Delete` appends to the undo log, it records its edit. -/
theorem Delete_recorded (e : TextEditor) (hv : ValidLog e)
    (hrec : (Delete e).mUndoIndex ≠ e.mUndoIndex) : Recorded e (Delete e) := by
  unfold Delete at hrec ⊢
  simp only [] at hrec ⊢
  split_ifs at hrec ⊢
  · exact absurd rfl hrec
  · exact AddUndo_recorded e _ _ (ValidLog_of_logFrame (DeleteSelection_logFrame e) hv) rfl rfl
  · exact absurd (logFrame_eq (SetCursorPosition_logFrame e _)).2.1 hrec
  · refine AddUndo_recorded e _ _ (ValidLog_of_logFrame ?_ hv) rfl rfl
    rw [Colorize_logFrame]
    show logFrame (RemoveLine _ _) = _
    rw [RemoveLine_logFrame]
    exact SetCursorPosition_logFrame e _
  · refine AddUndo_recorded e _ _ (ValidLog_of_logFrame ?_ hv) rfl rfl
    rw [Colorize_logFrame]
    exact SetCursorPosition_logFrame e _

theorem Delete_validLog (e : TextEditor) (hv : ValidLog e) : ValidLog (Delete e) := by
  unfold Delete
  simp only []
  split_ifs
  · exact hv
  · exact (AddUndo_spec _ _ (ValidLog_of_logFrame (DeleteSelection_logFrame e) hv)).1
  · exact ValidLog_of_logFrame (SetCursorPosition_logFrame e _) hv
  · refine (AddUndo_spec _ _ (ValidLog_of_logFrame ?_ hv)).1
    rw [Colorize_logFrame]
    show logFrame (RemoveLine _ _) = _
    rw [RemoveLine_logFrame]
    exact SetCursorPosition_logFrame e _
  · refine (AddUndo_spec _ _ (ValidLog_of_logFrame ?_ hv)).1
    rw [Colorize_logFrame]
    exact SetCursorPosition_logFrame e _

theorem ValidLog_congr {e e' : TextEditor} (h1 : e'.mUndoBuffer = e.mUndoBuffer)
    (h2 : e'.mUndoIndex = e.mUndoIndex) (h3 : IsReadOnly e' = IsReadOnly e) (hv : ValidLog e) :
    ValidLog e' := by
  unfold ValidLog at hv ⊢
  rw [h1, h2, h3]; exact hv

theorem Recorded_congr {e0 e e' : TextEditor} (h1 : e'.mUndoBuffer = e.mUndoBuffer)
    (h2 : e'.mUndoIndex = e.mUndoIndex) (h3 : IsReadOnly e' = IsReadOnly e)
    (h4 : e'.mState = e.mState) (h : Recorded e0 e) : Recorded e0 e' := by
  unfold Recorded lastRecord at h ⊢
  rw [h1, h2, h4]
  exact ⟨ValidLog_congr h1 h2 h3 h.1, h.2⟩

theorem Backspace_finish_recorded (e0 e : TextEditor) (u : UndoRecord) (hv : ValidLog e)
    (hb : u.mBefore = e0.mState) : Recorded e0 (Backspace.finish e u) := by
  unfold Backspace.finish
  simp only []
  split_ifs
  · exact Recorded_congr rfl rfl rfl rfl (AddUndo_recorded e0 e _ hv hb rfl)
  · exact AddUndo_recorded e0 e _ hv hb rfl

theorem Backspace_joinLine_spec (e : TextEditor) (pos : Coordinates) (s : EditorState)
    (hv : ValidLog e) :
    ValidLog (Backspace.joinLine e pos s).1 ∧ (Backspace.joinLine e pos s).2.mBefore = s := by
  refine ⟨?_, rfl⟩
  unfold Backspace.joinLine
  simp only []
  refine ValidLog_of_logFrame ?_ hv
  rw [Colorize_logFrame, EnsureCursorVisible_logFrame]
  show logFrame (RemoveLine _ _) = _
  rw [RemoveLine_logFrame]
  rfl

theorem Backspace_deletePair_validLog (e : TextEditor) (line : Line) (pos : Coordinates)
    (hv : ValidLog e) : ValidLog (Backspace.deletePair e line pos) := by
  unfold Backspace.deletePair
  simp only []
  split_ifs
  · exact Delete_validLog e hv
  · exact hv
  · exact hv

theorem Backspace_eraseBefore_spec (e : TextEditor) (pos : Coordinates) (s : EditorState)
    (hv : ValidLog e) :
    ValidLog (Backspace.eraseBefore e pos s).1 ∧ (Backspace.eraseBefore e pos s).2.mBefore = s := by
  refine ⟨?_, rfl⟩
  unfold Backspace.eraseBefore
  simp only []
  refine ValidLog_of_logFrame ?_
    (Backspace_deletePair_validLog e (lineAt e.mLines e.mState.mCursorPosition.mLine) pos hv)
  rw [Colorize_logFrame, EnsureCursorVisible_logFrame]
  rfl

/-- Whenever `Backspace` appends to the undo log, it records its edit. -/
theorem Backspace_recorded (e : TextEditor) (hv : ValidLog e)
    (hrec : (Backspace e).mUndoIndex ≠ e.mUndoIndex) : Recorded e (Backspace e) := by
  have hv1 : ValidLog (SetCursorPosition e (GetActualCursorCoordinates e)) :=
    ValidLog_of_logFrame (SetCursorPosition_logFrame e _) hv
  unfold Backspace at hrec ⊢
  simp only [] at hrec ⊢
  split_ifs at hrec ⊢
  · exact absurd rfl hrec
  · exact Backspace_finish_recorded e _ _ (ValidLog_of_logFrame (DeleteSelection_logFrame e) hv) rfl
  · exact absurd (logFrame_eq (SetCursorPosition_logFrame e _)).2.1 hrec
  · exact Backspace_finish_recorded e _ _ (Backspace_joinLine_spec _ _ _ hv1).1
      (Backspace_joinLine_spec _ _ _ hv1).2
  · exact Backspace_finish_recorded e _ _ (Backspace_eraseBefore_spec _ _ _ hv1).1
      (Backspace_eraseBefore_spec _ _ _ hv1).2

/-! ## Runs of faithfully logged edits: undo all, then redo all -/

theorem InsertTextAt_logFrame (e : TextEditor) (p : Coordinates) (t : List Nat) (indent : Bool) :
    logFrame (InsertTextAt e p t indent).1 = logFrame e :=
  logFrame_of_editFrame (InsertTextAt_editFrame e p t indent)

theorem UndoRecord_Undo_logFrame (u : UndoRecord) (x : TextEditor) :
    logFrame (u.Undo x) = logFrame x := by
  unfold UndoRecord.Undo
  simp only []
  rw [EnsureCursorVisible_logFrame]
  show logFrame (if (!u.mRemoved.isEmpty) = true then _ else _) = _
  split_ifs
  · rw [Colorize_logFrame, InsertTextAt_logFrame, Colorize_logFrame, DeleteRange_logFrame]
  · rw [Colorize_logFrame, InsertTextAt_logFrame]
  · rw [Colorize_logFrame, DeleteRange_logFrame]
  · rfl

theorem UndoRecord_Redo_logFrame (u : UndoRecord) (x : TextEditor) :
    logFrame (u.Redo x) = logFrame x := by
  unfold UndoRecord.Redo
  simp only []
  rw [EnsureCursorVisible_logFrame]
  show logFrame (if (!u.mAdded.isEmpty) = true then _ else _) = _
  split_ifs
  · rw [Colorize_logFrame, InsertTextAt_logFrame, Colorize_logFrame, DeleteRange_logFrame]
  · rw [Colorize_logFrame, InsertTextAt_logFrame]
  · rw [Colorize_logFrame, DeleteRange_logFrame]
  · rfl

theorem Redo_loop_succ (n : Nat) : ∀ e : TextEditor,
    Redo.loop (n + 1) e = Redo.loop 1 (Redo.loop n e) := by
  induction n with
  | zero => intro e; rfl
  | succ n ih =>
    intro e
    by_cases h : CanRedo e = true
    · have h1 : Redo.loop (n + 1 + 1) e
          = Redo.loop (n + 1)
              ((e.mUndoBuffer.getD e.mUndoIndex.toNat default).Redo
                { e with mUndoIndex := e.mUndoIndex + 1 }) := by
        rw [Redo.loop, if_pos h]
      have h2 : Redo.loop (n + 1) e
          = Redo.loop n
              ((e.mUndoBuffer.getD e.mUndoIndex.toNat default).Redo
                { e with mUndoIndex := e.mUndoIndex + 1 }) := by
        rw [Redo.loop, if_pos h]
      rw [h1, h2, ih]
    · have h1 : ∀ k, Redo.loop (k + 1) e = e := by
        intro k; rw [Redo.loop, if_neg h]
      rw [h1, h1, h1]

theorem take_take_of_le {α : Type} (l : List α) (a b : Nat) (h : a ≤ b) :
    (l.take b).take a = l.take a := by
  rw [List.take_take, Nat.min_eq_left h]

theorem settings_of_logFrame {e e' : TextEditor} (h : logFrame e' = logFrame e) :
    settings e' = settings e := by
  simp only [logFrame, Prod.mk.injEq] at h
  unfold settings
  rw [h.2.2.1.1, h.2.2.1.2, h.2.2.2.1, h.2.2.2.2.1, h.2.2.2.2.2.1, h.2.2.2.2.2.2.1]

theorem settings_eq {e e' : TextEditor} (h : settings e' = settings e) :
    IsReadOnly e' = IsReadOnly e ∧ e'.mTabSize = e.mTabSize ∧ e'.mInsertSpaces = e.mInsertSpaces
      ∧ e'.mOverwrite = e.mOverwrite ∧ e'.mCompleteBraces = e.mCompleteBraces := by
  simp only [settings, Prod.mk.injEq] at h
  refine ⟨?_, h.2⟩
  unfold IsReadOnly IsDebugging
  rw [h.1.1, h.1.2]

theorem getD_of_take_eq {α : Type} (B C : List α) (k : Nat) (d u : α) (pre : List α)
    (hpre : pre.length = k) (hC : C = pre ++ [u]) (h : B.take (k + 1) = C.take (k + 1)) :
    B.getD k d = u := by
  have h1 : (B.take (k + 1))[k]? = B[k]? := List.getElem?_take_of_lt (Nat.lt_succ_self k)
  rw [List.getD_eq_getElem?_getD, ← h1, h, hC, List.getElem?_take_of_lt (Nat.lt_succ_self k),
    ← hpre, List.getElem?_append_right (Nat.le_refl _)]
  simp

/-- What the faithful record at the top of the log gives: the facts used at each step. -/
theorem Faithful_log {e1 E : TextEditor} {u : UndoRecord} (hf : Faithful e1 E u) :
    0 ≤ e1.mUndoIndex ∧ E.mUndoIndex.toNat = e1.mUndoIndex.toNat + 1
      ∧ (e1.mUndoBuffer.take e1.mUndoIndex.toNat).length = e1.mUndoIndex.toNat
      ∧ E.mUndoBuffer.take e1.mUndoIndex.toNat = e1.mUndoBuffer.take e1.mUndoIndex.toNat := by
  obtain ⟨hv, hbuf, hidx, _⟩ := hf
  obtain ⟨_, h0, h1⟩ := hv
  have hlen : (e1.mUndoBuffer.take e1.mUndoIndex.toNat).length = e1.mUndoIndex.toNat := by
    rw [List.length_take]; omega
  refine ⟨h0, by rw [hidx]; omega, hlen, ?_⟩
  rw [hbuf]
  exact List.take_left' hlen

theorem Run_undo {e E : TextEditor} {n : Nat} (h : Run e n E) :
    ∀ x : TextEditor, x.mLines = E.mLines → x.mState = E.mState → settings x = settings E →
      IsReadOnly x = false → x.mUndoIndex = E.mUndoIndex →
      x.mUndoBuffer.take E.mUndoIndex.toNat = E.mUndoBuffer.take E.mUndoIndex.toNat →
      (Undo.loop n x).mLines = e.mLines ∧ (Undo.loop n x).mState = e.mState
        ∧ settings (Undo.loop n x) = settings e ∧ (Undo.loop n x).mUndoIndex = e.mUndoIndex
        ∧ (Undo.loop n x).mUndoBuffer = x.mUndoBuffer := by
  induction h with
  | nil =>
    intro x h1 h2 h3 _ h5 _
    exact ⟨h1, h2, h3, h5, rfl⟩
  | @snoc e1 E n u hrun hf ih =>
    intro x h1 h2 h3 h4 h5 h6
    obtain ⟨g0, g1, g2, g3⟩ := Faithful_log hf
    obtain ⟨hv, hbuf, hidx, hset, hb, ha, hundo, _⟩ := hf
    have hcan : CanUndo x = true := by
      unfold CanUndo
      rw [h4, h5, hidx]
      simp
      omega
    have hrecord : x.mUndoBuffer.getD (x.mUndoIndex - 1).toNat default = u := by
      have hk : (x.mUndoIndex - 1).toNat = e1.mUndoIndex.toNat := by rw [h5, hidx]; omega
      rw [hk]
      rw [g1] at h6
      exact getD_of_take_eq _ _ _ _ u _ g2 hbuf h6
    have hstep : Undo.loop (n + 1) x
        = Undo.loop n (u.Undo { x with mUndoIndex := x.mUndoIndex - 1 }) := by
      rw [Undo.loop, if_pos hcan]
      simp only []
      rw [hrecord]
    rw [hstep]
    have hlog := logFrame_eq (UndoRecord_Undo_logFrame u { x with mUndoIndex := x.mUndoIndex - 1 })
    have hs := settings_of_logFrame (UndoRecord_Undo_logFrame u { x with mUndoIndex := x.mUndoIndex - 1 })
    have key := ih (u.Undo { x with mUndoIndex := x.mUndoIndex - 1 })
      (hundo _ h1 ((settings_eq h3).2.1))
      (by rw [UndoRecord_Undo_mState, hb])
      (by rw [hs]; exact (h3.trans hset))
      (by rw [hlog.2.2.1]; exact h4)
      (by rw [hlog.2.1]; show x.mUndoIndex - 1 = _; rw [h5, hidx]; omega)
      (by
        rw [hlog.1]
        show x.mUndoBuffer.take e1.mUndoIndex.toNat = _
        rw [← take_take_of_le x.mUndoBuffer _ _ (by omega : e1.mUndoIndex.toNat ≤ E.mUndoIndex.toNat),
          h6, take_take_of_le _ _ _ (by omega), g3])
    rw [hlog.1] at key
    exact key

theorem Run_redo {e E : TextEditor} {n : Nat} (h : Run e n E) :
    ∀ y : TextEditor, y.mLines = e.mLines → y.mState = e.mState → settings y = settings e →
      IsReadOnly y = false → y.mUndoIndex = e.mUndoIndex →
      y.mUndoBuffer.take E.mUndoIndex.toNat = E.mUndoBuffer.take E.mUndoIndex.toNat →
      (Redo.loop n y).mLines = E.mLines ∧ (Redo.loop n y).mState = E.mState
        ∧ settings (Redo.loop n y) = settings E ∧ (Redo.loop n y).mUndoIndex = E.mUndoIndex
        ∧ (Redo.loop n y).mUndoBuffer = y.mUndoBuffer := by
  induction h with
  | nil =>
    intro y h1 h2 h3 _ h5 _
    exact ⟨h1, h2, h3, h5, rfl⟩
  | @snoc e1 E n u hrun hf ih =>
    intro y h1 h2 h3 h4 h5 h6
    obtain ⟨g0, g1, g2, g3⟩ := Faithful_log hf
    obtain ⟨hv, hbuf, hidx, hset, hb, ha, _, hredo⟩ := hf
    have hle : e1.mUndoIndex.toNat ≤ E.mUndoIndex.toNat := by omega
    obtain ⟨k1, k2, k3, k4, k5⟩ := ih y h1 h2 h3 h4 h5
      (by rw [← take_take_of_le y.mUndoBuffer _ _ hle, h6, take_take_of_le _ _ _ hle, g3])
    rw [Redo_loop_succ]
    generalize Redo.loop n y = r at k1 k2 k3 k4 k5
    have hElen : E.mUndoBuffer.length = e1.mUndoIndex.toNat + 1 := by
      rw [hbuf, List.length_append, g2]; rfl
    have hlen : e1.mUndoIndex.toNat + 1 ≤ y.mUndoBuffer.length := by
      have h7 := congrArg List.length h6
      rw [List.length_take, List.length_take, g1, hElen] at h7
      omega
    have hro : IsReadOnly r = false := by
      rw [(settings_eq k3).1]; exact hv.1
    have hcan : CanRedo r = true := by
      unfold CanRedo
      rw [hro, k4, k5]
      simp
      omega
    have hrecord : r.mUndoBuffer.getD r.mUndoIndex.toNat default = u := by
      rw [k4, k5]
      rw [g1] at h6
      exact getD_of_take_eq _ _ _ _ u _ g2 hbuf h6
    have hstep : Redo.loop 1 r = u.Redo { r with mUndoIndex := r.mUndoIndex + 1 } := by
      rw [Redo.loop, if_pos hcan]
      simp only []
      rw [hrecord]
      rfl
    rw [hstep]
    have hlog := logFrame_eq (UndoRecord_Redo_logFrame u { r with mUndoIndex := r.mUndoIndex + 1 })
    have hs := settings_of_logFrame (UndoRecord_Redo_logFrame u { r with mUndoIndex := r.mUndoIndex + 1 })
    refine ⟨hredo _ k1 (settings_eq k3).2.1, by rw [UndoRecord_Redo_mState, ha], ?_, ?_, ?_⟩
    · rw [hs]; exact k3.trans hset.symm
    · rw [hlog.2.1]; show r.mUndoIndex + 1 = _; rw [k4, hidx]
    · rw [hlog.1]; exact k5

theorem Run_settings {e E : TextEditor} {n : Nat} (h : Run e n E) : settings E = settings e := by
  induction h with
  | nil => rfl
  | @snoc e1 E n u hrun hf ih => exact hf.2.2.2.1.trans ih

/-- Undoing a run of `n` faithfully logged edits and redoing `n` steps gives back the
lines, the selection and the cursor that the run ended with. -/
theorem Run_undo_redo {e E : TextEditor} {n : Nat} (h : Run e n E) (hro : IsReadOnly E = false) :
    (Redo (Undo E n) n).mLines = E.mLines ∧ (Redo (Undo E n) n).mState = E.mState := by
  unfold Redo Undo
  rw [Int.toNat_ofNat]
  obtain ⟨u1, u2, u3, u4, u5⟩ := Run_undo h E rfl rfl rfl hro rfl rfl
  have hro2 : IsReadOnly (Undo.loop n E) = false := by
    rw [(settings_eq u3).1, ← (settings_eq (Run_settings h)).1]; exact hro
  obtain ⟨r1, r2, _, _, _⟩ := Run_redo h (Undo.loop n E) u1 u2 u3 hro2 u4 (by rw [u5])
  exact ⟨r1, r2⟩

/-! ## Typing a plain character: the edit and its undo record -/

theorem SanitizeCoordinates_sanitized (e : TextEditor) (c : Coordinates)
    (hne : e.mLines ≠ []) (h0 : 0 ≤ c.mLine) (h1 : 0 ≤ c.mColumn) :
    Sanitized e (SanitizeCoordinates e c) := by
  have hlen : 0 < e.mLines.length := List.length_pos.mpr hne
  have hemp : e.mLines.isEmpty = false := by
    cases h : e.mLines with
    | nil => exact absurd h hne
    | cons a b => rfl
  have hmax := GetLineMaxColumn_nonneg e
  unfold Sanitized SanitizeCoordinates
  by_cases hl : c.mLine ≥ e.mLines.length
  · simp only [hl, hemp, if_true, Bool.false_eq_true, if_false]
    exact ⟨by omega, by omega, hmax _, le_refl _⟩
  · simp only [hl, hemp, if_false, Bool.false_eq_true]
    exact ⟨h0, by omega, le_min h1 (hmax _), min_le_right _ _⟩

theorem typeChar_plain (e : TextEditor) (coord : Coordinates) (u : UndoRecord) (c : Nat)
    (hov : e.mOverwrite = false) (hc0 : c ≠ 0) (ls : Lines)
    (hls : ls = e.mLines.set coord.mLine.toNat
      ((lineAt e.mLines coord.mLine).take (GetCharacterIndex e coord).toNat
        ++ { mChar := c } :: (lineAt e.mLines coord.mLine).drop (GetCharacterIndex e coord).toNat)) :
    EnterCharacter.typeChar e coord u [c]
      = (SetCursorPosition { e with mLines := ls }
          ⟨coord.mLine, GetCharacterColumn { e with mLines := ls } coord.mLine
            (((GetCharacterIndex e coord).toNat + 1 : Nat) : Int)⟩,
         { u with mAdded := [c] }) := by
  subst hls
  unfold EnterCharacter.typeChar
  simp only [hov, Bool.false_eq_true, false_and, if_false, EnterCharacter.insertBuf, hc0, cstr,
    List.takeWhile, ne_eq, not_false_eq_true, decide_True]

theorem AddUndo_settings (e : TextEditor) (u : UndoRecord) : settings (AddUndo e u) = settings e :=
  rfl

theorem record_settings (e : TextEditor) (coord : Coordinates) (u : UndoRecord) (c : Nat) :
    settings (EnterCharacter.record e coord u c) = settings e := by
  unfold EnterCharacter.record
  simp only []
  rw [settings_of_logFrame (EnsureCursorVisible_logFrame _),
    settings_of_logFrame (Colorize_logFrame _ _ _), AddUndo_settings]
  split_ifs <;> rfl

theorem record_doc (e : TextEditor) (coord : Coordinates) (u : UndoRecord) (c : Nat) :
    (EnterCharacter.record e coord u c).mLines = e.mLines
      ∧ (EnterCharacter.record e coord u c).mState = e.mState := by
  unfold EnterCharacter.record
  simp only []
  rw [EnsureCursorVisible_mLines, EnsureCursorVisible_mState, Colorize_mLines, Colorize_mState,
    AddUndo_mLines, AddUndo_mState]
  split_ifs <;> exact ⟨rfl, rfl⟩

theorem record_log (e : TextEditor) (coord : Coordinates) (u : UndoRecord) (c : Nat)
    (hv : ValidLog e) :
    (EnterCharacter.record e coord u c).mUndoBuffer
        = e.mUndoBuffer.take e.mUndoIndex.toNat
          ++ [{ u with mAddedEnd := GetActualCursorCoordinates e, mAfter := e.mState }]
      ∧ (EnterCharacter.record e coord u c).mUndoIndex = e.mUndoIndex + 1 := by
  unfold EnterCharacter.record
  simp only []
  rw [(logFrame_eq (EnsureCursorVisible_logFrame _)).1, (logFrame_eq (EnsureCursorVisible_logFrame _)).2.1,
    (logFrame_eq (Colorize_logFrame _ _ _)).1, (logFrame_eq (Colorize_logFrame _ _ _)).2.1]
  split_ifs
  · obtain ⟨_, s2, _, s4⟩ := AddUndo_spec
      { e with m_requestAutocomplete := true, m_readyForAutocomplete := false,
               mTextChanged := true, mEvents := e.mEvents ++ [Event.ContentUpdate] }
      { u with mAddedEnd := GetActualCursorCoordinates e, mAfter := e.mState } hv
    exact ⟨s4, s2⟩
  · obtain ⟨_, s2, _, s4⟩ := AddUndo_spec
      { e with mTextChanged := true, mEvents := e.mEvents ++ [Event.ContentUpdate] }
      { u with mAddedEnd := GetActualCursorCoordinates e, mAfter := e.mState } hv
    exact ⟨s4, s2⟩

theorem typeChar_settings (e : TextEditor) (coord : Coordinates) (u : UndoRecord)
    (buf : List Nat) : settings (EnterCharacter.typeChar e coord u buf).1 = settings e := by
  unfold EnterCharacter.typeChar
  simp only []
  rw [settings_of_logFrame (SetCursorPosition_logFrame _ _)]
  rfl

theorem ImTextCharToUtf8_ascii (c : Nat) (h : c < 127) : ImTextCharToUtf8 c = [c] := by
  unfold ImTextCharToUtf8
  rw [if_pos (by omega), Nat.mod_eq_of_lt (by omega)]

theorem EnterCharacter_plain (e : TextEditor) (c : Nat) (aShift : Bool)
    (hsel : HasSelection e = false) (hne : e.mLines ≠ []) (hc : PlainChar e c) :
    EnterCharacter e c aShift
      = EnterCharacter.record
          (EnterCharacter.typeChar e (GetActualCursorCoordinates e)
            { mBefore := e.mState, mAddedStart := GetActualCursorCoordinates e } [c]).1
          (GetActualCursorCoordinates e)
          (EnterCharacter.typeChar e (GetActualCursorCoordinates e)
            { mBefore := e.mState, mAddedStart := GetActualCursorCoordinates e } [c]).2 c := by
  obtain ⟨h32, h127, hbr⟩ := hc
  have hemp : e.mLines.isEmpty = false := by
    cases h : e.mLines with
    | nil => exact absurd h hne
    | cons a b => rfl
  have hdel : EnterCharacter.deleteSelected e = (e, { mBefore := e.mState }) := by
    unfold EnterCharacter.deleteSelected
    rw [if_neg (by rw [hsel]; simp)]
  unfold EnterCharacter
  rw [EnterCharacter.go]
  rw [if_neg (by rw [hsel]; simp)]
  simp only [hdel, hemp, Bool.false_eq_true, if_false]
  rw [if_neg (by omega), ImTextCharToUtf8_ascii c h127]
  rw [if_pos (by simp)]
  have hbuf : (if e.mInsertSpaces = true ∧ [c] = [9] then List.replicate e.mTabSize 32 else [c]) = [c] := by
    rw [if_neg]
    rintro ⟨_, h⟩
    simp at h
    omega
  rw [hbuf]
  have hcb : (EnterCharacter.record
      (EnterCharacter.typeChar e (GetActualCursorCoordinates e)
        { mBefore := e.mState, mAddedStart := GetActualCursorCoordinates e } [c]).1
      (GetActualCursorCoordinates e)
      (EnterCharacter.typeChar e (GetActualCursorCoordinates e)
        { mBefore := e.mState, mAddedStart := GetActualCursorCoordinates e } [c]).2 c).mCompleteBraces
        = e.mCompleteBraces := by
    rw [(settings_eq (record_settings _ _ _ _)).2.2.2.2, (settings_eq (typeChar_settings _ _ _ _)).2.2.2.2]
  rw [hcb]
  by_cases hb : e.mCompleteBraces = true
  · obtain ⟨b1, b2, b3⟩ := hbr hb
    rw [if_pos hb, if_neg (by simp [b1, b2, b3]), if_neg b1, if_neg b2, if_neg b3]
  · rw [if_neg hb]

/-! ## `InsertTextAt` of a text without line breaks, at the level of lines -/

theorem toLine_append (s t : List Nat) : toLine (s ++ t) = toLine s ++ toLine t := by
  unfold toLine; rw [List.map_append]

theorem InsertTextAt_loop_line (s : Int) (fuel : Nat) :
    ∀ (t : List Nat) (e : TextEditor) (aWhere : Coordinates) (k : Nat) (total ai : Int)
      (pre : Lines) (x : Line) (post : Lines),
      t.length ≤ fuel → 0 ∉ t → 10 ∉ t → 13 ∉ t → validFrom 0 t = true →
      e.mLines = pre ++ x :: post → aWhere.mLine = pre.length → k ≤ x.length →
      (InsertTextAt.loop false s fuel t e aWhere k total ai).1.mLines
        = pre ++ (x.take k ++ toLine t ++ x.drop k) :: post := by
  induction fuel with
  | zero =>
    intro t e aWhere k total ai pre x post hf _ _ _ _ hl _ _
    have : t = [] := List.length_eq_zero.mp (Nat.le_zero.mp hf)
    subst this
    simp [InsertTextAt.loop, toLine, hl]
  | succ n ih =>
    intro t e aWhere k total ai pre x post hf hnul hnl hcr hvalid hl hline hk
    cases t with
    | nil => simp [InsertTextAt.loop, toLine, hl]
    | cons c rest =>
      have hc0 : c ≠ 0 := fun h => hnul (by simp [h])
      have hc10 : c ≠ 10 := fun h => hnl (by simp [h])
      have hc13 : c ≠ 13 := fun h => hcr (by simp [h])
      have hfr : rest.length ≤ n := by simp at hf; omega
      simp only [InsertTextAt.loop]
      rw [if_neg hc0, if_neg hc13, if_neg hc10]
      simp only [validFrom] at hvalid
      obtain ⟨tl, rest', hsplit, htl, hcont, hv⟩ := validFrom_split _ _ hvalid
      subst hsplit
      have hx : lineAt e.mLines aWhere.mLine = x := by
        rw [hl, hline, lineAt_append_length]
      have hnat : aWhere.mLine.toNat = pre.length := by omega
      have hpos := UTF8CharLength_pos c
      have hlen : UTF8CharLength c = (c :: tl).length := by simp; omega
      have hins := insertChars_spec (c :: tl) rest' x k
        (by
          intro d hd
          rcases List.mem_cons.mp hd with rfl | hd
          · exact hc0
          · exact (IsUTFSequence_ne d (hcont d hd)).1) hk
      rw [← hlen] at hins
      have hcons : c :: (tl ++ rest') = (c :: tl) ++ rest' := rfl
      rw [hx, hcons, hins]
      simp only []
      have hl2 : (x.take k ++ toLine (c :: tl)).length = k + (c :: tl).length := by
        simp [toLine, List.length_take]; omega
      have htake : (x.take k ++ toLine (c :: tl) ++ x.drop k).take (k + (c :: tl).length)
          = x.take k ++ toLine (c :: tl) := by
        rw [← hl2, take_decomp]
      have hdrop : (x.take k ++ toLine (c :: tl) ++ x.drop k).drop (k + (c :: tl).length)
          = x.drop k := by
        rw [← hl2, drop_decomp]
      have step : ∀ r : Lines,
          r = pre ++ ((x.take k ++ toLine (c :: tl) ++ x.drop k).take (k + (c :: tl).length)
                ++ toLine rest'
                ++ (x.take k ++ toLine (c :: tl) ++ x.drop k).drop (k + (c :: tl).length)) :: post →
          r = pre ++ (x.take k ++ toLine ((c :: tl) ++ rest') ++ x.drop k) :: post := by
        intro r hr
        rw [hr, htake, hdrop, toLine_append, ← List.append_assoc (x.take k)]
      apply step
      rw [hlen]
      exact ih rest' _ ⟨aWhere.mLine, _⟩ (k + (c :: tl).length) total _ pre
        (x.take k ++ toLine (c :: tl) ++ x.drop k) post
        (by simp at hfr; omega) (fun h => hnul (by simp [h])) (fun h => hnl (by simp [h]))
        (fun h => hcr (by simp [h])) hv
        (by simp only []; rw [hnat, hl, set_decomp])
        hline (by simp [toLine, List.length_take]; omega)

theorem InsertTextAt_line (e : TextEditor) (p : Coordinates) (t : List Nat)
    (pre : Lines) (x : Line) (post : Lines) (k : Nat)
    (hnul : 0 ∉ t) (hnl : 10 ∉ t) (hcr : 13 ∉ t) (hvalid : validFrom 0 t = true)
    (hl : e.mLines = pre ++ x :: post) (hline : p.mLine = pre.length)
    (hi : GetCharacterIndex e p = (k : Nat)) (hk : k ≤ x.length) :
    (InsertTextAt e p t false).1.mLines = pre ++ (x.take k ++ toLine t ++ x.drop k) :: post := by
  unfold InsertTextAt
  simp only [Bool.false_eq_true, if_false]
  rw [hi]
  exact InsertTextAt_loop_line 0 t.length t e p k 0 0 pre x post (Nat.le_refl _) hnul hnl hcr
    hvalid hl hline hk

/-! ## Undo and redo of one typed character, at the level of lines -/

theorem colWalk_lt (T : Nat) (l : Line) (hl : completeFrom 0 l = true)
    (htab : TabStopsDefined T l) (hne : l ≠ []) (c : Nat) : c < colWalk T 0 l c := by
  revert htab hne c
  refine complete_induction
    (fun l => TabStopsDefined T l → l ≠ [] → ∀ c, c < colWalk T 0 l c) ?_ ?_ l hl
  · intro _ h; exact absurd rfl h
  · intro g tl suf htl hsuf _ htab _ c
    obtain ⟨hg, hs⟩ := TabStopsDefined_cons htab
    rw [colWalk_cons T g tl suf c htl]
    exact lt_of_lt_of_le (advanceColumn_gt T g.mChar c hg) (le_colWalk T suf hsuf hs _)

theorem complete_single (g : Glyph) (rest : Line) (h : UTF8CharLength g.mChar = 1) :
    completeFrom 0 (g :: rest) = completeFrom 0 rest := by
  have := complete_cons g [] rest (by rw [h]; rfl)
  simpa using this

theorem UTF8CharLength_ascii (c : Nat) (h : c < 128) : UTF8CharLength c = 1 := by
  unfold UTF8CharLength
  have h1 := Nat.and_le_left (n := c) (m := 0xFE)
  have h2 := Nat.and_le_left (n := c) (m := 0xFC)
  have h3 := Nat.and_le_left (n := c) (m := 0xF8)
  have h4 := Nat.and_le_left (n := c) (m := 0xF0)
  have h5 := Nat.and_le_left (n := c) (m := 0xE0)
  rw [if_neg (by omega), if_neg (by omega), if_neg (by omega), if_neg (by omega), if_neg (by omega)]

theorem DeleteRange_line (e : TextEditor) (a b : Coordinates) (pre : Lines) (L : Line)
    (post : Lines) (ia ib : Nat) (hl : e.mLines = pre ++ L :: post)
    (hline : a.mLine = pre.length) (hb : a.mLine = b.mLine) (hne : b ≠ a)
    (hia : GetCharacterIndex e a = (ia : Nat)) (hib : GetCharacterIndex e b = (ib : Nat))
    (hend : b.mColumn ≥ GetLineMaxColumn e a.mLine → L.drop ib = []) :
    (DeleteRange e a b).mLines = pre ++ (L.take ia ++ L.drop ib) :: post := by
  have hnat : a.mLine.toNat = pre.length := by omega
  have hL : lineAt e.mLines a.mLine = L := by rw [hl, hline, lineAt_append_length]
  rw [DeleteRange_mLines_same e a b hne hb, hL, hia, hib, hnat, hl, set_decomp]
  simp only [Int.toNat_ofNat]
  split_ifs with h
  · rw [hend h, List.append_nil]
  · rfl

/-- The geometry of a line after one single-byte character went in at the byte index `k`
that the column `col` selects. -/
theorem typed_line (T : Nat) (col : Int) (x : Line) (g : Glyph) (k : Nat)
    (hx : completeFrom 0 x = true) (htab : TabStopsDefined T x)
    (hg1 : UTF8CharLength g.mChar = 1) (hg9 : g.mChar = 9 → 0 < T)
    (hcol : col ≤ (colWalk T 0 x 0 : Nat)) (hk : k = idxWalk T col 0 x 0) :
    k ≤ x.length
      ∧ completeFrom 0 (x.take k ++ g :: x.drop k) = true
      ∧ TabStopsDefined T (x.take k ++ g :: x.drop k)
      ∧ idxWalk T col 0 (x.take k ++ g :: x.drop k) 0 = k
      ∧ idxWalk T (colWalk T 0 (x.take k ++ [g]) 0 : Nat) 0 (x.take k ++ g :: x.drop k) 0 = k + 1
      ∧ col < (colWalk T 0 (x.take k ++ [g]) 0 : Nat)
      ∧ colWalk T 0 (x.take k ++ [g]) 0 ≤ colWalk T 0 (x.take k ++ g :: x.drop k) 0
      ∧ (colWalk T 0 (x.take k ++ g :: x.drop k) 0 ≤ colWalk T 0 (x.take k ++ [g]) 0 →
          x.drop k = []) := by
  have hb := idxWalk_boundary T col x hx 0
  rw [← hk] at hb
  have hkle : k ≤ x.length := by rw [hk]; exact idxWalk_le_length _ _ _ _ _
  have hcolk : col ≤ (colWalk T 0 (x.take k) 0 : Nat) := by
    have := le_colWalk_take_idxWalk T col x hx 0 hcol
    rw [← hk] at this
    exact this
  have hsplit : x.take k ++ g :: x.drop k = (x.take k ++ [g]) ++ x.drop k := by simp
  have hcg : completeFrom 0 (x.take k ++ [g]) = true := by
    rw [complete_append _ _ hb.1, complete_single g [] hg1]; rfl
  have htake : TabStopsDefined T (x.take k) := fun g' hg' => htab g' (List.mem_of_mem_take hg')
  have hdrop : TabStopsDefined T (x.drop k) := fun g' hg' => htab g' (List.mem_of_mem_drop hg')
  have htg : TabStopsDefined T (x.take k ++ [g]) := by
    intro g' hg'
    rcases List.mem_append.mp hg' with h | h
    · exact htake g' h
    · rw [List.mem_singleton.mp h]; exact hg9
  have hlen : (x.take k ++ [g]).length = k + 1 := by
    rw [List.length_append, List.length_take]; simp; omega
  have hcol1 : colWalk T 0 (x.take k) 0 < colWalk T 0 (x.take k ++ [g]) 0 := by
    rw [colWalk_complete_append T _ hb.1]
    exact colWalk_lt T [g] (by rw [complete_single g [] hg1]; rfl)
      (fun g' hg' => by rw [List.mem_singleton.mp hg']; exact hg9) (by simp) _
  refine ⟨hkle, ?_, ?_, ?_, ?_, ?_, ?_, ?_⟩
  · rw [complete_append _ _ hb.1, complete_single g _ hg1]; exact hb.2
  · intro g' hg'
    rcases List.mem_append.mp hg' with h | h
    · exact htake g' h
    · rcases List.mem_cons.mp h with h | h
      · rw [h]; exact hg9
      · exact hdrop g' h
  · rw [idxWalk_append_of_le T col _ hb.1 0 _ hcolk]
    have h2 := idxWalk_append_of_le T col _ hb.1 0 (x.drop k) hcolk
    rw [List.take_append_drop] at h2
    rw [← h2, ← hk]
  · rw [hsplit, idxWalk_colWalk T _ hcg htg 0, hlen]
  · have : (colWalk T 0 (x.take k) 0 : Int) < (colWalk T 0 (x.take k ++ [g]) 0 : Nat) := by
      exact_mod_cast hcol1
    omega
  · rw [hsplit, colWalk_complete_append T _ hcg]
    exact le_colWalk T _ hb.2 hdrop _
  · intro hle
    by_contra hne
    have := colWalk_lt T (x.drop k) hb.2 hdrop hne (colWalk T 0 (x.take k ++ [g]) 0)
    rw [hsplit, colWalk_complete_append T _ hcg] at hle
    omega

theorem take_drop_typed (x : Line) (g : Glyph) (k : Nat) (hk : k ≤ x.length) :
    (x.take k ++ g :: x.drop k).take k ++ (x.take k ++ g :: x.drop k).drop (k + 1) = x
      ∧ (x.take k ++ g :: x.drop k).drop (k + 1) = x.drop k
      ∧ (x.take k ++ g :: x.drop k).take (k + 1) = x.take k ++ [g] := by
  have hlen : (x.take k).length = k := by rw [List.length_take]; omega
  have h1 : (x.take k ++ g :: x.drop k).take k = x.take k := List.take_left' hlen
  have hsplit : x.take k ++ g :: x.drop k = (x.take k ++ [g]) ++ x.drop k := by simp
  have hlen2 : (x.take k ++ [g]).length = k + 1 := by rw [List.length_append, hlen]; rfl
  have h2 : (x.take k ++ g :: x.drop k).drop (k + 1) = x.drop k := by
    rw [hsplit]; exact List.drop_left' hlen2
  have h3 : (x.take k ++ g :: x.drop k).take (k + 1) = x.take k ++ [g] := by
    rw [hsplit]; exact List.take_left' hlen2
  exact ⟨by rw [h1, h2, List.take_append_drop], h2, h3⟩

/-- Undoing the record of one typed single-byte character takes that byte out again. -/
theorem undo_typed (u : UndoRecord) (xe : TextEditor) (pre : Lines) (x : Line) (post : Lines)
    (g : Glyph) (k : Nat) (coord : Coordinates)
    (hadd : u.mAdded.isEmpty = false) (hrem : u.mRemoved = []) (hs : u.mAddedStart = coord)
    (he : u.mAddedEnd = ⟨coord.mLine, (colWalk xe.mTabSize 0 (x.take k ++ [g]) 0 : Nat)⟩)
    (hl : xe.mLines = pre ++ (x.take k ++ g :: x.drop k) :: post)
    (hline : coord.mLine = pre.length)
    (hx : completeFrom 0 x = true) (htab : TabStopsDefined xe.mTabSize x)
    (hg1 : UTF8CharLength g.mChar = 1) (hg9 : g.mChar = 9 → 0 < xe.mTabSize)
    (hcol : coord.mColumn ≤ (colWalk xe.mTabSize 0 x 0 : Nat))
    (hk : k = idxWalk xe.mTabSize coord.mColumn 0 x 0) :
    (u.Undo xe).mLines = pre ++ x :: post := by
  obtain ⟨hkle, t1, t2, t3, t4, t5, t6, t7⟩ :=
    typed_line xe.mTabSize coord.mColumn x g k hx htab hg1 hg9 hcol hk
  obtain ⟨d1, d2, d3⟩ := take_drop_typed x g k hkle
  have h0 : 0 ≤ coord.mLine := by omega
  have h1 : coord.mLine < xe.mLines.length := by rw [hl, hline]; simp
  have hL : lineAt xe.mLines coord.mLine = x.take k ++ g :: x.drop k := by
    rw [hl, hline, lineAt_append_length]
  have hia : GetCharacterIndex xe coord = (k : Nat) := by
    rw [GetCharacterIndex_eq xe coord h0 h1 (by rw [hL]; exact t1), hL, t3]
  have hib : GetCharacterIndex xe ⟨coord.mLine, (colWalk xe.mTabSize 0 (x.take k ++ [g]) 0 : Nat)⟩
      = ((k + 1 : Nat) : Int) := by
    rw [GetCharacterIndex_eq xe ⟨coord.mLine, (colWalk xe.mTabSize 0 (x.take k ++ [g]) 0 : Nat)⟩
      h0 h1 (by rw [hL]; exact t1)]
    simp only []
    rw [hL, t4]
  have hne : (⟨coord.mLine, (colWalk xe.mTabSize 0 (x.take k ++ [g]) 0 : Nat)⟩ : Coordinates)
      ≠ coord := by
    intro h
    have := congrArg Coordinates.mColumn h
    simp only [] at this
    omega
  unfold UndoRecord.Undo
  simp only [hadd, hrem, List.isEmpty_nil, Bool.not_false, Bool.not_true, if_true,
    Bool.false_eq_true, if_false]
  rw [EnsureCursorVisible_mLines]
  show (Colorize (DeleteRange xe u.mAddedStart u.mAddedEnd) (u.mAddedStart.mLine - 1)
    (u.mAddedEnd.mLine - u.mAddedStart.mLine + 2)).mLines = _
  rw [Colorize_mLines, hs, he,
    DeleteRange_line xe coord ⟨coord.mLine, (colWalk xe.mTabSize 0 (x.take k ++ [g]) 0 : Nat)⟩
      pre _ post k (k + 1) hl hline rfl hne hia hib, d1]
  intro hge
  rw [d2]
  apply t7
  rw [GetLineMaxColumn_eq xe coord.mLine h0 h1, hL] at hge
  simp only [] at hge
  exact_mod_cast hge

/-- Redoing the record of one typed single-byte character puts that byte in again. -/
theorem redo_typed (u : UndoRecord) (y : TextEditor) (pre : Lines) (x : Line) (post : Lines)
    (c : Nat) (k : Nat) (coord : Coordinates)
    (hadd : u.mAdded = [c]) (hrem : u.mRemoved = []) (hs : u.mAddedStart = coord)
    (hl : y.mLines = pre ++ x :: post) (hline : coord.mLine = pre.length)
    (hx : completeFrom 0 x = true)
    (hc0 : c ≠ 0) (hc10 : c ≠ 10) (hc13 : c ≠ 13) (hg1 : UTF8CharLength c = 1)
    (hk : k = idxWalk y.mTabSize coord.mColumn 0 x 0) :
    (u.Redo y).mLines = pre ++ (x.take k ++ { mChar := c } :: x.drop k) :: post := by
  have hkle : k ≤ x.length := by rw [hk]; exact idxWalk_le_length _ _ _ _ _
  have h0 : 0 ≤ coord.mLine := by omega
  have h1 : coord.mLine < y.mLines.length := by rw [hl, hline]; simp
  have hL : lineAt y.mLines coord.mLine = x := by rw [hl, hline, lineAt_append_length]
  have hi : GetCharacterIndex y coord = (k : Nat) := by
    rw [GetCharacterIndex_eq y coord h0 h1 (by rw [hL]; exact hx), hL, hk]
  have hcstr : cstr [c] = [c] := by simp [cstr, List.takeWhile, hc0]
  unfold UndoRecord.Redo
  simp only [hadd, hrem, List.isEmpty_nil, Bool.not_true, Bool.false_eq_true, if_false,
    List.isEmpty_cons, Bool.not_false, if_true]
  rw [EnsureCursorVisible_mLines]
  show (Colorize (InsertTextAt y u.mAddedStart (cstr [c]) false).1 (u.mAddedStart.mLine - 1)
    (u.mAddedEnd.mLine - u.mAddedStart.mLine + 1)).mLines = _
  rw [Colorize_mLines, hs, hcstr,
    InsertTextAt_line y coord [c] pre x post k (by simp; exact fun h => hc0 h.symm)
      (by simp; exact fun h => hc10 h.symm) (by simp; exact fun h => hc13 h.symm)
      (by simp [validFrom, hg1]) hl hline hi hkle]
  simp [toLine]

/-! ## Typing a plain character is a faithfully logged edit -/

theorem HasSelection_congr {e e' : TextEditor}
    (h1 : e'.mState.mSelectionStart = e.mState.mSelectionStart)
    (h2 : e'.mState.mSelectionEnd = e.mState.mSelectionEnd) :
    HasSelection e' = HasSelection e := by
  unfold HasSelection; rw [h1, h2]

theorem mem_decomp_typed {pre post : Lines} {x x' l : Line} (h : l ∈ pre ++ x' :: post) :
    l = x' ∨ l ∈ pre ++ x :: post := by
  rcases List.mem_append.mp h with h | h
  · exact Or.inr (List.mem_append_left _ h)
  · rcases List.mem_cons.mp h with h | h
    · exact Or.inl h
    · exact Or.inr (List.mem_append_right _ (List.mem_cons_of_mem _ h))

theorem EnterCharacter_faithful (e : TextEditor) (c : Nat) (aShift : Bool)
    (ht : Typable e) (hc : PlainChar e c) :
    (∃ u, Faithful e (EnterCharacter e c aShift) u) ∧ Typable (EnterCharacter e c aShift) := by
  obtain ⟨hv, hov, hsel, hne, hl0, hc0', hcomp, htab⟩ := ht
  have hpc := hc
  obtain ⟨h32, h127, _⟩ := hc
  obtain ⟨coord, hcoord⟩ : ∃ coord, coord = GetActualCursorCoordinates e := ⟨_, rfl⟩
  have hs : Sanitized e coord := by
    rw [hcoord]; exact SanitizeCoordinates_sanitized e _ hne hl0 hc0'
  obtain ⟨pre, x, post, hl, hlen, hnat, hx, hcx, hi, hile, hmax⟩ :=
    sanitized_decomp e coord hs (hcomp _ (lineAt_mem _ _ hs.1 hs.2.1))
  obtain ⟨k, hk⟩ : ∃ k, k = idxWalk e.mTabSize coord.mColumn 0 x 0 := ⟨_, rfl⟩
  rw [← hk] at hi
  have hxmem : x ∈ e.mLines := by rw [hl]; simp
  have htx := htab x hxmem
  have hcol : coord.mColumn ≤ (colWalk e.mTabSize 0 x 0 : Nat) := by
    rw [← hmax]; exact hs.2.2.2
  have hg1 : UTF8CharLength c = 1 := UTF8CharLength_ascii c (by omega)
  have hg9 : c = 9 → 0 < e.mTabSize := fun h => by omega
  obtain ⟨hkle, t1, t2, t3, t4, t5, t6, t7⟩ :=
    typed_line e.mTabSize coord.mColumn x { mChar := c } k hcx htx hg1 hg9 hcol hk
  obtain ⟨d1, d2, d3⟩ := take_drop_typed x { mChar := c } k hkle
  have hline : coord.mLine = pre.length := hlen.symm
  obtain ⟨ls, hlsdef⟩ : ∃ ls : Lines, ls = pre ++ (x.take k ++ { mChar := c } :: x.drop k) :: post :=
    ⟨_, rfl⟩
  have hls : ls = e.mLines.set coord.mLine.toNat
      ((lineAt e.mLines coord.mLine).take (GetCharacterIndex e coord).toNat
        ++ { mChar := c } :: (lineAt e.mLines coord.mLine).drop (GetCharacterIndex e coord).toNat) := by
    rw [hx, hi, hnat, hl, set_decomp, hlsdef]; rfl
  rw [EnterCharacter_plain e c aShift hsel hne hpc, ← hcoord,
    typeChar_plain e coord _ c hov (by omega) ls hls, hi]
  simp only [Int.toNat_ofNat]
  -- the cursor column after the typed byte
  have hlsline : lineAt ls coord.mLine = x.take k ++ { mChar := c } :: x.drop k := by
    rw [hlsdef, hline, lineAt_append_length]
  have hlslen : coord.mLine < (ls.length : Int) := by rw [hlsdef, hline]; simp
  have hcolumn : GetCharacterColumn { e with mLines := ls } coord.mLine ((k + 1 : Nat) : Int)
      = (colWalk e.mTabSize 0 (x.take k ++ [{ mChar := c }]) 0 : Nat) := by
    rw [GetCharacterColumn_eq { e with mLines := ls } coord.mLine _ hs.1 hlslen]
    simp only [Int.toNat_ofNat]
    rw [hlsline, d3]
  rw [hcolumn]
  obtain ⟨e3, he3⟩ : ∃ e3, e3 = SetCursorPosition { e with mLines := ls }
      ⟨coord.mLine, (colWalk e.mTabSize 0 (x.take k ++ [{ mChar := c }]) 0 : Nat)⟩ := ⟨_, rfl⟩
  rw [← he3]
  have e3lines : e3.mLines = ls := by rw [he3, SetCursorPosition_mLines]
  have e3state : e3.mState = { e.mState with
      mCursorPosition := ⟨coord.mLine, (colWalk e.mTabSize 0 (x.take k ++ [{ mChar := c }]) 0 : Nat)⟩ } := by
    rw [he3, SetCursorPosition_mState]
  have e3log : logFrame e3 = logFrame e := by
    rw [he3, SetCursorPosition_logFrame]; rfl
  have e3set : settings e3 = settings e := settings_of_logFrame e3log
  have e3valid : ValidLog e3 := ValidLog_of_logFrame e3log hv
  have hend : GetActualCursorCoordinates e3
      = ⟨coord.mLine, (colWalk e.mTabSize 0 (x.take k ++ [{ mChar := c }]) 0 : Nat)⟩ := by
    have hmax3 := GetLineMaxColumn_eq e3 coord.mLine hs.1 (by rw [e3lines]; exact hlslen)
    rw [e3lines, hlsline, (settings_eq e3set).2.1] at hmax3
    have hemp : e3.mLines.isEmpty = false := by rw [e3lines, hlsdef]; simp
    unfold GetActualCursorCoordinates SanitizeCoordinates
    rw [e3state]
    simp only []
    rw [if_neg (by rw [e3lines]; omega), hemp, hmax3]
    simp only [Bool.false_eq_true, if_false]
    rw [min_eq_left (by exact_mod_cast t6)]
  obtain ⟨r1, r2⟩ := record_doc e3 coord
    { mBefore := e.mState, mAddedStart := coord, mAdded := [c] } c
  obtain ⟨r3, r4⟩ := record_log e3 coord
    { mBefore := e.mState, mAddedStart := coord, mAdded := [c] } c e3valid
  have r5 := record_settings e3 coord
    { mBefore := e.mState, mAddedStart := coord, mAdded := [c] } c
  rw [hend, (logFrame_eq e3log).1, (logFrame_eq e3log).2.1] at r3
  rw [(logFrame_eq e3log).2.1] at r4
  generalize EnterCharacter.record e3 coord
    { mBefore := e.mState, mAddedStart := coord, mAdded := [c] } c = E at r1 r2 r3 r4 r5
  have hEset : settings E = settings e := r5.trans e3set
  have hElines : E.mLines = pre ++ (x.take k ++ { mChar := c } :: x.drop k) :: post := by
    rw [r1, e3lines, hlsdef]
  refine ⟨⟨_, hv, r3, r4, hEset, rfl, r2.symm, ?_, ?_⟩, ?_⟩
  · intro xe h1 h2
    have hT : xe.mTabSize = e.mTabSize := h2.trans (settings_eq hEset).2.1
    rw [hl]
    exact undo_typed _ xe pre x post { mChar := c } k coord rfl rfl rfl (by rw [hT])
      (h1.trans hElines) hline hcx (by rw [hT]; exact htx) hg1 (by rw [hT]; exact hg9)
      (by rw [hT]; exact hcol) (by rw [hT]; exact hk)
  · intro y h1 h2
    rw [hElines]
    exact redo_typed _ y pre x post c k coord rfl rfl rfl (h1.trans hl) hline hcx
      (by omega) (by omega) (by omega) hg1 (by rw [h2]; exact hk)
  · obtain ⟨s1, s2, _, s4, _⟩ := settings_eq hEset
    have hlenB : (e.mUndoBuffer.take e.mUndoIndex.toNat).length = e.mUndoIndex.toNat := by
      rw [List.length_take]; have := hv.2.1; have := hv.2.2; omega
    refine ⟨⟨by rw [s1]; exact hv.1, by rw [r4]; have := hv.2.1; omega, ?_⟩,
      by rw [s4]; exact hov, ?_, by rw [hElines]; simp, ?_, ?_, ?_, ?_⟩
    · rw [r3, r4, List.length_append, hlenB]
      have := hv.2.1
      simp only [List.length_singleton]
      omega
    · rw [← hsel]
      exact HasSelection_congr (by rw [r2, e3state]) (by rw [r2, e3state])
    · rw [r2, e3state]; exact hs.1
    · rw [r2, e3state]; exact Int.natCast_nonneg _
    · intro l hmem
      rw [hElines] at hmem
      rcases mem_decomp_typed (x := x) hmem with h | h
      · rw [h]; exact t1
      · exact hcomp l (by rw [hl]; exact h)
    · intro l hmem
      rw [hElines] at hmem
      rw [s2]
      rcases mem_decomp_typed (x := x) hmem with h | h
      · rw [h]; exact t2
      · exact htab l (by rw [hl]; exact h)

/-! ## `EnterCharacter` records the state it started from -/

theorem RecordedBefore_of_logFrame {e0 e e' : TextEditor} (h : logFrame e' = logFrame e)
    (hr : RecordedBefore e0 e) : RecordedBefore e0 e' := by
  obtain ⟨h1, h2, _⟩ := logFrame_eq h
  unfold RecordedBefore lastRecord at hr ⊢
  rw [h1, h2]
  exact ⟨ValidLog_of_logFrame h hr.1, hr.2⟩

theorem AddUndo_recordedBefore (e0 e : TextEditor) (u : UndoRecord) (h : ValidLog e)
    (hb : u.mBefore = e0.mState) : RecordedBefore e0 (AddUndo e u) := by
  obtain ⟨s1, s2, s3, _⟩ := AddUndo_spec e u h
  exact ⟨s1, by rw [s2]; have := h.2.1; omega, by rw [s3, hb]⟩

theorem Recorded_before {e0 e : TextEditor} (h : Recorded e0 e) : RecordedBefore e0 e :=
  ⟨h.1, h.2.1, h.2.2.1⟩

theorem Undo_recordedBefore_mState (e0 e : TextEditor) (h : RecordedBefore e0 e) :
    (Undo e 1).mState = e0.mState := by
  obtain ⟨hv, hpos, hb⟩ := h
  rw [Undo_one e hv hpos, UndoRecord_Undo_mState, hb]

theorem record_recordedBefore (e0 e : TextEditor) (coord : Coordinates) (u : UndoRecord)
    (c : Nat) (hv : ValidLog e) (hb : u.mBefore = e0.mState) :
    RecordedBefore e0 (EnterCharacter.record e coord u c) := by
  unfold EnterCharacter.record
  simp only []
  refine RecordedBefore_of_logFrame (EnsureCursorVisible_logFrame _) ?_
  refine RecordedBefore_of_logFrame (Colorize_logFrame _ _ _) ?_
  refine AddUndo_recordedBefore e0 _ _ ?_ hb
  split_ifs
  · exact ValidLog_congr rfl rfl rfl hv
  · exact ValidLog_congr rfl rfl rfl hv

theorem blockCommit_recordedBefore (e0 e : TextEditor) (a b c : Coordinates) (hv : ValidLog e) :
    RecordedBefore e0 (EnterCharacter.blockCommit e0 e a b c) := by
  unfold EnterCharacter.blockCommit
  simp only []
  refine RecordedBefore_of_logFrame (EnsureCursorVisible_logFrame _) ?_
  refine RecordedBefore_of_logFrame (e := AddUndo _ _) rfl ?_
  exact AddUndo_recordedBefore e0 _ _ (ValidLog_congr rfl rfl rfl hv) rfl

theorem blockIndent_recordedBefore (e : TextEditor) (aShift : Bool) (hv : ValidLog e)
    (hrec : (EnterCharacter.blockIndent e aShift).mUndoIndex ≠ e.mUndoIndex) :
    RecordedBefore e (EnterCharacter.blockIndent e aShift) := by
  unfold EnterCharacter.blockIndent at hrec ⊢
  simp only [] at hrec ⊢
  split_ifs at hrec ⊢ with h
  · exact blockCommit_recordedBefore e _ _ _ _ (ValidLog_congr rfl rfl rfl hv)
  · exact absurd rfl hrec

theorem deleteSelected_spec (e : TextEditor) :
    logFrame (EnterCharacter.deleteSelected e).1 = logFrame e
      ∧ (EnterCharacter.deleteSelected e).2.mBefore = e.mState := by
  unfold EnterCharacter.deleteSelected
  split_ifs
  · exact ⟨DeleteSelection_logFrame e, rfl⟩
  · exact ⟨rfl, rfl⟩

theorem newLine_logFrame (e : TextEditor) (coord : Coordinates) :
    logFrame (EnterCharacter.newLine e coord) = logFrame e := by
  unfold EnterCharacter.newLine
  simp only []
  rw [SetCursorPosition_logFrame]
  show logFrame (InsertLine e (coord.mLine + 1)) = _
  rw [InsertLine_logFrame]

theorem typeChar_logFrame (e : TextEditor) (coord : Coordinates) (u : UndoRecord)
    (buf : List Nat) : logFrame (EnterCharacter.typeChar e coord u buf).1 = logFrame e := by
  unfold EnterCharacter.typeChar
  simp only []
  rw [SetCursorPosition_logFrame]
  rfl

theorem typeChar_mBefore (e : TextEditor) (coord : Coordinates) (u : UndoRecord)
    (buf : List Nat) : (EnterCharacter.typeChar e coord u buf).2.mBefore = u.mBefore := by
  unfold EnterCharacter.typeChar
  simp only []
  split_ifs <;> rfl

theorem EnterCharacter_recordedBefore (e : TextEditor) (c : Nat) (aShift : Bool)
    (hv : ValidLog e)
    (hb : (EditCommand.enterCharacter c aShift).completesBrace e = false)
    (hrec : (EnterCharacter e c aShift).mUndoIndex ≠ e.mUndoIndex) :
    RecordedBefore e (EnterCharacter e c aShift) := by
  have hbr : e.mCompleteBraces = true → c ≠ 123 ∧ c ≠ 40 ∧ c ≠ 91 := by
    intro h
    simp only [EditCommand.completesBrace, h, Bool.true_and, Bool.or_eq_false_iff,
      beq_eq_false_iff_ne, ne_eq] at hb
    exact ⟨hb.1.1, hb.1.2, hb.2⟩
  unfold EnterCharacter at hrec ⊢
  rw [EnterCharacter.go] at hrec ⊢
  by_cases hblock : HasSelection e = true ∧ c = 9
      ∧ e.mState.mSelectionStart.mLine ≠ e.mState.mSelectionEnd.mLine
  · rw [if_pos hblock] at hrec ⊢
    exact blockIndent_recordedBefore e aShift hv hrec
  rw [if_neg hblock] at hrec ⊢
  obtain ⟨d1, d2⟩ := deleteSelected_spec e
  generalize EnterCharacter.deleteSelected e = r at d1 d2 hrec ⊢
  simp only [] at hrec ⊢
  obtain ⟨e1, he1⟩ : ∃ e1, e1 = (if r.1.mLines.isEmpty = true then { r.1 with mLines := [[]] } else r.1) :=
    ⟨_, rfl⟩
  have e1log : logFrame e1 = logFrame e := by
    rw [he1]
    split_ifs
    · exact d1
    · exact d1
  rw [← he1] at hrec ⊢
  have hv1 : ValidLog e1 := ValidLog_of_logFrame e1log hv
  have hcb1 : e1.mCompleteBraces = e.mCompleteBraces := (logFrame_eq e1log).2.2.2.2.2.2
  have hcomplete : ∀ R : TextEditor, R.mCompleteBraces = e.mCompleteBraces →
      RecordedBefore e R →
      RecordedBefore e
        (if R.mCompleteBraces = true then
          if c = 123 ∨ c = 40 ∨ c = 91 then
            EnterCharacter.stepBack
              (if c = 123 then EnterCharacter.go 1 (EnterCharacter.go 1 R 10 false) 125 false
               else if c = 40 then EnterCharacter.go 1 R 41 false
               else if c = 91 then EnterCharacter.go 1 R 93 false
               else R)
          else
            (if c = 123 then EnterCharacter.go 1 (EnterCharacter.go 1 R 10 false) 125 false
             else if c = 40 then EnterCharacter.go 1 R 41 false
             else if c = 91 then EnterCharacter.go 1 R 93 false
             else R)
        else R) := by
    intro R hR hrb
    rw [hR]
    by_cases hcb : e.mCompleteBraces = true
    · obtain ⟨b1, b2, b3⟩ := hbr hcb
      rw [if_pos hcb, if_neg (by simp [b1, b2, b3]), if_neg b1, if_neg b2, if_neg b3]
      exact hrb
    · rw [if_neg hcb]
      exact hrb
  by_cases h10 : c = 10
  · rw [if_pos h10] at hrec ⊢
    apply hcomplete
    · rw [(settings_eq (record_settings _ _ _ _)).2.2.2.2,
        (logFrame_eq (newLine_logFrame _ _)).2.2.2.2.2.2, hcb1]
    · exact record_recordedBefore e _ _ _ _
        (ValidLog_of_logFrame (newLine_logFrame _ _) hv1) d2
  · rw [if_neg h10] at hrec ⊢
    by_cases hbuf : (ImTextCharToUtf8 c).length > 0
    · rw [if_pos hbuf] at hrec ⊢
      apply hcomplete
      · rw [(settings_eq (record_settings _ _ _ _)).2.2.2.2,
          (settings_eq (typeChar_settings _ _ _ _)).2.2.2.2, hcb1]
      · refine record_recordedBefore e _ _ _ _
          (ValidLog_of_logFrame (typeChar_logFrame _ _ _ _) hv1) ?_
        rw [typeChar_mBefore]
        exact d2
    · rw [if_neg hbuf] at hrec
      exact absurd (logFrame_eq e1log).2.1 hrec

/-! ## Undoing the removal of a range: the removed text goes back in -/

theorem InsertTextAt_text (e : TextEditor) (p : Coordinates) (t : List Nat)
    (pre : Lines) (x : Line) (post : Lines) (k : Nat)
    (hnul : 0 ∉ t) (hvalid : validFrom 0 t = true)
    (hl : e.mLines = pre ++ x :: post) (hline : p.mLine = pre.length)
    (hi : GetCharacterIndex e p = (k : Nat)) (hk : k ≤ x.length) :
    docText (InsertTextAt e p t false).1.mLines
      = joinPre pre ++ (lineText (x.take k) ++ (t.filter (fun c => c ≠ 13)
          ++ (lineText (x.drop k) ++ joinPost post))) := by
  have key := InsertTextAt_loop_spec 0 t.length t e p k 0 0 pre x post (Nat.le_refl _) hnul
    hvalid hl hline hk
  unfold InsertTextAt
  simp only [Bool.false_eq_true, if_false]
  rw [hi]
  exact key.1

theorem filter_cr (t : List Nat) (h : 13 ∉ t) : t.filter (fun c => c ≠ 13) = t := by
  rw [List.filter_eq_self]
  intro c hc
  have : c ≠ 13 := fun h13 => h (h13 ▸ hc)
  simpa using this

theorem cstr_of_not_mem (t : List Nat) (h : 0 ∉ t) : cstr t = t := by
  unfold cstr
  rw [List.takeWhile_eq_self_iff]
  intro c hc
  have : c ≠ 0 := fun h0 => h (h0 ▸ hc)
  simpa using this

/-- Inserting a text at the place where a range was taken out: the byte index of the
start position is the same in the shortened line. -/
theorem insert_back (xe : TextEditor) (a : Coordinates) (t : List Nat)
    (pre : Lines) (xa xb : Line) (post : Lines) (ia ib : Nat)
    (hl : xe.mLines = pre ++ (xa.take ia ++ xb.drop ib) :: post)
    (hline : a.mLine = pre.length)
    (hia : ia = idxWalk xe.mTabSize a.mColumn 0 xa 0)
    (hca : completeFrom 0 xa = true) (hcb : completeFrom 0 (xb.drop ib) = true)
    (hcol : a.mColumn ≤ (colWalk xe.mTabSize 0 xa 0 : Nat))
    (hnul : 0 ∉ t) (hcr : 13 ∉ t) (hvalid : validFrom 0 t = true) :
    docText (InsertTextAt xe a t false).1.mLines
      = joinPre pre ++ (lineText (xa.take ia) ++ (t ++ (lineText (xb.drop ib) ++ joinPost post))) := by
  have hb := idxWalk_boundary xe.mTabSize a.mColumn xa hca 0
  rw [← hia] at hb
  have hile : ia ≤ xa.length := by rw [hia]; exact idxWalk_le_length _ _ _ _ _
  have hlen : (xa.take ia).length = ia := by rw [List.length_take]; omega
  have hcolk : a.mColumn ≤ (colWalk xe.mTabSize 0 (xa.take ia) 0 : Nat) := by
    have := le_colWalk_take_idxWalk xe.mTabSize a.mColumn xa hca 0 hcol
    rw [← hia] at this
    exact this
  have hidx : idxWalk xe.mTabSize a.mColumn 0 (xa.take ia ++ xb.drop ib) 0 = ia := by
    rw [idxWalk_append_of_le xe.mTabSize a.mColumn _ hb.1 0 _ hcolk]
    have h2 := idxWalk_append_of_le xe.mTabSize a.mColumn _ hb.1 0 (xa.drop ia) hcolk
    rw [List.take_append_drop] at h2
    rw [← h2, ← hia]
  have h0 : 0 ≤ a.mLine := by omega
  have h1 : a.mLine < xe.mLines.length := by rw [hl, hline]; simp
  have hL : lineAt xe.mLines a.mLine = xa.take ia ++ xb.drop ib := by
    rw [hl, hline, lineAt_append_length]
  have hcx : completeFrom 0 (xa.take ia ++ xb.drop ib) = true := by
    rw [complete_append _ _ hb.1]; exact hcb
  have hi : GetCharacterIndex xe a = (ia : Nat) := by
    rw [GetCharacterIndex_eq xe a h0 h1 (by rw [hL]; exact hcx), hL, hidx]
  rw [InsertTextAt_text xe a t pre _ post ia hnul hvalid hl hline hi
    (by rw [List.length_append, hlen]; omega), filter_cr t hcr, List.take_left' hlen,
    List.drop_left' hlen]

theorem joinPost_snoc (mid : Lines) (y : Line) (post : Lines) :
    joinPost (mid ++ y :: post) = 10 :: (joinPre mid ++ (lineText y ++ joinPost post)) := by
  induction mid with
  | nil => simp [joinPost, joinPre]
  | cons m mid ih =>
    have h1 : joinPost ((m :: mid) ++ y :: post)
        = 10 :: (lineText m ++ joinPost (mid ++ y :: post)) := by
      simp [joinPost]
    rw [h1, ih]
    simp [joinPre]

theorem lineText_take_drop (x : Line) (i j : Nat) (hij : i ≤ j) :
    lineText x = lineText (x.take i) ++ (lineText ((x.drop i).take (j - i)) ++ lineText (x.drop j)) := by
  rw [← lineText_append, ← lineText_append]
  congr 1
  have h1 : (x.drop i).drop (j - i) = x.drop j := by
    rw [List.drop_drop]; congr 1; omega
  rw [← h1, List.take_append_drop, List.take_append_drop]

theorem GetText_span (e : TextEditor) (a b : Coordinates) (pre rest : Lines) (ia ib k : Nat)
    (hl : e.mLines = pre ++ rest) (ha : a.mLine = pre.length)
    (hb : b.mLine = ((pre.length + k : Nat) : Int))
    (hia : GetCharacterIndex e a = (ia : Nat)) (hib : GetCharacterIndex e b = (ib : Nat))
    (hok : spanOK rest ia k ib) :
    GetText e a b = spanText rest ia k ib := by
  unfold GetText
  rw [hia, hib, ha, hb, hl]
  have := GetText_loop_span k pre rest ia ib (GetText.fuel (pre ++ rest)) [] hok
    (by simp [GetText.fuel]; omega)
  simpa using this

/-- The shape of a range between two sanitized positions `a <= b`: the lines that
`DeleteRange` leaves and the way the document text splits around the text of the range. -/
theorem range_removed (e : TextEditor) (a b : Coordinates)
    (hc : ∀ line ∈ e.mLines, Complete line)
    (htab : ∀ line ∈ e.mLines, TabStopsDefined e.mTabSize line)
    (ha : Sanitized e a) (hb : Sanitized e b) (hab : a.le b = true) :
    ∃ (pre : Lines) (xa xb : Line) (post : Lines) (ia ib : Nat),
      a.mLine = pre.length ∧ ia = idxWalk e.mTabSize a.mColumn 0 xa 0
        ∧ completeFrom 0 xa = true ∧ completeFrom 0 (xb.drop ib) = true
        ∧ a.mColumn ≤ (colWalk e.mTabSize 0 xa 0 : Nat)
        ∧ (DeleteRange e a b).mLines = pre ++ (xa.take ia ++ xb.drop ib) :: post
        ∧ docText e.mLines
            = joinPre pre ++ (lineText (xa.take ia)
                ++ (GetText e a b ++ (lineText (xb.drop ib) ++ joinPost post))) := by
  obtain ⟨pre, x, rest, hl, hlen, hnat, hx, hcx, hia, hiale, hmaxa⟩ :=
    sanitized_decomp e a ha (hc _ (lineAt_mem _ _ ha.1 ha.2.1))
  obtain ⟨pre', y, post, hl', hlen', hnat', hy, hcy, hib, hible, hmaxb⟩ :=
    sanitized_decomp e b hb (hc _ (lineAt_mem _ _ hb.1 hb.2.1))
  have hcola : a.mColumn ≤ (colWalk e.mTabSize 0 x 0 : Nat) := by
    rw [← hmaxa]; exact ha.2.2.2
  have hdropb := (idxWalk_boundary e.mTabSize b.mColumn y hcy 0).2
  unfold Coordinates.le at hab
  by_cases hline : a.mLine = b.mLine
  · -- the range lies inside one line
    have hpre : pre = pre' := by
      have h1 : pre'.length = pre.length := by omega
      have := hl.symm.trans hl'
      exact (List.append_inj this h1.symm).1
    subst hpre
    have hxy : y = x := by rw [← hy, ← hx, hline]
    subst hxy
    have hpost : post = rest := by
      have := hl.symm.trans hl'
      simpa using this.symm
    subst hpost
    rw [if_neg (by simpa using hline)] at hab
    have hcol : a.mColumn ≤ b.mColumn := by simpa using hab
    have hmono := idxWalk_mono e.mTabSize a.mColumn b.mColumn hcol 0 y 0
    have htext : GetText e a b
        = lineText ((y.drop (idxWalk e.mTabSize a.mColumn 0 y 0)).take
            (idxWalk e.mTabSize b.mColumn 0 y 0 - idxWalk e.mTabSize a.mColumn 0 y 0)) := by
      rw [GetText_span e a b pre (y :: post) _ _ 0 hl hlen.symm (by rw [← hlen']; simp) hia hib
        ⟨hmono, hible⟩]
      rfl
    refine ⟨pre, y, y, post, _, idxWalk e.mTabSize b.mColumn 0 y 0, hlen.symm, rfl, hcx, hdropb,
      hcola, ?_, ?_⟩
    · by_cases heq : b = a
      · rw [heq]
        unfold DeleteRange
        rw [if_pos rfl, hl, List.take_append_drop]
      · rw [DeleteRange_mLines_same e a b heq hline, hx, hia, hib, hmaxa, hnat, hl, set_decomp]
        simp only [Int.toNat_ofNat]
        split_ifs with hge
        · have hfull := idxWalk_eq_length e.mTabSize b.mColumn y hcy
            (htab y (by rw [hl]; simp)) 0 hge
          rw [hfull, List.drop_length, List.append_nil]
        · rfl
    · rw [htext, hl, docText_decomp]
      conv_lhs => rw [lineText_take_drop y _ _ hmono]
      simp only [List.append_assoc]
  · -- the range spans several lines
    rw [if_pos (by simpa using hline)] at hab
    have hlt : a.mLine < b.mLine := by simpa using hab
    have hrest : ∃ mid, rest = mid ++ y :: post ∧ pre' = pre ++ x :: mid := by
      have hlen2 : pre.length + 1 ≤ pre'.length := by omega
      have heq := hl.symm.trans hl'
      refine ⟨(pre'.drop (pre.length + 1)), ?_, ?_⟩
      · have h1 : (pre ++ x :: rest).drop (pre.length + 1) = rest := by
          have : pre ++ x :: rest = (pre ++ [x]) ++ rest := by simp
          rw [this]
          have hl1 : (pre ++ [x]).length = pre.length + 1 := by simp
          rw [← hl1, drop_decomp]
        rw [← h1, heq, List.drop_append_of_le_length hlen2]
      · have h2 : (pre' ++ y :: post).take (pre.length + 1) = pre'.take (pre.length + 1) :=
          List.take_append_of_le_length hlen2
        have h3 : (pre ++ x :: rest).take (pre.length + 1) = pre ++ [x] := by
          have : pre ++ x :: rest = (pre ++ [x]) ++ rest := by simp
          rw [this]
          have hl1 : (pre ++ [x]).length = pre.length + 1 := by simp
          rw [← hl1, take_decomp]
        rw [heq, h2] at h3
        have := List.take_append_drop (pre.length + 1) pre'
        rw [h3] at this
        simpa using this.symm
    obtain ⟨mid, hmid, hpre'⟩ := hrest
    subst hmid
    subst hpre'
    have hbnat : b.mLine.toNat = pre.length + 1 + mid.length := by
      rw [hnat']; simp; omega
    have hmlines : (DeleteRange e a b).mLines
        = pre ++ (x.take (idxWalk e.mTabSize a.mColumn 0 x 0)
            ++ y.drop (idxWalk e.mTabSize b.mColumn 0 y 0)) :: post := by
      rw [DeleteRange_mLines_cross e a b hlt, hx, hy, hia, hib]
      simp only [Int.toNat_ofNat]
      have h1 : (a.mLine + 1).toNat = pre.length + 1 := by omega
      have h2 : (b.mLine + 1).toNat = pre.length + 1 + mid.length + 1 := by omega
      rw [h1, h2, hnat, hbnat, hl]
      exact cross_lines pre mid post x y _ _
    have htext : GetText e a b
        = lineText (x.drop (idxWalk e.mTabSize a.mColumn 0 x 0))
            ++ 10 :: (joinPre mid ++ lineText (y.take (idxWalk e.mTabSize b.mColumn 0 y 0))) := by
      rw [GetText_span e a b pre (x :: (mid ++ y :: post)) _ _ (mid.length + 1) hl hlen.symm
        (by rw [← hlen']; simp) hia hib ⟨hiale, spanOK_decomp mid y post _ hible⟩]
      simp only [spanText]
      rw [spanText_decomp]
    refine ⟨pre, x, y, post, _, _, hlen.symm, rfl, hcx, hdropb, hcola, hmlines, ?_⟩
    rw [htext, hl, docText_decomp, joinPost_snoc]
    have hsx : lineText x = lineText (x.take (idxWalk e.mTabSize a.mColumn 0 x 0))
        ++ lineText (x.drop (idxWalk e.mTabSize a.mColumn 0 x 0)) := by
      rw [← lineText_append, List.take_append_drop]
    have hsy : lineText y = lineText (y.take (idxWalk e.mTabSize b.mColumn 0 y 0))
        ++ lineText (y.drop (idxWalk e.mTabSize b.mColumn 0 y 0)) := by
      rw [← lineText_append, List.take_append_drop]
    conv_lhs => rw [hsx, hsy]
    simp only [List.append_assoc, List.cons_append]

theorem GetCharacterIndex_congr {e e' : TextEditor} (h1 : e'.mLines = e.mLines)
    (h2 : e'.mTabSize = e.mTabSize) (c : Coordinates) :
    GetCharacterIndex e' c = GetCharacterIndex e c := by
  unfold GetCharacterIndex; rw [h1, h2]

theorem GetLineMaxColumn_congr {e e' : TextEditor} (h1 : e'.mLines = e.mLines)
    (h2 : e'.mTabSize = e.mTabSize) (l : Int) :
    GetLineMaxColumn e' l = GetLineMaxColumn e l := by
  unfold GetLineMaxColumn; rw [h1, h2]

theorem GetText_congr {e e' : TextEditor} (h1 : e'.mLines = e.mLines)
    (h2 : e'.mTabSize = e.mTabSize) (a b : Coordinates) :
    GetText e' a b = GetText e a b := by
  unfold GetText
  rw [GetCharacterIndex_congr h1 h2, GetCharacterIndex_congr h1 h2, h1]

theorem DeleteRange_mLines_congr {e e' : TextEditor} (h1 : e'.mLines = e.mLines)
    (h2 : e'.mTabSize = e.mTabSize) (a b : Coordinates) (hab : a.mLine ≤ b.mLine) :
    (DeleteRange e' a b).mLines = (DeleteRange e a b).mLines := by
  by_cases heq : b = a
  · unfold DeleteRange
    rw [if_pos heq, if_pos heq, h1]
  · by_cases hline : a.mLine = b.mLine
    · rw [DeleteRange_mLines_same e' a b heq hline, DeleteRange_mLines_same e a b heq hline,
        GetCharacterIndex_congr h1 h2, GetCharacterIndex_congr h1 h2,
        GetLineMaxColumn_congr h1 h2, h1]
    · have hlt : a.mLine < b.mLine := by omega
      rw [DeleteRange_mLines_cross e' a b hlt, DeleteRange_mLines_cross e a b hlt,
        GetCharacterIndex_congr h1 h2, GetCharacterIndex_congr h1 h2, h1]

/-- Undoing a record that only removed the range between two sanitized positions puts
the text of the range back: the document text is the one before the removal. -/
theorem undo_removed_text (e : TextEditor) (a b : Coordinates) (u : UndoRecord)
    (xe : TextEditor)
    (hc : ∀ line ∈ e.mLines, Complete line)
    (htab : ∀ line ∈ e.mLines, TabStopsDefined e.mTabSize line)
    (ha : Sanitized e a) (hb : Sanitized e b) (hab : a.le b = true)
    (hxl : xe.mLines = (DeleteRange e a b).mLines) (hxt : xe.mTabSize = e.mTabSize)
    (hadd : u.mAdded = []) (hrem : u.mRemoved = GetText e a b) (hstart : u.mRemovedStart = a)
    (hnul : 0 ∉ GetText e a b) (hcr : 13 ∉ GetText e a b)
    (hvalid : ValidUTF8 (GetText e a b)) :
    GetTextAll (u.Undo xe) = GetTextAll e := by
  obtain ⟨pre, xa, xb, post, ia, ib, r1, r2, r3, r4, r5, r6, r7⟩ :=
    range_removed e a b hc htab ha hb hab
  rw [GetTextAll_eq, GetTextAll_eq, r7]
  rw [r6] at hxl
  unfold UndoRecord.Undo
  simp only [hadd, List.isEmpty_nil, Bool.not_true, Bool.false_eq_true, if_false]
  rw [EnsureCursorVisible_mLines]
  show docText (if (!u.mRemoved.isEmpty) = true then
      Colorize (InsertTextAt xe u.mRemovedStart (cstr u.mRemoved) false).1
        (u.mRemovedStart.mLine - 1) (u.mRemovedEnd.mLine - u.mRemovedStart.mLine + 2)
    else xe).mLines = _
  rw [hrem, hstart]
  by_cases hempty : GetText e a b = []
  · rw [hempty]
    simp only [List.isEmpty_nil, Bool.not_true, Bool.false_eq_true, if_false, List.nil_append]
    rw [hxl, docText_decomp, lineText_append, List.append_assoc]
  · have hne : (!(GetText e a b).isEmpty) = true := by
      cases h : GetText e a b with
      | nil => exact absurd h hempty
      | cons c t => rfl
    rw [if_pos hne, Colorize_mLines, cstr_of_not_mem _ hnul]
    exact insert_back xe a (GetText e a b) pre xa xb post ia ib hxl r1 (by rw [hxt]; exact r2)
      r3 r4 (by rw [hxt]; exact r5) hnul hcr hvalid

/-! ## `Cut`, `Delete` and `Backspace` of a selection, then `Undo` -/

theorem gt_le (a b : Coordinates) (h : b.gt a = true) : a.le b = true ∧ a.mLine ≤ b.mLine := by
  unfold Coordinates.gt at h
  unfold Coordinates.le
  by_cases hl : b.mLine ≠ a.mLine
  · rw [if_pos hl] at h
    have h1 : b.mLine > a.mLine := by simpa using h
    rw [if_pos (fun h2 => hl h2.symm)]
    exact ⟨by simpa using h1, by omega⟩
  · rw [if_neg hl] at h
    have h1 : b.mColumn > a.mColumn := by simpa using h
    have h2 : b.mLine = a.mLine := by simpa using hl
    rw [if_neg (by simpa using h2.symm)]
    exact ⟨by simp; omega, by omega⟩

/-- The effect of `Undo()` after an edit whose last record `u` only removed the selected
range. -/
theorem undo_after_removal (e E : TextEditor) (u : UndoRecord) (hs : RemovableSelection e)
    (hv : ValidLog E) (hpos : 0 < E.mUndoIndex) (hlast : lastRecord E = u)
    (hlines : E.mLines = (DeleteRange e e.mState.mSelectionStart e.mState.mSelectionEnd).mLines)
    (htab : E.mTabSize = e.mTabSize)
    (hadd : u.mAdded = []) (hrem : u.mRemoved = GetSelectedText e)
    (hstart : u.mRemovedStart = e.mState.mSelectionStart) :
    GetTextAll (Undo E 1) = GetTextAll e := by
  obtain ⟨hsel, ha, hb, hc, htabs, hnul, hcr, hvalid⟩ := hs
  rw [Undo_one E hv hpos, hlast]
  exact undo_removed_text e _ _ u _ hc htabs ha hb (gt_le _ _ hsel).1 hlines htab hadd hrem
    hstart hnul hcr hvalid

theorem DeleteSelection_mTabSize (e : TextEditor) : (DeleteSelection e).mTabSize = e.mTabSize :=
  (logFrame_eq (DeleteSelection_logFrame e)).2.2.2.1

theorem Delete_selection_undo (e : TextEditor) (hv : ValidLog e) (hs : RemovableSelection e) :
    GetTextAll (Undo (Delete e) 1) = GetTextAll e := by
  have hne : e.mLines.isEmpty = false := by
    have h0 := hs.2.1.1
    have h1 := hs.2.1.2.1
    cases h : e.mLines with
    | nil => rw [h] at h1; simp at h1; omega
    | cons a b => rfl
  have hdef : Delete e = AddUndo (DeleteSelection e)
      { mBefore := e.mState, mRemoved := GetSelectedText e,
        mRemovedStart := e.mState.mSelectionStart, mRemovedEnd := e.mState.mSelectionEnd,
        mAfter := (DeleteSelection e).mState } := by
    unfold Delete
    rw [if_neg (by rw [hne]; simp)]
    simp only []
    rw [if_pos hs.1]
  obtain ⟨s1, s2, s3, _⟩ := AddUndo_spec (DeleteSelection e)
    { mBefore := e.mState, mRemoved := GetSelectedText e,
      mRemovedStart := e.mState.mSelectionStart, mRemovedEnd := e.mState.mSelectionEnd,
      mAfter := (DeleteSelection e).mState }
    (ValidLog_of_logFrame (DeleteSelection_logFrame e) hv)
  have hpos : 0 < (DeleteSelection e).mUndoIndex + 1 := by
    rw [(logFrame_eq (DeleteSelection_logFrame e)).2.1]; have := hv.2.1; omega
  rw [hdef]
  refine undo_after_removal e _ _ hs s1 (by rw [s2]; exact hpos) s3 ?_ ?_ rfl rfl rfl
  · rw [AddUndo_mLines, DeleteSelection_mLines]
  · show (DeleteSelection e).mTabSize = _
    exact DeleteSelection_mTabSize e

theorem Cut_selection_undo (e : TextEditor) (hv : ValidLog e) (hs : RemovableSelection e) :
    GetTextAll (Undo (Cut e) 1) = GetTextAll e := by
  have hdef : Cut e = AddUndo (DeleteSelection (Copy e))
      { mBefore := e.mState, mRemoved := GetSelectedText e,
        mRemovedStart := e.mState.mSelectionStart, mRemovedEnd := e.mState.mSelectionEnd,
        mAfter := (DeleteSelection (Copy e)).mState } := by
    unfold Cut
    rw [if_neg (by rw [hv.1]; simp), if_pos hs.1]
  have hlog : logFrame (DeleteSelection (Copy e)) = logFrame e :=
    (DeleteSelection_logFrame _).trans (Copy_logFrame e)
  obtain ⟨s1, s2, s3, _⟩ := AddUndo_spec (DeleteSelection (Copy e))
    { mBefore := e.mState, mRemoved := GetSelectedText e,
      mRemovedStart := e.mState.mSelectionStart, mRemovedEnd := e.mState.mSelectionEnd,
      mAfter := (DeleteSelection (Copy e)).mState }
    (ValidLog_of_logFrame hlog hv)
  rw [hdef]
  refine undo_after_removal e _ _ hs s1 (by rw [s2, (logFrame_eq hlog).2.1]; have := hv.2.1; omega)
    s3 ?_ ?_ rfl rfl rfl
  · rw [AddUndo_mLines, DeleteSelection_mLines, Copy_mState]
    exact DeleteRange_mLines_congr (Copy_mLines e) (logFrame_eq (Copy_logFrame e)).2.2.2.1 _ _
      (gt_le _ _ hs.1).2
  · show (DeleteSelection (Copy e)).mTabSize = _
    exact (logFrame_eq hlog).2.2.2.1

theorem Backspace_selection_undo (e : TextEditor) (hv : ValidLog e) (hs : RemovableSelection e) :
    GetTextAll (Undo (Backspace e) 1) = GetTextAll e := by
  have hne : e.mLines.isEmpty = false := by
    have h0 := hs.2.1.1
    have h1 := hs.2.1.2.1
    cases h : e.mLines with
    | nil => rw [h] at h1; simp at h1; omega
    | cons a b => rfl
  have hdef : Backspace e = Backspace.finish (DeleteSelection e)
      { mBefore := e.mState, mRemoved := GetSelectedText e,
        mRemovedStart := e.mState.mSelectionStart, mRemovedEnd := e.mState.mSelectionEnd } := by
    unfold Backspace
    rw [if_neg (by rw [hne]; simp), if_pos hs.1]
  obtain ⟨s1, s2, s3, _⟩ := AddUndo_spec (DeleteSelection e)
    { mBefore := e.mState, mRemoved := GetSelectedText e,
      mRemovedStart := e.mState.mSelectionStart, mRemovedEnd := e.mState.mSelectionEnd,
      mAfter := (DeleteSelection e).mState }
    (ValidLog_of_logFrame (DeleteSelection_logFrame e) hv)
  have hpos : 0 < (DeleteSelection e).mUndoIndex + 1 := by
    rw [(logFrame_eq (DeleteSelection_logFrame e)).2.1]; have := hv.2.1; omega
  rw [hdef]
  unfold Backspace.finish
  simp only []
  split_ifs
  · rw [← s2] at hpos
    refine undo_after_removal e _ _ hs (ValidLog_congr rfl rfl rfl s1) hpos s3 ?_ ?_ rfl rfl rfl
    · exact DeleteSelection_mLines e
    · show (DeleteSelection e).mTabSize = _
      exact DeleteSelection_mTabSize e
  · refine undo_after_removal e _ _ hs s1 (by rw [s2]; exact hpos) s3 ?_ ?_ rfl rfl rfl
    · rw [AddUndo_mLines, DeleteSelection_mLines]
    · show (DeleteSelection e).mTabSize = _
      exact DeleteSelection_mTabSize e

/-! ## Evaluations: recorded columns on tabs and multi-byte characters

`Backspace`, `Delete` and `InsertTextAt` (through `Paste`) compute the columns they put in
the undo record by fixed steps (`mTabSize` for a tab, one column per byte erased by
`Backspace`, one column past the cursor for `Delete`).  On the inputs below the recorded
range is not the edited range, and `Undo()` does not give the text back. -/

/-- On "ab\t", `Backspace` records the start column `4 - mTabSize = 0`; `Undo()` puts the
tab at the start of the line. -/
theorem Backspace_tab_then_undo :
    GetTextAll (Backspace (ofLinesAt [[97, 98, 9]] ⟨0, 4⟩)) = [97, 98]
      ∧ GetTextAll (Undo (Backspace (ofLinesAt [[97, 98, 9]] ⟨0, 4⟩)) 1) = [9, 97, 98] := by
  decide

/-- After the two-byte character of "a\xC3\xA9", `Backspace` steps the start column back
by two; `Undo()` puts the character in front of the `'a'`. -/
theorem Backspace_multibyte_then_undo :
    GetTextAll (Backspace (ofLinesAt [[97, 195, 169]] ⟨0, 2⟩)) = [97]
      ∧ GetTextAll (Undo (Backspace (ofLinesAt [[97, 195, 169]] ⟨0, 2⟩)) 1) = [195, 169, 97] := by
  decide

/-- A `Paste` of a tab at column 1 of "ab" advances the insert position by `mTabSize` to
column 5, past the `'b'`; `Undo()` deletes the tab and the `'b'`. -/
theorem Paste_tab_then_undo :
    GetTextAll (Paste { ofLinesAt [[97, 98]] ⟨0, 1⟩ with mClipboard := some [9] }) = [97, 9, 98]
      ∧ GetTextAll (Undo (Paste { ofLinesAt [[97, 98]] ⟨0, 1⟩ with mClipboard := some [9] }) 1)
          = [97] := by
  decide

/-- With the cursor at column 2, inside the tab of "\tb", `Delete` erases the `'b'` and
records the empty text between columns 2 and 3; `Undo()` inserts nothing. -/
theorem Delete_inside_tab_then_undo :
    GetTextAll (Delete (ofLinesAt [[9, 98]] ⟨0, 2⟩)) = [9]
      ∧ (Delete (ofLinesAt [[9, 98]] ⟨0, 2⟩)).mUndoIndex = 1
      ∧ GetTextAll (Undo (Delete (ofLinesAt [[9, 98]] ⟨0, 2⟩)) 1) = [9] := by
  decide

/-- A line break typed with smart indentation copies the leading tab to the new line,
but the record holds `"\n"` only; `Undo()` then `Redo()` leaves the new line without
the tab. -/
theorem EnterCharacter_newline_then_undo_redo :
    GetTextAll (EnterCharacter (ofLinesAt [[9, 97, 98]] ⟨0, 5⟩) 10 false) = [9, 97, 10, 9, 98]
      ∧ GetTextAll (Redo (Undo (EnterCharacter (ofLinesAt [[9, 97, 98]] ⟨0, 5⟩) 10 false) 1) 1)
          = [9, 97, 10, 98] := by
  decide

/-! ## Claims C4 and C5: undo and redo of edit commands -/

theorem typeAll_cons (e : TextEditor) (c : Nat) (cs : List Nat) :
    typeAll e (c :: cs) = typeAll (EnterCharacter e c false) cs := rfl

theorem Run_cons {e e1 E : TextEditor} {n : Nat} (u : UndoRecord) (hf : Faithful e e1 u)
    (h : Run e1 n E) : Run e (n + 1) E := by
  induction h with
  | nil => exact Run.snoc u (Run.nil e) hf
  | @snoc e2 E n v _ hf2 ih => exact Run.snoc v ih hf2

theorem typeAll_run (cs : List Nat) : ∀ e : TextEditor, Typable e → (∀ c ∈ cs, PlainChar e c) →
    Run e cs.length (typeAll e cs) ∧ Typable (typeAll e cs) := by
  induction cs with
  | nil => intro e ht _; exact ⟨Run.nil e, ht⟩
  | cons c cs ih =>
    intro e ht hcs
    obtain ⟨⟨u, hf⟩, ht1⟩ := EnterCharacter_faithful e c false ht (hcs c (List.mem_cons_self _ _))
    have hcb : (EnterCharacter e c false).mCompleteBraces = e.mCompleteBraces :=
      (settings_eq hf.2.2.2.1).2.2.2.2
    obtain ⟨hrun, ht2⟩ := ih (EnterCharacter e c false) ht1 (by
      intro d hd
      obtain ⟨p1, p2, p3⟩ := hcs d (List.mem_cons_of_mem _ hd)
      exact ⟨p1, p2, by rw [hcb]; exact p3⟩)
    rw [typeAll_cons]
    exact ⟨Run_cons u hf hrun, ht2⟩

theorem run_recordedBefore (e : TextEditor) (cmd : EditCommand) (hv : ValidLog e)
    (hb : cmd.completesBrace e = false) (hrec : (cmd.run e).mUndoIndex ≠ e.mUndoIndex) :
    RecordedBefore e (cmd.run e) := by
  cases cmd with
  | enterCharacter c s => exact EnterCharacter_recordedBefore e c s hv hb hrec
  | backspace => exact Recorded_before (Backspace_recorded e hv hrec)
  | delete => exact Recorded_before (Delete_recorded e hv hrec)
  | cut => exact Recorded_before (Cut_recorded e hv hrec)
  | paste => exact Recorded_before (Paste_recorded e hv hrec)

theorem Faithful_undo_one {e E : TextEditor} {u : UndoRecord} (hf : Faithful e E u) :
    (Undo E 1).mLines = e.mLines ∧ (Undo E 1).mState = e.mState := by
  have hrun : Run e 1 E := Run.snoc u (Run.nil e) hf
  have hro : IsReadOnly E = false := by
    rw [(settings_eq hf.2.2.2.1).1]; exact hf.1.1
  obtain ⟨u1, u2, _⟩ := Run_undo hrun E rfl rfl rfl hro rfl rfl
  exact ⟨u1, u2⟩

theorem GetTextAll_congr {e e' : TextEditor} (h : e'.mLines = e.mLines) :
    GetTextAll e' = GetTextAll e := by
  rw [GetTextAll_eq, GetTextAll_eq, h]

theorem Undo_loop_succ (n : Nat) (e : TextEditor) :
    Undo.loop (n + 1) e = Undo.loop n (Undo.loop 1 e) := by
  by_cases h : CanUndo e = true
  · rw [Undo.loop, if_pos h]
    have h1 : Undo.loop 1 e
        = (e.mUndoBuffer.getD (e.mUndoIndex - 1).toNat default).Undo
            { e with mUndoIndex := e.mUndoIndex - 1 } := by
      rw [Undo.loop, if_pos h]; rfl
    rw [h1]
  · have h1 : ∀ k, Undo.loop (k + 1) e = e := by
      intro k; rw [Undo.loop, if_neg h]
    rw [h1, h1]
    cases n with
    | zero => rfl
    | succ k => rw [h1]

theorem undoTimes_eq (n : Nat) : ∀ e : TextEditor, undoTimes n e = Undo e n := by
  induction n with
  | zero => intro e; rfl
  | succ n ih =>
    intro e
    have h1 : undoTimes (n + 1) e = undoTimes n (Undo e 1) := rfl
    rw [h1, ih]
    unfold Undo
    rw [Int.toNat_ofNat, Int.toNat_ofNat, Undo_loop_succ]
    rfl

theorem redoTimes_eq (n : Nat) : ∀ e : TextEditor, redoTimes n e = Redo e n := by
  induction n with
  | zero => intro e; rfl
  | succ n ih =>
    intro e
    have h1 : redoTimes (n + 1) e = Redo (redoTimes n e) 1 := by
      unfold redoTimes
      rw [Function.iterate_succ_apply']
    rw [h1, ih]
    unfold Redo
    rw [Int.toNat_ofNat, Int.toNat_ofNat, Redo_loop_succ]
    rfl

/-! ## Breakpoints and error markers under `InsertLine` and `RemoveLine` -/

theorem foldl_step {α β : Type} (proj : TextEditor → α) (f : TextEditor → β → TextEditor)
    (g : α → β → α) (hf : ∀ e i, proj (f e i) = g (proj e) i) (l : List β) (e : TextEditor) :
    proj (l.foldl f e) = l.foldl g (proj e) := by
  induction l generalizing e with
  | nil => rfl
  | cons b l ih => rw [List.foldl_cons, List.foldl_cons, ih, hf]

theorem eraseBreakpoint_of_not_mem (line : Int) (l : List Breakpoint)
    (h : ∀ b ∈ l, b.mLine ≠ line) : eraseBreakpoint line l = l := by
  induction l with
  | nil => rfl
  | cons b l ih =>
    rw [eraseBreakpoint, if_neg (h b (List.mem_cons_self _ _)),
      ih (fun c hc => h c (List.mem_cons_of_mem _ hc))]

theorem eraseBreakpoint_sublist (line : Int) (l : List Breakpoint) :
    List.Sublist (eraseBreakpoint line l) l := by
  induction l with
  | nil => exact List.Sublist.slnil
  | cons b l ih =>
    rw [eraseBreakpoint]
    split_ifs
    · exact List.sublist_cons_self b l
    · exact List.Sublist.cons₂ b ih

/-- The first loop of `InsertLine` on the cleared list: only notifications. -/
theorem removeAll_fold (l : List Breakpoint) (ev : List Event) :
    l.foldl (fun (s : List Breakpoint × List Event) b =>
        (eraseBreakpoint b.mLine s.1, s.2 ++ [Event.BreakpointRemove b.mLine])) ([], ev)
      = ([], ev ++ l.map (fun b => Event.BreakpointRemove b.mLine)) := by
  induction l generalizing ev with
  | nil => simp
  | cons b l ih =>
    rw [List.foldl_cons]
    show l.foldl _ ([], ev ++ [Event.BreakpointRemove b.mLine]) = _
    rw [ih]
    simp

/-- The second loop of `InsertLine`: the notifications, whatever the lines are. -/
theorem addAll_fold_events (i : Int) (l : List Breakpoint) (s : List Breakpoint × List Event) :
    (l.foldl (fun (s : List Breakpoint × List Event) b =>
        (eraseBreakpoint (insertShift i b).mLine s.1 ++ [insertShift i b],
          s.2 ++ [Event.BreakpointRemove (insertShift i b).mLine,
            Event.BreakpointUpdate (insertShift i b).mLine b.mCondition b.mEnabled])) s).2
      = s.2 ++ l.flatMap (fun b =>
          [Event.BreakpointRemove (insertShift i b).mLine,
            Event.BreakpointUpdate (insertShift i b).mLine b.mCondition b.mEnabled]) := by
  induction l generalizing s with
  | nil => simp
  | cons b l ih =>
    rw [List.foldl_cons, ih]
    simp

/-- The second loop of `InsertLine`: the list, when the new lines are distinct. -/
theorem addAll_fold_list (i : Int) (l : List Breakpoint) (s : List Breakpoint × List Event)
    (hnd : ((s.1 ++ l.map (insertShift i)).map (fun b => b.mLine)).Nodup) :
    (l.foldl (fun (s : List Breakpoint × List Event) b =>
        (eraseBreakpoint (insertShift i b).mLine s.1 ++ [insertShift i b],
          s.2 ++ [Event.BreakpointRemove (insertShift i b).mLine,
            Event.BreakpointUpdate (insertShift i b).mLine b.mCondition b.mEnabled])) s).1
      = s.1 ++ l.map (insertShift i) := by
  induction l generalizing s with
  | nil => simp
  | cons b l ih =>
    rw [List.foldl_cons]
    have hfresh : ∀ c ∈ s.1, c.mLine ≠ (insertShift i b).mLine := by
      intro c hc heq
      rw [List.map_append, List.map_cons, List.map_cons] at hnd
      have h1 := (List.nodup_append.mp hnd).2.2
      exact h1 (List.mem_map_of_mem _ hc) (by rw [heq]; exact List.mem_cons_self _ _)
    rw [ih]
    · show eraseBreakpoint _ s.1 ++ [insertShift i b] ++ _ = _
      rw [eraseBreakpoint_of_not_mem _ _ hfresh]
      simp
    · show ((eraseBreakpoint _ s.1 ++ [insertShift i b] ++ _).map _).Nodup
      rw [eraseBreakpoint_of_not_mem _ _ hfresh]
      simpa using hnd

theorem insertShift_injective (i : Int) (a b : Breakpoint)
    (h : (insertShift i a).mLine = (insertShift i b).mLine) : a.mLine = b.mLine := by
  unfold insertShift at h
  simp only [] at h
  split_ifs at h <;> omega

theorem insertShift_nodup (i : Int) (l : List Breakpoint)
    (h : (l.map (fun b => b.mLine)).Nodup) :
    ((l.map (insertShift i)).map (fun b => b.mLine)).Nodup := by
  induction l with
  | nil => simp
  | cons b l ih =>
    rw [List.map_cons, List.nodup_cons] at h
    rw [List.map_cons, List.map_cons, List.nodup_cons]
    refine ⟨?_, ih h.2⟩
    intro hmem
    rw [List.mem_map] at hmem
    obtain ⟨c, hc, hcl⟩ := hmem
    rw [List.mem_map] at hc
    obtain ⟨d, hd, hdc⟩ := hc
    rw [← hdc] at hcl
    exact h.1 (List.mem_map.mpr ⟨d, hd, insertShift_injective i d b hcl⟩)

theorem InsertLine_breakpoints_events (e : TextEditor) (i : Int) :
    (InsertLine e i).mEvents = e.mEvents ++ insertLineEvents i e.mBreakpoints
      ∧ ((e.mBreakpoints.map (fun b => b.mLine)).Nodup →
          (InsertLine e i).mBreakpoints = e.mBreakpoints.map (insertShift i)) := by
  have key : ((InsertLine e i).mBreakpoints, (InsertLine e i).mEvents)
      = e.mBreakpoints.foldl (fun (s : List Breakpoint × List Event) b =>
          (eraseBreakpoint (insertShift i b).mLine s.1 ++ [insertShift i b],
            s.2 ++ [Event.BreakpointRemove (insertShift i b).mLine,
              Event.BreakpointUpdate (insertShift i b).mLine b.mCondition b.mEnabled]))
          ([], e.mEvents ++ e.mBreakpoints.map (fun b => Event.BreakpointRemove b.mLine)) := by
    unfold InsertLine
    simp only []
    rw [foldl_step (fun e => (e.mBreakpoints, e.mEvents)) _
      (fun (s : List Breakpoint × List Event) b =>
        (eraseBreakpoint (insertShift i b).mLine s.1 ++ [insertShift i b],
          s.2 ++ [Event.BreakpointRemove (insertShift i b).mLine,
            Event.BreakpointUpdate (insertShift i b).mLine b.mCondition b.mEnabled]))
      (by intro e b; simp [AddBreakpoint, RemoveBreakpoint, insertShift])]
    rw [foldl_step (fun e => (e.mBreakpoints, e.mEvents)) _
      (fun (s : List Breakpoint × List Event) b =>
        (eraseBreakpoint b.mLine s.1, s.2 ++ [Event.BreakpointRemove b.mLine]))
      (by intro e b; rfl)]
    rw [removeAll_fold]
  have h1 := congrArg Prod.fst key
  have h2 := congrArg Prod.snd key
  simp only [] at h1 h2
  constructor
  · rw [h2, addAll_fold_events]
    unfold insertLineEvents
    simp
  · intro hnd
    rw [h1, addAll_fold_list i _ _ (by simpa using insertShift_nodup i _ hnd)]
    simp

theorem removeRange_fold_events (s0 t0 : Int) (l : List Breakpoint)
    (s : List Breakpoint × List Event) :
    (l.foldl (removeRangeStep s0 t0) s).2 = s.2 ++ removeRangeEvents s0 t0 l := by
  induction l generalizing s with
  | nil => simp [removeRangeEvents]
  | cons b l ih =>
    rw [List.foldl_cons, ih]
    unfold removeRangeEvents removeRangeStep
    rw [List.flatMap_cons]
    split_ifs <;> simp

theorem removeRange_fold_sublist (s0 t0 : Int) (l : List Breakpoint)
    (s : List Breakpoint × List Event) :
    List.Sublist (l.foldl (removeRangeStep s0 t0) s).1
      (s.1 ++ (l.filter (fun b => ¬ (b.mLine ≥ s0 ∧ b.mLine ≤ t0))).map (removeShift s0)) := by
  induction l generalizing s with
  | nil => simp
  | cons b l ih =>
    rw [List.foldl_cons]
    refine (ih _).trans ?_
    unfold removeRangeStep
    by_cases h : b.mLine ≥ s0 ∧ b.mLine ≤ t0
    · rw [if_pos h, List.filter_cons_of_neg (by rw [decide_eq_true_iff]; exact not_not.mpr h)]
      exact List.Sublist.append (eraseBreakpoint_sublist _ _) (List.Sublist.refl _)
    · rw [if_neg h, List.filter_cons_of_pos (by rw [decide_eq_true_iff]; exact h), List.map_cons]
      show List.Sublist (eraseBreakpoint _ s.1 ++ [removeShift s0 b] ++ _) _
      rw [List.append_assoc]
      exact List.Sublist.append (eraseBreakpoint_sublist _ _) (List.Sublist.refl _)

theorem RemoveLineRange_breakpoints_events (e : TextEditor) (s0 t0 : Int) :
    ((RemoveLineRange e s0 t0).mBreakpoints, (RemoveLineRange e s0 t0).mEvents)
      = ((e.mBreakpoints.foldl (removeRangeStep s0 t0) ([], e.mEvents)).1,
          (e.mBreakpoints.foldl (removeRangeStep s0 t0) ([], e.mEvents)).2
            ++ [Event.ContentUpdate]) := by
  unfold RemoveLineRange
  simp only []
  have key := foldl_step (fun e => (e.mBreakpoints, e.mEvents))
    (fun (e : TextEditor) (i : Breakpoint) =>
      if i.mLine ≥ s0 ∧ i.mLine ≤ t0 then RemoveBreakpoint e i.mLine
      else AddBreakpoint e (if i.mLine ≥ s0 then i.mLine - 1 else i.mLine)
        i.mCondition i.mEnabled)
    (removeRangeStep s0 t0)
    (by
      intro e b
      unfold removeRangeStep
      by_cases h : b.mLine ≥ s0 ∧ b.mLine ≤ t0
      · simp only [if_pos h]
        rfl
      · simp only [if_neg h]
        simp [AddBreakpoint, RemoveBreakpoint, removeShift])
    e.mBreakpoints
    { e with
      mErrorMarkers := e.mErrorMarkers.foldl
        (fun etmp i =>
          let k := if i.1 ≥ s0 then i.1 - 1 else i.1
          if k ≥ s0 ∧ k ≤ t0 then etmp else insertMarker (k, i.2) etmp) []
      mBreakpoints := [] }
  simp only [] at key
  have h1 := congrArg Prod.fst key
  have h2 := congrArg Prod.snd key
  simp only [] at h1 h2
  rw [Prod.mk.injEq]
  exact ⟨h1, by rw [← h2]⟩

/-! ## Claims on range deletion examples, breakpoints and error markers -/

/-- C12 (counterexample): on the document "abc\ndef", `DeleteRange((0,1),(1,1))` leaves
the text "aef"; the text "af" of the claim is not what is left. -/
theorem C12_counterexample :
    GetTextAll (DeleteRange (ofLines [[97, 98, 99], [100, 101, 102]]) ⟨0, 1⟩ ⟨1, 1⟩)
      ≠ [97, 102] := by
  decide

/-- C12 (amended): on the document "abc\ndef", `DeleteRange((0,1),(1,1))` leaves exactly
one line, and its text is "aef": the first line keeps its part before column 1 and
the last line loses its part before column 1. -/
theorem C12_delete_range_joins_lines :
    (DeleteRange (ofLines [[97, 98, 99], [100, 101, 102]]) ⟨0, 1⟩ ⟨1, 1⟩).mLines
        = [toLine [97, 101, 102]]
      ∧ GetTextAll (DeleteRange (ofLines [[97, 98, 99], [100, 101, 102]]) ⟨0, 1⟩ ⟨1, 1⟩)
        = [97, 101, 102] := by
  decide

/-- C15: with breakpoints on distinct lines, `InsertLine(i)` maps the breakpoint list
entry by entry: a breakpoint on a line `L ≥ i` is afterwards on `L + 1` with the same
condition and enabled flag, every breakpoint on a line before `i` is still in the list
unchanged, and the number of breakpoints is unchanged. -/
theorem C15_insert_line_breakpoints (e : TextEditor) (i : Int) (b : Breakpoint)
    (hnd : (e.mBreakpoints.map (fun b => b.mLine)).Nodup)
    (hb : b ∈ e.mBreakpoints) (hi : i ≤ b.mLine) :
    (InsertLine e i).mBreakpoints = e.mBreakpoints.map (insertShift i)
      ∧ ({ mLine := b.mLine + 1, mCondition := b.mCondition, mEnabled := b.mEnabled }
          : Breakpoint) ∈ (InsertLine e i).mBreakpoints
      ∧ (∀ c ∈ e.mBreakpoints, c.mLine < i → c ∈ (InsertLine e i).mBreakpoints)
      ∧ (InsertLine e i).mBreakpoints.length = e.mBreakpoints.length := by
  have h := (InsertLine_breakpoints_events e i).2 hnd
  rw [h]
  refine ⟨rfl, ?_, ?_, by simp⟩
  · rw [List.mem_map]
    refine ⟨b, hb, ?_⟩
    unfold insertShift
    rw [if_pos hi]
  · intro c hc hlt
    rw [List.mem_map]
    refine ⟨c, hc, ?_⟩
    unfold insertShift
    rw [if_neg (by omega)]

/-- C15 at a concrete input: breakpoints on lines 0, 3 and 1 of a four-line document,
a line inserted at index 1. -/
theorem C15_insert_line_breakpoints_witness :
    (InsertLine (withBreakpoints [[97], [98], [99], [100]]
        [⟨0, true, "a"⟩, ⟨3, false, "x"⟩, ⟨1, true, ""⟩]) 1).mBreakpoints
      = [⟨0, true, "a"⟩, ⟨4, false, "x"⟩, ⟨2, true, ""⟩] :=
  (C15_insert_line_breakpoints (withBreakpoints [[97], [98], [99], [100]]
      [⟨0, true, "a"⟩, ⟨3, false, "x"⟩, ⟨1, true, ""⟩]) 1 ⟨3, false, "x"⟩
    (by decide) (by decide) (by decide)).1

/-- C16 (evaluation of the code): on a three-line document with a breakpoint on line 2
(condition "x", enabled) listed before a breakpoint on line 1, `RemoveLine(1)` leaves
no breakpoint at all: the breakpoint of line 2 is re-added on line 1 and then erased
by the `RemoveBreakpoint(1)` issued for the breakpoint of the removed line. -/
theorem C16_remove_line_list_order :
    (RemoveLine (withBreakpoints [[97], [98], [99]]
        [⟨2, true, "x"⟩, ⟨1, false, "y"⟩]) 1).mBreakpoints = []
      ∧ (RemoveLine (withBreakpoints [[97], [98], [99]]
        [⟨1, false, "y"⟩, ⟨2, true, "x"⟩]) 1).mBreakpoints = [⟨1, true, "x"⟩] := by
  decide

/-- C17: `RemoveLine(start, end)` does not carry a breakpoint on a line `L` with
`start ≤ L ≤ end` over into the new list (every entry of the new list comes, in order,
from a breakpoint outside the range, moved by `removeShift`), and the removal is
notified with `L`: the notifications appended by the call are exactly
`removeRangeEvents` followed by the content update, and `BreakpointRemove L` is one of
the notifications of that breakpoint. -/
theorem C17_remove_range_breakpoints (e : TextEditor) (s0 t0 : Int) (b : Breakpoint)
    (hb : b ∈ e.mBreakpoints) (h1 : s0 ≤ b.mLine) (h2 : b.mLine ≤ t0) :
    List.Sublist (RemoveLineRange e s0 t0).mBreakpoints
        ((e.mBreakpoints.filter (fun c => ¬ (c.mLine ≥ s0 ∧ c.mLine ≤ t0))).map (removeShift s0))
      ∧ b ∉ e.mBreakpoints.filter (fun c => ¬ (c.mLine ≥ s0 ∧ c.mLine ≤ t0))
      ∧ (RemoveLineRange e s0 t0).mEvents
          = e.mEvents ++ removeRangeEvents s0 t0 e.mBreakpoints ++ [Event.ContentUpdate]
      ∧ Event.BreakpointRemove b.mLine ∈ removeRangeEvents s0 t0 e.mBreakpoints := by
  have key := RemoveLineRange_breakpoints_events e s0 t0
  rw [Prod.mk.injEq] at key
  refine ⟨?_, ?_, ?_, ?_⟩
  · rw [key.1]
    simpa using removeRange_fold_sublist s0 t0 e.mBreakpoints ([], e.mEvents)
  · rw [List.mem_filter]
    intro h
    have := h.2
    rw [decide_eq_true_iff] at this
    exact this ⟨h1, h2⟩
  · rw [key.2, removeRange_fold_events]
  · unfold removeRangeEvents
    rw [List.mem_flatMap]
    refine ⟨b, hb, ?_⟩
    rw [if_pos ⟨h1, h2⟩]
    exact List.mem_singleton.mpr rfl

/-- C17 at a concrete input: breakpoints on lines 0, 2 and 4 of a five-line document,
lines removed with `RemoveLine(1, 2)`. -/
theorem C17_remove_range_breakpoints_witness :
    (RemoveLineRange (withBreakpoints [[97], [98], [99], [100], [101]]
        [⟨0, true, "a"⟩, ⟨2, true, "x"⟩, ⟨4, false, ""⟩]) 1 2).mEvents
      = [] ++ removeRangeEvents 1 2 [⟨0, true, "a"⟩, ⟨2, true, "x"⟩, ⟨4, false, ""⟩]
          ++ [Event.ContentUpdate]
      ∧ Event.BreakpointRemove 2
          ∈ removeRangeEvents 1 2 [⟨0, true, "a"⟩, ⟨2, true, "x"⟩, ⟨4, false, ""⟩] :=
  (C17_remove_range_breakpoints (withBreakpoints [[97], [98], [99], [100], [101]]
      [⟨0, true, "a"⟩, ⟨2, true, "x"⟩, ⟨4, false, ""⟩]) 1 2 ⟨2, true, "x"⟩
    (by decide) (by decide) (by decide)).2.2

/-- C18 (evaluation of the code): with error markers on lines 0, 1, 2 and 3 of a
five-line document, `RemoveLine(1)` keeps the marker of the removed line 1, keeps
line 0, and drops both markers after it: the marker of line 2 moves to the taken key 1
and the marker of line 3 moves to key 2 and is skipped by `e.first - 1 == aIndex`. -/
theorem C18_remove_line_markers :
    (RemoveLine (withMarkers [[97], [98], [99], [100], [101]]
        [(0, "a"), (1, "b"), (2, "c"), (3, "d")]) 1).mErrorMarkers
      = [(0, "a"), (1, "b")]
      ∧ (RemoveLine (withMarkers [[97], [98], [99], [100], [101]] [(1, "b")]) 1).mErrorMarkers
          = [(1, "b")]
      ∧ (RemoveLine (withMarkers [[97], [98], [99], [100], [101]] [(3, "d")]) 1).mErrorMarkers
          = [] := by
  decide

/-- C19 (counterexample): with breakpoints on lines 0, 2 and 3, `InsertLine(1)` notifies
a removal for line 0, which lies before the index, and notifies the removal for
line 3 twice. -/
theorem C19_counterexample :
    Event.BreakpointRemove 0
        ∈ (InsertLine (withBreakpoints [[97], [98], [99], [100]]
            [⟨0, true, "a"⟩, ⟨2, true, "x"⟩, ⟨3, false, ""⟩]) 1).mEvents
      ∧ (InsertLine (withBreakpoints [[97], [98], [99], [100]]
            [⟨0, true, "a"⟩, ⟨2, true, "x"⟩, ⟨3, false, ""⟩]) 1).mEvents.count
          (Event.BreakpointRemove 3) = 2 := by
  decide

/-- C19 (amended): the notifications appended during `InsertLine(index)` are exactly
`insertLineEvents`: first one `BreakpointRemove` with the old line of every breakpoint,
in list order and whether the line is before the index or not, then for every breakpoint
in list order one `BreakpointRemove` and one `BreakpointUpdate` with its new line (its
line plus one when at or after the index, its own line otherwise), the update carrying
the condition and the enabled flag of the breakpoint. -/
theorem C19_insert_line_events (e : TextEditor) (i : Int) :
    (InsertLine e i).mEvents = e.mEvents ++ insertLineEvents i e.mBreakpoints :=
  (InsertLine_breakpoints_events e i).1

/-! ## Line counts: `InsertTextAt` and the one-line invariant -/

theorem insertChars_rest (tl : List Nat) :
    ∀ (rest : List Nat) (line : Line) (ci : Int), (∀ c ∈ tl, c ≠ 0) →
      (InsertTextAt.insertChars tl.length (tl ++ rest) line ci).2.2 = rest := by
  induction tl with
  | nil => intro rest line ci _; simp [InsertTextAt.insertChars]
  | cons c tl ih =>
    intro rest line ci hnz
    have hc : c ≠ 0 := hnz c (by simp)
    simp only [List.length_cons, List.cons_append, InsertTextAt.insertChars]
    rw [if_neg hc]
    exact ih rest _ _ (fun d hd => hnz d (by simp [hd]))

theorem addIndent_length (ch : Nat) (delta lineNo : Int) (count : Nat) (e : TextEditor) :
    (InsertTextAt.addIndent ch delta lineNo count e).mLines.length = e.mLines.length := by
  induction count generalizing e with
  | zero => rfl
  | succ n ih =>
    rw [InsertTextAt.addIndent, ih]
    simp

theorem InsertLine_length (e : TextEditor) (i : Int) :
    (InsertLine e i).mLines.length = e.mLines.length + 1 := by
  rw [InsertLine_mLines]
  simp only [List.length_append, List.length_cons, List.length_take, List.length_drop]
  omega

theorem breakLine_length (e : TextEditor) (aWhere : Coordinates) (cindex : Int) :
    (InsertTextAt.breakLine e aWhere cindex).mLines.length = e.mLines.length + 1 := by
  unfold InsertTextAt.breakLine
  split_ifs
  · simp only [List.length_set]
    exact InsertLine_length e _
  · exact InsertLine_length e _

theorem indentNewLine_length (e : TextEditor) (lineNo : Int) (rest : List Nat) (s ai : Int) :
    (InsertTextAt.indentNewLine e lineNo rest s ai).1.mLines.length = e.mLines.length := by
  unfold InsertTextAt.indentNewLine
  simp only []
  rw [addIndent_length, addIndent_length]

/-- The loop of `InsertTextAt`, with or without auto-indent, creates one line per `'\n'`
of a NUL-free valid UTF-8 text, and counts them in `totalLines` and in `aWhere.mLine`. -/
theorem InsertTextAt_loop_count (indent : Bool) (s : Int) (fuel : Nat) :
    ∀ (t : List Nat) (e : TextEditor) (aWhere : Coordinates) (ci total ai : Int),
      t.length ≤ fuel → 0 ∉ t → validFrom 0 t = true →
      (InsertTextAt.loop indent s fuel t e aWhere ci total ai).1.mLines.length
          = e.mLines.length + t.count 10
        ∧ (InsertTextAt.loop indent s fuel t e aWhere ci total ai).2.2 = total + t.count 10
        ∧ (InsertTextAt.loop indent s fuel t e aWhere ci total ai).2.1.mLine
            = aWhere.mLine + t.count 10 := by
  induction fuel with
  | zero =>
    intro t e aWhere ci total ai hf _ _
    have : t = [] := List.length_eq_zero.mp (Nat.le_zero.mp hf)
    subst this
    simp [InsertTextAt.loop]
  | succ n ih =>
    intro t e aWhere ci total ai hf hnul hvalid
    cases t with
    | nil => simp [InsertTextAt.loop]
    | cons c rest =>
      have hc0 : c ≠ 0 := fun h => hnul (by simp [h])
      have hrest0 : 0 ∉ rest := fun h => hnul (by simp [h])
      have hfr : rest.length ≤ n := by simp at hf; omega
      simp only [InsertTextAt.loop]
      rw [if_neg hc0]
      by_cases h13 : c = 13
      · subst h13
        rw [if_pos rfl]
        have hv : validFrom 0 rest = true := by simpa [validFrom, UTF8CharLength] using hvalid
        have key := ih rest e aWhere ci total ai hfr hrest0 hv
        simpa [List.count_cons] using key
      · rw [if_neg h13]
        by_cases h10 : c = 10
        · subst h10
          rw [if_pos rfl]
          have hv : validFrom 0 rest = true := by simpa [validFrom, UTF8CharLength] using hvalid
          cases indent with
          | true =>
            simp only [if_true]
            obtain ⟨k1, k2, k3⟩ := ih rest
              (InsertTextAt.indentNewLine (InsertTextAt.breakLine e aWhere ci) (aWhere.mLine + 1)
                rest s ai).1
              ⟨aWhere.mLine + 1,
                (InsertTextAt.indentNewLine (InsertTextAt.breakLine e aWhere ci) (aWhere.mLine + 1)
                  rest s ai).2.1⟩
              (InsertTextAt.indentNewLine (InsertTextAt.breakLine e aWhere ci) (aWhere.mLine + 1)
                rest s ai).2.2.1
              (total + 1)
              (InsertTextAt.indentNewLine (InsertTextAt.breakLine e aWhere ci) (aWhere.mLine + 1)
                rest s ai).2.2.2 hfr hrest0 hv
            rw [indentNewLine_length, breakLine_length] at k1
            refine ⟨?_, ?_, ?_⟩
            · rw [k1]; simp [List.count_cons]; omega
            · rw [k2]; simp [List.count_cons]; omega
            · rw [k3]; simp [List.count_cons]; omega
          | false =>
            simp only [Bool.false_eq_true, if_false]
            obtain ⟨k1, k2, k3⟩ := ih rest (InsertTextAt.breakLine e aWhere ci)
              ⟨aWhere.mLine + 1, 0⟩ 0 (total + 1) ai hfr hrest0 hv
            rw [breakLine_length] at k1
            refine ⟨?_, ?_, ?_⟩
            · rw [k1]; simp [List.count_cons]; omega
            · rw [k2]; simp [List.count_cons]; omega
            · rw [k3]; simp [List.count_cons]; omega
        · rw [if_neg h10]
          simp only [validFrom] at hvalid
          obtain ⟨tl, rest', hsplit, htl, hcont, hv⟩ := validFrom_split _ _ hvalid
          subst hsplit
          have hpos := UTF8CharLength_pos c
          have hlen : UTF8CharLength c = (c :: tl).length := by simp; omega
          have hnz : ∀ d ∈ c :: tl, d ≠ 0 := by
            intro d hd
            rcases List.mem_cons.mp hd with rfl | hd
            · exact hc0
            · exact (IsUTFSequence_ne d (hcont d hd)).1
          have hins := insertChars_rest (c :: tl) rest' (lineAt e.mLines aWhere.mLine) ci hnz
          rw [← hlen] at hins
          have hcons : c :: (tl ++ rest') = (c :: tl) ++ rest' := rfl
          rw [hcons, hins]
          have hcount : (c :: tl ++ rest').count 10 = rest'.count 10 := by
            rw [List.count_append, List.count_eq_zero_of_not_mem, Nat.zero_add]
            intro hmem
            rcases List.mem_cons.mp hmem with h | h
            · exact h10 h.symm
            · exact (IsUTFSequence_ne 10 (hcont 10 h)).2.1 rfl
          have hfr2 : rest'.length ≤ n := by simp at hfr; omega
          have key := fun E W C A => ih rest' E W C total A hfr2 (fun h => hrest0 (by simp [h])) hv
          rw [hcount]
          refine ⟨?_, (key _ _ _ _).2.1, (key _ _ _ _).2.2⟩
          rw [(key _ _ _ _).1]
          simp

/-- The loop of `InsertTextAt` never removes a line, whatever the text is. -/
theorem InsertTextAt_loop_length_le (indent : Bool) (s : Int) (fuel : Nat) :
    ∀ (t : List Nat) (e : TextEditor) (aWhere : Coordinates) (ci total ai : Int),
      e.mLines.length
        ≤ (InsertTextAt.loop indent s fuel t e aWhere ci total ai).1.mLines.length := by
  induction fuel with
  | zero => intro t e aWhere ci total ai; simp [InsertTextAt.loop]
  | succ n ih =>
    intro t e aWhere ci total ai
    cases t with
    | nil => simp [InsertTextAt.loop]
    | cons c rest =>
      simp only [InsertTextAt.loop]
      split_ifs
      · exact le_refl _
      · exact ih _ _ _ _ _ _
      · refine le_trans ?_ (ih _ _ _ _ _ _)
        rw [indentNewLine_length, breakLine_length]
        omega
      · refine le_trans ?_ (ih _ _ _ _ _ _)
        rw [breakLine_length]
        omega
      all_goals (refine le_trans ?_ (ih _ _ _ _ _ _); simp)

theorem InsertTextAt_length_le (e : TextEditor) (p : Coordinates) (t : List Nat) (indent : Bool) :
    e.mLines.length ≤ (InsertTextAt e p t indent).1.mLines.length := by
  unfold InsertTextAt
  exact InsertTextAt_loop_length_le _ _ _ _ _ _ _ _ _

theorem SetText_loop_ne (t : List Nat) : ∀ lines : Lines, lines ≠ [] → SetText.loop t lines ≠ [] := by
  induction t with
  | nil => intro lines h; exact h
  | cons c rest ih =>
    intro lines h
    rw [SetText.loop]
    split_ifs
    · exact ih lines h
    · exact ih _ (by simp)
    · exact ih _ (by simp)

theorem SetText_ne (e : TextEditor) (t : List Nat) : (SetText e t).mLines ≠ [] :=
  SetText_loop_ne t [[]] (by simp)

theorem SetTextLines_ne (e : TextEditor) (ls : List (List Nat)) : (SetTextLines e ls).mLines ≠ [] := by
  show (if ls.isEmpty then ([[]] : Lines) else _) ≠ []
  cases ls with
  | nil => simp
  | cons a b => simp

theorem ne_nil_of_length_le {α : Type} {a b : List α} (h : a.length ≤ b.length) (ha : a ≠ []) :
    b ≠ [] := by
  intro hb
  subst hb
  exact ha (List.length_eq_zero.mp (Nat.le_zero.mp h))

theorem RemoveLineRange_ne (e : TextEditor) (s t : Int) (hst : s ≤ t)
    (hlen : t - s < e.mLines.length) : (RemoveLineRange e s t).mLines ≠ [] := by
  rw [RemoveLineRange_mLines]
  apply List.ne_nil_of_length_pos
  simp only [List.length_append, List.length_take, List.length_drop]
  omega

theorem RemoveLine_ne (e : TextEditor) (i : Int) (hlen : 1 < e.mLines.length) :
    (RemoveLine e i).mLines ≠ [] := by
  rw [RemoveLine_mLines]
  apply List.ne_nil_of_length_pos
  simp only [List.length_append, List.length_take, List.length_drop]
  omega

/-- A deletion that starts on a line of the document leaves at least one line. -/
theorem DeleteRange_ne (e : TextEditor) (a b : Coordinates) (h0 : 0 ≤ a.mLine)
    (hne : e.mLines ≠ []) : (DeleteRange e a b).mLines ≠ [] := by
  have hpos : 0 < e.mLines.length := List.length_pos.mpr hne
  by_cases hab : b = a
  · unfold DeleteRange
    rw [if_pos hab]
    exact hne
  by_cases hline : a.mLine = b.mLine
  · rw [DeleteRange_mLines_same e a b hab hline]
    apply List.ne_nil_of_length_pos
    simpa using hpos
  by_cases hlt : a.mLine < b.mLine
  · rw [DeleteRange_mLines_cross e a b hlt]
    apply List.ne_nil_of_length_pos
    simp only [List.length_append, List.length_take, List.length_drop, List.length_set]
    omega
  · apply List.ne_nil_of_length_pos
    unfold DeleteRange
    rw [if_neg hab]
    simp only [if_neg hline, if_neg hlt]
    simpa using hpos

theorem DeleteSelection_ne (e : TextEditor) (h0 : 0 ≤ e.mState.mSelectionStart.mLine)
    (hne : e.mLines ≠ []) : (DeleteSelection e).mLines ≠ [] := by
  rw [DeleteSelection_mLines]
  exact DeleteRange_ne e _ _ h0 hne

theorem isEmpty_false_of_ne {e : TextEditor} (hne : e.mLines ≠ []) : e.mLines.isEmpty = false := by
  cases h : e.mLines with
  | nil => exact absurd h hne
  | cons a b => rfl

theorem SanitizeCoordinates_line (e : TextEditor) (c : Coordinates) (hne : e.mLines ≠ [])
    (h0 : 0 ≤ c.mLine) :
    0 ≤ (SanitizeCoordinates e c).mLine ∧ (SanitizeCoordinates e c).mLine < e.mLines.length := by
  have hpos : 0 < e.mLines.length := List.length_pos.mpr hne
  unfold SanitizeCoordinates
  rw [isEmpty_false_of_ne hne]
  by_cases h : c.mLine ≥ e.mLines.length
  · rw [if_pos h]
    simp only [Bool.false_eq_true, if_false]
    omega
  · rw [if_neg h]
    simp only []
    omega

/-- `Delete` leaves at least one line when the selection start and the cursor are on
non-negative lines. -/
theorem Delete_ne (e : TextEditor) (hsel : 0 ≤ e.mState.mSelectionStart.mLine)
    (hcur : 0 ≤ e.mState.mCursorPosition.mLine) (hne : e.mLines ≠ []) :
    (Delete e).mLines ≠ [] := by
  have hpos : 0 < e.mLines.length := List.length_pos.mpr hne
  have hb := SanitizeCoordinates_line e e.mState.mCursorPosition hne hcur
  unfold Delete
  rw [if_neg (by simp [isEmpty_false_of_ne hne])]
  simp only []
  by_cases hs : HasSelection e = true
  · rw [if_pos hs]
    show (DeleteSelection e).mLines ≠ []
    exact DeleteSelection_ne e hsel hne
  · rw [if_neg hs]
    by_cases hcol : (GetActualCursorCoordinates e).mColumn
        = GetLineMaxColumn (SetCursorPosition e (GetActualCursorCoordinates e))
            (GetActualCursorCoordinates e).mLine
    · rw [if_pos hcol]
      by_cases hlast : (GetActualCursorCoordinates e).mLine
          = ((SetCursorPosition e (GetActualCursorCoordinates e)).mLines.length : Int) - 1
      · rw [if_pos hlast, SetCursorPosition_mLines]
        exact hne
      · rw [if_neg hlast]
        show (RemoveLine _ _).mLines ≠ []
        apply RemoveLine_ne
        rw [SetCursorPosition_mLines] at hlast
        simp only [List.length_set, SetCursorPosition_mLines]
        unfold GetActualCursorCoordinates at hlast
        omega
    · rw [if_neg hcol]
      apply List.ne_nil_of_length_pos
      show 0 < (List.set _ _ _).length
      rw [List.length_set, SetCursorPosition_mLines]
      exact hpos

theorem Backspace_finish_mLines (e : TextEditor) (u : UndoRecord) :
    (Backspace.finish e u).mLines = e.mLines := by
  unfold Backspace.finish
  simp only []
  split_ifs <;> rfl

theorem Backspace_joinLine_ne (e : TextEditor) (pos : Coordinates) (s : EditorState)
    (hlen : 1 < e.mLines.length) : (Backspace.joinLine e pos s).1.mLines ≠ [] := by
  unfold Backspace.joinLine
  simp only []
  rw [Colorize_mLines, EnsureCursorVisible_mLines]
  show (RemoveLine _ _).mLines ≠ []
  apply RemoveLine_ne
  simpa using hlen

theorem Backspace_deletePair_ne (e : TextEditor) (line : Line) (pos : Coordinates)
    (hsel : 0 ≤ e.mState.mSelectionStart.mLine) (hcur : 0 ≤ e.mState.mCursorPosition.mLine)
    (hne : e.mLines ≠ []) : (Backspace.deletePair e line pos).mLines ≠ [] := by
  unfold Backspace.deletePair
  simp only []
  split_ifs
  · exact Delete_ne e hsel hcur hne
  · exact hne
  · exact hne

theorem Backspace_eraseBefore_ne (e : TextEditor) (pos : Coordinates) (s : EditorState)
    (hsel : 0 ≤ e.mState.mSelectionStart.mLine) (hcur : 0 ≤ e.mState.mCursorPosition.mLine)
    (hne : e.mLines ≠ []) : (Backspace.eraseBefore e pos s).1.mLines ≠ [] := by
  have hd := Backspace_deletePair_ne e (lineAt e.mLines e.mState.mCursorPosition.mLine) pos
    hsel hcur hne
  unfold Backspace.eraseBefore
  simp only []
  rw [Colorize_mLines, EnsureCursorVisible_mLines]
  apply List.ne_nil_of_length_pos
  show 0 < (List.set _ _ _).length
  rw [List.length_set]
  exact List.length_pos.mpr hd

/-- `Backspace` leaves at least one line when the selection start and the cursor are on
non-negative lines. -/
theorem Backspace_ne (e : TextEditor) (hsel : 0 ≤ e.mState.mSelectionStart.mLine)
    (hcur : 0 ≤ e.mState.mCursorPosition.mLine) (hne : e.mLines ≠ []) :
    (Backspace e).mLines ≠ [] := by
  have hb := SanitizeCoordinates_line e e.mState.mCursorPosition hne hcur
  have hst : (SetCursorPosition e (GetActualCursorCoordinates e)).mState
      = { e.mState with mCursorPosition := GetActualCursorCoordinates e } :=
    SetCursorPosition_mState e _
  have hl : (SetCursorPosition e (GetActualCursorCoordinates e)).mLines = e.mLines :=
    SetCursorPosition_mLines e _
  unfold Backspace
  rw [if_neg (by simp [isEmpty_false_of_ne hne])]
  simp only []
  split_ifs with h1 h2 h3
  · rw [Backspace_finish_mLines]
    exact DeleteSelection_ne e hsel hne
  · rw [hl]
    exact hne
  · rw [Backspace_finish_mLines]
    apply Backspace_joinLine_ne
    rw [hl]
    rw [hst] at h3
    simp only [GetActualCursorCoordinates] at h3
    omega
  · rw [Backspace_finish_mLines]
    apply Backspace_eraseBefore_ne
    · rw [hst]; exact hsel
    · rw [hst]; exact hb.1
    · rw [hl]; exact hne

theorem indentLines_length (T : Nat) (sp sh : Bool) (lo hi : Int) (lines : Lines) :
    ∀ i : Int, (EnterCharacter.indentLines T sp sh lo hi i lines).1.length = lines.length := by
  induction lines with
  | nil => intro i; rfl
  | cons l rest ih =>
    intro i
    rw [EnterCharacter.indentLines]
    simp only []
    split_ifs
    · simp [ih (i + 1)]
    · simp [ih (i + 1)]

theorem blockCommit_mLines (e0 e : TextEditor) (a b c : Coordinates) :
    (EnterCharacter.blockCommit e0 e a b c).mLines = e.mLines := by
  unfold EnterCharacter.blockCommit
  simp only []
  rw [EnsureCursorVisible_mLines]
  rfl

theorem blockIndent_length (e : TextEditor) (aShift : Bool) :
    (EnterCharacter.blockIndent e aShift).mLines.length = e.mLines.length := by
  unfold EnterCharacter.blockIndent
  simp only []
  split_ifs
  · rw [blockCommit_mLines]
    exact indentLines_length _ _ _ _ _ _ _
  · exact indentLines_length _ _ _ _ _ _ _

theorem newLine_ne (e : TextEditor) (coord : Coordinates) :
    (EnterCharacter.newLine e coord).mLines ≠ [] := by
  unfold EnterCharacter.newLine
  simp only []
  rw [SetCursorPosition_mLines]
  apply List.ne_nil_of_length_pos
  simp only [List.length_set]
  rw [InsertLine_length]
  omega

theorem typeChar_length (e : TextEditor) (coord : Coordinates) (u : UndoRecord) (buf : List Nat) :
    (EnterCharacter.typeChar e coord u buf).1.mLines.length = e.mLines.length := by
  unfold EnterCharacter.typeChar
  simp only []
  rw [SetCursorPosition_mLines]
  simp

/-- `EnterCharacter` leaves at least one line, at every depth of the brace completion. -/
theorem EnterCharacter_go_ne (depth : Nat) :
    ∀ (e : TextEditor) (c : Nat) (aShift : Bool), e.mLines ≠ [] →
      (EnterCharacter.go depth e c aShift).mLines ≠ [] := by
  induction depth with
  | zero => intro e c aShift hne; exact hne
  | succ d ih =>
    intro e c aShift hne
    rw [EnterCharacter.go]
    by_cases hblock : HasSelection e = true ∧ c = 9
        ∧ e.mState.mSelectionStart.mLine ≠ e.mState.mSelectionEnd.mLine
    · rw [if_pos hblock]
      apply List.ne_nil_of_length_pos
      rw [blockIndent_length]
      exact List.length_pos.mpr hne
    rw [if_neg hblock]
    generalize EnterCharacter.deleteSelected e = r
    simp only []
    obtain ⟨e1, he1⟩ : ∃ e1, e1 = (if r.1.mLines.isEmpty = true then { r.1 with mLines := [[]] } else r.1) :=
      ⟨_, rfl⟩
    have hne1 : e1.mLines ≠ [] := by
      rw [he1]
      by_cases hem : r.1.mLines.isEmpty = true
      · rw [if_pos hem]
        simp
      · rw [if_neg hem]
        intro h
        rw [h] at hem
        exact hem rfl
    rw [← he1]
    have hcomplete : ∀ R : TextEditor, R.mLines ≠ [] →
        (if R.mCompleteBraces = true then
          if c = 123 ∨ c = 40 ∨ c = 91 then
            EnterCharacter.stepBack
              (if c = 123 then EnterCharacter.go d (EnterCharacter.go d R 10 false) 125 false
               else if c = 40 then EnterCharacter.go d R 41 false
               else if c = 91 then EnterCharacter.go d R 93 false
               else R)
          else
            (if c = 123 then EnterCharacter.go d (EnterCharacter.go d R 10 false) 125 false
             else if c = 40 then EnterCharacter.go d R 41 false
             else if c = 91 then EnterCharacter.go d R 93 false
             else R)
        else R).mLines ≠ [] := by
      intro R hR
      have hinner : (if c = 123 then EnterCharacter.go d (EnterCharacter.go d R 10 false) 125 false
               else if c = 40 then EnterCharacter.go d R 41 false
               else if c = 91 then EnterCharacter.go d R 93 false
               else R).mLines ≠ [] := by
        split_ifs
        · exact ih _ _ _ (ih _ _ _ hR)
        · exact ih _ _ _ hR
        · exact ih _ _ _ hR
        · exact hR
      by_cases hcb : R.mCompleteBraces = true
      · rw [if_pos hcb]
        by_cases hbr : c = 123 ∨ c = 40 ∨ c = 91
        · rw [if_pos hbr]
          exact hinner
        · rw [if_neg hbr]
          exact hinner
      · rw [if_neg hcb]
        exact hR
    by_cases h10 : c = 10
    · rw [if_pos h10]
      apply hcomplete
      rw [(record_doc _ _ _ _).1]
      exact newLine_ne _ _
    · rw [if_neg h10]
      by_cases hbuf : (ImTextCharToUtf8 c).length > 0
      · rw [if_pos hbuf]
        apply hcomplete
        rw [(record_doc _ _ _ _).1]
        apply List.ne_nil_of_length_pos
        rw [typeChar_length]
        exact List.length_pos.mpr hne1
      · rw [if_neg hbuf]
        exact hne1

theorem UndoRecord_Undo_ne (u : UndoRecord) (e : TextEditor) (h0 : 0 ≤ u.mAddedStart.mLine)
    (hne : e.mLines ≠ []) : (u.Undo e).mLines ≠ [] := by
  have h1 : (if (!u.mAdded.isEmpty) = true then
      Colorize (DeleteRange e u.mAddedStart u.mAddedEnd) (u.mAddedStart.mLine - 1)
        (u.mAddedEnd.mLine - u.mAddedStart.mLine + 2)
      else e).mLines ≠ [] := by
    split_ifs
    · exact DeleteRange_ne e _ _ h0 hne
    · exact hne
  unfold UndoRecord.Undo
  simp only []
  rw [EnsureCursorVisible_mLines]
  generalize (if (!u.mAdded.isEmpty) = true then
      Colorize (DeleteRange e u.mAddedStart u.mAddedEnd) (u.mAddedStart.mLine - 1)
        (u.mAddedEnd.mLine - u.mAddedStart.mLine + 2)
      else e) = e1 at h1 ⊢
  show (if (!u.mRemoved.isEmpty) = true then _ else e1 : TextEditor).mLines ≠ []
  split_ifs
  · exact ne_nil_of_length_le (InsertTextAt_length_le _ _ _ _) h1
  · exact h1

theorem UndoRecord_Redo_ne (u : UndoRecord) (e : TextEditor) (h0 : 0 ≤ u.mRemovedStart.mLine)
    (hne : e.mLines ≠ []) : (u.Redo e).mLines ≠ [] := by
  have h1 : (if (!u.mRemoved.isEmpty) = true then
      Colorize (DeleteRange e u.mRemovedStart u.mRemovedEnd) (u.mRemovedStart.mLine - 1)
        (u.mRemovedEnd.mLine - u.mRemovedStart.mLine + 1)
      else e).mLines ≠ [] := by
    split_ifs
    · exact DeleteRange_ne e _ _ h0 hne
    · exact hne
  unfold UndoRecord.Redo
  simp only []
  rw [EnsureCursorVisible_mLines]
  generalize (if (!u.mRemoved.isEmpty) = true then
      Colorize (DeleteRange e u.mRemovedStart u.mRemovedEnd) (u.mRemovedStart.mLine - 1)
        (u.mRemovedEnd.mLine - u.mRemovedStart.mLine + 1)
      else e) = e1 at h1 ⊢
  show (if (!u.mAdded.isEmpty) = true then _ else e1 : TextEditor).mLines ≠ []
  split_ifs
  · exact ne_nil_of_length_le (InsertTextAt_length_le _ _ _ _) h1
  · exact h1

/-- `Undo` leaves at least one line when the added spans of the records start on
non-negative lines. -/
theorem Undo_loop_ne (n : Nat) :
    ∀ e : TextEditor, (∀ u ∈ e.mUndoBuffer, 0 ≤ u.mAddedStart.mLine) → e.mLines ≠ [] →
      (Undo.loop n e).mLines ≠ [] := by
  induction n with
  | zero => intro e _ hne; exact hne
  | succ n ih =>
    intro e hbuf hne
    rw [Undo.loop]
    by_cases hc : CanUndo e = true
    · rw [if_pos hc]
      simp only []
      by_cases hin : (e.mUndoIndex - 1).toNat < e.mUndoBuffer.length
      · have hmem : e.mUndoBuffer.getD (e.mUndoIndex - 1).toNat default ∈ e.mUndoBuffer := by
          rw [List.getD_eq_getElem _ _ hin]
          exact List.getElem_mem _
        apply ih
        · rw [(logFrame_eq (UndoRecord_Undo_logFrame _ _)).1]
          exact hbuf
        · exact UndoRecord_Undo_ne _ _ (hbuf _ hmem) hne
      · have hdef : e.mUndoBuffer.getD (e.mUndoIndex - 1).toNat default = default := by
          rw [List.getD_eq_getElem?_getD, List.getElem?_eq_none (by omega)]
          rfl
        apply ih
        · rw [(logFrame_eq (UndoRecord_Undo_logFrame _ _)).1]
          exact hbuf
        · refine UndoRecord_Undo_ne _ _ ?_ hne
          rw [hdef]
          decide
    · rw [if_neg hc]
      exact hne

theorem Redo_loop_ne (n : Nat) :
    ∀ e : TextEditor, (∀ u ∈ e.mUndoBuffer, 0 ≤ u.mRemovedStart.mLine) → e.mLines ≠ [] →
      (Redo.loop n e).mLines ≠ [] := by
  induction n with
  | zero => intro e _ hne; exact hne
  | succ n ih =>
    intro e hbuf hne
    rw [Redo.loop]
    by_cases hc : CanRedo e = true
    · rw [if_pos hc]
      simp only []
      by_cases hin : e.mUndoIndex.toNat < e.mUndoBuffer.length
      · have hmem : e.mUndoBuffer.getD e.mUndoIndex.toNat default ∈ e.mUndoBuffer := by
          rw [List.getD_eq_getElem _ _ hin]
          exact List.getElem_mem _
        apply ih
        · rw [(logFrame_eq (UndoRecord_Redo_logFrame _ _)).1]
          exact hbuf
        · exact UndoRecord_Redo_ne _ _ (hbuf _ hmem) hne
      · have hdef : e.mUndoBuffer.getD e.mUndoIndex.toNat default = default := by
          rw [List.getD_eq_getElem?_getD, List.getElem?_eq_none (by omega)]
          rfl
        apply ih
        · rw [(logFrame_eq (UndoRecord_Redo_logFrame _ _)).1]
          exact hbuf
        · refine UndoRecord_Redo_ne _ _ ?_ hne
          rw [hdef]
          decide
    · rw [if_neg hc]
      exact hne

/-- C20: for every document with a tab size `≥ 1` (the division by the tab size that the
auto-indent makes at every line break is defined), every position and every NUL-free
valid UTF-8 text `t`, `InsertTextAt`, with or without auto-indent, returns exactly the number of `'\n'` bytes
of `t`, the line count of the document grows by exactly that number, and the line of
the in/out position advances by that number. -/
theorem C20_insert_text_at_line_count (e : TextEditor) (p : Coordinates) (t : List Nat)
    (indent : Bool) (_htab : 0 < e.mTabSize) (h0 : 0 ∉ t) (hv : ValidUTF8 t) :
    (InsertTextAt e p t indent).2.2 = t.count 10
      ∧ (InsertTextAt e p t indent).1.mLines.length = e.mLines.length + t.count 10
      ∧ (InsertTextAt e p t indent).2.1.mLine = p.mLine + t.count 10 := by
  obtain ⟨k1, k2, k3⟩ := InsertTextAt_loop_count indent
    (if indent then InsertTextAt.indentStart e.mTabSize (lineAt e.mLines p.mLine) else 0)
    t.length t e p (GetCharacterIndex e p) 0
    (if indent then InsertTextAt.indentStart e.mTabSize (lineAt e.mLines p.mLine) else 0)
    (le_refl _) h0 hv
  refine ⟨?_, ?_, ?_⟩
  · show (InsertTextAt.loop _ _ _ _ _ _ _ _ _).2.2 = _
    rw [k2]
    omega
  · exact k1
  · exact k3

/-- C20 at a concrete input: the text "x\n\t\xC3\xA9\ny" inserted with auto-indent at
(0,1) of the document "  ab": two lines are created. -/
theorem C20_insert_text_at_line_count_witness :
    (InsertTextAt (ofLines [[32, 32, 97, 98]]) ⟨0, 1⟩ [120, 10, 9, 195, 169, 10, 121] true).2.2 = 2
      ∧ (InsertTextAt (ofLines [[32, 32, 97, 98]]) ⟨0, 1⟩
          [120, 10, 9, 195, 169, 10, 121] true).1.mLines.length = 1 + 2
      ∧ (InsertTextAt (ofLines [[32, 32, 97, 98]]) ⟨0, 1⟩
          [120, 10, 9, 195, 169, 10, 121] true).2.1.mLine = 0 + 2 :=
  C20_insert_text_at_line_count (ofLines [[32, 32, 97, 98]]) ⟨0, 1⟩
    [120, 10, 9, 195, 169, 10, 121] true (by decide) (by decide) (by decide)

/-! ## Insert then delete: the round trip of claim C11 -/

theorem IsUTFSequence_ne_tab (c : Nat) (h : IsUTFSequence c = true) : c ≠ 9 := by
  unfold IsUTFSequence at h
  rintro rfl
  simp at h

theorem take_splice {α : Type} (x ins : List α) (K : Nat) (hk : K ≤ x.length) :
    (x.take K ++ ins ++ x.drop K).take (K + ins.length) = x.take K ++ ins
      ∧ (x.take K ++ ins ++ x.drop K).drop (K + ins.length) = x.drop K := by
  have hl : (x.take K ++ ins).length = K + ins.length := by
    rw [List.length_append, List.length_take]; omega
  constructor
  · rw [← hl, take_decomp]
  · rw [← hl, drop_decomp]

/-- One complete character without a tab moves the column by one. -/
theorem colWalk_char (T : Nat) (l : Line) (c : Nat) (tl : List Nat)
    (hl : completeFrom 0 l = true) (htl : tl.length = UTF8CharLength c - 1) (h9 : c ≠ 9) :
    colWalk T 0 (l ++ toLine (c :: tl)) 0 = colWalk T 0 l 0 + 1
      ∧ completeFrom 0 (l ++ toLine (c :: tl)) = true := by
  have hform : toLine (c :: tl) = ({ mChar := c } : Glyph) :: (toLine tl ++ []) := by
    simp [toLine]
  have hlen : (toLine tl).length = UTF8CharLength ({ mChar := c } : Glyph).mChar - 1 := by
    simp [toLine, htl]
  constructor
  · rw [colWalk_complete_append T l hl, hform, colWalk_cons T _ _ _ _ hlen]
    simp [colWalk, advanceColumn, h9]
  · rw [complete_append l _ hl, hform, complete_cons _ _ _ hlen]
    rfl

/-- The loop of `InsertTextAt` (auto-indent off) on a NUL-free valid UTF-8 text without
tabs keeps the state spliced around the insertion point. -/
theorem InsertTextAt_loop_spliced (T : Nat) (pre0 : Lines) (pfx sfx : Line) (post0 : Lines)
    (s : Int) (fuel : Nat) :
    ∀ (t : List Nat) (e : TextEditor) (W : Coordinates) (K : Nat) (total ai : Int),
      t.length ≤ fuel → 0 ∉ t → 9 ∉ t → validFrom 0 t = true →
      Spliced T pre0 pfx sfx post0 e.mLines W K →
      ∃ K2, Spliced T pre0 pfx sfx post0
        (InsertTextAt.loop false s fuel t e W K total ai).1.mLines
        (InsertTextAt.loop false s fuel t e W K total ai).2.1 K2 := by
  induction fuel with
  | zero =>
    intro t e W K total ai hf _ _ _ hS
    have : t = [] := List.length_eq_zero.mp (Nat.le_zero.mp hf)
    subst this
    exact ⟨K, by simpa [InsertTextAt.loop] using hS⟩
  | succ n ih =>
    intro t e W K total ai hf hnul htab hvalid hS
    cases t with
    | nil => exact ⟨K, by simpa [InsertTextAt.loop] using hS⟩
    | cons c rest =>
      have hc0 : c ≠ 0 := fun h => hnul (by simp [h])
      have hc9 : c ≠ 9 := fun h => htab (by simp [h])
      have hrest0 : 0 ∉ rest := fun h => hnul (by simp [h])
      have hrest9 : 9 ∉ rest := fun h => htab (by simp [h])
      have hfr : rest.length ≤ n := by simp at hf; omega
      simp only [InsertTextAt.loop]
      rw [if_neg hc0]
      by_cases h13 : c = 13
      · subst h13
        rw [if_pos rfl]
        have hv : validFrom 0 rest = true := by simpa [validFrom, UTF8CharLength] using hvalid
        exact ih rest e W K total ai hfr hrest0 hrest9 hv hS
      rw [if_neg h13]
      obtain ⟨PRE, X, hl, hW, hK, hcomp, hts, hsfx, hdis⟩ := hS
      have hline : W.mLine = PRE.length := by rw [hW]
      have hcol : W.mColumn = (colWalk T 0 (X.take K) 0 : Nat) := by rw [hW]
      by_cases h10 : c = 10
      · subst h10
        rw [if_pos rfl]
        have hv : validFrom 0 rest = true := by simpa [validFrom, UTF8CharLength] using hvalid
        simp only [Bool.false_eq_true, if_false]
        have hbl := breakLine_mLines e W K PRE X post0 hl hline hK
        have key := ih rest (InsertTextAt.breakLine e W K) ⟨W.mLine + 1, 0⟩ 0 (total + 1) ai
          hfr hrest0 hrest9 hv
        simp only [Nat.cast_zero] at key
        apply key
        refine ⟨PRE ++ [X.take K], X.drop K, ?_, ?_, Nat.zero_le _, rfl, ?_, ?_, ?_⟩
        · rw [hbl]; simp
        · rw [hline]; simp [colWalk]
        · intro g hg; simp at hg
        · simpa using hsfx
        · right
          rcases hdis with ⟨h1, h2, h3⟩ | ⟨F, mid, h1, h2, h3, h4, h5⟩
          · refine ⟨X.take K, [], by rw [h1], ?_, ?_, hcomp, hts⟩
            · rw [List.take_take, Nat.min_eq_left h3, h2]
            · rw [List.length_take]; omega
          · exact ⟨F, mid ++ [X.take K], by rw [h1]; simp, h2, h3, h4, h5⟩
      · rw [if_neg h10]
        simp only [validFrom] at hvalid
        obtain ⟨tl, rest2, hsplit, htl, hcont, hv⟩ := validFrom_split _ _ hvalid
        subst hsplit
        have hx : lineAt e.mLines W.mLine = X := by
          rw [hl, hline, lineAt_append_length]
        have hnat : W.mLine.toNat = PRE.length := by omega
        have hpos := UTF8CharLength_pos c
        have hlen : UTF8CharLength c = (c :: tl).length := by simp; omega
        have hins := insertChars_spec (c :: tl) rest2 X K
          (by
            intro d hd
            rcases List.mem_cons.mp hd with rfl | hd
            · exact hc0
            · exact (IsUTFSequence_ne d (hcont d hd)).1) hK
        rw [← hlen] at hins
        have hcons : c :: (tl ++ rest2) = (c :: tl) ++ rest2 := rfl
        rw [hx, hcons, hins]
        simp only [if_neg hc9]
        obtain ⟨htake, hdrop⟩ := take_splice X (toLine (c :: tl)) K hK
        have hlen2 : (toLine (c :: tl)).length = (c :: tl).length := by simp [toLine]
        rw [hlen2] at htake hdrop
        obtain ⟨hcw, hcc⟩ := colWalk_char T (X.take K) c tl hcomp (by omega) hc9
        have key := ih rest2
          { e with mLines := e.mLines.set W.mLine.toNat (X.take K ++ toLine (c :: tl) ++ X.drop K) }
          ⟨W.mLine, W.mColumn + 1⟩ (K + (c :: tl).length) total
          (if c = 123 then ai + e.mTabSize else ai)
          (by simp at hfr; omega) (fun h => hrest0 (by simp [h])) (fun h => hrest9 (by simp [h])) hv
        rw [hlen]
        apply key
        refine ⟨PRE, X.take K ++ toLine (c :: tl) ++ X.drop K, ?_, ?_, ?_, ?_, ?_, ?_, ?_⟩
        · simp only []
          rw [hnat, hl, set_decomp]
        · rw [htake, hcw, hline, hcol]
          simp
        · simp only [List.length_append, List.length_take, List.length_drop, hlen2]
          omega
        · rw [htake]; exact hcc
        · rw [htake]
          intro g hg h9
          rcases List.mem_append.mp hg with hg | hg
          · exact hts g hg h9
          · exfalso
            simp only [toLine, List.mem_map] at hg
            obtain ⟨d, hd, hdg⟩ := hg
            rw [← hdg] at h9
            simp only [] at h9
            rcases List.mem_cons.mp hd with h | h
            · exact hc9 (h ▸ h9)
            · exact IsUTFSequence_ne_tab d (hcont d h) h9
        · rw [hdrop]; exact hsfx
        · rcases hdis with ⟨h1, h2, h3⟩ | ⟨F, mid, h1, h2, h3, h4, h5⟩
          · left
            refine ⟨h1, ?_, by omega⟩
            rw [List.append_assoc, List.take_append_of_le_length
              (by rw [List.length_take]; omega), List.take_take, Nat.min_eq_left h3, h2]
          · right
            exact ⟨F, mid, h1, h2, h3, h4, h5⟩

/-- The lines after a deletion that spans several lines, given the decomposition of the
document around the two ends. -/
theorem DeleteRange_cross_lines (e : TextEditor) (a b : Coordinates) (pre mid post : Lines)
    (x y : Line) (ia ib : Nat) (hl : e.mLines = pre ++ x :: (mid ++ y :: post))
    (ha : a.mLine = pre.length) (hb : b.mLine = ((pre.length + 1 + mid.length : Nat) : Int))
    (hia : GetCharacterIndex e a = (ia : Nat)) (hib : GetCharacterIndex e b = (ib : Nat)) :
    (DeleteRange e a b).mLines = pre ++ (x.take ia ++ y.drop ib) :: post := by
  have hlt : a.mLine < b.mLine := by rw [ha, hb]; push_cast; omega
  have hx : lineAt e.mLines a.mLine = x := by rw [hl, ha, lineAt_append_length]
  have hy : lineAt e.mLines b.mLine = y := by
    have h1 : pre ++ x :: (mid ++ y :: post) = (pre ++ x :: mid) ++ y :: post := by simp
    have h2 : ((pre.length + 1 + mid.length : Nat) : Int) = ((pre ++ x :: mid).length : Int) := by
      simp; omega
    rw [hl, hb, h1, h2, lineAt_append_length]
  have hnat : a.mLine.toNat = pre.length := by omega
  have hbnat : b.mLine.toNat = pre.length + 1 + mid.length := by omega
  have h1 : (a.mLine + 1).toNat = pre.length + 1 := by omega
  have h2 : (b.mLine + 1).toNat = pre.length + 1 + mid.length + 1 := by omega
  rw [DeleteRange_mLines_cross e a b hlt, hx, hy, hia, hib]
  simp only [Int.toNat_ofNat]
  rw [h1, h2, hnat, hbnat, hl]
  exact cross_lines pre mid post x y _ _

theorem TabStopsDefined_take {T : Nat} {l : Line} (h : TabStopsDefined T l) (n : Nat) :
    TabStopsDefined T (l.take n) :=
  fun g hg => h g (List.mem_of_mem_take hg)

theorem TabStopsDefined_drop {T : Nat} {l : Line} (h : TabStopsDefined T l) (n : Nat) :
    TabStopsDefined T (l.drop n) :=
  fun g hg => h g (List.mem_of_mem_drop hg)

theorem TabStopsDefined_append {T : Nat} {a b : Line} (ha : TabStopsDefined T a)
    (hb : TabStopsDefined T b) : TabStopsDefined T (a ++ b) := by
  intro g hg
  rcases List.mem_append.mp hg with h | h
  · exact ha g h
  · exact hb g h

/-- The byte index of the column reached after a complete prefix of a complete line. -/
theorem GetCharacterIndex_after (e : TextEditor) (c : Coordinates) (pre post : Lines)
    (a b : Line) (hl : e.mLines = pre ++ (a ++ b) :: post) (hline : c.mLine = pre.length)
    (hcol : c.mColumn = (colWalk e.mTabSize 0 a 0 : Nat))
    (ha : completeFrom 0 a = true) (hb : completeFrom 0 b = true)
    (hta : TabStopsDefined e.mTabSize a) :
    GetCharacterIndex e c = (a.length : Nat) := by
  have h0 : 0 ≤ c.mLine := by omega
  have h1 : c.mLine < e.mLines.length := by rw [hl, hline]; simp
  have hL : lineAt e.mLines c.mLine = a ++ b := by rw [hl, hline, lineAt_append_length]
  have hc : Complete (lineAt e.mLines c.mLine) := by
    rw [hL]
    unfold Complete
    rw [complete_append a b ha]
    exact hb
  rw [GetCharacterIndex_eq e c h0 h1 hc, hL, hcol, idxWalk_colWalk e.mTabSize a ha hta 0 b]

/-- Deleting from the insertion point to the position the insertion loop ended at gives
the line back that stood there before. -/
theorem DeleteRange_spliced (E : TextEditor) (pre0 : Lines) (pfx sfx : Line) (post0 : Lines)
    (W : Coordinates) (K : Nat)
    (hS : Spliced E.mTabSize pre0 pfx sfx post0 E.mLines W K)
    (hpc : completeFrom 0 pfx = true) (hsc : completeFrom 0 sfx = true)
    (hst : TabStopsDefined E.mTabSize sfx) :
    (DeleteRange E ⟨(pre0.length : Int), (colWalk E.mTabSize 0 pfx 0 : Nat)⟩ W).mLines
      = pre0 ++ (pfx ++ sfx) :: post0 := by
  obtain ⟨PRE, X, hl, hW, hK, hcomp, hts, hsfx, hdis⟩ := hS
  have hX : X = X.take K ++ sfx := by rw [← hsfx, List.take_append_drop]
  have hlenK : (X.take K).length = K := by rw [List.length_take]; omega
  rcases hdis with ⟨h1, h2, h3⟩ | ⟨F, mid, h1, h2, h3, h4, h5⟩
  · -- the text went into one line
    subst h1
    have hpfx : pfx = (X.take K).take pfx.length := by
      rw [List.take_take, Nat.min_eq_left h3, h2]
    have htp : TabStopsDefined E.mTabSize pfx := by
      rw [hpfx]; exact TabStopsDefined_take hts _
    have hins : X.take K = pfx ++ (X.take K).drop pfx.length := by
      conv_lhs => rw [← List.take_append_drop pfx.length (X.take K), ← hpfx]
    have hinsc : completeFrom 0 ((X.take K).drop pfx.length) = true := by
      have := hcomp
      rw [hins, complete_append pfx _ hpc] at this
      exact this
    have hXp : X = pfx ++ ((X.take K).drop pfx.length ++ sfx) := by
      conv_lhs => rw [hX, hins, List.append_assoc]
    have hia : GetCharacterIndex E ⟨(PRE.length : Int), (colWalk E.mTabSize 0 pfx 0 : Nat)⟩
        = (pfx.length : Nat) :=
      GetCharacterIndex_after E _ PRE post0 pfx _ (by rw [hl, ← hXp]) rfl rfl hpc
        (by rw [complete_append _ _ hinsc]; exact hsc) htp
    have hib : GetCharacterIndex E W = (K : Nat) := by
      have := GetCharacterIndex_after E W PRE post0 (X.take K) sfx (by rw [hl, ← hX])
        (by rw [hW]) (by rw [hW]) hcomp hsc hts
      rw [this, hlenK]
    by_cases hne : W = ⟨(PRE.length : Int), (colWalk E.mTabSize 0 pfx 0 : Nat)⟩
    · -- nothing was inserted
      have hcols : colWalk E.mTabSize 0 (X.take K) 0 = colWalk E.mTabSize 0 pfx 0 := by
        rw [hW] at hne
        have := congrArg Coordinates.mColumn hne
        simpa using this
      have hnil : (X.take K).drop pfx.length = [] := by
        by_contra hcon
        have hlt := colWalk_lt E.mTabSize _ hinsc (TabStopsDefined_drop hts _) hcon
          (colWalk E.mTabSize 0 pfx 0)
        rw [hins, colWalk_complete_append E.mTabSize pfx hpc] at hcols
        omega
      unfold DeleteRange
      rw [if_pos hne, hl]
      conv_lhs => rw [hXp, hnil, List.nil_append]
    · have key := DeleteRange_line E ⟨(PRE.length : Int), (colWalk E.mTabSize 0 pfx 0 : Nat)⟩ W
        PRE X post0 pfx.length K hl rfl (by rw [hW]) hne hia hib
        (by
          intro hge
          by_contra hcon
          rw [hsfx] at hcon
          have hlt := colWalk_lt E.mTabSize sfx hsc hst hcon (colWalk E.mTabSize 0 (X.take K) 0)
          rw [GetLineMaxColumn_eq E _ (by simp) (by rw [hl]; simp), hl] at hge
          simp only [lineAt_append_length] at hge
          rw [hX, colWalk_complete_append E.mTabSize _ hcomp, hW] at hge
          simp only [List.take_left' hlenK] at hge
          omega)
      rw [key, h2, hsfx]
  · -- the text created lines
    subst h1
    have hpfx : pfx = F.take pfx.length := h2.symm
    have htp : TabStopsDefined E.mTabSize pfx := by
      rw [hpfx]; exact TabStopsDefined_take h5 _
    have hF : F = pfx ++ F.drop pfx.length := by
      conv_lhs => rw [← List.take_append_drop pfx.length F, ← hpfx]
    have hFd : completeFrom 0 (F.drop pfx.length) = true := by
      have := h4
      rw [hF, complete_append pfx _ hpc] at this
      exact this
    have hl2 : E.mLines = pre0 ++ F :: (mid ++ X :: post0) := by rw [hl]; simp
    have hia : GetCharacterIndex E ⟨(pre0.length : Int), (colWalk E.mTabSize 0 pfx 0 : Nat)⟩
        = (pfx.length : Nat) :=
      GetCharacterIndex_after E _ pre0 (mid ++ X :: post0) pfx _ (by rw [hl2, ← hF]) rfl rfl hpc
        hFd htp
    have hib : GetCharacterIndex E W = (K : Nat) := by
      have := GetCharacterIndex_after E W (pre0 ++ F :: mid) post0 (X.take K) sfx
        (by rw [hl, ← hX]) (by rw [hW]) (by rw [hW]) hcomp hsc hts
      rw [this, hlenK]
    have key := DeleteRange_cross_lines E ⟨(pre0.length : Int), (colWalk E.mTabSize 0 pfx 0 : Nat)⟩
      W pre0 mid post0 F X pfx.length K hl2 rfl (by rw [hW]; simp; omega) hia hib
    rw [key, h2, hsfx]

/-- C11 (counterexample): the text "\xC3", a lead byte without its continuation byte,
inserted at the sanitized position (0,1) of "ab" gives the line "a\xC3b" and the end
position (0,2); `DeleteRange((0,1),(0,2))` then leaves "a", not "ab": both walks step
over the two bytes the lead byte announces. -/
theorem C11_counterexample :
    Sanitized (ofLines [[97, 98]]) ⟨0, 1⟩
      ∧ (InsertTextAt (ofLines [[97, 98]]) ⟨0, 1⟩ [195] false).2.1 = ⟨0, 2⟩
      ∧ GetTextAll (InsertTextAt (ofLines [[97, 98]]) ⟨0, 1⟩ [195] false).1 = [97, 195, 98]
      ∧ GetTextAll (DeleteRange (InsertTextAt (ofLines [[97, 98]]) ⟨0, 1⟩ [195] false).1 ⟨0, 1⟩
          (InsertTextAt (ofLines [[97, 98]]) ⟨0, 1⟩ [195] false).2.1) = [97]
      ∧ GetTextAll (ofLines [[97, 98]]) = [97, 98] := by
  decide

/-- Evaluation of the round trip on inputs that the amended claim C11 leaves out: a tab
inserted at (0,1) of "ab" moves the end position by the tab size to (0,5), and the
deletion up to there takes the "b" along; at the position (0,2) inside the tab of
"\tb" the text "x" goes in after the tab and the deletion from (0,2) to (0,3) removes
nothing. -/
theorem InsertTextAt_tab_then_delete :
    (InsertTextAt (ofLines [[97, 98]]) ⟨0, 1⟩ [9] false).2.1 = ⟨0, 5⟩
      ∧ GetTextAll (DeleteRange (InsertTextAt (ofLines [[97, 98]]) ⟨0, 1⟩ [9] false).1 ⟨0, 1⟩
          (InsertTextAt (ofLines [[97, 98]]) ⟨0, 1⟩ [9] false).2.1) = [97]
      ∧ GetTextAll (DeleteRange (InsertTextAt (ofLines [[9, 98]]) ⟨0, 2⟩ [120] false).1 ⟨0, 2⟩
          (InsertTextAt (ofLines [[9, 98]]) ⟨0, 2⟩ [120] false).2.1) = [9, 120, 98] := by
  decide

/-- C11 (amended): for every document, every sanitized position `p` on a character
boundary of a line made of complete UTF-8 sequences whose tab stops are defined, and
every NUL-free valid UTF-8 text `t` without tabs, `InsertTextAt(p, t)` followed by
`DeleteRange(p, p')`, with `p'` the end position `InsertTextAt` leaves in its in/out
argument, gives back exactly the original lines and so exactly the original text. -/
theorem C11_insert_then_delete (e : TextEditor) (p : Coordinates) (t : List Nat)
    (hp : Sanitized e p) (hc : Complete (lineAt e.mLines p.mLine))
    (htab : TabStopsDefined e.mTabSize (lineAt e.mLines p.mLine))
    (hb : p.mColumn = GetCharacterColumn e p.mLine (GetCharacterIndex e p))
    (h0 : 0 ∉ t) (h9 : 9 ∉ t) (hv : ValidUTF8 t) :
    (DeleteRange (InsertTextAt e p t false).1 p (InsertTextAt e p t false).2.1).mLines = e.mLines
      ∧ GetTextAll (DeleteRange (InsertTextAt e p t false).1 p (InsertTextAt e p t false).2.1)
          = GetTextAll e := by
  obtain ⟨pre, x, post, hl, hlen, hnat, hx, hcx, hia, hiale, _⟩ := sanitized_decomp e p hp hc
  have hbd := idxWalk_boundary e.mTabSize p.mColumn x hcx 0
  have htx : TabStopsDefined e.mTabSize x := by rw [← hx]; exact htab
  have hcol : p.mColumn
      = (colWalk e.mTabSize 0 (x.take (idxWalk e.mTabSize p.mColumn 0 x 0)) 0 : Nat) := by
    conv_lhs => rw [hb, hia, GetCharacterColumn_eq e p.mLine _ hp.1 hp.2.1, hx]
    simp
  have hplen : (x.take (idxWalk e.mTabSize p.mColumn 0 x 0)).length
      = idxWalk e.mTabSize p.mColumn 0 x 0 := by
    rw [List.length_take]; omega
  have hpeq : p = ⟨(pre.length : Int),
      (colWalk e.mTabSize 0 (x.take (idxWalk e.mTabSize p.mColumn 0 x 0)) 0 : Nat)⟩ := by
    cases p with
    | mk l c =>
      simp only [] at hlen hcol
      rw [← hlen, ← hcol]
  have hinit : Spliced e.mTabSize pre (x.take (idxWalk e.mTabSize p.mColumn 0 x 0))
      (x.drop (idxWalk e.mTabSize p.mColumn 0 x 0)) post e.mLines p
      (idxWalk e.mTabSize p.mColumn 0 x 0) :=
    ⟨pre, x, hl, hpeq, hiale, hbd.1, TabStopsDefined_take htx _, rfl,
      Or.inl ⟨rfl, by rw [hplen], by rw [hplen]⟩⟩
  obtain ⟨K2, hfin⟩ := InsertTextAt_loop_spliced e.mTabSize pre _ _ post 0 t.length t e p
    (idxWalk e.mTabSize p.mColumn 0 x 0) 0 0 (le_refl _) h0 h9 hv hinit
  have hT : (InsertTextAt e p t false).1.mTabSize = e.mTabSize :=
    (logFrame_eq (InsertTextAt_logFrame e p t false)).2.2.2.1
  have hfin2 : Spliced (InsertTextAt e p t false).1.mTabSize pre
      (x.take (idxWalk e.mTabSize p.mColumn 0 x 0))
      (x.drop (idxWalk e.mTabSize p.mColumn 0 x 0)) post
      (InsertTextAt e p t false).1.mLines (InsertTextAt e p t false).2.1 K2 := by
    rw [hT]
    unfold InsertTextAt
    simp only [Bool.false_eq_true, if_false]
    rw [hia]
    exact hfin
  have key := DeleteRange_spliced (InsertTextAt e p t false).1 pre _ _ post _ K2 hfin2 hbd.1 hbd.2
    (by rw [hT]; exact TabStopsDefined_drop htx _)
  rw [hT, ← hpeq, List.take_append_drop, ← hl] at key
  exact ⟨key, GetTextAll_congr key⟩

/-- C11 at a concrete input: the text "x\n\xC3\xA9\r\ny" inserted after the tab of the
first line of the document "a\tb", "c" and deleted again. -/
theorem C11_insert_then_delete_witness :
    GetTextAll (DeleteRange
        (InsertTextAt (ofLines [[97, 9, 98], [99]]) ⟨0, 4⟩ [120, 10, 195, 169, 13, 10, 121] false).1
        ⟨0, 4⟩
        (InsertTextAt (ofLines [[97, 9, 98], [99]]) ⟨0, 4⟩
          [120, 10, 195, 169, 13, 10, 121] false).2.1)
      = GetTextAll (ofLines [[97, 9, 98], [99]]) :=
  (C11_insert_then_delete (ofLines [[97, 9, 98], [99]]) ⟨0, 4⟩ [120, 10, 195, 169, 13, 10, 121]
    (by decide) (by decide) (by decide) (by decide) (by decide) (by decide) (by decide)).2

/-- C14 (evaluation of the code): with the colorizer switched off, on the document
"a\ta" (tab size 4) `SetSelection((0,2), (0,2), Word)`, both ends inside the tab, stores
the selection start (0,4) and the selection end (0,2): the start lies after the end.
Both stored ends are sanitized. -/
theorem C14_word_mode_inside_tab :
    SanitizeCoordinates { ofLines [[97, 9, 97]] with mColorizerEnabled := false } ⟨0, 2⟩ = ⟨0, 2⟩
      ∧ (SetSelection { ofLines [[97, 9, 97]] with mColorizerEnabled := false } ⟨0, 2⟩ ⟨0, 2⟩
          SelectionMode.Word).mState.mSelectionStart = ⟨0, 4⟩
      ∧ (SetSelection { ofLines [[97, 9, 97]] with mColorizerEnabled := false } ⟨0, 2⟩ ⟨0, 2⟩
          SelectionMode.Word).mState.mSelectionEnd = ⟨0, 2⟩
      ∧ ((SetSelection { ofLines [[97, 9, 97]] with mColorizerEnabled := false } ⟨0, 2⟩ ⟨0, 2⟩
          SelectionMode.Word).mState.mSelectionStart.le
          (SetSelection { ofLines [[97, 9, 97]] with mColorizerEnabled := false } ⟨0, 2⟩ ⟨0, 2⟩
            SelectionMode.Word).mState.mSelectionEnd) = false := by
  decide

/-! ## Block unindent: claim C22 -/

theorem stripSpaces_eq (n : Nat) : ∀ line : Line,
    (EnterCharacter.stripSpaces n line).1 = line.drop (min n (leadingSpaces line)) := by
  induction n with
  | zero => intro line; simp [EnterCharacter.stripSpaces]
  | succ j ih =>
    intro line
    cases line with
    | nil => simp [EnterCharacter.stripSpaces]
    | cons g rest =>
      rw [EnterCharacter.stripSpaces]
      by_cases hg : g.mChar = 32
      · simp only [if_pos hg]
        rw [ih rest, leadingSpaces, if_pos hg, Nat.succ_min_succ, List.drop_succ_cons]
      · simp only [if_neg hg]
        rw [leadingSpaces, if_neg hg]
        simp

theorem indentLine_shift (T : Nat) (sp : Bool) (line : Line) :
    (EnterCharacter.indentLine T sp true line).1 = unindentLine T line := by
  unfold EnterCharacter.indentLine unindentLine
  simp only [if_true]
  cases line with
  | nil => rfl
  | cons g rest =>
    simp only []
    split_ifs
    · rfl
    · exact stripSpaces_eq T (g :: rest)

theorem indentLines_getD (T : Nat) (sp sh : Bool) (lo hi : Int) (lines : Lines) :
    ∀ (i0 : Int) (k : Nat), k < lines.length →
      (EnterCharacter.indentLines T sp sh lo hi i0 lines).1.getD k []
        = if lo ≤ i0 + k ∧ i0 + k ≤ hi then
            (EnterCharacter.indentLine T sp sh (lines.getD k [])).1
          else lines.getD k [] := by
  induction lines with
  | nil => intro i0 k hk; simp at hk
  | cons l rest ih =>
    intro i0 k hk
    rw [EnterCharacter.indentLines]
    cases k with
    | zero =>
      simp only [Nat.cast_zero, add_zero, List.getD_cons_zero]
      split_ifs <;> rfl
    | succ k =>
      have hk2 : k < rest.length := by simpa using hk
      have key := ih (i0 + 1) k hk2
      have e1 : i0 + ((k + 1 : Nat) : Int) = i0 + 1 + (k : Int) := by push_cast; ring
      rw [e1]
      simp only [List.getD_cons_succ]
      by_cases h : lo ≤ i0 ∧ i0 ≤ hi
      · simp only [if_pos h, List.getD_cons_succ]
        exact key
      · simp only [if_neg h, List.getD_cons_succ]
        exact key

theorem gt_asymm (a b : Coordinates) (h : a.gt b = true) : b.gt a = false := by
  unfold Coordinates.gt at h ⊢
  by_cases hl : a.mLine = b.mLine
  · rw [if_neg (by simpa using hl)] at h
    rw [if_neg (by simpa using hl.symm)]
    simp only [decide_eq_true_eq, decide_eq_false_iff_not] at h ⊢
    omega
  · rw [if_pos hl] at h
    rw [if_pos (fun h2 => hl h2.symm)]
    simp only [decide_eq_true_eq, decide_eq_false_iff_not] at h ⊢
    omega

theorem gt_line_le (a b : Coordinates) (h : a.gt b = true) : b.mLine ≤ a.mLine := by
  unfold Coordinates.gt at h
  by_cases hl : a.mLine = b.mLine
  · omega
  · rw [if_pos hl] at h
    simp only [decide_eq_true_eq] at h
    omega

theorem blockIndent_mLines (e : TextEditor) (aShift : Bool) :
    (EnterCharacter.blockIndent e aShift).mLines
      = (EnterCharacter.indentLines e.mTabSize e.mInsertSpaces aShift
          (EnterCharacter.blockBounds e).1.mLine (EnterCharacter.blockBounds e).2.1.mLine
          0 e.mLines).1 := by
  unfold EnterCharacter.blockIndent
  simp only []
  split_ifs
  · rw [blockCommit_mLines]
  · rfl

/-- The line range of the block (un)indent for a selection whose start is on a
non-negative line before the line of its end. -/
theorem blockBounds_lines (e : TextEditor) (hsel : HasSelection e = true)
    (hml : e.mState.mSelectionStart.mLine ≠ e.mState.mSelectionEnd.mLine)
    (h0 : 0 ≤ e.mState.mSelectionStart.mLine) (i : Nat) (hi : i < e.mLines.length) :
    ((EnterCharacter.blockBounds e).1.mLine ≤ i ∧ (i : Int) ≤ (EnterCharacter.blockBounds e).2.1.mLine)
      ↔ (e.mState.mSelectionStart.mLine ≤ i
          ∧ (i : Int) ≤ (if e.mState.mSelectionEnd.mColumn = 0 then e.mState.mSelectionEnd.mLine - 1
              else e.mState.mSelectionEnd.mLine)) := by
  unfold HasSelection at hsel
  have hlt : e.mState.mSelectionStart.mLine < e.mState.mSelectionEnd.mLine := by
    have := gt_line_le _ _ hsel
    omega
  have hemp : e.mLines.isEmpty = false := by
    cases h : e.mLines with
    | nil => rw [h] at hi; simp at hi
    | cons a b => rfl
  have hlen : (0 : Int) < e.mLines.length := by omega
  unfold EnterCharacter.blockBounds
  simp only [gt_asymm _ _ hsel, Bool.false_eq_true, if_false, hemp]
  by_cases hc : e.mState.mSelectionEnd.mColumn = 0
  · have hc2 : e.mState.mSelectionEnd.mColumn = 0 ∧ e.mState.mSelectionEnd.mLine > 0 :=
      ⟨hc, by omega⟩
    simp only [if_pos hc2, if_pos hc]
    by_cases hcl : e.mState.mSelectionEnd.mLine - 1 ≥ (e.mLines.length : Int)
    · simp only [if_pos hcl]
      omega
    · simp only [if_neg hcl]
  · have hc2 : ¬ (e.mState.mSelectionEnd.mColumn = 0 ∧ e.mState.mSelectionEnd.mLine > 0) :=
      fun h => hc h.1
    simp only [if_neg hc2, if_neg hc]
    by_cases hcl : e.mState.mSelectionEnd.mLine ≥ (e.mLines.length : Int)
    · simp only [if_pos hcl]
      omega
    · simp only [if_neg hcl]

/-- C22: for a selection that spans more than one line (start on a non-negative line)
and a tab size `≥ 1` (the tab-stop divisions are defined),
`EnterCharacter('\t', shift = true)` keeps the number of lines and replaces every line
from the line of the selection start to the line of the selection end, the latter
excluded when the selection ends at its column 0, by `unindentLine`: one leading tab
removed if the line begins with a tab, otherwise its first
`min(tab size, number of leading spaces)` spaces; every other line is unchanged. -/
theorem C22_block_unindent (e : TextEditor) (hsel : HasSelection e = true)
    (hml : e.mState.mSelectionStart.mLine ≠ e.mState.mSelectionEnd.mLine)
    (h0 : 0 ≤ e.mState.mSelectionStart.mLine) (_htab : 0 < e.mTabSize) :
    (EnterCharacter e 9 true).mLines.length = e.mLines.length
      ∧ ∀ i : Nat, i < e.mLines.length →
          (EnterCharacter e 9 true).mLines.getD i []
            = if e.mState.mSelectionStart.mLine ≤ i
                ∧ (i : Int) ≤ (if e.mState.mSelectionEnd.mColumn = 0
                    then e.mState.mSelectionEnd.mLine - 1 else e.mState.mSelectionEnd.mLine)
              then unindentLine e.mTabSize (e.mLines.getD i [])
              else e.mLines.getD i [] := by
  have hgo : EnterCharacter e 9 true = EnterCharacter.blockIndent e true := by
    unfold EnterCharacter
    rw [EnterCharacter.go, if_pos ⟨hsel, rfl, hml⟩]
  rw [hgo]
  refine ⟨blockIndent_length e true, ?_⟩
  intro i hi
  rw [blockIndent_mLines, indentLines_getD _ _ _ _ _ _ 0 i hi, indentLine_shift]
  have hb := blockBounds_lines e hsel hml h0 i hi
  simp only [zero_add]
  by_cases h : (EnterCharacter.blockBounds e).1.mLine ≤ i
      ∧ (i : Int) ≤ (EnterCharacter.blockBounds e).2.1.mLine
  · rw [if_pos h, if_pos (hb.mp h)]
  · rw [if_neg h, if_neg (fun h2 => h (hb.mpr h2))]

/-- C22 at a concrete input: the lines "\ta", "      b" (six spaces), "  c", "\td" with
the selection from (0,1) to (3,0) and tab size 4: the second line loses four of its six
spaces, and the last line, which the selection only touches at column 0, is not
modified. -/
theorem C22_block_unindent_witness :
    (EnterCharacter
        { ofLines [[9, 97], [32, 32, 32, 32, 32, 32, 98], [32, 32, 99], [9, 100]] with
          mState := { mSelectionStart := ⟨0, 1⟩, mSelectionEnd := ⟨3, 0⟩, mCursorPosition := ⟨3, 0⟩ } }
        9 true).mLines.getD 1 [] = toLine [32, 32, 98]
      ∧ (EnterCharacter
        { ofLines [[9, 97], [32, 32, 32, 32, 32, 32, 98], [32, 32, 99], [9, 100]] with
          mState := { mSelectionStart := ⟨0, 1⟩, mSelectionEnd := ⟨3, 0⟩, mCursorPosition := ⟨3, 0⟩ } }
        9 true).mLines.getD 3 [] = toLine [9, 100] :=
  ⟨((C22_block_unindent
      { ofLines [[9, 97], [32, 32, 32, 32, 32, 32, 98], [32, 32, 99], [9, 100]] with
        mState := { mSelectionStart := ⟨0, 1⟩, mSelectionEnd := ⟨3, 0⟩, mCursorPosition := ⟨3, 0⟩ } }
      (by decide) (by decide) (by decide) (by decide)).2 1 (by decide)).trans (by decide),
    ((C22_block_unindent
      { ofLines [[9, 97], [32, 32, 32, 32, 32, 32, 98], [32, 32, 99], [9, 100]] with
        mState := { mSelectionStart := ⟨0, 1⟩, mSelectionEnd := ⟨3, 0⟩, mCursorPosition := ⟨3, 0⟩ } }
      (by decide) (by decide) (by decide) (by decide)).2 3 (by decide)).trans (by decide)⟩

/-! ## Auto-indenting insertion: claim C21 -/

theorem addIndent_mLines (ch : Nat) (delta : Int) (n : Nat) :
    ∀ (e : TextEditor) (lineNo : Int) (pre : Lines) (x : Line) (post : Lines),
      e.mLines = pre ++ x :: post → lineNo = pre.length →
      (InsertTextAt.addIndent ch delta lineNo n e).mLines
        = pre ++ (List.replicate n ({ mChar := ch } : Glyph) ++ x) :: post := by
  induction n with
  | zero => intro e lineNo pre x post hl _; simpa [InsertTextAt.addIndent] using hl
  | succ n ih =>
    intro e lineNo pre x post hl hline
    rw [InsertTextAt.addIndent]
    have hx : lineAt e.mLines lineNo = x := by rw [hl, hline, lineAt_append_length]
    have hnat : lineNo.toNat = pre.length := by omega
    have key := ih
      { e with
        mLines := e.mLines.set lineNo.toNat ({ mChar := ch } :: lineAt e.mLines lineNo)
        mSnippetTagStart := (shiftSnippetTags lineNo delta e.mSnippetTagStart e.mSnippetTagEnd).1
        mSnippetTagEnd := (shiftSnippetTags lineNo delta e.mSnippetTagStart e.mSnippetTagEnd).2 }
      lineNo pre ({ mChar := ch } :: x) post
      (by simp only []; rw [hx, hnat, hl, set_decomp]) hline
    rw [key]
    congr 2
    rw [List.replicate_succ']
    simp

theorem bracket_a2 (T a : Nat) (b : Prop) [Decidable b] :
    (if b then max 0 ((a : Int) - (T : Int)) else (a : Int))
      = ((if b then a - T else a : Nat) : Int) := by
  split_ifs
  · omega
  · rfl

/-- The `if (indent)` block after a line break, with insert-spaces off: the new line gets
the indentation in front, and the returned column, index and running width are those
of the specification. -/
theorem indentNewLine_spec (e : TextEditor) (lineNo : Int) (rest : List Nat) (w a : Nat)
    (pre : Lines) (x : Line) (post : Lines)
    (hsp : e.mInsertSpaces = false)
    (hl : e.mLines = pre ++ x :: post) (hline : lineNo = pre.length) :
    (InsertTextAt.indentNewLine e lineNo rest w a).1.mLines
        = pre ++ (indentation e.mTabSize
            (if isspace (rest.headD 0) && rest.headD 0 ≠ 10 && rest.headD 0 ≠ 13 then w
              else if InsertTextAt.bracketSearch rest = 125 then a - e.mTabSize else a) ++ x) :: post
      ∧ (InsertTextAt.indentNewLine e lineNo rest w a).2.2.1
        = ((indentation e.mTabSize
            (if isspace (rest.headD 0) && rest.headD 0 ≠ 10 && rest.headD 0 ≠ 13 then w
              else if InsertTextAt.bracketSearch rest = 125 then a - e.mTabSize else a)).length : Nat)
      ∧ (InsertTextAt.indentNewLine e lineNo rest w a).2.2.2
        = ((if InsertTextAt.bracketSearch rest = 125 then a - e.mTabSize else a : Nat) : Int) := by
  have hact : (if (isspace (rest.headD 0) && rest.headD 0 ≠ 10 && rest.headD 0 ≠ 13) = true
        then (w : Int)
        else if InsertTextAt.bracketSearch rest = 125 then max 0 ((a : Int) - (e.mTabSize : Int))
          else (a : Int))
      = ((if (isspace (rest.headD 0) && rest.headD 0 ≠ 10 && rest.headD 0 ≠ 13) = true then w
          else if InsertTextAt.bracketSearch rest = 125 then a - e.mTabSize else a : Nat) : Int) := by
    split_ifs
    · rfl
    · omega
    · rfl
  unfold InsertTextAt.indentNewLine
  simp only [hsp, Bool.false_eq_true, if_false]
  rw [hact]
  generalize (if (isspace (rest.headD 0) && rest.headD 0 ≠ 10 && rest.headD 0 ≠ 13) = true then w
    else if InsertTextAt.bracketSearch rest = 125 then a - e.mTabSize else a : Nat) = act
  have htab : ((act : Int) / (e.mTabSize : Int)).toNat = act / e.mTabSize := by
    rw [← Int.natCast_div]; rfl
  have hspace : ((act : Int) - (act : Int) / (e.mTabSize : Int) * (e.mTabSize : Int)).toNat
      = act % e.mTabSize := by
    have h1 : (act : Int) - (act : Int) / (e.mTabSize : Int) * (e.mTabSize : Int)
        = ((act % e.mTabSize : Nat) : Int) := by
      rw [Int.natCast_mod]
      have := Int.emod_add_ediv (act : Int) (e.mTabSize : Int)
      linarith [mul_comm ((act : Int) / (e.mTabSize : Int)) (e.mTabSize : Int)]
    rw [h1]; rfl
  refine ⟨?_, ?_, ?_⟩
  · rw [htab, hspace]
    have h1 := addIndent_mLines 32 1 (act % e.mTabSize) e lineNo pre x post hl hline
    have h2 := addIndent_mLines 9 (e.mTabSize : Int) (act / e.mTabSize)
      (InsertTextAt.addIndent 32 1 lineNo (act % e.mTabSize) e) lineNo pre _ post h1 hline
    rw [h2]
    unfold indentation
    simp
  · unfold indentation
    simp only [List.length_append, List.length_replicate]
    have h1 : (act : Int) / (e.mTabSize : Int) = ((act / e.mTabSize : Nat) : Int) := by
      rw [Int.natCast_div]
    have h2 : (act : Int) - (act : Int) / (e.mTabSize : Int) * (e.mTabSize : Int)
        = ((act % e.mTabSize : Nat) : Int) := by
      rw [Int.natCast_mod]
      have := Int.emod_add_ediv (act : Int) (e.mTabSize : Int)
      linarith [mul_comm ((act : Int) / (e.mTabSize : Int)) (e.mTabSize : Int)]
    rw [h2, h1]
    push_cast
    ring
  · exact bracket_a2 e.mTabSize a _

theorem autoIndentLines_cont (T w : Nat) (tl : List Nat) :
    ∀ (a : Nat) (cur : Line) (rest : List Nat) (sfx : Line),
      (∀ c ∈ tl, IsUTFSequence c = true) →
      autoIndentLines T w a cur (tl ++ rest) sfx = autoIndentLines T w a (cur ++ toLine tl) rest sfx := by
  induction tl with
  | nil => intro a cur rest sfx _; simp [toLine]
  | cons c tl ih =>
    intro a cur rest sfx h
    have hc := h c (by simp)
    have h13 : c ≠ 13 := (IsUTFSequence_ne c hc).2.2
    have h10 : c ≠ 10 := (IsUTFSequence_ne c hc).2.1
    have h123 : c ≠ 123 := by
      rintro rfl
      exact absurd hc (by decide)
    rw [List.cons_append, autoIndentLines, if_neg h13, if_neg h10, if_neg h123,
      ih a _ rest sfx (fun d hd => h d (by simp [hd]))]
    simp [toLine]

/-- The loop of `InsertTextAt` with auto-indent on and insert-spaces off yields the lines
of `autoIndentLines`. -/
theorem InsertTextAt_loop_indent (T w : Nat) (fuel : Nat) :
    ∀ (t : List Nat) (e : TextEditor) (aWhere : Coordinates) (total : Int) (a : Nat)
      (pre : Lines) (cur sfx : Line) (post : Lines),
      t.length ≤ fuel → 0 ∉ t → validFrom 0 t = true → e.mTabSize = T →
      e.mInsertSpaces = false → e.mLines = pre ++ (cur ++ sfx) :: post →
      aWhere.mLine = pre.length →
      (InsertTextAt.loop true w fuel t e aWhere (cur.length : Nat) total a).1.mLines
        = pre ++ autoIndentLines T w a cur t sfx ++ post := by
  induction fuel with
  | zero =>
    intro t e aWhere total a pre cur sfx post hf _ _ _ _ hl _
    have : t = [] := List.length_eq_zero.mp (Nat.le_zero.mp hf)
    subst this
    simp [InsertTextAt.loop, autoIndentLines, hl]
  | succ n ih =>
    intro t e aWhere total a pre cur sfx post hf hnul hvalid hT hsp hl hline
    cases t with
    | nil => simp [InsertTextAt.loop, autoIndentLines, hl]
    | cons c rest =>
      have hc0 : c ≠ 0 := fun h => hnul (by simp [h])
      have hrest0 : 0 ∉ rest := fun h => hnul (by simp [h])
      have hfr : rest.length ≤ n := by simp at hf; omega
      have htk : (cur ++ sfx).take cur.length = cur := List.take_left' rfl
      have hdk : (cur ++ sfx).drop cur.length = sfx := List.drop_left' rfl
      simp only [InsertTextAt.loop]
      rw [if_neg hc0]
      by_cases h13 : c = 13
      · subst h13
        rw [if_pos rfl]
        have hv : validFrom 0 rest = true := by simpa [validFrom, UTF8CharLength] using hvalid
        rw [autoIndentLines, if_pos rfl]
        exact ih rest e aWhere total a pre cur sfx post hfr hrest0 hv hT hsp hl hline
      rw [if_neg h13]
      by_cases h10 : c = 10
      · subst h10
        rw [if_pos rfl]
        have hv : validFrom 0 rest = true := by simpa [validFrom, UTF8CharLength] using hvalid
        simp only [if_true]
        have hbl := breakLine_mLines e aWhere cur.length pre (cur ++ sfx) post hl hline (by simp)
        rw [htk, hdk] at hbl
        have hbl2 : (InsertTextAt.breakLine e aWhere (cur.length : Nat)).mLines
            = (pre ++ [cur]) ++ sfx :: post := by rw [hbl]; simp
        have hfrm := (logFrame_eq (editFrame_eq (breakLine_editFrame e aWhere (cur.length : Nat))).2)
        have hT1 : (InsertTextAt.breakLine e aWhere (cur.length : Nat)).mTabSize = T := by
          rw [hfrm.2.2.2.1, hT]
        have hsp1 : (InsertTextAt.breakLine e aWhere (cur.length : Nat)).mInsertSpaces = false := by
          rw [hfrm.2.2.2.2.1, hsp]
        have hln : aWhere.mLine + 1 = ((pre ++ [cur]).length : Nat) := by simp [hline]
        obtain ⟨s1, s2, s3⟩ := indentNewLine_spec (InsertTextAt.breakLine e aWhere (cur.length : Nat))
          (aWhere.mLine + 1) rest w a (pre ++ [cur]) sfx post hsp1 hbl2 hln
        rw [hT1] at s1 s2 s3
        have hfr2 := (logFrame_eq (editFrame_eq (indentNewLine_editFrame
          (InsertTextAt.breakLine e aWhere (cur.length : Nat)) (aWhere.mLine + 1) rest w a)).2)
        rw [s2, s3, autoIndentLines, if_neg (show (10 : Nat) ≠ 13 by decide), if_pos rfl]
        rw [ih rest _ ⟨aWhere.mLine + 1, _⟩ (total + 1) _ (pre ++ [cur]) _ sfx post hfr hrest0 hv
          (by rw [hfr2.2.2.2.1, hT1]) (by rw [hfr2.2.2.2.2.1, hsp1]) s1 hln]
        simp
      · rw [if_neg h10]
        simp only [validFrom] at hvalid
        obtain ⟨tl, rest2, hsplit, htl, hcont, hv⟩ := validFrom_split _ _ hvalid
        subst hsplit
        have hx : lineAt e.mLines aWhere.mLine = cur ++ sfx := by
          rw [hl, hline, lineAt_append_length]
        have hnat : aWhere.mLine.toNat = pre.length := by omega
        have hpos := UTF8CharLength_pos c
        have hlen : UTF8CharLength c = (c :: tl).length := by simp; omega
        have hins := insertChars_spec (c :: tl) rest2 (cur ++ sfx) cur.length
          (by
            intro d hd
            rcases List.mem_cons.mp hd with rfl | hd
            · exact hc0
            · exact (IsUTFSequence_ne d (hcont d hd)).1) (by simp)
        rw [← hlen, htk, hdk] at hins
        have hcons : c :: (tl ++ rest2) = (c :: tl) ++ rest2 := rfl
        rw [hx, hcons, hins]
        simp only []
        have hspec : autoIndentLines T w a cur (c :: tl ++ rest2) sfx
            = autoIndentLines T w (if c = 123 then a + T else a) (cur ++ toLine (c :: tl)) rest2 sfx := by
          rw [List.cons_append, autoIndentLines, if_neg h13, if_neg h10,
            autoIndentLines_cont T w tl _ _ rest2 sfx hcont]
          simp [toLine]
        have hai : (if c = 123 then (a : Int) + (e.mTabSize : Int) else (a : Int))
            = ((if c = 123 then a + T else a : Nat) : Int) := by
          rw [hT]; split_ifs <;> simp
        have hci : ((cur.length + UTF8CharLength c : Nat) : Int)
            = (((cur ++ toLine (c :: tl)).length : Nat) : Int) := by
          rw [hlen]; simp [toLine]
        rw [hspec, hai, hci]
        exact ih rest2 _ ⟨aWhere.mLine, _⟩ total _ pre (cur ++ toLine (c :: tl)) sfx post
          (by simp at hfr; omega) (fun h => hrest0 (by simp [h])) hv hT hsp
          (by simp only []; rw [hnat, hl, set_decomp]) hline

theorem indentStart_nonneg (T : Nat) (l : Line) : 0 ≤ InsertTextAt.indentStart T l := by
  induction l with
  | nil => simp [InsertTextAt.indentStart]
  | cons g rest ih =>
    rw [InsertTextAt.indentStart]
    split_ifs <;> omega

theorem colWalk_spaces (T n : Nat) : ∀ c : Nat,
    colWalk T 0 (List.replicate n ({ mChar := 32 } : Glyph)) c = c + n := by
  induction n with
  | zero => intro c; simp [colWalk]
  | succ n ih =>
    intro c
    rw [List.replicate_succ, colWalk]
    have h1 : UTF8CharLength ({ mChar := 32 } : Glyph).mChar - 1 = 0 := by decide
    rw [h1, ih]
    simp [advanceColumn]
    omega

theorem colWalk_tabs (T n : Nat) (hT : 0 < T) (rest : Line) : ∀ m : Nat,
    colWalk T 0 (List.replicate n ({ mChar := 9 } : Glyph) ++ rest) (m * T)
      = colWalk T 0 rest ((m + n) * T) := by
  induction n with
  | zero => intro m; simp
  | succ n ih =>
    intro m
    rw [List.replicate_succ, List.cons_append, colWalk]
    have h1 : UTF8CharLength ({ mChar := 9 } : Glyph).mChar - 1 = 0 := by decide
    have h2 : advanceColumn T ({ mChar := 9 } : Glyph).mChar (m * T) = (m + 1) * T := by
      simp only [advanceColumn, if_true]
      rw [Nat.mul_div_cancel _ hT]
      ring
    rw [h1, h2, ih]
    congr 1
    ring

/-- The indentation built for the width `a` has the visual width `a`. -/
theorem indentation_width (T a : Nat) (hT : 0 < T) : colWalk T 0 (indentation T a) 0 = a := by
  unfold indentation
  have := colWalk_tabs T (a / T) hT (List.replicate (a % T) ({ mChar := 32 } : Glyph)) 0
  simp only [Nat.zero_mul, Nat.zero_add] at this
  rw [this, colWalk_spaces]
  exact Nat.div_add_mod' a T

/-- C21 (counterexample): with tab size 4, the text "\n}{\nx" inserted with auto-indent at
the end of "ab" (indentation width 0) gives the lines "ab", "}{", "\tx".  The line "\tx"
is indented by 4, while the formula of the claim gives 0 + 4 * 1 - 4 * 1 = 0 for it: the
width was lowered for the line "}{" when it already was 0. -/
theorem C21_counterexample :
    (InsertTextAt (ofLines [[97, 98]]) ⟨0, 2⟩ [10, 125, 123, 10, 120] true).1.mLines
      = [toLine [97, 98], toLine [125, 123], toLine [9, 120]] := by
  decide

/-- C21 (amended): with auto-indent on, tab size `T ≥ 1` and insert-spaces off, inserting
a NUL-free valid UTF-8 text at a position of a line of complete UTF-8 sequences replaces
that line by the lines of `autoIndentLines`: every line created by a `'\n'` starts with
indentation of the running width (tabs, then spaces), which starts as the width `w`
of the leading whitespace of the line (1 per space, `T` per tab), grows by `T` with every
`'{'` inserted and is lowered by `T`, but not below 0 at that moment, for every created
line whose first character that is not whitespace is `'}'`; a created line on which the
text goes on with whitespace gets the width `w`.  The indentation built for a width has
that visual width. -/
theorem C21_auto_indent (e : TextEditor) (p : Coordinates) (t : List Nat)
    (hl0 : 0 ≤ p.mLine) (hl1 : p.mLine < e.mLines.length)
    (hc : Complete (lineAt e.mLines p.mLine)) (hT : 0 < e.mTabSize)
    (hsp : e.mInsertSpaces = false) (h0 : 0 ∉ t) (hv : ValidUTF8 t) :
    (InsertTextAt e p t true).1.mLines
        = e.mLines.take p.mLine.toNat
          ++ autoIndentLines e.mTabSize
              (InsertTextAt.indentStart e.mTabSize (lineAt e.mLines p.mLine)).toNat
              (InsertTextAt.indentStart e.mTabSize (lineAt e.mLines p.mLine)).toNat
              ((lineAt e.mLines p.mLine).take (GetCharacterIndex e p).toNat) t
              ((lineAt e.mLines p.mLine).drop (GetCharacterIndex e p).toNat)
          ++ e.mLines.drop (p.mLine.toNat + 1)
      ∧ ∀ a, colWalk e.mTabSize 0 (indentation e.mTabSize a) 0 = a := by
  refine ⟨?_, fun a => indentation_width e.mTabSize a hT⟩
  obtain ⟨pre, x, post, hl, hlen, hnat⟩ := lines_decomp e.mLines p.mLine hl0 hl1
  have hx : lineAt e.mLines p.mLine = x := by rw [hl, ← hlen, lineAt_append_length]
  have hi := GetCharacterIndex_eq e p hl0 hl1 hc
  rw [hx] at hi
  have hk := idxWalk_le_length e.mTabSize p.mColumn 0 x 0
  have hw := indentStart_nonneg e.mTabSize x
  have htake : e.mLines.take p.mLine.toNat = pre := by rw [hnat, hl, take_decomp]
  have hdrop : e.mLines.drop (p.mLine.toNat + 1) = post := by
    rw [hnat, hl]
    have : pre ++ x :: post = (pre ++ [x]) ++ post := by simp
    rw [this]
    have hl1 : (pre ++ [x]).length = pre.length + 1 := by simp
    rw [← hl1, drop_decomp]
  rw [htake, hdrop, hx, hi, Int.toNat_ofNat]
  unfold InsertTextAt
  simp only [if_true]
  rw [hx, hi]
  have hwc : InsertTextAt.indentStart e.mTabSize x
      = (((InsertTextAt.indentStart e.mTabSize x).toNat : Nat) : Int) := by
    rw [Int.toNat_of_nonneg hw]
  have hkc : ((idxWalk e.mTabSize p.mColumn 0 x 0 : Nat) : Int)
      = (((x.take (idxWalk e.mTabSize p.mColumn 0 x 0)).length : Nat) : Int) := by
    rw [List.length_take, Nat.min_eq_left hk]
  have key := InsertTextAt_loop_indent e.mTabSize (InsertTextAt.indentStart e.mTabSize x).toNat
    t.length t e p 0 (InsertTextAt.indentStart e.mTabSize x).toNat pre
    (x.take (idxWalk e.mTabSize p.mColumn 0 x 0)) (x.drop (idxWalk e.mTabSize p.mColumn 0 x 0)) post
    (le_refl _) h0 hv rfl hsp (by rw [List.take_append_drop]; exact hl) hlen.symm
  rw [← hwc, ← hkc] at key
  exact key

/-- C21 at a concrete input, the example of the claim: inserting "{\nx\n}" at the end of
"\tfoo" with tab size 4 yields the lines "\tfoo{", "\t\tx", "\t}". -/
theorem C21_auto_indent_witness :
    (InsertTextAt (ofLines [[9, 102, 111, 111]]) ⟨0, 7⟩ [123, 10, 120, 10, 125] true).1.mLines
      = [toLine [9, 102, 111, 111, 123], toLine [9, 9, 120], toLine [9, 125]] :=
  ((C21_auto_indent (ofLines [[9, 102, 111, 111]]) ⟨0, 7⟩ [123, 10, 120, 10, 125]
    (by decide) (by decide) (by decide) (by decide) (by decide) (by decide) (by decide)).1).trans
    (by decide)

/-! ### Glyph assignments -/

theorem modifyGlyph_length (line : Line) (i : Nat) (f : Glyph → Glyph) :
    (modifyGlyph line i f).length = line.length := by
  simp [modifyGlyph]

theorem glyphAt_modifyGlyph (line : Line) (i j : Nat) (f : Glyph → Glyph) :
    glyphAt (modifyGlyph line i f) j
      = if i = j ∧ j < line.length then f (glyphAt line j) else glyphAt line j := by
  unfold modifyGlyph glyphAt
  simp only [List.getD_eq_getElem?_getD, List.getElem?_set]
  by_cases hij : i = j
  · subst hij
    by_cases hl : i < line.length
    · simp [hl]
    · simp [hl, List.getElem?_eq_none (not_lt.mp hl)]
  · simp [hij]

theorem glyphAt_modifyGlyph_ne (line : Line) (i j : Nat) (f : Glyph → Glyph) (h : i ≠ j) :
    glyphAt (modifyGlyph line i f) j = glyphAt line j := by
  rw [glyphAt_modifyGlyph, if_neg (fun hh => h hh.1)]

theorem glyphAt_modifyGlyph_self (line : Line) (i : Nat) (f : Glyph → Glyph)
    (h : i < line.length) : glyphAt (modifyGlyph line i f) i = f (glyphAt line i) := by
  rw [glyphAt_modifyGlyph, if_pos ⟨rfl, h⟩]

theorem glyphAt_modifyGlyph_mChar (line : Line) (i j : Nat) (f : Glyph → Glyph)
    (hf : ∀ g, (f g).mChar = g.mChar) :
    (glyphAt (modifyGlyph line i f) j).mChar = (glyphAt line j).mChar := by
  rw [glyphAt_modifyGlyph]; split_ifs
  · exact hf _
  · rfl

theorem glyphAt_eq_getElem (line : Line) (i : Nat) (h : i < line.length) :
    glyphAt line i = line.get ⟨i, h⟩ := by
  simp [glyphAt, List.getD_eq_getElem?_getD, List.getElem?_eq_getElem h]

theorem line_ext (a b : Line) (hl : a.length = b.length)
    (h : ∀ i, i < a.length → glyphAt a i = glyphAt b i) : a = b := by
  apply List.ext_getElem hl
  intro i h1 h2
  have := h i h1
  rw [glyphAt_eq_getElem _ _ h1, glyphAt_eq_getElem _ _ h2] at this
  simpa using this

theorem lineText_modifyGlyph (line : Line) (i : Nat) (f : Glyph → Glyph)
    (hf : ∀ g, (f g).mChar = g.mChar) : lineText (modifyGlyph line i f) = lineText line := by
  unfold lineText
  apply List.ext_getElem (by simp [modifyGlyph_length])
  intro j h1 h2
  simp only [List.length_map, modifyGlyph_length] at h1 h2
  simp only [List.getElem_map]
  have := glyphAt_modifyGlyph_mChar line i j f hf
  rw [glyphAt_eq_getElem _ _ (by rw [modifyGlyph_length]; exact h2),
    glyphAt_eq_getElem _ _ h2] at this
  simpa using this

/-! ### The painting loop of `ColorizeRange` -/

theorem paint_length (color : PaletteIndex) (line : Line) (b n : Nat) :
    (ColorizeRange.paint color line b n).length = line.length := by
  induction n with
  | zero => rfl
  | succ n ih => simp [ColorizeRange.paint, modifyGlyph_length, ih]

theorem glyphAt_paint (color : PaletteIndex) (line : Line) (b n j : Nat) (hj : j < line.length) :
    glyphAt (ColorizeRange.paint color line b n) j
      = if b ≤ j ∧ j < b + n then { glyphAt line j with mColorIndex := color }
        else glyphAt line j := by
  induction n with
  | zero => rw [ColorizeRange.paint, if_neg (by omega)]
  | succ n ih =>
    simp only [ColorizeRange.paint]
    rw [glyphAt_modifyGlyph, paint_length, ih]
    by_cases h1 : b + n = j
    · subst h1
      simp [hj]
    · rw [if_neg (fun hh => h1 hh.1)]
      by_cases h2 : b ≤ j ∧ j < b + n
      · rw [if_pos h2, if_pos ⟨h2.1, by omega⟩]
      · rw [if_neg h2, if_neg (by omega)]

theorem glyphAt_paint_flags (color : PaletteIndex) (line : Line) (b n j : Nat) :
    (glyphAt (ColorizeRange.paint color line b n) j).mPreprocessor = (glyphAt line j).mPreprocessor
      ∧ (glyphAt (ColorizeRange.paint color line b n) j).mChar = (glyphAt line j).mChar := by
  induction n with
  | zero => simp [ColorizeRange.paint]
  | succ n ih =>
    simp only [ColorizeRange.paint]
    rw [glyphAt_modifyGlyph]
    split_ifs
    · exact ih
    · exact ih

/-! ### The identifier block of `ColorizeRange` -/

theorem findFunction_ne_keyword (i : Int) (id : List Nat) (fs : List (List Nat × FunctionData))
    (c : PaletteIndex) (h : ColorizeRange.findFunction i id fs = some c) :
    c = PaletteIndex.UserFunction ∨ c = PaletteIndex.FunctionArgument
      ∨ c = PaletteIndex.LocalVariable := by
  induction fs with
  | nil => simp [ColorizeRange.findFunction] at h
  | cons f rest ih =>
    simp only [ColorizeRange.findFunction] at h
    split_ifs at h
    · left; exact (Option.some.inj h).symm
    · right; left; exact (Option.some.inj h).symm
    · right; right; exact (Option.some.inj h).symm
    · exact ih h
    · exact ih h

theorem findSymbol_ne_keyword (e : TextEditor) (i : Int) (id : List Nat) :
    ColorizeRange.findSymbol e i id ≠ PaletteIndex.Keyword := by
  unfold ColorizeRange.findSymbol
  cases hf : ColorizeRange.findFunction i id e.mACFunctions with
  | some c =>
    rcases findFunction_ne_keyword i id _ c hf with h | h | h <;> simp [h]
  | none =>
    simp only
    split_ifs <;> simp

theorem classify_keyword_iff (e : TextEditor) (i : Int) (token : List Nat)
    (hcs : e.mLanguageDefinition.mCaseSensitive = true) :
    ColorizeRange.classify e i false token = PaletteIndex.Keyword
      ↔ token ∈ e.mLanguageDefinition.mKeywords := by
  unfold ColorizeRange.classify
  simp only [hcs, if_true]
  by_cases hk : token ∈ e.mLanguageDefinition.mKeywords
  · simp [hk]
  · simp only [hk, if_false, iff_false]
    split_ifs
    · simp
    · simp
    · exact findSymbol_ne_keyword e i token

theorem classify_preproc (e : TextEditor) (i : Int) (token : List Nat) :
    ColorizeRange.classify e i true token
      = if (if e.mLanguageDefinition.mCaseSensitive then token else token.map toupper)
            ∈ e.mLanguageDefinition.mPreprocIdentifiers
        then PaletteIndex.PreprocIdentifier else PaletteIndex.Identifier := by
  unfold ColorizeRange.classify
  simp

theorem glyphAt_takeToken (e : TextEditor) (i : Int) (buffer : List Nat) (line : Line)
    (first : Nat) (t : Nat × Nat × PaletteIndex) (j : Nat)
    (hj1 : first + t.1 ≤ j) (hj2 : j < first + t.2.1) (hj3 : j < line.length) :
    (glyphAt (ColorizeRange.takeToken e i buffer line first t).1 j).mColorIndex
      = if t.2.2 = PaletteIndex.Identifier then
          ColorizeRange.classify e i (glyphAt line first).mPreprocessor
            ((buffer.drop (first + t.1)).take (first + t.2.1 - (first + t.1)))
        else t.2.2 := by
  unfold ColorizeRange.takeToken
  simp only
  rw [glyphAt_paint _ _ _ _ _ hj3, if_pos ⟨hj1, by omega⟩]

/-! ### Bounds of the C-style tokenizers -/

theorem spanLength_le (p : Nat → Bool) (s : List Nat) : spanLength p s ≤ s.length := by
  induction s with
  | nil => simp [spanLength]
  | cons c s ih =>
    simp only [spanLength]
    split_ifs
    · simp only [List.length_cons]; omega
    · omega

theorem spanLength_drop_le (p : Nat → Bool) (s : List Nat) (k : Nat) (hk : k ≤ s.length) :
    k + spanLength p (s.drop k) ≤ s.length := by
  have := spanLength_le p (s.drop k)
  rw [List.length_drop] at this
  omega

theorem TokenizeCStyleString_loop_bounds (m : Nat) :
    ∀ (s : List Nat), s.length ≤ m →
      ∀ p n, TokenizeCStyleString.loop s p = some n → p < n ∧ n ≤ p + s.length := by
  induction m with
  | zero =>
    intro s hs p n h
    have : s = [] := List.length_eq_zero.mp (Nat.le_zero.mp hs)
    subst this
    simp [TokenizeCStyleString.loop] at h
  | succ m ih =>
    intro s hs p n h
    match s, hs, h with
    | [], _, h => simp [TokenizeCStyleString.loop] at h
    | [c], _, h =>
      simp only [TokenizeCStyleString.loop] at h
      split_ifs at h
      have := Option.some.inj h
      simp only [List.length_cons, List.length_nil]; omega
    | c :: d :: s, hs, h =>
      simp only [TokenizeCStyleString.loop] at h
      simp only [List.length_cons] at hs ⊢
      split_ifs at h
      · have := Option.some.inj h
        omega
      · have := ih s (by omega) (p + 2) n h
        omega
      · have := ih (d :: s) (by simp only [List.length_cons]; omega) (p + 1) n h
        simp only [List.length_cons] at this; omega

theorem TokenizeCStyleString_bounds (s : List Nat) (n : Nat)
    (h : TokenizeCStyleString s = some n) : 0 < n ∧ n ≤ s.length := by
  cases s with
  | nil => simp [TokenizeCStyleString] at h
  | cons c rest =>
    simp only [TokenizeCStyleString] at h
    split_ifs at h
    have := TokenizeCStyleString_loop_bounds rest.length rest le_rfl 1 n h
    simp only [List.length_cons]; omega

theorem TokenizeCStyleCharacterLiteral_bounds (s : List Nat) (n : Nat)
    (h : TokenizeCStyleCharacterLiteral s = some n) : 0 < n ∧ n ≤ s.length := by
  unfold TokenizeCStyleCharacterLiteral at h
  simp only at h
  split_ifs at h <;> (have hinj := Option.some.inj h; omega)

theorem TokenizeCStyleIdentifier_bounds (s : List Nat) (n : Nat)
    (h : TokenizeCStyleIdentifier s = some n) : 0 < n ∧ n ≤ s.length := by
  cases s with
  | nil => simp [TokenizeCStyleIdentifier] at h
  | cons c rest =>
    simp only [TokenizeCStyleIdentifier] at h
    split_ifs at h
    have := Option.some.inj h
    have := spanLength_le isIdentifierChar rest
    simp only [List.length_cons]; omega

theorem TokenizeCStyleNumber_body_bounds (s : List Nat) (p : Nat) (hp : p ≤ s.length) :
    p ≤ (TokenizeCStyleNumber.body s p).1 ∧ (TokenizeCStyleNumber.body s p).1 ≤ s.length := by
  unfold TokenizeCStyleNumber.body
  split_ifs with h1
  · have := spanLength_drop_le isDigit s (p + 1) (by omega); constructor <;> simp only <;> omega
  · have := spanLength_drop_le isHexDigit s (p + 1) (by omega); constructor <;> simp only <;> omega
  · have := spanLength_drop_le isBinaryDigit s (p + 1) (by omega); constructor <;> simp only <;> omega
  · exact ⟨le_rfl, hp⟩
  · exact ⟨le_rfl, hp⟩

theorem TokenizeCStyleNumber_exponent_bounds (s : List Nat) (p : Nat) (hp : p ≤ s.length)
    (q : Nat) (b : Bool) (h : TokenizeCStyleNumber.exponent s p = some (q, b)) :
    p ≤ q ∧ q ≤ s.length := by
  unfold TokenizeCStyleNumber.exponent at h
  simp only at h
  split_ifs at h with h1 h2 h3 h4
  · have := spanLength_drop_le isDigit s (p + 1 + 1) (by omega)
    have := (Prod.mk.inj (Option.some.inj h)).1
    omega
  · have := spanLength_drop_le isDigit s (p + 1) (by omega)
    have := (Prod.mk.inj (Option.some.inj h)).1
    omega
  · have := (Prod.mk.inj (Option.some.inj h)).1
    omega

theorem TokenizeCStyleNumber_tail_bounds (s : List Nat) (b : Nat × Bool × Bool)
    (hb : b.1 ≤ s.length) (n : Nat) (h : TokenizeCStyleNumber.tail s b = some n) :
    b.1 ≤ n ∧ n ≤ s.length := by
  unfold TokenizeCStyleNumber.tail at h
  split_ifs at h with h1
  · have := spanLength_drop_le isIntegerSuffix s b.1 hb
    have := Option.some.inj h
    omega
  · cases he : TokenizeCStyleNumber.exponent s b.1 with
    | none => rw [he] at h; simp at h
    | some r =>
      obtain ⟨q, isExp⟩ := r
      rw [he] at h
      have hq := TokenizeCStyleNumber_exponent_bounds s b.1 hb q isExp he
      simp only at h
      by_cases h2 : q < s.length ∧ s.getD q 0 = 102
      · rw [if_pos h2] at h
        have := spanLength_drop_le isIntegerSuffix s (q + 1) (by omega)
        split_ifs at h <;> (have hinj := Option.some.inj h; omega)
      · rw [if_neg h2] at h
        have := spanLength_drop_le isIntegerSuffix s q (by omega)
        split_ifs at h <;> (have hinj := Option.some.inj h; omega)

theorem TokenizeCStyleNumber_bounds (s : List Nat) (n : Nat)
    (h : TokenizeCStyleNumber s = some n) : 0 < n ∧ n ≤ s.length := by
  cases s with
  | nil => simp [TokenizeCStyleNumber, isDigit] at h
  | cons c rest =>
    unfold TokenizeCStyleNumber at h
    simp only at h
    split_ifs at h
    have h1 := spanLength_drop_le isDigit (c :: rest) 1 (by simp)
    have h2 := TokenizeCStyleNumber_body_bounds (c :: rest) _ h1
    have h3 := TokenizeCStyleNumber_tail_bounds (c :: rest) _ h2.2 n h
    omega

theorem TokenizeCStylePunctuation_bounds (s : List Nat) (n : Nat)
    (h : TokenizeCStylePunctuation s = some n) : 0 < n ∧ n ≤ s.length := by
  cases s with
  | nil => simp [TokenizeCStylePunctuation] at h
  | cons c rest =>
    unfold TokenizeCStylePunctuation at h
    split_ifs at h
    have := Option.some.inj h
    simp only [List.length_cons]; omega

theorem TokenizeCStyle_bounds (s : List Nat) (hs : s ≠ []) (t : Nat × Nat × PaletteIndex)
    (h : TokenizeCStyle s = some t) : t.1 ≤ t.2.1 ∧ 0 < t.2.1 ∧ t.2.1 ≤ s.length := by
  have hlen : 0 < s.length := List.length_pos.mpr hs
  have hk := spanLength_le (fun c => isascii c && isblank c) s
  unfold TokenizeCStyle at h
  simp only at h
  split_ifs at h with h0
  · have := Option.some.inj h
    subst this
    simp only
    omega
  · have hd : (s.drop (spanLength (fun c => isascii c && isblank c) s)).length
        = s.length - spanLength (fun c => isascii c && isblank c) s := List.length_drop _ _
    cases h1 : TokenizeCStyleString (s.drop (spanLength (fun c => isascii c && isblank c) s)) with
    | some n =>
      rw [h1] at h
      have := TokenizeCStyleString_bounds _ n h1
      have := Option.some.inj h; subst this; simp only; omega
    | none =>
    rw [h1] at h
    simp only at h
    cases h2 : TokenizeCStyleCharacterLiteral
        (s.drop (spanLength (fun c => isascii c && isblank c) s)) with
    | some n =>
      rw [h2] at h
      have := TokenizeCStyleCharacterLiteral_bounds _ n h2
      have := Option.some.inj h; subst this; simp only; omega
    | none =>
    rw [h2] at h
    simp only at h
    cases h3 : TokenizeCStyleIdentifier
        (s.drop (spanLength (fun c => isascii c && isblank c) s)) with
    | some n =>
      rw [h3] at h
      have := TokenizeCStyleIdentifier_bounds _ n h3
      have := Option.some.inj h; subst this; simp only; omega
    | none =>
    rw [h3] at h
    simp only at h
    cases h4 : TokenizeCStyleNumber
        (s.drop (spanLength (fun c => isascii c && isblank c) s)) with
    | some n =>
      rw [h4] at h
      have := TokenizeCStyleNumber_bounds _ n h4
      have := Option.some.inj h; subst this; simp only; omega
    | none =>
    rw [h4] at h
    simp only at h
    cases h5 : TokenizeCStylePunctuation
        (s.drop (spanLength (fun c => isascii c && isblank c) s)) with
    | some n =>
      rw [h5] at h
      have := TokenizeCStylePunctuation_bounds _ n h5
      have := Option.some.inj h; subst this; simp only; omega
    | none =>
      rw [h5] at h
      simp at h

/-! ### The token loop of `ColorizeRange` -/

theorem firstMatch_bounds (ps : List (Regex × PaletteIndex)) (s : List Nat)
    (t : Nat × Nat × PaletteIndex) (h : ColorizeRange.firstMatch ps s = some t) :
    t.1 = 0 ∧ t.2.1 ≤ s.length ∧ ∃ p ∈ ps, p.1.run s = some t.2.1 := by
  induction ps with
  | nil => simp [ColorizeRange.firstMatch] at h
  | cons p rest ih =>
    simp only [ColorizeRange.firstMatch] at h
    cases hr : p.1.run s with
    | some n =>
      rw [hr] at h
      have := Option.some.inj h; subst this
      exact ⟨rfl, p.1.bound s n hr, p, List.mem_cons_self _ _, hr⟩
    | none =>
      rw [hr] at h
      obtain ⟨h1, h2, q, hq, hq2⟩ := ih h
      exact ⟨h1, h2, q, List.mem_cons_of_mem _ hq, hq2⟩

theorem nextToken_bounds (e : TextEditor) (s : List Nat) (hs : s ≠ [])
    (hpos : ∀ p ∈ e.mRegexList, ∀ r n, p.1.run r = some n → 0 < n)
    (t : Nat × Nat × PaletteIndex) (h : ColorizeRange.nextToken e s = some t) :
    t.1 ≤ t.2.1 ∧ 0 < t.2.1 ∧ t.2.1 ≤ s.length := by
  have hre : ColorizeRange.firstMatch e.mRegexList s = some t →
      t.1 ≤ t.2.1 ∧ 0 < t.2.1 ∧ t.2.1 ≤ s.length := by
    intro hf
    obtain ⟨h1, h2, p, hp, hp2⟩ := firstMatch_bounds _ _ _ hf
    exact ⟨by omega, hpos p hp s _ hp2, h2⟩
  unfold ColorizeRange.nextToken at h
  cases ht : e.mLanguageDefinition.mTokenize with
  | none => rw [ht] at h; exact hre h
  | some cb =>
    rw [ht] at h
    simp only at h
    cases cb
    cases hr : TokenizeCallback.run TokenizeCallback.CStyle s with
    | some r =>
      rw [hr] at h
      have := Option.some.inj h; subst this
      exact TokenizeCStyle_bounds s hs _ hr
    | none =>
      rw [hr] at h
      exact hre h

theorem tokenLoop_position (e : TextEditor) (i : Int) (buffer : List Nat)
    (hpos : ∀ p ∈ e.mRegexList, ∀ r n, p.1.run r = some n → 0 < n) :
    ∀ (fuel : Nat) (line : Line) (first : Nat), first ≤ buffer.length →
      buffer.length - first ≤ fuel →
      (ColorizeRange.tokenLoop e i buffer fuel line first).2 = buffer.length := by
  intro fuel
  induction fuel with
  | zero =>
    intro line first h1 h2
    simp only [ColorizeRange.tokenLoop]; omega
  | succ fuel ih =>
    intro line first h1 h2
    simp only [ColorizeRange.tokenLoop]
    by_cases hf : first = buffer.length
    · simp [hf]
    · rw [if_pos hf]
      cases hn : ColorizeRange.nextToken e (buffer.drop first) with
      | none => exact ih _ _ (by omega) (by omega)
      | some t =>
        simp only
        have hne : buffer.drop first ≠ [] := by
          intro h0
          have := congrArg List.length h0
          simp only [List.length_drop, List.length_nil] at this
          omega
        have hb := nextToken_bounds e _ hne hpos t hn
        rw [List.length_drop] at hb
        have h2nd : (ColorizeRange.takeToken e i buffer line first t).2 = first + t.2.1 := rfl
        rw [h2nd]
        exact ih _ _ (by omega) (by omega)

theorem tokenLoop_before (e : TextEditor) (i : Int) (buffer : List Nat) :
    ∀ (fuel : Nat) (line : Line) (first j : Nat), j < first →
      glyphAt (ColorizeRange.tokenLoop e i buffer fuel line first).1 j = glyphAt line j := by
  intro fuel
  induction fuel with
  | zero => intro line first j _; rfl
  | succ fuel ih =>
    intro line first j hj
    simp only [ColorizeRange.tokenLoop]
    split_ifs with hf
    · cases hn : ColorizeRange.nextToken e (buffer.drop first) with
      | none => exact ih _ _ _ (by omega)
      | some t =>
        simp only
        have h2nd : (ColorizeRange.takeToken e i buffer line first t).2 = first + t.2.1 := rfl
        rw [ih _ _ _ (by rw [h2nd]; omega)]
        unfold ColorizeRange.takeToken
        simp only
        by_cases hl : j < line.length
        · rw [glyphAt_paint _ _ _ _ _ hl, if_neg (by omega)]
        · have h1 : ∀ l : Line, ¬ j < l.length → glyphAt l j = default := by
            intro l hl2
            simp [glyphAt, List.getD_eq_getElem?_getD, List.getElem?_eq_none (not_lt.mp hl2)]
          rw [h1 _ hl, h1 _ (by rw [paint_length]; exact hl)]
    · rfl

/-- C26: in a case-sensitive language, an identifier token found at a scan position whose
glyph is outside preprocessor text is painted `Keyword` exactly when the whole token text
is in the keyword set; with the keyword set `{"if"}`, empty identifier tables, no program
symbols and the C-style tokenizer, `ColorizeRange` classifies every glyph of the line
"if" as `Keyword` and every glyph of the line "ifx" as `Identifier`. -/
theorem C26_keyword_whole_token (e : TextEditor) (i : Int) (line : Line) (first : Nat)
    (t : Nat × Nat × PaletteIndex) (j : Nat)
    (hcs : e.mLanguageDefinition.mCaseSensitive = true)
    (ht : t.2.2 = PaletteIndex.Identifier)
    (hpre : (glyphAt line first).mPreprocessor = false)
    (hj1 : first + t.1 ≤ j) (hj2 : j < first + t.2.1) (hj3 : j < line.length) :
    ((glyphAt (ColorizeRange.takeToken e i (lineText line) line first t).1 j).mColorIndex
          = PaletteIndex.Keyword
        ↔ ((lineText line).drop (first + t.1)).take (first + t.2.1 - (first + t.1))
            ∈ e.mLanguageDefinition.mKeywords)
      ∧ (ColorizeRange (withLanguage ifLanguage [[105, 102]]) 0 1).mLines
          = [[{ mChar := 105, mColorIndex := PaletteIndex.Keyword },
              { mChar := 102, mColorIndex := PaletteIndex.Keyword }]]
      ∧ (ColorizeRange (withLanguage ifLanguage [[105, 102, 120]]) 0 1).mLines
          = [[{ mChar := 105, mColorIndex := PaletteIndex.Identifier },
              { mChar := 102, mColorIndex := PaletteIndex.Identifier },
              { mChar := 120, mColorIndex := PaletteIndex.Identifier }]] := by
  refine ⟨?_, by decide, by decide⟩
  rw [glyphAt_takeToken e i _ line first t j hj1 hj2 hj3, if_pos ht, hpre]
  exact classify_keyword_iff e i _ hcs

theorem C26_keyword_whole_token_witness :
    (glyphAt (ColorizeRange.takeToken (withLanguage ifLanguage [[105, 102]]) 0
        (lineText (toLine [105, 102])) (toLine [105, 102]) 0
        (0, 2, PaletteIndex.Identifier)).1 1).mColorIndex = PaletteIndex.Keyword :=
  (C26_keyword_whole_token (withLanguage ifLanguage [[105, 102]]) 0
    (toLine [105, 102]) 0 (0, 2, PaletteIndex.Identifier) 1
    (by decide) (by decide) (by decide) (by decide) (by decide) (by decide)).1.mpr (by decide)

/-- The identifier block of `ColorizeRange` reads the preprocessor flag of the glyph at
the scan position: when that flag is set, the token is painted `PreprocIdentifier` if its
text (upper-cased in a case-insensitive language) is in the preprocessor-identifier table
and `Identifier` otherwise, whatever the keyword, identifier and program-symbol tables
contain. -/
theorem takeToken_preprocessor_flag (e : TextEditor) (i : Int) (line : Line) (first : Nat)
    (t : Nat × Nat × PaletteIndex) (j : Nat)
    (ht : t.2.2 = PaletteIndex.Identifier)
    (hpre : (glyphAt line first).mPreprocessor = true)
    (hj1 : first + t.1 ≤ j) (hj2 : j < first + t.2.1) (hj3 : j < line.length) :
    (glyphAt (ColorizeRange.takeToken e i (lineText line) line first t).1 j).mColorIndex
      = if (if e.mLanguageDefinition.mCaseSensitive then
              ((lineText line).drop (first + t.1)).take (first + t.2.1 - (first + t.1))
            else (((lineText line).drop (first + t.1)).take
              (first + t.2.1 - (first + t.1))).map toupper)
            ∈ e.mLanguageDefinition.mPreprocIdentifiers
        then PaletteIndex.PreprocIdentifier else PaletteIndex.Identifier := by
  rw [glyphAt_takeToken e i _ line first t j hj1 hj2 hj3, if_pos ht, hpre]
  exact classify_preproc e i _

/-- C27 (evaluation of the code): in a C-like language with the keyword `if`, the
document `#\xC3 if` (the byte 0xC3 followed by a blank) is set with `SetText` and
colorized with `ColorizeInternal`.  The comment scan flags `#`, the byte 0xC3 and both
glyphs of `if` as preprocessor text and steps over the blank, whose flag stays clear;
`ColorizeRange` finds the identifier `if` from the scan position at the blank, reads the
flag of the blank and paints the token, every glyph of which is flagged, as `Keyword`.
In the document `# if` the same token stays `Identifier`. -/
theorem C27_flagged_token_keyword :
    (ColorizeInternal
        (SetText { mLanguageDefinition := ifKeywordLanguage } [35, 195, 32, 105, 102])).mLines
        = [[{ mChar := 35, mPreprocessor := true },
            { mChar := 195, mPreprocessor := true },
            { mChar := 32, mPreprocessor := false },
            { mChar := 105, mColorIndex := PaletteIndex.Keyword, mPreprocessor := true },
            { mChar := 102, mColorIndex := PaletteIndex.Keyword, mPreprocessor := true }]]
      ∧ (ColorizeInternal
          (SetText { mLanguageDefinition := ifKeywordLanguage } [35, 32, 105, 102])).mLines
        = [[{ mChar := 35, mPreprocessor := true },
            { mChar := 32, mPreprocessor := true },
            { mChar := 105, mColorIndex := PaletteIndex.Identifier, mPreprocessor := true },
            { mChar := 102, mColorIndex := PaletteIndex.Identifier, mPreprocessor := true }]] := by
  decide

/-- C28: the token loop of `ColorizeRange` makes forward progress.  When neither the
tokenizer nor a pattern matches at the scan position, the iteration leaves the line as it
is, so the byte keeps the classification it was reset to, and goes on one byte further;
a token reported by the built-in C/C++ tokenizer ends strictly after the scan position
and not after the end of the line; and as long as no pattern matches the empty string
the loop started with (line length) iterations ends at the end of the line. -/
theorem C28_forward_progress (e : TextEditor) (i : Int) (line : Line)
    (hpos : ∀ p ∈ e.mRegexList, ∀ r n, p.1.run r = some n → 0 < n) :
    (∀ (fuel : Nat) (l : Line) (first : Nat), first < (lineText line).length →
        ColorizeRange.nextToken e ((lineText line).drop first) = none →
        ColorizeRange.tokenLoop e i (lineText line) (fuel + 1) l first
            = ColorizeRange.tokenLoop e i (lineText line) fuel l (first + 1)
          ∧ glyphAt (ColorizeRange.tokenLoop e i (lineText line) (fuel + 1) l first).1 first
            = glyphAt l first)
      ∧ (∀ (s : List Nat) (t : Nat × Nat × PaletteIndex), s ≠ [] → TokenizeCStyle s = some t →
          t.1 ≤ t.2.1 ∧ 0 < t.2.1 ∧ t.2.1 ≤ s.length)
      ∧ (ColorizeRange.tokenLoop e i (lineText line) line.length
          (line.map (fun g => { g with mColorIndex := PaletteIndex.Default })) 0).2
          = line.length := by
  refine ⟨?_, fun s t hs h => TokenizeCStyle_bounds s hs t h, ?_⟩
  · intro fuel l first hf hn
    have h1 : ColorizeRange.tokenLoop e i (lineText line) (fuel + 1) l first
        = ColorizeRange.tokenLoop e i (lineText line) fuel l (first + 1) := by
      rw [ColorizeRange.tokenLoop, if_pos (by omega), hn]
    exact ⟨h1, by rw [h1]; exact tokenLoop_before e i _ fuel l (first + 1) first (by omega)⟩
  · have hl : (lineText line).length = line.length := by simp [lineText]
    have := tokenLoop_position e i (lineText line) hpos line.length
      (line.map (fun g => { g with mColorIndex := PaletteIndex.Default })) 0 (by omega)
      (by omega)
    rw [this, hl]

theorem C28_forward_progress_witness :
    (ColorizeRange.tokenLoop (withLanguage ifLanguage [[105, 102, 32, 64]]) 0
        (lineText (toLine [105, 102, 32, 64])) (toLine [105, 102, 32, 64]).length
        ((toLine [105, 102, 32, 64]).map
          (fun g => { g with mColorIndex := PaletteIndex.Default })) 0).2 = 4 :=
  (C28_forward_progress (withLanguage ifLanguage [[105, 102, 32, 64]]) 0
    (toLine [105, 102, 32, 64]) (fun _ hp => absurd hp (List.not_mem_nil _))).2.2

/-! ### The line loop of `ColorizeRange` and the range step of `ColorizeInternal` -/

theorem nextToken_congr (e1 e2 : TextEditor) (h : colorFrame e1 = colorFrame e2) (s : List Nat) :
    ColorizeRange.nextToken e1 s = ColorizeRange.nextToken e2 s := by
  simp only [colorFrame, Prod.mk.injEq] at h
  obtain ⟨h1, h2, -⟩ := h
  unfold ColorizeRange.nextToken
  rw [h1, h2]

theorem classify_congr (e1 e2 : TextEditor) (h : colorFrame e1 = colorFrame e2) (i : Int)
    (b : Bool) (token : List Nat) :
    ColorizeRange.classify e1 i b token = ColorizeRange.classify e2 i b token := by
  simp only [colorFrame, Prod.mk.injEq] at h
  obtain ⟨h1, h2, h3, h4, h5, h6⟩ := h
  unfold ColorizeRange.classify ColorizeRange.findSymbol
  rw [h1, h3, h4, h5, h6]

theorem takeToken_congr (e1 e2 : TextEditor) (h : colorFrame e1 = colorFrame e2) (i : Int)
    (buffer : List Nat) (line : Line) (first : Nat) (t : Nat × Nat × PaletteIndex) :
    ColorizeRange.takeToken e1 i buffer line first t
      = ColorizeRange.takeToken e2 i buffer line first t := by
  unfold ColorizeRange.takeToken
  simp only [classify_congr e1 e2 h]

theorem tokenLoop_congr (e1 e2 : TextEditor) (h : colorFrame e1 = colorFrame e2) (i : Int)
    (buffer : List Nat) :
    ∀ (fuel : Nat) (line : Line) (first : Nat),
      ColorizeRange.tokenLoop e1 i buffer fuel line first
        = ColorizeRange.tokenLoop e2 i buffer fuel line first := by
  intro fuel
  induction fuel with
  | zero => intro line first; rfl
  | succ fuel ih =>
    intro line first
    simp only [ColorizeRange.tokenLoop, nextToken_congr e1 e2 h, takeToken_congr e1 e2 h, ih]

theorem colorLine_congr (e1 e2 : TextEditor) (h : colorFrame e1 = colorFrame e2) (i : Int)
    (line : Line) : ColorizeRange.colorLine e1 i line = ColorizeRange.colorLine e2 i line := by
  unfold ColorizeRange.colorLine
  rw [tokenLoop_congr e1 e2 h]

theorem colorLine_nil (e : TextEditor) (i : Int) : ColorizeRange.colorLine e i [] = [] := rfl

theorem ColorizeRange_loop_spec (e : TextEditor) (endLine : Int) :
    ∀ (fuel : Nat) (i : Int) (lines : Lines), 0 ≤ i → endLine ≤ lines.length →
      (endLine - i).toNat ≤ fuel →
      (ColorizeRange.loop e endLine fuel i lines).length = lines.length
        ∧ ∀ j : Nat, (ColorizeRange.loop e endLine fuel i lines).getD j []
            = if i ≤ (j : Int) ∧ (j : Int) < endLine then
                ColorizeRange.colorLine e j (lines.getD j [])
              else lines.getD j [] := by
  intro fuel
  induction fuel with
  | zero =>
    intro i lines h0 h1 h2
    refine ⟨rfl, fun j => ?_⟩
    rw [ColorizeRange.loop, if_neg (by omega)]
  | succ fuel ih =>
    intro i lines h0 h1 h2
    rw [ColorizeRange.loop]
    by_cases hi : i < endLine
    · rw [if_pos hi]
      have hiN : i.toNat < lines.length := by omega
      have hcast : ((i.toNat : Nat) : Int) = i := Int.toNat_of_nonneg h0
      by_cases hemp : i < 0 ∨ lineAt lines i = []
      · rw [if_pos hemp]
        have hemp2 : lines.getD i.toNat [] = [] := by
          rcases hemp with h | h
          · omega
          · exact h
        obtain ⟨hl, hg⟩ := ih (i + 1) lines (by omega) h1 (by omega)
        refine ⟨hl, fun j => ?_⟩
        rw [hg j]
        by_cases hj : (j : Int) = i
        · have hj2 : j = i.toNat := by omega
          rw [if_neg (by omega), if_pos (by omega), hj2, hemp2, colorLine_nil]
        · by_cases hr : i + 1 ≤ (j : Int) ∧ (j : Int) < endLine
          · rw [if_pos hr, if_pos (by omega)]
          · rw [if_neg hr, if_neg (by omega)]
      · rw [if_neg hemp]
        obtain ⟨hl, hg⟩ := ih (i + 1)
          (lines.set i.toNat (ColorizeRange.colorLine e i (lineAt lines i)))
          (by omega) (by rw [List.length_set]; exact h1) (by omega)
        rw [List.length_set] at hl
        refine ⟨hl, fun j => ?_⟩
        rw [hg j]
        by_cases hj : (j : Int) = i
        · have hj2 : i.toNat = j := by omega
          rw [if_neg (by omega : ¬ (i + 1 ≤ (j : Int) ∧ (j : Int) < endLine)),
            if_pos (by omega : i ≤ (j : Int) ∧ (j : Int) < endLine)]
          subst hj2
          simp [List.getD_eq_getElem?_getD, List.getElem?_set, hiN, lineAt, hcast]
        · have hj2 : ¬ i.toNat = j := by omega
          have hset : (lines.set i.toNat (ColorizeRange.colorLine e i (lineAt lines i))).getD j []
              = lines.getD j [] := by
            simp [List.getD_eq_getElem?_getD, List.getElem?_set, hj2]
          rw [hset]
          by_cases hr : i + 1 ≤ (j : Int) ∧ (j : Int) < endLine
          · rw [if_pos hr, if_pos (by omega)]
          · rw [if_neg hr, if_neg (by omega)]
    · rw [if_neg hi]
      refine ⟨rfl, fun j => ?_⟩
      rw [if_neg (by omega)]

theorem ColorizeRange_spec (e : TextEditor) (a b : Int) (hne : e.mLines ≠ [])
    (hen : e.mColorizerEnabled = true) (h0 : 0 ≤ a) :
    (ColorizeRange e a b).mLines.length = e.mLines.length
      ∧ (∀ j : Nat, (ColorizeRange e a b).mLines.getD j []
          = if a ≤ (j : Int) ∧ (j : Int) < b then ColorizeRange.colorLine e j (e.mLines.getD j [])
            else e.mLines.getD j [])
      ∧ (ColorizeRange e a b).mColorRangeMin = e.mColorRangeMin
      ∧ (ColorizeRange e a b).mColorRangeMax = e.mColorRangeMax
      ∧ (ColorizeRange e a b).mCheckComments = e.mCheckComments
      ∧ (ColorizeRange e a b).mColorizerEnabled = e.mColorizerEnabled
      ∧ colorFrame (ColorizeRange e a b) = colorFrame e := by
  unfold ColorizeRange
  rw [if_neg (by simp [hne, hen])]
  obtain ⟨hl, hg⟩ := ColorizeRange_loop_spec e (max 0 (min (e.mLines.length : Int) b))
    (max 0 (min (e.mLines.length : Int) b) - a).toNat a e.mLines h0 (by omega) le_rfl
  refine ⟨hl, fun j => ?_, rfl, rfl, rfl, rfl, rfl⟩
  show (ColorizeRange.loop e (max 0 (min (e.mLines.length : Int) b))
    (max 0 (min (e.mLines.length : Int) b) - a).toNat a e.mLines).getD j [] = _
  rw [hg j]
  by_cases hj : j < e.mLines.length
  · by_cases hr : a ≤ (j : Int) ∧ (j : Int) < b
    · rw [if_pos hr, if_pos (by omega)]
    · rw [if_neg hr, if_neg (by omega)]
  · have hd : e.mLines.getD j [] = [] := by
      simp [List.getD_eq_getElem?_getD, List.getElem?_eq_none (not_lt.mp hj)]
    rw [hd, colorLine_nil]
    simp

theorem checkComments_length_aux (lang : LanguageDefinition) (endLine : Nat) :
    ∀ (fuel : Nat) (lines : Lines) (s : ColorizeInternal.ScanState),
      (ColorizeInternal.scan lang endLine fuel lines s).length = lines.length := by
  intro fuel
  induction fuel with
  | zero => intro lines s; rfl
  | succ fuel ih =>
    intro lines s
    rw [ColorizeInternal.scan]
    split_ifs
    · rw [ih]
      unfold ColorizeInternal.scanStep
      simp only
      split_ifs
      · rfl
      · simp
    · rfl

theorem checkComments_length (lang : LanguageDefinition) (lines : Lines) :
    (ColorizeInternal.checkComments lang lines).length = lines.length :=
  checkComments_length_aux lang _ _ _ _

theorem scannedLines_length (e : TextEditor) : (scannedLines e).length = e.mLines.length := by
  unfold scannedLines
  split_ifs
  · exact checkComments_length _ _
  · rfl

theorem lineBudget_pos (e : TextEditor) : 0 < lineBudget e := by
  unfold lineBudget; split_ifs <;> omega

theorem ColorizeInternal_spec (e : TextEditor) (hne : e.mLines ≠ [])
    (hen : e.mColorizerEnabled = true) (h0 : 0 ≤ e.mColorRangeMin)
    (hlt : e.mColorRangeMin < e.mColorRangeMax) :
    (ColorizeInternal e).mLines.length = e.mLines.length
      ∧ (∀ j : Nat, (ColorizeInternal e).mLines.getD j []
          = if e.mColorRangeMin ≤ (j : Int)
                ∧ (j : Int) < min (e.mColorRangeMin + lineBudget e) e.mColorRangeMax then
              ColorizeRange.colorLine e j ((scannedLines e).getD j [])
            else (scannedLines e).getD j [])
      ∧ (e.mColorRangeMin + lineBudget e < e.mColorRangeMax →
          (ColorizeInternal e).mColorRangeMin = e.mColorRangeMin + lineBudget e
            ∧ (ColorizeInternal e).mColorRangeMax = e.mColorRangeMax)
      ∧ (e.mColorRangeMax ≤ e.mColorRangeMin + lineBudget e →
          (ColorizeInternal e).mColorRangeMin = 2147483647
            ∧ (ColorizeInternal e).mColorRangeMax = 0)
      ∧ (ColorizeInternal e).mCheckComments = false
      ∧ (ColorizeInternal e).mColorizerEnabled = true
      ∧ colorFrame (ColorizeInternal e) = colorFrame e := by
  have key : ∀ e1 : TextEditor, e1.mLines = scannedLines e → e1.mColorizerEnabled = true →
      e1.mColorRangeMin = e.mColorRangeMin → e1.mColorRangeMax = e.mColorRangeMax →
      colorFrame e1 = colorFrame e → lineBudget e1 = lineBudget e →
      (ColorizeInternal.rangeStep e1).mLines.length = e.mLines.length
      ∧ (∀ j : Nat, (ColorizeInternal.rangeStep e1).mLines.getD j []
          = if e.mColorRangeMin ≤ (j : Int)
                ∧ (j : Int) < min (e.mColorRangeMin + lineBudget e) e.mColorRangeMax then
              ColorizeRange.colorLine e j ((scannedLines e).getD j [])
            else (scannedLines e).getD j [])
      ∧ (e.mColorRangeMin + lineBudget e < e.mColorRangeMax →
          (ColorizeInternal.rangeStep e1).mColorRangeMin = e.mColorRangeMin + lineBudget e
            ∧ (ColorizeInternal.rangeStep e1).mColorRangeMax = e.mColorRangeMax)
      ∧ (e.mColorRangeMax ≤ e.mColorRangeMin + lineBudget e →
          (ColorizeInternal.rangeStep e1).mColorRangeMin = 2147483647
            ∧ (ColorizeInternal.rangeStep e1).mColorRangeMax = 0)
      ∧ (ColorizeInternal.rangeStep e1).mCheckComments = e1.mCheckComments
      ∧ (ColorizeInternal.rangeStep e1).mColorizerEnabled = true
      ∧ colorFrame (ColorizeInternal.rangeStep e1) = colorFrame e := by
    intro e1 hl1 hen1 hmin hmax hfr hbud
    have hne1 : e1.mLines ≠ [] := by
      intro h
      have := scannedLines_length e
      rw [← hl1, h] at this
      exact hne (List.length_eq_zero.mp this.symm)
    have hinc : (if e1.mLanguageDefinition.mTokenize = none then (10 : Int) else 10000)
        = ((lineBudget e : Nat) : Int) := by
      rw [← hbud]; unfold lineBudget; split_ifs <;> rfl
    obtain ⟨r1, r2, r3, r4, r5, r6, r7⟩ := ColorizeRange_spec e1 e1.mColorRangeMin
      (min (e1.mColorRangeMin + (if e1.mLanguageDefinition.mTokenize = none then (10 : Int)
        else 10000)) e1.mColorRangeMax) hne1 hen1 (by omega)
    rw [hinc, hmin, hmax] at r1 r2 r3 r4 r5 r6 r7
    unfold ColorizeInternal.rangeStep
    rw [if_pos (by omega)]
    simp only [hinc, hmin, hmax]
    by_cases hdone : e.mColorRangeMin + lineBudget e < e.mColorRangeMax
    · have hm : min (e.mColorRangeMin + (lineBudget e : Int)) e.mColorRangeMax
          = e.mColorRangeMin + lineBudget e := by omega
      rw [if_neg (by rw [r4, hm]; omega)]
      refine ⟨by rw [r1, hl1, scannedLines_length], fun j => ?_, fun _ => ⟨hm, r4⟩,
        fun h => absurd hdone (by omega), r5, by rw [r6, hen1], by rw [← hfr, ← r7]; rfl⟩
      show (ColorizeRange e1 _ _).mLines.getD j [] = _
      rw [r2 j, hl1, colorLine_congr e1 e hfr]
    · have hm : min (e.mColorRangeMin + (lineBudget e : Int)) e.mColorRangeMax
          = e.mColorRangeMax := by omega
      rw [if_pos (by rw [r4]; exact hm.symm)]
      refine ⟨by rw [r1, hl1, scannedLines_length], fun j => ?_, fun h => absurd h hdone,
        fun _ => ⟨rfl, rfl⟩, r5, by rw [r6, hen1], by rw [← hfr, ← r7]; rfl⟩
      show (ColorizeRange e1 _ _).mLines.getD j [] = _
      rw [r2 j, hl1, colorLine_congr e1 e hfr]
  unfold ColorizeInternal
  rw [if_neg (by simp [hne, hen])]
  by_cases hcc : e.mCheckComments = true
  · rw [if_pos hcc]
    obtain ⟨k1, k2, k3, k4, k5, k6, k7⟩ := key
      { e with
        mLines := ColorizeInternal.checkComments e.mLanguageDefinition e.mLines
        mCheckComments := false }
      (by simp [scannedLines, hcc]) hen rfl rfl rfl rfl
    exact ⟨k1, k2, k3, k4, k5, k6, k7⟩
  · rw [if_neg hcc]
    obtain ⟨k1, k2, k3, k4, k5, k6, k7⟩ := key e (by simp [scannedLines, hcc]) hen rfl rfl rfl rfl
    exact ⟨k1, k2, k3, k4, by rw [k5]; simpa using hcc, k6, k7⟩

theorem lineBudget_congr (e1 e2 : TextEditor) (h : colorFrame e1 = colorFrame e2) :
    lineBudget e1 = lineBudget e2 := by
  simp only [colorFrame, Prod.mk.injEq] at h
  unfold lineBudget
  rw [h.1]

theorem ColorizeInternal_iterate (e : TextEditor) (hne : e.mLines ≠ [])
    (hen : e.mColorizerEnabled = true) (h0 : 0 ≤ e.mColorRangeMin) :
    ∀ k : Nat, e.mColorRangeMin + ((k + 1) * lineBudget e : Nat) < e.mColorRangeMax →
      (ColorizeInternal^[k + 1] e).mLines.length = e.mLines.length
        ∧ (∀ j : Nat, (ColorizeInternal^[k + 1] e).mLines.getD j []
            = if e.mColorRangeMin ≤ (j : Int)
                  ∧ (j : Int) < e.mColorRangeMin + ((k + 1) * lineBudget e : Nat) then
                ColorizeRange.colorLine e j ((scannedLines e).getD j [])
              else (scannedLines e).getD j [])
        ∧ (ColorizeInternal^[k + 1] e).mColorRangeMin
            = e.mColorRangeMin + ((k + 1) * lineBudget e : Nat)
        ∧ (ColorizeInternal^[k + 1] e).mColorRangeMax = e.mColorRangeMax
        ∧ (ColorizeInternal^[k + 1] e).mCheckComments = false
        ∧ (ColorizeInternal^[k + 1] e).mColorizerEnabled = true
        ∧ colorFrame (ColorizeInternal^[k + 1] e) = colorFrame e := by
  have hB := lineBudget_pos e
  intro k
  induction k with
  | zero =>
    intro hk
    rw [Nat.zero_add, Nat.one_mul] at hk ⊢
    rw [Function.iterate_one]
    have hlt : e.mColorRangeMin < e.mColorRangeMax := by omega
    obtain ⟨s1, s2, s3, s4, s5, s6, s7⟩ := ColorizeInternal_spec e hne hen h0 hlt
    have hm : min (e.mColorRangeMin + (lineBudget e : Int)) e.mColorRangeMax
        = e.mColorRangeMin + lineBudget e := by omega
    rw [hm] at s2
    exact ⟨s1, s2, (s3 hk).1, (s3 hk).2, s5, s6, s7⟩
  | succ k ih =>
    intro hk
    have hmul : (k + 1 + 1) * lineBudget e = (k + 1) * lineBudget e + lineBudget e :=
      Nat.succ_mul _ _
    rw [hmul] at hk ⊢
    generalize hX : (k + 1) * lineBudget e = X at ih hk ⊢
    obtain ⟨i1, i2, i3, i4, i5, i6, i7⟩ := ih (by omega)
    rw [Function.iterate_succ_apply']
    generalize ColorizeInternal^[k + 1] e = ek at i1 i2 i3 i4 i5 i6 i7 ⊢
    have hnek : ek.mLines ≠ [] := by
      intro h
      rw [h] at i1
      exact hne (List.length_eq_zero.mp i1.symm)
    have hbud : lineBudget ek = lineBudget e := lineBudget_congr ek e i7
    have hsc : scannedLines ek = ek.mLines := by simp [scannedLines, i5]
    obtain ⟨s1, s2, s3, s4, s5, s6, s7⟩ := ColorizeInternal_spec ek hnek i6
      (by rw [i3]; omega) (by rw [i3, i4]; omega)
    rw [i3, i4, hbud, hsc] at s2
    rw [i3, i4, hbud] at s3
    have hm : min (e.mColorRangeMin + (X : Int) + (lineBudget e : Int)) e.mColorRangeMax
        = e.mColorRangeMin + X + lineBudget e := by omega
    rw [hm] at s2
    refine ⟨by rw [s1, i1], fun j => ?_, ?_, (s3 (by omega)).2, s5, s6, by rw [s7, i7]⟩
    · rw [s2 j, i2 j, colorLine_congr ek e i7]
      by_cases h1 : e.mColorRangeMin + (X : Int) ≤ (j : Int)
          ∧ (j : Int) < e.mColorRangeMin + X + lineBudget e
      · rw [if_pos h1, if_neg (by omega), if_pos (by push_cast; omega)]
      · rw [if_neg h1]
        by_cases h2 : e.mColorRangeMin ≤ (j : Int) ∧ (j : Int) < e.mColorRangeMin + X
        · rw [if_pos h2, if_pos (by push_cast; omega)]
        · rw [if_neg h2, if_neg (by push_cast; omega)]
    · rw [(s3 (by omega)).1]; push_cast; omega

/-- C29: with a non-empty document, the colorizer enabled and a dirty range
`[min, max)`, `0 ≤ min < max`, one `ColorizeInternal` call re-tokenizes exactly the lines
`[min, min(min + B, max))` of the document as its comment scan leaves it, where `B` is
10000 with a tokenizer callback and 10 with patterns only; it leaves
`[min + B, max)` as the dirty range when that is not empty and otherwise sets the range
to the empty range `[INT_MAX, 0)`.  With `n = max - min`, the first `ceil(n / B) - 1`
calls leave the ranges `[min + k * B, max)` and call number `ceil(n / B)` leaves the
range empty with exactly the lines `[min, max)` re-tokenized. -/
theorem C29_incremental_range (e : TextEditor) (hne : e.mLines ≠ [])
    (hen : e.mColorizerEnabled = true) (h0 : 0 ≤ e.mColorRangeMin)
    (hlt : e.mColorRangeMin < e.mColorRangeMax) :
    (∀ j : Nat, (ColorizeInternal e).mLines.getD j []
        = if e.mColorRangeMin ≤ (j : Int)
              ∧ (j : Int) < min (e.mColorRangeMin + lineBudget e) e.mColorRangeMax then
            ColorizeRange.colorLine e j ((scannedLines e).getD j [])
          else (scannedLines e).getD j [])
      ∧ (e.mColorRangeMin + lineBudget e < e.mColorRangeMax →
          (ColorizeInternal e).mColorRangeMin = e.mColorRangeMin + lineBudget e
            ∧ (ColorizeInternal e).mColorRangeMax = e.mColorRangeMax)
      ∧ (e.mColorRangeMax ≤ e.mColorRangeMin + lineBudget e →
          (ColorizeInternal e).mColorRangeMin = 2147483647
            ∧ (ColorizeInternal e).mColorRangeMax = 0)
      ∧ (∀ k : Nat,
          k < ((e.mColorRangeMax - e.mColorRangeMin).toNat + lineBudget e - 1) / lineBudget e →
          (ColorizeInternal^[k] e).mColorRangeMin = e.mColorRangeMin + (k * lineBudget e : Nat)
            ∧ (ColorizeInternal^[k] e).mColorRangeMax = e.mColorRangeMax)
      ∧ (ColorizeInternal^[((e.mColorRangeMax - e.mColorRangeMin).toNat + lineBudget e - 1)
            / lineBudget e] e).mColorRangeMin = 2147483647
      ∧ (ColorizeInternal^[((e.mColorRangeMax - e.mColorRangeMin).toNat + lineBudget e - 1)
            / lineBudget e] e).mColorRangeMax = 0
      ∧ (∀ j : Nat,
          (ColorizeInternal^[((e.mColorRangeMax - e.mColorRangeMin).toNat + lineBudget e - 1)
              / lineBudget e] e).mLines.getD j []
            = if e.mColorRangeMin ≤ (j : Int) ∧ (j : Int) < e.mColorRangeMax then
                ColorizeRange.colorLine e j ((scannedLines e).getD j [])
              else (scannedLines e).getD j []) := by
  have hB := lineBudget_pos e
  obtain ⟨s1, s2, s3, s4, s5, s6, s7⟩ := ColorizeInternal_spec e hne hen h0 hlt
  -- the number of calls is `m + 1` with `m * B < n ≤ (m + 1) * B`
  obtain ⟨n, hn⟩ : ∃ n : Nat, (e.mColorRangeMax - e.mColorRangeMin).toNat = n := ⟨_, rfl⟩
  have hn1 : (n : Int) = e.mColorRangeMax - e.mColorRangeMin := by omega
  have hdm := Nat.div_add_mod (n + lineBudget e - 1) (lineBudget e)
  have hmod := Nat.mod_lt (n + lineBudget e - 1) hB
  rw [hn]
  generalize hK : (n + lineBudget e - 1) / lineBudget e = K at hdm ⊢
  generalize (n + lineBudget e - 1) % lineBudget e = r at hdm hmod
  have hKpos : 0 < K := by
    rcases Nat.eq_zero_or_pos K with h | h
    · rw [h, Nat.mul_zero] at hdm; omega
    · exact h
  obtain ⟨m, rfl⟩ : ∃ m, K = m + 1 := ⟨K - 1, by omega⟩
  rw [Nat.mul_succ] at hdm
  have hmul : lineBudget e * m = m * lineBudget e := Nat.mul_comm _ _
  rw [hmul] at hdm
  have before : ∀ k : Nat, k < m + 1 →
      (ColorizeInternal^[k] e).mColorRangeMin = e.mColorRangeMin + (k * lineBudget e : Nat)
        ∧ (ColorizeInternal^[k] e).mColorRangeMax = e.mColorRangeMax := by
    intro k hk
    cases k with
    | zero => simp
    | succ k =>
      have hle : (k + 1) * lineBudget e ≤ m * lineBudget e :=
        Nat.mul_le_mul_right _ (by omega)
      obtain ⟨-, -, i3, i4, -⟩ := ColorizeInternal_iterate e hne hen h0 k (by omega)
      exact ⟨i3, i4⟩
  refine ⟨s2, s3, s4, before, ?_⟩
  cases m with
  | zero =>
    rw [Nat.zero_mul] at hdm
    rw [Nat.zero_add, Function.iterate_one]
    have hle : e.mColorRangeMax ≤ e.mColorRangeMin + lineBudget e := by omega
    have hm : min (e.mColorRangeMin + (lineBudget e : Int)) e.mColorRangeMax
        = e.mColorRangeMax := by omega
    rw [hm] at s2
    exact ⟨(s4 hle).1, (s4 hle).2, s2⟩
  | succ m =>
    generalize hX : (m + 1) * lineBudget e = X at hdm
    obtain ⟨i1, i2, i3, i4, i5, i6, i7⟩ := ColorizeInternal_iterate e hne hen h0 m
      (by rw [hX]; omega)
    rw [hX] at i2 i3
    rw [Function.iterate_succ_apply']
    generalize ColorizeInternal^[m + 1] e = ek at i1 i2 i3 i4 i5 i6 i7 ⊢
    have hnek : ek.mLines ≠ [] := by
      intro h
      rw [h] at i1
      exact hne (List.length_eq_zero.mp i1.symm)
    have hbud : lineBudget ek = lineBudget e := lineBudget_congr ek e i7
    have hsc : scannedLines ek = ek.mLines := by simp [scannedLines, i5]
    obtain ⟨t1, t2, t3, t4, t5, t6, t7⟩ := ColorizeInternal_spec ek hnek i6
      (by rw [i3]; omega) (by rw [i3, i4]; omega)
    rw [i3, i4, hbud, hsc] at t2
    rw [i3, i4, hbud] at t4
    have hle : e.mColorRangeMax ≤ e.mColorRangeMin + (X : Int) + lineBudget e := by omega
    have hm : min (e.mColorRangeMin + (X : Int) + (lineBudget e : Int)) e.mColorRangeMax
        = e.mColorRangeMax := by omega
    rw [hm] at t2
    refine ⟨(t4 hle).1, (t4 hle).2, fun j => ?_⟩
    rw [t2 j, i2 j, colorLine_congr ek e i7]
    by_cases h1 : e.mColorRangeMin + (X : Int) ≤ (j : Int) ∧ (j : Int) < e.mColorRangeMax
    · rw [if_pos h1, if_neg (by omega), if_pos (by omega)]
    · rw [if_neg h1]
      by_cases h2 : e.mColorRangeMin ≤ (j : Int) ∧ (j : Int) < e.mColorRangeMin + X
      · rw [if_pos h2, if_pos (by omega)]
      · rw [if_neg h2, if_neg (by omega)]

theorem C29_incremental_range_witness :
    (ColorizeInternal
        { withLanguage ifLanguage [[105, 102], [105, 102, 120]] with
          mColorRangeMax := 2 }).mColorRangeMin = 2147483647
      ∧ (ColorizeInternal
        { withLanguage ifLanguage [[105, 102], [105, 102, 120]] with
          mColorRangeMax := 2 }).mColorRangeMax = 0 :=
  (C29_incremental_range
    { withLanguage ifLanguage [[105, 102], [105, 102, 120]] with mColorRangeMax := 2 }
    (by decide) (by decide) (by decide) (by decide)).2.2.1 (by decide)

/-! ### The comment scan outside strings -/

theorem equals_iff (d : List Nat) :
    ∀ seg : Line, equals d seg = true ↔ (∀ c ∈ d, c < 128) ∧ lineText seg = d := by
  induction d with
  | nil =>
    intro seg
    cases seg with
    | nil => simp [equals, lineText]
    | cons g t => simp [equals, lineText]
  | cons a s ih =>
    intro seg
    cases seg with
    | nil => simp [equals, lineText]
    | cons g t =>
      simp only [equals, Bool.and_eq_true, ih t, sameChar, decide_eq_true_eq, beq_iff_eq,
        List.mem_cons, forall_eq_or_imp, lineText, List.map_cons, List.cons.injEq]
      constructor
      · rintro ⟨⟨h1, h2⟩, h3, h4⟩
        exact ⟨⟨h1, h3⟩, h2.symm, h4⟩
      · rintro ⟨⟨h1, h3⟩, h2, h4⟩
        exact ⟨⟨h1, h2.symm⟩, h3, h4⟩

theorem lineText_drop_take (line : Line) (i n : Nat) :
    lineText ((line.drop i).take n) = ((lineText line).drop i).take n := by
  simp [lineText, List.map_drop, List.map_take]

theorem lineText_length (line : Line) : (lineText line).length = line.length := by
  simp [lineText]

theorem lineText_getD (ln : Line) (i : Nat) :
    (lineText ln).getD i 0 = (glyphAt ln i).mChar := by
  unfold lineText glyphAt
  simp only [List.getD_eq_getElem?_getD, List.getElem?_map]
  cases ln[i]? <;> rfl

/-- The start test of the scan in terms of occurrences. -/
theorem startsAt_iff (d : List Nat) (line : Line) (i : Nat) :
    ColorizeInternal.startsAt d line i = true ↔ (∀ c ∈ d, c < 128) ∧ occursAt d line i := by
  unfold ColorizeInternal.startsAt
  rw [Bool.and_eq_true, decide_eq_true_eq, equals_iff, lineText_drop_take]
  unfold occursAt
  tauto

/-- The end test of the scan in terms of occurrences. -/
theorem endsAt_iff (d : List Nat) (line : Line) (i : Nat) (hi : i < line.length) :
    ColorizeInternal.endsAt d line i = true
      ↔ (∀ c ∈ d, c < 128) ∧ d.length ≤ i + 1 ∧ occursAt d line (i + 1 - d.length) := by
  unfold ColorizeInternal.endsAt
  rw [Bool.and_eq_true, decide_eq_true_eq, equals_iff, lineText_drop_take]
  unfold occursAt
  constructor
  · rintro ⟨h1, h2, h3⟩
    refine ⟨h2, h1, ?_, h3⟩
    have := congrArg List.length h3
    simp only [List.length_take, List.length_drop, lineText_length] at this
    have h4 := Nat.min_le_right d.length (line.length - (i + 1 - d.length))
    rw [this] at h4
    omega
  · rintro ⟨h1, h2, -, h3⟩
    exact ⟨h2, h1, h3⟩

theorem equals_congr (d : List Nat) (a b : Line) (h : lineText a = lineText b) :
    equals d a = equals d b := by
  have h1 := equals_iff d a
  have h2 := equals_iff d b
  rw [h] at h1
  cases ha : equals d a <;> cases hb : equals d b <;> simp_all

theorem startsAt_congr (d : List Nat) (a b : Line) (h : lineText a = lineText b) (i : Nat) :
    ColorizeInternal.startsAt d a i = ColorizeInternal.startsAt d b i := by
  have hl : a.length = b.length := by rw [← lineText_length a, h, lineText_length]
  unfold ColorizeInternal.startsAt
  rw [hl, equals_congr d ((a.drop i).take d.length) ((b.drop i).take d.length)
    (by simp only [lineText_drop_take, h])]

theorem endsAt_congr (d : List Nat) (a b : Line) (h : lineText a = lineText b) (i : Nat) :
    ColorizeInternal.endsAt d a i = ColorizeInternal.endsAt d b i := by
  unfold ColorizeInternal.endsAt
  rw [equals_congr d ((a.drop (i + 1 - d.length)).take d.length)
    ((b.drop (i + 1 - d.length)).take d.length) (by simp only [lineText_drop_take, h])]

theorem lineStart_fields (s : ColorizeInternal.ScanState) :
    (ColorizeInternal.lineStart s).currentLine = s.currentLine
      ∧ (ColorizeInternal.lineStart s).currentIndex = s.currentIndex
      ∧ (ColorizeInternal.lineStart s).withinString = s.withinString
      ∧ (ColorizeInternal.lineStart s).concatenate = false
      ∧ (ColorizeInternal.lineStart s).commentStartLine = s.commentStartLine
      ∧ (ColorizeInternal.lineStart s).commentStartIndex = s.commentStartIndex := by
  unfold ColorizeInternal.lineStart
  simp only
  split_ifs <;> simp

theorem lookAt_eq (lang : LanguageDefinition) (line : Line) (c : Nat)
    (t : ColorizeInternal.ScanState) :
    ColorizeInternal.lookAt lang line c t
      = { t with
          firstChar := t.firstChar && (sameChar lang.mPreprocChar c || isspace c)
          concatenate := t.concatenate
            || (decide (t.currentIndex + 1 = line.length)
                && decide ((glyphAt line (line.length - 1)).mChar = 92)) } := by
  obtain ⟨csl, csi, ws, slc, pp, fc, conc, cl, ci⟩ := t
  unfold ColorizeInternal.lookAt
  simp only
  by_cases h : ci + 1 = line.length ∧ (glyphAt line (line.length - 1)).mChar = 92
  · cases ha : sameChar lang.mPreprocChar c <;> cases hb : isspace c <;> simp [h]
  · cases ha : sameChar lang.mPreprocChar c <;> cases hb : isspace c <;> simp [h]

/-- The state after one iteration of the scan on a glyph outside a string that is not
a double quote. -/
theorem scanGlyph_state (lang : LanguageDefinition) (N : Nat) (line : Line)
    (t : ColorizeInternal.ScanState) (hs : t.withinString = false)
    (hc : (glyphAt line t.currentIndex).mChar ≠ 34) :
    (ColorizeInternal.scanGlyph lang N line t).2
      = { commentStartLine :=
            if ColorizeInternal.endsAt lang.mCommentEnd line t.currentIndex = true then N
            else if (!(decide (0 < lang.mSingleLineComment.length)
                    && ColorizeInternal.startsAt lang.mSingleLineComment line t.currentIndex)
                  && !t.withinSingleLineComment
                  && ColorizeInternal.startsAt lang.mCommentStart line t.currentIndex) = true
              then t.currentLine
            else t.commentStartLine
          commentStartIndex :=
            if ColorizeInternal.endsAt lang.mCommentEnd line t.currentIndex = true then 0
            else if (!(decide (0 < lang.mSingleLineComment.length)
                    && ColorizeInternal.startsAt lang.mSingleLineComment line t.currentIndex)
                  && !t.withinSingleLineComment
                  && ColorizeInternal.startsAt lang.mCommentStart line t.currentIndex) = true
              then t.currentIndex
            else t.commentStartIndex
          withinString := false
          withinSingleLineComment :=
            t.withinSingleLineComment
              || (decide (0 < lang.mSingleLineComment.length)
                  && ColorizeInternal.startsAt lang.mSingleLineComment line t.currentIndex)
          withinPreproc :=
            t.withinPreproc
              || (t.firstChar
                  && (sameChar lang.mPreprocChar (glyphAt line t.currentIndex).mChar
                      || isspace (glyphAt line t.currentIndex).mChar)
                  && sameChar lang.mPreprocChar (glyphAt line t.currentIndex).mChar)
          firstChar :=
            t.firstChar
              && (sameChar lang.mPreprocChar (glyphAt line t.currentIndex).mChar
                  || isspace (glyphAt line t.currentIndex).mChar)
          concatenate :=
            t.concatenate
              || (decide (t.currentIndex + 1 = line.length)
                  && decide ((glyphAt line (line.length - 1)).mChar = 92))
          currentLine :=
            if line.length ≤ t.currentIndex + UTF8CharLength (glyphAt line t.currentIndex).mChar
            then t.currentLine + 1 else t.currentLine
          currentIndex :=
            if line.length ≤ t.currentIndex + UTF8CharLength (glyphAt line t.currentIndex).mChar
            then 0 else t.currentIndex + UTF8CharLength (glyphAt line t.currentIndex).mChar } := by
  have hE : ∀ (b1 b2 : Bool) (j i : Nat),
      ColorizeInternal.endsAt lang.mCommentEnd (modifyGlyph line j
          (fun g => { g with mMultiLineComment := b1, mComment := b2 })) i
        = ColorizeInternal.endsAt lang.mCommentEnd line i := by
    intro b1 b2 j i
    apply endsAt_congr
    exact lineText_modifyGlyph line j
      (fun g => { g with mMultiLineComment := b1, mComment := b2 }) (fun g => rfl)
  obtain ⟨csl, csi, ws, slc, pp, fc, conc, cl, ci⟩ := t
  simp only at hs hc
  subst hs
  cases h1 : fc && (sameChar lang.mPreprocChar (glyphAt line ci).mChar
      || isspace (glyphAt line ci).mChar)
      && sameChar lang.mPreprocChar (glyphAt line ci).mChar <;>
  cases h2 : (decide (0 < lang.mSingleLineComment.length)
      && ColorizeInternal.startsAt lang.mSingleLineComment line ci) <;>
  cases h3 : ColorizeInternal.startsAt lang.mCommentStart line ci <;>
  cases h4 : ColorizeInternal.endsAt lang.mCommentEnd line ci <;>
  cases slc <;>
  by_cases hw : line.length ≤ ci + UTF8CharLength (glyphAt line ci).mChar <;>
  simp [ColorizeInternal.scanGlyph, lookAt_eq, ColorizeInternal.inCode, hc, h1, h2, h3, h4,
    ColorizeInternal.openComment, ColorizeInternal.closeComment, ColorizeInternal.advance,
    modifyGlyph_length, hE, hw]

/-- The line after one iteration of the scan on a glyph outside a string that is not a
double quote: only the three flags of the glyph at the current index are written. -/
theorem scanGlyph_line (lang : LanguageDefinition) (N : Nat) (line : Line)
    (t : ColorizeInternal.ScanState) (hs : t.withinString = false)
    (hc : (glyphAt line t.currentIndex).mChar ≠ 34) :
    (ColorizeInternal.scanGlyph lang N line t).1
      = modifyGlyph line t.currentIndex (fun g =>
          { g with
            mMultiLineComment :=
              (!(decide (0 < lang.mSingleLineComment.length)
                    && ColorizeInternal.startsAt lang.mSingleLineComment line t.currentIndex)
                && !t.withinSingleLineComment
                && ColorizeInternal.startsAt lang.mCommentStart line t.currentIndex)
              || ColorizeInternal.inComment t
            mComment :=
              t.withinSingleLineComment
                || (decide (0 < lang.mSingleLineComment.length)
                    && ColorizeInternal.startsAt lang.mSingleLineComment line t.currentIndex)
            mPreprocessor :=
              t.withinPreproc
                || (t.firstChar
                    && (sameChar lang.mPreprocChar (glyphAt line t.currentIndex).mChar
                        || isspace (glyphAt line t.currentIndex).mChar)
                    && sameChar lang.mPreprocChar (glyphAt line t.currentIndex).mChar) }) := by
  have hE : ∀ (b1 b2 : Bool) (j i : Nat),
      ColorizeInternal.endsAt lang.mCommentEnd (modifyGlyph line j
          (fun g => { g with mMultiLineComment := b1, mComment := b2 })) i
        = ColorizeInternal.endsAt lang.mCommentEnd line i := by
    intro b1 b2 j i
    apply endsAt_congr
    exact lineText_modifyGlyph line j
      (fun g => { g with mMultiLineComment := b1, mComment := b2 }) (fun g => rfl)
  obtain ⟨csl, csi, ws, slc, pp, fc, conc, cl, ci⟩ := t
  simp only at hs hc
  subst hs
  have hlen : (ColorizeInternal.scanGlyph lang N line
      { commentStartLine := csl, commentStartIndex := csi, withinString := false,
        withinSingleLineComment := slc, withinPreproc := pp, firstChar := fc,
        concatenate := conc, currentLine := cl, currentIndex := ci }).1.length
      = line.length := by
    cases h1 : fc && (sameChar lang.mPreprocChar (glyphAt line ci).mChar
        || isspace (glyphAt line ci).mChar)
        && sameChar lang.mPreprocChar (glyphAt line ci).mChar <;>
    cases h2 : (decide (0 < lang.mSingleLineComment.length)
        && ColorizeInternal.startsAt lang.mSingleLineComment line ci) <;>
    cases h3 : ColorizeInternal.startsAt lang.mCommentStart line ci <;>
    cases h4 : ColorizeInternal.endsAt lang.mCommentEnd line ci <;>
    cases slc <;>
    by_cases hw : line.length ≤ ci + UTF8CharLength (glyphAt line ci).mChar <;>
    simp [ColorizeInternal.scanGlyph, lookAt_eq, ColorizeInternal.inCode, hc, h1, h2, h3,
      ColorizeInternal.openComment, ColorizeInternal.closeComment, ColorizeInternal.advance,
        modifyGlyph_length, hw, hE, h4]
  apply line_ext
  · rw [hlen, modifyGlyph_length]
  · intro j hj
    rw [hlen] at hj
    by_cases hji : ci = j
    · subst hji
      cases h1 : fc && (sameChar lang.mPreprocChar (glyphAt line ci).mChar
          || isspace (glyphAt line ci).mChar)
          && sameChar lang.mPreprocChar (glyphAt line ci).mChar <;>
      cases h2 : (decide (0 < lang.mSingleLineComment.length)
          && ColorizeInternal.startsAt lang.mSingleLineComment line ci) <;>
      cases h3 : ColorizeInternal.startsAt lang.mCommentStart line ci <;>
      cases h4 : ColorizeInternal.endsAt lang.mCommentEnd line ci <;>
      cases slc <;>
      by_cases hw : line.length ≤ ci + UTF8CharLength (glyphAt line ci).mChar <;>
      simp [ColorizeInternal.scanGlyph, lookAt_eq, ColorizeInternal.inCode, hc, h1, h2, h3,
        ColorizeInternal.openComment, ColorizeInternal.closeComment, ColorizeInternal.advance,
        modifyGlyph_length, hw, hE, h4,
        glyphAt_modifyGlyph, hj, ColorizeInternal.inComment]
    · cases h1 : fc && (sameChar lang.mPreprocChar (glyphAt line ci).mChar
          || isspace (glyphAt line ci).mChar)
          && sameChar lang.mPreprocChar (glyphAt line ci).mChar <;>
      cases h2 : (decide (0 < lang.mSingleLineComment.length)
          && ColorizeInternal.startsAt lang.mSingleLineComment line ci) <;>
      cases h3 : ColorizeInternal.startsAt lang.mCommentStart line ci <;>
      cases h4 : ColorizeInternal.endsAt lang.mCommentEnd line ci <;>
      cases slc <;>
      by_cases hw : line.length ≤ ci + UTF8CharLength (glyphAt line ci).mChar <;>
      simp [ColorizeInternal.scanGlyph, lookAt_eq, ColorizeInternal.inCode, hc, h1, h2, h3,
        ColorizeInternal.openComment, ColorizeInternal.closeComment, ColorizeInternal.advance,
        modifyGlyph_length, hw, hE, h4,
        glyphAt_modifyGlyph, hji]

/-! ### Character boundaries -/

theorem completeFrom_short (s : Nat) (x : Line) (h : x.length < s) : completeFrom s x = false := by
  induction x generalizing s with
  | nil =>
    cases s with
    | zero => simp at h
    | succ n => rfl
  | cons g rest ih =>
    cases s with
    | zero => simp at h
    | succ n =>
      simp only [completeFrom]
      exact ih n (by simpa using h)

theorem completeFrom_exact (s : Nat) (x : Line) (h : x.length = s) : completeFrom s x = true := by
  have := completeFrom_append s x [] h
  rw [List.append_nil] at this
  rw [this]; rfl

theorem glyphAt_cons_succ (g : Glyph) (rest : Line) (j : Nat) :
    glyphAt (g :: rest) (j + 1) = glyphAt rest j := by
  simp [glyphAt]

theorem glyphAt_cons_zero (g : Glyph) (rest : Line) : glyphAt (g :: rest) 0 = g := by
  simp [glyphAt]

/-- From a character start the next character start is `UTF8CharLength` bytes on. -/
theorem boundary_next_aux (ln : Line) :
    ∀ (skip i : Nat), completeFrom skip (ln.take i) = true → i < ln.length →
      i + UTF8CharLength (glyphAt ln i).mChar ≤ ln.length →
      completeFrom skip (ln.take (i + UTF8CharLength (glyphAt ln i).mChar)) = true := by
  induction ln with
  | nil => intro skip i _ hi; simp at hi
  | cons g rest ih =>
    intro skip i hc hi hle
    cases i with
    | zero =>
      simp only [List.take_zero] at hc
      have hs : skip = 0 := by
        cases skip with
        | zero => rfl
        | succ n => simp [completeFrom] at hc
      subst hs
      rw [glyphAt_cons_zero] at hle ⊢
      have hU := UTF8CharLength_pos g.mChar
      obtain ⟨u, hu⟩ : ∃ u, UTF8CharLength g.mChar = u + 1 := ⟨UTF8CharLength g.mChar - 1, by omega⟩
      rw [Nat.zero_add, hu, List.take_succ_cons]
      simp only [completeFrom, hu, Nat.add_sub_cancel]
      apply completeFrom_exact
      rw [List.length_take]
      simp only [List.length_cons] at hle
      omega
    | succ i =>
      rw [glyphAt_cons_succ] at hle ⊢
      rw [List.take_succ_cons] at hc
      have e1 : i + 1 + UTF8CharLength (glyphAt rest i).mChar
          = (i + UTF8CharLength (glyphAt rest i).mChar) + 1 := by omega
      rw [e1, List.take_succ_cons]
      simp only [List.length_cons] at hi hle
      cases skip with
      | zero =>
        simp only [completeFrom] at hc ⊢
        exact ih _ i hc (by omega) (by omega)
      | succ n =>
        simp only [completeFrom] at hc ⊢
        exact ih _ i hc (by omega) (by omega)

/-- Between a character start and the next one there is no character start. -/
theorem boundary_between_aux (ln : Line) :
    ∀ (skip i j : Nat), completeFrom skip (ln.take i) = true → i < j →
      j < i + UTF8CharLength (glyphAt ln i).mChar → j ≤ ln.length →
      completeFrom skip (ln.take j) = false := by
  induction ln with
  | nil => intro skip i j _ h1 _ h3; simp at h3; omega
  | cons g rest ih =>
    intro skip i j hc h1 h2 h3
    obtain ⟨j, rfl⟩ : ∃ k, j = k + 1 := ⟨j - 1, by omega⟩
    rw [List.take_succ_cons]
    cases i with
    | zero =>
      simp only [List.take_zero] at hc
      have hs : skip = 0 := by
        cases skip with
        | zero => rfl
        | succ n => simp [completeFrom] at hc
      subst hs
      rw [glyphAt_cons_zero] at h2
      simp only [completeFrom]
      apply completeFrom_short
      rw [List.length_take]
      omega
    | succ i =>
      rw [glyphAt_cons_succ] at h2
      rw [List.take_succ_cons] at hc
      simp only [List.length_cons] at h3
      cases skip with
      | zero =>
        simp only [completeFrom] at hc ⊢
        exact ih _ i j hc (by omega) (by omega) (by omega)
      | succ n =>
        simp only [completeFrom] at hc ⊢
        exact ih _ i j hc (by omega) (by omega) (by omega)

theorem boundary_zero (ln : Line) : IsCharBoundary ln 0 :=
  ⟨Nat.zero_le _, by simp [Complete, completeFrom]⟩

theorem boundary_next (ln : Line) (i : Nat) (h : IsCharBoundary ln i) (hi : i < ln.length)
    (hle : i + UTF8CharLength (glyphAt ln i).mChar ≤ ln.length) :
    IsCharBoundary ln (i + UTF8CharLength (glyphAt ln i).mChar) :=
  ⟨hle, boundary_next_aux ln 0 i h.2 hi hle⟩

theorem boundary_between (ln : Line) (i j : Nat) (h : IsCharBoundary ln i) (h1 : i < j)
    (h2 : j < i + UTF8CharLength (glyphAt ln i).mChar) : ¬ IsCharBoundary ln j := by
  intro hj
  have := boundary_between_aux ln 0 i j h.2 h1 h2 hj.1
  have h3 := hj.2
  unfold Complete at h3
  rw [this] at h3
  exact Bool.noConfusion h3

/-- In well-formed text the bytes between a character start and the next one are
continuation bytes, and the character lies inside the line. -/
theorem valid_char_aux (ln : Line) :
    ∀ (skip i : Nat), validFrom skip (lineText ln) = true →
      completeFrom skip (ln.take i) = true → i < ln.length →
      i + UTF8CharLength (glyphAt ln i).mChar ≤ ln.length
        ∧ ∀ j, i < j → j < i + UTF8CharLength (glyphAt ln i).mChar →
            IsUTFSequence (glyphAt ln j).mChar = true := by
  induction ln with
  | nil => intro skip i _ _ hi; simp at hi
  | cons g rest ih =>
    intro skip i hv hc hi
    cases i with
    | zero =>
      simp only [List.take_zero] at hc
      have hs : skip = 0 := by
        cases skip with
        | zero => rfl
        | succ n => simp [completeFrom] at hc
      subst hs
      rw [glyphAt_cons_zero]
      have hU := UTF8CharLength_pos g.mChar
      simp only [lineText, List.map_cons, validFrom] at hv
      obtain ⟨tl, suf, h1, h2, h3, -⟩ := validFrom_split _ _ hv
      have hlen : rest.length = tl.length + suf.length := by
        have := congrArg List.length h1
        simpa using this
      refine ⟨by simp only [List.length_cons]; omega, ?_⟩
      intro j hj1 hj2
      obtain ⟨j, rfl⟩ : ∃ k, j = k + 1 := ⟨j - 1, by omega⟩
      rw [glyphAt_cons_succ]
      apply h3
      have hjl : j < tl.length := by omega
      have hg : (glyphAt rest j).mChar = (rest.map (fun g => g.mChar)).getD j 0 :=
        (lineText_getD rest j).symm
      rw [hg, h1, List.getD_eq_getElem?_getD, List.getElem?_append_left hjl,
        List.getElem?_eq_getElem hjl]
      exact List.getElem_mem _
    | succ i =>
      rw [glyphAt_cons_succ]
      rw [List.take_succ_cons] at hc
      simp only [List.length_cons] at hi ⊢
      have key : ∀ s, validFrom s (lineText rest) = true → completeFrom s (rest.take i) = true →
          i + 1 + UTF8CharLength (glyphAt rest i).mChar ≤ rest.length + 1
            ∧ ∀ j, i + 1 < j → j < i + 1 + UTF8CharLength (glyphAt rest i).mChar →
                IsUTFSequence (glyphAt (g :: rest) j).mChar = true := by
        intro s hv2 hc2
        obtain ⟨k1, k2⟩ := ih s i hv2 hc2 (by omega)
        refine ⟨by omega, ?_⟩
        intro j hj1 hj2
        obtain ⟨j, rfl⟩ : ∃ k, j = k + 1 := ⟨j - 1, by omega⟩
        rw [glyphAt_cons_succ]
        exact k2 j (by omega) (by omega)
      cases skip with
      | zero =>
        simp only [lineText, List.map_cons, validFrom] at hv
        simp only [completeFrom] at hc
        exact key _ hv hc
      | succ n =>
        simp only [lineText, List.map_cons, validFrom, Bool.and_eq_true] at hv
        simp only [completeFrom] at hc
        exact key _ hv.2 hc

theorem valid_char (ln : Line) (i : Nat) (hv : ValidUTF8 (lineText ln))
    (h : IsCharBoundary ln i) (hi : i < ln.length) :
    i + UTF8CharLength (glyphAt ln i).mChar ≤ ln.length
      ∧ ∀ j, i < j → j < i + UTF8CharLength (glyphAt ln i).mChar →
          IsUTFSequence (glyphAt ln j).mChar = true :=
  valid_char_aux ln 0 i hv h.2 hi

/-- In well-formed text a byte that is not a continuation byte starts a character. -/
theorem valid_boundary_aux (ln : Line) :
    ∀ (skip j : Nat), validFrom skip (lineText ln) = true → j < ln.length →
      IsUTFSequence (glyphAt ln j).mChar = false →
      completeFrom skip (ln.take j) = true := by
  induction ln with
  | nil => intro skip j _ hj; simp at hj
  | cons g rest ih =>
    intro skip j hv hj hn
    cases skip with
    | zero =>
      cases j with
      | zero => rfl
      | succ j =>
        rw [glyphAt_cons_succ] at hn
        rw [List.take_succ_cons]
        simp only [lineText, List.map_cons, validFrom] at hv
        simp only [completeFrom]
        exact ih _ j hv (by simpa using hj) hn
    | succ n =>
      simp only [lineText, List.map_cons, validFrom, Bool.and_eq_true] at hv
      cases j with
      | zero =>
        rw [glyphAt_cons_zero] at hn
        rw [hn] at hv
        exact absurd hv.1 (by simp)
      | succ j =>
        rw [glyphAt_cons_succ] at hn
        rw [List.take_succ_cons]
        simp only [completeFrom]
        exact ih _ j hv.2 (by simpa using hj) hn

theorem valid_boundary (ln : Line) (j : Nat) (hv : ValidUTF8 (lineText ln)) (hj : j < ln.length)
    (hn : IsUTFSequence (glyphAt ln j).mChar = false) : IsCharBoundary ln j :=
  ⟨by omega, valid_boundary_aux ln 0 j hv hj hn⟩

theorem IsUTFSequence_ge (c : Nat) (h : IsUTFSequence c = true) : 128 ≤ c := by
  by_contra hc
  have hlt : c < 128 := by omega
  revert h
  unfold IsUTFSequence
  interval_cases c <;> decide

/-! ### An induction principle for the comment scan of documents without double quotes -/

theorem glyphAt_mChar_congr (a b : Line) (h : lineText a = lineText b) (j : Nat) :
    (glyphAt a j).mChar = (glyphAt b j).mChar := by
  rw [← lineText_getD, ← lineText_getD, h]

theorem length_congr (a b : Line) (h : lineText a = lineText b) : a.length = b.length := by
  rw [← lineText_length a, h, lineText_length]

theorem scanGlyph_state_congr (lang : LanguageDefinition) (N : Nat) (a b : Line)
    (h : lineText a = lineText b) (t : ColorizeInternal.ScanState)
    (hs : t.withinString = false) (hc : (glyphAt a t.currentIndex).mChar ≠ 34) :
    (ColorizeInternal.scanGlyph lang N a t).2 = (ColorizeInternal.scanGlyph lang N b t).2 := by
  have hc2 : (glyphAt b t.currentIndex).mChar ≠ 34 := by
    rw [← glyphAt_mChar_congr a b h]; exact hc
  rw [scanGlyph_state lang N a t hs hc, scanGlyph_state lang N b t hs hc2]
  simp only [startsAt_congr _ a b h, endsAt_congr _ a b h, length_congr a b h,
    glyphAt_mChar_congr a b h]

theorem scanGlyph_flags_congr (lang : LanguageDefinition) (N : Nat) (a b : Line)
    (h : lineText a = lineText b) (t : ColorizeInternal.ScanState)
    (hs : t.withinString = false) (hc : (glyphAt a t.currentIndex).mChar ≠ 34)
    (hi : t.currentIndex < a.length) :
    (glyphAt (ColorizeInternal.scanGlyph lang N a t).1 t.currentIndex).mMultiLineComment
        = (glyphAt (ColorizeInternal.scanGlyph lang N b t).1 t.currentIndex).mMultiLineComment
      ∧ (glyphAt (ColorizeInternal.scanGlyph lang N a t).1 t.currentIndex).mComment
        = (glyphAt (ColorizeInternal.scanGlyph lang N b t).1 t.currentIndex).mComment
      ∧ (glyphAt (ColorizeInternal.scanGlyph lang N a t).1 t.currentIndex).mPreprocessor
        = (glyphAt (ColorizeInternal.scanGlyph lang N b t).1 t.currentIndex).mPreprocessor := by
  have hc2 : (glyphAt b t.currentIndex).mChar ≠ 34 := by
    rw [← glyphAt_mChar_congr a b h]; exact hc
  have hi2 : t.currentIndex < b.length := by rw [← length_congr a b h]; exact hi
  rw [scanGlyph_line lang N a t hs hc, scanGlyph_line lang N b t hs hc2,
    glyphAt_modifyGlyph_self _ _ _ hi, glyphAt_modifyGlyph_self _ _ _ hi2]
  simp only [startsAt_congr _ a b h, glyphAt_mChar_congr a b h, and_self]

/-- The number of iterations the scan has before it from a given position. -/
theorem scan_measure_cons (lines : Lines) (l : Nat) (h : l < lines.length) :
    ((lines.drop l).map (fun x => x.length + 1)).sum
      = (lines.getD l []).length + 1 + ((lines.drop (l + 1)).map (fun x => x.length + 1)).sum := by
  rw [List.drop_eq_getElem_cons h, List.map_cons, List.sum_cons,
    List.getD_eq_getElem?_getD, List.getElem?_eq_getElem h]
  rfl

theorem getD_set_lines (cur : Lines) (k l : Nat) (x : Line) (hk : k < cur.length) :
    (cur.set k x).getD l [] = if k = l then x else cur.getD l [] := by
  simp only [List.getD_eq_getElem?_getD, List.getElem?_set]
  by_cases h : k = l
  · subst h; simp [hk]
  · simp [h]

theorem scan_induction_aux (lang : LanguageDefinition) (lines : Lines)
    (hq : ∀ ln ∈ lines, ∀ g ∈ ln, g.mChar ≠ 34)
    (St : Nat → Nat → ColorizeInternal.ScanState → Prop)
    (F : Nat → Nat → Bool → Bool → Bool → Prop)
    (h_empty : ∀ (l : Nat) (t : ColorizeInternal.ScanState), l < lines.length →
      lines.getD l [] = [] → t.currentLine = l → t.currentIndex = 0 →
      t.concatenate = false → St l 0 t →
      St (l + 1) 0 (ColorizeInternal.lineStart { t with currentIndex := 0, currentLine := l + 1 }))
    (h_glyph : ∀ (l i : Nat) (t : ColorizeInternal.ScanState), l < lines.length →
      i < (lines.getD l []).length → IsCharBoundary (lines.getD l []) i →
      t.currentLine = l → t.currentIndex = i → t.withinString = false →
      t.concatenate = false → St l i t →
      F l i
          (glyphAt (ColorizeInternal.scanGlyph lang lines.length (lines.getD l []) t).1
            i).mMultiLineComment
          (glyphAt (ColorizeInternal.scanGlyph lang lines.length (lines.getD l []) t).1
            i).mComment
          (glyphAt (ColorizeInternal.scanGlyph lang lines.length (lines.getD l []) t).1
            i).mPreprocessor
        ∧ St (ColorizeInternal.scanGlyph lang lines.length (lines.getD l []) t).2.currentLine
            (ColorizeInternal.scanGlyph lang lines.length (lines.getD l []) t).2.currentIndex
            (ColorizeInternal.lineStart
              (ColorizeInternal.scanGlyph lang lines.length (lines.getD l []) t).2)) :
    ∀ (fuel : Nat) (cur : Lines) (s : ColorizeInternal.ScanState),
      cur.length = lines.length →
      (∀ l, lineText (cur.getD l []) = lineText (lines.getD l [])) →
      s.withinString = false →
      s.currentLine ≤ lines.length →
      (s.currentLine < lines.length →
        ((lines.getD s.currentLine []).length = 0 → s.currentIndex = 0)
          ∧ (0 < (lines.getD s.currentLine []).length →
              s.currentIndex < (lines.getD s.currentLine []).length)
          ∧ IsCharBoundary (lines.getD s.currentLine []) s.currentIndex) →
      St s.currentLine s.currentIndex (ColorizeInternal.lineStart s) →
      (∀ l i, (l < s.currentLine ∨ (l = s.currentLine ∧ i < s.currentIndex)) →
        l < lines.length → i < (lines.getD l []).length → IsCharBoundary (lines.getD l []) i →
        F l i (glyphAt (cur.getD l []) i).mMultiLineComment (glyphAt (cur.getD l []) i).mComment
          (glyphAt (cur.getD l []) i).mPreprocessor) →
      ((lines.drop s.currentLine).map (fun x => x.length + 1)).sum - s.currentIndex ≤ fuel →
      ∀ l i, l < lines.length → i < (lines.getD l []).length →
        IsCharBoundary (lines.getD l []) i →
        F l i
          (glyphAt ((ColorizeInternal.scan lang lines.length fuel cur s).getD l [])
            i).mMultiLineComment
          (glyphAt ((ColorizeInternal.scan lang lines.length fuel cur s).getD l []) i).mComment
          (glyphAt ((ColorizeInternal.scan lang lines.length fuel cur s).getD l [])
            i).mPreprocessor := by
  intro fuel
  induction fuel with
  | zero =>
    intro cur s hlen htxt hws hcl hpos hst hdone hfuel l i hl hi hb
    have hend : s.currentLine = lines.length := by
      by_contra hne
      have hlt : s.currentLine < lines.length := by omega
      have := scan_measure_cons lines s.currentLine hlt
      obtain ⟨p1, p2, -⟩ := hpos hlt
      rcases Nat.eq_zero_or_pos (lines.getD s.currentLine []).length with h0 | h0
      · have := p1 h0; omega
      · have := p2 h0; omega
    rw [ColorizeInternal.scan]
    exact hdone l i (by omega) hl hi hb
  | succ fuel ih =>
    intro cur s hlen htxt hws hcl hpos hst hdone hfuel l i hl hi hb
    rw [ColorizeInternal.scan]
    by_cases hlt : s.currentLine < lines.length
    · rw [if_pos (Or.inl hlt)]
      obtain ⟨p1, p2, p3⟩ := hpos hlt
      have hm := scan_measure_cons lines s.currentLine hlt
      obtain ⟨f1, f2, f3, f4, -, -⟩ := lineStart_fields s
      have hcurlen : (cur.getD s.currentLine []).length = (lines.getD s.currentLine []).length :=
        length_congr _ _ (htxt _)
      by_cases hemp : cur.getD s.currentLine [] = []
      · -- an empty line
        have hemp2 : lines.getD s.currentLine [] = [] := by
          apply List.length_eq_zero.mp
          rw [← hcurlen, hemp]; rfl
        have hci : s.currentIndex = 0 := p1 (by rw [hemp2]; rfl)
        have hstep : ColorizeInternal.scanStep lang lines.length cur s
            = (cur, { ColorizeInternal.lineStart s with
                        currentIndex := 0, currentLine := s.currentLine + 1 }) := by
          unfold ColorizeInternal.scanStep
          simp only [hemp, if_true, f1]
        rw [hstep]
        apply ih cur _ hlen htxt
        · exact f3.trans hws
        · show s.currentLine + 1 ≤ lines.length
          omega
        · intro hlt2
          refine ⟨fun _ => rfl, fun h => h, boundary_zero _⟩
        · have := h_empty s.currentLine (ColorizeInternal.lineStart s) hlt hemp2 f1
            (f2.trans hci) f4 (by rw [← hci]; exact hst)
          exact this
        · intro l' i' hlt' hl' hi' hb'
          have hlt'' : l' < s.currentLine + 1 ∨ (l' = s.currentLine + 1 ∧ i' < 0) := hlt'
          apply hdone l' i' _ hl' hi' hb'
          rcases hlt'' with h | h
          · rcases Nat.lt_or_ge l' s.currentLine with h2 | h2
            · exact Or.inl h2
            · have : l' = s.currentLine := by omega
              subst this
              rw [hemp2] at hi'
              simp at hi'
          · omega
        · show ((lines.drop (s.currentLine + 1)).map (fun x => x.length + 1)).sum - 0 ≤ fuel
          omega
        · exact hl
        · exact hi
        · exact hb
      · -- a glyph
        have hne2 : 0 < (lines.getD s.currentLine []).length := by
          rw [← hcurlen]
          exact List.length_pos.mpr hemp
        have hci : s.currentIndex < (lines.getD s.currentLine []).length := p2 hne2
        have hchar : (glyphAt (lines.getD s.currentLine []) s.currentIndex).mChar ≠ 34 := by
          have hmem : lines.getD s.currentLine [] ∈ lines := by
            rw [List.getD_eq_getElem?_getD, List.getElem?_eq_getElem hlt]
            exact List.getElem_mem _
          apply hq _ hmem
          rw [glyphAt_eq_getElem _ _ hci]
          exact List.get_mem _ _ _
        have hchar2 : (glyphAt (cur.getD s.currentLine [])
            (ColorizeInternal.lineStart s).currentIndex).mChar ≠ 34 := by
          rw [f2, glyphAt_mChar_congr _ _ (htxt _)]; exact hchar
        have hws2 : (ColorizeInternal.lineStart s).withinString = false := f3.trans hws
        have hstep : ColorizeInternal.scanStep lang lines.length cur s
            = (cur.set s.currentLine
                (ColorizeInternal.scanGlyph lang lines.length (cur.getD s.currentLine [])
                  (ColorizeInternal.lineStart s)).1,
               (ColorizeInternal.scanGlyph lang lines.length (cur.getD s.currentLine [])
                  (ColorizeInternal.lineStart s)).2) := by
          unfold ColorizeInternal.scanStep
          simp only [hemp, if_false, f1]
        rw [hstep]
        -- the step on the original line
        obtain ⟨g1, g2⟩ := h_glyph s.currentLine s.currentIndex (ColorizeInternal.lineStart s)
          hlt hci p3 f1 f2 hws2 f4 hst
        have hsc := scanGlyph_state_congr lang lines.length _ _ (htxt s.currentLine)
          (ColorizeInternal.lineStart s) hws2 hchar2
        have hfl := scanGlyph_flags_congr lang lines.length _ _ (htxt s.currentLine)
          (ColorizeInternal.lineStart s) hws2 hchar2 (by rw [f2, hcurlen]; exact hci)
        rw [f2] at hfl
        have hline := scanGlyph_line lang lines.length (cur.getD s.currentLine [])
          (ColorizeInternal.lineStart s) hws2 hchar2
        have hstate := scanGlyph_state lang lines.length (lines.getD s.currentLine [])
          (ColorizeInternal.lineStart s) hws2 (by rw [f2]; exact hchar)
        rw [hsc]
        generalize hr2 : (ColorizeInternal.scanGlyph lang lines.length
          (lines.getD s.currentLine []) (ColorizeInternal.lineStart s)).2 = s2
          at g2 hstate
        generalize hr1 : (ColorizeInternal.scanGlyph lang lines.length
          (cur.getD s.currentLine []) (ColorizeInternal.lineStart s)).1 = ln1 at hline hfl
        have hln1len : ln1.length = (cur.getD s.currentLine []).length := by
          rw [hline, modifyGlyph_length]
        have hln1txt : lineText ln1 = lineText (cur.getD s.currentLine []) := by
          rw [hline]; exact lineText_modifyGlyph _ _ _ (fun g => rfl)
        have hln1get : ∀ j, j ≠ s.currentIndex →
            glyphAt ln1 j = glyphAt (cur.getD s.currentLine []) j := by
          intro j hj
          rw [hline, f2, glyphAt_modifyGlyph_ne _ _ _ _ (fun h => hj h.symm)]
        have hs2ws : s2.withinString = false := by rw [hstate]
        have hs2cl : s2.currentLine
            = if (lines.getD s.currentLine []).length
                  ≤ s.currentIndex
                    + UTF8CharLength (glyphAt (lines.getD s.currentLine []) s.currentIndex).mChar
              then s.currentLine + 1 else s.currentLine := by
          rw [hstate]; simp only [f1, f2]
        have hs2ci : s2.currentIndex
            = if (lines.getD s.currentLine []).length
                  ≤ s.currentIndex
                    + UTF8CharLength (glyphAt (lines.getD s.currentLine []) s.currentIndex).mChar
              then 0
              else s.currentIndex
                + UTF8CharLength (glyphAt (lines.getD s.currentLine []) s.currentIndex).mChar := by
          rw [hstate]; simp only [f1, f2]
        have hU := UTF8CharLength_pos (glyphAt (lines.getD s.currentLine []) s.currentIndex).mChar
        have hcurk : s.currentLine < cur.length := by omega
        apply ih (cur.set s.currentLine ln1) s2
        · rw [List.length_set]; exact hlen
        · intro l'
          rw [getD_set_lines _ _ _ _ hcurk]
          split_ifs with h
          · subst h; rw [hln1txt]; exact htxt _
          · exact htxt _
        · exact hs2ws
        · rw [hs2cl]; split_ifs <;> omega
        · intro hlt2
          by_cases hw : (lines.getD s.currentLine []).length
              ≤ s.currentIndex
                + UTF8CharLength (glyphAt (lines.getD s.currentLine []) s.currentIndex).mChar
          · rw [if_pos hw] at hs2cl hs2ci
            rw [hs2cl, hs2ci]
            exact ⟨fun _ => rfl, fun h => h, boundary_zero _⟩
          · rw [if_neg hw] at hs2cl hs2ci
            rw [hs2cl, hs2ci]
            exact ⟨fun h => by omega, fun _ => by omega,
              boundary_next _ _ p3 hci (by omega)⟩
        · exact g2
        · intro l' i' hlt' hl' hi' hb'
          rw [getD_set_lines _ _ _ _ hcurk]
          by_cases hll : s.currentLine = l'
          · subst hll
            rw [if_pos rfl]
            by_cases hii : i' = s.currentIndex
            · subst hii
              rw [hfl.1, hfl.2.1, hfl.2.2]
              exact g1
            · rw [hln1get i' hii]
              apply hdone _ i' _ hl' hi' hb'
              right
              refine ⟨rfl, ?_⟩
              by_contra hge
              have hgt : s.currentIndex < i' := by omega
              apply boundary_between _ _ i' p3 hgt _ hb'
              rw [hs2cl, hs2ci] at hlt'
              by_cases hw : (lines.getD s.currentLine []).length
                  ≤ s.currentIndex
                    + UTF8CharLength (glyphAt (lines.getD s.currentLine []) s.currentIndex).mChar
              · omega
              · rw [if_neg hw, if_neg hw] at hlt'
                omega
          · rw [if_neg hll]
            apply hdone _ i' _ hl' hi' hb'
            left
            rw [hs2cl, hs2ci] at hlt'
            split_ifs at hlt' <;> omega
        · rw [hs2cl, hs2ci]
          by_cases hw : (lines.getD s.currentLine []).length
              ≤ s.currentIndex
                + UTF8CharLength (glyphAt (lines.getD s.currentLine []) s.currentIndex).mChar
          · rw [if_pos hw, if_pos hw]; omega
          · rw [if_neg hw, if_neg hw]; omega
        · exact hl
        · exact hi
        · exact hb
    · rw [if_neg (by omega)]
      exact hdone l i (by omega) hl hi hb

/-- Induction over the comment scan of a document without double quotes: a property
`St` of the scan state that holds at the start and is kept by the step over an empty
line and by the step over a glyph, and a property `F` of the three flags that the step
over a glyph establishes, give `F` for every glyph of the scanned document that starts a
character. -/
theorem scan_induction (lang : LanguageDefinition) (lines : Lines)
    (hq : ∀ ln ∈ lines, ∀ g ∈ ln, g.mChar ≠ 34)
    (St : Nat → Nat → ColorizeInternal.ScanState → Prop)
    (F : Nat → Nat → Bool → Bool → Bool → Prop)
    (h_init : St 0 0 (ColorizeInternal.lineStart { commentStartLine := lines.length }))
    (h_empty : ∀ (l : Nat) (t : ColorizeInternal.ScanState), l < lines.length →
      lines.getD l [] = [] → t.currentLine = l → t.currentIndex = 0 →
      t.concatenate = false → St l 0 t →
      St (l + 1) 0 (ColorizeInternal.lineStart { t with currentIndex := 0, currentLine := l + 1 }))
    (h_glyph : ∀ (l i : Nat) (t : ColorizeInternal.ScanState), l < lines.length →
      i < (lines.getD l []).length → IsCharBoundary (lines.getD l []) i →
      t.currentLine = l → t.currentIndex = i → t.withinString = false →
      t.concatenate = false → St l i t →
      F l i
          (glyphAt (ColorizeInternal.scanGlyph lang lines.length (lines.getD l []) t).1
            i).mMultiLineComment
          (glyphAt (ColorizeInternal.scanGlyph lang lines.length (lines.getD l []) t).1
            i).mComment
          (glyphAt (ColorizeInternal.scanGlyph lang lines.length (lines.getD l []) t).1
            i).mPreprocessor
        ∧ St (ColorizeInternal.scanGlyph lang lines.length (lines.getD l []) t).2.currentLine
            (ColorizeInternal.scanGlyph lang lines.length (lines.getD l []) t).2.currentIndex
            (ColorizeInternal.lineStart
              (ColorizeInternal.scanGlyph lang lines.length (lines.getD l []) t).2)) :
    ∀ l i, l < lines.length → i < (lines.getD l []).length →
      IsCharBoundary (lines.getD l []) i →
      F l i
        (glyphAt ((ColorizeInternal.checkComments lang lines).getD l []) i).mMultiLineComment
        (glyphAt ((ColorizeInternal.checkComments lang lines).getD l []) i).mComment
        (glyphAt ((ColorizeInternal.checkComments lang lines).getD l []) i).mPreprocessor := by
  unfold ColorizeInternal.checkComments ColorizeInternal.fuel
  apply scan_induction_aux lang lines hq St F h_empty h_glyph
  · rfl
  · intro l; rfl
  · rfl
  · exact Nat.zero_le _
  · intro h
    refine ⟨fun _ => rfl, fun h2 => h2, boundary_zero _⟩
  · exact h_init
  · intro l i h
    rcases h with h | h
    · exact absurd h (Nat.not_lt_zero _)
    · exact absurd h.2 (Nat.not_lt_zero _)
  · simp

/-! ### The single-line comment flag -/

theorem lineStart_flags (s : ColorizeInternal.ScanState) :
    (ColorizeInternal.lineStart s).withinSingleLineComment
        = (if s.currentIndex = 0 ∧ s.concatenate = false then false
            else s.withinSingleLineComment)
      ∧ (ColorizeInternal.lineStart s).withinPreproc
        = (if s.currentIndex = 0 ∧ s.concatenate = false then false else s.withinPreproc)
      ∧ (ColorizeInternal.lineStart s).firstChar
        = (if s.currentIndex = 0 ∧ s.concatenate = false then true else s.firstChar) := by
  unfold ColorizeInternal.lineStart
  by_cases h : s.currentIndex = 0 ∧ s.concatenate = false
  · simp [h]
  · rw [if_neg h, if_neg h, if_neg h]
    have : ¬ ((s.currentIndex = 0 && !s.concatenate) = true) := by
      simpa using h
    simp [this]

theorem occursAt_first (d : List Nat) (ln : Line) (j : Nat) (h : occursAt d ln j)
    (hne : d ≠ []) (hascii : ∀ c ∈ d, c < 128) :
    j < ln.length ∧ (glyphAt ln j).mChar < 128 := by
  obtain ⟨h1, h2⟩ := h
  cases d with
  | nil => exact absurd rfl hne
  | cons a s =>
    simp only [List.length_cons] at h1 h2
    have hj : j < ln.length := by omega
    refine ⟨hj, ?_⟩
    have h3 := congrArg (fun x => x.getD 0 0) h2
    simp only [List.getD_eq_getElem?_getD, List.getElem?_take, List.getElem?_drop,
      Nat.add_zero, List.getElem?_cons_zero, Option.getD_some] at h3
    rw [if_pos (by omega)] at h3
    have h4 := lineText_getD ln j
    rw [List.getD_eq_getElem?_getD] at h4
    rw [← h4, h3]
    exact hascii a (List.mem_cons_self _ _)

/-- In well-formed text no ASCII string occurs between a character start and the next. -/
theorem occursAt_after (d : List Nat) (ln : Line) (i j : Nat) (hv : ValidUTF8 (lineText ln))
    (hb : IsCharBoundary ln i) (hi : i < ln.length) (hij : i < j) (h : occursAt d ln j)
    (hne : d ≠ []) (hascii : ∀ c ∈ d, c < 128) :
    i + UTF8CharLength (glyphAt ln i).mChar ≤ j := by
  by_contra hlt
  obtain ⟨-, h2⟩ := valid_char ln i hv hb hi
  have := IsUTFSequence_ge _ (h2 j hij (by omega))
  have := (occursAt_first d ln j h hne hascii).2
  omega

/-- In well-formed text a final backslash is the last character start. -/
theorem last_backslash (ln : Line) (i : Nat) (hv : ValidUTF8 (lineText ln))
    (hb : IsCharBoundary ln i) (hi : i < ln.length)
    (hw : ln.length ≤ i + UTF8CharLength (glyphAt ln i).mChar)
    (h : (glyphAt ln (ln.length - 1)).mChar = 92) : i + 1 = ln.length := by
  by_contra hne
  obtain ⟨-, h2⟩ := valid_char ln i hv hb hi
  have := IsUTFSequence_ge _ (h2 (ln.length - 1) (by omega) (by omega))
  omega

theorem scan_comment_flag (lang : LanguageDefinition) (lines : Lines)
    (hq : ∀ ln ∈ lines, ∀ g ∈ ln, g.mChar ≠ 34)
    (hv : ∀ ln ∈ lines, ValidUTF8 (lineText ln))
    (hne : lang.mSingleLineComment ≠ [])
    (hascii : ∀ c ∈ lang.mSingleLineComment, c < 128) :
    ∀ l i, l < lines.length → i < (lines.getD l []).length →
      IsCharBoundary (lines.getD l []) i →
      ((glyphAt ((ColorizeInternal.checkComments lang lines).getD l []) i).mComment = true
        ↔ commentCarried lang.mSingleLineComment lines l
            ∨ ∃ j, j ≤ i ∧ occursAt lang.mSingleLineComment (lines.getD l []) j) := by
  have hpos : 0 < lang.mSingleLineComment.length := List.length_pos.mpr hne
  have hmem : ∀ l, l < lines.length → lines.getD l [] ∈ lines := by
    intro l hl
    rw [List.getD_eq_getElem?_getD, List.getElem?_eq_getElem hl]
    exact List.getElem_mem _
  apply scan_induction lang lines hq
    (fun l i t => (t.withinSingleLineComment = true
      ↔ commentCarried lang.mSingleLineComment lines l
          ∨ ∃ j, j < i ∧ occursAt lang.mSingleLineComment (lines.getD l []) j))
    (fun l i _ cm _ => (cm = true
      ↔ commentCarried lang.mSingleLineComment lines l
          ∨ ∃ j, j ≤ i ∧ occursAt lang.mSingleLineComment (lines.getD l []) j))
  · -- the start
    simp [ColorizeInternal.lineStart, commentCarried]
  · -- an empty line
    intro l t hl hemp hcl hci hconc hst
    have hnb : ¬ endsWithBackslash (lines.getD l []) := by
      rw [hemp]; exact fun h => h.1 rfl
    rw [(lineStart_flags _).1, if_pos ⟨rfl, hconc⟩]
    constructor
    · intro h; exact absurd h (by simp)
    · rintro (h | ⟨j, hj, -⟩)
      · exact absurd h.1 hnb
      · omega
  · -- a glyph
    intro l i t hl hi hb hcl hci hws hconc hst
    have hchar : (glyphAt (lines.getD l []) t.currentIndex).mChar ≠ 34 := by
      apply hq _ (hmem l hl)
      rw [hci, glyphAt_eq_getElem _ _ hi]
      exact List.get_mem _ _ _
    have hval := hv _ (hmem l hl)
    obtain ⟨hfit, -⟩ := valid_char _ i hval hb hi
    rw [scanGlyph_line lang _ _ t hws hchar, scanGlyph_state lang _ _ t hws hchar]
    simp only [hci, hcl, hconc, Bool.false_or]
    rw [glyphAt_modifyGlyph_self _ _ _ hi]
    simp only
    have hnow : (t.withinSingleLineComment
          || (decide (0 < lang.mSingleLineComment.length)
              && ColorizeInternal.startsAt lang.mSingleLineComment (lines.getD l []) i)) = true
        ↔ commentCarried lang.mSingleLineComment lines l
            ∨ ∃ j, j ≤ i ∧ occursAt lang.mSingleLineComment (lines.getD l []) j := by
      rw [Bool.or_eq_true, Bool.and_eq_true, decide_eq_true_eq, startsAt_iff, hst]
      constructor
      · rintro (h | h)
        · rcases h with h | ⟨j, hj, ho⟩
          · exact Or.inl h
          · exact Or.inr ⟨j, by omega, ho⟩
        · exact Or.inr ⟨i, le_rfl, h.2.2⟩
      · rintro (h | ⟨j, hj, ho⟩)
        · exact Or.inl (Or.inl h)
        · rcases Nat.lt_or_ge j i with h2 | h2
          · exact Or.inl (Or.inr ⟨j, h2, ho⟩)
          · have : j = i := by omega
            subst this
            exact Or.inr ⟨hpos, hascii, ho⟩
    refine ⟨hnow, ?_⟩
    rw [(lineStart_flags _).1]
    simp only
    by_cases hw : (lines.getD l []).length
        ≤ i + UTF8CharLength (glyphAt (lines.getD l []) i).mChar
    · -- the last character of the line
      simp only [if_pos hw, true_and]
      have hcont : (decide (i + 1 = (lines.getD l []).length)
            && decide ((glyphAt (lines.getD l []) ((lines.getD l []).length - 1)).mChar = 92))
            = true
          ↔ endsWithBackslash (lines.getD l []) := by
        rw [Bool.and_eq_true, decide_eq_true_eq, decide_eq_true_eq]
        unfold endsWithBackslash
        constructor
        · rintro ⟨-, h2⟩
          exact ⟨List.length_pos.mp (by omega), h2⟩
        · rintro ⟨-, h2⟩
          exact ⟨last_backslash _ i hval hb hi hw h2, h2⟩
      have hany : (∃ j, occursAt lang.mSingleLineComment (lines.getD l []) j)
          ↔ ∃ j, j ≤ i ∧ occursAt lang.mSingleLineComment (lines.getD l []) j := by
        constructor
        · rintro ⟨j, ho⟩
          refine ⟨j, ?_, ho⟩
          by_contra hgt
          have h1 := occursAt_after _ _ i j hval hb hi (by omega) ho hne hascii
          have h2 := (occursAt_first _ _ j ho hne hascii).1
          omega
        · rintro ⟨j, -, ho⟩
          exact ⟨j, ho⟩
      by_cases hc : (decide (i + 1 = (lines.getD l []).length)
            && decide ((glyphAt (lines.getD l []) ((lines.getD l []).length - 1)).mChar = 92))
            = true
      · have hc2 := hcont.mp hc
        rw [if_neg (by rw [hc]; simp), hnow]
        simp only [commentCarried, hc2, true_and, hany]
        constructor
        · intro h; exact Or.inl h
        · rintro (h | ⟨j, hj, -⟩)
          · exact h
          · omega
      · have hc2 : ¬ endsWithBackslash (lines.getD l []) := fun h => hc (hcont.mpr h)
        have hc3 : (decide (i + 1 = (lines.getD l []).length)
            && decide ((glyphAt (lines.getD l []) ((lines.getD l []).length - 1)).mChar = 92))
            = false := by simpa using hc
        rw [if_pos (by rw [hc3])]
        simp only [commentCarried, hc2, false_and, false_or]
        constructor
        · intro h; exact absurd h (by simp)
        · rintro ⟨j, hj, -⟩; omega
    · -- inside the line
      simp only [if_neg hw]
      have hU := UTF8CharLength_pos (glyphAt (lines.getD l []) i).mChar
      rw [if_neg (by omega), hnow]
      constructor
      · rintro (h | ⟨j, hj, ho⟩)
        · exact Or.inl h
        · exact Or.inr ⟨j, by omega, ho⟩
      · rintro (h | ⟨j, hj, ho⟩)
        · exact Or.inl h
        · refine Or.inr ⟨j, ?_, ho⟩
          by_contra hgt
          have h1 := occursAt_after _ _ i j hval hb hi (by omega) ho hne hascii
          omega

theorem endsWithBackslash_boundary (ln : Line) (hv : ValidUTF8 (lineText ln))
    (h : endsWithBackslash ln) :
    ln.length - 1 < ln.length ∧ IsCharBoundary ln (ln.length - 1) := by
  have hpos : 0 < ln.length := List.length_pos.mpr h.1
  refine ⟨by omega, valid_boundary ln _ hv (by omega) ?_⟩
  rw [h.2]; decide

/-- C24 (the claim as stated fails): in the line "// é" the single-line comment
delimiter stands at index 0, yet the second byte of "é", a glyph between the delimiter
and the end of the line, has the single-line-comment flag clear after the scan. -/
theorem C24_counterexample :
    occursAt cLikeLanguage.mSingleLineComment (toLine [47, 47, 32, 195, 169]) 0
      ∧ (glyphAt ((ColorizeInternal.checkComments cLikeLanguage
          [toLine [47, 47, 32, 195, 169]]).getD 0 []) 4).mComment = false := by
  decide

/-- C24 (amended): in the comment scan of a document of well-formed UTF-8 without
double quotes, for a language whose single-line comment delimiter is a non-empty ASCII
string: on a line whose predecessor does not end with a backslash, a glyph that starts a
character has the single-line-comment flag set exactly when a delimiter begins at or
before it on the line; and when the backslash that ends a line has the flag set, every
glyph of the next line that starts a character has it set. -/
theorem C24_single_line_comment (lang : LanguageDefinition) (lines : Lines)
    (hq : ∀ ln ∈ lines, ∀ g ∈ ln, g.mChar ≠ 34)
    (hv : ∀ ln ∈ lines, ValidUTF8 (lineText ln))
    (hne : lang.mSingleLineComment ≠ [])
    (hascii : ∀ c ∈ lang.mSingleLineComment, c < 128) :
    (∀ l i, l < lines.length → (l = 0 ∨ ¬ endsWithBackslash (lines.getD (l - 1) [])) →
        i < (lines.getD l []).length → IsCharBoundary (lines.getD l []) i →
        ((glyphAt ((ColorizeInternal.checkComments lang lines).getD l []) i).mComment = true
          ↔ ∃ j, j ≤ i ∧ occursAt lang.mSingleLineComment (lines.getD l []) j))
      ∧ (∀ l i, l + 1 < lines.length → endsWithBackslash (lines.getD l []) →
          (glyphAt ((ColorizeInternal.checkComments lang lines).getD l [])
            ((lines.getD l []).length - 1)).mComment = true →
          i < (lines.getD (l + 1) []).length → IsCharBoundary (lines.getD (l + 1) []) i →
          (glyphAt ((ColorizeInternal.checkComments lang lines).getD (l + 1) []) i).mComment
            = true) := by
  have key := scan_comment_flag lang lines hq hv hne hascii
  have hmem : ∀ l, l < lines.length → lines.getD l [] ∈ lines := by
    intro l hl
    rw [List.getD_eq_getElem?_getD, List.getElem?_eq_getElem hl]
    exact List.getElem_mem _
  constructor
  · intro l i hl hfresh hi hb
    rw [key l i hl hi hb]
    have hnc : ¬ commentCarried lang.mSingleLineComment lines l := by
      cases l with
      | zero => exact fun h => h
      | succ l =>
        rcases hfresh with h | h
        · omega
        · exact fun hc => h hc.1
    constructor
    · rintro (h | h)
      · exact absurd h hnc
      · exact h
    · exact fun h => Or.inr h
  · intro l i hl hewb hflag hi hb
    obtain ⟨b1, b2⟩ := endsWithBackslash_boundary _ (hv _ (hmem l (by omega))) hewb
    rw [key l _ (by omega) b1 b2] at hflag
    rw [key (l + 1) i hl hi hb]
    left
    refine ⟨hewb, ?_⟩
    rcases hflag with h | ⟨j, -, ho⟩
    · exact Or.inl h
    · exact Or.inr ⟨j, ho⟩

theorem C24_single_line_comment_witness :
    (glyphAt ((ColorizeInternal.checkComments cLikeLanguage
        [toLine [120, 47, 47, 92], toLine [122]]).getD (0 + 1) []) 0).mComment = true :=
  (C24_single_line_comment cLikeLanguage [toLine [120, 47, 47, 92], toLine [122]]
    (by decide) (by decide) (by decide) (by decide)).2 0 0
    (by decide) (by decide) (by decide) (by decide) (by decide)

/-! ### The preprocessor flag -/

theorem sameChar_iff (P c : Nat) (hP : P < 128) : sameChar P c = true ↔ c = P := by
  unfold sameChar
  simp only [Bool.and_eq_true, decide_eq_true_eq, beq_iff_eq]
  constructor
  · rintro ⟨-, h⟩; exact h.symm
  · intro h; exact ⟨hP, h.symm⟩

theorem blankOrPreproc_iff (P c : Nat) (hP : P < 128) :
    (sameChar P c || isspace c) = true ↔ blankOrPreproc P c := by
  rw [Bool.or_eq_true, sameChar_iff P c hP]
  rfl

theorem blankOrPreproc_ascii (P c : Nat) (hP : P < 128) (h : blankOrPreproc P c) : c < 128 := by
  rcases h with h | h
  · omega
  · unfold isspace at h
    simp only [Bool.or_eq_true, decide_eq_true_eq, Bool.and_eq_true] at h
    omega

theorem spanLength_all (p : Nat → Bool) (t : List Nat) :
    ∀ k, k < spanLength p t → p (t.getD k 0) = true := by
  induction t with
  | nil => intro k hk; simp [spanLength] at hk
  | cons c s ih =>
    intro k hk
    simp only [spanLength] at hk
    by_cases hc : p c = true
    · rw [if_pos hc] at hk
      cases k with
      | zero => simpa using hc
      | succ k =>
        have := ih k (by omega)
        simpa using this
    · rw [if_neg hc] at hk
      omega

theorem spanLength_stop (p : Nat → Bool) (t : List Nat) (h : spanLength p t < t.length) :
    p (t.getD (spanLength p t) 0) = false := by
  induction t with
  | nil => simp at h
  | cons c s ih =>
    simp only [spanLength] at h ⊢
    by_cases hc : p c = true
    · rw [if_pos hc] at h ⊢
      have := ih (by simpa using h)
      simpa using this
    · rw [if_neg hc]
      simpa using hc

/-- C25 (the claim as stated fails): in each of the three lines the first character is
the preprocessor character and the line is not inside a string, yet a glyph between that
character and the end of the line has the preprocessor flag clear after the scan: in
"#é" the second byte of "é"; in `#d "a\"b"` the backslash inside the string; in
`#d "a""b"` the double quote inside the string that another one follows. -/
theorem C25_counterexample :
    (glyphAt (toLine [35, 195, 169]) 0).mChar = cLikeLanguage.mPreprocChar
      ∧ (glyphAt ((ColorizeInternal.checkComments cLikeLanguage
          [toLine [35, 195, 169]]).getD 0 []) 2).mPreprocessor = false
      ∧ ((ColorizeInternal.checkComments cLikeLanguage
          [toLine [35, 100, 32, 34, 97, 92, 34, 98, 34]]).getD 0 []).map
          (fun g => g.mPreprocessor)
        = [true, true, true, true, true, false, true, true, true]
      ∧ ((ColorizeInternal.checkComments cLikeLanguage
          [toLine [35, 100, 32, 34, 97, 34, 34, 98, 34]]).getD 0 []).map
          (fun g => g.mPreprocessor)
        = [true, true, true, true, true, false, true, true, true] := by
  decide

/-! ### The multi-line comment flag -/

theorem occursAt_last (d : List Nat) (ln : Line) (k : Nat) (h : occursAt d ln k)
    (hne : d ≠ []) (hascii : ∀ c ∈ d, c < 128) :
    k + d.length - 1 < ln.length ∧ (glyphAt ln (k + d.length - 1)).mChar < 128 := by
  obtain ⟨h1, h2⟩ := h
  have hpos : 0 < d.length := List.length_pos.mpr hne
  refine ⟨by omega, ?_⟩
  have h3 := congrArg (fun x => x.getD (d.length - 1) 0) h2
  simp only [List.getD_eq_getElem?_getD, List.getElem?_take, List.getElem?_drop] at h3
  rw [if_pos (by omega)] at h3
  have h4 := lineText_getD ln (k + d.length - 1)
  rw [List.getD_eq_getElem?_getD] at h4
  have e1 : k + (d.length - 1) = k + d.length - 1 := by omega
  rw [e1] at h3
  rw [← h4, h3, List.getElem?_eq_getElem (by omega)]
  exact hascii _ (List.getElem_mem _)

/-- How the open-comment state moves from one scan position to the next. -/
theorem commentOpenAt_step (S E : List Nat) (lines : Lines) (l i l2 i2 : Nat)
    (hE : 0 < E.length)
    (hnext : (l2 = l ∧ i < i2) ∨ (l2 = l + 1 ∧ i2 = 0))
    (hSb : ∀ j, i < j → occursAt S (lines.getD l []) j → l2 = l ∧ i2 ≤ j)
    (hEb : ∀ i1, occursAt E (lines.getD l []) i1 → i < i1 + E.length - 1 →
      l2 = l ∧ i2 ≤ i1 + E.length - 1) :
    commentOpenAt S E lines l2 i2
      ↔ (commentOpenAt S E lines l i ∨ occursAt S (lines.getD l []) i)
          ∧ ¬ ∃ i1, occursAt E (lines.getD l []) i1 ∧ i1 + E.length - 1 = i := by
  constructor
  · rintro ⟨l0, i0, hs, hlt, hall⟩
    have hle : l0 < l ∨ (l0 = l ∧ i0 ≤ i) := by
      rcases hlt with h | ⟨h1, h2⟩
      · rcases hnext with ⟨h3, -⟩ | ⟨h3, -⟩
        · left; omega
        · rcases Nat.lt_or_ge l0 l with h4 | h4
          · exact Or.inl h4
          · have h5 : l0 = l := by omega
            subst h5
            right
            refine ⟨rfl, ?_⟩
            by_contra hgt
            have := hSb i0 (by omega) hs
            omega
      · rcases hnext with ⟨h3, h4⟩ | ⟨h3, h4⟩
        · right
          have h5 : l0 = l := by omega
          subst h5
          refine ⟨rfl, ?_⟩
          by_contra hgt
          have := hSb i0 (by omega) hs
          omega
        · omega
    constructor
    · rcases hle with h | ⟨h1, h2⟩
      · left
        refine ⟨l0, i0, hs, Or.inl h, ?_⟩
        intro l1 i1 he hge
        have := hall l1 i1 he hge
        rcases hnext with ⟨h3, h4⟩ | ⟨h3, h4⟩ <;> omega
      · rcases Nat.lt_or_ge i0 i with h3 | h3
        · left
          refine ⟨l0, i0, hs, Or.inr ⟨h1, h3⟩, ?_⟩
          intro l1 i1 he hge
          have := hall l1 i1 he hge
          rcases hnext with ⟨h5, h4⟩ | ⟨h5, h4⟩ <;> omega
        · right
          have h4 : i0 = i := by omega
          subst h4; subst h1
          exact hs
    · rintro ⟨i1, he, hi1⟩
      have := hall l i1 he (by rcases hle with h | ⟨h1, h2⟩ <;> omega)
      rcases hnext with ⟨h5, h4⟩ | ⟨h5, h4⟩ <;> omega
  · rintro ⟨hopen, hnoend⟩
    have hfin : ∀ i1, occursAt E (lines.getD l []) i1 → i ≤ i1 + E.length - 1 →
        l2 < l ∨ (l2 = l ∧ i2 ≤ i1 + E.length - 1) := by
      intro i1 he hge
      rcases Nat.lt_or_ge i (i1 + E.length - 1) with h | h
      · exact Or.inr (hEb i1 he h)
      · exact absurd ⟨i1, he, by omega⟩ hnoend
    rcases hopen with ⟨l0, i0, hs, hlt, hall⟩ | hs
    · refine ⟨l0, i0, hs, by rcases hnext with ⟨h5, h4⟩ | ⟨h5, h4⟩ <;> omega, ?_⟩
      intro l1 i1 he hge
      have h1 := hall l1 i1 he hge
      rcases h1 with h1 | ⟨h1, h2⟩
      · rcases hnext with ⟨h5, h4⟩ | ⟨h5, h4⟩ <;> omega
      · subst h1
        have := hfin i1 he h2
        rcases hnext with ⟨h5, h4⟩ | ⟨h5, h4⟩ <;> omega
    · refine ⟨l, i, hs, by rcases hnext with ⟨h5, h4⟩ | ⟨h5, h4⟩ <;> omega, ?_⟩
      intro l1 i1 he hge
      rcases hge with h1 | ⟨h1, h2⟩
      · rcases hnext with ⟨h5, h4⟩ | ⟨h5, h4⟩ <;> omega
      · subst h1
        have := hfin i1 he h2
        rcases hnext with ⟨h5, h4⟩ | ⟨h5, h4⟩ <;> omega

theorem scan_multiline_flag (lang : LanguageDefinition) (lines : Lines)
    (hq : ∀ ln ∈ lines, ∀ g ∈ ln, g.mChar ≠ 34)
    (hv : ∀ ln ∈ lines, ValidUTF8 (lineText ln))
    (hSne : lang.mCommentStart ≠ []) (hSa : ∀ c ∈ lang.mCommentStart, c < 128)
    (hEne : lang.mCommentEnd ≠ []) (hEa : ∀ c ∈ lang.mCommentEnd, c < 128)
    (hslc : lang.mSingleLineComment = []
      ∨ ∀ l j, ¬ occursAt lang.mSingleLineComment (lines.getD l []) j) :
    ∀ l i, l < lines.length → i < (lines.getD l []).length →
      IsCharBoundary (lines.getD l []) i →
      ((glyphAt ((ColorizeInternal.checkComments lang lines).getD l []) i).mMultiLineComment
          = true
        ↔ commentOpenAt lang.mCommentStart lang.mCommentEnd lines l i
            ∨ occursAt lang.mCommentStart (lines.getD l []) i) := by
  have hEpos : 0 < lang.mCommentEnd.length := List.length_pos.mpr hEne
  have hSpos : 0 < lang.mCommentStart.length := List.length_pos.mpr hSne
  have hmem : ∀ l, l < lines.length → lines.getD l [] ∈ lines := by
    intro l hl
    rw [List.getD_eq_getElem?_getD, List.getElem?_eq_getElem hl]
    exact List.getElem_mem _
  have hnoslc : ∀ l i, (decide (0 < lang.mSingleLineComment.length)
      && ColorizeInternal.startsAt lang.mSingleLineComment (lines.getD l []) i) = false := by
    intro l i
    rcases hslc with h | h
    · simp [h]
    · have : ColorizeInternal.startsAt lang.mSingleLineComment (lines.getD l []) i = false := by
        cases hh : ColorizeInternal.startsAt lang.mSingleLineComment (lines.getD l []) i
        · rfl
        · exact absurd ((startsAt_iff _ _ _).mp hh).2 (h l i)
      rw [this, Bool.and_false]
  apply scan_induction lang lines hq
    (fun l i t => t.withinSingleLineComment = false
      ∧ ((t.commentStartLine = lines.length ∧ t.commentStartIndex = 0
            ∧ ¬ commentOpenAt lang.mCommentStart lang.mCommentEnd lines l i)
          ∨ ((t.commentStartLine < l ∨ (t.commentStartLine = l ∧ t.commentStartIndex < i))
            ∧ commentOpenAt lang.mCommentStart lang.mCommentEnd lines l i)))
    (fun l i ml _ _ => (ml = true
      ↔ commentOpenAt lang.mCommentStart lang.mCommentEnd lines l i
          ∨ occursAt lang.mCommentStart (lines.getD l []) i))
  · -- the start
    refine ⟨by simp [ColorizeInternal.lineStart], Or.inl ⟨?_, ?_, ?_⟩⟩
    · exact (lineStart_fields _).2.2.2.2.1
    · exact (lineStart_fields _).2.2.2.2.2
    · rintro ⟨l0, i0, -, h, -⟩
      omega
  · -- an empty line
    intro l t hl hemp hcl hci hconc hst
    obtain ⟨hslcf, hrep⟩ := hst
    have hnoS : ∀ j, ¬ occursAt lang.mCommentStart (lines.getD l []) j := by
      intro j h
      have := h.1
      rw [hemp, List.length_nil] at this
      omega
    have hnoE : ∀ j, ¬ occursAt lang.mCommentEnd (lines.getD l []) j := by
      intro j h
      have := h.1
      rw [hemp, List.length_nil] at this
      omega
    have hiff : commentOpenAt lang.mCommentStart lang.mCommentEnd lines (l + 1) 0
        ↔ commentOpenAt lang.mCommentStart lang.mCommentEnd lines l 0 := by
      constructor
      · rintro ⟨l0, i0, hs, hlt, hall⟩
        have h1 : l0 < l := by
          rcases Nat.lt_or_ge l0 l with h | h
          · exact h
          · have : l0 = l := by omega
            subst this
            exact absurd hs (hnoS _)
        refine ⟨l0, i0, hs, Or.inl h1, ?_⟩
        intro l1 i1 he hge
        have := hall l1 i1 he hge
        omega
      · rintro ⟨l0, i0, hs, hlt, hall⟩
        refine ⟨l0, i0, hs, by omega, ?_⟩
        intro l1 i1 he hge
        have h1 := hall l1 i1 he hge
        rcases h1 with h1 | ⟨h1, h2⟩
        · omega
        · subst h1
          exact absurd he (hnoE _)
    refine ⟨?_, ?_⟩
    · rw [(lineStart_flags _).1, if_pos ⟨rfl, hconc⟩]
    · rw [(lineStart_fields _).2.2.2.2.1, (lineStart_fields _).2.2.2.2.2, hiff]
      rcases hrep with ⟨h1, h2, h3⟩ | ⟨h1, h2⟩
      · exact Or.inl ⟨h1, h2, h3⟩
      · exact Or.inr ⟨by show t.commentStartLine < l + 1 ∨ _; omega, h2⟩
  · -- a glyph
    intro l i t hl hi hb hcl hci hws hconc hst
    obtain ⟨hslcf, hrep⟩ := hst
    have hchar : (glyphAt (lines.getD l []) t.currentIndex).mChar ≠ 34 := by
      apply hq _ (hmem l hl)
      rw [hci, glyphAt_eq_getElem _ _ hi]
      exact List.get_mem _ _ _
    have hval := hv _ (hmem l hl)
    obtain ⟨hfit, hcontin⟩ := valid_char _ i hval hb hi
    have hU := UTF8CharLength_pos (glyphAt (lines.getD l []) i).mChar
    -- the state on arrival
    have hin : ColorizeInternal.inComment t = true
        ↔ commentOpenAt lang.mCommentStart lang.mCommentEnd lines l i := by
      unfold ColorizeInternal.inComment
      rw [hcl, hci]
      rcases hrep with ⟨h1, h2, h3⟩ | ⟨h1, h2⟩
      · rw [h1, h2]
        constructor
        · intro h
          simp only [Bool.or_eq_true, decide_eq_true_eq, Bool.and_eq_true, beq_iff_eq] at h
          omega
        · intro h; exact absurd h h3
      · constructor
        · intro _; exact h2
        · intro _
          simp only [Bool.or_eq_true, decide_eq_true_eq, Bool.and_eq_true, beq_iff_eq]
          omega
    have hSiff : ColorizeInternal.startsAt lang.mCommentStart (lines.getD l []) i = true
        ↔ occursAt lang.mCommentStart (lines.getD l []) i := by
      rw [startsAt_iff]
      exact ⟨fun h => h.2, fun h => ⟨hSa, h⟩⟩
    have hEiff : ColorizeInternal.endsAt lang.mCommentEnd (lines.getD l []) i = true
        ↔ ∃ i1, occursAt lang.mCommentEnd (lines.getD l []) i1
            ∧ i1 + lang.mCommentEnd.length - 1 = i := by
      rw [endsAt_iff _ _ _ hi]
      constructor
      · rintro ⟨-, h1, h2⟩
        exact ⟨_, h2, by omega⟩
      · rintro ⟨i1, h1, h2⟩
        have e1 : i + 1 - lang.mCommentEnd.length = i1 := by omega
        exact ⟨hEa, by omega, by rw [e1]; exact h1⟩
    rw [scanGlyph_line lang _ _ t hws hchar, scanGlyph_state lang _ _ t hws hchar]
    simp only [hci, hcl, hconc, hnoslc, hslcf, Bool.false_or, Bool.not_false, Bool.true_and]
    rw [glyphAt_modifyGlyph_self _ _ _ hi]
    simp only
    have hflag : (ColorizeInternal.startsAt lang.mCommentStart (lines.getD l []) i
          || ColorizeInternal.inComment t) = true
        ↔ commentOpenAt lang.mCommentStart lang.mCommentEnd lines l i
            ∨ occursAt lang.mCommentStart (lines.getD l []) i := by
      rw [Bool.or_eq_true, hSiff, hin]
      exact Or.comm
    refine ⟨hflag, ?_, ?_⟩
    · rw [(lineStart_flags _).1]
      simp only
      split_ifs <;> rfl
    · rw [(lineStart_fields _).2.2.2.2.1, (lineStart_fields _).2.2.2.2.2]
      simp only
      -- the next position and what lies before it
      have hstep : ∀ l2 i2, ((l2 = l ∧ i2 = i + UTF8CharLength (glyphAt (lines.getD l []) i).mChar
            ∧ i2 < (lines.getD l []).length)
          ∨ (l2 = l + 1 ∧ i2 = 0
            ∧ (lines.getD l []).length
                ≤ i + UTF8CharLength (glyphAt (lines.getD l []) i).mChar)) →
          (commentOpenAt lang.mCommentStart lang.mCommentEnd lines l2 i2
            ↔ (commentOpenAt lang.mCommentStart lang.mCommentEnd lines l i
                  ∨ occursAt lang.mCommentStart (lines.getD l []) i)
                ∧ ¬ ∃ i1, occursAt lang.mCommentEnd (lines.getD l []) i1
                    ∧ i1 + lang.mCommentEnd.length - 1 = i) := by
        intro l2 i2 hpos
        apply commentOpenAt_step _ _ _ _ _ _ _ hEpos
        · rcases hpos with ⟨h1, h2, h3⟩ | ⟨h1, h2, h3⟩
          · exact Or.inl ⟨h1, by omega⟩
          · exact Or.inr ⟨h1, h2⟩
        · intro j hj ho
          have h1 := occursAt_after _ _ i j hval hb hi hj ho hSne hSa
          have h2 := (occursAt_first _ _ j ho hSne hSa).1
          rcases hpos with ⟨h3, h4, h5⟩ | ⟨h3, h4, h5⟩
          · exact ⟨h3, by omega⟩
          · omega
        · intro i1 ho hj
          obtain ⟨h1, h2⟩ := occursAt_last _ _ i1 ho hEne hEa
          have h3 : i + UTF8CharLength (glyphAt (lines.getD l []) i).mChar
              ≤ i1 + lang.mCommentEnd.length - 1 := by
            by_contra hlt
            have := IsUTFSequence_ge _ (hcontin _ hj (by omega))
            omega
          rcases hpos with ⟨h4, h5, h6⟩ | ⟨h4, h5, h6⟩
          · exact ⟨h4, by omega⟩
          · omega
      by_cases hw : (lines.getD l []).length
          ≤ i + UTF8CharLength (glyphAt (lines.getD l []) i).mChar
      · simp only [if_pos hw]
        rw [hstep (l + 1) 0 (Or.inr ⟨rfl, rfl, hw⟩), ← hEiff, ← hflag]
        cases hE : ColorizeInternal.endsAt lang.mCommentEnd (lines.getD l []) i
        · cases hS : ColorizeInternal.startsAt lang.mCommentStart (lines.getD l []) i
          · simp only [Bool.false_eq_true, if_false, Bool.false_or, not_false_eq_true, and_true]
            rcases hrep with ⟨h1, h2, h3⟩ | ⟨h1, h2⟩
            · exact Or.inl ⟨h1, h2, fun h => h3 (hin.mp h)⟩
            · exact Or.inr ⟨by omega, hin.mpr h2⟩
          · simp only [Bool.false_eq_true, if_false, if_true, Bool.true_or, not_false_eq_true,
              and_true]
            refine Or.inr ?_
            omega
        · simp only [if_true, not_true_eq_false, and_false, not_false_eq_true, and_true]
          exact Or.inl trivial
      · simp only [if_neg hw]
        rw [hstep l _ (Or.inl ⟨rfl, rfl, by omega⟩), ← hEiff, ← hflag]
        cases hE : ColorizeInternal.endsAt lang.mCommentEnd (lines.getD l []) i
        · cases hS : ColorizeInternal.startsAt lang.mCommentStart (lines.getD l []) i
          · simp only [Bool.false_eq_true, if_false, Bool.false_or, not_false_eq_true, and_true]
            rcases hrep with ⟨h1, h2, h3⟩ | ⟨h1, h2⟩
            · exact Or.inl ⟨h1, h2, fun h => h3 (hin.mp h)⟩
            · exact Or.inr ⟨by omega, hin.mpr h2⟩
          · simp only [Bool.false_eq_true, if_false, if_true, Bool.true_or, not_false_eq_true,
              and_true]
            exact Or.inr (Or.inr ⟨trivial, by omega⟩)
        · simp only [if_true, not_true_eq_false, and_false, not_false_eq_true, and_true]
          exact Or.inl trivial

/-- C23 (the claim as stated fails): in the line "/*é*/" the second byte of "é" lies
between the comment-start delimiter and the comment-end delimiter that follows it, yet
its multi-line-comment flag is clear after the scan. -/
theorem C23_counterexample :
    InMultiLineComment cLikeLanguage.mCommentStart cLikeLanguage.mCommentEnd
        [toLine [47, 42, 195, 169, 42, 47]] 0 3
      ∧ (glyphAt ((ColorizeInternal.checkComments
            { cLikeLanguage with mSingleLineComment := [] }
            [toLine [47, 42, 195, 169, 42, 47]]).getD 0 []) 3).mMultiLineComment = false := by
  refine ⟨⟨0, 0, by decide, by decide, ?_⟩, by decide⟩
  intro l1 i1 ho _
  cases l1 with
  | zero =>
    right
    refine ⟨rfl, ?_⟩
    have h1 : i1 + 2 ≤ 6 := ho.1
    have h2 := ho.2
    have h3 : i1 ≤ 4 := by omega
    interval_cases i1
    · exact absurd h2 (by decide)
    · exact absurd h2 (by decide)
    · exact absurd h2 (by decide)
    · exact absurd h2 (by decide)
    · decide
  | succ l1 => left; omega

/-- C23 (amended): in the comment scan of a document of well-formed UTF-8 without
double quotes and without single-line comment delimiters, for a language whose
comment-start and comment-end delimiters are non-empty ASCII strings, and when no
comment-end delimiter shares a byte with a comment-start delimiter, a glyph that starts
a character has its multi-line-comment flag set exactly when it lies between the first
byte of a comment-start delimiter and the last byte of the next comment-end delimiter
that begins after that start delimiter ends, also across lines; an unterminated comment
extends to the end of the document. -/
theorem C23_multi_line_comment (lang : LanguageDefinition) (lines : Lines)
    (hq : ∀ ln ∈ lines, ∀ g ∈ ln, g.mChar ≠ 34)
    (hv : ∀ ln ∈ lines, ValidUTF8 (lineText ln))
    (hSne : lang.mCommentStart ≠ []) (hSa : ∀ c ∈ lang.mCommentStart, c < 128)
    (hEne : lang.mCommentEnd ≠ []) (hEa : ∀ c ∈ lang.mCommentEnd, c < 128)
    (hslc : lang.mSingleLineComment = []
      ∨ ∀ ln ∈ lines, ∀ j, j < ln.length → ¬ occursAt lang.mSingleLineComment ln j)
    (hno : ∀ ln ∈ lines, ∀ a, a < ln.length → ∀ b, b < ln.length →
      occursAt lang.mCommentStart ln a → occursAt lang.mCommentEnd ln b →
      a + lang.mCommentStart.length ≤ b ∨ b + lang.mCommentEnd.length ≤ a) :
    ∀ l i, l < lines.length → i < (lines.getD l []).length →
      IsCharBoundary (lines.getD l []) i →
      ((glyphAt ((ColorizeInternal.checkComments lang lines).getD l []) i).mMultiLineComment
          = true
        ↔ InMultiLineComment lang.mCommentStart lang.mCommentEnd lines l i) := by
  have hEpos : 0 < lang.mCommentEnd.length := List.length_pos.mpr hEne
  have hSpos : 0 < lang.mCommentStart.length := List.length_pos.mpr hSne
  have hmem : ∀ l, l < lines.length → lines.getD l [] ∈ lines := by
    intro l hl
    rw [List.getD_eq_getElem?_getD, List.getElem?_eq_getElem hl]
    exact List.getElem_mem _
  -- an occurrence lies on a line of the document
  have hocc : ∀ (d : List Nat) l j, d ≠ [] → occursAt d (lines.getD l []) j →
      l < lines.length ∧ j < (lines.getD l []).length := by
    intro d l j hd ho
    have hpos : 0 < d.length := List.length_pos.mpr hd
    have h1 := ho.1
    refine ⟨?_, by omega⟩
    by_contra hge
    rw [List.getD_eq_getElem?_getD, List.getElem?_eq_none (by omega)] at h1
    simp only [Option.getD_none, List.length_nil] at h1
    omega
  have hslc2 : lang.mSingleLineComment = []
      ∨ ∀ l j, ¬ occursAt lang.mSingleLineComment (lines.getD l []) j := by
    rcases hslc with h | h
    · exact Or.inl h
    · by_cases hd : lang.mSingleLineComment = []
      · exact Or.inl hd
      · right
        intro l j ho
        obtain ⟨h1, h2⟩ := hocc _ l j hd ho
        exact h _ (hmem l h1) j h2 ho
  have hno2 : ∀ l a b, occursAt lang.mCommentStart (lines.getD l []) a →
      occursAt lang.mCommentEnd (lines.getD l []) b →
      a + lang.mCommentStart.length ≤ b ∨ b + lang.mCommentEnd.length ≤ a := by
    intro l a b h1 h2
    obtain ⟨h3, h4⟩ := hocc _ l a hSne h1
    obtain ⟨-, h5⟩ := hocc _ l b hEne h2
    exact hno _ (hmem l h3) a h4 b h5 h1 h2
  intro l i hl hi hb
  rw [scan_multiline_flag lang lines hq hv hSne hSa hEne hEa hslc2 l i hl hi hb]
  constructor
  · rintro (⟨l0, i0, hs, hlt, hall⟩ | hs)
    · refine ⟨l0, i0, hs, by omega, ?_⟩
      intro l1 i1 he hge
      exact hall l1 i1 he (by omega)
    · refine ⟨l, i, hs, Or.inr ⟨rfl, le_rfl⟩, ?_⟩
      intro l1 i1 he hge
      omega
  · rintro ⟨l0, i0, hs, hle, hall⟩
    by_cases hsame : l0 = l ∧ i0 = i
    · right
      obtain ⟨h1, h2⟩ := hsame
      subst h1; subst h2
      exact hs
    · left
      refine ⟨l0, i0, hs, by omega, ?_⟩
      intro l1 i1 he hge
      apply hall l1 i1 he
      rcases hge with h | ⟨h1, h2⟩
      · exact Or.inl h
      · right
        subst h1
        refine ⟨rfl, ?_⟩
        rcases hno2 l0 i0 i1 hs he with h3 | h3
        · exact h3
        · omega

theorem C23_multi_line_comment_witness :
    ((glyphAt ((ColorizeInternal.checkComments
          { cLikeLanguage with mSingleLineComment := [] }
          [toLine [97, 47, 42, 98], toLine [99, 42, 47, 100]]).getD 1 [])
        0).mMultiLineComment = true
      ↔ InMultiLineComment [47, 42] [42, 47]
          [toLine [97, 47, 42, 98], toLine [99, 42, 47, 100]] 1 0) :=
  C23_multi_line_comment { cLikeLanguage with mSingleLineComment := [] }
    [toLine [97, 47, 42, 98], toLine [99, 42, 47, 100]]
    (by decide) (by decide) (by decide) (by decide) (by decide) (by decide)
    (Or.inl rfl) (by decide) 1 0 (by decide) (by decide) (by decide)

/-- The comment-end test of the scan does not look at where the comment started: in
the line "/*/ x" the delimiter "*/" that shares the star with "/*" closes the comment,
so the glyphs after it have the multi-line-comment flag clear. -/
theorem checkComments_overlapping_delimiters :
    ((ColorizeInternal.checkComments cLikeLanguage [toLine [47, 42, 47, 32, 120]]).getD 0
        []).map (fun g => g.mMultiLineComment)
      = [true, true, true, false, false] := by
  decide

theorem getD_of_drop (str x : List Nat) (n k : Nat) (h : str.drop n = x) :
    str.getD (n + k) 0 = x.getD k 0 := by
  subst h
  simp [List.getD_eq_getElem?_getD, List.getElem?_drop]

theorem spanLength_append (p : Nat → Bool) (ds rest : List Nat)
    (hd : ∀ c ∈ ds, p c = true) (hr : spanLength p rest = 0) :
    spanLength p (ds ++ rest) = ds.length := by
  induction ds with
  | nil => simpa using hr
  | cons d ds ih =>
    have h1 : p d = true := hd d (List.mem_cons_self _ _)
    have h2 := ih (fun c hc => hd c (List.mem_cons_of_mem _ hc))
    simp [spanLength, h1, h2]

theorem digits_foldl_cast (ds : List Nat) (hd : ∀ c ∈ ds, isDigit c = true) :
    ∀ a : Nat, ds.foldl (fun (a : Int) (c : Nat) => a * 10 + ((c : Int) - 48)) (a : Int)
      = ((ds.foldl (fun a c => a * 10 + (c - 48)) a : Nat) : Int) := by
  induction ds with
  | nil => intro a; rfl
  | cons d ds ih =>
    intro a
    have h1 : isDigit d = true := hd d (List.mem_cons_self _ _)
    have h48 : 48 ≤ d := by
      simp only [isDigit, Bool.and_eq_true, decide_eq_true_eq] at h1; exact h1.1
    simp only [List.foldl_cons]
    rw [← ih (fun c hc => hd c (List.mem_cons_of_mem _ hc)) (a * 10 + (d - 48))]
    congr 1
    push_cast [Nat.cast_sub h48]
    rfl

theorem strtol_digits (ds rest : List Nat) (hne : ds ≠ [])
    (hd : ∀ c ∈ ds, isDigit c = true) (hr : spanLength isDigit rest = 0)
    (hv : ds.foldl (fun a c => a * 10 + (c - 48)) 0 < 2147483648) :
    strtol (ds ++ rest) = (((ds.foldl (fun a c => a * 10 + (c - 48)) 0 : Nat) : Int), ds.length) := by
  obtain ⟨d, ds1, rfl⟩ := List.exists_cons_of_ne_nil hne
  have h1 : isDigit d = true := hd d (List.mem_cons_self _ _)
  have hdd : 48 ≤ d ∧ d ≤ 57 := by
    simpa only [isDigit, Bool.and_eq_true, decide_eq_true_eq] using h1
  have hws : spanLength isspace (d :: ds1 ++ rest) = 0 := by
    have : isspace d = false := by
      simp only [isspace, Bool.or_eq_false_iff, decide_eq_false_iff_not, Bool.and_eq_false_iff]
      omega
    simp [spanLength, this]
  have hn : spanLength isDigit (d :: ds1 ++ rest) = (d :: ds1).length :=
    spanLength_append isDigit (d :: ds1) rest hd hr
  have hcast := digits_foldl_cast (d :: ds1) hd 0
  unfold strtol
  simp only [hws, List.drop_zero]
  have hsign : ¬ ((d :: ds1 ++ rest).headD 0 = 45 ∨ (d :: ds1 ++ rest).headD 0 = 43) := by
    simp only [List.cons_append, List.headD_cons]; omega
  have h45 : ¬ ((d :: ds1 ++ rest).headD 0 = 45) := fun h => hsign (Or.inl h)
  simp only [if_neg hsign, if_neg h45, Nat.add_zero, Nat.zero_add, List.drop_zero, hn,
    List.take_left]
  rw [if_neg (by simp)]
  have hc : (List.foldl (fun (a : Int) (c : Nat) => a * 10 + ((c : Int) - 48)) 0 (d :: ds1))
      = ((List.foldl (fun a c => a * 10 + (c - 48)) 0 (d :: ds1) : Nat) : Int) := by
    simpa using hcast
  rw [hc]
  congr 1
  omega

theorem longToInt_small (v : Nat) (h : v < 2147483648) : longToInt (v : Int) = (v : Int) := by
  unfold longToInt; omega

theorem mAutcompleteParse_plain_step (str : List Nat) (s : mAutcompleteParse.State)
    (h10 : str.getD s.buffer 0 ≠ 10)
    (hopen : ¬ (str.getD s.buffer 0 = 123 ∧ str.getD (s.buffer + 1) 0 = 36))
    (hclose : ¬ (str.getD s.buffer 0 = 125 ∧ s.parsingTag = true)) :
    mAutcompleteParse.next str (mAutcompleteParse.closeTag str (mAutcompleteParse.openTag str s))
      = { s with cursor := { s.cursor with mColumn := s.cursor.mColumn + 1 },
                 buffer := s.buffer + 1 } := by
  rw [mAutcompleteParse.openTag, if_neg hopen, mAutcompleteParse.closeTag, if_neg hclose,
    mAutcompleteParse.next, if_neg h10]

theorem mAutcompleteParse_plain_run (str : List Nat) :
    ∀ (n : Nat) (s : mAutcompleteParse.State) (fuel : Nat),
      (∀ k, k < n → str.getD (s.buffer + k) 0 ≠ 0 ∧ str.getD (s.buffer + k) 0 ≠ 10
        ∧ ¬ (str.getD (s.buffer + k) 0 = 123 ∧ str.getD (s.buffer + k + 1) 0 = 36)
        ∧ ¬ (str.getD (s.buffer + k) 0 = 125 ∧ s.parsingTag = true)) →
      mAutcompleteParse.loop str (fuel + n) s
        = mAutcompleteParse.loop str fuel
            { s with cursor := { s.cursor with mColumn := s.cursor.mColumn + (n : Int) },
                     buffer := s.buffer + n } := by
  intro n
  induction n with
  | zero =>
    intro s fuel _
    cases s
    simp
  | succ n ih =>
    intro s fuel h
    have h0 := h 0 (by omega)
    simp only [Nat.add_zero] at h0
    rw [show fuel + (n + 1) = (fuel + n) + 1 by omega, mAutcompleteParse.loop, if_pos h0.1,
      mAutcompleteParse_plain_step str s h0.2.1 h0.2.2.1 h0.2.2.2, ih]
    · congr 1
      cases s
      simp only [mAutcompleteParse.State.mk.injEq, true_and, and_true]
      refine ⟨by omega, ?_⟩
      simp only [Coordinates.mk.injEq, true_and]
      push_cast; ring
    · intro k hk
      have := h (k + 1) (by omega)
      simp only
      rw [show s.buffer + 1 + k = s.buffer + (k + 1) by omega]
      exact this

theorem piecesText_nil : Snippet.piecesText [] = [] := rfl

theorem piecesText_cons (p : List Nat × SnippetMarker) (rest : List (List Nat × SnippetMarker)) :
    Snippet.piecesText (p :: rest) = p.1 ++ p.2.text ++ Snippet.piecesText rest := by
  simp [Snippet.piecesText]

theorem piecesText_append (a b : List (List Nat × SnippetMarker)) :
    Snippet.piecesText (a ++ b) = Snippet.piecesText a ++ Snippet.piecesText b := by
  simp [Snippet.piecesText]

theorem expandPieces_cons (P : Nat → List Nat) (p : List Nat × SnippetMarker)
    (rest : List (List Nat × SnippetMarker)) :
    Snippet.expandPieces P (p :: rest) = p.1 ++ P p.2.id ++ Snippet.expandPieces P rest := by
  simp [Snippet.expandPieces]

theorem expandPieces_append (P : Nat → List Nat) (a b : List (List Nat × SnippetMarker)) :
    Snippet.expandPieces P (a ++ b) = Snippet.expandPieces P a ++ Snippet.expandPieces P b := by
  simp [Snippet.expandPieces]

theorem spansFrom_append (P : Nat → List Nat) (a b : List (List Nat × SnippetMarker)) :
    ∀ off seen, Snippet.spansFrom P off seen (a ++ b)
      = Snippet.spansFrom P off seen a
        ++ Snippet.spansFrom P (off + (Snippet.expandPieces P a).length)
            (seen ++ a.map (fun p => p.2.id)) b := by
  induction a with
  | nil => intro off seen; simp [Snippet.spansFrom, Snippet.expandPieces]
  | cons p a ih =>
    intro off seen
    rw [List.cons_append, Snippet.spansFrom, Snippet.spansFrom, ih, expandPieces_cons]
    simp only [List.length_append, List.map_cons, List.append_assoc, List.singleton_append,
      List.cons_append, List.nil_append, Nat.add_assoc]

theorem spansFrom_length (P : Nat → List Nat) (a : List (List Nat × SnippetMarker)) :
    ∀ off seen, (Snippet.spansFrom P off seen a).length = a.length := by
  induction a with
  | nil => intro off seen; rfl
  | cons p a ih => intro off seen; simp [Snippet.spansFrom, ih]

theorem markerLocations_append (a b : List (List Nat × SnippetMarker)) :
    ∀ off, Snippet.markerLocations off (a ++ b)
      = Snippet.markerLocations off a
        ++ Snippet.markerLocations (off + (Snippet.piecesText a).length) b := by
  induction a with
  | nil => intro off; simp [Snippet.markerLocations, Snippet.piecesText]
  | cons p a ih =>
    intro off
    rw [List.cons_append, Snippet.markerLocations, Snippet.markerLocations, ih, piecesText_cons]
    simp only [List.length_append, List.cons_append, Nat.add_assoc]

theorem placeholderOf_first (done rest : List (List Nat × SnippetMarker))
    (p : List Nat × SnippetMarker) (h : p.2.id ∉ done.map (fun q => q.2.id)) :
    Snippet.placeholderOf (done ++ p :: rest) p.2.id = p.2.placeholder := by
  unfold Snippet.placeholderOf
  have : (done ++ p :: rest).find? (fun q => decide (q.2.id = p.2.id)) = some p := by
    rw [List.find?_append]
    have h1 : done.find? (fun q => decide (q.2.id = p.2.id)) = none := by
      rw [List.find?_eq_none]
      intro q hq hq2
      exact h (List.mem_map.mpr ⟨q, hq, by simpa using hq2⟩)
    rw [h1]
    simp
  rw [this]

theorem substitute_pieces (M : List (Int × List Nat)) (P : Nat → List Nat) (last : List Nat) :
    ∀ (pieces : List (List Nat × SnippetMarker)) (pre : List Nat),
      (∀ p ∈ pieces, mAutcompleteParse.placeholder M (p.2.id : Int) = P p.2.id) →
      mAutcompleteParse.substitute M (pieces.map (fun p => (p.2.id : Int)))
          (Snippet.markerLocations pre.length pieces) (pieces.map (fun p => p.2.text.length))
          (pre ++ Snippet.piecesText pieces ++ last)
        = pre ++ Snippet.expandPieces P pieces ++ last := by
  intro pieces
  induction pieces with
  | nil => intro pre _; simp [mAutcompleteParse.substitute, Snippet.piecesText, Snippet.expandPieces]
  | cons p rest ih =>
    intro pre h
    have h1 := ih (pre ++ p.1 ++ p.2.text) (fun q hq => h q (List.mem_cons_of_mem _ hq))
    simp only [List.length_append] at h1
    simp only [List.map_cons, Snippet.markerLocations, mAutcompleteParse.substitute,
      piecesText_cons, expandPieces_cons]
    have e1 : pre ++ (p.1 ++ p.2.text ++ Snippet.piecesText rest) ++ last
        = pre ++ p.1 ++ p.2.text ++ Snippet.piecesText rest ++ last := by
      simp only [List.append_assoc]
    rw [e1, h1, h p (List.mem_cons_self _ _)]
    have e2 : pre ++ p.1 ++ p.2.text ++ Snippet.expandPieces P rest ++ last
        = (pre ++ p.1) ++ (p.2.text ++ Snippet.expandPieces P rest ++ last) := by
      simp only [List.append_assoc]
    have e3 : pre ++ p.1 ++ p.2.text ++ Snippet.expandPieces P rest ++ last
        = (pre ++ p.1 ++ p.2.text) ++ (Snippet.expandPieces P rest ++ last) := by
      simp only [List.append_assoc]
    have l2 : pre.length + p.1.length = (pre ++ p.1).length := by simp
    have l3 : pre.length + p.1.length + p.2.text.length = (pre ++ p.1 ++ p.2.text).length := by
      simp only [List.length_append]
    rw [l3, l2]
    nth_rewrite 1 [e2]
    rw [List.take_left, e3, List.drop_left]
    simp only [List.append_assoc]

theorem marker_facts (str tail : List Nat) (b : Nat) (m : SnippetMarker)
    (hdrop : str.drop b = m.text ++ tail) (hwf : m.WellFormed) :
    str.getD b 0 = 123 ∧ str.getD (b + 1) 0 = 36
      ∧ strtol (str.drop (b + 2)) = ((m.id : Int), m.digits.length)
      ∧ str.drop (b + 2 + m.digits.length)
          = (if m.placeholder = [] then [] else 58 :: m.placeholder) ++ [125] ++ tail := by
  have e : m.text ++ tail
      = 123 :: 36 :: (m.digits
          ++ ((if m.placeholder = [] then [] else 58 :: m.placeholder) ++ [125] ++ tail)) := by
    simp [SnippetMarker.text]
  rw [e] at hdrop
  have h0 := getD_of_drop str _ b 0 hdrop
  have h1 := getD_of_drop str _ b 1 hdrop
  have h2 : str.drop (b + 2) = m.digits
      ++ ((if m.placeholder = [] then [] else 58 :: m.placeholder) ++ [125] ++ tail) := by
    rw [← List.drop_drop, hdrop]; rfl
  have h3 : str.drop (b + 2 + m.digits.length)
      = (if m.placeholder = [] then [] else 58 :: m.placeholder) ++ [125] ++ tail := by
    rw [← List.drop_drop, h2, List.drop_left]
  refine ⟨by simpa using h0, by simpa using h1, ?_, h3⟩
  rw [h2]
  apply strtol_digits _ _ hwf.1 hwf.2.1 _ hwf.2.2.1
  split_ifs <;> simp [spanLength, isDigit]

theorem marker_text_length (m : SnippetMarker) :
    m.text.length = 3 + m.digits.length
      + (if m.placeholder = [] then 0 else 1 + m.placeholder.length) := by
  unfold SnippetMarker.text
  split_ifs <;> simp <;> omega

theorem placeholder_of_find (M : List (Int × List Nat)) (id : Int) (q : Int × List Nat)
    (h : M.find? (fun p => p.1 = id) = some q) : mAutcompleteParse.placeholder M id = q.2 := by
  unfold mAutcompleteParse.placeholder
  rw [h]

theorem plain_conditions (str t tail : List Nat) (b : Nat) (hdrop : str.drop b = t ++ tail)
    (hp : PlainText t) (ht : tail.headD 0 ≠ 36) :
    ∀ k, k < t.length → str.getD (b + k) 0 ∈ t ∧ str.getD (b + k) 0 ≠ 0
      ∧ str.getD (b + k) 0 ≠ 10
      ∧ ¬ (str.getD (b + k) 0 = 123 ∧ str.getD (b + k + 1) 0 = 36) := by
  intro k hk
  have e0 : str.getD (b + k) 0 = t.getD k 0 := by
    rw [getD_of_drop str _ b k hdrop, List.getD_append _ _ _ _ hk]
  have hm : t.getD k 0 ∈ t := by
    rw [List.getD_eq_getElem _ _ hk]; exact List.getElem_mem _
  rw [e0]
  refine ⟨hm, fun h => hp.1 (h ▸ hm), fun h => hp.2.1 (h ▸ hm), ?_⟩
  rintro ⟨h1, h2⟩
  rw [Nat.add_assoc, getD_of_drop str _ b (k + 1) hdrop] at h2
  by_cases hk1 : k + 1 < t.length
  · rw [List.getD_append _ _ _ _ hk1] at h2
    exact hp.2.2 k hk h1 h2
  · have hk2 : k + 1 = t.length := by omega
    rw [List.getD_append_right _ _ _ _ (by omega), hk2, Nat.sub_self] at h2
    apply ht
    rw [← h2]
    cases tail <;> rfl

theorem piece_seen (str : List Nat) (P : Nat → List Nat) (start : Coordinates)
    (h0 : 0 ≤ start.mColumn) (done : List (List Nat × SnippetMarker)) (t : List Nat)
    (m : SnippetMarker) (tail : List Nat) (s : mAutcompleteParse.State) (fuel : Nat)
    (hinv : mAutcompleteParse.Invariant P start done s)
    (hdrop : str.drop s.buffer = t ++ m.text ++ tail)
    (hpt : PlainText t) (hwf : m.WellFormed) (hph : m.placeholder = [])
    (hseen : m.id ∈ done.map (fun p => p.2.id)) :
    ∃ s', mAutcompleteParse.loop str (fuel + 1 + t.length) s
        = mAutcompleteParse.loop str fuel s'
      ∧ mAutcompleteParse.Invariant P start (done ++ [(t, m)]) s' := by
  obtain ⟨i1, i2, i3, i4, i5, i6, i7, i8, i9, i10, i11, i12, i13⟩ := hinv
  have hdrop0 : str.drop s.buffer = t ++ (m.text ++ tail) := by
    rw [hdrop, List.append_assoc]
  have hhead : (m.text ++ tail).headD 0 ≠ 36 := by
    simp [SnippetMarker.text]
  have hc := plain_conditions str t (m.text ++ tail) s.buffer hdrop0 hpt hhead
  have hrun := mAutcompleteParse_plain_run str t.length s (fuel + 1)
    (fun k hk => ⟨(hc k hk).2.1, (hc k hk).2.2.1, (hc k hk).2.2.2, by simp [i2]⟩)
  have hdrop1 : str.drop (s.buffer + t.length) = m.text ++ tail := by
    rw [← List.drop_drop, hdrop0, List.drop_left]
  obtain ⟨h123, h36, hstr, hd3⟩ := marker_facts str tail (s.buffer + t.length) m hdrop1 hwf
  rw [if_pos hph] at hd3
  have h125 : str.getD (s.buffer + t.length + 2 + m.digits.length) 0 = 125 := by
    have := getD_of_drop str _ (s.buffer + t.length + 2 + m.digits.length) 0 hd3
    simpa using this
  have hid := longToInt_small m.id hwf.2.2.1
  obtain ⟨q, hfind, hq⟩ := i8 m.id hseen
  have hpl := placeholder_of_find _ _ _ hfind
  have hlen := marker_text_length m
  rw [if_pos hph] at hlen
  refine ⟨mAutcompleteParse.next str (mAutcompleteParse.closeTag str
    (mAutcompleteParse.openTag str
      { s with cursor := { s.cursor with mColumn := s.cursor.mColumn + (t.length : Int) },
               buffer := s.buffer + t.length })), ?_, ?_⟩
  · rw [hrun, mAutcompleteParse.loop, if_pos (by simp only [h123]; decide)]
  · unfold mAutcompleteParse.Invariant
    rw [mAutcompleteParse.openTag, if_pos ⟨h123, h36⟩]
    simp only [hstr, hid, h125]
    rw [if_neg (by decide), mAutcompleteParse.closeTag]
    simp only [h125, hfind]
    rw [if_pos ⟨trivial, trivial⟩]
    simp only [Bool.false_eq_true, if_false, ne_eq, not_true_eq_false, decide_False,
      Option.isNone_some, Bool.or_self]
    rw [mAutcompleteParse.next]
    simp only [h125]
    rw [if_neg (by decide)]
    simp only [hpl, hq, i1, i3, i4, i5, i6, i7, i10, i11, i12, i13, piecesText_append,
      piecesText_cons, piecesText_nil, expandPieces_append, expandPieces_cons,
      markerLocations_append, spansFrom_append, Snippet.spansFrom, Snippet.markerLocations,
      List.map_append, List.map_cons, List.map_nil, List.length_append, List.append_nil,
      List.nil_append, Nat.zero_add]
    have hE : (Snippet.expandPieces P []).length = 0 := rfl
    have hmax : (0 : Int) ⊔ (start.mColumn + ((Snippet.piecesText done).length : Int)
          + (t.length : Int)
          - (((Snippet.piecesText done).length : Int)
              - ((Snippet.expandPieces P done).length : Int)))
        = start.mColumn + (((Snippet.expandPieces P done).length + t.length : Nat) : Int) := by
      rw [sup_of_le_right (by omega)]; push_cast; omega
    simp only [hmax, hE]
    refine ⟨by omega, trivial, ?_, by omega, trivial, trivial, ?_, ?_, ?_, trivial, ?_, trivial, ?_⟩
    · simp only [Coordinates.mk.injEq, true_and]; push_cast; omega
    · simp only [List.append_cancel_left_eq, List.cons.injEq, and_true]; omega
    · intro id hid
      rcases List.mem_append.mp hid with h | h
      · exact i8 id h
      · rw [List.mem_singleton] at h
        subst h
        exact ⟨q, hfind, hq⟩
    · intro id hid
      exact i9 id (fun h => hid (List.mem_append_left _ h))
    · simp only [List.append_cancel_left_eq, List.cons.injEq, and_true, Coordinates.mk.injEq,
        true_and]
      push_cast; omega
    · simp only [List.append_cancel_left_eq, List.cons.injEq, and_true]
      simpa using hseen

theorem marker_open_new (str tail : List Nat) (m : SnippetMarker)
    (s : mAutcompleteParse.State)
    (hdrop : str.drop s.buffer = m.text ++ tail) (hwf : m.WellFormed)
    (hph : m.placeholder ≠ []) :
    mAutcompleteParse.next str (mAutcompleteParse.closeTag str (mAutcompleteParse.openTag str s))
      = { s with
          parsingTagPlaceholder := true
          parsingTag := true
          tagStart := s.buffer
          tagStartCoord := s.cursor
          tagId := (m.id : Int)
          tagPlaceholderStart := s.buffer + 2 + m.digits.length + 1
          buffer := s.buffer + 2 + m.digits.length + 1
          cursor := { s.cursor with
            mColumn := s.cursor.mColumn + ((2 + m.digits.length : Nat) : Int) + 1 } } := by
  obtain ⟨h123, h36, hstr, hd3⟩ := marker_facts str tail s.buffer m hdrop hwf
  rw [if_neg hph] at hd3
  have h58 : str.getD (s.buffer + 2 + m.digits.length) 0 = 58 := by
    have := getD_of_drop str _ (s.buffer + 2 + m.digits.length) 0 hd3
    simpa using this
  have hid := longToInt_small m.id hwf.2.2.1
  rw [mAutcompleteParse.openTag, if_pos ⟨h123, h36⟩]
  simp only [hstr, hid, h58]
  rw [if_pos trivial, mAutcompleteParse.closeTag]
  simp only [h58]
  rw [if_neg (by decide), mAutcompleteParse.next]
  simp only [h58]
  rw [if_neg (by decide)]

theorem marker_close_new (str : List Nat) (ph : List Nat) (s : mAutcompleteParse.State)
    (h125 : str.getD s.buffer 0 = 125) (hpt : s.parsingTag = true)
    (hpp : s.parsingTagPlaceholder = true)
    (htake : (str.drop s.tagPlaceholderStart).take (s.buffer - s.tagPlaceholderStart) = ph)
    (hph : ph ≠ []) :
    mAutcompleteParse.next str (mAutcompleteParse.closeTag str (mAutcompleteParse.openTag str s))
      = { s with
          tagIds := s.tagIds ++ [s.tagId]
          tagLocations := s.tagLocations ++ [s.tagStart]
          tagLengths := s.tagLengths ++ [s.buffer - s.tagStart + 1]
          tagStartCoord :=
            { s.tagStartCoord with mColumn := max 0 (s.tagStartCoord.mColumn - s.modif) }
          mSnippetTagStart := s.mSnippetTagStart
            ++ [{ s.tagStartCoord with mColumn := max 0 (s.tagStartCoord.mColumn - s.modif) }]
          mSnippetTagEnd := s.mSnippetTagEnd
            ++ [{ s.tagStartCoord with
                  mColumn := max 0 (s.tagStartCoord.mColumn - s.modif) + (ph.length : Int) }]
          mSnippetTagID := s.mSnippetTagID ++ [s.tagId]
          mSnippetTagHighlight := s.mSnippetTagHighlight ++ [true]
          tagPlaceholders := (s.tagId, ph) :: s.tagPlaceholders
          modif := s.modif + (((s.buffer - s.tagStart + 1 : Nat) : Int) - (ph.length : Int))
          parsingTagPlaceholder := false
          parsingTag := false
          tagId := -1
          cursor := { s.cursor with mColumn := s.cursor.mColumn + 1 }
          buffer := s.buffer + 1 } := by
  rw [mAutcompleteParse.openTag, if_neg (by rw [h125]; omega), mAutcompleteParse.closeTag,
    if_pos ⟨h125, hpt⟩]
  simp only [hpp, if_true, htake, ne_eq, hph, not_false_eq_true, decide_True, Bool.true_or]
  rw [mAutcompleteParse.next]
  simp only [h125]
  rw [if_neg (by decide)]

theorem piece_new (str : List Nat) (P : Nat → List Nat) (start : Coordinates)
    (h0 : 0 ≤ start.mColumn) (done : List (List Nat × SnippetMarker)) (t : List Nat)
    (m : SnippetMarker) (tail : List Nat) (s : mAutcompleteParse.State) (fuel : Nat)
    (hinv : mAutcompleteParse.Invariant P start done s)
    (hdrop : str.drop s.buffer = t ++ m.text ++ tail)
    (hpt : PlainText t) (hwf : m.WellFormed) (hph : m.placeholder ≠ [])
    (hnew : m.id ∉ done.map (fun p => p.2.id)) (hP : P m.id = m.placeholder) :
    ∃ s', mAutcompleteParse.loop str (fuel + 1 + m.placeholder.length + 1 + t.length) s
        = mAutcompleteParse.loop str fuel s'
      ∧ mAutcompleteParse.Invariant P start (done ++ [(t, m)]) s' := by
  obtain ⟨i1, i2, i3, i4, i5, i6, i7, i8, i9, i10, i11, i12, i13⟩ := hinv
  have hdrop0 : str.drop s.buffer = t ++ (m.text ++ tail) := by
    rw [hdrop, List.append_assoc]
  have hhead : (m.text ++ tail).headD 0 ≠ 36 := by
    simp [SnippetMarker.text]
  have hc := plain_conditions str t (m.text ++ tail) s.buffer hdrop0 hpt hhead
  have hrun := mAutcompleteParse_plain_run str t.length s (fuel + 1 + m.placeholder.length + 1)
    (fun k hk => ⟨(hc k hk).2.1, (hc k hk).2.2.1, (hc k hk).2.2.2, by simp [i2]⟩)
  have hdrop1 : str.drop (s.buffer + t.length) = m.text ++ tail := by
    rw [← List.drop_drop, hdrop0, List.drop_left]
  obtain ⟨h123, h36, hstr, hd3⟩ := marker_facts str tail (s.buffer + t.length) m hdrop1 hwf
  rw [if_neg hph] at hd3
  have hdrop3 : str.drop (s.buffer + t.length + 2 + m.digits.length + 1)
      = m.placeholder ++ ([125] ++ tail) := by
    rw [← List.drop_drop, hd3]; simp
  have hopen := marker_open_new str tail m
    { s with cursor := { s.cursor with mColumn := s.cursor.mColumn + (t.length : Int) },
             buffer := s.buffer + t.length } hdrop1 hwf hph
  simp only at hopen
  have hc3 := plain_conditions str m.placeholder ([125] ++ tail)
    (s.buffer + t.length + 2 + m.digits.length + 1) hdrop3 hwf.2.2.2.1 (by simp)
  have hrun3 := mAutcompleteParse_plain_run str m.placeholder.length
    { s with
      parsingTagPlaceholder := true
      parsingTag := true
      tagStart := s.buffer + t.length
      tagStartCoord := { s.cursor with mColumn := s.cursor.mColumn + (t.length : Int) }
      tagId := (m.id : Int)
      tagPlaceholderStart := s.buffer + t.length + 2 + m.digits.length + 1
      buffer := s.buffer + t.length + 2 + m.digits.length + 1
      cursor := { s.cursor with
        mColumn := s.cursor.mColumn + (t.length : Int) + ((2 + m.digits.length : Nat) : Int) + 1 } }
    (fuel + 1)
    (fun k hk => ⟨(hc3 k hk).2.1, (hc3 k hk).2.2.1, (hc3 k hk).2.2.2,
      fun h => hwf.2.2.2.2 (h.1 ▸ (hc3 k hk).1)⟩)
  simp only at hrun3
  have h125 : str.getD (s.buffer + t.length + 2 + m.digits.length + 1 + m.placeholder.length) 0
      = 125 := by
    rw [getD_of_drop str _ _ _ hdrop3, List.getD_append_right _ _ _ _ (Nat.le_refl _)]
    simp
  have htake : (str.drop (s.buffer + t.length + 2 + m.digits.length + 1)).take
      (s.buffer + t.length + 2 + m.digits.length + 1 + m.placeholder.length
        - (s.buffer + t.length + 2 + m.digits.length + 1)) = m.placeholder := by
    rw [Nat.add_sub_cancel_left, hdrop3, List.take_left]
  have hclose := marker_close_new str m.placeholder
    { s with
      parsingTagPlaceholder := true
      parsingTag := true
      tagStart := s.buffer + t.length
      tagStartCoord := { s.cursor with mColumn := s.cursor.mColumn + (t.length : Int) }
      tagId := (m.id : Int)
      tagPlaceholderStart := s.buffer + t.length + 2 + m.digits.length + 1
      buffer := s.buffer + t.length + 2 + m.digits.length + 1 + m.placeholder.length
      cursor := { s.cursor with
        mColumn := s.cursor.mColumn + (t.length : Int) + ((2 + m.digits.length : Nat) : Int) + 1
          + (m.placeholder.length : Int) } }
    h125 rfl rfl htake hph
  simp only at hclose
  have hlen := marker_text_length m
  rw [if_neg hph] at hlen
  refine ⟨mAutcompleteParse.next str (mAutcompleteParse.closeTag str
    (mAutcompleteParse.openTag str
    { s with
      parsingTagPlaceholder := true
      parsingTag := true
      tagStart := s.buffer + t.length
      tagStartCoord := { s.cursor with mColumn := s.cursor.mColumn + (t.length : Int) }
      tagId := (m.id : Int)
      tagPlaceholderStart := s.buffer + t.length + 2 + m.digits.length + 1
      buffer := s.buffer + t.length + 2 + m.digits.length + 1 + m.placeholder.length
      cursor := { s.cursor with
        mColumn := s.cursor.mColumn + (t.length : Int) + ((2 + m.digits.length : Nat) : Int) + 1
          + (m.placeholder.length : Int) } })), ?_, ?_⟩
  · rw [hrun, mAutcompleteParse.loop, if_pos (by simp only [h123]; decide), hopen, hrun3,
      mAutcompleteParse.loop, if_pos (by simp only [h125]; decide)]
  · unfold mAutcompleteParse.Invariant
    rw [hclose]
    simp only [hP, i1, i3, i4, i5, i6, i7, i10, i11, i12, i13, piecesText_append,
      piecesText_cons, piecesText_nil, expandPieces_append, expandPieces_cons,
      markerLocations_append, spansFrom_append, Snippet.spansFrom, Snippet.markerLocations,
      List.map_append, List.map_cons, List.map_nil, List.length_append, List.append_nil,
      List.nil_append, Nat.zero_add]
    have hE : (Snippet.expandPieces P []).length = 0 := rfl
    have hmax : (0 : Int) ⊔ (start.mColumn + ((Snippet.piecesText done).length : Int)
          + (t.length : Int)
          - (((Snippet.piecesText done).length : Int)
              - ((Snippet.expandPieces P done).length : Int)))
        = start.mColumn + (((Snippet.expandPieces P done).length + t.length : Nat) : Int) := by
      rw [sup_of_le_right (by omega)]; push_cast; omega
    simp only [hmax, hE]
    refine ⟨by omega, trivial, ?_, by omega, trivial, trivial, ?_, ?_, ?_, trivial, ?_, trivial, ?_⟩
    · simp only [Coordinates.mk.injEq, true_and]; push_cast; omega
    · simp only [List.append_cancel_left_eq, List.cons.injEq, and_true]; omega
    · intro id hid
      rcases List.mem_append.mp hid with h | h
      · obtain ⟨q, hq1, hq2⟩ := i8 id h
        refine ⟨q, ?_, hq2⟩
        rw [List.find?_cons_of_neg _ _, hq1]
        intro he
        simp only [decide_eq_true_eq] at he
        have : m.id = id := by exact_mod_cast he
        exact hnew (this ▸ h)
      · rw [List.mem_singleton] at h
        rw [h]
        exact ⟨((m.id : Int), m.placeholder), by simp, hP.symm⟩
    · intro id hid
      have h1 : id ∉ done.map (fun p => p.2.id) := fun h => hid (List.mem_append_left _ h)
      have h2 : id ≠ m.id := fun h => hid (List.mem_append_right _ (by simp [h]))
      rw [List.find?_cons_of_neg _ _, i9 id h1]
      intro he
      simp only [decide_eq_true_eq] at he
      exact h2 (by exact_mod_cast he.symm)
    · simp only [List.append_cancel_left_eq, List.cons.injEq, and_true, Coordinates.mk.injEq,
        true_and]
      push_cast; omega
    · simp only [List.append_cancel_left_eq, List.cons.injEq, and_true]
      simpa using hnew

theorem pieces_run (all : List (List Nat × SnippetMarker)) (last : List Nat)
    (start : Coordinates) (h0 : 0 ≤ start.mColumn) :
    ∀ (rest done : List (List Nat × SnippetMarker)) (s : mAutcompleteParse.State) (fuel : Nat),
      done ++ rest = all →
      Snippet.piecesWellFormed (done.map (fun p => p.2.id)) rest →
      mAutcompleteParse.Invariant (Snippet.placeholderOf all) start done s →
      (Snippet.piecesText rest).length ≤ fuel →
      ∃ s' fuel',
        mAutcompleteParse.loop (Snippet.piecesText all ++ last) fuel s
          = mAutcompleteParse.loop (Snippet.piecesText all ++ last) fuel' s'
        ∧ mAutcompleteParse.Invariant (Snippet.placeholderOf all) start all s'
        ∧ fuel ≤ fuel' + (Snippet.piecesText rest).length := by
  intro rest
  induction rest with
  | nil =>
    intro done s fuel hall _ hinv _
    rw [List.append_nil] at hall
    subst hall
    exact ⟨s, fuel, rfl, hinv, by omega⟩
  | cons p rest ih =>
    intro done s fuel hall hwf hinv hfuel
    obtain ⟨hpt, hm, hseen1, hnew1, hwfr⟩ := hwf
    have hdrop : (Snippet.piecesText all ++ last).drop s.buffer
        = p.1 ++ p.2.text ++ (Snippet.piecesText rest ++ last) := by
      rw [hinv.1, ← hall, piecesText_append, piecesText_cons, List.append_assoc,
        List.drop_left]
      simp only [List.append_assoc]
    have hall2 : (done ++ [p]) ++ rest = all := by
      rw [List.append_assoc]; exact hall
    have hwf2 : Snippet.piecesWellFormed ((done ++ [p]).map (fun q => q.2.id)) rest := by
      rw [List.map_append]; exact hwfr
    have hlen := marker_text_length p.2
    rw [piecesText_cons] at hfuel
    simp only [List.length_append] at hfuel
    by_cases hs : p.2.id ∈ done.map (fun q => q.2.id)
    · have hph := hseen1 hs
      rw [if_pos hph] at hlen
      obtain ⟨s1, h1, hinv1⟩ := piece_seen (Snippet.piecesText all ++ last)
        (Snippet.placeholderOf all) start h0 done p.1 p.2 (Snippet.piecesText rest ++ last) s
        (fuel - 1 - p.1.length) hinv hdrop hpt hm hph hs
      rw [show fuel - 1 - p.1.length + 1 + p.1.length = fuel by omega] at h1
      obtain ⟨s2, f2, h2, hinv2, hf2⟩ := ih (done ++ [p]) s1 (fuel - 1 - p.1.length) hall2 hwf2
        hinv1 (by omega)
      refine ⟨s2, f2, h1.trans h2, hinv2, ?_⟩
      rw [piecesText_cons]
      simp only [List.length_append]
      omega
    · have hph := hnew1 hs
      rw [if_neg hph] at hlen
      have hP : Snippet.placeholderOf all p.2.id = p.2.placeholder := by
        rw [← hall]; exact placeholderOf_first done rest p hs
      obtain ⟨s1, h1, hinv1⟩ := piece_new (Snippet.piecesText all ++ last)
        (Snippet.placeholderOf all) start h0 done p.1 p.2 (Snippet.piecesText rest ++ last) s
        (fuel - (1 + p.2.placeholder.length + 1 + p.1.length)) hinv hdrop hpt hm hph hs hP
      rw [show fuel - (1 + p.2.placeholder.length + 1 + p.1.length) + 1
          + p.2.placeholder.length + 1 + p.1.length = fuel by omega] at h1
      obtain ⟨s2, f2, h2, hinv2, hf2⟩ := ih (done ++ [p]) s1
        (fuel - (1 + p.2.placeholder.length + 1 + p.1.length)) hall2 hwf2 hinv1 (by omega)
      refine ⟨s2, f2, h1.trans h2, hinv2, ?_⟩
      rw [piecesText_cons]
      simp only [List.length_append]
      omega

theorem invariant_initial (P : Nat → List Nat) (start : Coordinates) :
    mAutcompleteParse.Invariant P start [] { cursor := start } := by
  unfold mAutcompleteParse.Invariant
  simp [Snippet.piecesText, Snippet.expandPieces, Snippet.markerLocations, Snippet.spansFrom]

theorem loop_at_end (str : List Nat) (s : mAutcompleteParse.State)
    (h : str.length ≤ s.buffer) (fuel : Nat) : mAutcompleteParse.loop str fuel s = s := by
  cases fuel with
  | zero => rfl
  | succ f =>
    rw [mAutcompleteParse.loop, if_neg]
    rw [List.getD_eq_default _ _ h]
    simp

theorem mAutcompleteParse_loop_spec (s : Snippet) (start : Coordinates)
    (hwf : s.WellFormed) (h0 : 0 ≤ start.mColumn) :
    ∃ r, mAutcompleteParse.loop s.text (s.text.length + 1) { cursor := start } = r
      ∧ r.tagIds = s.pieces.map (fun p => (p.2.id : Int))
      ∧ r.tagLocations = Snippet.markerLocations 0 s.pieces
      ∧ r.tagLengths = s.pieces.map (fun p => p.2.text.length)
      ∧ (∀ p ∈ s.pieces, mAutcompleteParse.placeholder r.tagPlaceholders (p.2.id : Int)
          = Snippet.placeholderOf s.pieces p.2.id)
      ∧ r.mSnippetTagStart = s.spans.map
          (fun t => { start with mColumn := start.mColumn + (t.start : Int) })
      ∧ r.mSnippetTagEnd = s.spans.map
          (fun t => { start with mColumn := start.mColumn + (t.stop : Int) })
      ∧ r.mSnippetTagID = s.spans.map (fun t => (t.id : Int))
      ∧ r.mSnippetTagHighlight = s.spans.map (fun t => t.highlighted) := by
  obtain ⟨hp, hl⟩ := hwf
  obtain ⟨s1, f1, h1, hinv, hf⟩ := pieces_run s.pieces s.last start h0 s.pieces []
    { cursor := start } (s.text.length + 1) (List.nil_append _) hp
    (invariant_initial _ start) (by unfold Snippet.text; simp only [List.length_append]; omega)
  obtain ⟨i1, i2, i3, i4, i5, i6, i7, i8, i9, i10, i11, i12, i13⟩ := hinv
  have hdrop : (Snippet.piecesText s.pieces ++ s.last).drop s1.buffer = s.last ++ [] := by
    rw [i1, List.drop_left, List.append_nil]
  have hc := plain_conditions _ s.last [] s1.buffer hdrop hl (by simp)
  have hlen : s.text.length = (Snippet.piecesText s.pieces).length + s.last.length := by
    unfold Snippet.text; rw [List.length_append]
  have hrun := mAutcompleteParse_plain_run (Snippet.piecesText s.pieces ++ s.last)
    s.last.length s1 (f1 - s.last.length)
    (fun k hk => ⟨(hc k hk).2.1, (hc k hk).2.2.1, (hc k hk).2.2.2, by simp [i2]⟩)
  rw [show f1 - s.last.length + s.last.length = f1 by omega] at hrun
  have hfin := hrun.trans (loop_at_end _ _
    (by show _ ≤ s1.buffer + s.last.length; rw [i1, List.length_append]) _)
  refine ⟨_, (h1.trans hfin), i5, i6, i7, ?_, i10, i11, i12, i13⟩
  intro p hp
  obtain ⟨q, hq1, hq2⟩ := i8 p.2.id (List.mem_map.mpr ⟨p, hp, rfl⟩)
  exact (placeholder_of_find _ _ _ hq1).trans hq2

theorem mAutcompleteParse_spec (e : TextEditor) (s : Snippet) (start : Coordinates)
    (hwf : s.WellFormed) (h0 : 0 ≤ start.mColumn) :
    mAutcompleteParse e s.text start
      = ({ e with
            mSnippetTagStart := s.spans.map
              (fun t => { start with mColumn := start.mColumn + (t.start : Int) })
            mSnippetTagEnd := s.spans.map
              (fun t => { start with mColumn := start.mColumn + (t.stop : Int) })
            mSnippetTagID := s.spans.map (fun t => (t.id : Int))
            mSnippetTagHighlight := s.spans.map (fun t => t.highlighted)
            mIsSnippet := !s.pieces.isEmpty },
          s.expansion) := by
  obtain ⟨r, hr, r1, r2, r3, r4, r5, r6, r7, r8⟩ := mAutcompleteParse_loop_spec s start hwf h0
  unfold mAutcompleteParse
  simp only [hr, r1, r2, r3, r5, r6, r7, r8]
  have hsub := substitute_pieces r.tagPlaceholders (Snippet.placeholderOf s.pieces) s.last
    s.pieces [] r4
  simp only [List.length_nil, List.nil_append] at hsub
  have : s.text = Snippet.piecesText s.pieces ++ s.last := rfl
  rw [this, hsub]
  congr 2
  cases s.pieces <;> simp

theorem spans_cover (P : Nat → List Nat) (last : List Nat) :
    ∀ (pieces : List (List Nat × SnippetMarker)) (pre : List Nat) (seen : List Nat),
      ∀ sp ∈ Snippet.spansFrom P pre.length seen pieces,
        ((pre ++ Snippet.expandPieces P pieces ++ last).drop sp.start).take (sp.stop - sp.start)
          = P sp.id := by
  intro pieces
  induction pieces with
  | nil => intro pre seen sp hsp; simp [Snippet.spansFrom] at hsp
  | cons p rest ih =>
    intro pre seen sp hsp
    rw [Snippet.spansFrom, List.mem_cons] at hsp
    rcases hsp with h | h
    · subst h
      simp only [expandPieces_cons]
      have e1 : pre ++ (p.1 ++ P p.2.id ++ Snippet.expandPieces P rest) ++ last
          = (pre ++ p.1) ++ (P p.2.id ++ (Snippet.expandPieces P rest ++ last)) := by
        simp only [List.append_assoc]
      rw [e1, show pre.length + p.1.length = (pre ++ p.1).length by simp, List.drop_left,
        Nat.add_sub_cancel_left, List.take_left]
    · have h1 := ih (pre ++ p.1 ++ P p.2.id) (seen ++ [p.2.id]) sp
        (by simpa only [List.length_append] using h)
      rw [expandPieces_cons]
      have e1 : pre ++ (p.1 ++ P p.2.id ++ Snippet.expandPieces P rest) ++ last
          = pre ++ p.1 ++ P p.2.id ++ Snippet.expandPieces P rest ++ last := by
        simp only [List.append_assoc]
      rw [e1]
      exact h1

theorem colWalk_ascii (T : Nat) (t : List Nat) (h : ∀ c ∈ t, c < 128 ∧ c ≠ 9) :
    ∀ c : Nat, colWalk T 0 (toLine t) c = c + t.length := by
  induction t with
  | nil => intro c; rfl
  | cons b t ih =>
    intro c
    have hb := h b (List.mem_cons_self _ _)
    have e : toLine (b :: t) = ({ mChar := b } : Glyph) :: toLine t := rfl
    rw [e, colWalk]
    simp only [UTF8CharLength_ascii b hb.1, Nat.sub_self, advanceColumn, if_neg hb.2]
    rw [ih (fun c hc => h c (List.mem_cons_of_mem _ hc)), List.length_cons]
    omega

theorem spansFrom_bounds (P : Nat → List Nat) :
    ∀ (pieces : List (List Nat × SnippetMarker)) (off : Nat) (seen : List Nat),
      ∀ sp ∈ Snippet.spansFrom P off seen pieces,
        sp.start ≤ sp.stop ∧ sp.stop ≤ off + (Snippet.expandPieces P pieces).length := by
  intro pieces
  induction pieces with
  | nil => intro off seen sp hsp; simp [Snippet.spansFrom] at hsp
  | cons p rest ih =>
    intro off seen sp hsp
    rw [Snippet.spansFrom, List.mem_cons] at hsp
    rw [expandPieces_cons]
    simp only [List.length_append]
    rcases hsp with h | h
    · subst h
      simp only
      omega
    · have := ih _ _ sp h
      omega

/-- C30 (counterexample): the single-line, tab-free snippet `é{$1:x}` at column 0 gives
the string `éx`, in which the placeholder `x` stands at column 1 (byte 2), but the tag
recorded for it spans the columns `[2, 3)`: `GetCharacterIndex` maps column 2 to byte 3,
the end of the line. -/
theorem C30_counterexample :
    ({ pieces := [([195, 169], { digits := [49], placeholder := [120] })], last := [] }
        : Snippet).WellFormed
      ∧ ({ pieces := [([195, 169], { digits := [49], placeholder := [120] })], last := [] }
        : Snippet).text = [195, 169, 123, 36, 49, 58, 120, 125]
      ∧ (mAutcompleteParse {} [195, 169, 123, 36, 49, 58, 120, 125] {}).2 = [195, 169, 120]
      ∧ (mAutcompleteParse {} [195, 169, 123, 36, 49, 58, 120, 125] {}).1.mSnippetTagStart
          = [{ mLine := 0, mColumn := 2 }]
      ∧ (mAutcompleteParse {} [195, 169, 123, 36, 49, 58, 120, 125] {}).1.mSnippetTagEnd
          = [{ mLine := 0, mColumn := 3 }]
      ∧ GetCharacterColumn { mLines := [toLine [195, 169, 120]] } 0 2 = 1
      ∧ GetCharacterIndex { mLines := [toLine [195, 169, 120]] } { mLine := 0, mColumn := 1 } = 2
      ∧ GetCharacterIndex { mLines := [toLine [195, 169, 120]] } { mLine := 0, mColumn := 2 } = 3 := by
  decide

/-- C30 (amended): for every single-line snippet string whose markers have the form
`{$<id>:<placeholder>}` or `{$<id>}`, with decimal ids below `2^31`, where each id's first
marker carries a non-empty placeholder and its later markers carry none,
`mAutcompleteParse` returns the string with every marker replaced by its id's placeholder
and records one tag per marker whose span `[start, stop)`, counted in bytes from the start
column, covers exactly that placeholder in the returned string; these bytes are the
columns when the returned string has no tab and no multi-byte character.  The first
marker of each id is recorded as highlighted and the later ones as not.  For
`foo({$1:bar}, {$1})` at column 0 the result is `foo(bar, bar)` with two tags of id 1 at
`[4, 7)` and `[9, 12)`.  The columns are taken in the range of `int`. -/
theorem C30_snippet_parse (e : TextEditor) (s : Snippet) (start : Coordinates)
    (hwf : s.WellFormed) (h0 : 0 ≤ start.mColumn)
    (_hint : start.mColumn + (s.text.length : Int) < 2147483648) :
    (mAutcompleteParse e s.text start).2 = s.expansion
      ∧ (mAutcompleteParse e s.text start).1.mSnippetTagStart
          = s.spans.map (fun t => { start with mColumn := start.mColumn + (t.start : Int) })
      ∧ (mAutcompleteParse e s.text start).1.mSnippetTagEnd
          = s.spans.map (fun t => { start with mColumn := start.mColumn + (t.stop : Int) })
      ∧ (mAutcompleteParse e s.text start).1.mSnippetTagID
          = s.pieces.map (fun p => (p.2.id : Int))
      ∧ (mAutcompleteParse e s.text start).1.mSnippetTagHighlight
          = s.spans.map (fun t => t.highlighted)
      ∧ s.spans.length = s.pieces.length
      ∧ s.spans.map (fun t => t.id) = s.pieces.map (fun p => p.2.id)
      ∧ (∀ sp ∈ s.spans,
          (s.expansion.drop sp.start).take (sp.stop - sp.start)
            = Snippet.placeholderOf s.pieces sp.id)
      ∧ ((∀ c ∈ s.expansion, c < 128 ∧ c ≠ 9) → ∀ sp ∈ s.spans,
          colWalk e.mTabSize 0 (toLine (s.expansion.take sp.start)) 0 = sp.start
            ∧ colWalk e.mTabSize 0 (toLine (s.expansion.take sp.stop)) 0 = sp.stop)
      ∧ (mAutcompleteParse {}
            [102, 111, 111, 40, 123, 36, 49, 58, 98, 97, 114, 125, 44, 32, 123, 36, 49, 125, 41]
            {}).2 = [102, 111, 111, 40, 98, 97, 114, 44, 32, 98, 97, 114, 41]
      ∧ (mAutcompleteParse {}
            [102, 111, 111, 40, 123, 36, 49, 58, 98, 97, 114, 125, 44, 32, 123, 36, 49, 125, 41]
            {}).1.mSnippetTagStart = [{ mLine := 0, mColumn := 4 }, { mLine := 0, mColumn := 9 }]
      ∧ (mAutcompleteParse {}
            [102, 111, 111, 40, 123, 36, 49, 58, 98, 97, 114, 125, 44, 32, 123, 36, 49, 125, 41]
            {}).1.mSnippetTagEnd = [{ mLine := 0, mColumn := 7 }, { mLine := 0, mColumn := 12 }]
      ∧ (mAutcompleteParse {}
            [102, 111, 111, 40, 123, 36, 49, 58, 98, 97, 114, 125, 44, 32, 123, 36, 49, 125, 41]
            {}).1.mSnippetTagID = [1, 1]
      ∧ (mAutcompleteParse {}
            [102, 111, 111, 40, 123, 36, 49, 58, 98, 97, 114, 125, 44, 32, 123, 36, 49, 125, 41]
            {}).1.mSnippetTagHighlight = [true, false] := by
  have hids : ∀ (pieces : List (List Nat × SnippetMarker)) (off : Nat) (seen : List Nat),
      (Snippet.spansFrom (Snippet.placeholderOf s.pieces) off seen pieces).map (fun t => t.id)
        = pieces.map (fun p => p.2.id) := by
    intro pieces
    induction pieces with
    | nil => intro off seen; rfl
    | cons p rest ih => intro off seen; simp [Snippet.spansFrom, ih]
  have hcover := spans_cover (Snippet.placeholderOf s.pieces) s.last s.pieces [] []
  simp only [List.nil_append, List.length_nil] at hcover
  rw [mAutcompleteParse_spec e s start hwf h0]
  refine ⟨rfl, rfl, rfl, ?_, rfl, spansFrom_length _ _ _ _, hids _ _ _, hcover, ?_,
    by decide, by decide, by decide, by decide, by decide⟩
  · show s.spans.map (fun t => (t.id : Int)) = _
    have := hids s.pieces 0 []
    have h2 : s.spans.map (fun t => (t.id : Int))
        = (s.spans.map (fun t => t.id)).map Int.ofNat := by
      rw [List.map_map]; rfl
    rw [h2]
    unfold Snippet.spans
    rw [this, List.map_map]
    rfl
  · intro hascii sp hsp
    have hb := spansFrom_bounds (Snippet.placeholderOf s.pieces) s.pieces 0 [] sp hsp
    have hlen : (Snippet.expandPieces (Snippet.placeholderOf s.pieces) s.pieces).length
        ≤ s.expansion.length := by
      unfold Snippet.expansion; rw [List.length_append]; omega
    constructor
    · rw [colWalk_ascii _ _ (fun c hc => hascii c (List.mem_of_mem_take hc)), List.length_take]
      omega
    · rw [colWalk_ascii _ _ (fun c hc => hascii c (List.mem_of_mem_take hc)), List.length_take]
      omega

theorem C30_snippet_parse_witness :
    fooSnippet.text
        = [102, 111, 111, 40, 123, 36, 49, 58, 98, 97, 114, 125, 44, 32, 123, 36, 49, 125, 41]
      ∧ (mAutcompleteParse {} fooSnippet.text {}).2
        = [102, 111, 111, 40, 98, 97, 114, 44, 32, 98, 97, 114, 41]
      ∧ (mAutcompleteParse {} fooSnippet.text {}).1.mSnippetTagStart
        = [{ mLine := 0, mColumn := 4 }, { mLine := 0, mColumn := 9 }] :=
  ⟨by decide,
    (C30_snippet_parse {} fooSnippet {} (by decide) (by decide) (by decide)).1.trans (by decide),
    (C30_snippet_parse {} fooSnippet {} (by decide) (by decide) (by decide)).2.1.trans
      (by decide)⟩

/-! ## Deletion commands at the document boundaries -/

theorem Backspace_at_start (e : TextEditor) (hsel : HasSelection e = false)
    (hcur : e.mState.mCursorPosition = ⟨0, 0⟩) : Backspace e = e := by
  unfold Backspace
  by_cases hemp : e.mLines.isEmpty = true
  · rw [if_pos hemp]
  · rw [if_neg hemp, hsel]
    simp only [Bool.false_eq_true, if_false]
    have hne : e.mLines ≠ [] := fun h => hemp (by rw [h]; rfl)
    have hlen : 0 < e.mLines.length := List.length_pos.mpr hne
    have hpos : GetActualCursorCoordinates e = ⟨0, 0⟩ := by
      unfold GetActualCursorCoordinates SanitizeCoordinates
      rw [hcur]
      have hmax := GetLineMaxColumn_nonneg e 0
      rw [if_neg (by simp only [ge_iff_le, not_le]; omega)]
      simp only [hemp, Bool.false_eq_true, if_false]
      rw [min_eq_left hmax]
    have hset : SetCursorPosition e (GetActualCursorCoordinates e) = e := by
      rw [hpos]
      unfold SetCursorPosition
      rw [if_neg (by rw [hcur]; simp)]
    rw [hset, hcur]
    simp

theorem Delete_at_end (e : TextEditor) (hsel : HasSelection e = false)
    (hcur : e.mState.mCursorPosition
      = ⟨(e.mLines.length : Int) - 1, GetLineMaxColumn e ((e.mLines.length : Int) - 1)⟩) :
    Delete e = e := by
  unfold Delete
  by_cases hemp : e.mLines.isEmpty = true
  · rw [if_pos hemp]
  · rw [if_neg hemp, hsel]
    simp only [Bool.false_eq_true, if_false]
    have hpos : GetActualCursorCoordinates e
        = ⟨(e.mLines.length : Int) - 1, GetLineMaxColumn e ((e.mLines.length : Int) - 1)⟩ := by
      unfold GetActualCursorCoordinates SanitizeCoordinates
      rw [hcur]
      rw [if_neg (by simp only [ge_iff_le, not_le]; omega)]
      simp only [hemp, Bool.false_eq_true, if_false, min_self]
    have hset : SetCursorPosition e (GetActualCursorCoordinates e) = e := by
      rw [hpos]
      unfold SetCursorPosition
      rw [if_neg (by rw [hcur]; simp)]
    rw [hset, hpos]
    simp

/-- C34: a deletion command issued at a document boundary with no selection is a no-op.
On a document on which the tab-stop division is defined (tab size `≥ 1` when a line
holds a tab), `Backspace` with the cursor at (0,0), and `Delete` with the cursor at the
end of the last line, return the editor as it was: every line, the selection and the cursor, the
undo buffer and the undo index are unchanged. -/
theorem C34_delete_at_boundary (e : TextEditor) (hsel : HasSelection e = false)
    (_htab : ∀ line ∈ e.mLines, TabStopsDefined e.mTabSize line) :
    (e.mState.mCursorPosition = ⟨0, 0⟩ →
        Backspace e = e
          ∧ (Backspace e).mLines = e.mLines ∧ (Backspace e).mState = e.mState
          ∧ (Backspace e).mUndoBuffer = e.mUndoBuffer
          ∧ (Backspace e).mUndoIndex = e.mUndoIndex)
      ∧ (e.mState.mCursorPosition
            = ⟨(e.mLines.length : Int) - 1, GetLineMaxColumn e ((e.mLines.length : Int) - 1)⟩ →
          Delete e = e
            ∧ (Delete e).mLines = e.mLines ∧ (Delete e).mState = e.mState
            ∧ (Delete e).mUndoBuffer = e.mUndoBuffer
            ∧ (Delete e).mUndoIndex = e.mUndoIndex) := by
  constructor
  · intro hcur
    rw [Backspace_at_start e hsel hcur]
    exact ⟨rfl, rfl, rfl, rfl, rfl⟩
  · intro hcur
    rw [Delete_at_end e hsel hcur]
    exact ⟨rfl, rfl, rfl, rfl, rfl⟩

theorem C34_delete_at_boundary_witness :
    (Backspace (ofLinesAt [[97, 98], [99]] ⟨0, 0⟩)).mLines = [toLine [97, 98], toLine [99]]
      ∧ (Delete (ofLinesAt [[97, 98], [9, 99]] ⟨1, 5⟩)).mLines
          = [toLine [97, 98], toLine [9, 99]]
      ∧ (Delete (ofLinesAt [[97, 98], [9, 99]] ⟨1, 5⟩)).mUndoIndex = 0 :=
  ⟨((C34_delete_at_boundary (ofLinesAt [[97, 98], [99]] ⟨0, 0⟩) (by decide) (by decide)).1
      (by decide)).2.1.trans (by decide),
    ((C34_delete_at_boundary (ofLinesAt [[97, 98], [9, 99]] ⟨1, 5⟩) (by decide) (by decide)).2
      (by decide)).2.1.trans (by decide),
    ((C34_delete_at_boundary (ofLinesAt [[97, 98], [9, 99]] ⟨1, 5⟩) (by decide) (by decide)).2
      (by decide)).2.2.2.2.trans (by decide)⟩

/-! ## One typed character, undone and redone -/

theorem EnterCharacter_undo_redo (e : TextEditor) (c : Nat) (aShift : Bool)
    (ht : Typable e) (hc : PlainChar e c) :
    (∃ u : UndoRecord,
        (EnterCharacter e c aShift).mUndoBuffer = e.mUndoBuffer.take e.mUndoIndex.toNat ++ [u]
          ∧ u.mBefore = e.mState ∧ u.mAfter = (EnterCharacter e c aShift).mState)
      ∧ (EnterCharacter e c aShift).mUndoIndex = e.mUndoIndex + 1
      ∧ (Undo (EnterCharacter e c aShift) 1).mLines = e.mLines
      ∧ (Undo (EnterCharacter e c aShift) 1).mState = e.mState
      ∧ (Redo (Undo (EnterCharacter e c aShift) 1) 1).mLines = (EnterCharacter e c aShift).mLines
      ∧ (Redo (Undo (EnterCharacter e c aShift) 1) 1).mState
          = (EnterCharacter e c aShift).mState := by
  obtain ⟨⟨u, hf⟩, ht1⟩ := EnterCharacter_faithful e c aShift ht hc
  have hrun : Run e 1 (EnterCharacter e c aShift) := Run.snoc u (Run.nil e) hf
  have hro : IsReadOnly (EnterCharacter e c aShift) = false := ht1.1.1
  obtain ⟨u1, u2, _⟩ := Run_undo hrun (EnterCharacter e c aShift) rfl rfl rfl hro rfl rfl
  obtain ⟨r1, r2⟩ := Run_undo_redo hrun hro
  have hundo : Undo (EnterCharacter e c aShift) 1 = Undo.loop 1 (EnterCharacter e c aShift) := rfl
  rw [hundo]
  exact ⟨⟨u, hf.2.1, hf.2.2.2.2.1, hf.2.2.2.2.2.1⟩, hf.2.2.1, u1, u2, r1, r2⟩

/-- C35: in a state with a usable undo log (`IsReadOnly()` is false: the read-only flag
is off and no debugging goes on; the undo index lies within the buffer), an empty
selection, overwrite off, the
cursor at non-negative coordinates and a non-empty document of complete UTF-8 lines with
defined tab stops, typing one printable ASCII character other than `'{'`, `'('` and `'['`
with `EnterCharacter` appends exactly one undo record (the records above the undo index
are dropped, the index grows by one); `Undo()` then restores exactly the previous lines
and text and the previous selection start, selection end and cursor, and a following
`Redo()` restores exactly the lines, the text, the selection and the cursor that held
right after the typing. -/
theorem C35_typed_character_undo_redo (e : TextEditor) (c : Nat) (aShift : Bool)
    (ht : Typable e) (h32 : 32 ≤ c) (h127 : c < 127)
    (hb : c ≠ 123 ∧ c ≠ 40 ∧ c ≠ 91) :
    (∃ u : UndoRecord,
        (EnterCharacter e c aShift).mUndoBuffer = e.mUndoBuffer.take e.mUndoIndex.toNat ++ [u]
          ∧ u.mBefore = e.mState ∧ u.mAfter = (EnterCharacter e c aShift).mState)
      ∧ (EnterCharacter e c aShift).mUndoIndex = e.mUndoIndex + 1
      ∧ ((Undo (EnterCharacter e c aShift) 1).mLines = e.mLines
        ∧ GetTextAll (Undo (EnterCharacter e c aShift) 1) = GetTextAll e
        ∧ (Undo (EnterCharacter e c aShift) 1).mState = e.mState)
      ∧ ((Redo (Undo (EnterCharacter e c aShift) 1) 1).mLines
            = (EnterCharacter e c aShift).mLines
        ∧ GetTextAll (Redo (Undo (EnterCharacter e c aShift) 1) 1)
            = GetTextAll (EnterCharacter e c aShift)
        ∧ (Redo (Undo (EnterCharacter e c aShift) 1) 1).mState
            = (EnterCharacter e c aShift).mState) := by
  obtain ⟨h1, h2, h3, h4, h5, h6⟩ :=
    EnterCharacter_undo_redo e c aShift ht ⟨h32, h127, fun _ => hb⟩
  exact ⟨h1, h2, ⟨h3, GetTextAll_congr h3, h4⟩, ⟨h5, GetTextAll_congr h5, h6⟩⟩

theorem C35_typed_character_undo_redo_witness :
    GetTextAll (Undo (EnterCharacter (ofLinesAt [[97, 9, 98], [195, 169]] ⟨1, 1⟩) 120 false) 1)
        = [97, 9, 98, 10, 195, 169]
      ∧ GetTextAll (Redo (Undo
          (EnterCharacter (ofLinesAt [[97, 9, 98], [195, 169]] ⟨1, 1⟩) 120 false) 1) 1)
        = [97, 9, 98, 10, 195, 169, 120]
      ∧ (EnterCharacter (ofLinesAt [[97, 9, 98], [195, 169]] ⟨1, 1⟩) 120 false).mUndoIndex
        = 1 :=
  ⟨(C35_typed_character_undo_redo (ofLinesAt [[97, 9, 98], [195, 169]] ⟨1, 1⟩) 120 false
      (by decide) (by decide) (by decide) (by decide)).2.2.1.2.1.trans (by decide),
    (C35_typed_character_undo_redo (ofLinesAt [[97, 9, 98], [195, 169]] ⟨1, 1⟩) 120 false
      (by decide) (by decide) (by decide) (by decide)).2.2.2.2.1.trans (by decide),
    (C35_typed_character_undo_redo (ofLinesAt [[97, 9, 98], [195, 169]] ⟨1, 1⟩) 120 false
      (by decide) (by decide) (by decide) (by decide)).2.1.trans (by decide)⟩

/-! ## Evaluations of the code at single inputs -/

/-- C36 (evaluation of the code): in a five-line document with a breakpoint on line 5
(condition "c", enabled), `DeleteRange((0,0), (2,0))` removes `k = 2` lines through
`RemoveLine(1, 3)` and leaves the breakpoint on line 4, not on line 5 - 2 = 3: the loop
of `RemoveLine(aStart, aEnd)` moves a breakpoint behind the range up by one line,
whatever the number of lines removed. -/
theorem C36_delete_range_breakpoints :
    (DeleteRange (withBreakpoints [[97], [98], [99], [100], [101]] [⟨5, true, "c"⟩])
        ⟨0, 0⟩ ⟨2, 0⟩).mLines = [toLine [99], toLine [100], toLine [101]]
      ∧ (DeleteRange (withBreakpoints [[97], [98], [99], [100], [101]] [⟨5, true, "c"⟩])
        ⟨0, 0⟩ ⟨2, 0⟩).mBreakpoints = [⟨4, true, "c"⟩]
      ∧ (RemoveLineRange (withBreakpoints [[97], [98], [99], [100], [101]] [⟨5, true, "c"⟩])
        1 3).mBreakpoints = [⟨4, true, "c"⟩] := by
  decide

/-- C37 (evaluation of the code): `SetTabSize(0)` and `SetTabSize(-3)` store the tab size
0, which lies in `[0, 32]`, and with it the divisor of the tab-stop division
`(c / mTabSize) * mTabSize + mTabSize` is zero on a line that contains a tab. -/
theorem C37_tab_size_zero :
    (SetTabSize {} 0).mTabSize = 0
      ∧ (SetTabSize {} (-3)).mTabSize = 0
      ∧ (SetTabSize {} 40).mTabSize = 32
      ∧ ¬ TabStopsDefined (SetTabSize {} 0).mTabSize (toLine [97, 9, 98]) := by
  decide

/-- C38 (evaluation of the code): `SetTabSize(8)` stores the tab size 8, and with
insert-spaces mode on the expansion of a typed tab writes spaces to `buf[0]` .. `buf[7]`
and the terminating NUL to `buf[8]`: the indices 7 and 8 are outside the 7-byte buffer.
The writes stay within the indices 0 .. 6 exactly for the tab sizes up to 6. -/
theorem C38_tab_buffer_writes :
    (SetInsertSpaces (SetTabSize {} 8) true).mTabSize = 8
      ∧ (SetInsertSpaces (SetTabSize {} 8) true).mInsertSpaces = true
      ∧ EnterCharacter.tabBufferWrites (SetInsertSpaces (SetTabSize {} 8) true).mTabSize
          = [(0, 32), (1, 32), (2, 32), (3, 32), (4, 32), (5, 32), (6, 32), (7, 32), (8, 0)]
      ∧ ∀ T : Nat, (∀ w ∈ EnterCharacter.tabBufferWrites T, w.1 ≤ 6) ↔ T ≤ 6 := by
  refine ⟨by decide, by decide, by decide, ?_⟩
  intro T
  unfold EnterCharacter.tabBufferWrites
  constructor
  · intro h
    exact h (T, 0) (List.mem_append_right _ (List.mem_singleton.mpr rfl))
  · intro hT w hw
    rcases List.mem_append.mp hw with h | h
    · obtain ⟨i, hi, rfl⟩ := List.mem_map.mp h
      have := List.mem_range.mp hi
      simp only
      omega
    · rw [List.mem_singleton] at h
      subst h
      exact hT

/-- C39 (evaluation of the code): on the input `"a\\"` (quote, a, backslash, backslash,
quote) `TokenizeCStyleString` reports no token: the second backslash is taken as the
escape of the quote that follows it.  On `"a\\" b"` the token runs on to the next
quote. -/
theorem C39_string_escaped_backslash :
    TokenizeCStyleString [34, 97, 92, 92, 34] = none
      ∧ TokenizeCStyleString [34, 97, 92, 92, 34, 32, 98, 34] = some 8
      ∧ TokenizeCStyleString [34, 97, 92, 34, 34] = some 5
      ∧ TokenizeCStyleString [34, 97, 34] = some 3 := by
  decide

/-! ## The colorizer leaves the bytes of the document alone -/

theorem paint_lineText (color : PaletteIndex) (line : Line) (b n : Nat) :
    lineText (ColorizeRange.paint color line b n) = lineText line := by
  induction n with
  | zero => rfl
  | succ n ih =>
    rw [ColorizeRange.paint, lineText_modifyGlyph]
    · exact ih
    · intro g; rfl

theorem tokenLoop_lineText (e : TextEditor) (i : Int) (buffer : List Nat) :
    ∀ (fuel : Nat) (line : Line) (first : Nat),
      lineText (ColorizeRange.tokenLoop e i buffer fuel line first).1 = lineText line := by
  intro fuel
  induction fuel with
  | zero => intro line first; rfl
  | succ fuel ih =>
    intro line first
    rw [ColorizeRange.tokenLoop]
    split_ifs
    · cases hn : ColorizeRange.nextToken e (buffer.drop first) with
      | none => simp only; exact ih _ _
      | some t =>
        simp only
        rw [ih]
        unfold ColorizeRange.takeToken
        exact paint_lineText _ _ _ _
    · rfl

theorem colorLine_lineText (e : TextEditor) (i : Int) (line : Line) :
    lineText (ColorizeRange.colorLine e i line) = lineText line := by
  unfold ColorizeRange.colorLine
  rw [tokenLoop_lineText]
  unfold lineText
  rw [List.map_map]
  rfl

theorem map_lineText_of_getD (A B : Lines) (hl : A.length = B.length)
    (h : ∀ j : Nat, lineText (A.getD j []) = lineText (B.getD j [])) :
    A.map lineText = B.map lineText := by
  apply List.ext_getElem (by simp [hl])
  intro j h1 h2
  simp only [List.length_map] at h1 h2
  have := h j
  rw [List.getD_eq_getElem _ _ h1, List.getD_eq_getElem _ _ h2] at this
  simpa using this

theorem inString_lineText (line : Line) (c : Nat) (s : ColorizeInternal.ScanState) :
    lineText (ColorizeInternal.inString line c s).1 = lineText line := by
  unfold ColorizeInternal.inString
  simp only
  split_ifs
  all_goals try rw [lineText_modifyGlyph]
  all_goals try rw [lineText_modifyGlyph]
  all_goals try (intro g; rfl)

theorem inCode_lineText (lang : LanguageDefinition) (N : Nat) (line : Line) (c : Nat)
    (s : ColorizeInternal.ScanState) :
    lineText (ColorizeInternal.inCode lang N line c s).1 = lineText line := by
  unfold ColorizeInternal.inCode
  simp only
  split_ifs
  all_goals try rw [lineText_modifyGlyph]
  all_goals try (intro g; rfl)

theorem advance_lineText (c : Nat) (r : Line × ColorizeInternal.ScanState) :
    lineText (ColorizeInternal.advance c r).1 = lineText r.1 := by
  unfold ColorizeInternal.advance
  simp only
  split_ifs
  all_goals try rw [lineText_modifyGlyph]
  all_goals try (intro g; rfl)

theorem scanGlyph_lineText (lang : LanguageDefinition) (N : Nat) (line : Line)
    (s : ColorizeInternal.ScanState) :
    lineText (ColorizeInternal.scanGlyph lang N line s).1 = lineText line := by
  unfold ColorizeInternal.scanGlyph
  simp only
  rw [advance_lineText]
  split_ifs
  · exact inString_lineText _ _ _
  · exact inCode_lineText _ _ _ _ _

theorem map_lineText_set (lines : Lines) (l : Nat) (x : Line)
    (hx : lineText x = lineText (lines.getD l [])) :
    (lines.set l x).map lineText = lines.map lineText := by
  apply List.ext_getElem (by simp)
  intro j h1 h2
  simp only [List.length_map, List.length_set] at h1 h2
  simp only [List.getElem_map, List.getElem_set]
  split_ifs with hj
  · subst hj
    rw [hx, List.getD_eq_getElem _ _ h2]
  · rfl

theorem scan_lineText (lang : LanguageDefinition) (N : Nat) :
    ∀ (fuel : Nat) (lines : Lines) (s : ColorizeInternal.ScanState),
      (ColorizeInternal.scan lang N fuel lines s).map lineText = lines.map lineText := by
  intro fuel
  induction fuel with
  | zero => intro lines s; rfl
  | succ fuel ih =>
    intro lines s
    rw [ColorizeInternal.scan]
    split_ifs
    · rw [ih]
      unfold ColorizeInternal.scanStep
      simp only
      split_ifs
      · rfl
      · simp only
        have hcl : (ColorizeInternal.lineStart s).currentLine = s.currentLine := by
          unfold ColorizeInternal.lineStart
          simp only
          split_ifs <;> rfl
        apply map_lineText_set
        rw [scanGlyph_lineText, hcl]
    · rfl

theorem checkComments_lineText (lang : LanguageDefinition) (lines : Lines) :
    (ColorizeInternal.checkComments lang lines).map lineText = lines.map lineText :=
  scan_lineText lang _ _ _ _

theorem ColorizeRange_lineText (e : TextEditor) (a b : Int) (h0 : 0 ≤ a) :
    (ColorizeRange e a b).mLines.map lineText = e.mLines.map lineText := by
  by_cases h : e.mLines = [] ∨ e.mColorizerEnabled = false
  · unfold ColorizeRange
    rw [if_pos h]
  · have hne : e.mLines ≠ [] := fun h1 => h (Or.inl h1)
    have hen : e.mColorizerEnabled = true := by
      cases hc : e.mColorizerEnabled
      · exact absurd (Or.inr hc) h
      · rfl
    obtain ⟨s1, s2, _⟩ := ColorizeRange_spec e a b hne hen h0
    apply map_lineText_of_getD _ _ s1
    intro j
    rw [s2]
    split_ifs
    · exact colorLine_lineText _ _ _
    · rfl

theorem ColorizeRange_outside (e : TextEditor) (a b : Int) (h0 : 0 ≤ a) (j : Nat)
    (hj : ¬ (a ≤ (j : Int) ∧ (j : Int) < b)) :
    (ColorizeRange e a b).mLines.getD j [] = e.mLines.getD j [] := by
  by_cases h : e.mLines = [] ∨ e.mColorizerEnabled = false
  · unfold ColorizeRange
    rw [if_pos h]
  · have hne : e.mLines ≠ [] := fun h1 => h (Or.inl h1)
    have hen : e.mColorizerEnabled = true := by
      cases hc : e.mColorizerEnabled
      · exact absurd (Or.inr hc) h
      · rfl
    obtain ⟨_, s2, _⟩ := ColorizeRange_spec e a b hne hen h0
    rw [s2, if_neg hj]

theorem rangeStep_lineText (e : TextEditor) (h0 : 0 ≤ e.mColorRangeMin) :
    (ColorizeInternal.rangeStep e).mLines.map lineText = e.mLines.map lineText := by
  unfold ColorizeInternal.rangeStep
  by_cases h : e.mColorRangeMin < e.mColorRangeMax
  · rw [if_pos h]
    simp only
    split_ifs <;> exact ColorizeRange_lineText e _ _ h0
  · rw [if_neg h]

theorem ColorizeInternal_lineText (e : TextEditor) (h0 : 0 ≤ e.mColorRangeMin) :
    (ColorizeInternal e).mLines.map lineText = e.mLines.map lineText := by
  unfold ColorizeInternal
  split_ifs
  · rfl
  · exact (rangeStep_lineText
      { e with
        mLines := ColorizeInternal.checkComments e.mLanguageDefinition e.mLines
        mCheckComments := false } h0).trans (checkComments_lineText _ _)
  · exact rangeStep_lineText _ h0

theorem GetTextAll_of_lineText {e e' : TextEditor}
    (h : e'.mLines.map lineText = e.mLines.map lineText) : GetTextAll e' = GetTextAll e := by
  rw [GetTextAll_eq, GetTextAll_eq]
  unfold docText
  rw [h]

/-- C40: the colorizer never changes document content.  `ColorizeInternal` (with the
dirty range starting at a line `≥ 0`, as `Colorize` leaves it) and `ColorizeRange(from,
to)` (with `from ≥ 0`) leave the number of lines, the length of every line and the byte
of every glyph as they were, hence `GetText()` too: the only fields of a glyph they
write are the classification index and the comment, multi-line-comment and preprocessor
flags.  `ColorizeRange(from, to)` leaves every glyph of the lines outside `[from, to)`
untouched. -/
theorem C40_colorizer_frame (e : TextEditor) (a b : Int) (h0 : 0 ≤ a)
    (hmin : 0 ≤ e.mColorRangeMin) :
    ((ColorizeInternal e).mLines.map lineText = e.mLines.map lineText
        ∧ (ColorizeInternal e).mLines.length = e.mLines.length
        ∧ (∀ j k : Nat, ((ColorizeInternal e).mLines.getD j []).length = (e.mLines.getD j []).length
            ∧ (glyphAt ((ColorizeInternal e).mLines.getD j []) k).mChar
              = (glyphAt (e.mLines.getD j []) k).mChar)
        ∧ GetTextAll (ColorizeInternal e) = GetTextAll e)
      ∧ ((ColorizeRange e a b).mLines.map lineText = e.mLines.map lineText
        ∧ (ColorizeRange e a b).mLines.length = e.mLines.length
        ∧ (∀ j k : Nat, ((ColorizeRange e a b).mLines.getD j []).length = (e.mLines.getD j []).length
            ∧ (glyphAt ((ColorizeRange e a b).mLines.getD j []) k).mChar
              = (glyphAt (e.mLines.getD j []) k).mChar)
        ∧ GetTextAll (ColorizeRange e a b) = GetTextAll e)
      ∧ (∀ j : Nat, ¬ (a ≤ (j : Int) ∧ (j : Int) < b) →
          (ColorizeRange e a b).mLines.getD j [] = e.mLines.getD j []) := by
  have key : ∀ A B : Lines, A.map lineText = B.map lineText →
      A.length = B.length
        ∧ ∀ j k : Nat, (A.getD j []).length = (B.getD j []).length
            ∧ (glyphAt (A.getD j []) k).mChar = (glyphAt (B.getD j []) k).mChar := by
    intro A B h
    have hl : A.length = B.length := by
      have := congrArg List.length h
      simpa using this
    refine ⟨hl, fun j k => ?_⟩
    have hj : lineText (A.getD j []) = lineText (B.getD j []) := by
      have h1 := congrArg (fun l => l.getD j []) h
      simp only [List.getD_eq_getElem?_getD, List.getElem?_map] at h1 ⊢
      cases hA : A[j]? with
      | none =>
        have : B[j]? = none := by
          rw [List.getElem?_eq_none_iff] at hA ⊢; omega
        rw [this]
      | some x =>
        cases hB : B[j]? with
        | none =>
          rw [List.getElem?_eq_none_iff] at hB
          have := (List.getElem?_eq_some_iff.mp hA).1
          omega
        | some y =>
          rw [hA, hB] at h1
          simpa using h1
    exact ⟨length_congr _ _ hj, glyphAt_mChar_congr _ _ hj k⟩
  have h1 := ColorizeInternal_lineText e hmin
  have h2 := ColorizeRange_lineText e a b h0
  exact ⟨⟨h1, (key _ _ h1).1, (key _ _ h1).2, GetTextAll_of_lineText h1⟩,
    ⟨h2, (key _ _ h2).1, (key _ _ h2).2, GetTextAll_of_lineText h2⟩,
    fun j hj => ColorizeRange_outside e a b h0 j hj⟩

theorem C40_colorizer_frame_witness :
    GetTextAll (ColorizeInternal
        { withLanguage cLikeLanguage [[47, 42, 105, 102], [42, 47, 32, 105, 102]] with
          mColorRangeMax := 2 })
        = [47, 42, 105, 102, 10, 42, 47, 32, 105, 102]
      ∧ (ColorizeRange (withLanguage ifLanguage [[105, 102], [105, 102]]) 1 2).mLines.getD 0 []
        = toLine [105, 102] :=
  ⟨(C40_colorizer_frame
      { withLanguage cLikeLanguage [[47, 42, 105, 102], [42, 47, 32, 105, 102]] with
        mColorRangeMax := 2 } 0 0 (by decide) (by decide)).1.2.2.2.trans (by decide),
    ((C40_colorizer_frame (withLanguage ifLanguage [[105, 102], [105, 102]]) 1 2
      (by decide) (by decide)).2.2 0 (by decide)).trans (by decide)⟩

/-! ## The suggestion list of the autocomplete -/

theorem stringFind_search_spec (w : List Nat) :
    ∀ (s : List Nat) (p : Nat),
      (stringFind.search w s p = none ↔ ¬ w <:+: s)
        ∧ (stringFind.search w s p = some p ↔ w <+: s)
        ∧ ∀ q, stringFind.search w s p = some q → p ≤ q := by
  intro s
  induction s with
  | nil =>
    intro p
    simp only [stringFind.search]
    by_cases hw : w = []
    · subst hw
      simp
    · simp [hw, List.infix_nil, List.prefix_nil]
  | cons c s ih =>
    intro p
    obtain ⟨i1, i2, i3⟩ := ih (p + 1)
    simp only [stringFind.search]
    by_cases hp : w.isPrefixOf (c :: s) = true
    · have hp2 : w <+: c :: s := List.isPrefixOf_iff_prefix.mp hp
      rw [if_pos hp]
      refine ⟨?_, ?_, ?_⟩
      · simp only [reduceCtorEq, false_iff, not_not]
        exact hp2.isInfix
      · simp [hp2]
      · intro q hq
        have := Option.some.inj hq
        omega
    · have hp2 : ¬ w <+: c :: s := fun h => hp (List.isPrefixOf_iff_prefix.mpr h)
      rw [if_neg hp]
      refine ⟨?_, ?_, ?_⟩
      · rw [i1, List.infix_cons_iff]
        simp [hp2]
      · constructor
        · intro h
          have := i3 p h
          omega
        · intro h
          exact absurd h hp2
      · intro q hq
        have := i3 q hq
        omega

theorem stringFind_none (s w : List Nat) : stringFind s w = none ↔ ¬ w <:+: s :=
  (stringFind_search_spec w s 0).1

theorem stringFind_zero (s w : List Nat) : stringFind s w = some 0 ↔ w <+: s :=
  (stringFind_search_spec w s 0).2.1

theorem push_eq (acWord : List Nat) (c : Candidate) (weights : List ACEntry) :
    m_buildSuggestions.push acWord c.key c.display c.value weights
      = weights ++ (stringFind (c.key.map tolower) acWord).toList.map
          (fun loc => { DisplayString := c.display, Value := c.value, Location := loc }) := by
  unfold m_buildSuggestions.push
  cases stringFind (c.key.map tolower) acWord <;> simp

theorem foldl_push (acWord : List Nat) {α : Type} (f : α → Candidate) :
    ∀ (xs : List α) (init : List ACEntry),
      xs.foldl (fun w x => m_buildSuggestions.push acWord (f x).key (f x).display (f x).value w)
          init
        = init ++ (xs.map f).flatMap (fun c =>
            (stringFind (c.key.map tolower) acWord).toList.map
              (fun loc => { DisplayString := c.display, Value := c.value, Location := loc })) := by
  intro xs
  induction xs with
  | nil => intro init; simp
  | cons x xs ih =>
    intro init
    rw [List.foldl_cons, ih, push_eq]
    simp [List.append_assoc]

theorem functions_eq (e : TextEditor) (acWord : List Nat) :
    ∀ (fs : List (List Nat × FunctionData)) (init : List ACEntry),
      fs.foldl
          (fun w func =>
            let w :=
              if e.mState.mCursorPosition.mLine ≥ func.2.LineStart - 2
                  ∧ e.mState.mCursorPosition.mLine ≤ func.2.LineEnd + 1 then
                func.2.Arguments.foldl
                  (fun w str => m_buildSuggestions.push acWord str str str w)
                  (func.2.Locals.foldl
                    (fun w str => m_buildSuggestions.push acWord str str str w) w)
              else w
            m_buildSuggestions.push acWord func.1 func.1
              (if e.mCompleteBraces then func.1 ++ [40, 41] else func.1) w)
          init
        = init ++ (fs.flatMap
            (fun func =>
              (if e.mState.mCursorPosition.mLine ≥ func.2.LineStart - 2
                    ∧ e.mState.mCursorPosition.mLine ≤ func.2.LineEnd + 1 then
                  func.2.Locals.map Candidate.plain ++ func.2.Arguments.map Candidate.plain
                else [])
                ++ [Candidate.callable e.mCompleteBraces func.1])).flatMap (fun c =>
            (stringFind (c.key.map tolower) acWord).toList.map
              (fun loc => { DisplayString := c.display, Value := c.value, Location := loc })) := by
  intro fs
  induction fs with
  | nil => intro init; simp
  | cons func fs ih =>
    intro init
    rw [List.foldl_cons, ih]
    have hl := fun xs init => foldl_push acWord Candidate.plain xs init
    have hc := push_eq acWord (Candidate.callable e.mCompleteBraces func.1)
    simp only [Candidate.plain, Candidate.callable] at hl hc
    simp only [hc, List.flatMap_cons, List.flatMap_append]
    by_cases h : e.mState.mCursorPosition.mLine ≥ func.2.LineStart - 2
        ∧ e.mState.mCursorPosition.mLine ≤ func.2.LineEnd + 1
    · rw [if_pos h, if_pos h, hl, hl]
      simp only [List.flatMap_append, List.flatMap_cons, List.flatMap_nil, List.append_nil,
        List.append_assoc, Candidate.callable]
    · rw [if_neg h, if_neg h]
      simp only [List.flatMap_append, List.flatMap_cons, List.flatMap_nil, List.append_nil,
        List.append_assoc, Candidate.callable, List.nil_append]

theorem weights_eq (e : TextEditor) (acWord : List Nat) :
    m_buildSuggestions.weights e acWord
      = (candidates e).flatMap (fun c =>
          (stringFind (c.key.map tolower) acWord).toList.map
            (fun loc => { DisplayString := c.display, Value := c.value, Location := loc })) := by
  have hf : ∀ init, m_buildSuggestions.functions e acWord init = _ :=
    fun init => functions_eq e acWord e.mACFunctions init
  unfold m_buildSuggestions.weights candidates
  have hl := fun xs init => foldl_push acWord Candidate.plain xs init
  have hc := fun xs init => foldl_push acWord (Candidate.callable e.mCompleteBraces) xs init
  have hr := foldl_push acWord
    (fun i => ({ key := e.mACEntrySearch.getD i [], display := (e.mACEntries.getD i ([], [])).1,
                 value := (e.mACEntries.getD i ([], [])).2 } : Candidate))
    (List.range e.mACEntrySearch.length) []
  simp only [Candidate.plain, Candidate.callable] at hl hc hr
  simp only [hl, hc, hr, hf]
  simp only [List.flatMap_append, List.nil_append, List.append_assoc, Candidate.plain,
    Candidate.callable]

theorem suggestions_front (w : List Nat) :
    ∀ C : List Candidate,
      ((C.flatMap (fun c =>
          (stringFind (c.key.map tolower) w).toList.map
            (fun loc => ({ DisplayString := c.display, Value := c.value, Location := loc }
              : ACEntry)))).filter (fun entry => decide (entry.Location = 0))).map
          (fun entry => (entry.DisplayString, entry.Value))
        = (C.filter (fun c => decide (w <+: c.key.map tolower))).map
            (fun c => (c.display, c.value)) := by
  intro C
  induction C with
  | nil => rfl
  | cons c C ih =>
    rw [List.flatMap_cons, List.filter_append, List.map_append, ih, List.filter_cons]
    cases h : stringFind (c.key.map tolower) w with
    | none =>
      have h1 : ¬ w <+: c.key.map tolower := fun hp =>
        (stringFind_none _ _).mp h hp.isInfix
      simp [h1]
    | some q =>
      by_cases hq : q = 0
      · subst hq
        have h1 : w <+: c.key.map tolower := (stringFind_zero _ _).mp h
        simp [h1]
      · have h1 : ¬ w <+: c.key.map tolower := fun hp => by
          have := (stringFind_zero _ _).mpr hp
          rw [h] at this
          exact hq (Option.some.inj this)
        simp [h1, hq]

theorem suggestions_back (w : List Nat) :
    ∀ C : List Candidate,
      ((C.flatMap (fun c =>
          (stringFind (c.key.map tolower) w).toList.map
            (fun loc => ({ DisplayString := c.display, Value := c.value, Location := loc }
              : ACEntry)))).filter (fun entry => decide (entry.Location ≠ 0))).map
          (fun entry => (entry.DisplayString, entry.Value))
        = (C.filter (fun c => decide (w <:+: c.key.map tolower ∧ ¬ w <+: c.key.map tolower))).map
            (fun c => (c.display, c.value)) := by
  intro C
  induction C with
  | nil => rfl
  | cons c C ih =>
    rw [List.flatMap_cons, List.filter_append, List.map_append, ih, List.filter_cons]
    cases h : stringFind (c.key.map tolower) w with
    | none =>
      have h1 : ¬ w <:+: c.key.map tolower := (stringFind_none _ _).mp h
      simp [h1]
    | some q =>
      have h0 : w <:+: c.key.map tolower := by
        by_contra hn
        have := (stringFind_none _ _).mpr hn
        rw [h] at this
        exact absurd this (by simp)
      by_cases hq : q = 0
      · subst hq
        have h1 : w <+: c.key.map tolower := (stringFind_zero _ _).mp h
        simp [h1]
      · have h1 : ¬ w <+: c.key.map tolower := fun hp => by
          have := (stringFind_zero _ _).mpr hp
          rw [h] at this
          exact hq (Option.some.inj this)
        simp [h1, hq, h0]

theorem m_buildSuggestions_list (e : TextEditor) (k : Bool)
    (hvalid : ∃ c ∈ GetWordUnderCursor e, (97 ≤ c ∧ c ≤ 122) ∨ (65 ≤ c ∧ c ≤ 90)) :
    (m_buildSuggestions e k).1.mACSuggestions
      = ((candidates e).filter
            (fun c => decide ((GetWordUnderCursor e).map tolower <+: c.key.map tolower))).map
          (fun c => (c.display, c.value))
        ++ ((candidates e).filter
            (fun c => decide ((GetWordUnderCursor e).map tolower <:+: c.key.map tolower
              ∧ ¬ (GetWordUnderCursor e).map tolower <+: c.key.map tolower))).map
          (fun c => (c.display, c.value)) := by
  have hany : (GetWordUnderCursor e).any
      (fun c => decide ((97 ≤ c ∧ c ≤ 122) ∨ (65 ≤ c ∧ c ≤ 90))) = true := by
    rw [List.any_eq_true]
    obtain ⟨c, hc, h⟩ := hvalid
    exact ⟨c, hc, by simpa using h⟩
  have hw := weights_eq { e with mACWord := GetWordUnderCursor e }
    ((GetWordUnderCursor e).map tolower)
  have hcand : candidates { e with mACWord := GetWordUnderCursor e } = candidates e := rfl
  rw [hcand] at hw
  unfold m_buildSuggestions
  simp only [hany, if_true, hw]
  rw [suggestions_front, suggestions_back]
  split_ifs <;> rfl

/-- C33: when the word under the cursor contains a letter, the suggestion list that
`m_buildSuggestions` builds consists of the candidates whose lower-cased key begins with
the lower-cased word, in scan order, followed by the candidates whose lower-cased key
contains the lower-cased word but does not begin with it, in scan order; a suggestion is
in the list exactly when it comes from a candidate whose lower-cased key contains the
lower-cased word. -/
theorem C33_suggestions_by_position (e : TextEditor) (keepACOpened : Bool)
    (hvalid : ∃ c ∈ GetWordUnderCursor e, (97 ≤ c ∧ c ≤ 122) ∨ (65 ≤ c ∧ c ≤ 90)) :
    (m_buildSuggestions e keepACOpened).1.mACSuggestions
        = ((candidates e).filter
              (fun c => decide ((GetWordUnderCursor e).map tolower <+: c.key.map tolower))).map
            (fun c => (c.display, c.value))
          ++ ((candidates e).filter
              (fun c => decide ((GetWordUnderCursor e).map tolower <:+: c.key.map tolower
                ∧ ¬ (GetWordUnderCursor e).map tolower <+: c.key.map tolower))).map
            (fun c => (c.display, c.value))
      ∧ (∀ entry, entry ∈ (m_buildSuggestions e keepACOpened).1.mACSuggestions
          ↔ ∃ c ∈ candidates e, (GetWordUnderCursor e).map tolower <:+: c.key.map tolower
              ∧ entry = (c.display, c.value))
      ∧ (m_buildSuggestions e keepACOpened).1.mACWord = GetWordUnderCursor e := by
  have hlist := m_buildSuggestions_list e keepACOpened hvalid
  refine ⟨hlist, ?_, ?_⟩
  · intro entry
    rw [hlist]
    simp only [List.mem_append, List.mem_map, List.mem_filter, decide_eq_true_eq]
    constructor
    · rintro (⟨c, ⟨hc, hp⟩, rfl⟩ | ⟨c, ⟨hc, hi, _⟩, rfl⟩)
      · exact ⟨c, hc, hp.isInfix, rfl⟩
      · exact ⟨c, hc, hi, rfl⟩
    · rintro ⟨c, hc, hi, rfl⟩
      by_cases hp : (GetWordUnderCursor e).map tolower <+: c.key.map tolower
      · exact Or.inl ⟨c, ⟨hc, hp⟩, rfl⟩
      · exact Or.inr ⟨c, ⟨hc, hi, hp⟩, rfl⟩
  · unfold m_buildSuggestions
    simp only
    split_ifs <;> rfl

theorem C33_suggestions_by_position_witness :
    (∃ c ∈ GetWordUnderCursor wordTyped, (97 ≤ c ∧ c ≤ 122) ∨ (65 ≤ c ∧ c ≤ 90))
      ∧ (m_buildSuggestions wordTyped false).1.mACSuggestions
          = [([105, 110, 100, 101, 120], [105, 110, 100, 101, 120]),
             ([105, 110, 112, 117, 116], [105, 110, 112, 117, 116]),
             ([73, 110, 100, 101, 120], [73, 110, 100, 101, 120]),
             ([105, 110, 116], [105, 110, 116]),
             ([112, 105, 110], [112, 105, 110]),
             ([109, 97, 105, 110], [109, 97, 105, 110, 40, 41]),
             ([119, 105, 110], [119, 105, 110]),
             ([115, 105, 110], [115, 105, 110, 40, 41]),
             ([109, 105, 110], [109, 105, 110, 40, 41])] :=
  ⟨by decide,
    (C33_suggestions_by_position wordTyped false (by decide)).1.trans (by decide)⟩

theorem defineAll_append (env : List (Nat × List Nat)) (a b : List (List Nat × SnippetMarker)) :
    Snippet.defineAll env (a ++ b) = Snippet.defineAll (Snippet.defineAll env a) b := by
  unfold Snippet.defineAll
  rw [List.foldl_append]

theorem defineAll_single (env : List (Nat × List Nat)) (p : List Nat × SnippetMarker) :
    Snippet.defineAll env [p] = Snippet.define env p.2 := rfl

theorem defineAll_cons (env : List (Nat × List Nat)) (p : List Nat × SnippetMarker)
    (rest : List (List Nat × SnippetMarker)) :
    Snippet.defineAll env (p :: rest) = Snippet.defineAll (Snippet.define env p.2) rest := rfl

theorem interim_append (a b : List (List Nat × SnippetMarker)) :
    ∀ env, Snippet.interim env (a ++ b)
      = Snippet.interim env a ++ Snippet.interim (Snippet.defineAll env a) b := by
  induction a with
  | nil => intro env; rfl
  | cons p a ih =>
    intro env
    rw [List.cons_append, Snippet.interim, Snippet.interim, ih, defineAll_cons]
    simp only [List.append_assoc]

theorem spansWith_append (a b : List (List Nat × SnippetMarker)) :
    ∀ env off, Snippet.spansWith env off (a ++ b)
      = Snippet.spansWith env off a
        ++ Snippet.spansWith (Snippet.defineAll env a) (off + (Snippet.interim env a).length) b := by
  induction a with
  | nil => intro env off; rfl
  | cons p a ih =>
    intro env off
    rw [List.cons_append, Snippet.spansWith, Snippet.spansWith, ih, defineAll_cons,
      Snippet.interim]
    simp only [List.cons_append, List.length_append, Nat.add_assoc]

theorem find_cast (env : List (Nat × List Nat)) (id : Nat) :
    (env.map (fun p => ((p.1 : Int), p.2))).find? (fun p => decide (p.1 = (id : Int)))
      = (env.find? (fun p => decide (p.1 = id))).map (fun p => ((p.1 : Int), p.2)) := by
  induction env with
  | nil => rfl
  | cons q env ih =>
    rw [List.map_cons]
    by_cases h : q.1 = id
    · rw [List.find?_cons_of_pos _ (by simp [h]), List.find?_cons_of_pos _ (by simp [h])]
      rfl
    · rw [List.find?_cons_of_neg _ (by simpa using h), List.find?_cons_of_neg _ (by simpa using h),
        ih]

theorem placeholder_cast (env : List (Nat × List Nat)) (id : Nat) :
    mAutcompleteParse.placeholder (env.map (fun p => ((p.1 : Int), p.2))) (id : Int)
      = Snippet.textOf env id := by
  unfold mAutcompleteParse.placeholder Snippet.textOf
  rw [find_cast]
  cases env.find? (fun p => decide (p.1 = id)) <;> rfl

theorem textOf_cons_self (env : List (Nat × List Nat)) (id : Nat) (x : List Nat) :
    Snippet.textOf ((id, x) :: env) id = x := by
  unfold Snippet.textOf
  rw [List.find?_cons_of_pos _ (by simp)]

theorem piece_defining (str : List Nat) (start : Coordinates)
    (h0 : 0 ≤ start.mColumn) (done : List (List Nat × SnippetMarker)) (t : List Nat)
    (m : SnippetMarker) (tail : List Nat) (s : mAutcompleteParse.State) (fuel : Nat)
    (hinv : mAutcompleteParse.Progress start done s)
    (hdrop : str.drop s.buffer = t ++ m.text ++ tail)
    (hpt : PlainText t) (hwf : m.WellFormed) (hph : m.placeholder ≠ []) :
    ∃ s', mAutcompleteParse.loop str (fuel + 1 + m.placeholder.length + 1 + t.length) s
        = mAutcompleteParse.loop str fuel s'
      ∧ mAutcompleteParse.Progress start (done ++ [(t, m)]) s' := by
  obtain ⟨i1, i2, i3, i4, i5, i6, i7, i8, i9, i10, i11, i12⟩ := hinv
  have hdrop0 : str.drop s.buffer = t ++ (m.text ++ tail) := by
    rw [hdrop, List.append_assoc]
  have hhead : (m.text ++ tail).headD 0 ≠ 36 := by
    simp [SnippetMarker.text]
  have hc := plain_conditions str t (m.text ++ tail) s.buffer hdrop0 hpt hhead
  have hrun := mAutcompleteParse_plain_run str t.length s (fuel + 1 + m.placeholder.length + 1)
    (fun k hk => ⟨(hc k hk).2.1, (hc k hk).2.2.1, (hc k hk).2.2.2, by simp [i2]⟩)
  have hdrop1 : str.drop (s.buffer + t.length) = m.text ++ tail := by
    rw [← List.drop_drop, hdrop0, List.drop_left]
  obtain ⟨h123, h36, hstr, hd3⟩ := marker_facts str tail (s.buffer + t.length) m hdrop1 hwf
  rw [if_neg hph] at hd3
  have hdrop3 : str.drop (s.buffer + t.length + 2 + m.digits.length + 1)
      = m.placeholder ++ ([125] ++ tail) := by
    rw [← List.drop_drop, hd3]; simp
  have hopen := marker_open_new str tail m
    { s with cursor := { s.cursor with mColumn := s.cursor.mColumn + (t.length : Int) },
             buffer := s.buffer + t.length } hdrop1 hwf hph
  simp only at hopen
  have hc3 := plain_conditions str m.placeholder ([125] ++ tail)
    (s.buffer + t.length + 2 + m.digits.length + 1) hdrop3 hwf.2.2.2.1 (by simp)
  have hrun3 := mAutcompleteParse_plain_run str m.placeholder.length
    { s with
      parsingTagPlaceholder := true
      parsingTag := true
      tagStart := s.buffer + t.length
      tagStartCoord := { s.cursor with mColumn := s.cursor.mColumn + (t.length : Int) }
      tagId := (m.id : Int)
      tagPlaceholderStart := s.buffer + t.length + 2 + m.digits.length + 1
      buffer := s.buffer + t.length + 2 + m.digits.length + 1
      cursor := { s.cursor with
        mColumn := s.cursor.mColumn + (t.length : Int) + ((2 + m.digits.length : Nat) : Int) + 1 } }
    (fuel + 1)
    (fun k hk => ⟨(hc3 k hk).2.1, (hc3 k hk).2.2.1, (hc3 k hk).2.2.2,
      fun h => hwf.2.2.2.2 (h.1 ▸ (hc3 k hk).1)⟩)
  simp only at hrun3
  have h125 : str.getD (s.buffer + t.length + 2 + m.digits.length + 1 + m.placeholder.length) 0
      = 125 := by
    rw [getD_of_drop str _ _ _ hdrop3, List.getD_append_right _ _ _ _ (Nat.le_refl _)]
    simp
  have htake : (str.drop (s.buffer + t.length + 2 + m.digits.length + 1)).take
      (s.buffer + t.length + 2 + m.digits.length + 1 + m.placeholder.length
        - (s.buffer + t.length + 2 + m.digits.length + 1)) = m.placeholder := by
    rw [Nat.add_sub_cancel_left, hdrop3, List.take_left]
  have hclose := marker_close_new str m.placeholder
    { s with
      parsingTagPlaceholder := true
      parsingTag := true
      tagStart := s.buffer + t.length
      tagStartCoord := { s.cursor with mColumn := s.cursor.mColumn + (t.length : Int) }
      tagId := (m.id : Int)
      tagPlaceholderStart := s.buffer + t.length + 2 + m.digits.length + 1
      buffer := s.buffer + t.length + 2 + m.digits.length + 1 + m.placeholder.length
      cursor := { s.cursor with
        mColumn := s.cursor.mColumn + (t.length : Int) + ((2 + m.digits.length : Nat) : Int) + 1
          + (m.placeholder.length : Int) } }
    h125 rfl rfl htake hph
  simp only at hclose
  have hlen := marker_text_length m
  rw [if_neg hph] at hlen
  have hdef : Snippet.define (Snippet.defineAll [] done) m
      = (m.id, m.placeholder) :: Snippet.defineAll [] done := by
    unfold Snippet.define
    rw [if_pos hph]
  have htext : Snippet.textOf ((m.id, m.placeholder) :: Snippet.defineAll [] done) m.id
      = m.placeholder := textOf_cons_self _ _ _
  refine ⟨mAutcompleteParse.next str (mAutcompleteParse.closeTag str
    (mAutcompleteParse.openTag str
    { s with
      parsingTagPlaceholder := true
      parsingTag := true
      tagStart := s.buffer + t.length
      tagStartCoord := { s.cursor with mColumn := s.cursor.mColumn + (t.length : Int) }
      tagId := (m.id : Int)
      tagPlaceholderStart := s.buffer + t.length + 2 + m.digits.length + 1
      buffer := s.buffer + t.length + 2 + m.digits.length + 1 + m.placeholder.length
      cursor := { s.cursor with
        mColumn := s.cursor.mColumn + (t.length : Int) + ((2 + m.digits.length : Nat) : Int) + 1
          + (m.placeholder.length : Int) } })), ?_, ?_⟩
  · rw [hrun, mAutcompleteParse.loop, if_pos (by simp only [h123]; decide), hopen, hrun3,
      mAutcompleteParse.loop, if_pos (by simp only [h125]; decide)]
  · unfold mAutcompleteParse.Progress
    rw [hclose]
    simp only [i1, i3, i4, i5, i6, i7, i8, i9, i10, i11, i12, piecesText_append,
      piecesText_cons, piecesText_nil, interim_append, defineAll_append, defineAll_single,
      markerLocations_append, spansWith_append, Snippet.spansWith, Snippet.interim,
      Snippet.markerLocations, hdef, htext,
      List.map_append, List.map_cons, List.map_nil, List.length_append, List.append_nil,
      List.nil_append, Nat.zero_add]
    have hE : (Snippet.interim [] ([] : List (List Nat × SnippetMarker))).length = 0 := rfl
    have hmax : (0 : Int) ⊔ (start.mColumn + ((Snippet.piecesText done).length : Int)
          + (t.length : Int)
          - (((Snippet.piecesText done).length : Int)
              - ((Snippet.interim [] done).length : Int)))
        = start.mColumn + (((Snippet.interim [] done).length + t.length : Nat) : Int) := by
      rw [sup_of_le_right (by omega)]; push_cast; omega
    simp only [hmax, hE]
    refine ⟨by omega, trivial, ?_, by omega, trivial, trivial, ?_, trivial, trivial, ?_, trivial, ?_⟩
    · simp only [Coordinates.mk.injEq, true_and]; push_cast; omega
    · simp only [List.append_cancel_left_eq, List.cons.injEq, and_true]; omega
    · simp only [List.append_cancel_left_eq, List.cons.injEq, and_true, Coordinates.mk.injEq,
        true_and]
      push_cast; omega
    · simp only [List.append_cancel_left_eq, List.cons.injEq, and_true]
      simp [hph]

theorem piece_referring (str : List Nat) (start : Coordinates)
    (h0 : 0 ≤ start.mColumn) (done : List (List Nat × SnippetMarker)) (t : List Nat)
    (m : SnippetMarker) (tail : List Nat) (s : mAutcompleteParse.State) (fuel : Nat)
    (hinv : mAutcompleteParse.Progress start done s)
    (hdrop : str.drop s.buffer = t ++ m.text ++ tail)
    (hpt : PlainText t) (hwf : m.WellFormed) (hph : m.placeholder = []) :
    ∃ s', mAutcompleteParse.loop str (fuel + 1 + t.length) s
        = mAutcompleteParse.loop str fuel s'
      ∧ mAutcompleteParse.Progress start (done ++ [(t, m)]) s' := by
  obtain ⟨i1, i2, i3, i4, i5, i6, i7, i8, i9, i10, i11, i12⟩ := hinv
  have hdrop0 : str.drop s.buffer = t ++ (m.text ++ tail) := by
    rw [hdrop, List.append_assoc]
  have hhead : (m.text ++ tail).headD 0 ≠ 36 := by
    simp [SnippetMarker.text]
  have hc := plain_conditions str t (m.text ++ tail) s.buffer hdrop0 hpt hhead
  have hrun := mAutcompleteParse_plain_run str t.length s (fuel + 1)
    (fun k hk => ⟨(hc k hk).2.1, (hc k hk).2.2.1, (hc k hk).2.2.2, by simp [i2]⟩)
  have hdrop1 : str.drop (s.buffer + t.length) = m.text ++ tail := by
    rw [← List.drop_drop, hdrop0, List.drop_left]
  obtain ⟨h123, h36, hstr, hd3⟩ := marker_facts str tail (s.buffer + t.length) m hdrop1 hwf
  rw [if_pos hph] at hd3
  have h125 : str.getD (s.buffer + t.length + 2 + m.digits.length) 0 = 125 := by
    have := getD_of_drop str _ (s.buffer + t.length + 2 + m.digits.length) 0 hd3
    simpa using this
  have hid := longToInt_small m.id hwf.2.2.1
  have hlen := marker_text_length m
  rw [if_pos hph] at hlen
  have hM := find_cast (Snippet.defineAll [] done) m.id
  rw [← i8] at hM
  have hE : (Snippet.interim [] ([] : List (List Nat × SnippetMarker))).length = 0 := rfl
  have hmax : (0 : Int) ⊔ (start.mColumn + ((Snippet.piecesText done).length : Int)
        + (t.length : Int)
        - (((Snippet.piecesText done).length : Int)
            - ((Snippet.interim [] done).length : Int)))
      = start.mColumn + (((Snippet.interim [] done).length + t.length : Nat) : Int) := by
    rw [sup_of_le_right (by omega)]; push_cast; omega
  refine ⟨mAutcompleteParse.next str (mAutcompleteParse.closeTag str
    (mAutcompleteParse.openTag str
      { s with cursor := { s.cursor with mColumn := s.cursor.mColumn + (t.length : Int) },
               buffer := s.buffer + t.length })), ?_, ?_⟩
  · rw [hrun, mAutcompleteParse.loop, if_pos (by simp only [h123]; decide)]
  · unfold mAutcompleteParse.Progress
    rw [mAutcompleteParse.openTag, if_pos ⟨h123, h36⟩]
    simp only [hstr, hid, h125]
    rw [if_neg (by decide), mAutcompleteParse.closeTag]
    simp only [h125]
    rw [if_pos ⟨trivial, trivial⟩]
    cases hfind : (Snippet.defineAll [] done).find? (fun p => decide (p.1 = m.id)) with
    | none =>
      rw [hfind] at hM
      have hdef : Snippet.define (Snippet.defineAll [] done) m
          = (m.id, [32]) :: Snippet.defineAll [] done := by
        unfold Snippet.define
        rw [if_neg (not_not.mpr hph), if_pos hfind]
      have htext : Snippet.textOf ((m.id, [32]) :: Snippet.defineAll [] done) m.id = [32] :=
        textOf_cons_self _ _ _
      simp only [hM, Option.map_none', Option.isNone_none, Bool.or_true, Bool.false_eq_true,
        if_false, if_true, ne_eq, not_true_eq_false, decide_False]
      rw [mAutcompleteParse.next]
      simp only [h125]
      rw [if_neg (by decide)]
      simp only [i1, i3, i4, i5, i6, i7, i8, i9, i10, i11, i12, piecesText_append,
        piecesText_cons, piecesText_nil, interim_append, defineAll_append, defineAll_single,
        markerLocations_append, spansWith_append, Snippet.spansWith, Snippet.interim,
        Snippet.markerLocations, hdef, htext,
        List.map_append, List.map_cons, List.map_nil, List.length_append, List.append_nil,
        List.nil_append, Nat.zero_add, hmax, hE]
      refine ⟨by omega, trivial, ?_, ?_, trivial, trivial, ?_, trivial, trivial, ?_, trivial, ?_⟩
      · simp only [Coordinates.mk.injEq, true_and]; push_cast; omega
      · simp only [List.length_cons, List.length_nil]; push_cast; omega
      · simp only [List.append_cancel_left_eq, List.cons.injEq, and_true]; omega
      · simp only [List.append_cancel_left_eq, List.cons.injEq, and_true, Coordinates.mk.injEq,
          true_and]
        push_cast; omega
      · simp only [List.append_cancel_left_eq, List.cons.injEq, and_true]
        simp [hph, hfind]
    | some q =>
      rw [hfind] at hM
      have hdef : Snippet.define (Snippet.defineAll [] done) m = Snippet.defineAll [] done := by
        unfold Snippet.define
        rw [if_neg (not_not.mpr hph), if_neg (by rw [hfind]; simp)]
      have htext : Snippet.textOf (Snippet.defineAll [] done) m.id = q.2 := by
        unfold Snippet.textOf
        rw [hfind]
      have hpl := placeholder_of_find _ _ _ hM
      simp only [hM, Option.map_some', Option.isNone_some, Bool.or_self, Bool.false_eq_true,
        if_false, ne_eq, not_true_eq_false, decide_False, hpl]
      rw [mAutcompleteParse.next]
      simp only [h125]
      rw [if_neg (by decide)]
      simp only [i1, i3, i4, i5, i6, i7, i9, i10, i11, i12, piecesText_append,
        piecesText_cons, piecesText_nil, interim_append, defineAll_append, defineAll_single,
        markerLocations_append, spansWith_append, Snippet.spansWith, Snippet.interim,
        Snippet.markerLocations, hdef, htext,
        List.map_append, List.map_cons, List.map_nil, List.length_append, List.append_nil,
        List.nil_append, Nat.zero_add, hmax, hE]
      refine ⟨by omega, trivial, ?_, by omega, trivial, trivial, ?_, i8, trivial, ?_, trivial, ?_⟩
      · simp only [Coordinates.mk.injEq, true_and]; push_cast; omega
      · simp only [List.append_cancel_left_eq, List.cons.injEq, and_true]; omega
      · simp only [List.append_cancel_left_eq, List.cons.injEq, and_true, Coordinates.mk.injEq,
          true_and]
        push_cast; omega
      · simp only [List.append_cancel_left_eq, List.cons.injEq, and_true]
        simp [hph, hfind]

theorem progress_run (all : List (List Nat × SnippetMarker)) (last : List Nat)
    (start : Coordinates) (h0 : 0 ≤ start.mColumn) :
    ∀ (rest done : List (List Nat × SnippetMarker)) (s : mAutcompleteParse.State) (fuel : Nat),
      done ++ rest = all →
      (∀ p ∈ rest, PlainText p.1 ∧ p.2.WellFormed) →
      mAutcompleteParse.Progress start done s →
      (Snippet.piecesText rest).length ≤ fuel →
      ∃ s' fuel',
        mAutcompleteParse.loop (Snippet.piecesText all ++ last) fuel s
          = mAutcompleteParse.loop (Snippet.piecesText all ++ last) fuel' s'
        ∧ mAutcompleteParse.Progress start all s'
        ∧ fuel ≤ fuel' + (Snippet.piecesText rest).length := by
  intro rest
  induction rest with
  | nil =>
    intro done s fuel hall _ hinv _
    rw [List.append_nil] at hall
    subst hall
    exact ⟨s, fuel, rfl, hinv, by omega⟩
  | cons p rest ih =>
    intro done s fuel hall hwf hinv hfuel
    obtain ⟨hpt, hm⟩ := hwf p (List.mem_cons_self _ _)
    have hwfr : ∀ q ∈ rest, PlainText q.1 ∧ q.2.WellFormed :=
      fun q hq => hwf q (List.mem_cons_of_mem _ hq)
    have hdrop : (Snippet.piecesText all ++ last).drop s.buffer
        = p.1 ++ p.2.text ++ (Snippet.piecesText rest ++ last) := by
      rw [hinv.1, ← hall, piecesText_append, piecesText_cons, List.append_assoc,
        List.drop_left]
      simp only [List.append_assoc]
    have hall2 : (done ++ [p]) ++ rest = all := by
      rw [List.append_assoc]; exact hall
    have hlen := marker_text_length p.2
    rw [piecesText_cons] at hfuel
    simp only [List.length_append] at hfuel
    by_cases hph : p.2.placeholder = []
    · rw [if_pos hph] at hlen
      obtain ⟨s1, h1, hinv1⟩ := piece_referring (Snippet.piecesText all ++ last)
        start h0 done p.1 p.2 (Snippet.piecesText rest ++ last) s
        (fuel - 1 - p.1.length) hinv hdrop hpt hm hph
      rw [show fuel - 1 - p.1.length + 1 + p.1.length = fuel by omega] at h1
      obtain ⟨s2, f2, h2, hinv2, hf2⟩ := ih (done ++ [p]) s1 (fuel - 1 - p.1.length) hall2 hwfr
        hinv1 (by omega)
      refine ⟨s2, f2, h1.trans h2, hinv2, ?_⟩
      rw [piecesText_cons]
      simp only [List.length_append]
      omega
    · rw [if_neg hph] at hlen
      obtain ⟨s1, h1, hinv1⟩ := piece_defining (Snippet.piecesText all ++ last)
        start h0 done p.1 p.2 (Snippet.piecesText rest ++ last) s
        (fuel - (1 + p.2.placeholder.length + 1 + p.1.length)) hinv hdrop hpt hm hph
      rw [show fuel - (1 + p.2.placeholder.length + 1 + p.1.length) + 1
          + p.2.placeholder.length + 1 + p.1.length = fuel by omega] at h1
      obtain ⟨s2, f2, h2, hinv2, hf2⟩ := ih (done ++ [p]) s1
        (fuel - (1 + p.2.placeholder.length + 1 + p.1.length)) hall2 hwfr hinv1 (by omega)
      refine ⟨s2, f2, h1.trans h2, hinv2, ?_⟩
      rw [piecesText_cons]
      simp only [List.length_append]
      omega

theorem progress_initial (start : Coordinates) :
    mAutcompleteParse.Progress start [] { cursor := start } := by
  unfold mAutcompleteParse.Progress
  simp [Snippet.piecesText, Snippet.interim, Snippet.markerLocations, Snippet.spansWith,
    Snippet.defineAll]

theorem mAutcompleteParse_loop_formed (s : Snippet) (start : Coordinates)
    (hf : s.Formed) (h0 : 0 ≤ start.mColumn) :
    ∃ r, mAutcompleteParse.loop s.text (s.text.length + 1) { cursor := start } = r
      ∧ r.tagIds = s.pieces.map (fun p => (p.2.id : Int))
      ∧ r.tagLocations = Snippet.markerLocations 0 s.pieces
      ∧ r.tagLengths = s.pieces.map (fun p => p.2.text.length)
      ∧ r.tagPlaceholders = (Snippet.defineAll [] s.pieces).map (fun p => ((p.1 : Int), p.2))
      ∧ r.mSnippetTagStart = (Snippet.spansWith [] 0 s.pieces).map
          (fun t => { start with mColumn := start.mColumn + (t.start : Int) })
      ∧ r.mSnippetTagEnd = (Snippet.spansWith [] 0 s.pieces).map
          (fun t => { start with mColumn := start.mColumn + (t.stop : Int) })
      ∧ r.mSnippetTagID = (Snippet.spansWith [] 0 s.pieces).map (fun t => (t.id : Int))
      ∧ r.mSnippetTagHighlight = (Snippet.spansWith [] 0 s.pieces).map (fun t => t.highlighted) := by
  obtain ⟨hp, hl⟩ := hf
  obtain ⟨s1, f1, h1, hinv, hf1⟩ := progress_run s.pieces s.last start h0 s.pieces []
    { cursor := start } (s.text.length + 1) (List.nil_append _) hp
    (progress_initial start) (by unfold Snippet.text; simp only [List.length_append]; omega)
  obtain ⟨i1, i2, i3, i4, i5, i6, i7, i8, i9, i10, i11, i12⟩ := hinv
  have hdrop : (Snippet.piecesText s.pieces ++ s.last).drop s1.buffer = s.last ++ [] := by
    rw [i1, List.drop_left, List.append_nil]
  have hc := plain_conditions _ s.last [] s1.buffer hdrop hl (by simp)
  have hlen : s.text.length = (Snippet.piecesText s.pieces).length + s.last.length := by
    unfold Snippet.text; rw [List.length_append]
  have hrun := mAutcompleteParse_plain_run (Snippet.piecesText s.pieces ++ s.last)
    s.last.length s1 (f1 - s.last.length)
    (fun k hk => ⟨(hc k hk).2.1, (hc k hk).2.2.1, (hc k hk).2.2.2, by simp [i2]⟩)
  rw [show f1 - s.last.length + s.last.length = f1 by omega] at hrun
  have hfin := hrun.trans (loop_at_end _ _
    (by show _ ≤ s1.buffer + s.last.length; rw [i1, List.length_append]) _)
  exact ⟨_, (h1.trans hfin), i5, i6, i7, i8, i9, i10, i11, i12⟩

theorem define_find_other (env : List (Nat × List Nat)) (m : SnippetMarker) (id : Nat)
    (h : m.id ≠ id) :
    (Snippet.define env m).find? (fun p => decide (p.1 = id))
      = env.find? (fun p => decide (p.1 = id)) := by
  unfold Snippet.define
  split_ifs
  · rw [List.find?_cons_of_neg _ (by simpa using h)]
  · rw [List.find?_cons_of_neg _ (by simpa using h)]
  · rfl

theorem defineAll_find_none (id : Nat) (pieces : List (List Nat × SnippetMarker)) :
    (Snippet.defineAll [] pieces).find? (fun p => decide (p.1 = id)) = none
      ↔ id ∉ pieces.map (fun p => p.2.id) := by
  induction pieces using List.reverseRecOn with
  | nil => simp [Snippet.defineAll]
  | append_singleton done p ih =>
    rw [defineAll_append, defineAll_single, List.map_append, List.mem_append, List.map_cons,
      List.map_nil, List.mem_singleton]
    by_cases h : p.2.id = id
    · subst h
      constructor
      · intro hn
        exfalso
        unfold Snippet.define at hn
        split_ifs at hn with h1 h2
        · rw [List.find?_cons_of_pos _ (by simp)] at hn
          exact absurd hn (by simp)
        · rw [List.find?_cons_of_pos _ (by simp)] at hn
          exact absurd hn (by simp)
        · exact h2 hn
      · intro hn
        exact absurd (Or.inr rfl) hn
    · rw [define_find_other _ _ _ h, ih]
      constructor
      · rintro h1 (h2 | h2)
        · exact h1 h2
        · exact h h2.symm
      · intro h1 h2
        exact h1 (Or.inl h2)

theorem lastPlaceholder_append (done : List (List Nat × SnippetMarker))
    (p : List Nat × SnippetMarker) (id : Nat) :
    Snippet.lastPlaceholder (done ++ [p]) id
      = if p.2.id = id ∧ p.2.placeholder ≠ [] then p.2.placeholder
        else Snippet.lastPlaceholder done id := by
  unfold Snippet.lastPlaceholder
  rw [List.reverse_append, List.reverse_singleton, List.singleton_append]
  by_cases h : p.2.id = id ∧ p.2.placeholder ≠ []
  · rw [if_pos h, List.find?_cons_of_pos _ (by simpa using h)]
  · rw [if_neg h, List.find?_cons_of_neg _ (by simpa using h)]

theorem lastPlaceholder_none (id : Nat) (pieces : List (List Nat × SnippetMarker))
    (h : id ∉ pieces.map (fun p => p.2.id)) : Snippet.lastPlaceholder pieces id = [32] := by
  unfold Snippet.lastPlaceholder
  have : pieces.reverse.find?
      (fun p => decide (p.2.id = id) && decide (p.2.placeholder ≠ [])) = none := by
    rw [List.find?_eq_none]
    intro q hq hq2
    simp only [Bool.and_eq_true, decide_eq_true_eq] at hq2
    exact h (List.mem_map.mpr ⟨q, List.mem_reverse.mp hq, hq2.1⟩)
  rw [this]

theorem textOf_defineAll (id : Nat) (pieces : List (List Nat × SnippetMarker)) :
    id ∈ pieces.map (fun p => p.2.id) →
      Snippet.textOf (Snippet.defineAll [] pieces) id = Snippet.lastPlaceholder pieces id := by
  induction pieces using List.reverseRecOn with
  | nil => intro h; simp at h
  | append_singleton done p ih =>
    intro hmem
    rw [defineAll_append, defineAll_single, lastPlaceholder_append]
    by_cases h : p.2.id = id
    · subst h
      by_cases hph : p.2.placeholder = []
      · rw [if_neg (fun hc => hc.2 hph)]
        unfold Snippet.define
        rw [if_neg (not_not.mpr hph)]
        by_cases hfind : (Snippet.defineAll [] done).find? (fun q => decide (q.1 = p.2.id)) = none
        · rw [if_pos hfind, textOf_cons_self,
            lastPlaceholder_none _ _ ((defineAll_find_none _ _).mp hfind)]
        · rw [if_neg hfind]
          exact ih (by
            by_contra hn
            exact hfind ((defineAll_find_none _ _).mpr hn))
      · rw [if_pos ⟨rfl, hph⟩]
        unfold Snippet.define
        rw [if_pos hph, textOf_cons_self]
    · rw [if_neg (fun hc => h hc.1)]
      have hmem2 : id ∈ done.map (fun q => q.2.id) := by
        rw [List.map_append, List.mem_append] at hmem
        rcases hmem with h1 | h1
        · exact h1
        · simp only [List.map_cons, List.map_nil, List.mem_singleton] at h1
          exact absurd h1.symm h
      rw [← ih hmem2]
      unfold Snippet.textOf
      rw [define_find_other _ _ _ h]

theorem mAutcompleteParse_formed (e : TextEditor) (s : Snippet) (start : Coordinates)
    (hf : s.Formed) (h0 : 0 ≤ start.mColumn) :
    mAutcompleteParse e s.text start
      = ({ e with
            mSnippetTagStart := (Snippet.spansWith [] 0 s.pieces).map
              (fun t => { start with mColumn := start.mColumn + (t.start : Int) })
            mSnippetTagEnd := (Snippet.spansWith [] 0 s.pieces).map
              (fun t => { start with mColumn := start.mColumn + (t.stop : Int) })
            mSnippetTagID := (Snippet.spansWith [] 0 s.pieces).map (fun t => (t.id : Int))
            mSnippetTagHighlight := (Snippet.spansWith [] 0 s.pieces).map (fun t => t.highlighted)
            mIsSnippet := !s.pieces.isEmpty },
          Snippet.expandPieces (Snippet.lastPlaceholder s.pieces) s.pieces ++ s.last) := by
  obtain ⟨r, hr, r1, r2, r3, r4, r5, r6, r7, r8⟩ := mAutcompleteParse_loop_formed s start hf h0
  unfold mAutcompleteParse
  simp only [hr, r1, r2, r3, r5, r6, r7, r8]
  have hsub := substitute_pieces r.tagPlaceholders (Snippet.lastPlaceholder s.pieces) s.last
    s.pieces [] (fun p hp => by
      rw [r4, placeholder_cast]
      exact textOf_defineAll _ _ (List.mem_map.mpr ⟨p, hp, rfl⟩))
  simp only [List.length_nil, List.nil_append] at hsub
  have : s.text = Snippet.piecesText s.pieces ++ s.last := rfl
  rw [this, hsub]
  congr 2
  cases s.pieces <;> simp

theorem spansWith_get :
    ∀ (pieces : List (List Nat × SnippetMarker)) (env : List (Nat × List Nat)) (off i : Nat)
      (hi : i < pieces.length),
      ∃ sp, (Snippet.spansWith env off pieces)[i]? = some sp
        ∧ sp.id = (pieces.get ⟨i, hi⟩).2.id
        ∧ sp.stop = sp.start
            + (Snippet.textOf (Snippet.defineAll env (pieces.take (i + 1)))
                (pieces.get ⟨i, hi⟩).2.id).length := by
  intro pieces
  induction pieces with
  | nil => intro env off i hi; exact absurd hi (Nat.not_lt_zero _)
  | cons p rest ih =>
    intro env off i hi
    cases i with
    | zero =>
      refine ⟨_, by rw [Snippet.spansWith, List.getElem?_cons_zero], rfl, ?_⟩
      simp only [List.take_succ_cons, List.take_zero, defineAll_single]
      rfl
    | succ i =>
      obtain ⟨sp, h1, h2, h3⟩ := ih (Snippet.define env p.2)
        (off + p.1.length + (Snippet.textOf (Snippet.define env p.2) p.2.id).length) i
        (Nat.lt_of_succ_lt_succ hi)
      refine ⟨sp, ?_, h2, h3⟩
      rw [Snippet.spansWith, List.getElem?_cons_succ]
      exact h1

theorem spansWith_length :
    ∀ (pieces : List (List Nat × SnippetMarker)) (env : List (Nat × List Nat)) (off : Nat),
      (Snippet.spansWith env off pieces).length = pieces.length := by
  intro pieces
  induction pieces with
  | nil => intro env off; rfl
  | cons p rest ih =>
    intro env off
    rw [Snippet.spansWith, List.length_cons, List.length_cons, ih]

/-- C31 (evaluation of the code): in the snippet `{$1:a}{$1:bcd}` both markers have the
id 1 and the first carries the placeholder "a", so the claim requires the text "aa" and
two spans of length 1.  `mAutcompleteParse` returns "bcdbcd" and records the spans
`[0, 1)` and `[1, 4)`: each span is sized at the close of its tag with the placeholder
stored at that moment, while the returned text gets the placeholder stored last, so the
spans do not cover the placeholders in the returned text. -/
theorem C31_redefined_placeholder :
    twoPlaceholders.Formed
      ∧ twoPlaceholders.text = [123, 36, 49, 58, 97, 125, 123, 36, 49, 58, 98, 99, 100, 125]
      ∧ Snippet.placeholderOf twoPlaceholders.pieces 1 = [97]
      ∧ twoPlaceholders.expansion = [97, 97]
      ∧ (mAutcompleteParse {} twoPlaceholders.text ⟨0, 0⟩).2 = [98, 99, 100, 98, 99, 100]
      ∧ (mAutcompleteParse {} twoPlaceholders.text ⟨0, 0⟩).1.mSnippetTagID = [1, 1]
      ∧ (mAutcompleteParse {} twoPlaceholders.text ⟨0, 0⟩).1.mSnippetTagStart = [⟨0, 0⟩, ⟨0, 1⟩]
      ∧ (mAutcompleteParse {} twoPlaceholders.text ⟨0, 0⟩).1.mSnippetTagEnd = [⟨0, 1⟩, ⟨0, 4⟩] := by
  decide

/-- What `mAutcompleteParse` computes when markers of one id carry different
placeholders: for a single-line snippet of plain text and markers `{$<id>:<placeholder>}`
or `{$<id>}` parsed at a non-negative column, it replaces every marker in
the returned text by the placeholder of the last marker of its id that carries a non-empty
placeholder (a blank when no marker of the id carries one), records one tag per marker,
and the span of each tag has the length of the placeholder of the last marker of its id,
up to and including its own marker, that carries a non-empty placeholder (a blank when
there is none). -/
theorem mAutcompleteParse_last_placeholder (e : TextEditor) (s : Snippet) (start : Coordinates)
    (hf : s.Formed) (h0 : 0 ≤ start.mColumn) :
    (mAutcompleteParse e s.text start).2
        = Snippet.expandPieces (Snippet.lastPlaceholder s.pieces) s.pieces ++ s.last
      ∧ (mAutcompleteParse e s.text start).1.mSnippetTagID
          = s.pieces.map (fun p => (p.2.id : Int))
      ∧ ∀ (i : Nat) (hi : i < s.pieces.length),
          ∃ a b, (mAutcompleteParse e s.text start).1.mSnippetTagStart[i]? = some a
            ∧ (mAutcompleteParse e s.text start).1.mSnippetTagEnd[i]? = some b
            ∧ b.mLine = a.mLine
            ∧ b.mColumn = a.mColumn
                + ((Snippet.lastPlaceholder (s.pieces.take (i + 1))
                      (s.pieces.get ⟨i, hi⟩).2.id).length : Int) := by
  rw [mAutcompleteParse_formed e s start hf h0]
  refine ⟨rfl, ?_, ?_⟩
  · simp only
    apply List.ext_getElem?
    intro i
    rw [List.getElem?_map, List.getElem?_map]
    by_cases hi : i < s.pieces.length
    · obtain ⟨sp, h1, h2, _⟩ := spansWith_get s.pieces [] 0 i hi
      rw [h1, List.getElem?_eq_getElem hi]
      simp only [Option.map_some', h2]
      rfl
    · have hlen : (Snippet.spansWith [] 0 s.pieces).length = s.pieces.length := by
        have := (spansWith_length s.pieces [] 0)
        exact this
      rw [List.getElem?_eq_none (by omega), List.getElem?_eq_none (by omega)]
      rfl
  · intro i hi
    obtain ⟨sp, h1, h2, h3⟩ := spansWith_get s.pieces [] 0 i hi
    have hmem : (s.pieces.get ⟨i, hi⟩).2.id ∈ (s.pieces.take (i + 1)).map (fun p => p.2.id) := by
      apply List.mem_map.mpr
      refine ⟨s.pieces.get ⟨i, hi⟩, ?_, rfl⟩
      rw [List.mem_iff_getElem]
      refine ⟨i, by rw [List.length_take]; omega, ?_⟩
      rw [List.getElem_take]
      rfl
    rw [textOf_defineAll _ _ hmem] at h3
    refine ⟨{ start with mColumn := start.mColumn + (sp.start : Int) },
      { start with mColumn := start.mColumn + (sp.stop : Int) }, ?_, ?_, rfl, ?_⟩
    · simp only [List.getElem?_map, h1, Option.map_some']
    · simp only [List.getElem?_map, h1, Option.map_some']
    · simp only [h3]
      push_cast
      omega

/-- C32, as claimed, fails: after the suggestion with the expansion `foo({$1:bar}, {$1})`
has been accepted for the typed word "fo", the first tag is selected, and the character
`Z` typed through the character input replaces it; the second tag then covers "Z", not
"barZ". -/
theorem C32_counterexample :
    (mAutocompleteSelect suggestionOffered).mLines.map lineText
        = [[102, 111, 111, 40, 98, 97, 114, 44, 32, 98, 97, 114, 41]]
      ∧ (mAutocompleteSelect suggestionOffered).mIsSnippet = true
      ∧ (mAutocompleteSelect suggestionOffered).mSnippetTagSelected = 0
      ∧ GetText (HandleKeyboardInputs.inputCharacter (mAutocompleteSelect suggestionOffered) 90
            false)
          ((HandleKeyboardInputs.inputCharacter (mAutocompleteSelect suggestionOffered) 90
            false).mSnippetTagStart.getD 1 {})
          ((HandleKeyboardInputs.inputCharacter (mAutocompleteSelect suggestionOffered) 90
            false).mSnippetTagEnd.getD 1 {})
        = [90]
      ∧ ([90] : List Nat) ≠ [98, 97, 114, 90] := by
  decide

/-- C32, amended: after the suggestion with the expansion `foo({$1:bar}, {$1})` has been
accepted for the typed word "fo", the line reads `foo(bar, bar)`, the tags cover the
columns `[4, 7)` and `[9, 12)` and the first tag is selected; typing the character `Z`
through the character input makes the line `foo(Z, Z)`: the first tag covers `[4, 5)`,
the second tag has moved by the change of length to `[7, 8)`, both cover the text "Z",
and the cursor stands behind the typed character with nothing selected. -/
theorem C32_typing_replaces_linked_tags :
    (mAutocompleteSelect suggestionOffered).mLines.map lineText
        = [[102, 111, 111, 40, 98, 97, 114, 44, 32, 98, 97, 114, 41]]
      ∧ (mAutocompleteSelect suggestionOffered).mSnippetTagStart = [⟨0, 4⟩, ⟨0, 9⟩]
      ∧ (mAutocompleteSelect suggestionOffered).mSnippetTagEnd = [⟨0, 7⟩, ⟨0, 12⟩]
      ∧ (mAutocompleteSelect suggestionOffered).mState
          = { mSelectionStart := ⟨0, 4⟩, mSelectionEnd := ⟨0, 7⟩, mCursorPosition := ⟨0, 7⟩ }
      ∧ (HandleKeyboardInputs.inputCharacter (mAutocompleteSelect suggestionOffered) 90
            false).mLines.map lineText
          = [[102, 111, 111, 40, 90, 44, 32, 90, 41]]
      ∧ (HandleKeyboardInputs.inputCharacter (mAutocompleteSelect suggestionOffered) 90
            false).mSnippetTagStart = [⟨0, 4⟩, ⟨0, 7⟩]
      ∧ (HandleKeyboardInputs.inputCharacter (mAutocompleteSelect suggestionOffered) 90
            false).mSnippetTagEnd = [⟨0, 5⟩, ⟨0, 8⟩]
      ∧ GetText (HandleKeyboardInputs.inputCharacter (mAutocompleteSelect suggestionOffered) 90
            false) ⟨0, 4⟩ ⟨0, 5⟩ = [90]
      ∧ GetText (HandleKeyboardInputs.inputCharacter (mAutocompleteSelect suggestionOffered) 90
            false) ⟨0, 7⟩ ⟨0, 8⟩ = [90]
      ∧ (HandleKeyboardInputs.inputCharacter (mAutocompleteSelect suggestionOffered) 90
            false).mState
          = { mSelectionStart := ⟨0, 5⟩, mSelectionEnd := ⟨0, 5⟩, mCursorPosition := ⟨0, 5⟩ }
      ∧ (HandleKeyboardInputs.inputCharacter (mAutocompleteSelect suggestionOffered) 90
            false).mIsSnippet = true := by
  decide

/-! ### The comment scan in documents with strings

What one iteration of the scan does to the string state, the preprocessor state and the
preprocessor flag, on a glyph outside a string and on a glyph inside a string that is
not part of an escape. -/

theorem scanGlyph_preproc (lang : LanguageDefinition) (N : Nat) (a : Line)
    (t : ColorizeInternal.ScanState) (hi : t.currentIndex < a.length)
    (hesc : t.withinString = true →
      (glyphAt a t.currentIndex).mChar ≠ 92
        ∧ ¬ ((glyphAt a t.currentIndex).mChar = 34 ∧ t.currentIndex + 1 < a.length
              ∧ (glyphAt a (t.currentIndex + 1)).mChar = 34)) :
    (ColorizeInternal.scanGlyph lang N a t).2.withinString
        = (if (glyphAt a t.currentIndex).mChar = 34 then !t.withinString else t.withinString)
      ∧ (ColorizeInternal.scanGlyph lang N a t).2.withinPreproc
        = (t.withinPreproc
            || (!t.withinString && t.firstChar
                && sameChar lang.mPreprocChar (glyphAt a t.currentIndex).mChar))
      ∧ (ColorizeInternal.scanGlyph lang N a t).2.firstChar
        = (t.firstChar
            && (sameChar lang.mPreprocChar (glyphAt a t.currentIndex).mChar
                || isspace (glyphAt a t.currentIndex).mChar))
      ∧ (ColorizeInternal.scanGlyph lang N a t).2.concatenate
        = (t.concatenate
            || (decide (t.currentIndex + 1 = a.length)
                && decide ((glyphAt a (a.length - 1)).mChar = 92)))
      ∧ (ColorizeInternal.scanGlyph lang N a t).2.currentLine
        = (if a.length ≤ t.currentIndex + UTF8CharLength (glyphAt a t.currentIndex).mChar
            then t.currentLine + 1 else t.currentLine)
      ∧ (ColorizeInternal.scanGlyph lang N a t).2.currentIndex
        = (if a.length ≤ t.currentIndex + UTF8CharLength (glyphAt a t.currentIndex).mChar
            then 0 else t.currentIndex + UTF8CharLength (glyphAt a t.currentIndex).mChar)
      ∧ (glyphAt (ColorizeInternal.scanGlyph lang N a t).1 t.currentIndex).mPreprocessor
        = (ColorizeInternal.scanGlyph lang N a t).2.withinPreproc
      ∧ ∀ j, j ≠ t.currentIndex →
          glyphAt (ColorizeInternal.scanGlyph lang N a t).1 j = glyphAt a j := by
  by_cases hs : t.withinString = true
  · -- inside a string
    obtain ⟨h92, hqq⟩ := hesc hs
    obtain ⟨csl, csi, ws, slc, pp, fc, conc, cl, ci⟩ := t
    simp only at hs h92 hqq hi ⊢
    subst hs
    clear hesc
    by_cases hc : (glyphAt a ci).mChar = 34
    · have hnd : ¬ (ci + 1 < a.length ∧ (glyphAt a (ci + 1)).mChar = 34) :=
        fun h => hqq ⟨hc, h.1, h.2⟩
      refine ⟨?_, ?_, ?_, ?_, ?_, ?_, ?_, ?_⟩
      all_goals
        by_cases hw : a.length ≤ ci + UTF8CharLength 34 <;>
        simp [ColorizeInternal.scanGlyph, lookAt_eq, ColorizeInternal.inString, hc,
          ColorizeInternal.advance, modifyGlyph_length, hw, glyphAt_modifyGlyph, hi, hnd]
      all_goals first | done | (intro j hj; have hne : ¬ (ci = j ∧ j < a.length) := fun h => hj h.1.symm; simp [hne])
    · refine ⟨?_, ?_, ?_, ?_, ?_, ?_, ?_, ?_⟩
      all_goals
        by_cases hw : a.length ≤ ci + UTF8CharLength (glyphAt a ci).mChar <;>
        simp [ColorizeInternal.scanGlyph, lookAt_eq, ColorizeInternal.inString, hc, h92,
          ColorizeInternal.advance, modifyGlyph_length, hw, glyphAt_modifyGlyph, hi]
      all_goals first | done | (intro j hj; have hne : ¬ (ci = j ∧ j < a.length) := fun h => hj h.1.symm; simp [hne])
  · -- outside a string
    have hs2 : t.withinString = false := by simpa using hs
    by_cases hc : (glyphAt a t.currentIndex).mChar = 34
    · obtain ⟨csl, csi, ws, slc, pp, fc, conc, cl, ci⟩ := t
      simp only at hs2 hc hi ⊢
      subst hs2
      refine ⟨?_, ?_, ?_, ?_, ?_, ?_, ?_, ?_⟩
      all_goals
        by_cases hw : a.length ≤ ci + UTF8CharLength 34 <;>
        cases fc <;> cases hsp : sameChar lang.mPreprocChar 34 <;>
        simp [ColorizeInternal.scanGlyph, lookAt_eq, ColorizeInternal.inCode, hc, hsp,
          ColorizeInternal.advance, modifyGlyph_length, hw, glyphAt_modifyGlyph, hi]
      all_goals first | done | (intro j hj; have hne : ¬ (ci = j ∧ j < a.length) := fun h => hj h.1.symm; simp [hne])
    · rw [scanGlyph_state lang N a t hs2 hc, scanGlyph_line lang N a t hs2 hc]
      simp only [hs2, hc, if_false, Bool.not_false, Bool.true_and]
      refine ⟨trivial, ?_, trivial, trivial, trivial, trivial, ?_, ?_⟩
      · cases t.firstChar <;> cases sameChar lang.mPreprocChar (glyphAt a t.currentIndex).mChar <;>
          simp
      · rw [glyphAt_modifyGlyph_self _ _ _ hi]
      · intro j hj
        rw [glyphAt_modifyGlyph_ne _ _ _ _ (fun h => hj h.symm)]

/-! ### Strings in the comment scan

The scan enters a string at a double quote and leaves it at the next one, so in a
document whose strings hold no escape a byte is inside a string exactly when an odd
number of double quotes precedes it. -/

theorem quotesBefore_next_line (lines : Lines) (l : Nat) (hl : l < lines.length) :
    quotesBefore lines (l + 1) 0 = quotesBefore lines l (lines.getD l []).length := by
  unfold quotesBefore
  rw [List.take_succ, List.map_append, List.sum_append, List.getElem?_eq_getElem hl]
  have h1 : (lineText (lines.getD l [])).take (lines.getD l []).length
      = lineText (lines.getD l []) := by
    rw [← lineText_length, List.take_length]
  have h2 : lines.getD l [] = lines[l] := by
    rw [List.getD_eq_getElem?_getD, List.getElem?_eq_getElem hl]; rfl
  rw [h1, h2]
  simp

theorem quotesBefore_add (lines : Lines) (l i n : Nat) :
    quotesBefore lines l (i + n)
      = quotesBefore lines l i + (((lineText (lines.getD l [])).drop i).take n).count 34 := by
  unfold quotesBefore
  rw [List.take_add, List.count_append]
  omega

/-- The bytes of one character of well-formed text hold a double quote only as the
character itself. -/
theorem count_char (ln : Line) (i : Nat) (hv : ValidUTF8 (lineText ln))
    (hb : IsCharBoundary ln i) (hi : i < ln.length) :
    (((lineText ln).drop i).take (UTF8CharLength (glyphAt ln i).mChar)).count 34
      = if (glyphAt ln i).mChar = 34 then 1 else 0 := by
  obtain ⟨hfit, hcontin⟩ := valid_char ln i hv hb hi
  have hU := UTF8CharLength_pos (glyphAt ln i).mChar
  have hi2 : i < (lineText ln).length := by rw [lineText_length]; exact hi
  obtain ⟨n, hn⟩ : ∃ n, UTF8CharLength (glyphAt ln i).mChar = n + 1 :=
    ⟨UTF8CharLength (glyphAt ln i).mChar - 1, by omega⟩
  rw [hn, List.drop_eq_getElem_cons hi2, List.take_succ_cons, List.count_cons]
  have h0 : (((lineText ln).drop (i + 1)).take n).count 34 = 0 := by
    rw [List.count_eq_zero]
    intro hmem
    obtain ⟨k, hk⟩ := List.mem_iff_getElem?.mp hmem
    rw [List.getElem?_take] at hk
    split_ifs at hk with hkn
    rw [List.getElem?_drop] at hk
    have h2 : (lineText ln).getD (i + 1 + k) 0 = 34 := by
      rw [List.getD_eq_getElem?_getD, hk]; rfl
    rw [lineText_getD] at h2
    have := IsUTFSequence_ge _ (hcontin (i + 1 + k) (by omega) (by omega))
    omega
  have hc : (lineText ln)[i] = (glyphAt ln i).mChar := by
    rw [← lineText_getD, List.getD_eq_getElem?_getD, List.getElem?_eq_getElem hi2]
    rfl
  rw [h0, hc]
  by_cases h : (glyphAt ln i).mChar = 34
  · simp [h]
  · simp [h]

theorem InString_next (lines : Lines) (l i : Nat)
    (hv : ValidUTF8 (lineText (lines.getD l [])))
    (hb : IsCharBoundary (lines.getD l []) i) (hi : i < (lines.getD l []).length) :
    InString lines l (i + UTF8CharLength (glyphAt (lines.getD l []) i).mChar)
      ↔ (if (glyphAt (lines.getD l []) i).mChar = 34 then ¬ InString lines l i
          else InString lines l i) := by
  unfold InString
  rw [quotesBefore_add, count_char _ i hv hb hi]
  split_ifs <;> omega

theorem InString_next_line (lines : Lines) (l : Nat) (hl : l < lines.length) :
    InString lines (l + 1) 0 ↔ InString lines l (lines.getD l []).length := by
  unfold InString
  rw [quotesBefore_next_line lines l hl]

theorem InString_zero (lines : Lines) : ¬ InString lines 0 0 := by
  unfold InString quotesBefore
  simp

/-- Bytes that are not double quotes do not change the string state. -/
theorem InString_of_no_quote (lines : Lines) (l : Nat) :
    ∀ j, (∀ k, k < j → (glyphAt (lines.getD l []) k).mChar ≠ 34) →
      (InString lines l j ↔ InString lines l 0) := by
  intro j
  induction j with
  | zero => intro _; exact Iff.rfl
  | succ j ih =>
    intro h
    rw [← ih (fun k hk => h k (by omega))]
    unfold InString
    rw [quotesBefore_add lines l j 1]
    have : (((lineText (lines.getD l [])).drop j).take 1).count 34 = 0 := by
      rw [List.count_eq_zero]
      intro hmem
      obtain ⟨k, hk⟩ := List.mem_iff_getElem?.mp hmem
      rw [List.getElem?_take] at hk
      split_ifs at hk with hkn
      rw [List.getElem?_drop] at hk
      have h2 : (lineText (lines.getD l [])).getD (j + k) 0 = 34 := by
        rw [List.getD_eq_getElem?_getD, hk]; rfl
      rw [lineText_getD] at h2
      have hk0 : k = 0 := by omega
      subst hk0
      exact h j (by omega) h2
    rw [this]
    rfl

/-! ### An induction principle for the comment scan of documents with strings -/

theorem scan_string_induction_aux (lang : LanguageDefinition) (lines : Lines)
    (hv : ∀ ln ∈ lines, ValidUTF8 (lineText ln))
    (hesc : EscapeFree lines)
    (St : Nat → Nat → ColorizeInternal.ScanState → Prop)
    (F : Nat → Nat → Bool → Prop)
    (h_empty : ∀ (l : Nat) (t : ColorizeInternal.ScanState), l < lines.length →
      lines.getD l [] = [] → t.currentLine = l → t.currentIndex = 0 →
      t.concatenate = false → St l 0 t →
      St (l + 1) 0 (ColorizeInternal.lineStart { t with currentIndex := 0, currentLine := l + 1 }))
    (h_glyph : ∀ (l i : Nat) (a : Line) (t : ColorizeInternal.ScanState), l < lines.length →
      i < (lines.getD l []).length → IsCharBoundary (lines.getD l []) i →
      lineText a = lineText (lines.getD l []) →
      t.currentLine = l → t.currentIndex = i →
      (t.withinString = true ↔ InString lines l i) →
      t.concatenate = false → St l i t →
      F l i (glyphAt (ColorizeInternal.scanGlyph lang lines.length a t).1 i).mPreprocessor
        ∧ St (ColorizeInternal.scanGlyph lang lines.length a t).2.currentLine
            (ColorizeInternal.scanGlyph lang lines.length a t).2.currentIndex
            (ColorizeInternal.lineStart (ColorizeInternal.scanGlyph lang lines.length a t).2)) :
    ∀ (fuel : Nat) (cur : Lines) (s : ColorizeInternal.ScanState),
      cur.length = lines.length →
      (∀ l, lineText (cur.getD l []) = lineText (lines.getD l [])) →
      (s.withinString = true ↔ InString lines s.currentLine s.currentIndex) →
      s.currentLine ≤ lines.length →
      (s.currentLine < lines.length →
        ((lines.getD s.currentLine []).length = 0 → s.currentIndex = 0)
          ∧ (0 < (lines.getD s.currentLine []).length →
              s.currentIndex < (lines.getD s.currentLine []).length)
          ∧ IsCharBoundary (lines.getD s.currentLine []) s.currentIndex) →
      St s.currentLine s.currentIndex (ColorizeInternal.lineStart s) →
      (∀ l i, (l < s.currentLine ∨ (l = s.currentLine ∧ i < s.currentIndex)) →
        l < lines.length → i < (lines.getD l []).length → IsCharBoundary (lines.getD l []) i →
        F l i (glyphAt (cur.getD l []) i).mPreprocessor) →
      ((lines.drop s.currentLine).map (fun x => x.length + 1)).sum - s.currentIndex ≤ fuel →
      ∀ l i, l < lines.length → i < (lines.getD l []).length →
        IsCharBoundary (lines.getD l []) i →
        F l i
          (glyphAt ((ColorizeInternal.scan lang lines.length fuel cur s).getD l [])
            i).mPreprocessor := by
  have hmem : ∀ l, l < lines.length → lines.getD l [] ∈ lines := by
    intro l hl
    rw [List.getD_eq_getElem?_getD, List.getElem?_eq_getElem hl]
    exact List.getElem_mem _
  intro fuel
  induction fuel with
  | zero =>
    intro cur s hlen htxt hws hcl hpos hst hdone hfuel l i hl hi hb
    have hend : s.currentLine = lines.length := by
      by_contra hne
      have hlt : s.currentLine < lines.length := by omega
      have := scan_measure_cons lines s.currentLine hlt
      obtain ⟨p1, p2, -⟩ := hpos hlt
      rcases Nat.eq_zero_or_pos (lines.getD s.currentLine []).length with h0 | h0
      · have := p1 h0; omega
      · have := p2 h0; omega
    rw [ColorizeInternal.scan]
    exact hdone l i (by omega) hl hi hb
  | succ fuel ih =>
    intro cur s hlen htxt hws hcl hpos hst hdone hfuel l i hl hi hb
    rw [ColorizeInternal.scan]
    by_cases hlt : s.currentLine < lines.length
    · rw [if_pos (Or.inl hlt)]
      obtain ⟨p1, p2, p3⟩ := hpos hlt
      have hm := scan_measure_cons lines s.currentLine hlt
      obtain ⟨f1, f2, f3, f4, -, -⟩ := lineStart_fields s
      have hcurlen : (cur.getD s.currentLine []).length = (lines.getD s.currentLine []).length :=
        length_congr _ _ (htxt _)
      by_cases hemp : cur.getD s.currentLine [] = []
      · -- an empty line
        have hemp2 : lines.getD s.currentLine [] = [] := by
          apply List.length_eq_zero.mp
          rw [← hcurlen, hemp]; rfl
        have hci : s.currentIndex = 0 := p1 (by rw [hemp2]; rfl)
        have hstep : ColorizeInternal.scanStep lang lines.length cur s
            = (cur, { ColorizeInternal.lineStart s with
                        currentIndex := 0, currentLine := s.currentLine + 1 }) := by
          unfold ColorizeInternal.scanStep
          simp only [hemp, if_true, f1]
        rw [hstep]
        apply ih cur _ hlen htxt
        · show (ColorizeInternal.lineStart s).withinString = true
            ↔ InString lines (s.currentLine + 1) 0
          rw [f3, hws, InString_next_line lines _ hlt, hemp2, hci]
          rfl
        · show s.currentLine + 1 ≤ lines.length
          omega
        · intro hlt2
          refine ⟨fun _ => rfl, fun h => h, boundary_zero _⟩
        · have := h_empty s.currentLine (ColorizeInternal.lineStart s) hlt hemp2 f1
            (f2.trans hci) f4 (by rw [← hci]; exact hst)
          exact this
        · intro l' i' hlt' hl' hi' hb'
          have hlt'' : l' < s.currentLine + 1 ∨ (l' = s.currentLine + 1 ∧ i' < 0) := hlt'
          apply hdone l' i' _ hl' hi' hb'
          rcases hlt'' with h | h
          · rcases Nat.lt_or_ge l' s.currentLine with h2 | h2
            · exact Or.inl h2
            · have : l' = s.currentLine := by omega
              subst this
              rw [hemp2] at hi'
              simp at hi'
          · omega
        · show ((lines.drop (s.currentLine + 1)).map (fun x => x.length + 1)).sum - 0 ≤ fuel
          omega
        · exact hl
        · exact hi
        · exact hb
      · -- a glyph
        have hne2 : 0 < (lines.getD s.currentLine []).length := by
          rw [← hcurlen]
          exact List.length_pos.mpr hemp
        have hci : s.currentIndex < (lines.getD s.currentLine []).length := p2 hne2
        have hval := hv _ (hmem _ hlt)
        have hws2 : (ColorizeInternal.lineStart s).withinString = true
            ↔ InString lines s.currentLine s.currentIndex := by rw [f3]; exact hws
        have hstep : ColorizeInternal.scanStep lang lines.length cur s
            = (cur.set s.currentLine
                (ColorizeInternal.scanGlyph lang lines.length (cur.getD s.currentLine [])
                  (ColorizeInternal.lineStart s)).1,
               (ColorizeInternal.scanGlyph lang lines.length (cur.getD s.currentLine [])
                  (ColorizeInternal.lineStart s)).2) := by
          unfold ColorizeInternal.scanStep
          simp only [hemp, if_false, f1]
        rw [hstep]
        -- the step on the current line, whose text is that of the original line
        obtain ⟨g1, g2⟩ := h_glyph s.currentLine s.currentIndex (cur.getD s.currentLine [])
          (ColorizeInternal.lineStart s) hlt hci p3 (htxt _) f1 f2 hws2 f4 hst
        have hpre := scanGlyph_preproc lang lines.length (cur.getD s.currentLine [])
          (ColorizeInternal.lineStart s) (by rw [f2, hcurlen]; exact hci)
          (by
            intro hstr
            have hin := hws2.mp hstr
            obtain ⟨e1, e2⟩ := hesc s.currentLine hlt s.currentIndex hci hin
            rw [f2, glyphAt_mChar_congr _ _ (htxt _), glyphAt_mChar_congr _ _ (htxt _), hcurlen]
            exact ⟨e1, e2⟩)
        obtain ⟨q1, -, -, -, q5, q6, -, q8⟩ := hpre
        have hln1txt := scanGlyph_lineText lang lines.length (cur.getD s.currentLine [])
          (ColorizeInternal.lineStart s)
        rw [f2, glyphAt_mChar_congr _ _ (htxt _)] at q1
        rw [f1, f2, glyphAt_mChar_congr _ _ (htxt _), hcurlen] at q5
        rw [f2, glyphAt_mChar_congr _ _ (htxt _), hcurlen] at q6
        rw [f2] at q8
        rw [f3] at q1
        generalize ColorizeInternal.scanGlyph lang lines.length (cur.getD s.currentLine [])
          (ColorizeInternal.lineStart s) = r at g1 g2 q1 q5 q6 q8 hln1txt
        have hU := UTF8CharLength_pos (glyphAt (lines.getD s.currentLine []) s.currentIndex).mChar
        have hcurk : s.currentLine < cur.length := by omega
        obtain ⟨hfit, -⟩ := valid_char _ s.currentIndex hval p3 hci
        have hnext := InString_next lines s.currentLine s.currentIndex hval p3 hci
        apply ih (cur.set s.currentLine r.1) r.2
        · rw [List.length_set]; exact hlen
        · intro l'
          rw [getD_set_lines _ _ _ _ hcurk]
          split_ifs with h
          · subst h; rw [hln1txt]; exact htxt _
          · exact htxt _
        · -- the string state after the glyph
          have hq : (r.2.withinString = true)
              ↔ InString lines s.currentLine
                  (s.currentIndex
                    + UTF8CharLength (glyphAt (lines.getD s.currentLine []) s.currentIndex).mChar) := by
            rw [hnext, q1]
            by_cases hc : (glyphAt (lines.getD s.currentLine []) s.currentIndex).mChar = 34
            · rw [if_pos hc, if_pos hc, ← hws]
              cases s.withinString <;> simp
            · rw [if_neg hc, if_neg hc]; exact hws
          by_cases hw : (lines.getD s.currentLine []).length
              ≤ s.currentIndex
                + UTF8CharLength (glyphAt (lines.getD s.currentLine []) s.currentIndex).mChar
          · rw [if_pos hw] at q5 q6
            rw [q5, q6, InString_next_line lines _ hlt]
            have : (lines.getD s.currentLine []).length
                = s.currentIndex
                  + UTF8CharLength (glyphAt (lines.getD s.currentLine []) s.currentIndex).mChar := by
              omega
            rw [this]; exact hq
          · rw [if_neg hw] at q5 q6
            rw [q5, q6]; exact hq
        · rw [q5]; split_ifs <;> omega
        · intro hlt2
          by_cases hw : (lines.getD s.currentLine []).length
              ≤ s.currentIndex
                + UTF8CharLength (glyphAt (lines.getD s.currentLine []) s.currentIndex).mChar
          · rw [if_pos hw] at q5 q6
            rw [q5, q6]
            exact ⟨fun _ => rfl, fun h => h, boundary_zero _⟩
          · rw [if_neg hw] at q5 q6
            rw [q5, q6]
            exact ⟨fun h => by omega, fun _ => by omega,
              boundary_next _ _ p3 hci (by omega)⟩
        · exact g2
        · intro l' i' hlt' hl' hi' hb'
          rw [getD_set_lines _ _ _ _ hcurk]
          by_cases hll : s.currentLine = l'
          · subst hll
            rw [if_pos rfl]
            by_cases hii : i' = s.currentIndex
            · subst hii
              exact g1
            · rw [q8 i' hii]
              apply hdone _ i' _ hl' hi' hb'
              right
              refine ⟨rfl, ?_⟩
              by_contra hge
              have hgt : s.currentIndex < i' := by omega
              apply boundary_between _ _ i' p3 hgt _ hb'
              rw [q5, q6] at hlt'
              by_cases hw : (lines.getD s.currentLine []).length
                  ≤ s.currentIndex
                    + UTF8CharLength (glyphAt (lines.getD s.currentLine []) s.currentIndex).mChar
              · omega
              · rw [if_neg hw, if_neg hw] at hlt'
                omega
          · rw [if_neg hll]
            apply hdone _ i' _ hl' hi' hb'
            left
            rw [q5, q6] at hlt'
            split_ifs at hlt' <;> omega
        · rw [q5, q6]
          by_cases hw : (lines.getD s.currentLine []).length
              ≤ s.currentIndex
                + UTF8CharLength (glyphAt (lines.getD s.currentLine []) s.currentIndex).mChar
          · rw [if_pos hw, if_pos hw]; omega
          · rw [if_neg hw, if_neg hw]; omega
        · exact hl
        · exact hi
        · exact hb
    · rw [if_neg (by omega)]
      exact hdone l i (by omega) hl hi hb

/-- Induction over the comment scan of a well-formed document whose strings hold no
escape: a property `St` of the scan state that holds at the start and is kept by the step
over an empty line and by the step over a glyph, and a property `F` of the preprocessor
flag that the step over a glyph establishes, give `F` for every glyph of the scanned
document that starts a character.  The step over a glyph may assume that the scan is in
a string exactly when an odd number of double quotes precedes the glyph. -/
theorem scan_string_induction (lang : LanguageDefinition) (lines : Lines)
    (hv : ∀ ln ∈ lines, ValidUTF8 (lineText ln))
    (hesc : EscapeFree lines)
    (St : Nat → Nat → ColorizeInternal.ScanState → Prop)
    (F : Nat → Nat → Bool → Prop)
    (h_init : St 0 0 (ColorizeInternal.lineStart { commentStartLine := lines.length }))
    (h_empty : ∀ (l : Nat) (t : ColorizeInternal.ScanState), l < lines.length →
      lines.getD l [] = [] → t.currentLine = l → t.currentIndex = 0 →
      t.concatenate = false → St l 0 t →
      St (l + 1) 0 (ColorizeInternal.lineStart { t with currentIndex := 0, currentLine := l + 1 }))
    (h_glyph : ∀ (l i : Nat) (a : Line) (t : ColorizeInternal.ScanState), l < lines.length →
      i < (lines.getD l []).length → IsCharBoundary (lines.getD l []) i →
      lineText a = lineText (lines.getD l []) →
      t.currentLine = l → t.currentIndex = i →
      (t.withinString = true ↔ InString lines l i) →
      t.concatenate = false → St l i t →
      F l i (glyphAt (ColorizeInternal.scanGlyph lang lines.length a t).1 i).mPreprocessor
        ∧ St (ColorizeInternal.scanGlyph lang lines.length a t).2.currentLine
            (ColorizeInternal.scanGlyph lang lines.length a t).2.currentIndex
            (ColorizeInternal.lineStart (ColorizeInternal.scanGlyph lang lines.length a t).2)) :
    ∀ l i, l < lines.length → i < (lines.getD l []).length →
      IsCharBoundary (lines.getD l []) i →
      F l i (glyphAt ((ColorizeInternal.checkComments lang lines).getD l []) i).mPreprocessor := by
  unfold ColorizeInternal.checkComments ColorizeInternal.fuel
  apply scan_string_induction_aux lang lines hv hesc St F h_empty h_glyph
  · rfl
  · intro l; rfl
  · constructor
    · intro h; exact absurd h (by simp)
    · intro h; exact absurd h (InString_zero lines)
  · exact Nat.zero_le _
  · intro h
    refine ⟨fun _ => rfl, fun h2 => h2, boundary_zero _⟩
  · exact h_init
  · intro l i h
    rcases h with h | h
    · exact absurd h (Nat.not_lt_zero _)
    · exact absurd h.2 (Nat.not_lt_zero _)
  · simp

/-! ### The preprocessor flag in documents with strings -/

theorem scan_preproc_flag (lang : LanguageDefinition) (lines : Lines)
    (hv : ∀ ln ∈ lines, ValidUTF8 (lineText ln))
    (hesc : EscapeFree lines)
    (hP : lang.mPreprocChar < 128) :
    ∀ l i, l < lines.length → i < (lines.getD l []).length →
      IsCharBoundary (lines.getD l []) i →
      ((glyphAt ((ColorizeInternal.checkComments lang lines).getD l []) i).mPreprocessor = true
        ↔ preprocCarried lang.mPreprocChar lines l
            ∨ (firstCharCarried lang.mPreprocChar lines l
                ∧ ∃ j, j ≤ i ∧ (glyphAt (lines.getD l []) j).mChar = lang.mPreprocChar
                    ∧ ¬ InString lines l j
                    ∧ ∀ k, k < j →
                        blankOrPreproc lang.mPreprocChar (glyphAt (lines.getD l []) k).mChar)) := by
  have hmem : ∀ l, l < lines.length → lines.getD l [] ∈ lines := by
    intro l hl
    rw [List.getD_eq_getElem?_getD, List.getElem?_eq_getElem hl]
    exact List.getElem_mem _
  apply scan_string_induction lang lines hv hesc
    (fun l i t =>
      (t.withinPreproc = true
        ↔ preprocCarried lang.mPreprocChar lines l
            ∨ (firstCharCarried lang.mPreprocChar lines l
                ∧ ∃ j, j < i ∧ (glyphAt (lines.getD l []) j).mChar = lang.mPreprocChar
                    ∧ ¬ InString lines l j
                    ∧ ∀ k, k < j →
                        blankOrPreproc lang.mPreprocChar (glyphAt (lines.getD l []) k).mChar))
      ∧ (t.firstChar = true
        ↔ firstCharCarried lang.mPreprocChar lines l
            ∧ ∀ k, k < i →
                blankOrPreproc lang.mPreprocChar (glyphAt (lines.getD l []) k).mChar))
    (fun l i pp =>
      (pp = true
        ↔ preprocCarried lang.mPreprocChar lines l
            ∨ (firstCharCarried lang.mPreprocChar lines l
                ∧ ∃ j, j ≤ i ∧ (glyphAt (lines.getD l []) j).mChar = lang.mPreprocChar
                    ∧ ¬ InString lines l j
                    ∧ ∀ k, k < j →
                        blankOrPreproc lang.mPreprocChar (glyphAt (lines.getD l []) k).mChar)))
  · -- the start
    simp [ColorizeInternal.lineStart, preprocCarried, firstCharCarried]
  · -- an empty line
    intro l t hl hemp hcl hci hconc hst
    have hnb : ¬ endsWithBackslash (lines.getD l []) := by
      rw [hemp]; exact fun h => h.1 rfl
    rw [(lineStart_flags _).2.1, (lineStart_flags _).2.2, if_pos ⟨rfl, hconc⟩,
      if_pos ⟨rfl, hconc⟩]
    constructor
    · constructor
      · intro h; exact absurd h (by simp)
      · rintro (h | ⟨-, j, hj, -⟩)
        · exact absurd h.1 hnb
        · omega
    · constructor
      · intro _
        exact ⟨fun h => absurd h hnb, fun k hk => by omega⟩
      · intro _; rfl
  · -- a glyph
    intro l i a t hl hi hb htxt hcl hci hws hconc hst
    obtain ⟨hpp, hfc⟩ := hst
    have hval := hv _ (hmem l hl)
    obtain ⟨hfit, hcontin⟩ := valid_char _ i hval hb hi
    have halen : a.length = (lines.getD l []).length := length_congr _ _ htxt
    have hch : ∀ j, (glyphAt a j).mChar = (glyphAt (lines.getD l []) j).mChar :=
      glyphAt_mChar_congr _ _ htxt
    obtain ⟨-, q2, q3, q4, q5, q6, q7, -⟩ :=
      scanGlyph_preproc lang lines.length a t (by rw [hci, halen]; exact hi)
        (by
          intro hstr
          obtain ⟨e1, e2⟩ := hesc l hl i hi (hws.mp hstr)
          rw [hci, hch, hch, halen]
          exact ⟨e1, e2⟩)
    rw [hci] at q7
    rw [hci, hch] at q2 q3
    rw [hci, halen, hch, hconc, Bool.false_or] at q4
    rw [hcl, hci, hch, halen] at q5
    rw [hci, hch, halen] at q6
    generalize ColorizeInternal.scanGlyph lang lines.length a t = r at q2 q3 q4 q5 q6 q7 ⊢
    -- the two states after the glyph
    have hfc2 : (t.firstChar
          && (sameChar lang.mPreprocChar (glyphAt (lines.getD l []) i).mChar
              || isspace (glyphAt (lines.getD l []) i).mChar)) = true
        ↔ firstCharCarried lang.mPreprocChar lines l
            ∧ ∀ k, k < i + 1 →
                blankOrPreproc lang.mPreprocChar (glyphAt (lines.getD l []) k).mChar := by
      rw [Bool.and_eq_true, blankOrPreproc_iff _ _ hP, hfc]
      constructor
      · rintro ⟨⟨h1, h2⟩, h3⟩
        refine ⟨h1, fun k hk => ?_⟩
        rcases Nat.lt_or_ge k i with h | h
        · exact h2 k h
        · have : k = i := by omega
          subst this; exact h3
      · rintro ⟨h1, h2⟩
        exact ⟨⟨h1, fun k hk => h2 k (by omega)⟩, h2 i (by omega)⟩
    have hpp2 : (t.withinPreproc
          || (!t.withinString && t.firstChar
              && sameChar lang.mPreprocChar (glyphAt (lines.getD l []) i).mChar)) = true
        ↔ preprocCarried lang.mPreprocChar lines l
            ∨ (firstCharCarried lang.mPreprocChar lines l
                ∧ ∃ j, j ≤ i ∧ (glyphAt (lines.getD l []) j).mChar = lang.mPreprocChar
                    ∧ ¬ InString lines l j
                    ∧ ∀ k, k < j →
                        blankOrPreproc lang.mPreprocChar (glyphAt (lines.getD l []) k).mChar) := by
      rw [Bool.or_eq_true, Bool.and_eq_true, Bool.and_eq_true, hfc, sameChar_iff _ _ hP, hpp]
      constructor
      · rintro (h | ⟨⟨h0, h1, h2⟩, h3⟩)
        · rcases h with h | ⟨h1, j, hj, h2, h3⟩
          · exact Or.inl h
          · exact Or.inr ⟨h1, j, by omega, h2, h3⟩
        · refine Or.inr ⟨h1, i, le_rfl, h3, ?_, h2⟩
          intro hin
          rw [hws.mpr hin] at h0
          exact Bool.noConfusion h0
      · rintro (h | ⟨h1, j, hj, h2, h3, h4⟩)
        · exact Or.inl (Or.inl h)
        · rcases Nat.lt_or_ge j i with h | h
          · exact Or.inl (Or.inr ⟨h1, j, h, h2, h3, h4⟩)
          · have : j = i := by omega
            subst this
            refine Or.inr ⟨⟨?_, h1, h4⟩, h2⟩
            cases hs : t.withinString
            · rfl
            · exact absurd (hws.mp hs) h3
    rw [q7, q2]
    refine ⟨hpp2, ?_⟩
    rw [(lineStart_flags _).2.1, (lineStart_flags _).2.2, q2, q3, q4]
    -- a byte between this character start and the next is neither the preprocessor
    -- character nor, when this byte is blank or the preprocessor character, there at all
    have hnoP : ∀ j, i < j → j < i + UTF8CharLength (glyphAt (lines.getD l []) i).mChar →
        (glyphAt (lines.getD l []) j).mChar ≠ lang.mPreprocChar := by
      intro j h1 h2 h3
      have := IsUTFSequence_ge _ (hcontin j h1 h2)
      omega
    have hone : blankOrPreproc lang.mPreprocChar (glyphAt (lines.getD l []) i).mChar →
        UTF8CharLength (glyphAt (lines.getD l []) i).mChar = 1 :=
      fun h => UTF8CharLength_ascii _ (blankOrPreproc_ascii _ _ hP h)
    have hfc3 : ∀ n, n = i + UTF8CharLength (glyphAt (lines.getD l []) i).mChar →
        ((firstCharCarried lang.mPreprocChar lines l
            ∧ ∀ k, k < i + 1 →
                blankOrPreproc lang.mPreprocChar (glyphAt (lines.getD l []) k).mChar)
          ↔ firstCharCarried lang.mPreprocChar lines l
            ∧ ∀ k, k < n →
                blankOrPreproc lang.mPreprocChar (glyphAt (lines.getD l []) k).mChar) := by
      intro n hn
      have hU := UTF8CharLength_pos (glyphAt (lines.getD l []) i).mChar
      constructor
      · rintro ⟨h1, h2⟩
        have := hone (h2 i (by omega))
        exact ⟨h1, fun k hk => h2 k (by omega)⟩
      · rintro ⟨h1, h2⟩
        exact ⟨h1, fun k hk => h2 k (by omega)⟩
    have hpp3 : ∀ n, n = i + UTF8CharLength (glyphAt (lines.getD l []) i).mChar →
        ((∃ j, j ≤ i ∧ (glyphAt (lines.getD l []) j).mChar = lang.mPreprocChar
            ∧ ¬ InString lines l j
            ∧ ∀ k, k < j →
                blankOrPreproc lang.mPreprocChar (glyphAt (lines.getD l []) k).mChar)
          ↔ ∃ j, j < n ∧ (glyphAt (lines.getD l []) j).mChar = lang.mPreprocChar
            ∧ ¬ InString lines l j
            ∧ ∀ k, k < j →
                blankOrPreproc lang.mPreprocChar (glyphAt (lines.getD l []) k).mChar) := by
      intro n hn
      have hU := UTF8CharLength_pos (glyphAt (lines.getD l []) i).mChar
      constructor
      · rintro ⟨j, h1, h2, h3⟩
        exact ⟨j, by omega, h2, h3⟩
      · rintro ⟨j, h1, h2, h3⟩
        refine ⟨j, ?_, h2, h3⟩
        by_contra hgt
        exact hnoP j (by omega) (by omega) h2
    by_cases hw : (lines.getD l []).length
        ≤ i + UTF8CharLength (glyphAt (lines.getD l []) i).mChar
    · -- the last character of the line
      rw [if_pos hw] at q5 q6
      rw [q5, q6]
      simp only [true_and]
      have hlen : (lines.getD l []).length
          = i + UTF8CharLength (glyphAt (lines.getD l []) i).mChar := by omega
      have hcont : (decide (i + 1 = (lines.getD l []).length)
            && decide ((glyphAt (lines.getD l []) ((lines.getD l []).length - 1)).mChar = 92))
            = true
          ↔ endsWithBackslash (lines.getD l []) := by
        rw [Bool.and_eq_true, decide_eq_true_eq, decide_eq_true_eq]
        unfold endsWithBackslash
        constructor
        · rintro ⟨-, h2⟩
          exact ⟨List.length_pos.mp (by omega), h2⟩
        · rintro ⟨-, h2⟩
          exact ⟨last_backslash _ i hval hb hi hw h2, h2⟩
      by_cases hc : (decide (i + 1 = (lines.getD l []).length)
            && decide ((glyphAt (lines.getD l []) ((lines.getD l []).length - 1)).mChar = 92))
            = true
      · have hc2 := hcont.mp hc
        rw [if_neg (by rw [hc]; simp), if_neg (by rw [hc]; simp), hpp2, hfc2,
          hpp3 _ hlen, hfc3 _ hlen]
        simp only [preprocCarried, firstCharCarried, hc2, true_and, true_implies]
        constructor
        · constructor
          · intro h; exact Or.inl h
          · rintro (h | ⟨-, j, hj, -⟩)
            · exact h
            · omega
        · constructor
          · intro h; exact ⟨h, fun k hk => by omega⟩
          · intro h; exact h.1
      · have hc2 : ¬ endsWithBackslash (lines.getD l []) := fun h => hc (hcont.mpr h)
        have hc3 : (decide (i + 1 = (lines.getD l []).length)
            && decide ((glyphAt (lines.getD l []) ((lines.getD l []).length - 1)).mChar = 92))
            = false := by simpa using hc
        rw [if_pos (by rw [hc3]), if_pos (by rw [hc3])]
        simp only [preprocCarried, firstCharCarried, hc2, false_and, false_or, false_implies,
          true_and]
        constructor
        · constructor
          · intro h; exact absurd h (by simp)
          · rintro ⟨j, hj, -⟩; omega
        · constructor
          · intro _ k hk; omega
          · intro _; trivial
    · -- inside the line
      rw [if_neg hw] at q5 q6
      rw [q5, q6]
      have hU := UTF8CharLength_pos (glyphAt (lines.getD l []) i).mChar
      rw [if_neg (by omega), if_neg (by omega), hpp2, hfc2, hpp3 _ rfl, hfc3 _ rfl]
      exact ⟨Iff.rfl, Iff.rfl⟩

/-- C25 (amended): in the comment scan of a document of well-formed UTF-8 in which no
string holds a backslash or a double quote directly followed by another one, for a
language whose preprocessor character is an ASCII character that is not white space, and
for a line that is not inside a string and does not follow a line ending with a
backslash, with `w` the number of white-space bytes the line begins with: if the byte
after them is the preprocessor character, a glyph of the line that starts a character
has the preprocessor flag set exactly when it is at or after that byte, and if moreover
the line ends with a backslash every glyph of the next line that starts a character has
the flag set; if the byte after them is another one, no glyph of the line that starts a
character has the flag set (this part holds inside a string too). -/
theorem C25_preprocessor_flag (lang : LanguageDefinition) (lines : Lines)
    (hv : ∀ ln ∈ lines, ValidUTF8 (lineText ln))
    (hesc : EscapeFree lines)
    (hP : lang.mPreprocChar < 128) (hPs : isspace lang.mPreprocChar = false) :
    (∀ l i, l < lines.length → (l = 0 ∨ ¬ endsWithBackslash (lines.getD (l - 1) [])) →
        ¬ InString lines l 0 →
        spanLength isspace (lineText (lines.getD l [])) < (lines.getD l []).length →
        (glyphAt (lines.getD l []) (spanLength isspace (lineText (lines.getD l [])))).mChar
          = lang.mPreprocChar →
        i < (lines.getD l []).length → IsCharBoundary (lines.getD l []) i →
        ((glyphAt ((ColorizeInternal.checkComments lang lines).getD l []) i).mPreprocessor
            = true
          ↔ spanLength isspace (lineText (lines.getD l [])) ≤ i))
      ∧ (∀ l i, l + 1 < lines.length →
          (l = 0 ∨ ¬ endsWithBackslash (lines.getD (l - 1) [])) →
          ¬ InString lines l 0 →
          spanLength isspace (lineText (lines.getD l [])) < (lines.getD l []).length →
          (glyphAt (lines.getD l []) (spanLength isspace (lineText (lines.getD l [])))).mChar
            = lang.mPreprocChar →
          endsWithBackslash (lines.getD l []) →
          i < (lines.getD (l + 1) []).length → IsCharBoundary (lines.getD (l + 1) []) i →
          (glyphAt ((ColorizeInternal.checkComments lang lines).getD (l + 1) [])
            i).mPreprocessor = true)
      ∧ (∀ l i, l < lines.length → (l = 0 ∨ ¬ endsWithBackslash (lines.getD (l - 1) [])) →
          spanLength isspace (lineText (lines.getD l [])) < (lines.getD l []).length →
          (glyphAt (lines.getD l []) (spanLength isspace (lineText (lines.getD l [])))).mChar
            ≠ lang.mPreprocChar →
          i < (lines.getD l []).length → IsCharBoundary (lines.getD l []) i →
          (glyphAt ((ColorizeInternal.checkComments lang lines).getD l []) i).mPreprocessor
            = false) := by
  have key := scan_preproc_flag lang lines hv hesc hP
  -- a line that does not follow a backslash starts afresh
  have hfresh : ∀ l, (l = 0 ∨ ¬ endsWithBackslash (lines.getD (l - 1) [])) →
      ¬ preprocCarried lang.mPreprocChar lines l
        ∧ firstCharCarried lang.mPreprocChar lines l := by
    intro l h
    cases l with
    | zero => exact ⟨fun h => h, trivial⟩
    | succ l =>
      rcases h with h | h
      · omega
      · exact ⟨fun hc => h hc.1, fun hc => absurd hc h⟩
  -- the white space at the start of a line
  have hws : ∀ (ln : Line) k, k < spanLength isspace (lineText ln) →
      isspace (glyphAt ln k).mChar = true := by
    intro ln k hk
    rw [← lineText_getD]
    exact spanLength_all isspace _ k hk
  have hstop : ∀ (ln : Line), spanLength isspace (lineText ln) < ln.length →
      isspace (glyphAt ln (spanLength isspace (lineText ln))).mChar = false := by
    intro ln h
    rw [← lineText_getD]
    exact spanLength_stop isspace _ (by rw [lineText_length]; exact h)
  -- a preprocessor character in the "no character so far" state is not before `w`
  have hafter : ∀ (ln : Line) j, (glyphAt ln j).mChar = lang.mPreprocChar →
      spanLength isspace (lineText ln) ≤ j := by
    intro ln j hj
    by_contra hlt
    have := hws ln j (by omega)
    rw [hj, hPs] at this
    exact Bool.noConfusion this
  -- the white space holds no double quote, so the string state after it is that of the
  -- start of the line
  have hout : ∀ l, ¬ InString lines l 0 →
      ¬ InString lines l (spanLength isspace (lineText (lines.getD l []))) := by
    intro l h0 h
    apply h0
    refine (InString_of_no_quote lines l _ ?_).mp h
    intro k hk hq
    have := hws _ k hk
    rw [hq] at this
    exact absurd this (by decide)
  refine ⟨?_, ?_, ?_⟩
  · intro l i hl hf hs hw hc hi hb
    obtain ⟨f1, f2⟩ := hfresh l hf
    rw [key l i hl hi hb]
    constructor
    · rintro (h | ⟨-, j, hj, h2, -⟩)
      · exact absurd h f1
      · have := hafter _ j h2
        omega
    · intro h
      exact Or.inr ⟨f2, _, h, hc, hout l hs, fun k hk => Or.inr (hws _ k hk)⟩
  · intro l i hl hf hs hw hc hewb hi hb
    obtain ⟨f1, f2⟩ := hfresh l hf
    rw [key (l + 1) i hl hi hb]
    left
    exact ⟨hewb, Or.inr ⟨f2, _, hw, hc, hout l hs, fun k hk => Or.inr (hws _ k hk)⟩⟩
  · intro l i hl hf hw hc hi hb
    obtain ⟨f1, f2⟩ := hfresh l hf
    have hn : ¬ ((glyphAt ((ColorizeInternal.checkComments lang lines).getD l [])
        i).mPreprocessor = true) := by
      rw [key l i hl hi hb]
      rintro (h | ⟨-, j, hj, h2, -, h3⟩)
      · exact f1 h
      · have h4 := hafter _ j h2
        rcases Nat.lt_or_ge (spanLength isspace (lineText (lines.getD l []))) j with h5 | h5
        · rcases h3 _ h5 with h6 | h6
          · exact hc h6
          · rw [hstop _ hw] at h6
            exact Bool.noConfusion h6
        · have : j = spanLength isspace (lineText (lines.getD l [])) := by omega
          rw [this] at h2
          exact hc h2
    simpa using hn

theorem C25_preprocessor_flag_witness :
    ((glyphAt ((ColorizeInternal.checkComments cLikeLanguage
        [toLine [35, 105, 110, 99, 108, 117, 100, 101, 32, 34, 97, 46, 104, 34]]).getD 0 [])
        10).mPreprocessor = true
      ↔ spanLength isspace
          (lineText ([toLine [35, 105, 110, 99, 108, 117, 100, 101, 32, 34, 97, 46, 104, 34]].getD
            0 [])) ≤ 10) :=
  (C25_preprocessor_flag cLikeLanguage
    [toLine [35, 105, 110, 99, 108, 117, 100, 101, 32, 34, 97, 46, 104, 34]]
    (by decide) (by decide) (by decide) (by decide)).1 0 10
    (by decide) (by decide) (by decide) (by decide) (by decide) (by decide) (by decide)

/-! ## The range edits read the text only

`DeleteRange` and `InsertTextAt` take the lines apart by byte indices that they compute
from the bytes, so on two documents with the same text they leave the same text. -/

theorem SameText.refl (e : TextEditor) : SameText e e := ⟨rfl, rfl⟩

theorem SameText.symm {x e : TextEditor} (h : SameText x e) : SameText e x := ⟨h.1.symm, h.2.symm⟩

theorem SameText.trans {x y z : TextEditor} (h1 : SameText x y) (h2 : SameText y z) :
    SameText x z := ⟨h1.1.trans h2.1, h1.2.trans h2.2⟩

theorem SameText_of_lines {x e : TextEditor} (h1 : x.mLines = e.mLines)
    (h2 : x.mTabSize = e.mTabSize) : SameText x e := ⟨by rw [h1], h2⟩

theorem lineTexts_length (lines : Lines) : (lineTexts lines).length = lines.length := by
  simp [lineTexts]

theorem SameText.length {x e : TextEditor} (h : SameText x e) :
    x.mLines.length = e.mLines.length := by
  rw [← lineTexts_length, h.1, lineTexts_length]

theorem lineTexts_getD (lines : Lines) (i : Nat) :
    (lineTexts lines).getD i [] = lineText (lines.getD i []) := by
  unfold lineTexts
  simp only [List.getD_eq_getElem?_getD, List.getElem?_map]
  cases lines[i]? <;> rfl

theorem SameText.lineAt {x e : TextEditor} (h : SameText x e) (l : Int) :
    lineText (lineAt x.mLines l) = lineText (lineAt e.mLines l) := by
  unfold TextEditor.lineAt
  rw [← lineTexts_getD, ← lineTexts_getD, h.1]

theorem GetCharacterIndex_loop_text (a b : Line) (h : lineText a = lineText b) (T : Nat)
    (col : Int) : ∀ (fuel i c : Nat),
      GetCharacterIndex.loop a T col fuel i c = GetCharacterIndex.loop b T col fuel i c := by
  intro fuel
  induction fuel with
  | zero => intro i c; rfl
  | succ fuel ih =>
    intro i c
    rw [GetCharacterIndex.loop, GetCharacterIndex.loop, length_congr a b h,
      glyphAt_mChar_congr a b h, ih]

theorem GetCharacterColumn_loop_text (a b : Line) (h : lineText a = lineText b) (T : Nat)
    (idx : Int) : ∀ (fuel i c : Nat),
      GetCharacterColumn.loop a T idx fuel i c = GetCharacterColumn.loop b T idx fuel i c := by
  intro fuel
  induction fuel with
  | zero => intro i c; rfl
  | succ fuel ih =>
    intro i c
    rw [GetCharacterColumn.loop, GetCharacterColumn.loop, length_congr a b h,
      glyphAt_mChar_congr a b h, ih]

theorem GetLineMaxColumn_loop_text (a b : Line) (h : lineText a = lineText b) (T : Nat) :
    ∀ (fuel i c : Nat),
      GetLineMaxColumn.loop a T fuel i c = GetLineMaxColumn.loop b T fuel i c := by
  intro fuel
  induction fuel with
  | zero => intro i c; rfl
  | succ fuel ih =>
    intro i c
    rw [GetLineMaxColumn.loop, GetLineMaxColumn.loop, length_congr a b h,
      glyphAt_mChar_congr a b h, ih]

theorem GetCharacterIndex_sameText {x e : TextEditor} (h : SameText x e) (c : Coordinates) :
    GetCharacterIndex x c = GetCharacterIndex e c := by
  unfold GetCharacterIndex
  rw [h.length, h.2]
  simp only
  rw [GetCharacterIndex_loop_text _ _ (h.lineAt c.mLine),
    length_congr _ _ (h.lineAt c.mLine)]

theorem GetCharacterColumn_sameText {x e : TextEditor} (h : SameText x e) (l i : Int) :
    GetCharacterColumn x l i = GetCharacterColumn e l i := by
  unfold GetCharacterColumn
  rw [h.length, h.2]
  simp only
  rw [GetCharacterColumn_loop_text _ _ (h.lineAt l),
    length_congr _ _ (h.lineAt l)]

theorem GetLineMaxColumn_sameText {x e : TextEditor} (h : SameText x e) (l : Int) :
    GetLineMaxColumn x l = GetLineMaxColumn e l := by
  unfold GetLineMaxColumn
  rw [h.length, h.2]
  simp only
  rw [GetLineMaxColumn_loop_text _ _ (h.lineAt l),
    length_congr _ _ (h.lineAt l)]

theorem lineTexts_set (lines : Lines) (i : Nat) (x : Line) :
    lineTexts (lines.set i x) = (lineTexts lines).set i (lineText x) := by
  unfold lineTexts
  rw [List.map_set]

theorem lineTexts_take (lines : Lines) (n : Nat) :
    lineTexts (lines.take n) = (lineTexts lines).take n := by
  unfold lineTexts
  rw [List.map_take]

theorem lineTexts_drop (lines : Lines) (n : Nat) :
    lineTexts (lines.drop n) = (lineTexts lines).drop n := by
  unfold lineTexts
  rw [List.map_drop]

theorem lineTexts_append (a b : Lines) : lineTexts (a ++ b) = lineTexts a ++ lineTexts b := by
  unfold lineTexts
  rw [List.map_append]

theorem lineTexts_cons (x : Line) (b : Lines) : lineTexts (x :: b) = lineText x :: lineTexts b :=
  rfl

theorem lineText_take (x : Line) (n : Nat) : lineText (x.take n) = (lineText x).take n := by
  unfold lineText
  rw [List.map_take]

theorem lineText_drop (x : Line) (n : Nat) : lineText (x.drop n) = (lineText x).drop n := by
  unfold lineText
  rw [List.map_drop]

/-- `DeleteRange` on two documents with the same text leaves the same text. -/
theorem DeleteRange_sameText {x e : TextEditor} (h : SameText x e) (a b : Coordinates) :
    SameText (DeleteRange x a b) (DeleteRange e a b) := by
  refine ⟨?_, ?_⟩
  · have hA := h.lineAt a.mLine
    have hB := h.lineAt b.mLine
    unfold DeleteRange
    by_cases heq : b = a
    · rw [if_pos heq, if_pos heq]; exact h.1
    · rw [if_neg heq, if_neg heq]
      simp only [GetCharacterIndex_sameText h, GetLineMaxColumn_sameText h]
      by_cases hline : a.mLine = b.mLine
      · simp only [if_pos hline]
        split_ifs
        · simp only [lineTexts_set, lineText_take, hA, h.1]
        · simp only [lineTexts_set, lineText_append, lineText_take, lineText_drop, hA, h.1]
      · simp only [if_neg hline]
        by_cases hlt : a.mLine < b.mLine
        · simp only [if_pos hlt, RemoveLineRange_mLines, lineTexts_append, lineTexts_take,
            lineTexts_drop, lineTexts_set, lineText_append, lineText_take, lineText_drop,
            hA, hB, h.1]
        · simp only [if_neg hlt, lineTexts_set, lineText_take, lineText_drop, hA, hB, h.1]
  · have h1 := (logFrame_eq (DeleteRange_logFrame x a b)).2.2.2.1
    have h2 := (logFrame_eq (DeleteRange_logFrame e a b)).2.2.2.1
    rw [h1, h2]; exact h.2

theorem lineText_lineAt (lines : Lines) (l : Int) :
    lineText (lineAt lines l) = (lineTexts lines).getD l.toNat [] := by
  unfold TextEditor.lineAt
  rw [lineTexts_getD]

theorem lineAt_length (lines : Lines) (l : Int) :
    (lineAt lines l).length = ((lineTexts lines).getD l.toNat []).length := by
  rw [← lineText_lineAt, lineText_length]

theorem insertChars_text (d : Nat) :
    ∀ (t : List Nat) (a b : Line) (ci : Int), lineText a = lineText b →
      lineText (InsertTextAt.insertChars d t a ci).1
          = lineText (InsertTextAt.insertChars d t b ci).1
        ∧ (InsertTextAt.insertChars d t a ci).2 = (InsertTextAt.insertChars d t b ci).2 := by
  induction d with
  | zero => intro t a b ci h; exact ⟨h, rfl⟩
  | succ d ih =>
    intro t a b ci h
    cases t with
    | nil => exact ⟨h, rfl⟩
    | cons c rest =>
      simp only [InsertTextAt.insertChars]
      by_cases hc : c = 0
      · rw [if_pos hc, if_pos hc]; exact ⟨h, rfl⟩
      · rw [if_neg hc, if_neg hc]
        apply ih
        show lineText (a.take ci.toNat ++ { mChar := c } :: a.drop ci.toNat)
          = lineText (b.take ci.toNat ++ { mChar := c } :: b.drop ci.toNat)
        rw [lineText_append, lineText_append, lineText_take, lineText_take, h]
        show _ ++ c :: lineText (a.drop ci.toNat) = _ ++ c :: lineText (b.drop ci.toNat)
        rw [lineText_drop, lineText_drop, h]

theorem breakLine_sameText {x e : TextEditor} (h : SameText x e) (W : Coordinates) (ci : Int) :
    SameText (InsertTextAt.breakLine x W ci) (InsertTextAt.breakLine e W ci) := by
  refine ⟨?_, ?_⟩
  · unfold InsertTextAt.breakLine
    rw [lineAt_length x.mLines, lineAt_length e.mLines, h.1]
    split_ifs
    · simp only [lineTexts_set, InsertLine_mLines, lineTexts_append, lineTexts_take,
        lineTexts_drop, lineTexts_cons, lineText_append, lineText_take, lineText_drop,
        lineText_lineAt, h.1]
    · simp only [InsertLine_mLines, lineTexts_append, lineTexts_take, lineTexts_drop,
        lineTexts_cons, h.1]
  · have hx : (InsertTextAt.breakLine x W ci).mTabSize = x.mTabSize := by
      unfold InsertTextAt.breakLine
      split_ifs
      · exact InsertLine_mTabSize _ _
      · exact InsertLine_mTabSize _ _
    have he : (InsertTextAt.breakLine e W ci).mTabSize = e.mTabSize := by
      unfold InsertTextAt.breakLine
      split_ifs
      · exact InsertLine_mTabSize _ _
      · exact InsertLine_mTabSize _ _
    rw [hx, he]; exact h.2

theorem InsertTextAt_loop_sameText (s : Int) (fuel : Nat) :
    ∀ (t : List Nat) (x e : TextEditor) (W : Coordinates) (ci total ai : Int), SameText x e →
      SameText (InsertTextAt.loop false s fuel t x W ci total ai).1
          (InsertTextAt.loop false s fuel t e W ci total ai).1
        ∧ (InsertTextAt.loop false s fuel t x W ci total ai).2
          = (InsertTextAt.loop false s fuel t e W ci total ai).2 := by
  induction fuel with
  | zero => intro t x e W ci total ai h; exact ⟨h, rfl⟩
  | succ fuel ih =>
    intro t x e W ci total ai h
    cases t with
    | nil => exact ⟨h, rfl⟩
    | cons c rest =>
      simp only [InsertTextAt.loop]
      by_cases h0 : c = 0
      · rw [if_pos h0, if_pos h0]; exact ⟨h, rfl⟩
      · rw [if_neg h0, if_neg h0]
        by_cases h13 : c = 13
        · rw [if_pos h13, if_pos h13]; exact ih _ _ _ _ _ _ _ h
        · rw [if_neg h13, if_neg h13]
          by_cases h10 : c = 10
          · rw [if_pos h10, if_pos h10]
            simp only [Bool.false_eq_true, if_false]
            exact ih _ _ _ _ _ _ _ (breakLine_sameText h W ci)
          · rw [if_neg h10, if_neg h10]
            obtain ⟨k1, k2⟩ := insertChars_text (UTF8CharLength c) (c :: rest)
              (lineAt x.mLines W.mLine) (lineAt e.mLines W.mLine) ci (h.lineAt _)
            simp only [k2, h.2]
            apply ih
            refine ⟨?_, rfl⟩
            show lineTexts (x.mLines.set _ _) = lineTexts (e.mLines.set _ _)
            rw [lineTexts_set, lineTexts_set, k1, h.1]

/-- `InsertTextAt` without auto-indent on two documents with the same text leaves the
same text and returns the same position and line count. -/
theorem InsertTextAt_sameText {x e : TextEditor} (h : SameText x e) (p : Coordinates)
    (t : List Nat) :
    SameText (InsertTextAt x p t false).1 (InsertTextAt e p t false).1
      ∧ (InsertTextAt x p t false).2 = (InsertTextAt e p t false).2 := by
  unfold InsertTextAt
  simp only [Bool.false_eq_true, if_false, GetCharacterIndex_sameText h]
  obtain ⟨k1, k2⟩ := InsertTextAt_loop_sameText 0 t.length t x e p (GetCharacterIndex e p) 0 0 h
  refine ⟨⟨k1.1, k1.2⟩, ?_⟩
  rw [k2]

theorem Colorize_sameText (e : TextEditor) (a b : Int) : SameText (Colorize e a b) e :=
  SameText_of_lines rfl (logFrame_eq (Colorize_logFrame e a b)).2.2.2.1

theorem EnsureCursorVisible_sameText (e : TextEditor) : SameText (EnsureCursorVisible e) e :=
  SameText_of_lines (EnsureCursorVisible_mLines e)
    (logFrame_eq (EnsureCursorVisible_logFrame e)).2.2.2.1

theorem deleteStep_sameText {x e : TextEditor} (h : SameText x e) (c : Bool)
    (a b : Coordinates) (p q : Int) :
    SameText (if c = true then Colorize (DeleteRange x a b) p q else x)
      (if c = true then Colorize (DeleteRange e a b) p q else e) := by
  cases c
  · exact h
  · exact ((Colorize_sameText _ _ _).trans (DeleteRange_sameText h _ _)).trans
      (Colorize_sameText _ _ _).symm

theorem insertStep_sameText {x e : TextEditor} (h : SameText x e) (c : Bool)
    (a : Coordinates) (t : List Nat) (p q : Int) :
    SameText (if c = true then Colorize (InsertTextAt x a t false).1 p q else x)
      (if c = true then Colorize (InsertTextAt e a t false).1 p q else e) := by
  cases c
  · exact h
  · exact ((Colorize_sameText _ _ _).trans (InsertTextAt_sameText h _ _).1).trans
      (Colorize_sameText _ _ _).symm

theorem withState_sameText (e : TextEditor) (s : EditorState) :
    SameText (EnsureCursorVisible { e with mState := s }) e :=
  (EnsureCursorVisible_sameText _).trans ⟨rfl, rfl⟩

/-- `UndoRecord::Undo` on two documents with the same text leaves the same text. -/
theorem UndoRecord_Undo_sameText (u : UndoRecord) {x e : TextEditor} (h : SameText x e) :
    SameText (u.Undo x) (u.Undo e) := by
  have h1 := deleteStep_sameText h (!u.mAdded.isEmpty) u.mAddedStart u.mAddedEnd
    (u.mAddedStart.mLine - 1) (u.mAddedEnd.mLine - u.mAddedStart.mLine + 2)
  have h2 := insertStep_sameText h1 (!u.mRemoved.isEmpty) u.mRemovedStart (cstr u.mRemoved)
    (u.mRemovedStart.mLine - 1) (u.mRemovedEnd.mLine - u.mRemovedStart.mLine + 2)
  exact ((withState_sameText _ u.mBefore).trans h2).trans (withState_sameText _ u.mBefore).symm

/-- `UndoRecord::Redo` on two documents with the same text leaves the same text. -/
theorem UndoRecord_Redo_sameText (u : UndoRecord) {x e : TextEditor} (h : SameText x e) :
    SameText (u.Redo x) (u.Redo e) := by
  have h1 := deleteStep_sameText h (!u.mRemoved.isEmpty) u.mRemovedStart u.mRemovedEnd
    (u.mRemovedStart.mLine - 1) (u.mRemovedEnd.mLine - u.mRemovedStart.mLine + 1)
  have h2 := insertStep_sameText h1 (!u.mAdded.isEmpty) u.mAddedStart (cstr u.mAdded)
    (u.mAddedStart.mLine - 1) (u.mAddedEnd.mLine - u.mAddedStart.mLine + 1)
  exact ((withState_sameText _ u.mAfter).trans h2).trans (withState_sameText _ u.mAfter).symm

/-! ## Documents whose lines hold no line break -/

theorem NoLineBreak_append {a b : Lines} (ha : NoLineBreak a) (hb : NoLineBreak b) :
    NoLineBreak (a ++ b) := by
  intro line h
  rcases List.mem_append.mp h with h | h
  · exact ha line h
  · exact hb line h

theorem NoLineBreak_cons {x : Line} {b : Lines} (hx : 10 ∉ lineText x) (hb : NoLineBreak b) :
    NoLineBreak (x :: b) := by
  intro line h
  rcases List.mem_cons.mp h with h | h
  · rw [h]; exact hx
  · exact hb line h

theorem NoLineBreak_take {a : Lines} (ha : NoLineBreak a) (n : Nat) : NoLineBreak (a.take n) :=
  fun line h => ha line (List.mem_of_mem_take h)

theorem NoLineBreak_drop {a : Lines} (ha : NoLineBreak a) (n : Nat) : NoLineBreak (a.drop n) :=
  fun line h => ha line (List.mem_of_mem_drop h)

theorem NoLineBreak_set {a : Lines} (ha : NoLineBreak a) (n : Nat) {x : Line}
    (hx : 10 ∉ lineText x) : NoLineBreak (a.set n x) := by
  intro line h
  rcases List.mem_or_eq_of_mem_set h with h | h
  · exact ha line h
  · rw [h]; exact hx

theorem NoLineBreak_lineAt {a : Lines} (ha : NoLineBreak a) (l : Int) :
    10 ∉ lineText (lineAt a l) := by
  unfold TextEditor.lineAt
  rw [List.getD_eq_getElem?_getD]
  cases h : a[l.toNat]? with
  | none => simp [lineText]
  | some x => exact ha x (List.getElem?_mem h)

theorem not_mem_lineText_take {x : Line} (hx : 10 ∉ lineText x) (n : Nat) :
    10 ∉ lineText (x.take n) := by
  rw [lineText_take]; exact fun h => hx (List.mem_of_mem_take h)

theorem not_mem_lineText_drop {x : Line} (hx : 10 ∉ lineText x) (n : Nat) :
    10 ∉ lineText (x.drop n) := by
  rw [lineText_drop]; exact fun h => hx (List.mem_of_mem_drop h)

theorem not_mem_lineText_append {x y : Line} (hx : 10 ∉ lineText x) (hy : 10 ∉ lineText y) :
    10 ∉ lineText (x ++ y) := by
  rw [lineText_append]
  intro h
  rcases List.mem_append.mp h with h | h
  · exact hx h
  · exact hy h

theorem NoLineBreak_of_sameText {x e : TextEditor} (h : SameText x e)
    (he : NoLineBreak e.mLines) : NoLineBreak x.mLines := by
  intro line hl
  have h1 : lineText line ∈ lineTexts x.mLines := List.mem_map_of_mem _ hl
  rw [h.1] at h1
  obtain ⟨l2, h2, h3⟩ := List.mem_map.mp h1
  rw [← h3]
  exact he l2 h2

/-- `DeleteRange` puts no line break into a line. -/
theorem DeleteRange_noLineBreak (e : TextEditor) (a b : Coordinates)
    (h : NoLineBreak e.mLines) : NoLineBreak (DeleteRange e a b).mLines := by
  have hA := NoLineBreak_lineAt h a.mLine
  have hB := NoLineBreak_lineAt h b.mLine
  unfold DeleteRange
  by_cases heq : b = a
  · rw [if_pos heq]; exact h
  · rw [if_neg heq]
    by_cases hline : a.mLine = b.mLine
    · simp only [if_pos hline]
      split_ifs
      · exact NoLineBreak_set h _ (not_mem_lineText_take hA _)
      · exact NoLineBreak_set h _
          (not_mem_lineText_append (not_mem_lineText_take hA _)
            (by rw [hline]; exact not_mem_lineText_drop hB _))
    · simp only [if_neg hline]
      have h1 := NoLineBreak_set (NoLineBreak_set h a.mLine.toNat (not_mem_lineText_take hA
        (GetCharacterIndex e a).toNat)) b.mLine.toNat
        (not_mem_lineText_drop hB (GetCharacterIndex e b).toNat)
      by_cases hlt : a.mLine < b.mLine
      · simp only [if_pos hlt, RemoveLineRange_mLines]
        have h2 := NoLineBreak_set h1 a.mLine.toNat
          (not_mem_lineText_append (not_mem_lineText_take hA (GetCharacterIndex e a).toNat)
            (not_mem_lineText_drop hB (GetCharacterIndex e b).toNat))
        exact NoLineBreak_append (NoLineBreak_take h2 _) (NoLineBreak_drop h2 _)
      · simp only [if_neg hlt]
        exact h1

theorem insertChars_noLineBreak (d : Nat) :
    ∀ (t : List Nat) (line : Line) (ci : Int), (∀ c ∈ t.take d, c ≠ 10) →
      10 ∉ lineText line → 10 ∉ lineText (InsertTextAt.insertChars d t line ci).1 := by
  induction d with
  | zero => intro t line ci _ h; exact h
  | succ d ih =>
    intro t line ci ht h
    cases t with
    | nil => exact h
    | cons c rest =>
      simp only [InsertTextAt.insertChars]
      split_ifs
      · exact h
      · apply ih
        · intro c2 h2
          exact ht c2 (by rw [List.take_succ_cons]; exact List.mem_cons_of_mem _ h2)
        · apply not_mem_lineText_append (not_mem_lineText_take h _)
          show 10 ∉ c :: lineText (line.drop ci.toNat)
          intro hm
          rcases List.mem_cons.mp hm with hm | hm
          · exact ht c (by rw [List.take_succ_cons]; exact List.mem_cons_self _ _) hm.symm
          · exact not_mem_lineText_drop h _ hm

theorem breakLine_noLineBreak (e : TextEditor) (W : Coordinates) (ci : Int)
    (h : NoLineBreak e.mLines) : NoLineBreak (InsertTextAt.breakLine e W ci).mLines := by
  have hI : NoLineBreak (InsertLine e (W.mLine + 1)).mLines := by
    rw [InsertLine_mLines]
    exact NoLineBreak_append (NoLineBreak_take h _)
      (NoLineBreak_cons (by simp [lineText]) (NoLineBreak_drop h _))
  unfold InsertTextAt.breakLine
  split_ifs
  · exact NoLineBreak_set (NoLineBreak_set hI _
      (not_mem_lineText_append (not_mem_lineText_drop (NoLineBreak_lineAt hI _) _)
        (NoLineBreak_lineAt hI _))) _ (not_mem_lineText_take (NoLineBreak_lineAt hI _) _)
  · exact hI

theorem InsertTextAt_loop_noLineBreak (s : Int) (fuel : Nat) :
    ∀ (t : List Nat) (e : TextEditor) (W : Coordinates) (ci total ai : Int),
      0 ∉ t → validFrom 0 t = true → NoLineBreak e.mLines →
      NoLineBreak (InsertTextAt.loop false s fuel t e W ci total ai).1.mLines := by
  induction fuel with
  | zero => intro t e W ci total ai _ _ h; exact h
  | succ n ih =>
    intro t e W ci total ai hnul hvalid h
    cases t with
    | nil => exact h
    | cons c rest =>
      have hc0 : c ≠ 0 := fun h => hnul (by simp [h])
      have hrest0 : 0 ∉ rest := fun h => hnul (by simp [h])
      simp only [InsertTextAt.loop]
      rw [if_neg hc0]
      by_cases h13 : c = 13
      · subst h13
        rw [if_pos rfl]
        have hv : validFrom 0 rest = true := by simpa [validFrom, UTF8CharLength] using hvalid
        exact ih rest e W ci total ai hrest0 hv h
      · rw [if_neg h13]
        by_cases h10 : c = 10
        · subst h10
          rw [if_pos rfl]
          have hv : validFrom 0 rest = true := by simpa [validFrom, UTF8CharLength] using hvalid
          simp only [Bool.false_eq_true, if_false]
          exact ih rest _ _ _ _ _ hrest0 hv (breakLine_noLineBreak e W ci h)
        · rw [if_neg h10]
          simp only [validFrom] at hvalid
          obtain ⟨tl, rest', hsplit, htl, hcont, hv⟩ := validFrom_split _ _ hvalid
          subst hsplit
          have hpos := UTF8CharLength_pos c
          have hlen : UTF8CharLength c = (c :: tl).length := by simp; omega
          have hnz : ∀ d ∈ c :: tl, d ≠ 0 := by
            intro d hd
            rcases List.mem_cons.mp hd with rfl | hd
            · exact hc0
            · exact (IsUTFSequence_ne d (hcont d hd)).1
          have hcons : c :: (tl ++ rest') = (c :: tl) ++ rest' := rfl
          have hrest := insertChars_rest (c :: tl) rest' (lineAt e.mLines W.mLine) ci hnz
          rw [← hlen] at hrest
          rw [hcons, hrest]
          apply ih rest' _ _ _ _ _ (fun h => hrest0 (by simp [h])) hv
          apply NoLineBreak_set h
          apply insertChars_noLineBreak _ _ _ _ _ (NoLineBreak_lineAt h _)
          intro d hd
          rw [hlen, List.take_left' rfl] at hd
          rcases List.mem_cons.mp hd with rfl | hd
          · exact h10
          · exact (IsUTFSequence_ne d (hcont d hd)).2.1

/-- `InsertTextAt` without auto-indent of NUL-free valid UTF-8 puts no line break into a
line: it starts a new line at every `'\n'`. -/
theorem InsertTextAt_noLineBreak (e : TextEditor) (p : Coordinates) (t : List Nat)
    (hnul : 0 ∉ t) (hvalid : ValidUTF8 t) (h : NoLineBreak e.mLines) :
    NoLineBreak (InsertTextAt e p t false).1.mLines := by
  unfold InsertTextAt
  exact InsertTextAt_loop_noLineBreak _ _ t e p _ _ _ hnul hvalid h

/-! ### The text determines the lines -/

theorem break_split (a b s1 s2 : List Nat) (ha : 10 ∉ a) (hb : 10 ∉ b)
    (h : a ++ 10 :: s1 = b ++ 10 :: s2) : a = b ∧ s1 = s2 := by
  induction a generalizing b with
  | nil =>
    cases b with
    | nil => simpa using h
    | cons c b =>
      simp only [List.nil_append, List.cons_append, List.cons.injEq] at h
      exact absurd h.1.symm (fun hc => hb (by simp [hc]))
  | cons c a ih =>
    cases b with
    | nil =>
      simp only [List.nil_append, List.cons_append, List.cons.injEq] at h
      exact absurd h.1 (fun hc => ha (by simp [hc]))
    | cons d b =>
      simp only [List.cons_append, List.cons.injEq] at h
      obtain ⟨k1, k2⟩ := ih b (fun hm => ha (List.mem_cons_of_mem _ hm))
        (fun hm => hb (List.mem_cons_of_mem _ hm)) h.2
      exact ⟨by rw [h.1, k1], k2⟩

theorem joinPost_nil_or (post : Lines) : post = [] ∨ ∃ s, joinPost post = 10 :: s := by
  cases post with
  | nil => exact Or.inl rfl
  | cons y rest => exact Or.inr ⟨lineText y ++ joinPost rest, by simp [joinPost]⟩

theorem joinPost_cons (y : Line) (rest : Lines) :
    joinPost (y :: rest) = 10 :: (lineText y ++ joinPost rest) := by
  simp [joinPost]

/-- Two non-empty documents without line breaks in their lines that have the same text
have the same lines, text for text. -/
theorem lineTexts_of_docText : ∀ (A B : Lines), A ≠ [] → B ≠ [] → NoLineBreak A →
    NoLineBreak B → docText A = docText B → lineTexts A = lineTexts B := by
  intro A
  induction A with
  | nil => intro B h; exact absurd rfl h
  | cons x A ih =>
    intro B _ hB hnA hnB h
    cases B with
    | nil => exact absurd rfl hB
    | cons y B =>
      have hx : 10 ∉ lineText x := hnA x (List.mem_cons_self _ _)
      have hy : 10 ∉ lineText y := hnB y (List.mem_cons_self _ _)
      rw [docText_cons, docText_cons] at h
      cases A with
      | nil =>
        cases B with
        | nil =>
          simp only [joinPost, List.map_nil, List.flatten_nil, List.append_nil] at h
          rw [lineTexts_cons, lineTexts_cons, h]
        | cons y2 B =>
          rw [joinPost_cons] at h
          simp only [joinPost, List.map_nil, List.flatten_nil, List.append_nil] at h
          exact absurd (by rw [h]; simp) hx
      | cons x2 A =>
        cases B with
        | nil =>
          rw [joinPost_cons] at h
          simp only [joinPost, List.map_nil, List.flatten_nil, List.append_nil] at h
          exact absurd (by rw [← h]; simp) hy
        | cons y2 B =>
          rw [joinPost_cons, joinPost_cons] at h
          obtain ⟨k1, k2⟩ := break_split _ _ _ _ hx hy h
          have := ih (y2 :: B) (List.cons_ne_nil _ _) (List.cons_ne_nil _ _)
            (fun l hl => hnA l (List.mem_cons_of_mem _ hl))
            (fun l hl => hnB l (List.mem_cons_of_mem _ hl))
            (by rw [docText_cons, docText_cons]; exact k2)
          show lineText x :: lineTexts (x2 :: A) = lineText y :: lineTexts (y2 :: B)
          rw [k1, this]

theorem docText_of_lineTexts (A B : Lines) (h : lineTexts A = lineTexts B) :
    docText A = docText B := by
  unfold docText
  unfold lineTexts at h
  rw [h]

theorem GetTextAll_of_sameText {x e : TextEditor} (h : SameText x e) :
    GetTextAll x = GetTextAll e := by
  rw [GetTextAll_eq, GetTextAll_eq]
  exact docText_of_lineTexts _ _ h.1

/-! ## Records of a removal -/

theorem UndoRecord_Undo_mTabSize (u : UndoRecord) (x : TextEditor) :
    (u.Undo x).mTabSize = x.mTabSize :=
  (logFrame_eq (UndoRecord_Undo_logFrame u x)).2.2.2.1

theorem UndoRecord_Redo_mTabSize (u : UndoRecord) (x : TextEditor) :
    (u.Redo x).mTabSize = x.mTabSize :=
  (logFrame_eq (UndoRecord_Redo_logFrame u x)).2.2.2.1

theorem DeleteRange_mTabSize (e : TextEditor) (a b : Coordinates) :
    (DeleteRange e a b).mTabSize = e.mTabSize :=
  (logFrame_eq (DeleteRange_logFrame e a b)).2.2.2.1

theorem InsertTextAt_mTabSize (e : TextEditor) (p : Coordinates) (t : List Nat) (indent : Bool) :
    (InsertTextAt e p t indent).1.mTabSize = e.mTabSize :=
  (logFrame_eq (InsertTextAt_logFrame e p t indent)).2.2.2.1

theorem Undo_removed_mLines (u : UndoRecord) (x : TextEditor) (hadd : u.mAdded = []) :
    (u.Undo x).mLines
      = if u.mRemoved = [] then x.mLines
        else (InsertTextAt x u.mRemovedStart (cstr u.mRemoved) false).1.mLines := by
  unfold UndoRecord.Undo
  rw [EnsureCursorVisible_mLines]
  simp only [hadd, List.isEmpty_nil, Bool.not_true, Bool.false_eq_true, if_false]
  cases h : u.mRemoved with
  | nil => simp
  | cons c r => simp [Colorize_mLines]

theorem Redo_removed_mLines (u : UndoRecord) (y : TextEditor) (hadd : u.mAdded = []) :
    (u.Redo y).mLines
      = if u.mRemoved = [] then y.mLines
        else (DeleteRange y u.mRemovedStart u.mRemovedEnd).mLines := by
  unfold UndoRecord.Redo
  rw [EnsureCursorVisible_mLines]
  simp only [hadd, List.isEmpty_nil, Bool.not_true, Bool.false_eq_true, if_false]
  cases h : u.mRemoved with
  | nil => simp
  | cons c r => simp [Colorize_mLines]

/-- The text of a document from which the range between two sanitized positions was
removed, and the text of the document before, side by side. -/
theorem removed_docText (e : TextEditor) (a b : Coordinates)
    (hc : ∀ line ∈ e.mLines, Complete line)
    (htab : ∀ line ∈ e.mLines, TabStopsDefined e.mTabSize line)
    (ha : Sanitized e a) (hb : Sanitized e b) (hab : a.le b = true) :
    (DeleteRange e a b).mLines ≠ []
      ∧ (GetText e a b = [] → docText (DeleteRange e a b).mLines = docText e.mLines) := by
  obtain ⟨pre, xa, xb, post, ia, ib, r1, r2, r3, r4, r5, r6, r7⟩ :=
    range_removed e a b hc htab ha hb hab
  refine ⟨by rw [r6]; simp, ?_⟩
  intro hnil
  rw [r6, r7, hnil, docText_decomp, lineText_append]
  simp

/-- Undoing a record that only removed the range between two sanitized positions, on a
document that has the text left by the removal, gives the text before the removal, line
by line. -/
theorem undo_removed_sameText (e : TextEditor) (a b : Coordinates) (u : UndoRecord)
    (x : TextEditor)
    (hc : ∀ line ∈ e.mLines, Complete line)
    (htab : ∀ line ∈ e.mLines, TabStopsDefined e.mTabSize line)
    (hnb : NoLineBreak e.mLines)
    (ha : Sanitized e a) (hb : Sanitized e b) (hab : a.le b = true)
    (hx : SameText x (DeleteRange e a b))
    (hadd : u.mAdded = []) (hrem : u.mRemoved = GetText e a b) (hstart : u.mRemovedStart = a)
    (hnul : 0 ∉ GetText e a b) (hcr : 13 ∉ GetText e a b)
    (hvalid : ValidUTF8 (GetText e a b)) :
    SameText (u.Undo x) e := by
  refine (UndoRecord_Undo_sameText u hx).trans ?_
  have htext := undo_removed_text e a b u (DeleteRange e a b) hc htab ha hb hab rfl
    (DeleteRange_mTabSize e a b) hadd hrem hstart hnul hcr hvalid
  rw [GetTextAll_eq, GetTextAll_eq] at htext
  have hne : e.mLines ≠ [] := by
    intro h
    have := ha.2.1
    rw [h] at this
    have := ha.1
    simp at *
    omega
  obtain ⟨hdr, -⟩ := removed_docText e a b hc htab ha hb hab
  have hnbd := DeleteRange_noLineBreak e a b hnb
  have hlines := Undo_removed_mLines u (DeleteRange e a b) hadd
  have hne2 : (u.Undo (DeleteRange e a b)).mLines ≠ [] := by
    rw [hlines]
    split_ifs
    · exact hdr
    · intro h
      have := InsertTextAt_length_le (DeleteRange e a b) u.mRemovedStart (cstr u.mRemoved) false
      rw [h] at this
      exact hdr (List.length_eq_zero.mp (by simpa using this))
  have hnb2 : NoLineBreak (u.Undo (DeleteRange e a b)).mLines := by
    rw [hlines]
    split_ifs
    · exact hnbd
    · rw [hrem, cstr_of_not_mem _ hnul]
      exact InsertTextAt_noLineBreak _ _ _ hnul hvalid hnbd
  refine ⟨lineTexts_of_docText _ _ hne2 hne hnb2 hnb htext, ?_⟩
  rw [UndoRecord_Undo_mTabSize, DeleteRange_mTabSize]

/-- Redoing a record that only removed the range between two sanitized positions, on a
document that has the text before the removal, gives the text left by the removal. -/
theorem redo_removed_sameText (e : TextEditor) (a b : Coordinates) (u : UndoRecord)
    (y : TextEditor)
    (hc : ∀ line ∈ e.mLines, Complete line)
    (htab : ∀ line ∈ e.mLines, TabStopsDefined e.mTabSize line)
    (hnb : NoLineBreak e.mLines)
    (ha : Sanitized e a) (hb : Sanitized e b) (hab : a.le b = true)
    (hy : SameText y e)
    (hadd : u.mAdded = []) (hrem : u.mRemoved = GetText e a b) (hstart : u.mRemovedStart = a)
    (hend : u.mRemovedEnd = b) :
    SameText (u.Redo y) (DeleteRange e a b) := by
  refine (UndoRecord_Redo_sameText u hy).trans ?_
  refine ⟨?_, by rw [UndoRecord_Redo_mTabSize, DeleteRange_mTabSize]⟩
  rw [Redo_removed_mLines u e hadd, hstart, hend]
  split_ifs with hnil
  · obtain ⟨hdr, htext⟩ := removed_docText e a b hc htab ha hb hab
    have hne : e.mLines ≠ [] := by
      intro h
      have := ha.2.1
      rw [h] at this
      have := ha.1
      simp at *
      omega
    exact (lineTexts_of_docText _ _ hdr hne (DeleteRange_noLineBreak e a b hnb) hnb
      (htext (by rw [← hrem]; exact hnil))).symm
  · rfl

/-- A command that removes the range between two sanitized positions and logs it with
the removed text, the range and the two snapshots is faithfully logged. -/
theorem removal_faithful (e E : TextEditor) (a b : Coordinates) (u : UndoRecord)
    (hv : ValidLog e)
    (hc : ∀ line ∈ e.mLines, Complete line)
    (htab : ∀ line ∈ e.mLines, TabStopsDefined e.mTabSize line)
    (hnb : NoLineBreak e.mLines)
    (ha : Sanitized e a) (hb : Sanitized e b) (hab : a.le b = true)
    (hnul : 0 ∉ GetText e a b) (hcr : 13 ∉ GetText e a b)
    (hvalid : ValidUTF8 (GetText e a b))
    (hlines : E.mLines = (DeleteRange e a b).mLines)
    (hset : settings E = settings e)
    (hbuf : E.mUndoBuffer = e.mUndoBuffer.take e.mUndoIndex.toNat ++ [u])
    (hidx : E.mUndoIndex = e.mUndoIndex + 1)
    (hbefore : u.mBefore = e.mState) (hafter : u.mAfter = E.mState)
    (hadd : u.mAdded = []) (hrem : u.mRemoved = GetText e a b) (hstart : u.mRemovedStart = a)
    (hend : u.mRemovedEnd = b) :
    TextFaithful e E u := by
  have hE : SameText E (DeleteRange e a b) :=
    ⟨by rw [hlines], by rw [(settings_eq hset).2.1, DeleteRange_mTabSize]⟩
  refine ⟨hv, hbuf, hidx, hset, hbefore, hafter, ?_, ?_⟩
  · intro x hx
    exact undo_removed_sameText e a b u x hc htab hnb ha hb hab (hx.trans hE) hadd hrem hstart
      hnul hcr hvalid
  · intro y hy
    exact (redo_removed_sameText e a b u y hc htab hnb ha hb hab hy hadd hrem hstart hend).trans
      hE.symm

/-! ## Runs of edits that are faithfully logged as far as the text goes -/

theorem TextFaithful_log {e1 E : TextEditor} {u : UndoRecord} (hf : TextFaithful e1 E u) :
    0 ≤ e1.mUndoIndex ∧ E.mUndoIndex.toNat = e1.mUndoIndex.toNat + 1
      ∧ (e1.mUndoBuffer.take e1.mUndoIndex.toNat).length = e1.mUndoIndex.toNat
      ∧ E.mUndoBuffer.take e1.mUndoIndex.toNat = e1.mUndoBuffer.take e1.mUndoIndex.toNat := by
  obtain ⟨hv, hbuf, hidx, _⟩ := hf
  obtain ⟨_, h0, h1⟩ := hv
  have hlen : (e1.mUndoBuffer.take e1.mUndoIndex.toNat).length = e1.mUndoIndex.toNat := by
    rw [List.length_take]; omega
  refine ⟨h0, by rw [hidx]; omega, hlen, ?_⟩
  rw [hbuf]
  exact List.take_left' hlen

theorem Faithful.text {e E : TextEditor} {u : UndoRecord} (hf : Faithful e E u) :
    TextFaithful e E u := by
  obtain ⟨hv, hbuf, hidx, hset, hb, ha, hundo, hredo⟩ := hf
  refine ⟨hv, hbuf, hidx, hset, hb, ha, ?_, ?_⟩
  · intro x hx
    refine (UndoRecord_Undo_sameText u hx).trans ⟨?_, ?_⟩
    · rw [hundo E rfl rfl]
    · rw [UndoRecord_Undo_mTabSize]; exact (settings_eq hset).2.1
  · intro y hy
    refine (UndoRecord_Redo_sameText u hy).trans ⟨?_, ?_⟩
    · rw [hredo e rfl rfl]
    · rw [UndoRecord_Redo_mTabSize]; exact (settings_eq hset).2.1.symm

theorem TextRun_undo {e E : TextEditor} {n : Nat} (h : TextRun e n E) :
    ∀ x : TextEditor, SameText x E → x.mState = E.mState → settings x = settings E →
      IsReadOnly x = false → x.mUndoIndex = E.mUndoIndex →
      x.mUndoBuffer.take E.mUndoIndex.toNat = E.mUndoBuffer.take E.mUndoIndex.toNat →
      SameText (Undo.loop n x) e ∧ (Undo.loop n x).mState = e.mState
        ∧ settings (Undo.loop n x) = settings e ∧ (Undo.loop n x).mUndoIndex = e.mUndoIndex
        ∧ (Undo.loop n x).mUndoBuffer = x.mUndoBuffer := by
  induction h with
  | nil =>
    intro x h1 h2 h3 _ h5 _
    exact ⟨h1, h2, h3, h5, rfl⟩
  | @snoc e1 E n u hrun hf ih =>
    intro x h1 h2 h3 h4 h5 h6
    obtain ⟨g0, g1, g2, g3⟩ := TextFaithful_log hf
    obtain ⟨hv, hbuf, hidx, hset, hb, ha, hundo, _⟩ := hf
    have hcan : CanUndo x = true := by
      unfold CanUndo
      rw [h4, h5, hidx]
      simp
      omega
    have hrecord : x.mUndoBuffer.getD (x.mUndoIndex - 1).toNat default = u := by
      have hk : (x.mUndoIndex - 1).toNat = e1.mUndoIndex.toNat := by rw [h5, hidx]; omega
      rw [hk]
      rw [g1] at h6
      exact getD_of_take_eq _ _ _ _ u _ g2 hbuf h6
    have hstep : Undo.loop (n + 1) x
        = Undo.loop n (u.Undo { x with mUndoIndex := x.mUndoIndex - 1 }) := by
      rw [Undo.loop, if_pos hcan]
      simp only []
      rw [hrecord]
    rw [hstep]
    have hlog := logFrame_eq (UndoRecord_Undo_logFrame u { x with mUndoIndex := x.mUndoIndex - 1 })
    have hs := settings_of_logFrame (UndoRecord_Undo_logFrame u { x with mUndoIndex := x.mUndoIndex - 1 })
    have hx1 : SameText { x with mUndoIndex := x.mUndoIndex - 1 } E := ⟨h1.1, h1.2⟩
    have key := ih (u.Undo { x with mUndoIndex := x.mUndoIndex - 1 })
      (hundo _ hx1)
      (by rw [UndoRecord_Undo_mState, hb])
      (by rw [hs]; exact (h3.trans hset))
      (by rw [hlog.2.2.1]; exact h4)
      (by rw [hlog.2.1]; show x.mUndoIndex - 1 = _; rw [h5, hidx]; omega)
      (by
        rw [hlog.1]
        show x.mUndoBuffer.take e1.mUndoIndex.toNat = _
        rw [← take_take_of_le x.mUndoBuffer _ _ (by omega : e1.mUndoIndex.toNat ≤ E.mUndoIndex.toNat),
          h6, take_take_of_le _ _ _ (by omega), g3])
    rw [hlog.1] at key
    exact key

theorem TextRun_redo {e E : TextEditor} {n : Nat} (h : TextRun e n E) :
    ∀ y : TextEditor, SameText y e → y.mState = e.mState → settings y = settings e →
      IsReadOnly y = false → y.mUndoIndex = e.mUndoIndex →
      y.mUndoBuffer.take E.mUndoIndex.toNat = E.mUndoBuffer.take E.mUndoIndex.toNat →
      SameText (Redo.loop n y) E ∧ (Redo.loop n y).mState = E.mState
        ∧ settings (Redo.loop n y) = settings E ∧ (Redo.loop n y).mUndoIndex = E.mUndoIndex
        ∧ (Redo.loop n y).mUndoBuffer = y.mUndoBuffer := by
  induction h with
  | nil =>
    intro y h1 h2 h3 _ h5 _
    exact ⟨h1, h2, h3, h5, rfl⟩
  | @snoc e1 E n u hrun hf ih =>
    intro y h1 h2 h3 h4 h5 h6
    obtain ⟨g0, g1, g2, g3⟩ := TextFaithful_log hf
    obtain ⟨hv, hbuf, hidx, hset, hb, ha, _, hredo⟩ := hf
    have hle : e1.mUndoIndex.toNat ≤ E.mUndoIndex.toNat := by omega
    obtain ⟨k1, k2, k3, k4, k5⟩ := ih y h1 h2 h3 h4 h5
      (by rw [← take_take_of_le y.mUndoBuffer _ _ hle, h6, take_take_of_le _ _ _ hle, g3])
    rw [Redo_loop_succ]
    generalize Redo.loop n y = r at k1 k2 k3 k4 k5
    have hElen : E.mUndoBuffer.length = e1.mUndoIndex.toNat + 1 := by
      rw [hbuf, List.length_append, g2]; rfl
    have hlen : e1.mUndoIndex.toNat + 1 ≤ y.mUndoBuffer.length := by
      have h7 := congrArg List.length h6
      rw [List.length_take, List.length_take, g1, hElen] at h7
      omega
    have hro : IsReadOnly r = false := by
      rw [(settings_eq k3).1]; exact hv.1
    have hcan : CanRedo r = true := by
      unfold CanRedo
      rw [hro, k4, k5]
      simp
      omega
    have hrecord : r.mUndoBuffer.getD r.mUndoIndex.toNat default = u := by
      rw [k4, k5]
      rw [g1] at h6
      exact getD_of_take_eq _ _ _ _ u _ g2 hbuf h6
    have hstep : Redo.loop 1 r = u.Redo { r with mUndoIndex := r.mUndoIndex + 1 } := by
      rw [Redo.loop, if_pos hcan]
      simp only []
      rw [hrecord]
      rfl
    rw [hstep]
    have hlog := logFrame_eq (UndoRecord_Redo_logFrame u { r with mUndoIndex := r.mUndoIndex + 1 })
    have hs := settings_of_logFrame (UndoRecord_Redo_logFrame u { r with mUndoIndex := r.mUndoIndex + 1 })
    have hr1 : SameText { r with mUndoIndex := r.mUndoIndex + 1 } e1 := ⟨k1.1, k1.2⟩
    refine ⟨hredo _ hr1, by rw [UndoRecord_Redo_mState, ha], ?_, ?_, ?_⟩
    · rw [hs]; exact k3.trans hset.symm
    · rw [hlog.2.1]; show r.mUndoIndex + 1 = _; rw [k4, hidx]
    · rw [hlog.1]; exact k5

theorem TextRun_settings {e E : TextEditor} {n : Nat} (h : TextRun e n E) :
    settings E = settings e := by
  induction h with
  | nil => rfl
  | @snoc e1 E n u hrun hf ih => exact hf.2.2.2.1.trans ih

theorem TextRun_readOnly {e E : TextEditor} {n : Nat} (h : TextRun e (n + 1) E) :
    IsReadOnly E = false := by
  cases h with
  | snoc u hrun hf => rw [(settings_eq hf.2.2.2.1).1]; exact hf.1.1

/-- Undoing a run of `n` edits that are faithfully logged as far as the text goes gives
back the text, the selection and the cursor that the run began with, and redoing `n`
steps after that gives back those that the run ended with. -/
theorem TextRun_undo_redo {e E : TextEditor} {n : Nat} (h : TextRun e n E)
    (hro : IsReadOnly E = false) :
    (SameText (Undo E n) e ∧ (Undo E n).mState = e.mState)
      ∧ SameText (Redo (Undo E n) n) E ∧ (Redo (Undo E n) n).mState = E.mState := by
  unfold Redo Undo
  rw [Int.toNat_ofNat]
  obtain ⟨u1, u2, u3, u4, u5⟩ := TextRun_undo h E (SameText.refl E) rfl rfl hro rfl rfl
  have hro2 : IsReadOnly (Undo.loop n E) = false := by
    rw [(settings_eq u3).1, ← (settings_eq (TextRun_settings h)).1]; exact hro
  obtain ⟨r1, r2, _, _, _⟩ := TextRun_redo h (Undo.loop n E) u1 u2 u3 hro2 u4 (by rw [u5])
  exact ⟨⟨u1, u2⟩, r1, r2⟩

theorem TextRun_cons {e e1 E : TextEditor} {n : Nat} (u : UndoRecord)
    (hf : TextFaithful e e1 u) (h : TextRun e1 n E) : TextRun e (n + 1) E := by
  induction h with
  | nil => exact TextRun.snoc u (TextRun.nil e) hf
  | @snoc e2 E n v _ hf2 ih => exact TextRun.snoc v ih hf2

/-! ## `Cut`, `Delete` and `Backspace` of a selection are faithfully logged -/

theorem AddUndo_log (e0 e1 : TextEditor) (u : UndoRecord) (hlog : logFrame e1 = logFrame e0)
    (hv : ValidLog e0) :
    (AddUndo e1 u).mUndoBuffer = e0.mUndoBuffer.take e0.mUndoIndex.toNat ++ [u]
      ∧ (AddUndo e1 u).mUndoIndex = e0.mUndoIndex + 1
      ∧ settings (AddUndo e1 u) = settings e0 := by
  obtain ⟨_, s2, _, s4⟩ := AddUndo_spec e1 u (ValidLog_of_logFrame hlog hv)
  obtain ⟨l1, l2, _⟩ := logFrame_eq hlog
  refine ⟨by rw [s4, l1, l2], by rw [s2, l2], ?_⟩
  rw [AddUndo_settings]
  exact settings_of_logFrame hlog

theorem nonempty_of_sanitized {e : TextEditor} {a : Coordinates} (ha : Sanitized e a) :
    e.mLines ≠ [] := by
  intro h
  have h0 := ha.1
  have h1 := ha.2.1
  rw [h] at h1
  simp at h1
  omega

theorem selection_removal_faithful (e E : TextEditor) (u : UndoRecord) (hv : ValidLog e)
    (hs : RemovableSelection e) (hnb : NoLineBreak e.mLines)
    (hlines : E.mLines = (DeleteRange e e.mState.mSelectionStart e.mState.mSelectionEnd).mLines)
    (hset : settings E = settings e)
    (hbuf : E.mUndoBuffer = e.mUndoBuffer.take e.mUndoIndex.toNat ++ [u])
    (hidx : E.mUndoIndex = e.mUndoIndex + 1)
    (hbefore : u.mBefore = e.mState) (hafter : u.mAfter = E.mState)
    (hadd : u.mAdded = []) (hrem : u.mRemoved = GetSelectedText e)
    (hstart : u.mRemovedStart = e.mState.mSelectionStart)
    (hend : u.mRemovedEnd = e.mState.mSelectionEnd) :
    TextFaithful e E u := by
  obtain ⟨hsel, ha, hb, hc, htabs, hnul, hcr, hvalid⟩ := hs
  exact removal_faithful e E _ _ u hv hc htabs hnb ha hb (gt_le _ _ hsel).1 hnul hcr hvalid
    hlines hset hbuf hidx hbefore hafter hadd hrem hstart hend

theorem Delete_selection_faithful (e : TextEditor) (hv : ValidLog e)
    (hs : RemovableSelection e) (hnb : NoLineBreak e.mLines) :
    ∃ u, TextFaithful e (Delete e) u := by
  have hne : e.mLines.isEmpty = false := by
    cases h : e.mLines with
    | nil => exact absurd h (nonempty_of_sanitized hs.2.1)
    | cons a b => rfl
  have hdef : Delete e = AddUndo (DeleteSelection e)
      { mBefore := e.mState, mRemoved := GetSelectedText e,
        mRemovedStart := e.mState.mSelectionStart, mRemovedEnd := e.mState.mSelectionEnd,
        mAfter := (DeleteSelection e).mState } := by
    unfold Delete
    rw [if_neg (by rw [hne]; simp)]
    simp only []
    rw [if_pos hs.1]
  obtain ⟨b1, b2, b3⟩ := AddUndo_log e (DeleteSelection e)
    { mBefore := e.mState, mRemoved := GetSelectedText e,
      mRemovedStart := e.mState.mSelectionStart, mRemovedEnd := e.mState.mSelectionEnd,
      mAfter := (DeleteSelection e).mState } (DeleteSelection_logFrame e) hv
  rw [hdef]
  exact ⟨_, selection_removal_faithful e _ _ hv hs hnb
    (by rw [AddUndo_mLines, DeleteSelection_mLines]) b3 b1 b2 rfl rfl rfl rfl rfl rfl⟩

theorem Cut_selection_faithful (e : TextEditor) (hv : ValidLog e)
    (hs : RemovableSelection e) (hnb : NoLineBreak e.mLines) :
    ∃ u, TextFaithful e (Cut e) u := by
  have hdef : Cut e = AddUndo (DeleteSelection (Copy e))
      { mBefore := e.mState, mRemoved := GetSelectedText e,
        mRemovedStart := e.mState.mSelectionStart, mRemovedEnd := e.mState.mSelectionEnd,
        mAfter := (DeleteSelection (Copy e)).mState } := by
    unfold Cut
    rw [if_neg (by rw [hv.1]; simp), if_pos hs.1]
  have hlog : logFrame (DeleteSelection (Copy e)) = logFrame e :=
    (DeleteSelection_logFrame _).trans (Copy_logFrame e)
  obtain ⟨b1, b2, b3⟩ := AddUndo_log e (DeleteSelection (Copy e))
    { mBefore := e.mState, mRemoved := GetSelectedText e,
      mRemovedStart := e.mState.mSelectionStart, mRemovedEnd := e.mState.mSelectionEnd,
      mAfter := (DeleteSelection (Copy e)).mState } hlog hv
  rw [hdef]
  refine ⟨_, selection_removal_faithful e _ _ hv hs hnb ?_ b3 b1 b2 rfl rfl rfl rfl rfl rfl⟩
  rw [AddUndo_mLines, DeleteSelection_mLines, Copy_mState]
  exact DeleteRange_mLines_congr (Copy_mLines e) (logFrame_eq (Copy_logFrame e)).2.2.2.1 _ _
    (gt_le _ _ hs.1).2

theorem Backspace_finish_log (e0 e1 : TextEditor) (u : UndoRecord)
    (hlog : logFrame e1 = logFrame e0) (hv : ValidLog e0) :
    (Backspace.finish e1 u).mUndoBuffer
        = e0.mUndoBuffer.take e0.mUndoIndex.toNat ++ [{ u with mAfter := e1.mState }]
      ∧ (Backspace.finish e1 u).mUndoIndex = e0.mUndoIndex + 1
      ∧ settings (Backspace.finish e1 u) = settings e0
      ∧ (Backspace.finish e1 u).mLines = e1.mLines
      ∧ (Backspace.finish e1 u).mState = e1.mState := by
  obtain ⟨b1, b2, b3⟩ := AddUndo_log e0 e1 { u with mAfter := e1.mState } hlog hv
  unfold Backspace.finish
  simp only []
  split_ifs
  · exact ⟨b1, b2, b3, rfl, rfl⟩
  · exact ⟨b1, b2, b3, rfl, rfl⟩

theorem Backspace_selection_faithful (e : TextEditor) (hv : ValidLog e)
    (hs : RemovableSelection e) (hnb : NoLineBreak e.mLines) :
    ∃ u, TextFaithful e (Backspace e) u := by
  have hne : e.mLines.isEmpty = false := by
    cases h : e.mLines with
    | nil => exact absurd h (nonempty_of_sanitized hs.2.1)
    | cons a b => rfl
  have hdef : Backspace e = Backspace.finish (DeleteSelection e)
      { mBefore := e.mState, mRemoved := GetSelectedText e,
        mRemovedStart := e.mState.mSelectionStart, mRemovedEnd := e.mState.mSelectionEnd } := by
    unfold Backspace
    rw [if_neg (by rw [hne]; simp), if_pos hs.1]
  obtain ⟨b1, b2, b3, b4, b5⟩ := Backspace_finish_log e (DeleteSelection e)
    { mBefore := e.mState, mRemoved := GetSelectedText e,
      mRemovedStart := e.mState.mSelectionStart, mRemovedEnd := e.mState.mSelectionEnd }
    (DeleteSelection_logFrame e) hv
  rw [hdef]
  exact ⟨_, selection_removal_faithful e _ _ hv hs hnb
    (by rw [b4, DeleteSelection_mLines]) b3 b1 b2 rfl b5.symm rfl rfl rfl rfl⟩

/-! ## The character at a position -/

theorem colWalk_concat (T : Nat) (a : Line) (ha : completeFrom 0 a = true) :
    ∀ (b : Line) (c : Nat), colWalk T 0 (a ++ b) c = colWalk T 0 b (colWalk T 0 a c) := by
  refine complete_induction (fun a => ∀ (b : Line) (c : Nat),
    colWalk T 0 (a ++ b) c = colWalk T 0 b (colWalk T 0 a c)) ?_ ?_ a ha
  · intro b c
    cases b <;> simp [colWalk]
  · intro g tl suf htl _ ih b c
    have happ : g :: (tl ++ suf) ++ b = g :: (tl ++ (suf ++ b)) := by simp
    rw [happ, colWalk_cons T g tl _ c htl, colWalk_cons T g tl _ c htl, ih]

/-- The walk of `GetCharacterIndex` goes past a complete run of bytes that ends before
the target column. -/
theorem idxWalk_past (T : Nat) (col : Int) (a : Line) (ha : completeFrom 0 a = true) :
    TabStopsDefined T a → ∀ (c : Nat) (b : Line), (colWalk T 0 a c : Nat) < col →
      idxWalk T col 0 (a ++ b) c = a.length + idxWalk T col 0 b (colWalk T 0 a c) := by
  refine complete_induction (fun a => TabStopsDefined T a → ∀ (c : Nat) (b : Line),
    (colWalk T 0 a c : Nat) < col →
      idxWalk T col 0 (a ++ b) c = a.length + idxWalk T col 0 b (colWalk T 0 a c)) ?_ ?_ a ha
  · intro _ c b _
    simp [colWalk]
  · intro g tl suf htl hsuf ih htab c b h
    have happ : g :: (tl ++ suf) ++ b = g :: (tl ++ (suf ++ b)) := by simp
    rw [colWalk_cons T g tl suf c htl] at h ⊢
    rw [happ, idxWalk_cons T col g tl _ c htl]
    have h1 := advanceColumn_gt T g.mChar c (TabStopsDefined_cons htab).1
    have h2 := le_colWalk T suf hsuf (TabStopsDefined_cons htab).2 (advanceColumn T g.mChar c)
    rw [if_pos (by omega), ih (TabStopsDefined_cons htab).2 _ _ h]
    have := UTF8CharLength_pos g.mChar
    simp [htl]; omega

theorem idxWalk_stop (T : Nat) (col : Int) (l : Line) (c : Nat) (h : col ≤ c) :
    idxWalk T col 0 l c = 0 := by
  cases l with
  | nil => rfl
  | cons g rest => simp only [idxWalk]; rw [if_neg (by omega)]

/-- The character that begins at byte `k` of a complete line, where `k` is the index of a
column that is the column of a character start: its bytes, the index of the next column
and the room that the line has for that column. -/
theorem char_at (T : Nat) (col : Int) (x : Line) (k : Nat)
    (hx : completeFrom 0 x = true) (htab : TabStopsDefined T x)
    (hk : k = idxWalk T col 0 x 0) (hat : col = (colWalk T 0 (x.take k) 0 : Nat))
    (hlt : k < x.length) :
    ∃ (g : Glyph) (tl suf : Line),
      x = x.take k ++ g :: (tl ++ suf) ∧ x.drop k = g :: (tl ++ suf)
        ∧ glyphAt x k = g
        ∧ tl.length = UTF8CharLength g.mChar - 1
        ∧ completeFrom 0 suf = true ∧ completeFrom 0 (x.take k) = true
        ∧ idxWalk T (col + 1) 0 x 0 = k + UTF8CharLength g.mChar
        ∧ col + 1 ≤ (colWalk T 0 x 0 : Nat)
        ∧ ((colWalk T 0 x 0 : Nat) ≤ col + 1 → suf = []) := by
  obtain ⟨b1, b2⟩ := idxWalk_boundary T col x hx 0
  rw [← hk] at b1 b2
  have hdrop : x.drop k ≠ [] := by
    intro h
    have := congrArg List.length h
    simp at this
    omega
  obtain ⟨g, rest, hg⟩ := List.exists_cons_of_ne_nil hdrop
  rw [hg] at b2
  simp only [completeFrom] at b2
  obtain ⟨tl, suf, h1, h2, h3⟩ := completeFrom_split _ _ b2
  subst h1
  have hxeq : x = x.take k ++ g :: (tl ++ suf) := by
    rw [← hg, List.take_append_drop]
  have htabk : TabStopsDefined T (x.take k) := TabStopsDefined_take htab k
  have htabd : TabStopsDefined T (g :: (tl ++ suf)) := by
    rw [← hg]; exact TabStopsDefined_drop htab k
  have hg9 := (TabStopsDefined_cons htabd).1
  have hsuft := (TabStopsDefined_cons htabd).2
  have hadv := advanceColumn_gt T g.mChar (colWalk T 0 (x.take k) 0) hg9
  have hsufle := le_colWalk T suf h3 hsuft (advanceColumn T g.mChar (colWalk T 0 (x.take k) 0))
  have hcolx : colWalk T 0 x 0
      = colWalk T 0 suf (advanceColumn T g.mChar (colWalk T 0 (x.take k) 0)) := by
    conv_lhs => rw [hxeq]
    rw [colWalk_concat T _ b1, colWalk_cons T g tl suf _ h2]
  have hglyph : glyphAt x k = g := by
    unfold glyphAt
    rw [List.getD_eq_getElem?_getD, ← List.head?_drop, hg]
    rfl
  refine ⟨g, tl, suf, hxeq, hg, hglyph, h2, h3, b1, ?_, ?_, ?_⟩
  · conv_lhs => rw [hxeq]
    rw [idxWalk_past T _ _ b1 htabk 0 _ (by rw [hat]; omega),
      idxWalk_cons T _ g tl suf _ h2, if_pos (by rw [hat]; omega),
      idxWalk_stop T _ suf _ (by rw [hat]; omega)]
    have hlen : (x.take k).length = k := by rw [List.length_take]; omega
    rw [hlen]; omega
  · rw [hcolx, hat]; omega
  · intro hle
    by_contra hne
    have := colWalk_lt T suf h3 hsuft hne (advanceColumn T g.mChar (colWalk T 0 (x.take k) 0))
    rw [hcolx, hat] at hle
    omega

theorem eraseChars_spec (k : Nat) (tl : Line) :
    ∀ (pre suf : Line) (removed : List Nat), pre.length = k →
      eraseChars k tl.length (pre ++ tl ++ suf) removed = (pre ++ suf, removed ++ lineText tl) := by
  induction tl with
  | nil => intro pre suf removed _; simp [eraseChars, lineText]
  | cons g tl ih =>
    intro pre suf removed hk
    simp only [List.length_cons, eraseChars]
    have hlt : k < (pre ++ g :: tl ++ suf).length := by simp; omega
    rw [if_pos hlt]
    have he : (pre ++ g :: tl ++ suf).eraseIdx k = pre ++ tl ++ suf := by
      rw [List.append_assoc, ← hk, List.eraseIdx_append_of_length_le (le_refl _)]
      simp
    have hg : glyphAt (pre ++ g :: tl ++ suf) k = g := by
      unfold glyphAt
      rw [List.append_assoc, ← hk, List.getD_eq_getElem?_getD,
        List.getElem?_append_right (le_refl _)]
      simp
    rw [he, hg, ih pre suf _ hk]
    simp [lineText]

/-! ## `Delete` without a selection is faithfully logged -/

theorem SanitizeCoordinates_of_sanitized (e e1 : TextEditor) (p : Coordinates)
    (hp : Sanitized e p) (h1 : e1.mLines = e.mLines) (h2 : e1.mTabSize = e.mTabSize) :
    SanitizeCoordinates e1 p = p := by
  obtain ⟨p0, p1, p2, p3⟩ := hp
  unfold SanitizeCoordinates
  have hemp : e.mLines.isEmpty = false := by
    cases h : e.mLines with
    | nil => rw [h] at p1; simp at p1; omega
    | cons a b => rfl
  rw [h1, if_neg (by omega), hemp, GetLineMaxColumn_congr h1 h2]
  simp only [Bool.false_eq_true, if_false]
  rw [min_eq_left p3]

theorem le_same_line (a : Coordinates) (c : Int) (h : a.mColumn ≤ c) :
    a.le ⟨a.mLine, c⟩ = true := by
  unfold Coordinates.le
  simp [h]

theorem le_next_line (a b : Coordinates) (h : a.mLine < b.mLine) : a.le b = true := by
  unfold Coordinates.le
  rw [if_pos (by omega)]
  simpa using h

theorem GetCharacterColumn_zero (e : TextEditor) (l : Int) : GetCharacterColumn e l 0 = 0 := by
  unfold GetCharacterColumn
  split_ifs
  · rfl
  · simp only []
    cases h : (lineAt e.mLines l).length with
    | zero => rfl
    | succ n => simp [GetCharacterColumn.loop]

/-- `Delete` on the character that begins at the cursor: the lines, the log and the
record. -/
theorem Delete_char_faithful (e : TextEditor) (hv : ValidLog e) (hne : e.mLines ≠ [])
    (hsel : HasSelection e = false)
    (h0 : 0 ≤ e.mState.mCursorPosition.mLine) (h1 : 0 ≤ e.mState.mCursorPosition.mColumn)
    (hc : ∀ line ∈ e.mLines, Complete line)
    (htab : ∀ line ∈ e.mLines, TabStopsDefined e.mTabSize line)
    (hnb : NoLineBreak e.mLines)
    (hat : (GetActualCursorCoordinates e).mColumn
      = GetCharacterColumn e (GetActualCursorCoordinates e).mLine
          (GetCharacterIndex e (GetActualCursorCoordinates e)))
    (hcol : (GetActualCursorCoordinates e).mColumn
      ≠ GetLineMaxColumn e (GetActualCursorCoordinates e).mLine)
    (hnul : 0 ∉ GetText e (GetActualCursorCoordinates e)
      ⟨(GetActualCursorCoordinates e).mLine, (GetActualCursorCoordinates e).mColumn + 1⟩)
    (hcr : 13 ∉ GetText e (GetActualCursorCoordinates e)
      ⟨(GetActualCursorCoordinates e).mLine, (GetActualCursorCoordinates e).mColumn + 1⟩)
    (hvalid : ValidUTF8 (GetText e (GetActualCursorCoordinates e)
      ⟨(GetActualCursorCoordinates e).mLine, (GetActualCursorCoordinates e).mColumn + 1⟩)) :
    ∃ u, TextFaithful e (Delete e) u := by
  obtain ⟨pos, hpos⟩ : ∃ pos, pos = GetActualCursorCoordinates e := ⟨_, rfl⟩
  rw [← hpos] at hat hcol hnul hcr hvalid
  have hs : Sanitized e pos := by
    rw [hpos]; exact SanitizeCoordinates_sanitized e _ hne h0 h1
  obtain ⟨pre, x, post, hl, hlen, hnat, hx, hcx, hi, hile, hmax⟩ :=
    sanitized_decomp e pos hs (hc _ (lineAt_mem _ _ hs.1 hs.2.1))
  obtain ⟨k, hk⟩ : ∃ k, k = idxWalk e.mTabSize pos.mColumn 0 x 0 := ⟨_, rfl⟩
  rw [← hk] at hi hile
  have hxmem : x ∈ e.mLines := by rw [hl]; simp
  have htx := htab x hxmem
  have hline : pos.mLine = pre.length := hlen.symm
  -- the column of the cursor is the column of byte `k`
  have hcolk : pos.mColumn = (colWalk e.mTabSize 0 (x.take k) 0 : Nat) := by
    rw [hat, hi, GetCharacterColumn_eq e pos.mLine _ hs.1 hs.2.1, hx]
    simp
  have hklt : k < x.length := by
    by_contra hge
    have : x.take k = x := List.take_of_length_le (by omega)
    rw [this, ← hmax] at hcolk
    exact hcol hcolk
  obtain ⟨g, tl, suf, c1, c2, c3, c4, c5, c6, c7, c8, c9⟩ :=
    char_at e.mTabSize pos.mColumn x k hcx htx hk hcolk hklt
  obtain ⟨b, hb⟩ : ∃ b : Coordinates, b = ⟨pos.mLine, pos.mColumn + 1⟩ := ⟨_, rfl⟩
  rw [← hb] at hnul hcr hvalid
  have hsb : Sanitized e b := by
    rw [hb]
    refine ⟨hs.1, hs.2.1, by have := hs.2.2.1; show (0 : Int) ≤ pos.mColumn + 1; omega, ?_⟩
    show pos.mColumn + 1 ≤ GetLineMaxColumn e pos.mLine
    rw [hmax]; exact c8
  have hib : GetCharacterIndex e b = ((k + UTF8CharLength g.mChar : Nat) : Int) := by
    rw [GetCharacterIndex_eq e b hsb.1 hsb.2.1 (by rw [hb]; show Complete (lineAt e.mLines pos.mLine); rw [hx]; exact hcx)]
    rw [hb]
    show ((idxWalk e.mTabSize (pos.mColumn + 1) 0 (lineAt e.mLines pos.mLine) 0 : Nat) : Int) = _
    rw [hx, c7]
  have hdropk : x.drop (k + UTF8CharLength g.mChar) = suf := by
    have hlen2 : (x.take k ++ g :: tl).length = k + UTF8CharLength g.mChar := by
      have := UTF8CharLength_pos g.mChar
      simp [List.length_take]; omega
    conv_lhs => rw [c1]
    rw [← hlen2]
    have : x.take k ++ g :: (tl ++ suf) = (x.take k ++ g :: tl) ++ suf := by simp
    rw [this, drop_decomp]
  have hbne : b ≠ pos := by
    intro h
    have := congrArg Coordinates.mColumn h
    rw [hb] at this
    simp at this
  have hdel : (DeleteRange e pos b).mLines = pre ++ (x.take k ++ suf) :: post := by
    rw [DeleteRange_line e pos b pre x post k (k + UTF8CharLength g.mChar) hl hline
      (by rw [hb]) hbne hi hib
      (by
        intro hge
        rw [hdropk]
        apply c9
        rw [hb, hmax] at hge
        exact hge), hdropk]
  -- the text of the character
  have hspan : GetText e pos b = lineText (g :: tl) := by
    rw [GetText_span e pos b pre (x :: post) k (k + UTF8CharLength g.mChar) 0 hl hline
      (by rw [hb]; show pos.mLine = ((pre.length + 0 : Nat) : Int); simp [hline]) hi hib
      (by
        show k ≤ k + UTF8CharLength g.mChar ∧ k + UTF8CharLength g.mChar ≤ x.length
        refine ⟨by omega, ?_⟩
        have : (x.drop k).length = (g :: (tl ++ suf)).length := by rw [c2]
        have hp := UTF8CharLength_pos g.mChar
        simp at this
        omega)]
    show lineText ((x.drop k).take (k + UTF8CharLength g.mChar - k)) = _
    rw [c2, Nat.add_sub_cancel_left]
    have hp := UTF8CharLength_pos g.mChar
    have : (g :: (tl ++ suf)).take (UTF8CharLength g.mChar) = g :: tl := by
      have h2 : UTF8CharLength g.mChar = (g :: tl).length := by simp; omega
      rw [h2]
      have : g :: (tl ++ suf) = (g :: tl) ++ suf := by simp
      rw [this, take_decomp]
    rw [this]
  -- the editor after `SetCursorPosition`
  obtain ⟨e1, he1⟩ : ∃ e1, e1 = SetCursorPosition e pos := ⟨_, rfl⟩
  have e1lines : e1.mLines = e.mLines := by rw [he1]; exact SetCursorPosition_mLines e pos
  have e1log : logFrame e1 = logFrame e := by rw [he1]; exact SetCursorPosition_logFrame e pos
  have e1tab : e1.mTabSize = e.mTabSize := (logFrame_eq e1log).2.2.2.1
  have e1cur : GetActualCursorCoordinates e1 = pos := by
    unfold GetActualCursorCoordinates
    rw [he1, SetCursorPosition_mState]
    show SanitizeCoordinates (SetCursorPosition e pos) pos = pos
    rw [← he1]
    exact SanitizeCoordinates_of_sanitized e e1 pos hs e1lines e1tab
  have hemp : e.mLines.isEmpty = false := by
    cases h : e.mLines with
    | nil => exact absurd h hne
    | cons a b => rfl
  have herase : eraseChars k (UTF8CharLength g.mChar) x [] = (x.take k ++ suf, lineText (g :: tl)) := by
    have h2 : UTF8CharLength g.mChar = (g :: tl).length := by
      have hp := UTF8CharLength_pos g.mChar
      simp; omega
    have h3 : x = x.take k ++ (g :: tl) ++ suf := by
      conv_lhs => rw [c1]
      simp
    conv_lhs => rw [h2, h3]
    rw [eraseChars_spec k (g :: tl) (x.take k) suf [] (by rw [List.length_take]; omega)]
    simp
  have hdef : Delete e
      = AddUndo (Colorize
          { e1 with
            mLines := e1.mLines.set pos.mLine.toNat (x.take k ++ suf)
            mTextChanged := true
            mEvents := e1.mEvents ++ [Event.ContentUpdate] } pos.mLine 1)
          { mBefore := e.mState
            mRemovedStart := pos
            mRemovedEnd := b
            mRemoved := GetText e pos b
            mAfter := e1.mState } := by
    unfold Delete
    rw [if_neg (by rw [hemp]; simp)]
    simp only []
    rw [if_neg (by rw [hsel]; simp), ← hpos, ← he1]
    rw [GetLineMaxColumn_congr e1lines e1tab, if_neg hcol, e1cur,
      GetCharacterIndex_congr e1lines e1tab, GetText_congr e1lines e1tab, e1lines, hx, hi]
    simp only [Int.toNat_ofNat]
    rw [c3, herase, ← hb]
    rfl
  obtain ⟨b1, b2, b3⟩ := AddUndo_log e (Colorize
      { e1 with
        mLines := e1.mLines.set pos.mLine.toNat (x.take k ++ suf)
        mTextChanged := true
        mEvents := e1.mEvents ++ [Event.ContentUpdate] } pos.mLine 1)
    { mBefore := e.mState
      mRemovedStart := pos
      mRemovedEnd := b
      mRemoved := GetText e pos b
      mAfter := e1.mState } e1log hv
  rw [hdef]
  refine ⟨_, removal_faithful e _ pos b _ hv hc htab hnb hs hsb
    (by rw [hb]; exact le_same_line pos _ (by omega)) hnul hcr hvalid ?_ b3 b1 b2 rfl rfl rfl rfl
    rfl rfl⟩
  rw [hdel]
  show e1.mLines.set pos.mLine.toNat (x.take k ++ suf) = _
  rw [e1lines, hnat, hl, set_decomp]

theorem GetCharacterIndex_column_zero (e : TextEditor) (l : Int) : 
    0 ≤ l → l < e.mLines.length → GetCharacterIndex e ⟨l, 0⟩ = 0 := by
  intro h0 h1
  unfold GetCharacterIndex
  rw [if_neg (by simp; omega)]
  simp only []
  rw [GetCharacterIndex_loop_nonpos _ _ _ (le_refl _)]
  rfl

/-- At the end of a line that is not the last one, `Advance` goes to the start of the
next line. -/
theorem Advance_line_end (e : TextEditor) (p : Coordinates) (h1 : p.mLine < e.mLines.length)
    (hi : GetCharacterIndex e p = ((lineAt e.mLines p.mLine).length : Nat)) :
    Advance e p = ⟨p.mLine + 1, 0⟩ := by
  unfold Advance
  rw [if_pos h1]
  simp only []
  rw [hi, if_neg (by omega), GetCharacterColumn_zero]

/-- The text between the end of a line and the start of the next one is a line break,
and removing it joins the two lines. -/
theorem line_break_range (e : TextEditor) (pre : Lines) (x y : Line) (post : Lines)
    (a : Coordinates) (hl : e.mLines = pre ++ x :: y :: post) (hline : a.mLine = pre.length)
    (hi : GetCharacterIndex e a = (x.length : Nat)) :
    GetText e a ⟨a.mLine + 1, 0⟩ = [10]
      ∧ (DeleteRange e a ⟨a.mLine + 1, 0⟩).mLines = pre ++ (x ++ y) :: post := by
  have hlen : a.mLine + 1 < (e.mLines.length : Int) := by rw [hl, hline]; simp
  have hib : GetCharacterIndex e ⟨a.mLine + 1, 0⟩ = ((0 : Nat) : Int) :=
    GetCharacterIndex_column_zero e _ (by omega) hlen
  constructor
  · rw [GetText_span e a ⟨a.mLine + 1, 0⟩ pre (x :: y :: post) x.length 0 1 hl hline
      (by show a.mLine + 1 = ((pre.length + 1 : Nat) : Int); rw [hline]; simp) hi hib
      (by
        show x.length ≤ x.length ∧ (0 ≤ 0 ∧ 0 ≤ y.length)
        exact ⟨le_refl _, le_refl _, Nat.zero_le _⟩)]
    show lineText (x.drop x.length) ++ 10 :: lineText ((y.drop 0).take (0 - 0)) = _
    simp [lineText]
  · have := DeleteRange_cross_lines e a ⟨a.mLine + 1, 0⟩ pre [] post x y x.length 0
      (by rw [hl]; rfl) hline
      (by show a.mLine + 1 = ((pre.length + 1 + ([] : Lines).length : Nat) : Int); rw [hline]; simp)
      hi hib
    rw [this]
    simp

/-- `Delete` at the end of a line that is not the last one: the line break is removed. -/
theorem Delete_join_faithful (e : TextEditor) (hv : ValidLog e) (hne : e.mLines ≠ [])
    (hsel : HasSelection e = false)
    (h0 : 0 ≤ e.mState.mCursorPosition.mLine) (h1 : 0 ≤ e.mState.mCursorPosition.mColumn)
    (hc : ∀ line ∈ e.mLines, Complete line)
    (htab : ∀ line ∈ e.mLines, TabStopsDefined e.mTabSize line)
    (hnb : NoLineBreak e.mLines)
    (hcol : (GetActualCursorCoordinates e).mColumn
      = GetLineMaxColumn e (GetActualCursorCoordinates e).mLine)
    (hlast : (GetActualCursorCoordinates e).mLine ≠ (e.mLines.length : Int) - 1) :
    ∃ u, TextFaithful e (Delete e) u := by
  obtain ⟨pos, hpos⟩ : ∃ pos, pos = GetActualCursorCoordinates e := ⟨_, rfl⟩
  rw [← hpos] at hcol hlast
  have hs : Sanitized e pos := by
    rw [hpos]; exact SanitizeCoordinates_sanitized e _ hne h0 h1
  obtain ⟨pre, x, post, hl, hlen, hnat, hx, hcx, hi, hile, hmax⟩ :=
    sanitized_decomp e pos hs (hc _ (lineAt_mem _ _ hs.1 hs.2.1))
  have hxmem : x ∈ e.mLines := by rw [hl]; simp
  have htx := htab x hxmem
  have hline : pos.mLine = pre.length := hlen.symm
  have hidx : GetCharacterIndex e pos = (x.length : Nat) := by
    rw [hi, idxWalk_eq_length e.mTabSize pos.mColumn x hcx htx 0 (by rw [hcol, hmax])]
  obtain ⟨y, post2, hpost⟩ : ∃ y post2, post = y :: post2 := by
    cases post with
    | nil =>
      exfalso
      apply hlast
      rw [hl, hline]
      simp
    | cons y post2 => exact ⟨y, post2, rfl⟩
  subst hpost
  obtain ⟨r1, r2⟩ := line_break_range e pre x y post2 pos hl hline hidx
  obtain ⟨b, hb⟩ : ∃ b : Coordinates, b = ⟨pos.mLine + 1, 0⟩ := ⟨_, rfl⟩
  rw [← hb] at r1 r2
  have hblen : pos.mLine + 1 < (e.mLines.length : Int) := by rw [hl, hline]; simp
  have hsb : Sanitized e b := by
    rw [hb]
    exact ⟨by have := hs.1; show (0 : Int) ≤ pos.mLine + 1; omega, hblen, le_refl _,
      GetLineMaxColumn_nonneg e _⟩
  -- the editor after `SetCursorPosition`
  obtain ⟨e1, he1⟩ : ∃ e1, e1 = SetCursorPosition e pos := ⟨_, rfl⟩
  have e1lines : e1.mLines = e.mLines := by rw [he1]; exact SetCursorPosition_mLines e pos
  have e1log : logFrame e1 = logFrame e := by rw [he1]; exact SetCursorPosition_logFrame e pos
  have e1tab : e1.mTabSize = e.mTabSize := (logFrame_eq e1log).2.2.2.1
  have e1cur : GetActualCursorCoordinates e1 = pos := by
    unfold GetActualCursorCoordinates
    rw [he1, SetCursorPosition_mState]
    show SanitizeCoordinates (SetCursorPosition e pos) pos = pos
    rw [← he1]
    exact SanitizeCoordinates_of_sanitized e e1 pos hs e1lines e1tab
  have hemp : e.mLines.isEmpty = false := by
    cases h : e.mLines with
    | nil => exact absurd h hne
    | cons a b => rfl
  have hadv : Advance e1 pos = b := by
    rw [hb]
    apply Advance_line_end e1 pos (by rw [e1lines]; exact hs.2.1)
    rw [GetCharacterIndex_congr e1lines e1tab, e1lines, hx]
    exact hidx
  have hnext : lineAt e.mLines (pos.mLine + 1) = y := by
    rw [hl, hline]
    have : pre ++ x :: y :: post2 = (pre ++ [x]) ++ y :: post2 := by simp
    rw [this]
    have h2 : ((pre.length : Int) + 1) = (((pre ++ [x]).length : Nat) : Int) := by simp
    rw [h2, lineAt_append_length]
  obtain ⟨E0, hE0⟩ : ∃ E0, E0 = Colorize
      { RemoveLine { e1 with mLines := e1.mLines.set pos.mLine.toNat (x ++ y) } (pos.mLine + 1) with
        mTextChanged := true
        mEvents := (RemoveLine { e1 with mLines := e1.mLines.set pos.mLine.toNat (x ++ y) }
          (pos.mLine + 1)).mEvents ++ [Event.ContentUpdate] } pos.mLine 1 := ⟨_, rfl⟩
  have hdef : Delete e
      = AddUndo E0
          { mBefore := e.mState
            mRemoved := [10]
            mRemovedStart := pos
            mRemovedEnd := b
            mAfter := E0.mState } := by
    unfold Delete
    rw [if_neg (by rw [hemp]; simp)]
    simp only []
    rw [if_neg (by rw [hsel]; simp), ← hpos, ← he1]
    rw [GetLineMaxColumn_congr e1lines e1tab, if_pos hcol, e1lines, if_neg hlast, e1cur, hadv,
      hx, hnext, ← e1lines, hE0]
  have hlog : logFrame E0 = logFrame e := by
    rw [hE0]
    show logFrame (RemoveLine { e1 with mLines := e1.mLines.set pos.mLine.toNat (x ++ y) }
      (pos.mLine + 1)) = _
    rw [RemoveLine_logFrame]
    exact e1log
  obtain ⟨b1, b2, b3⟩ := AddUndo_log e E0
    { mBefore := e.mState
      mRemoved := [10]
      mRemovedStart := pos
      mRemovedEnd := b
      mAfter := E0.mState } hlog hv
  rw [hdef]
  refine ⟨_, removal_faithful e _ pos b _ hv hc htab hnb hs hsb
    (by rw [hb]; exact le_next_line _ _ (by show pos.mLine < pos.mLine + 1; omega))
    (by rw [r1]; simp) (by rw [r1]; simp) (by rw [r1]; decide) ?_ b3 b1 b2 rfl rfl rfl
    (by rw [r1]) rfl rfl⟩
  rw [r2, AddUndo_mLines, hE0]
  show (RemoveLine { e1 with mLines := e1.mLines.set pos.mLine.toNat (x ++ y) }
    (pos.mLine + 1)).mLines = _
  rw [RemoveLine_mLines]
  show (e1.mLines.set pos.mLine.toNat (x ++ y)).take (pos.mLine + 1).toNat
    ++ (e1.mLines.set pos.mLine.toNat (x ++ y)).drop ((pos.mLine + 1).toNat + 1) = _
  have hn1 : (pos.mLine + 1).toNat = pre.length + 1 := by omega
  rw [e1lines, hnat, hl, set_decomp, hn1]
  have h3 : pre ++ (x ++ y) :: y :: post2 = (pre ++ [x ++ y]) ++ y :: post2 := by simp
  have h4 : (pre ++ [x ++ y]).length = pre.length + 1 := by simp
  rw [h3, ← h4, take_decomp]
  have h5 : (pre ++ [x ++ y]) ++ y :: post2 = ((pre ++ [x ++ y]) ++ [y]) ++ post2 := by simp
  have h6 : ((pre ++ [x ++ y]) ++ [y]).length = (pre ++ [x ++ y]).length + 1 := by simp
  rw [h5, ← h6, drop_decomp]
  simp

/-! ## `Backspace` without a selection is faithfully logged -/

/-- `Backspace` at the start of a line that is not the first one: the line break before
the line is removed. -/
theorem Backspace_join_faithful (e : TextEditor) (hv : ValidLog e) (hne : e.mLines ≠ [])
    (hsel : HasSelection e = false)
    (h0 : 0 ≤ e.mState.mCursorPosition.mLine) (h1 : 0 ≤ e.mState.mCursorPosition.mColumn)
    (hc : ∀ line ∈ e.mLines, Complete line)
    (htab : ∀ line ∈ e.mLines, TabStopsDefined e.mTabSize line)
    (hnb : NoLineBreak e.mLines)
    (hcol : (GetActualCursorCoordinates e).mColumn = 0)
    (hfirst : (GetActualCursorCoordinates e).mLine ≠ 0) :
    ∃ u, TextFaithful e (Backspace e) u := by
  obtain ⟨pos, hpos⟩ : ∃ pos, pos = GetActualCursorCoordinates e := ⟨_, rfl⟩
  rw [← hpos] at hcol hfirst
  have hs : Sanitized e pos := by
    rw [hpos]; exact SanitizeCoordinates_sanitized e _ hne h0 h1
  obtain ⟨a, ha⟩ : ∃ a : Coordinates, a = ⟨pos.mLine - 1, GetLineMaxColumn e (pos.mLine - 1)⟩ :=
    ⟨_, rfl⟩
  have hsa : Sanitized e a := by
    rw [ha]
    exact ⟨by have := hs.1; show (0 : Int) ≤ pos.mLine - 1; omega,
      by have := hs.2.1; show pos.mLine - 1 < _; omega, GetLineMaxColumn_nonneg e _, le_refl _⟩
  obtain ⟨pre, xp, post, hl, hlen, hnat, hx, hcx, hi, hile, hmax⟩ :=
    sanitized_decomp e a hsa (hc _ (lineAt_mem _ _ hsa.1 hsa.2.1))
  have haline : a.mLine = pos.mLine - 1 := by rw [ha]
  have hacol : a.mColumn = GetLineMaxColumn e a.mLine := by rw [ha]
  have hxmem : xp ∈ e.mLines := by rw [hl]; simp
  have htx := htab xp hxmem
  have hline : a.mLine = pre.length := hlen.symm
  have hidx : GetCharacterIndex e a = (xp.length : Nat) := by
    rw [hi, idxWalk_eq_length e.mTabSize a.mColumn xp hcx htx 0 (by rw [hacol, hmax])]
  obtain ⟨x, post2, hpost⟩ : ∃ x post2, post = x :: post2 := by
    cases post with
    | nil =>
      exfalso
      have := hs.2.1
      rw [hl] at this
      simp at this
      omega
    | cons y post2 => exact ⟨y, post2, rfl⟩
  subst hpost
  obtain ⟨r1, r2⟩ := line_break_range e pre xp x post2 a hl hline hidx
  have hb : (⟨a.mLine + 1, 0⟩ : Coordinates) = pos := by
    have : a.mLine + 1 = pos.mLine := by rw [haline]; omega
    rw [this, ← hcol]
  rw [hb] at r1 r2
  -- the editor after `SetCursorPosition`
  obtain ⟨e1, he1⟩ : ∃ e1, e1 = SetCursorPosition e pos := ⟨_, rfl⟩
  have e1lines : e1.mLines = e.mLines := by rw [he1]; exact SetCursorPosition_mLines e pos
  have e1log : logFrame e1 = logFrame e := by rw [he1]; exact SetCursorPosition_logFrame e pos
  have e1tab : e1.mTabSize = e.mTabSize := (logFrame_eq e1log).2.2.2.1
  have e1state : e1.mState.mCursorPosition = pos := by
    rw [he1, SetCursorPosition_mState]
  have hemp : e.mLines.isEmpty = false := by
    cases h : e.mLines with
    | nil => exact absurd h hne
    | cons a b => rfl
  have hadv : Advance e1 a = pos := by
    rw [← hb]
    apply Advance_line_end e1 a (by rw [e1lines]; exact hsa.2.1)
    rw [GetCharacterIndex_congr e1lines e1tab, e1lines, hx]
    exact hidx
  have hprev : lineAt e.mLines (pos.mLine - 1) = xp := by rw [← haline]; exact hx
  have hcur : lineAt e.mLines pos.mLine = x := by
    have hp : pos.mLine = (((pre ++ [xp]).length : Nat) : Int) := by
      simp; omega
    rw [hl, hp]
    have : pre ++ xp :: x :: post2 = (pre ++ [xp]) ++ x :: post2 := by simp
    rw [this, lineAt_append_length]
  obtain ⟨J, hJ⟩ : ∃ J, J = Backspace.joinLine e1 pos e.mState := ⟨_, rfl⟩
  have hJu : J.2
      = { mBefore := e.mState, mRemoved := [10], mRemovedStart := a, mRemovedEnd := pos } := by
    rw [hJ]
    unfold Backspace.joinLine
    simp only []
    rw [GetLineMaxColumn_congr e1lines e1tab, ← ha, hadv]
  have hJlog : logFrame J.1 = logFrame e := by
    rw [hJ]
    unfold Backspace.joinLine
    simp only []
    rw [Colorize_logFrame, EnsureCursorVisible_logFrame]
    show logFrame (RemoveLine _ _) = _
    rw [RemoveLine_logFrame]
    exact e1log
  have hJlines : J.1.mLines = pre ++ (xp ++ x) :: post2 := by
    rw [hJ]
    unfold Backspace.joinLine
    simp only []
    rw [Colorize_mLines, EnsureCursorVisible_mLines]
    show (RemoveLine _ _).mLines = _
    rw [RemoveLine_mLines]
    show (e1.mLines.set (e1.mState.mCursorPosition.mLine - 1).toNat
        (lineAt e1.mLines (e1.mState.mCursorPosition.mLine - 1)
          ++ lineAt e1.mLines e1.mState.mCursorPosition.mLine)).take
          e1.mState.mCursorPosition.mLine.toNat
      ++ (e1.mLines.set (e1.mState.mCursorPosition.mLine - 1).toNat
        (lineAt e1.mLines (e1.mState.mCursorPosition.mLine - 1)
          ++ lineAt e1.mLines e1.mState.mCursorPosition.mLine)).drop
          (e1.mState.mCursorPosition.mLine.toNat + 1) = _
    rw [e1state, e1lines, hprev, hcur]
    have hn0 : (pos.mLine - 1).toNat = pre.length := by omega
    have hn1 : pos.mLine.toNat = pre.length + 1 := by omega
    rw [hn0, hn1, hl, set_decomp]
    have h3 : pre ++ (xp ++ x) :: x :: post2 = (pre ++ [xp ++ x]) ++ x :: post2 := by simp
    have h4 : (pre ++ [xp ++ x]).length = pre.length + 1 := by simp
    rw [h3, ← h4, take_decomp]
    have h5 : (pre ++ [xp ++ x]) ++ x :: post2 = ((pre ++ [xp ++ x]) ++ [x]) ++ post2 := by simp
    have h6 : ((pre ++ [xp ++ x]) ++ [x]).length = (pre ++ [xp ++ x]).length + 1 := by simp
    rw [h5, ← h6, drop_decomp]
    simp
  have hdef : Backspace e = Backspace.finish J.1 J.2 := by
    unfold Backspace
    rw [if_neg (by rw [hemp]; simp), if_neg (by rw [hsel]; simp)]
    simp only []
    rw [← hpos, ← he1, e1state, if_pos hcol, if_neg hfirst, ← hJ]
  obtain ⟨b1, b2, b3, b4, b5⟩ := Backspace_finish_log e J.1 J.2 hJlog hv
  rw [hdef]
  refine ⟨_, removal_faithful e _ a pos _ hv hc htab hnb hsa hs
    (le_next_line _ _ (by rw [haline]; omega))
    (by rw [r1]; simp) (by rw [r1]; simp) (by rw [r1]; decide) ?_ b3 b1 b2 ?_ b5.symm ?_ ?_ ?_ ?_⟩
  · rw [r2, b4, hJlines]
  · show J.2.mBefore = _; rw [hJu]
  · show J.2.mAdded = _; rw [hJu]
  · show J.2.mRemoved = _; rw [hJu, r1]
  · show J.2.mRemovedStart = _; rw [hJu]
  · show J.2.mRemovedEnd = _; rw [hJu]

theorem leadIndex_ascii (line : Line) (n : Nat) (h : (glyphAt line n).mChar < 128) :
    Backspace.leadIndex line n = n := by
  cases n with
  | zero => rfl
  | succ n =>
    simp only [Backspace.leadIndex]
    rw [if_neg]
    intro hs
    have := IsUTFSequence_ge _ hs
    omega

theorem eraseLoop_one (T : Nat) (i : Nat) (x : Line) (col : Int) (hi : i < x.length) :
    Backspace.eraseLoop T i x.length ((i : Int) + 1) x [] col col
      = (x.eraseIdx i, [(glyphAt x i).mChar],
          col - (if (glyphAt x i).mChar = 9 then (T : Int) else 1),
          col - (if (glyphAt x i).mChar = 9 then (T : Int) else 1)) := by
  obtain ⟨f, hf⟩ : ∃ f, x.length = f + 1 := ⟨x.length - 1, by omega⟩
  rw [hf]
  simp only [Backspace.eraseLoop]
  rw [if_pos ⟨by omega, by omega⟩]
  cases f with
  | zero => simp [Backspace.eraseLoop]
  | succ f =>
    simp only [Backspace.eraseLoop]
    rw [if_neg (by intro h; have := h.2; omega)]
    simp

/-- `Backspace` on a single ASCII character before the cursor that the code takes to be
as wide as it is: the lines, the log and the record. -/
theorem Backspace_erase_faithful (e : TextEditor) (hv : ValidLog e) (hne : e.mLines ≠ [])
    (hsel : HasSelection e = false)
    (h0 : 0 ≤ e.mState.mCursorPosition.mLine) (h1 : 0 ≤ e.mState.mCursorPosition.mColumn)
    (hc : ∀ line ∈ e.mLines, Complete line)
    (htab : ∀ line ∈ e.mLines, TabStopsDefined e.mTabSize line)
    (hnb : NoLineBreak e.mLines)
    (a : Coordinates) (ch : Nat)
    (hch : ch = (glyphAt (lineAt e.mLines (GetActualCursorCoordinates e).mLine)
      ((GetCharacterIndex e (GetActualCursorCoordinates e)).toNat - 1)).mChar)
    (ha : a = ⟨(GetActualCursorCoordinates e).mLine,
      (GetActualCursorCoordinates e).mColumn - (if ch = 9 then (e.mTabSize : Int) else 1)⟩)
    (hcol : (GetActualCursorCoordinates e).mColumn ≠ 0)
    (hatp : (GetActualCursorCoordinates e).mColumn
      = GetCharacterColumn e (GetActualCursorCoordinates e).mLine
          (GetCharacterIndex e (GetActualCursorCoordinates e)))
    (hata : a.mColumn = GetCharacterColumn e a.mLine (GetCharacterIndex e a))
    (hia : GetCharacterIndex e a + 1 = GetCharacterIndex e (GetActualCursorCoordinates e))
    (hch0 : 0 < ch) (hch128 : ch < 128) (hch13 : ch ≠ 13)
    (hpair : Backspace.deletePair (SetCursorPosition e (GetActualCursorCoordinates e))
        (lineAt e.mLines (GetActualCursorCoordinates e).mLine) (GetActualCursorCoordinates e)
      = SetCursorPosition e (GetActualCursorCoordinates e)) :
    ∃ u, TextFaithful e (Backspace e) u := by
  obtain ⟨pos, hpos⟩ : ∃ pos, pos = GetActualCursorCoordinates e := ⟨_, rfl⟩
  rw [← hpos] at hch ha hcol hatp hia hpair
  have hs : Sanitized e pos := by
    rw [hpos]; exact SanitizeCoordinates_sanitized e _ hne h0 h1
  obtain ⟨pre, x, post, hl, hlen, hnat, hx, hcx, hi, hile, hmax⟩ :=
    sanitized_decomp e pos hs (hc _ (lineAt_mem _ _ hs.1 hs.2.1))
  obtain ⟨k, hk⟩ : ∃ k, k = idxWalk e.mTabSize pos.mColumn 0 x 0 := ⟨_, rfl⟩
  rw [← hk] at hi hile
  rw [hx, hi] at hch
  simp only [Int.toNat_ofNat] at hch
  have hxmem : x ∈ e.mLines := by rw [hl]; simp
  have htx := htab x hxmem
  have hline : pos.mLine = pre.length := hlen.symm
  have haline : a.mLine = pos.mLine := by rw [ha]
  have hacol : a.mColumn = pos.mColumn - (if ch = 9 then (e.mTabSize : Int) else 1) := by rw [ha]
  have hcolk : pos.mColumn = (colWalk e.mTabSize 0 (x.take k) 0 : Nat) := by
    rw [hatp, hi, GetCharacterColumn_eq e pos.mLine _ hs.1 hs.2.1, hx]
    simp
  -- the index of `a` is `k - 1`
  have hk1 : 1 ≤ k := by
    have h2 : 0 ≤ GetCharacterIndex e a := by
      unfold GetCharacterIndex
      rw [haline, if_neg (by have := hs.1; have := hs.2.1; simp; omega)]
      exact Int.natCast_nonneg _
    rw [hi] at hia
    omega
  have hia2 : GetCharacterIndex e a = ((k - 1 : Nat) : Int) := by
    rw [hi] at hia
    omega
  have hpc : 0 ≤ pos.mColumn := hs.2.2.1
  have hw : (0 : Int) ≤ (if ch = 9 then (e.mTabSize : Int) else 1) := by
    split_ifs
    · exact Int.natCast_nonneg _
    · omega
  have hsa : Sanitized e a := by
    refine ⟨by rw [haline]; exact hs.1, by rw [haline]; exact hs.2.1, ?_, ?_⟩
    · rw [hata]
      unfold GetCharacterColumn
      split_ifs
      · exact le_refl _
      · exact Int.natCast_nonneg _
    · rw [haline, hacol]
      have := hs.2.2.2
      omega
  obtain ⟨bk1, bk2⟩ := idxWalk_boundary e.mTabSize pos.mColumn x hcx 0
  rw [← hk] at bk1 bk2
  have hdropk : pos.mColumn ≥ GetLineMaxColumn e a.mLine → x.drop k = [] := by
    intro hge
    by_contra hne2
    have h3 := colWalk_lt e.mTabSize (x.drop k) bk2 (TabStopsDefined_drop htx k) hne2
      (colWalk e.mTabSize 0 (x.take k) 0)
    have h4 : colWalk e.mTabSize 0 x 0
        = colWalk e.mTabSize 0 (x.drop k) (colWalk e.mTabSize 0 (x.take k) 0) := by
      conv_lhs => rw [← List.take_append_drop k x]
      rw [colWalk_concat _ _ bk1]
    rw [haline, hmax, h4, hcolk] at hge
    omega
  have hane : pos ≠ a := by
    intro h
    rw [← h, hi] at hia2
    omega
  have hdel : (DeleteRange e a pos).mLines = pre ++ (x.take (k - 1) ++ x.drop k) :: post :=
    DeleteRange_line e a pos pre x post (k - 1) k hl (by rw [haline]; exact hline) haline hane
      hia2 hi hdropk
  have hklen : k - 1 < x.length := by omega
  have hspan : GetText e a pos = [ch] := by
    rw [GetText_span e a pos pre (x :: post) (k - 1) k 0 hl (by rw [haline]; exact hline)
      (by show pos.mLine = ((pre.length + 0 : Nat) : Int); simp [hline]) hia2 hi
      (by
        show k - 1 ≤ k ∧ k ≤ x.length
        exact ⟨by omega, hile⟩)]
    show lineText ((x.drop (k - 1)).take (k - (k - 1))) = _
    have : k - (k - 1) = 1 := by omega
    rw [this, ← glyphAt_mChar x (k - 1) hklen, hch]
  -- the editor after `SetCursorPosition`
  obtain ⟨e1, he1⟩ : ∃ e1, e1 = SetCursorPosition e pos := ⟨_, rfl⟩
  rw [← he1, hx] at hpair
  have e1lines : e1.mLines = e.mLines := by rw [he1]; exact SetCursorPosition_mLines e pos
  have e1log : logFrame e1 = logFrame e := by rw [he1]; exact SetCursorPosition_logFrame e pos
  have e1tab : e1.mTabSize = e.mTabSize := (logFrame_eq e1log).2.2.2.1
  have e1state : e1.mState.mCursorPosition = pos := by
    rw [he1, SetCursorPosition_mState]
  have e1cur : GetActualCursorCoordinates e1 = pos := by
    unfold GetActualCursorCoordinates
    rw [e1state]
    exact SanitizeCoordinates_of_sanitized e e1 pos hs e1lines e1tab
  have hemp : e.mLines.isEmpty = false := by
    cases h : e.mLines with
    | nil => exact absurd h hne
    | cons a b => rfl
  obtain ⟨J, hJ⟩ : ∃ J, J = Backspace.eraseBefore e1 pos e.mState := ⟨_, rfl⟩
  have hlead : Backspace.leadIndex x (k - 1) = k - 1 :=
    leadIndex_ascii x (k - 1) (by rw [← hch]; exact hch128)
  have hloop := eraseLoop_one e.mTabSize (k - 1) x pos.mColumn hklen
  rw [← hch] at hloop
  have hkcast : (((k - 1 : Nat) : Int) + 1) = (k : Int) := by omega
  rw [hkcast] at hloop
  have hk2 : ((k : Int) - 1).toNat = k - 1 := by omega
  have hk3 : (k : Int) - 1 + 1 = (k : Int) := by omega
  have ha2 : a = ⟨pos.mLine, a.mColumn⟩ := by rw [← haline]
  have hJu : J.2 = { mBefore := e.mState, mRemoved := [ch], mRemovedStart := a, mRemovedEnd := pos } := by
    rw [hJ]
    unfold Backspace.eraseBefore
    simp only []
    simp only [e1state, e1lines, hx, hpair, e1cur, GetCharacterIndex_congr e1lines e1tab, hi,
      e1tab, hk2, hk3, hlead, hloop]
    rw [← hacol, ← ha2]
  have hJlog : logFrame J.1 = logFrame e := by
    rw [hJ]
    unfold Backspace.eraseBefore
    simp only []
    rw [Colorize_logFrame, EnsureCursorVisible_logFrame]
    simp only [e1state, e1lines, hx, hpair]
    exact e1log
  have hJlines : J.1.mLines = pre ++ (x.take (k - 1) ++ x.drop k) :: post := by
    rw [hJ]
    unfold Backspace.eraseBefore
    simp only []
    rw [Colorize_mLines, EnsureCursorVisible_mLines]
    simp only [e1state, e1lines, hx, hpair, e1cur, GetCharacterIndex_congr e1lines e1tab, hi,
      e1tab, hk2, hk3, hlead, hloop]
    show e.mLines.set pos.mLine.toNat (x.eraseIdx (k - 1)) = _
    rw [hnat, hl, set_decomp, List.eraseIdx_eq_take_drop_succ]
    have : k - 1 + 1 = k := by omega
    rw [this]
  have hdef : Backspace e = Backspace.finish J.1 J.2 := by
    unfold Backspace
    rw [if_neg (by rw [hemp]; simp), if_neg (by rw [hsel]; simp)]
    simp only []
    rw [← hpos, ← he1, e1state, if_neg hcol, ← hJ]
  obtain ⟨b1, b2, b3, b4, b5⟩ := Backspace_finish_log e J.1 J.2 hJlog hv
  rw [hdef]
  refine ⟨_, removal_faithful e _ a pos _ hv hc htab hnb hsa hs ?_
    (by rw [hspan]; simp; omega) (by rw [hspan]; simpa using hch13.symm)
    (by
      rw [hspan]
      unfold ValidUTF8
      simp [validFrom, UTF8CharLength_ascii ch hch128])
    ?_ b3 b1 b2 ?_ b5.symm ?_ ?_ ?_ ?_⟩
  · unfold Coordinates.le
    rw [haline]
    simp
    rw [hacol]; omega
  · rw [hdel, b4, hJlines]
  · show J.2.mBefore = _; rw [hJu]
  · show J.2.mAdded = _; rw [hJu]
  · show J.2.mRemoved = _; rw [hJu, hspan]
  · show J.2.mRemovedStart = _; rw [hJu]
  · show J.2.mRemovedEnd = _; rw [hJu]

/-! ## Records of an insertion -/

/-- The in/out position of a `Spliced` state is sanitized. -/
theorem Spliced_sanitized (X : TextEditor) (pre0 : Lines) (pfx sfx : Line) (post0 : Lines)
    (W : Coordinates) (K : Nat)
    (hS : Spliced X.mTabSize pre0 pfx sfx post0 X.mLines W K)
    (hsc : completeFrom 0 sfx = true) (hst : TabStopsDefined X.mTabSize sfx) :
    Sanitized X W := by
  obtain ⟨PRE, L, hl, hW, hK, hck, htk, hdrop, -⟩ := hS
  have h0 : (0 : Int) ≤ W.mLine := by rw [hW]; exact Int.natCast_nonneg _
  have h1 : W.mLine < X.mLines.length := by
    rw [hW, hl]; simp
  refine ⟨h0, h1, by rw [hW]; exact Int.natCast_nonneg _, ?_⟩
  rw [GetLineMaxColumn_eq X W.mLine h0 h1]
  have hline : lineAt X.mLines W.mLine = L := by
    rw [hW, hl]
    exact lineAt_append_length PRE L post0
  rw [hline]
  have h4 : colWalk X.mTabSize 0 L 0
      = colWalk X.mTabSize 0 (L.drop K) (colWalk X.mTabSize 0 (L.take K) 0) := by
    conv_lhs => rw [← List.take_append_drop K L]
    rw [colWalk_concat _ _ hck]
  rw [h4, hdrop, hW]
  have := le_colWalk X.mTabSize sfx hsc hst (colWalk X.mTabSize 0 (L.take K) 0)
  simp only [Int.ofNat_le]
  exact this

/-- The text `t` inserted at a character start `p`: the range from `p` to the position
that `InsertTextAt` returns is the inserted text, and that position is sanitized. -/
theorem InsertTextAt_end (e : TextEditor) (p : Coordinates) (t : List Nat)
    (hp : Sanitized e p) (hc : Complete (lineAt e.mLines p.mLine))
    (htab : TabStopsDefined e.mTabSize (lineAt e.mLines p.mLine))
    (hb : p.mColumn = GetCharacterColumn e p.mLine (GetCharacterIndex e p))
    (h0 : 0 ∉ t) (h9 : 9 ∉ t) (hv : ValidUTF8 t) (X : TextEditor)
    (hX : X.mLines = (InsertTextAt e p t false).1.mLines) (hT : X.mTabSize = e.mTabSize) :
    (DeleteRange X p (InsertTextAt e p t false).2.1).mLines = e.mLines
      ∧ Sanitized X (InsertTextAt e p t false).2.1 := by
  obtain ⟨pre, x, post, hl, hlen, hnat, hx, hcx, hia, hiale, _⟩ := sanitized_decomp e p hp hc
  have hbd := idxWalk_boundary e.mTabSize p.mColumn x hcx 0
  have htx : TabStopsDefined e.mTabSize x := by rw [← hx]; exact htab
  have hcol : p.mColumn
      = (colWalk e.mTabSize 0 (x.take (idxWalk e.mTabSize p.mColumn 0 x 0)) 0 : Nat) := by
    conv_lhs => rw [hb, hia, GetCharacterColumn_eq e p.mLine _ hp.1 hp.2.1, hx]
    simp
  have hplen : (x.take (idxWalk e.mTabSize p.mColumn 0 x 0)).length
      = idxWalk e.mTabSize p.mColumn 0 x 0 := by
    rw [List.length_take]; omega
  have hpeq : p = ⟨(pre.length : Int),
      (colWalk e.mTabSize 0 (x.take (idxWalk e.mTabSize p.mColumn 0 x 0)) 0 : Nat)⟩ := by
    cases p with
    | mk l c =>
      simp only [] at hlen hcol
      rw [← hlen, ← hcol]
  have hinit : Spliced e.mTabSize pre (x.take (idxWalk e.mTabSize p.mColumn 0 x 0))
      (x.drop (idxWalk e.mTabSize p.mColumn 0 x 0)) post e.mLines p
      (idxWalk e.mTabSize p.mColumn 0 x 0) :=
    ⟨pre, x, hl, hpeq, hiale, hbd.1, TabStopsDefined_take htx _, rfl,
      Or.inl ⟨rfl, by rw [hplen], by rw [hplen]⟩⟩
  obtain ⟨K2, hfin⟩ := InsertTextAt_loop_spliced e.mTabSize pre _ _ post 0 t.length t e p
    (idxWalk e.mTabSize p.mColumn 0 x 0) 0 0 (le_refl _) h0 h9 hv hinit
  have hfin2 : Spliced X.mTabSize pre
      (x.take (idxWalk e.mTabSize p.mColumn 0 x 0))
      (x.drop (idxWalk e.mTabSize p.mColumn 0 x 0)) post
      X.mLines (InsertTextAt e p t false).2.1 K2 := by
    rw [hT, hX]
    unfold InsertTextAt
    simp only [Bool.false_eq_true, if_false]
    rw [hia]
    exact hfin
  have key := DeleteRange_spliced X pre _ _ post _ K2 hfin2 hbd.1 hbd.2
    (by rw [hT]; exact TabStopsDefined_drop htx _)
  rw [hT, ← hpeq, List.take_append_drop, ← hl] at key
  exact ⟨key, Spliced_sanitized X pre _ _ post _ K2 hfin2 hbd.2
    (by rw [hT]; exact TabStopsDefined_drop htx _)⟩

/-- The record without its added text: what is left to undo once the added text is
removed. -/
theorem Undo_added (u : UndoRecord) (x : TextEditor) (hne : u.mAdded ≠ []) :
    u.Undo x = UndoRecord.Undo { u with mAdded := [] }
      (Colorize (DeleteRange x u.mAddedStart u.mAddedEnd) (u.mAddedStart.mLine - 1)
        (u.mAddedEnd.mLine - u.mAddedStart.mLine + 2)) := by
  unfold UndoRecord.Undo
  cases h : u.mAdded with
  | nil => exact absurd h hne
  | cons c r => simp

/-- Redoing a record with added text: the text goes into what the record without the
added text leaves. -/
theorem Redo_added (u : UndoRecord) (y : TextEditor) (hne : u.mAdded ≠ []) :
    SameText (u.Redo y)
      (InsertTextAt (UndoRecord.Redo { u with mAdded := [] } y) u.mAddedStart (cstr u.mAdded)
        false).1 := by
  unfold UndoRecord.Redo
  cases h : u.mAdded with
  | nil => exact absurd h hne
  | cons c r =>
    simp only [List.isEmpty_cons, Bool.not_false, if_true, List.isEmpty_nil, Bool.not_true,
      Bool.false_eq_true, if_false]
    refine (withState_sameText _ _).trans ?_
    refine (Colorize_sameText _ _ _).trans ?_
    exact (InsertTextAt_sameText (withState_sameText _ _).symm _ _).1

/-- A command that, after a removal logged by the record without its added text, inserts
the text `t` at a character start `p` of the document `M` left by the removal, and logs
`t`, `p` and the position returned by `InsertTextAt`: undoing gives back the text before
the command, redoing the text after it. -/
theorem insertion_logged (e M E : TextEditor) (u : UndoRecord) (p : Coordinates) (t : List Nat)
    (hU0 : ∀ x, SameText x M → SameText (UndoRecord.Undo { u with mAdded := [] } x) e)
    (hR0 : ∀ y, SameText y e → SameText (UndoRecord.Redo { u with mAdded := [] } y) M)
    (hp : Sanitized M p) (hc : Complete (lineAt M.mLines p.mLine))
    (htab : TabStopsDefined M.mTabSize (lineAt M.mLines p.mLine))
    (hb : p.mColumn = GetCharacterColumn M p.mLine (GetCharacterIndex M p))
    (h0 : 0 ∉ t) (h9 : 9 ∉ t) (hvt : ValidUTF8 t) (hne : t ≠ [])
    (hadd : u.mAdded = t) (hstart : u.mAddedStart = p)
    (hend : u.mAddedEnd = (InsertTextAt M p t false).2.1)
    (hE : SameText E (InsertTextAt M p t false).1) :
    (∀ x, SameText x E → SameText (u.Undo x) e)
      ∧ (∀ y, SameText y e → SameText (u.Redo y) E) := by
  constructor
  · intro x hx
    rw [Undo_added u x (by rw [hadd]; exact hne)]
    apply hU0
    refine (Colorize_sameText _ _ _).trans ?_
    rw [hstart, hend]
    refine (DeleteRange_sameText (hx.trans hE) _ _).trans ?_
    exact SameText_of_lines
      (InsertTextAt_end M p t hp hc htab hb h0 h9 hvt _ rfl (InsertTextAt_mTabSize M p t false)).1
      (by rw [DeleteRange_mTabSize, InsertTextAt_mTabSize])
  · intro y hy
    refine (Redo_added u y (by rw [hadd]; exact hne)).trans ?_
    rw [hstart, hadd, cstr_of_not_mem t h0]
    exact (InsertTextAt_sameText (hR0 y hy) p t).1.trans hE.symm

/-! ## `Paste` is faithfully logged -/

/-- The lines left by the removal of the range between two sanitized positions, with
the lines that the range starts and ends on. -/
theorem range_removed_line (e : TextEditor) (a b : Coordinates)
    (hc : ∀ line ∈ e.mLines, Complete line)
    (htab : ∀ line ∈ e.mLines, TabStopsDefined e.mTabSize line)
    (ha : Sanitized e a) (hb : Sanitized e b) (hab : a.le b = true) :
    ∃ (pre : Lines) (xa xb : Line) (post : Lines) (ia ib : Nat),
      a.mLine = pre.length ∧ ia = idxWalk e.mTabSize a.mColumn 0 xa 0
        ∧ completeFrom 0 xa = true ∧ completeFrom 0 (xb.drop ib) = true
        ∧ a.mColumn ≤ (colWalk e.mTabSize 0 xa 0 : Nat)
        ∧ (DeleteRange e a b).mLines = pre ++ (xa.take ia ++ xb.drop ib) :: post
        ∧ xa = lineAt e.mLines a.mLine ∧ xa ∈ e.mLines ∧ xb ∈ e.mLines := by
  obtain ⟨pre, x, rest, hl, hlen, hnat, hx, hcx, hia, hiale, hmaxa⟩ :=
    sanitized_decomp e a ha (hc _ (lineAt_mem _ _ ha.1 ha.2.1))
  obtain ⟨pre', y, post, hl', hlen', hnat', hy, hcy, hib, hible, hmaxb⟩ :=
    sanitized_decomp e b hb (hc _ (lineAt_mem _ _ hb.1 hb.2.1))
  have hcola : a.mColumn ≤ (colWalk e.mTabSize 0 x 0 : Nat) := by
    rw [← hmaxa]; exact ha.2.2.2
  have hdropb := (idxWalk_boundary e.mTabSize b.mColumn y hcy 0).2
  unfold Coordinates.le at hab
  by_cases hline : a.mLine = b.mLine
  · -- the range lies inside one line
    have hpre : pre = pre' := by
      have h1 : pre'.length = pre.length := by omega
      have := hl.symm.trans hl'
      exact (List.append_inj this h1.symm).1
    subst hpre
    have hxy : y = x := by rw [← hy, ← hx, hline]
    subst hxy
    have hpost : post = rest := by
      have := hl.symm.trans hl'
      simpa using this.symm
    subst hpost
    rw [if_neg (by simpa using hline)] at hab
    have hcol : a.mColumn ≤ b.mColumn := by simpa using hab
    have hmono := idxWalk_mono e.mTabSize a.mColumn b.mColumn hcol 0 y 0
    have htext : GetText e a b
        = lineText ((y.drop (idxWalk e.mTabSize a.mColumn 0 y 0)).take
            (idxWalk e.mTabSize b.mColumn 0 y 0 - idxWalk e.mTabSize a.mColumn 0 y 0)) := by
      rw [GetText_span e a b pre (y :: post) _ _ 0 hl hlen.symm (by rw [← hlen']; simp) hia hib
        ⟨hmono, hible⟩]
      rfl
    refine ⟨pre, y, y, post, _, idxWalk e.mTabSize b.mColumn 0 y 0, hlen.symm, rfl, hcx, hdropb,
      hcola, ?_, hx.symm, by rw [hl]; simp, by rw [hl]; simp⟩
    · by_cases heq : b = a
      · rw [heq]
        unfold DeleteRange
        rw [if_pos rfl, hl, List.take_append_drop]
      · rw [DeleteRange_mLines_same e a b heq hline, hx, hia, hib, hmaxa, hnat, hl, set_decomp]
        simp only [Int.toNat_ofNat]
        split_ifs with hge
        · have hfull := idxWalk_eq_length e.mTabSize b.mColumn y hcy
            (htab y (by rw [hl]; simp)) 0 hge
          rw [hfull, List.drop_length, List.append_nil]
        · rfl
  · -- the range spans several lines
    rw [if_pos (by simpa using hline)] at hab
    have hlt : a.mLine < b.mLine := by simpa using hab
    have hrest : ∃ mid, rest = mid ++ y :: post ∧ pre' = pre ++ x :: mid := by
      have hlen2 : pre.length + 1 ≤ pre'.length := by omega
      have heq := hl.symm.trans hl'
      refine ⟨(pre'.drop (pre.length + 1)), ?_, ?_⟩
      · have h1 : (pre ++ x :: rest).drop (pre.length + 1) = rest := by
          have : pre ++ x :: rest = (pre ++ [x]) ++ rest := by simp
          rw [this]
          have hl1 : (pre ++ [x]).length = pre.length + 1 := by simp
          rw [← hl1, drop_decomp]
        rw [← h1, heq, List.drop_append_of_le_length hlen2]
      · have h2 : (pre' ++ y :: post).take (pre.length + 1) = pre'.take (pre.length + 1) :=
          List.take_append_of_le_length hlen2
        have h3 : (pre ++ x :: rest).take (pre.length + 1) = pre ++ [x] := by
          have : pre ++ x :: rest = (pre ++ [x]) ++ rest := by simp
          rw [this]
          have hl1 : (pre ++ [x]).length = pre.length + 1 := by simp
          rw [← hl1, take_decomp]
        rw [heq, h2] at h3
        have := List.take_append_drop (pre.length + 1) pre'
        rw [h3] at this
        simpa using this.symm
    obtain ⟨mid, hmid, hpre'⟩ := hrest
    subst hmid
    subst hpre'
    have hbnat : b.mLine.toNat = pre.length + 1 + mid.length := by
      rw [hnat']; simp; omega
    have hmlines : (DeleteRange e a b).mLines
        = pre ++ (x.take (idxWalk e.mTabSize a.mColumn 0 x 0)
            ++ y.drop (idxWalk e.mTabSize b.mColumn 0 y 0)) :: post := by
      rw [DeleteRange_mLines_cross e a b hlt, hx, hy, hia, hib]
      simp only [Int.toNat_ofNat]
      have h1 : (a.mLine + 1).toNat = pre.length + 1 := by omega
      have h2 : (b.mLine + 1).toNat = pre.length + 1 + mid.length + 1 := by omega
      rw [h1, h2, hnat, hbnat, hl]
      exact cross_lines pre mid post x y _ _
    have htext : GetText e a b
        = lineText (x.drop (idxWalk e.mTabSize a.mColumn 0 x 0))
            ++ 10 :: (joinPre mid ++ lineText (y.take (idxWalk e.mTabSize b.mColumn 0 y 0))) := by
      rw [GetText_span e a b pre (x :: (mid ++ y :: post)) _ _ (mid.length + 1) hl hlen.symm
        (by rw [← hlen']; simp) hia hib ⟨hiale, spanOK_decomp mid y post _ hible⟩]
      simp only [spanText]
      rw [spanText_decomp]
    exact ⟨pre, x, y, post, _, _, hlen.symm, rfl, hcx, hdropb, hcola, hmlines, hx.symm,
      by rw [hl]; simp, by rw [hl]; simp⟩

/-- After the removal of a range that starts at a character start, the start of the
range is a sanitized position at a character start of the document that is left. -/
theorem removed_insertable (e M : TextEditor) (a b : Coordinates)
    (hc : ∀ line ∈ e.mLines, Complete line)
    (htab : ∀ line ∈ e.mLines, TabStopsDefined e.mTabSize line)
    (ha : Sanitized e a) (hb : Sanitized e b) (hab : a.le b = true)
    (hat : a.mColumn = GetCharacterColumn e a.mLine (GetCharacterIndex e a))
    (hM : M.mLines = (DeleteRange e a b).mLines) (hT : M.mTabSize = e.mTabSize) :
    Sanitized M a ∧ Complete (lineAt M.mLines a.mLine)
      ∧ TabStopsDefined M.mTabSize (lineAt M.mLines a.mLine)
      ∧ a.mColumn = GetCharacterColumn M a.mLine (GetCharacterIndex M a) := by
  obtain ⟨pre, xa, xb, post, ia, ib, r1, r2, r3, r4, r5, r6, r7, r8, r9⟩ :=
    range_removed_line e a b hc htab ha hb hab
  obtain ⟨bk1, bk2⟩ := idxWalk_boundary e.mTabSize a.mColumn xa r3 0
  rw [← r2] at bk1 bk2
  have hta : TabStopsDefined e.mTabSize (xa.take ia) := TabStopsDefined_take (htab xa r8) ia
  have htb : TabStopsDefined e.mTabSize (xb.drop ib) := TabStopsDefined_drop (htab xb r9) ib
  have hidx : GetCharacterIndex e a = (ia : Nat) := by
    obtain ⟨pre2, x, post2, hl, hlen, hnat, hx, hcx, hia, hiale, hmax⟩ :=
      sanitized_decomp e a ha (hc _ (lineAt_mem _ _ ha.1 ha.2.1))
    rw [hia, r2, r7, hx]
  have hcol : a.mColumn = (colWalk e.mTabSize 0 (xa.take ia) 0 : Nat) := by
    conv_lhs => rw [hat, hidx, GetCharacterColumn_eq e a.mLine _ ha.1 ha.2.1, ← r7]
    simp
  have hl : M.mLines = pre ++ (xa.take ia ++ xb.drop ib) :: post := by rw [hM, r6]
  have hline : lineAt M.mLines a.mLine = xa.take ia ++ xb.drop ib := by
    rw [hl, r1]
    exact lineAt_append_length _ _ _
  have h0 : (0 : Int) ≤ a.mLine := ha.1
  have h1 : a.mLine < M.mLines.length := by
    rw [hl, r1]; simp
  have hidxM : GetCharacterIndex M a = ((xa.take ia).length : Nat) :=
    GetCharacterIndex_after M a pre post _ _ hl r1 (by rw [hT]; exact hcol) bk1 r4
      (by rw [hT]; exact hta)
  refine ⟨⟨h0, h1, ha.2.2.1, ?_⟩, ?_, ?_, ?_⟩
  · rw [GetLineMaxColumn_eq M a.mLine h0 h1, hline, hT, colWalk_concat _ _ bk1, hcol]
    have := le_colWalk e.mTabSize (xb.drop ib) r4 htb (colWalk e.mTabSize 0 (xa.take ia) 0)
    simp only [Int.ofNat_le]
    exact this
  · rw [hline]
    unfold Complete
    rw [complete_append _ _ bk1]
    exact r4
  · rw [hline, hT]
    exact TabStopsDefined_append hta htb
  · rw [hidxM, GetCharacterColumn_eq M a.mLine _ h0 h1, hline, hT]
    simp only [Int.toNat_ofNat, List.take_left']
    exact hcol

theorem InsertText_mLines (e : TextEditor) (t : List Nat) (indent : Bool) :
    (InsertText e t indent).mLines
      = (InsertTextAt e (GetActualCursorCoordinates e) t indent).1.mLines := by
  unfold InsertText
  simp only []
  rw [Colorize_mLines, SetCursorPosition_mLines, SetSelection_mLines]

theorem InsertText_cursor (e : TextEditor) (t : List Nat) (indent : Bool) :
    (InsertText e t indent).mState.mCursorPosition
      = (InsertTextAt e (GetActualCursorCoordinates e) t indent).2.1 := by
  unfold InsertText
  simp only []
  rw [Colorize_mState, SetCursorPosition_mState]

/-- The cursor that `InsertText` leaves after a tab-free text put at a character start:
the position returned by `InsertTextAt`, which is sanitized. -/
theorem InsertText_actual_cursor (e : TextEditor) (t : List Nat)
    (hp : Sanitized e (GetActualCursorCoordinates e))
    (hc : Complete (lineAt e.mLines (GetActualCursorCoordinates e).mLine))
    (htab : TabStopsDefined e.mTabSize (lineAt e.mLines (GetActualCursorCoordinates e).mLine))
    (hb : (GetActualCursorCoordinates e).mColumn
      = GetCharacterColumn e (GetActualCursorCoordinates e).mLine
          (GetCharacterIndex e (GetActualCursorCoordinates e)))
    (h0 : 0 ∉ t) (h9 : 9 ∉ t) (hv : ValidUTF8 t) :
    GetActualCursorCoordinates (InsertText e t false)
      = (InsertTextAt e (GetActualCursorCoordinates e) t false).2.1 := by
  have hT : (InsertText e t false).mTabSize = e.mTabSize :=
    (logFrame_eq (InsertText_logFrame e t false)).2.2.2.1
  have hs := (InsertTextAt_end e _ t hp hc htab hb h0 h9 hv (InsertText e t false)
    (InsertText_mLines e t false) hT).2
  unfold GetActualCursorCoordinates at hs ⊢
  rw [InsertText_cursor]
  exact SanitizeCoordinates_of_sanitized _ _ _ hs rfl rfl

theorem cstr_no_nul (s : List Nat) : 0 ∉ cstr s := by
  unfold cstr
  intro h
  have := List.mem_takeWhile_imp h
  simp at this

/-- A record that removes nothing and adds nothing leaves the text alone. -/
theorem Undo_nothing (u : UndoRecord) (x : TextEditor) (hadd : u.mAdded = [])
    (hrem : u.mRemoved = []) : SameText (u.Undo x) x := by
  refine ⟨?_, UndoRecord_Undo_mTabSize u x⟩
  rw [Undo_removed_mLines u x hadd, if_pos hrem]

theorem Redo_nothing (u : UndoRecord) (x : TextEditor) (hadd : u.mAdded = [])
    (hrem : u.mRemoved = []) : SameText (u.Redo x) x := by
  refine ⟨?_, UndoRecord_Redo_mTabSize u x⟩
  rw [Redo_removed_mLines u x hadd, if_pos hrem]

/-! ## Auto-indent and text without a line break -/

theorem insertChars_unread (d : Nat) : ∀ (t : List Nat) (line : Line) (ci : Int) (c : Nat),
    c ∈ (InsertTextAt.insertChars d t line ci).2.2 → c ∈ t := by
  induction d with
  | zero => intro t line ci c h; exact h
  | succ d ih =>
    intro t line ci c h
    cases t with
    | nil => exact h
    | cons a rest =>
      simp only [InsertTextAt.insertChars] at h
      split_ifs at h
      · exact h
      · exact List.mem_cons_of_mem _ (ih _ _ _ _ h)

/-- On a text without a line break the loop of `InsertTextAt` does the same with and
without `indent`. -/
theorem InsertTextAt_loop_oneLine : ∀ (fuel : Nat) (t : List Nat) (e : TextEditor)
    (w : Coordinates) (ci tl s s2 ai ai2 : Int), 10 ∉ t →
    InsertTextAt.loop true s fuel t e w ci tl ai
      = InsertTextAt.loop false s2 fuel t e w ci tl ai2 := by
  intro fuel
  induction fuel with
  | zero => intro t e w ci tl s s2 ai ai2 _; rfl
  | succ fuel ih =>
    intro t e w ci tl s s2 ai ai2 h
    cases t with
    | nil => rfl
    | cons c rest =>
      have hc : c ≠ 10 := fun hc => h (by rw [hc]; exact List.mem_cons_self _ _)
      have hrest : 10 ∉ rest := fun hm => h (List.mem_cons_of_mem _ hm)
      simp only [InsertTextAt.loop]
      by_cases h0 : c = 0
      · rw [if_pos h0, if_pos h0]
      · rw [if_neg h0, if_neg h0]
        by_cases h13 : c = 13
        · rw [if_pos h13, if_pos h13]
          exact ih rest e w ci tl s s2 ai ai2 hrest
        · rw [if_neg h13, if_neg h13, if_neg hc, if_neg hc]
          exact ih _ _ _ _ _ s s2 _ _
            (fun hm => h (insertChars_unread _ _ _ _ _ hm))

theorem InsertTextAt_oneLine (e : TextEditor) (p : Coordinates) (t : List Nat) (h : 10 ∉ t) :
    InsertTextAt e p t true = InsertTextAt e p t false := by
  unfold InsertTextAt
  simp only [if_true, Bool.false_eq_true, if_false]
  rw [InsertTextAt_loop_oneLine t.length t e p _ 0 _ 0 _ 0 h]

theorem InsertText_oneLine (e : TextEditor) (t : List Nat) (h : 10 ∉ t) (indent : Bool) :
    InsertText e t indent = InsertText e t false := by
  cases indent with
  | false => rfl
  | true =>
    unfold InsertText
    simp only [InsertTextAt_oneLine e _ t h]

/-- `Paste` without a selection of a tab-free valid UTF-8 clipboard text at a character
start, with auto-indent off or a text of one line, is faithfully logged. -/
theorem Paste_insert_faithful (e : TextEditor) (clip : List Nat) (hv : ValidLog e)
    (hclip : e.mClipboard = some clip) (hlen : cstr clip ≠ [])
    (hind : e.mAutoindentOnPaste = false ∨ 10 ∉ cstr clip)
    (hsel : HasSelection e = false)
    (hp : Sanitized e (GetActualCursorCoordinates e))
    (hc : Complete (lineAt e.mLines (GetActualCursorCoordinates e).mLine))
    (htab : TabStopsDefined e.mTabSize (lineAt e.mLines (GetActualCursorCoordinates e).mLine))
    (hb : (GetActualCursorCoordinates e).mColumn
      = GetCharacterColumn e (GetActualCursorCoordinates e).mLine
          (GetCharacterIndex e (GetActualCursorCoordinates e)))
    (h9 : 9 ∉ cstr clip) (hvalid : ValidUTF8 (cstr clip)) :
    ∃ u, TextFaithful e (Paste e) u := by
  have h0 := cstr_no_nul clip
  have hI : InsertText e (cstr clip) e.mAutoindentOnPaste = InsertText e (cstr clip) false := by
    rcases hind with h | h
    · rw [h]
    · exact InsertText_oneLine e _ h _
  have hdef : Paste e = AddUndo (InsertText e (cstr clip) false)
      { mBefore := e.mState, mAdded := cstr clip, mAddedStart := GetActualCursorCoordinates e,
        mAddedEnd := GetActualCursorCoordinates (InsertText e (cstr clip) false),
        mAfter := (InsertText e (cstr clip) false).mState } := by
    unfold Paste
    rw [if_neg (by rw [hv.1]; simp), hclip]
    simp only []
    rw [if_pos (by
      cases h : cstr clip with
      | nil => exact absurd h hlen
      | cons a b => simp)]
    simp only [hsel, Bool.false_eq_true, if_false, hI]
  have hlog := InsertText_logFrame e (cstr clip) false
  obtain ⟨b1, b2, b3⟩ := AddUndo_log e (InsertText e (cstr clip) false)
    { mBefore := e.mState, mAdded := cstr clip, mAddedStart := GetActualCursorCoordinates e,
      mAddedEnd := GetActualCursorCoordinates (InsertText e (cstr clip) false),
      mAfter := (InsertText e (cstr clip) false).mState } hlog hv
  rw [hdef]
  obtain ⟨k1, k2⟩ := insertion_logged e e (InsertText e (cstr clip) false)
    { mBefore := e.mState, mAdded := cstr clip, mAddedStart := GetActualCursorCoordinates e,
      mAddedEnd := GetActualCursorCoordinates (InsertText e (cstr clip) false),
      mAfter := (InsertText e (cstr clip) false).mState }
    (GetActualCursorCoordinates e) (cstr clip)
    (fun x hx => (Undo_nothing _ x rfl rfl).trans hx)
    (fun y hy => (Redo_nothing _ y rfl rfl).trans hy)
    hp hc htab hb h0 h9 hvalid hlen rfl rfl
    (InsertText_actual_cursor e (cstr clip) hp hc htab hb h0 h9 hvalid)
    (SameText_of_lines (InsertText_mLines e (cstr clip) false)
      (by rw [(logFrame_eq hlog).2.2.2.1, InsertTextAt_mTabSize]))
  exact ⟨_, hv, b1, b2, b3, rfl, rfl, fun x hx => k1 x ⟨hx.1, hx.2⟩,
    fun y hy => (k2 y hy).trans ⟨rfl, rfl⟩⟩

/-- The cursor that `DeleteSelection` leaves: the selection start, when that is a
sanitized position of the document that is left. -/
theorem DeleteSelection_cursor (e : TextEditor) (hsel : HasSelection e = true)
    (hS : Sanitized (DeleteSelection e) e.mState.mSelectionStart) :
    GetActualCursorCoordinates (DeleteSelection e) = e.mState.mSelectionStart := by
  have hT : (DeleteSelection e).mTabSize = e.mTabSize := DeleteSelection_mTabSize e
  have hL := DeleteSelection_mLines e
  have hne : e.mState.mSelectionEnd ≠ e.mState.mSelectionStart := by
    intro h
    unfold HasSelection at hsel
    rw [h] at hsel
    unfold Coordinates.gt at hsel
    simp at hsel
  have hst : (DeleteRange e e.mState.mSelectionStart e.mState.mSelectionEnd).mState = e.mState :=
    (editFrame_eq (DeleteRange_editFrame e _ _)).1
  have hsan : SanitizeCoordinates (DeleteRange e e.mState.mSelectionStart e.mState.mSelectionEnd)
      e.mState.mSelectionStart = e.mState.mSelectionStart :=
    SanitizeCoordinates_of_sanitized _ _ _ hS hL.symm
      (by rw [hT, DeleteRange_mTabSize])
  have hcur : (DeleteSelection e).mState.mCursorPosition = e.mState.mSelectionStart := by
    unfold DeleteSelection
    rw [if_neg hne]
    simp only []
    rw [Colorize_mState, SetCursorPosition_mState]
    show (SetSelection _ _ _ _).mState.mSelectionStart = _
    unfold SetSelection
    simp only [hst, hsan]
    split_ifs <;> rfl
  unfold GetActualCursorCoordinates
  rw [hcur]
  exact SanitizeCoordinates_of_sanitized _ _ _ hS rfl rfl

/-- `Paste` over a removable selection that starts at a character start, of a tab-free
valid UTF-8 clipboard text, with auto-indent off or a text of one line, is faithfully
logged. -/
theorem Paste_replace_faithful (e : TextEditor) (clip : List Nat) (hv : ValidLog e)
    (hclip : e.mClipboard = some clip) (hlen : cstr clip ≠ [])
    (hind : e.mAutoindentOnPaste = false ∨ 10 ∉ cstr clip)
    (hs : RemovableSelection e) (hnb : NoLineBreak e.mLines)
    (hb : e.mState.mSelectionStart.mColumn
      = GetCharacterColumn e e.mState.mSelectionStart.mLine
          (GetCharacterIndex e e.mState.mSelectionStart))
    (h9 : 9 ∉ cstr clip) (hvalid : ValidUTF8 (cstr clip)) :
    ∃ u, TextFaithful e (Paste e) u := by
  have h0 := cstr_no_nul clip
  obtain ⟨hsel, ha, hbs, hc, htabs, hnul, hcr, hval⟩ := hs
  have hab := (gt_le _ _ hsel).1
  obtain ⟨M, hM⟩ : ∃ M, M = DeleteSelection e := ⟨_, rfl⟩
  have hMlog : logFrame M = logFrame e := by rw [hM]; exact DeleteSelection_logFrame e
  have hMT : M.mTabSize = e.mTabSize := (logFrame_eq hMlog).2.2.2.1
  have hML : M.mLines = (DeleteRange e e.mState.mSelectionStart e.mState.mSelectionEnd).mLines := by
    rw [hM]; exact DeleteSelection_mLines e
  have hMind : InsertText M (cstr clip) M.mAutoindentOnPaste
      = InsertText M (cstr clip) false := by
    rcases hind with h | h
    · have := hMlog
      simp only [logFrame, Prod.mk.injEq] at this
      rw [this.2.2.2.2.2.2.2.2.1, h]
    · exact InsertText_oneLine M _ h _
  obtain ⟨m1, m2, m3, m4⟩ := removed_insertable e M _ _ hc htabs ha hbs hab hb hML hMT
  have hcur : GetActualCursorCoordinates M = e.mState.mSelectionStart := by
    rw [hM]
    exact DeleteSelection_cursor e hsel (by rw [← hM]; exact m1)
  obtain ⟨E1, hE1⟩ : ∃ E1, E1 = InsertText M (cstr clip) false := ⟨_, rfl⟩
  obtain ⟨u, hu⟩ : ∃ u : UndoRecord, u =
      { mBefore := e.mState, mRemoved := GetSelectedText e,
        mRemovedStart := e.mState.mSelectionStart, mRemovedEnd := e.mState.mSelectionEnd,
        mAdded := cstr clip, mAddedStart := GetActualCursorCoordinates M,
        mAddedEnd := GetActualCursorCoordinates E1, mAfter := E1.mState } := ⟨_, rfl⟩
  have hdef : Paste e = AddUndo E1 u := by
    unfold Paste
    rw [if_neg (by rw [hv.1]; simp), hclip]
    simp only []
    rw [if_pos (by
      cases h : cstr clip with
      | nil => exact absurd h hlen
      | cons a b => simp)]
    simp only [hsel, if_true]
    rw [← hM, hMind, ← hE1, hu]
  have hlog : logFrame E1 = logFrame e := by
    rw [hE1]; exact (InsertText_logFrame M (cstr clip) false).trans hMlog
  obtain ⟨b1, b2, b3⟩ := AddUndo_log e E1 u hlog hv
  rw [hdef]
  have hMD : SameText M (DeleteRange e e.mState.mSelectionStart e.mState.mSelectionEnd) :=
    SameText_of_lines hML (by rw [hMT, DeleteRange_mTabSize])
  have hp2 : Sanitized M (GetActualCursorCoordinates M) := by rw [hcur]; exact m1
  have hc2 : Complete (lineAt M.mLines (GetActualCursorCoordinates M).mLine) := by
    rw [hcur]; exact m2
  have ht2 : TabStopsDefined M.mTabSize (lineAt M.mLines (GetActualCursorCoordinates M).mLine) := by
    rw [hcur]; exact m3
  have hb2 : (GetActualCursorCoordinates M).mColumn
      = GetCharacterColumn M (GetActualCursorCoordinates M).mLine
          (GetCharacterIndex M (GetActualCursorCoordinates M)) := by
    rw [hcur]; exact m4
  obtain ⟨k1, k2⟩ := insertion_logged e M E1 u (GetActualCursorCoordinates M) (cstr clip)
    (fun x hx => undo_removed_sameText e _ _ _ x hc htabs hnb ha hbs hab (hx.trans hMD)
      (by rw [hu]) (by rw [hu]; rfl) (by rw [hu]) hnul hcr hval)
    (fun y hy => (redo_removed_sameText e _ _ _ y hc htabs hnb ha hbs hab hy
      (by rw [hu]) (by rw [hu]; rfl) (by rw [hu]) (by rw [hu])).trans hMD.symm)
    hp2 hc2 ht2 hb2 h0 h9 hvalid hlen (by rw [hu]) (by rw [hu])
    (by
      rw [hu]
      show GetActualCursorCoordinates E1 = _
      rw [hE1]
      exact InsertText_actual_cursor M (cstr clip) hp2 hc2 ht2 hb2 h0 h9 hvalid)
    (by
      rw [hE1]
      exact SameText_of_lines (InsertText_mLines M (cstr clip) false)
        (by rw [(logFrame_eq (InsertText_logFrame M (cstr clip) false)).2.2.2.1,
          InsertTextAt_mTabSize]))
  exact ⟨u, hv, b1, b2, b3, by rw [hu], by rw [hu]; rfl, fun x hx => k1 x ⟨hx.1, hx.2⟩,
    fun y hy => (k2 y hy).trans ⟨rfl, rfl⟩⟩

/-! ## Typing a character: the general case -/

theorem undo_added_logged (e M E : TextEditor) (u : UndoRecord)
    (hU0 : ∀ x, SameText x M → SameText (UndoRecord.Undo { u with mAdded := [] } x) e)
    (hne : u.mAdded ≠ [])
    (hdel : SameText (DeleteRange E u.mAddedStart u.mAddedEnd) M) :
    ∀ x, SameText x E → SameText (u.Undo x) e := by
  intro x hx
  rw [Undo_added u x hne]
  apply hU0
  exact ((Colorize_sameText _ _ _).trans (DeleteRange_sameText hx _ _)).trans hdel

theorem redo_added_logged (e M E : TextEditor) (u : UndoRecord)
    (hR0 : ∀ y, SameText y e → SameText (UndoRecord.Redo { u with mAdded := [] } y) M)
    (hne : u.mAdded ≠ [])
    (hE : SameText (InsertTextAt M u.mAddedStart (cstr u.mAdded) false).1 E) :
    ∀ y, SameText y e → SameText (u.Redo y) E := by
  intro y hy
  refine (Redo_added u y hne).trans ?_
  exact (InsertTextAt_sameText (hR0 y hy) _ _).1.trans hE

theorem TextFaithful.undoFaithful {e E : TextEditor} {u : UndoRecord} (hf : TextFaithful e E u) :
    UndoFaithful e E u :=
  ⟨hf.1, hf.2.1, hf.2.2.1, hf.2.2.2.1, hf.2.2.2.2.1, hf.2.2.2.2.2.1, hf.2.2.2.2.2.2.1⟩

/-- An edit logged so that it can be undone: the record that `Undo` applies next is the
one that the edit appended. -/
theorem UndoFaithful.undoLogged {e E : TextEditor} {u : UndoRecord} (hf : UndoFaithful e E u) :
    UndoLogged e E := by
  obtain ⟨hv, hbuf, hidx, _, _, _, hundo⟩ := hf
  have hlast : lastRecord E = u := by
    unfold lastRecord
    rw [hbuf, hidx]
    have h0 := hv.2.1
    have hlen : (e.mUndoBuffer.take e.mUndoIndex.toNat).length = e.mUndoIndex.toNat := by
      rw [List.length_take]
      have := hv.2.2
      omega
    have : (e.mUndoIndex + 1 - 1).toNat = (e.mUndoBuffer.take e.mUndoIndex.toNat).length := by
      rw [hlen]; omega
    rw [this, List.getD_eq_getElem?_getD, List.getElem?_append_right (Nat.le_refl _)]
    simp
  intro x hx
  rw [hlast]
  exact hundo x hx

/-- Valid UTF-8 text, stored as glyphs, is a run of complete sequences. -/
theorem complete_of_valid : ∀ (t : List Nat) (s : Nat), validFrom s t = true →
    completeFrom s (toLine t) = true := by
  intro t
  induction t with
  | nil => intro s h; simpa [validFrom, completeFrom, toLine] using h
  | cons c rest ih =>
    intro s h
    cases s with
    | zero =>
      simp only [validFrom] at h
      exact ih _ h
    | succ s =>
      simp only [validFrom, Bool.and_eq_true] at h
      exact ih _ h.2

theorem TabStopsDefined_toLine (T : Nat) (t : List Nat) (h : 9 ∈ t → 0 < T) :
    TabStopsDefined T (toLine t) := by
  intro g hg h9
  unfold toLine at hg
  obtain ⟨c, hc, rfl⟩ := List.mem_map.mp hg
  simp only [] at h9
  exact h (h9 ▸ hc)

theorem toLine_length (t : List Nat) : (toLine t).length = t.length := by
  unfold toLine; simp

/-- The line with the text `t` put in at byte `k`, seen as a splice. -/
theorem spliced_typed (T : Nat) (pre : Lines) (x : Line) (post : Lines) (k : Nat) (t : List Nat)
    (hk : k ≤ x.length) (hck : completeFrom 0 (x.take k) = true)
    (htk : TabStopsDefined T (x.take k))
    (hvt : validFrom 0 t = true) (htt : 9 ∈ t → 0 < T) :
    Spliced T pre (x.take k) (x.drop k) post (pre ++ (x.take k ++ toLine t ++ x.drop k) :: post)
      ⟨(pre.length : Int), (colWalk T 0 (x.take k ++ toLine t) 0 : Nat)⟩ (k + t.length) := by
  have hl2 : (x.take k ++ toLine t).length = k + t.length := by
    rw [List.length_append, toLine_length, List.length_take]; omega
  have hl1 : (x.take k).length = k := by rw [List.length_take]; omega
  have htake : (x.take k ++ toLine t ++ x.drop k).take (k + t.length) = x.take k ++ toLine t := by
    rw [← hl2, take_decomp]
  have hdrop : (x.take k ++ toLine t ++ x.drop k).drop (k + t.length) = x.drop k := by
    rw [← hl2, drop_decomp]
  refine ⟨pre, _, rfl, ?_, ?_, ?_, ?_, hdrop, Or.inl ⟨rfl, ?_, by rw [hl1]; omega⟩⟩
  · rw [htake]
  · rw [List.length_append, hl2]; omega
  · rw [htake, complete_append _ _ hck]
    exact complete_of_valid t 0 hvt
  · rw [htake]
    exact TabStopsDefined_append htk (TabStopsDefined_toLine T t htt)
  · rw [List.append_assoc, List.take_left']
    rfl

theorem insertBuf_spec (t : List Nat) :
    ∀ (line : Line) (k : Nat), 0 ∉ t → k ≤ line.length →
      EnterCharacter.insertBuf t line k = (line.take k ++ toLine t ++ line.drop k, k + t.length) := by
  induction t with
  | nil => intro line k _ _; simp [EnterCharacter.insertBuf, toLine]
  | cons c tl ih =>
    intro line k hnz hk
    have hc : c ≠ 0 := fun h => hnz (by simp [h])
    simp only [EnterCharacter.insertBuf]
    rw [if_neg hc, ih _ (k + 1) (fun h => hnz (by simp [h])) (by simp; omega)]
    have hl : (line.take k ++ [({ mChar := c } : Glyph)]).length = k + 1 := by
      simp [List.length_take]; omega
    have hsplit : line.take k ++ { mChar := c } :: line.drop k
        = (line.take k ++ [{ mChar := c }]) ++ line.drop k := by simp
    have htake : (line.take k ++ { mChar := c } :: line.drop k).take (k + 1)
        = line.take k ++ [{ mChar := c }] := by
      rw [hsplit, ← hl, take_decomp]
    have hdrop : (line.take k ++ { mChar := c } :: line.drop k).drop (k + 1) = line.drop k := by
      rw [hsplit, ← hl, drop_decomp]
    rw [htake, hdrop]
    simp only [toLine, List.map_cons, List.length_cons, List.append_assoc, List.singleton_append,
      Prod.mk.injEq, true_and]
    omega

theorem cont_byte (m : Nat) (h : m < 64) :
    IsUTFSequence ((0x80 + m) % 256) = true ∧ 128 ≤ (0x80 + m) % 256 := by
  interval_cases m <;> decide

theorem lead2_byte (m : Nat) (h : m < 32) :
    UTF8CharLength ((0xc0 + m) % 256) = 2 ∧ 128 ≤ (0xc0 + m) % 256 := by
  interval_cases m <;> decide

theorem lead3_byte (m : Nat) (h : m < 16) :
    UTF8CharLength ((0xe0 + m) % 256) = 3 ∧ 128 ≤ (0xe0 + m) % 256 := by
  interval_cases m <;> decide

theorem and_63_lt (n : Nat) : n &&& 0x3f < 64 := by
  have := @Nat.and_le_right n 0x3f
  omega

theorem valid1 (l : Nat) (hl : UTF8CharLength l = 1) : validFrom 0 [l] = true := by
  simp [validFrom, hl]

theorem valid2 (l b1 : Nat) (hl : UTF8CharLength l = 2) (h1 : IsUTFSequence b1 = true) :
    validFrom 0 [l, b1] = true := by
  simp [validFrom, hl, h1]

theorem valid3 (l b1 b2 : Nat) (hl : UTF8CharLength l = 3) (h1 : IsUTFSequence b1 = true)
    (h2 : IsUTFSequence b2 = true) : validFrom 0 [l, b1, b2] = true := by
  simp [validFrom, hl, h1, h2]

theorem valid4 (l b1 b2 b3 : Nat) (hl : UTF8CharLength l = 4) (h1 : IsUTFSequence b1 = true)
    (h2 : IsUTFSequence b2 = true) (h3 : IsUTFSequence b3 = true) :
    validFrom 0 [l, b1, b2, b3] = true := by
  simp [validFrom, hl, h1, h2, h3]

theorem lead4_byte (m : Nat) (h : m = 0) :
    UTF8CharLength ((0xf0 + m) % 256) = 4 ∧ 128 ≤ (0xf0 + m) % 256 := by
  subst h; decide

/-- The bytes that `ImTextCharToUtf8` writes for a character of the Basic Multilingual
Plane other than NUL and the low surrogates: a non-empty valid UTF-8 sequence; the
character itself below `0x80`, bytes from `0x80` on otherwise. -/
theorem ImTextCharToUtf8_valid (c : Nat) (hlt : c < 0x10000)
    (hs : ¬ (0xdc00 ≤ c ∧ c < 0xe000)) :
    ImTextCharToUtf8 c ≠ [] ∧ validFrom 0 (ImTextCharToUtf8 c) = true
      ∧ (c < 0x80 → ImTextCharToUtf8 c = [c])
      ∧ (0x80 ≤ c → ∀ b ∈ ImTextCharToUtf8 c, 128 ≤ b) := by
  unfold ImTextCharToUtf8
  by_cases h1 : c < 0x80
  · rw [if_pos h1, Nat.mod_eq_of_lt (by omega)]
    exact ⟨by simp, valid1 c (UTF8CharLength_ascii c h1), fun _ => rfl, fun h => by omega⟩
  · rw [if_neg h1]
    by_cases h2 : c < 0x800
    · rw [if_pos h2]
      have hm : c >>> 6 < 32 := by
        rw [Nat.shiftRight_eq_div_pow]
        exact Nat.div_lt_of_lt_mul (by norm_num; omega)
      obtain ⟨l1, l2⟩ := lead2_byte (c >>> 6) hm
      obtain ⟨c1, c2⟩ := cont_byte (c &&& 0x3f) (and_63_lt c)
      refine ⟨by simp, valid2 _ _ l1 c1, fun h => absurd h h1, ?_⟩
      intro _ b hb
      simp only [List.mem_cons, List.mem_singleton, List.not_mem_nil, or_false] at hb
      rcases hb with rfl | rfl
      · exact l2
      · exact c2
    · rw [if_neg h2, if_neg hs]
      by_cases h3 : c ≥ 0xd800 ∧ c < 0xdc00
      · rw [if_pos h3]
        have hm : c >>> 18 = 0 := by
          rw [Nat.shiftRight_eq_div_pow]
          exact Nat.div_eq_of_lt (by norm_num; omega)
        obtain ⟨l1, l2⟩ := lead4_byte (c >>> 18) hm
        obtain ⟨c1, c2⟩ := cont_byte ((c >>> 12) &&& 0x3f) (and_63_lt _)
        obtain ⟨d1, d2⟩ := cont_byte ((c >>> 6) &&& 0x3f) (and_63_lt _)
        obtain ⟨e1, e2⟩ := cont_byte (c &&& 0x3f) (and_63_lt c)
        refine ⟨by simp, valid4 _ _ _ _ l1 c1 d1 e1, fun h => absurd h h1, ?_⟩
        intro _ b hb
        simp only [List.mem_cons, List.mem_singleton, List.not_mem_nil, or_false] at hb
        rcases hb with rfl | rfl | rfl | rfl
        · exact l2
        · exact c2
        · exact d2
        · exact e2
      · rw [if_neg h3]
        have hm : c >>> 12 < 16 := by
          rw [Nat.shiftRight_eq_div_pow]
          exact Nat.div_lt_of_lt_mul (by norm_num; omega)
        obtain ⟨l1, l2⟩ := lead3_byte (c >>> 12) hm
        obtain ⟨d1, d2⟩ := cont_byte ((c >>> 6) &&& 0x3f) (and_63_lt _)
        obtain ⟨e1, e2⟩ := cont_byte (c &&& 0x3f) (and_63_lt c)
        refine ⟨by simp, valid3 _ _ _ l1 d1 e1, fun h => absurd h h1, ?_⟩
        intro _ b hb
        simp only [List.mem_cons, List.mem_singleton, List.not_mem_nil, or_false] at hb
        rcases hb with rfl | rfl | rfl
        · exact l2
        · exact d2
        · exact e2

/-! ## Text put into a line at the cursor -/

/-- The geometry of a line after the valid UTF-8 text `t` went in at the byte index `k`
that the column `col` selects. -/
theorem typed_text_line (T : Nat) (col : Int) (x : Line) (t : List Nat) (k : Nat)
    (hx : completeFrom 0 x = true) (htab : TabStopsDefined T x)
    (hvt : validFrom 0 t = true) (hne : t ≠ []) (ht9 : 9 ∈ t → 0 < T)
    (hcol : col ≤ (colWalk T 0 x 0 : Nat)) (hk : k = idxWalk T col 0 x 0) :
    k ≤ x.length
      ∧ completeFrom 0 (x.take k ++ toLine t ++ x.drop k) = true
      ∧ TabStopsDefined T (x.take k ++ toLine t ++ x.drop k)
      ∧ idxWalk T col 0 (x.take k ++ toLine t ++ x.drop k) 0 = k
      ∧ idxWalk T (colWalk T 0 (x.take k ++ toLine t) 0 : Nat) 0
          (x.take k ++ toLine t ++ x.drop k) 0 = k + t.length
      ∧ col < (colWalk T 0 (x.take k ++ toLine t) 0 : Nat)
      ∧ colWalk T 0 (x.take k ++ toLine t) 0 ≤ colWalk T 0 (x.take k ++ toLine t ++ x.drop k) 0
      ∧ (colWalk T 0 (x.take k ++ toLine t ++ x.drop k) 0 ≤ colWalk T 0 (x.take k ++ toLine t) 0 →
          x.drop k = []) := by
  have hb := idxWalk_boundary T col x hx 0
  rw [← hk] at hb
  have hkle : k ≤ x.length := by rw [hk]; exact idxWalk_le_length _ _ _ _ _
  have hcolk : col ≤ (colWalk T 0 (x.take k) 0 : Nat) := by
    have := le_colWalk_take_idxWalk T col x hx 0 hcol
    rw [← hk] at this
    exact this
  have hct : completeFrom 0 (toLine t) = true := complete_of_valid t 0 hvt
  have htt : TabStopsDefined T (toLine t) := TabStopsDefined_toLine T t ht9
  have hcg : completeFrom 0 (x.take k ++ toLine t) = true := by
    rw [complete_append _ _ hb.1]; exact hct
  have htake : TabStopsDefined T (x.take k) := TabStopsDefined_take htab k
  have hdrop : TabStopsDefined T (x.drop k) := TabStopsDefined_drop htab k
  have htg : TabStopsDefined T (x.take k ++ toLine t) := TabStopsDefined_append htake htt
  have hlen : (x.take k ++ toLine t).length = k + t.length := by
    rw [List.length_append, List.length_take, toLine_length]; omega
  have hne2 : toLine t ≠ [] := by
    intro h
    have := congrArg List.length h
    rw [toLine_length] at this
    exact hne (List.length_eq_zero.mp this)
  have hcol1 : colWalk T 0 (x.take k) 0 < colWalk T 0 (x.take k ++ toLine t) 0 := by
    rw [colWalk_complete_append T _ hb.1]
    exact colWalk_lt T (toLine t) hct htt hne2 _
  refine ⟨hkle, ?_, ?_, ?_, ?_, ?_, ?_, ?_⟩
  · rw [complete_append _ _ hcg]; exact hb.2
  · exact TabStopsDefined_append htg hdrop
  · rw [List.append_assoc, idxWalk_append_of_le T col _ hb.1 0 _ hcolk]
    have h2 := idxWalk_append_of_le T col _ hb.1 0 (x.drop k) hcolk
    rw [List.take_append_drop] at h2
    rw [← h2, ← hk]
  · rw [idxWalk_colWalk T _ hcg htg 0, hlen]
  · have : (colWalk T 0 (x.take k) 0 : Int) < (colWalk T 0 (x.take k ++ toLine t) 0 : Nat) := by
      exact_mod_cast hcol1
    omega
  · rw [colWalk_complete_append T _ hcg]
    exact le_colWalk T _ hb.2 hdrop _
  · intro hle
    by_contra hne3
    have := colWalk_lt T (x.drop k) hb.2 hdrop hne3 (colWalk T 0 (x.take k ++ toLine t) 0)
    rw [colWalk_complete_append T _ hcg] at hle
    omega

/-- Deleting the range from the cursor to the end of the text that went in at the cursor
gives the line back. -/
theorem delete_typed (E : TextEditor) (pre : Lines) (x : Line) (post : Lines) (t : List Nat)
    (k : Nat) (coord : Coordinates)
    (hl : E.mLines = pre ++ (x.take k ++ toLine t ++ x.drop k) :: post)
    (hline : coord.mLine = pre.length)
    (hx : completeFrom 0 x = true) (htab : TabStopsDefined E.mTabSize x)
    (hvt : validFrom 0 t = true) (hne : t ≠ []) (ht9 : 9 ∈ t → 0 < E.mTabSize)
    (hcol : coord.mColumn ≤ (colWalk E.mTabSize 0 x 0 : Nat))
    (hk : k = idxWalk E.mTabSize coord.mColumn 0 x 0) :
    (DeleteRange E coord
        ⟨coord.mLine, (colWalk E.mTabSize 0 (x.take k ++ toLine t) 0 : Nat)⟩).mLines
      = pre ++ x :: post
      ∧ Sanitized E ⟨coord.mLine, (colWalk E.mTabSize 0 (x.take k ++ toLine t) 0 : Nat)⟩ := by
  obtain ⟨hkle, t1, t2, t3, t4, t5, t6, t7⟩ :=
    typed_text_line E.mTabSize coord.mColumn x t k hx htab hvt hne ht9 hcol hk
  have h0 : 0 ≤ coord.mLine := by omega
  have h1 : coord.mLine < E.mLines.length := by rw [hl, hline]; simp
  have hL : lineAt E.mLines coord.mLine = x.take k ++ toLine t ++ x.drop k := by
    rw [hl, hline, lineAt_append_length]
  have hia : GetCharacterIndex E coord = (k : Nat) := by
    rw [GetCharacterIndex_eq E coord h0 h1 (by rw [hL]; exact t1), hL, t3]
  have hib : GetCharacterIndex E
      ⟨coord.mLine, (colWalk E.mTabSize 0 (x.take k ++ toLine t) 0 : Nat)⟩
      = ((k + t.length : Nat) : Int) := by
    rw [GetCharacterIndex_eq E ⟨coord.mLine, (colWalk E.mTabSize 0 (x.take k ++ toLine t) 0 : Nat)⟩
      h0 h1 (by rw [hL]; exact t1)]
    simp only []
    rw [hL, t4]
  have hne2 : (⟨coord.mLine, (colWalk E.mTabSize 0 (x.take k ++ toLine t) 0 : Nat)⟩ : Coordinates)
      ≠ coord := by
    intro h
    have := congrArg Coordinates.mColumn h
    simp only [] at this
    omega
  have hlen : (x.take k ++ toLine t).length = k + t.length := by
    rw [List.length_append, List.length_take, toLine_length]; omega
  have hlen1 : (x.take k).length = k := by rw [List.length_take]; omega
  have d1 : (x.take k ++ toLine t ++ x.drop k).take k = x.take k := by
    rw [List.append_assoc]; exact List.take_left' hlen1
  have d2 : (x.take k ++ toLine t ++ x.drop k).drop (k + t.length) = x.drop k :=
    List.drop_left' hlen
  constructor
  · rw [DeleteRange_line E coord ⟨coord.mLine, (colWalk E.mTabSize 0 (x.take k ++ toLine t) 0 : Nat)⟩
      pre _ post k (k + t.length) hl hline rfl hne2 hia hib, d1, d2, List.take_append_drop]
    intro hge
    rw [d2]
    apply t7
    rw [GetLineMaxColumn_eq E coord.mLine h0 h1, hL] at hge
    simp only [] at hge
    exact_mod_cast hge
  · refine ⟨h0, h1, Int.natCast_nonneg _, ?_⟩
    show ((colWalk E.mTabSize 0 (x.take k ++ toLine t) 0 : Nat) : Int) ≤ GetLineMaxColumn E coord.mLine
    rw [GetLineMaxColumn_eq E coord.mLine h0 h1, hL]
    exact_mod_cast t6

/-- The branch of `typeChar` that overwrites nothing: the bytes go in at the cursor, the
cursor moves behind them. -/
theorem typeChar_insert (M : TextEditor) (coord : Coordinates) (u : UndoRecord) (buf : List Nat)
    (pre : Lines) (x : Line) (post : Lines) (k : Nat)
    (hl : M.mLines = pre ++ x :: post) (hline : coord.mLine = pre.length)
    (hi : GetCharacterIndex M coord = (k : Nat)) (hk : k ≤ x.length)
    (hov : M.mOverwrite = false ∨ k = x.length) (h0 : 0 ∉ buf) :
    (EnterCharacter.typeChar M coord u buf).1.mLines
        = pre ++ (x.take k ++ toLine buf ++ x.drop k) :: post
      ∧ (EnterCharacter.typeChar M coord u buf).1.mState
        = { M.mState with mCursorPosition :=
            ⟨coord.mLine, (colWalk M.mTabSize 0 (x.take k ++ toLine buf) 0 : Nat)⟩ }
      ∧ logFrame (EnterCharacter.typeChar M coord u buf).1 = logFrame M
      ∧ (EnterCharacter.typeChar M coord u buf).2 = { u with mAdded := buf } := by
  have hnat : coord.mLine.toNat = pre.length := by omega
  have hx : lineAt M.mLines coord.mLine = x := by rw [hl, hline, lineAt_append_length]
  have hcond : ¬ (M.mOverwrite = true ∧ GetCharacterIndex M coord < (lineAt M.mLines coord.mLine).length) := by
    rintro ⟨h1, h2⟩
    rcases hov with h | h
    · rw [h] at h1; exact absurd h1 (by simp)
    · rw [hi, hx, h] at h2; omega
  have hlen : (x.take k ++ toLine buf).length = k + buf.length := by
    rw [List.length_append, List.length_take, toLine_length]; omega
  obtain ⟨ls, hls⟩ : ∃ ls : Lines, ls = pre ++ (x.take k ++ toLine buf ++ x.drop k) :: post :=
    ⟨_, rfl⟩
  have hset : M.mLines.set pre.length (x.take k ++ toLine buf ++ x.drop k) = ls := by
    rw [hl, set_decomp, hls]
  have h0l : 0 ≤ coord.mLine := by omega
  have hcolumn : GetCharacterColumn { M with mLines := ls } coord.mLine ((k + buf.length : Nat) : Int)
      = (colWalk M.mTabSize 0 (x.take k ++ toLine buf) 0 : Nat) := by
    rw [GetCharacterColumn_eq { M with mLines := ls } coord.mLine _ h0l
      (by show coord.mLine < (ls.length : Int); rw [hls, hline]; simp)]
    simp only [Int.toNat_ofNat]
    rw [hls, hline, lineAt_append_length, ← hlen, take_decomp]
  unfold EnterCharacter.typeChar
  simp only []
  rw [if_neg hcond, hx, hi, Int.toNat_ofNat, insertBuf_spec buf x k h0 hk, hnat]
  simp only []
  rw [hset, hcolumn, ← hls]
  refine ⟨?_, ?_, ?_, ?_⟩
  · rw [SetCursorPosition_mLines]
  · rw [SetCursorPosition_mState]
  · rw [SetCursorPosition_logFrame]; rfl
  · rw [cstr_of_not_mem buf h0]

theorem RemovalLogged_none (e : TextEditor) (a b : Coordinates) : RemovalLogged e e [] a b :=
  ⟨fun v x hadd hrem _ hx => (Undo_nothing v x hadd hrem).trans hx,
    fun v y hadd hrem _ _ hy => (Redo_nothing v y hadd hrem).trans hy⟩

theorem RemovalLogged_selection (e : TextEditor) (hs : RemovableSelection e)
    (hnb : NoLineBreak e.mLines) :
    RemovalLogged e (DeleteSelection e) (GetSelectedText e) e.mState.mSelectionStart
      e.mState.mSelectionEnd := by
  obtain ⟨hsel, ha, hbs, hc, htabs, hnul, hcr, hval⟩ := hs
  have hab := (gt_le _ _ hsel).1
  have hMD : SameText (DeleteSelection e)
      (DeleteRange e e.mState.mSelectionStart e.mState.mSelectionEnd) :=
    SameText_of_lines (DeleteSelection_mLines e)
      (by rw [DeleteSelection_mTabSize, DeleteRange_mTabSize])
  exact ⟨fun v x hadd hrem hst hx =>
      undo_removed_sameText e _ _ v x hc htabs hnb ha hbs hab (hx.trans hMD) hadd hrem hst
        hnul hcr hval,
    fun v y hadd hrem hst hen hy =>
      (redo_removed_sameText e _ _ v y hc htabs hnb ha hbs hab hy hadd hrem hst hen).trans
        hMD.symm⟩

/-- The record of text that went in at the cursor of the document `M` left of `e` by a
removal: the edit can be undone when the removal can, and it is faithfully logged when
the text is `'\r'`-free and the removal can be redone. -/
theorem typed_core (e M E1 : TextEditor) (R : List Nat) (a b : Coordinates) (u1 : UndoRecord)
    (c : Nat) (t : List Nat) (coord : Coordinates) (pre : Lines) (x : Line) (post : Lines)
    (k : Nat) (hv : ValidLog e) (hru : RemovalUndone e M R a)
    (hl : M.mLines = pre ++ x :: post) (hline : coord.mLine = pre.length)
    (hcx : completeFrom 0 x = true) (htx : TabStopsDefined M.mTabSize x)
    (hcol : coord.mColumn ≤ (colWalk M.mTabSize 0 x 0 : Nat))
    (hk : k = idxWalk M.mTabSize coord.mColumn 0 x 0)
    (hMT : M.mTabSize = e.mTabSize)
    (q1 : E1.mLines = pre ++ (x.take k ++ toLine t ++ x.drop k) :: post)
    (q2 : E1.mState.mCursorPosition
      = ⟨coord.mLine, (colWalk M.mTabSize 0 (x.take k ++ toLine t) 0 : Nat)⟩)
    (q3 : logFrame E1 = logFrame e)
    (hu1 : u1.mAdded = t) (hs1 : u1.mAddedStart = coord) (hr1 : u1.mRemoved = R)
    (ha1 : u1.mRemovedStart = a) (hb1 : u1.mRemovedEnd = b) (hbefore : u1.mBefore = e.mState)
    (h0 : 0 ∉ t) (h10 : 10 ∉ t) (hvt : validFrom 0 t = true) (hne : t ≠ [])
    (h9 : 9 ∈ t → 0 < M.mTabSize) :
    ∃ u, UndoFaithful e (EnterCharacter.record E1 coord u1 c) u
      ∧ (13 ∉ t → RemovalRedone e M R a b →
          TextFaithful e (EnterCharacter.record E1 coord u1 c) u) := by
  have e1T : E1.mTabSize = M.mTabSize := by rw [(logFrame_eq q3).2.2.2.1, hMT]
  have e1valid : ValidLog E1 := ValidLog_of_logFrame q3 hv
  have hi : GetCharacterIndex M coord = (k : Nat) := by
    have h0l : 0 ≤ coord.mLine := by omega
    have hLx : lineAt M.mLines coord.mLine = x := by rw [hl, hline, lineAt_append_length]
    rw [GetCharacterIndex_eq M coord h0l (by rw [hl, hline]; simp) (by rw [hLx]; exact hcx),
      hLx, hk]
  have hile : k ≤ x.length := by rw [hk]; exact idxWalk_le_length _ _ _ _ _
  obtain ⟨dl, ds⟩ := delete_typed E1 pre x post t k coord q1 hline hcx (by rw [e1T]; exact htx)
    hvt hne (by rw [e1T]; exact h9) (by rw [e1T]; exact hcol) (by rw [e1T]; exact hk)
  rw [e1T] at dl ds
  have hend : GetActualCursorCoordinates E1
      = ⟨coord.mLine, (colWalk M.mTabSize 0 (x.take k ++ toLine t) 0 : Nat)⟩ := by
    unfold GetActualCursorCoordinates
    rw [q2]
    exact SanitizeCoordinates_of_sanitized E1 E1 _ ds rfl rfl
  obtain ⟨r1, r2⟩ := record_doc E1 coord u1 c
  obtain ⟨r3, r4⟩ := record_log E1 coord u1 c e1valid
  have r5 := record_settings E1 coord u1 c
  rw [hend, (logFrame_eq q3).1, (logFrame_eq q3).2.1] at r3
  rw [(logFrame_eq q3).2.1] at r4
  generalize EnterCharacter.record E1 coord u1 c = E at r1 r2 r3 r4 r5
  have hEset : settings E = settings e := r5.trans (settings_of_logFrame q3)
  have hET : E.mTabSize = M.mTabSize := by
    rw [(settings_eq hEset).2.1, hMT]
  obtain ⟨u, hu⟩ : ∃ u : UndoRecord, u =
      { u1 with
        mAddedEnd := ⟨coord.mLine, (colWalk M.mTabSize 0 (x.take k ++ toLine t) 0 : Nat)⟩,
        mAfter := E1.mState } := ⟨_, rfl⟩
  have hdel : SameText (DeleteRange E u.mAddedStart u.mAddedEnd) M := by
    rw [hu]
    show SameText (DeleteRange E u1.mAddedStart
      ⟨coord.mLine, (colWalk M.mTabSize 0 (x.take k ++ toLine t) 0 : Nat)⟩) M
    rw [hs1]
    refine (DeleteRange_sameText (SameText_of_lines r1 (hET.trans e1T.symm)) _ _).trans ?_
    exact SameText_of_lines (dl.trans hl.symm) (by rw [DeleteRange_mTabSize, e1T])
  have hune : u.mAdded ≠ [] := by
    rw [hu]
    show u1.mAdded ≠ []
    rw [hu1]; exact hne
  have hU := undo_added_logged e M E u
    (fun x hx => hru _ x rfl (by rw [hu]; exact hr1) (by rw [hu]; exact ha1) hx) hune hdel
  refine ⟨u, ⟨hv, by rw [hu]; exact r3, r4, hEset, by rw [hu]; exact hbefore,
    by rw [hu]; exact r2.symm, hU⟩, ?_⟩
  intro h13 hrr
  have hins : SameText (InsertTextAt M u.mAddedStart (cstr u.mAdded) false).1 E := by
    rw [hu]
    show SameText (InsertTextAt M u1.mAddedStart (cstr u1.mAdded) false).1 E
    rw [hs1, hu1, cstr_of_not_mem t h0]
    refine SameText_of_lines ?_ (by rw [InsertTextAt_mTabSize, hET])
    rw [InsertTextAt_line M coord t pre x post k h0 h10 h13 hvt hl hline hi hile, r1, q1]
  have hR := redo_added_logged e M E u
    (fun y hy => hrr _ y rfl (by rw [hu]; exact hr1) (by rw [hu]; exact ha1)
      (by rw [hu]; exact hb1) hy) hune hins
  exact ⟨hv, by rw [hu]; exact r3, r4, hEset, by rw [hu]; exact hbefore,
    by rw [hu]; exact r2.symm, hU, hR⟩

/-- Text typed at the cursor of the document `M` that a removal left of `e`, with nothing
overwritten: `EnterCharacter` logs it so that it can be undone, and faithfully when the
text is `'\r'`-free and the removal can be redone. -/
theorem typed_faithful (e M : TextEditor) (R : List Nat) (a b : Coordinates) (u0 : UndoRecord)
    (c : Nat) (t : List Nat)
    (hv : ValidLog e) (hMlog : logFrame M = logFrame e)
    (hru : RemovalUndone e M R a)
    (hr0 : u0.mRemoved = R) (hra : u0.mRemovedStart = a)
    (hrb : u0.mRemovedEnd = b) (hbefore : u0.mBefore = e.mState)
    (hp : Sanitized M (GetActualCursorCoordinates M))
    (hcM : Complete (lineAt M.mLines (GetActualCursorCoordinates M).mLine))
    (htM : TabStopsDefined M.mTabSize (lineAt M.mLines (GetActualCursorCoordinates M).mLine))
    (hov : M.mOverwrite = false ∨ GetCharacterIndex M (GetActualCursorCoordinates M)
      = ((lineAt M.mLines (GetActualCursorCoordinates M).mLine).length : Nat))
    (h0 : 0 ∉ t) (h10 : 10 ∉ t) (hvt : validFrom 0 t = true) (hne : t ≠ [])
    (h9 : 9 ∈ t → 0 < M.mTabSize) :
    ∃ u, UndoFaithful e
        (EnterCharacter.record
          (EnterCharacter.typeChar M (GetActualCursorCoordinates M)
            { u0 with mAddedStart := GetActualCursorCoordinates M } t).1
          (GetActualCursorCoordinates M)
          (EnterCharacter.typeChar M (GetActualCursorCoordinates M)
            { u0 with mAddedStart := GetActualCursorCoordinates M } t).2 c) u
      ∧ (13 ∉ t → RemovalRedone e M R a b →
          TextFaithful e
            (EnterCharacter.record
              (EnterCharacter.typeChar M (GetActualCursorCoordinates M)
                { u0 with mAddedStart := GetActualCursorCoordinates M } t).1
              (GetActualCursorCoordinates M)
              (EnterCharacter.typeChar M (GetActualCursorCoordinates M)
                { u0 with mAddedStart := GetActualCursorCoordinates M } t).2 c) u) := by
  obtain ⟨coord, hcoord⟩ : ∃ coord, coord = GetActualCursorCoordinates M := ⟨_, rfl⟩
  rw [← hcoord] at hp hcM htM hov ⊢
  obtain ⟨pre, x, post, hl, hlen, hnat, hx, hcx, hi, hile, hmax⟩ := sanitized_decomp M coord hp hcM
  obtain ⟨k, hk⟩ : ∃ k, k = idxWalk M.mTabSize coord.mColumn 0 x 0 := ⟨_, rfl⟩
  rw [← hk] at hi hile
  have hov2 : M.mOverwrite = false ∨ k = x.length := by
    rcases hov with h | h
    · exact Or.inl h
    · rw [hi, hx] at h
      exact Or.inr (by exact_mod_cast h)
  have htx : TabStopsDefined M.mTabSize x := by rw [← hx]; exact htM
  have hcol : coord.mColumn ≤ (colWalk M.mTabSize 0 x 0 : Nat) := by
    rw [← hmax]; exact hp.2.2.2
  have hline : coord.mLine = pre.length := hlen.symm
  obtain ⟨q1, q2, q3, q4⟩ := typeChar_insert M coord { u0 with mAddedStart := coord } t pre x post k
    hl hline hi hile hov2 h0
  rw [q4]
  exact typed_core e M _ R a b _ c t coord pre x post k hv hru hl hline hcx htx hcol hk
    (logFrame_eq hMlog).2.2.2.1 q1 (by rw [q2]) (q3.trans hMlog) rfl rfl hr0 hra hrb hbefore
    h0 h10 hvt hne h9

/-- The call `EnterCharacter(c)` outside the block indent, the line break and the brace
completion: the selection, if any, is deleted, and the bytes of `c` (spaces for a tab when
`mInsertSpaces` is on) are typed at the cursor and recorded. -/
theorem EnterCharacter_typed (e : TextEditor) (c : Nat) (aShift : Bool)
    (hblock : ¬ (HasSelection e = true ∧ c = 9
      ∧ e.mState.mSelectionStart.mLine ≠ e.mState.mSelectionEnd.mLine))
    (hc10 : c ≠ 10) (hbuf : ImTextCharToUtf8 c ≠ [])
    (hM : (EnterCharacter.deleteSelected e).1.mLines ≠ [])
    (hbr : e.mCompleteBraces = true → c ≠ 123 ∧ c ≠ 40 ∧ c ≠ 91) :
    EnterCharacter e c aShift
      = EnterCharacter.record
          (EnterCharacter.typeChar (EnterCharacter.deleteSelected e).1
            (GetActualCursorCoordinates (EnterCharacter.deleteSelected e).1)
            { (EnterCharacter.deleteSelected e).2 with
              mAddedStart := GetActualCursorCoordinates (EnterCharacter.deleteSelected e).1 }
            (if (EnterCharacter.deleteSelected e).1.mInsertSpaces = true ∧ ImTextCharToUtf8 c = [9]
              then List.replicate (EnterCharacter.deleteSelected e).1.mTabSize 32
              else ImTextCharToUtf8 c)).1
          (GetActualCursorCoordinates (EnterCharacter.deleteSelected e).1)
          (EnterCharacter.typeChar (EnterCharacter.deleteSelected e).1
            (GetActualCursorCoordinates (EnterCharacter.deleteSelected e).1)
            { (EnterCharacter.deleteSelected e).2 with
              mAddedStart := GetActualCursorCoordinates (EnterCharacter.deleteSelected e).1 }
            (if (EnterCharacter.deleteSelected e).1.mInsertSpaces = true ∧ ImTextCharToUtf8 c = [9]
              then List.replicate (EnterCharacter.deleteSelected e).1.mTabSize 32
              else ImTextCharToUtf8 c)).2 c := by
  obtain ⟨M, hMdef⟩ : ∃ M, M = (EnterCharacter.deleteSelected e).1 := ⟨_, rfl⟩
  obtain ⟨u0, hu0⟩ : ∃ u0, u0 = (EnterCharacter.deleteSelected e).2 := ⟨_, rfl⟩
  rw [← hMdef] at hM ⊢
  rw [← hu0]
  have hemp : M.mLines.isEmpty = false := by
    cases h : M.mLines with
    | nil => exact absurd h hM
    | cons a b => rfl
  have hMset : settings M = settings e := by
    rw [hMdef]
    unfold EnterCharacter.deleteSelected
    split_ifs
    · exact settings_of_logFrame (DeleteSelection_logFrame e)
    · rfl
  unfold EnterCharacter
  rw [EnterCharacter.go]
  rw [if_neg (by
    rintro ⟨h1, h2, h3⟩
    exact hblock ⟨by simpa using h1, h2, h3⟩)]
  simp only []
  rw [← hMdef, ← hu0]
  simp only [hemp, Bool.false_eq_true, if_false]
  rw [if_neg hc10]
  rw [if_pos (by
    cases h : ImTextCharToUtf8 c with
    | nil => exact absurd h hbuf
    | cons a b => simp)]
  generalize (if M.mInsertSpaces = true ∧ ImTextCharToUtf8 c = [9]
    then List.replicate M.mTabSize 32 else ImTextCharToUtf8 c) = t
  have hcb : (EnterCharacter.record
      (EnterCharacter.typeChar M (GetActualCursorCoordinates M)
        { u0 with mAddedStart := GetActualCursorCoordinates M } t).1
      (GetActualCursorCoordinates M)
      (EnterCharacter.typeChar M (GetActualCursorCoordinates M)
        { u0 with mAddedStart := GetActualCursorCoordinates M } t).2 c).mCompleteBraces
        = e.mCompleteBraces := by
    rw [(settings_eq (record_settings _ _ _ _)).2.2.2.2,
      (settings_eq (typeChar_settings _ _ _ _)).2.2.2.2, (settings_eq hMset).2.2.2.2]
  rw [hcb]
  by_cases hb : e.mCompleteBraces = true
  · obtain ⟨b1, b2, b3⟩ := hbr hb
    rw [if_pos hb, if_neg (by simp [b1, b2, b3]), if_neg b1, if_neg b2, if_neg b3]
  · rw [if_neg hb]

/-- After the removal of a range, the start of the range is a sanitized position of the
document that is left, on a line of complete sequences with defined tab stops. -/
theorem removed_sanitized (e M : TextEditor) (a b : Coordinates)
    (hc : ∀ line ∈ e.mLines, Complete line)
    (htab : ∀ line ∈ e.mLines, TabStopsDefined e.mTabSize line)
    (ha : Sanitized e a) (hb : Sanitized e b) (hab : a.le b = true)
    (hM : M.mLines = (DeleteRange e a b).mLines) (hT : M.mTabSize = e.mTabSize) :
    Sanitized M a ∧ Complete (lineAt M.mLines a.mLine)
      ∧ TabStopsDefined M.mTabSize (lineAt M.mLines a.mLine) := by
  obtain ⟨pre, xa, xb, post, ia, ib, r1, r2, r3, r4, r5, r6, r7, r8, r9⟩ :=
    range_removed_line e a b hc htab ha hb hab
  obtain ⟨bk1, bk2⟩ := idxWalk_boundary e.mTabSize a.mColumn xa r3 0
  rw [← r2] at bk1 bk2
  have hta : TabStopsDefined e.mTabSize (xa.take ia) := TabStopsDefined_take (htab xa r8) ia
  have htb : TabStopsDefined e.mTabSize (xb.drop ib) := TabStopsDefined_drop (htab xb r9) ib
  have hcol : a.mColumn ≤ (colWalk e.mTabSize 0 (xa.take ia) 0 : Nat) := by
    have := le_colWalk_take_idxWalk e.mTabSize a.mColumn xa r3 0 r5
    rw [← r2] at this
    exact this
  have hl : M.mLines = pre ++ (xa.take ia ++ xb.drop ib) :: post := by rw [hM, r6]
  have hline : lineAt M.mLines a.mLine = xa.take ia ++ xb.drop ib := by
    rw [hl, r1]
    exact lineAt_append_length _ _ _
  have h0 : (0 : Int) ≤ a.mLine := ha.1
  have h1 : a.mLine < M.mLines.length := by
    rw [hl, r1]; simp
  refine ⟨⟨h0, h1, ha.2.2.1, ?_⟩, ?_, ?_⟩
  · rw [GetLineMaxColumn_eq M a.mLine h0 h1, hline, hT, colWalk_concat _ _ bk1]
    have := le_colWalk e.mTabSize (xb.drop ib) r4 htb (colWalk e.mTabSize 0 (xa.take ia) 0)
    have h2 : ((colWalk e.mTabSize 0 (xa.take ia) 0 : Nat) : Int)
        ≤ (colWalk e.mTabSize 0 (xb.drop ib) (colWalk e.mTabSize 0 (xa.take ia) 0) : Nat) := by
      exact_mod_cast this
    omega
  · rw [hline]
    unfold Complete
    rw [complete_append _ _ bk1]
    exact r4
  · rw [hline, hT]
    exact TabStopsDefined_append hta htb

theorem valid_spaces (n : Nat) : validFrom 0 (List.replicate n 32) = true := by
  induction n with
  | zero => rfl
  | succ n ih =>
    rw [List.replicate_succ]
    simp only [validFrom]
    have : UTF8CharLength 32 = 1 := by decide
    rw [this]
    exact ih

/-- The bytes that `EnterCharacter` types for a character of the Basic Multilingual Plane
other than NUL, line feed and the low surrogates. -/
theorem typed_bytes (T : Nat) (spaces : Bool) (c : Nat)
    (hc0 : c ≠ 0) (hc10 : c ≠ 10) (hlt : c < 0x10000)
    (hs : ¬ (0xdc00 ≤ c ∧ c < 0xe000)) (h9 : c = 9 → 0 < T) (t : List Nat)
    (ht : t = if spaces = true ∧ ImTextCharToUtf8 c = [9] then List.replicate T 32
      else ImTextCharToUtf8 c) :
    ImTextCharToUtf8 c ≠ [] ∧ 0 ∉ t ∧ 10 ∉ t ∧ (c ≠ 13 → 13 ∉ t) ∧ validFrom 0 t = true ∧ t ≠ []
      ∧ (9 ∈ t → 0 < T) := by
  obtain ⟨v1, v2, v3, v4⟩ := ImTextCharToUtf8_valid c hlt hs
  refine ⟨v1, ?_⟩
  by_cases hsp : spaces = true ∧ ImTextCharToUtf8 c = [9]
  · rw [if_pos hsp] at ht
    have hc9 : c = 9 := by
      by_cases h : c < 0x80
      · have := v3 h
        rw [hsp.2] at this
        simpa using this.symm
      · have := v4 (by omega) 9 (by rw [hsp.2]; simp)
        omega
    have hT := h9 hc9
    subst ht
    refine ⟨?_, ?_, fun _ => ?_, valid_spaces T, ?_, fun _ => hT⟩
    · intro h; have := List.eq_of_mem_replicate h; omega
    · intro h; have := List.eq_of_mem_replicate h; omega
    · intro h; have := List.eq_of_mem_replicate h; omega
    · intro h
      have := congrArg List.length h
      simp at this
      omega
  · rw [if_neg hsp] at ht
    subst ht
    by_cases h : c < 0x80
    · rw [v3 h]
      refine ⟨?_, ?_, fun hc13 => ?_, ?_, by simp, ?_⟩
      · simpa using fun h => hc0 h.symm
      · simpa using fun h => hc10 h.symm
      · simpa using fun h => hc13 h.symm
      · rw [← v3 h]; exact v2
      · intro h9'
        exact h9 (List.mem_singleton.mp h9').symm
    · have hge := v4 (by omega)
      refine ⟨?_, ?_, fun _ => ?_, v2, v1, ?_⟩
      · intro h; have := hge 0 h; omega
      · intro h; have := hge 10 h; omega
      · intro h; have := hge 13 h; omega
      · intro h; have := hge 9 h; omega

/-- `EnterCharacter` of a character, without a selection and with nothing to overwrite,
is logged so that it can be undone, and faithfully when the character is not `'\r'`. -/
theorem EnterCharacter_char_logged (e : TextEditor) (c : Nat) (aShift : Bool)
    (hv : ValidLog e) (hne : e.mLines ≠ []) (hsel : HasSelection e = false)
    (hl0 : 0 ≤ e.mState.mCursorPosition.mLine) (hc0' : 0 ≤ e.mState.mCursorPosition.mColumn)
    (hcM : Complete (lineAt e.mLines (GetActualCursorCoordinates e).mLine))
    (htM : TabStopsDefined e.mTabSize (lineAt e.mLines (GetActualCursorCoordinates e).mLine))
    (hov : e.mOverwrite = false ∨ GetCharacterIndex e (GetActualCursorCoordinates e)
      = ((lineAt e.mLines (GetActualCursorCoordinates e).mLine).length : Nat))
    (hc0 : c ≠ 0) (hc10 : c ≠ 10) (hlt : c < 0x10000)
    (hs : ¬ (0xdc00 ≤ c ∧ c < 0xe000)) (h9 : c = 9 → 0 < e.mTabSize)
    (hbr : e.mCompleteBraces = true → c ≠ 123 ∧ c ≠ 40 ∧ c ≠ 91) :
    ∃ u, UndoFaithful e (EnterCharacter e c aShift) u
      ∧ (c ≠ 13 → TextFaithful e (EnterCharacter e c aShift) u) := by
  have hdel : EnterCharacter.deleteSelected e = (e, { mBefore := e.mState }) := by
    unfold EnterCharacter.deleteSelected
    rw [if_neg (by rw [hsel]; simp)]
  obtain ⟨t, ht⟩ : ∃ t, t = if e.mInsertSpaces = true ∧ ImTextCharToUtf8 c = [9]
      then List.replicate e.mTabSize 32 else ImTextCharToUtf8 c := ⟨_, rfl⟩
  obtain ⟨b0, b1, b2, b3, b4, b5, b6⟩ :=
    typed_bytes e.mTabSize e.mInsertSpaces c hc0 hc10 hlt hs h9 t ht
  rw [EnterCharacter_typed e c aShift (by rw [hsel]; simp) hc10 b0 (by rw [hdel]; exact hne) hbr,
    hdel]
  simp only []
  rw [← ht]
  obtain ⟨u, hu1, hu2⟩ := typed_faithful e e [] ⟨0, 0⟩ ⟨0, 0⟩ { mBefore := e.mState } c t hv rfl
    (RemovalLogged_none e _ ⟨0, 0⟩).1 rfl rfl rfl rfl
    (SanitizeCoordinates_sanitized e _ hne hl0 hc0') hcM htM hov b1 b2 b4 b5 b6
  exact ⟨u, hu1, fun h13 => hu2 (b3 h13) (RemovalLogged_none e _ _).2⟩

/-- `EnterCharacter` of a character over a removable selection, outside the block indent
and with nothing to overwrite, is logged so that it can be undone, and faithfully when
the character is not `'\r'`. -/
theorem EnterCharacter_replace_logged (e : TextEditor) (c : Nat) (aShift : Bool)
    (hv : ValidLog e) (hs : RemovableSelection e) (hnb : NoLineBreak e.mLines)
    (hblock : c = 9 → e.mState.mSelectionStart.mLine = e.mState.mSelectionEnd.mLine)
    (hov : e.mOverwrite = false ∨ GetCharacterIndex (DeleteSelection e)
        (GetActualCursorCoordinates (DeleteSelection e))
      = ((lineAt (DeleteSelection e).mLines
          (GetActualCursorCoordinates (DeleteSelection e)).mLine).length : Nat))
    (hc0 : c ≠ 0) (hc10 : c ≠ 10) (hlt : c < 0x10000)
    (hsur : ¬ (0xdc00 ≤ c ∧ c < 0xe000)) (h9 : c = 9 → 0 < e.mTabSize)
    (hbr : e.mCompleteBraces = true → c ≠ 123 ∧ c ≠ 40 ∧ c ≠ 91) :
    ∃ u, UndoFaithful e (EnterCharacter e c aShift) u
      ∧ (c ≠ 13 → TextFaithful e (EnterCharacter e c aShift) u) := by
  have hrl := RemovalLogged_selection e hs hnb
  obtain ⟨hsel, ha, hbs, hc, htabs, hnul, hcr, hval⟩ := hs
  have hab := (gt_le _ _ hsel).1
  have hdel : EnterCharacter.deleteSelected e = (DeleteSelection e,
      { mBefore := e.mState, mRemoved := GetSelectedText e,
        mRemovedStart := e.mState.mSelectionStart, mRemovedEnd := e.mState.mSelectionEnd }) := by
    unfold EnterCharacter.deleteSelected
    rw [if_pos hsel]
  obtain ⟨M, hM⟩ : ∃ M, M = DeleteSelection e := ⟨_, rfl⟩
  rw [← hM] at hov
  have hMlog : logFrame M = logFrame e := by rw [hM]; exact DeleteSelection_logFrame e
  have hMT : M.mTabSize = e.mTabSize := (logFrame_eq hMlog).2.2.2.1
  have hML : M.mLines = (DeleteRange e e.mState.mSelectionStart e.mState.mSelectionEnd).mLines := by
    rw [hM]; exact DeleteSelection_mLines e
  obtain ⟨m1, m2, m3⟩ := removed_sanitized e M _ _ hc htabs ha hbs hab hML hMT
  have hcur : GetActualCursorCoordinates M = e.mState.mSelectionStart := by
    rw [hM]
    exact DeleteSelection_cursor e hsel (by rw [← hM]; exact m1)
  have hMne : M.mLines ≠ [] := nonempty_of_sanitized m1
  obtain ⟨t, ht⟩ : ∃ t, t = if M.mInsertSpaces = true ∧ ImTextCharToUtf8 c = [9]
      then List.replicate M.mTabSize 32 else ImTextCharToUtf8 c := ⟨_, rfl⟩
  obtain ⟨b0, b1, b2, b3, b4, b5, b6⟩ :=
    typed_bytes M.mTabSize M.mInsertSpaces c hc0 hc10 hlt hsur (by rw [hMT]; exact h9) t ht
  have hunf := EnterCharacter_typed e c aShift (fun h => h.2.2 (hblock h.2.1)) hc10 b0
    (by rw [hdel, ← hM]; exact hMne) hbr
  rw [hdel] at hunf
  simp only [] at hunf
  rw [← hM, ← ht] at hunf
  rw [hunf]
  have hrl2 : RemovalLogged e M (GetSelectedText e) e.mState.mSelectionStart
      e.mState.mSelectionEnd := by rw [hM]; exact hrl
  obtain ⟨u, hu1, hu2⟩ := typed_faithful e M (GetSelectedText e) e.mState.mSelectionStart
    e.mState.mSelectionEnd
    { mBefore := e.mState, mRemoved := GetSelectedText e,
      mRemovedStart := e.mState.mSelectionStart, mRemovedEnd := e.mState.mSelectionEnd }
    c t hv hMlog hrl2.1 rfl rfl rfl rfl
    (by rw [hcur]; exact m1) (by rw [hcur]; exact m2) (by rw [hcur]; exact m3)
    (by
      rcases hov with h | h
      · exact Or.inl (by rw [(logFrame_eq hMlog).2.2.2.2.2.1]; exact h)
      · exact Or.inr h) b1 b2 b4 b5 b6
  exact ⟨u, hu1, fun h13 => hu2 (b3 h13) hrl2.2⟩

/-! ## Typing a line break -/

theorem leadingBlanks_split (x : Line) :
    ∃ rest, x = EnterCharacter.leadingBlanks x ++ rest := by
  induction x with
  | nil => exact ⟨[], rfl⟩
  | cons g tl ih =>
    simp only [EnterCharacter.leadingBlanks]
    split_ifs
    · obtain ⟨rest, hr⟩ := ih
      exact ⟨rest, by rw [List.cons_append, ← hr]⟩
    · exact ⟨g :: tl, rfl⟩

theorem leadingBlanks_complete (x : Line) :
    completeFrom 0 (EnterCharacter.leadingBlanks x) = true := by
  induction x with
  | nil => rfl
  | cons g tl ih =>
    simp only [EnterCharacter.leadingBlanks]
    split_ifs with h
    · have hlt : g.mChar < 128 := by
        simp only [Bool.and_eq_true] at h
        have := h.1
        unfold isascii at this
        simpa using this
      rw [complete_single g _ (UTF8CharLength_ascii _ hlt)]
      exact ih
    · rfl

theorem leadingBlanks_tabs {T : Nat} {x : Line} (h : TabStopsDefined T x) :
    TabStopsDefined T (EnterCharacter.leadingBlanks x) := by
  obtain ⟨rest, hr⟩ := leadingBlanks_split x
  intro g hg
  exact h g (by rw [hr]; exact List.mem_append_left _ hg)

theorem lineAt_succ (pre : Lines) (x y : Line) (post : Lines) :
    lineAt (pre ++ x :: y :: post) ((pre.length : Int) + 1) = y := by
  have : pre ++ x :: y :: post = (pre ++ [x]) ++ y :: post := by simp
  rw [this]
  have hl2 : ((pre.length : Int) + 1) = ((pre ++ [x]).length : Int) := by simp
  rw [hl2, lineAt_append_length]

theorem set_succ (pre : Lines) (x y v : Line) (post : Lines) :
    (pre ++ x :: y :: post).set (pre.length + 1) v = pre ++ x :: v :: post := by
  have : pre ++ x :: y :: post = (pre ++ [x]) ++ y :: post := by simp
  rw [this]
  have hl2 : pre.length + 1 = (pre ++ [x]).length := by simp
  rw [hl2, set_decomp]
  simp

/-- The lines and the cursor after the line break of `EnterCharacter` at byte `k` of the
line `x`; `B` are the blanks that the new line starts with. -/
theorem newLine_spec (M : TextEditor) (coord : Coordinates) (pre : Lines) (x : Line)
    (post : Lines) (k : Nat) (B : Line)
    (hl : M.mLines = pre ++ x :: post) (hline : coord.mLine = pre.length)
    (hcx : completeFrom 0 x = true)
    (hi : GetCharacterIndex M coord = (k : Nat))
    (hB : B = if (M.mLanguageDefinition.mAutoIndentation && M.mSmartIndent) = true
      then EnterCharacter.leadingBlanks x else []) :
    (EnterCharacter.newLine M coord).mLines = pre ++ x.take k :: (B ++ x.drop k) :: post
      ∧ (EnterCharacter.newLine M coord).mState
        = { M.mState with mCursorPosition :=
            ⟨coord.mLine + 1, (colWalk M.mTabSize 0 B 0 : Nat)⟩ }
      ∧ logFrame (EnterCharacter.newLine M coord) = logFrame M := by
  have hnat : coord.mLine.toNat = pre.length := by omega
  have hnat1 : (coord.mLine + 1).toNat = pre.length + 1 := by omega
  have h0l : 0 ≤ coord.mLine := by omega
  obtain ⟨e1, he1⟩ : ∃ e1, e1 = InsertLine M (coord.mLine + 1) := ⟨_, rfl⟩
  have hil : e1.mLines = pre ++ x :: [] :: post := by
    rw [he1, InsertLine_mLines, hnat1, hl, insertLine_lines]
  have e1log : logFrame e1 = logFrame M := by rw [he1]; exact InsertLine_logFrame M _
  have e1T : e1.mTabSize = M.mTabSize := (logFrame_eq e1log).2.2.2.1
  have e1st : e1.mState = M.mState := by
    rw [he1]; exact (editFrame_eq (InsertLine_editFrame M _)).1
  have hx1 : lineAt e1.mLines coord.mLine = x := by rw [hil, hline, lineAt_append_length]
  have hx2 : lineAt e1.mLines (coord.mLine + 1) = [] := by rw [hil, hline, lineAt_succ]
  have hauto : (e1.mLanguageDefinition.mAutoIndentation && e1.mSmartIndent)
      = (M.mLanguageDefinition.mAutoIndentation && M.mSmartIndent) := by
    have := e1log
    simp only [logFrame, Prod.mk.injEq] at this
    rw [this.2.2.2.2.2.2.2.1, this.2.2.2.2.2.2.2.2.2.1]
  have hi1 : GetCharacterIndex e1 coord = (k : Nat) := by
    rw [GetCharacterIndex_eq e1 coord h0l (by rw [hil, hline]; simp; omega) (by rw [hx1]; exact hcx),
      hx1, e1T]
    rw [GetCharacterIndex_eq M coord h0l (by rw [hl, hline]; simp)
      (by rw [hl, hline, lineAt_append_length]; exact hcx), hl, hline, lineAt_append_length] at hi
    exact hi
  have hnl : (if (e1.mLanguageDefinition.mAutoIndentation && e1.mSmartIndent) = true
      then ([] : Line) ++ EnterCharacter.leadingBlanks x else []) = B := by
    rw [hauto, hB]
    split_ifs <;> simp
  obtain ⟨ls, hls⟩ : ∃ ls : Lines, ls = pre ++ x.take k :: (B ++ x.drop k) :: post := ⟨_, rfl⟩
  have hset : (e1.mLines.set (pre.length + 1) (B ++ x.drop k)).set pre.length (x.take k) = ls := by
    rw [hil, set_succ, set_decomp, hls]
  have hcolumn : GetCharacterColumn { e1 with mLines := ls } (coord.mLine + 1) (B.length : Nat)
      = (colWalk M.mTabSize 0 B 0 : Nat) := by
    rw [GetCharacterColumn_eq { e1 with mLines := ls } (coord.mLine + 1) _ (by omega)
      (by show coord.mLine + 1 < (ls.length : Int); rw [hls, hline]; simp)]
    simp only [Int.toNat_ofNat]
    show ((colWalk e1.mTabSize 0 ((lineAt ls (coord.mLine + 1)).take B.length) 0 : Nat) : Int) = _
    rw [hls, hline, lineAt_succ, take_decomp, e1T]
  unfold EnterCharacter.newLine
  simp only []
  rw [← he1, hx1, hx2, hnl, hi1, hnat, hnat1, Int.toNat_ofNat, hset, hcolumn]
  refine ⟨?_, ?_, ?_⟩
  · rw [SetCursorPosition_mLines]; exact hls
  · rw [SetCursorPosition_mState]
    show ({ e1.mState with mCursorPosition := _ } : EditorState) = _
    rw [e1st]
  · rw [SetCursorPosition_logFrame]; exact e1log

theorem InsertTextAt_newline (M : TextEditor) (coord : Coordinates) (pre : Lines) (x : Line)
    (post : Lines) (k : Nat) (hl : M.mLines = pre ++ x :: post) (hline : coord.mLine = pre.length)
    (hi : GetCharacterIndex M coord = (k : Nat)) (hk : k ≤ x.length) :
    (InsertTextAt M coord [10] false).1.mLines = pre ++ x.take k :: x.drop k :: post := by
  unfold InsertTextAt
  simp only [Bool.false_eq_true, if_false, hi, List.length_singleton, InsertTextAt.loop]
  simp only [OfNat.ofNat_ne_zero, if_false, Nat.reduceEqDiff, if_true]
  exact breakLine_mLines M coord k pre x post hl hline hk

/-- A line break typed at the cursor of the document `M` that a logged removal left of
`e` is logged by `EnterCharacter` so that it can be undone; it is faithfully logged when
the new line is not given leading blanks. -/
theorem newline_logged (e M : TextEditor) (R : List Nat) (a b : Coordinates) (u0 : UndoRecord)
    (hv : ValidLog e) (hMlog : logFrame M = logFrame e)
    (hrl : RemovalLogged e M R a b)
    (hr0 : u0.mRemoved = R) (hra : u0.mRemovedStart = a)
    (hrb : u0.mRemovedEnd = b) (hbefore : u0.mBefore = e.mState)
    (hp : Sanitized M (GetActualCursorCoordinates M))
    (hcM : Complete (lineAt M.mLines (GetActualCursorCoordinates M).mLine))
    (htM : TabStopsDefined M.mTabSize (lineAt M.mLines (GetActualCursorCoordinates M).mLine)) :
    ∃ u, UndoFaithful e
        (EnterCharacter.record (EnterCharacter.newLine M (GetActualCursorCoordinates M))
          (GetActualCursorCoordinates M)
          { u0 with mAddedStart := GetActualCursorCoordinates M, mAdded := [10] } 10) u
      ∧ (((M.mLanguageDefinition.mAutoIndentation && M.mSmartIndent) = true →
            EnterCharacter.leadingBlanks (lineAt M.mLines (GetActualCursorCoordinates M).mLine) = []) →
          TextFaithful e
            (EnterCharacter.record (EnterCharacter.newLine M (GetActualCursorCoordinates M))
              (GetActualCursorCoordinates M)
              { u0 with mAddedStart := GetActualCursorCoordinates M, mAdded := [10] } 10) u) := by
  obtain ⟨coord, hcoord⟩ : ∃ coord, coord = GetActualCursorCoordinates M := ⟨_, rfl⟩
  rw [← hcoord] at hp hcM htM ⊢
  obtain ⟨pre, x, post, hl, hlen, hnat, hx, hcx, hi, hile, hmax⟩ := sanitized_decomp M coord hp hcM
  obtain ⟨k, hk⟩ : ∃ k, k = idxWalk M.mTabSize coord.mColumn 0 x 0 := ⟨_, rfl⟩
  rw [← hk] at hi hile
  rw [hx]
  have htx : TabStopsDefined M.mTabSize x := by rw [← hx]; exact htM
  have hcol : coord.mColumn ≤ (colWalk M.mTabSize 0 x 0 : Nat) := by
    rw [← hmax]; exact hp.2.2.2
  have hline : coord.mLine = pre.length := hlen.symm
  obtain ⟨B, hB⟩ : ∃ B, B = if (M.mLanguageDefinition.mAutoIndentation && M.mSmartIndent) = true
      then EnterCharacter.leadingBlanks x else [] := ⟨_, rfl⟩
  have hBc : completeFrom 0 B = true := by
    rw [hB]; split_ifs
    · exact leadingBlanks_complete x
    · rfl
  have hBt : TabStopsDefined M.mTabSize B := by
    rw [hB]; split_ifs
    · exact leadingBlanks_tabs htx
    · intro g hg; simp at hg
  obtain ⟨q1, q2, q3⟩ := newLine_spec M coord pre x post k B hl hline hcx hi hB
  obtain ⟨E1, hE1⟩ : ∃ E1, E1 = EnterCharacter.newLine M coord := ⟨_, rfl⟩
  rw [← hE1] at q1 q2 q3 ⊢
  have e1log : logFrame E1 = logFrame e := q3.trans hMlog
  have e1T : E1.mTabSize = M.mTabSize := (logFrame_eq q3).2.2.2.1
  have e1valid : ValidLog E1 := ValidLog_of_logFrame e1log hv
  obtain ⟨bk1, bk2⟩ := idxWalk_boundary M.mTabSize coord.mColumn x hcx 0
  rw [← hk] at bk1 bk2
  have hcolk : coord.mColumn ≤ (colWalk M.mTabSize 0 (x.take k) 0 : Nat) := by
    have := le_colWalk_take_idxWalk M.mTabSize coord.mColumn x hcx 0 hcol
    rw [← hk] at this
    exact this
  have hq1 : E1.mLines = (pre ++ [x.take k]) ++ (B ++ x.drop k) :: post := by
    rw [q1]; simp
  have hlen2 : ((pre ++ [x.take k]).length : Int) = coord.mLine + 1 := by
    rw [hline]; simp
  have hW0 : (0 : Int) ≤ coord.mLine + 1 := by omega
  have hW1 : coord.mLine + 1 < E1.mLines.length := by
    rw [q1, hline]; simp
  have hWs : Sanitized E1 ⟨coord.mLine + 1, (colWalk M.mTabSize 0 B 0 : Nat)⟩ := by
    refine ⟨hW0, hW1, Int.natCast_nonneg _, ?_⟩
    show ((colWalk M.mTabSize 0 B 0 : Nat) : Int) ≤ GetLineMaxColumn E1 (coord.mLine + 1)
    rw [GetLineMaxColumn_eq E1 _ hW0 hW1, hq1, ← hlen2, lineAt_append_length, e1T,
      colWalk_complete_append _ _ hBc]
    have := le_colWalk M.mTabSize (x.drop k) bk2 (TabStopsDefined_drop htx k)
      (colWalk M.mTabSize 0 B 0)
    exact_mod_cast this
  have hend : GetActualCursorCoordinates E1
      = ⟨coord.mLine + 1, (colWalk M.mTabSize 0 B 0 : Nat)⟩ := by
    unfold GetActualCursorCoordinates
    rw [q2]
    exact SanitizeCoordinates_of_sanitized E1 E1 _ hWs rfl rfl
  have hia : GetCharacterIndex E1 coord = (k : Nat) := by
    have h0l : 0 ≤ coord.mLine := by omega
    have hLx : lineAt E1.mLines coord.mLine = x.take k := by
      rw [q1, hline, lineAt_append_length]
    rw [GetCharacterIndex_eq E1 coord h0l (by rw [q1, hline]; simp; omega)
      (by rw [hLx]; exact bk1), hLx, e1T]
    have h2 := idxWalk_append_of_le M.mTabSize coord.mColumn _ bk1 0 (x.drop k) hcolk
    rw [List.take_append_drop] at h2
    rw [← h2, ← hk]
  have hib : GetCharacterIndex E1 ⟨coord.mLine + 1, (colWalk M.mTabSize 0 B 0 : Nat)⟩
      = (B.length : Nat) :=
    GetCharacterIndex_after E1 _ (pre ++ [x.take k]) post B (x.drop k) hq1
      (by show coord.mLine + 1 = _; rw [hlen2])
      (by show ((colWalk M.mTabSize 0 B 0 : Nat) : Int) = _; rw [e1T]) hBc bk2
      (by rw [e1T]; exact hBt)
  have hdl : (DeleteRange E1 coord ⟨coord.mLine + 1, (colWalk M.mTabSize 0 B 0 : Nat)⟩).mLines
      = pre ++ x :: post := by
    rw [DeleteRange_cross_lines E1 coord _ pre [] post (x.take k) (B ++ x.drop k) k B.length
      (by rw [q1]; simp) hline (by show coord.mLine + 1 = _; rw [hline]; simp) hia hib]
    have hlen1 : (x.take k).length = k := by rw [List.length_take]; omega
    have h3 : (x.take k).take k = x.take k := by rw [List.take_take, Nat.min_self]
    rw [h3, drop_decomp, List.take_append_drop]
  obtain ⟨r1, r2⟩ := record_doc E1 coord { u0 with mAddedStart := coord, mAdded := [10] } 10
  obtain ⟨r3, r4⟩ := record_log E1 coord { u0 with mAddedStart := coord, mAdded := [10] } 10
    e1valid
  have r5 := record_settings E1 coord { u0 with mAddedStart := coord, mAdded := [10] } 10
  rw [hend, (logFrame_eq e1log).1, (logFrame_eq e1log).2.1] at r3
  rw [(logFrame_eq e1log).2.1] at r4
  generalize EnterCharacter.record E1 coord
    { u0 with mAddedStart := coord, mAdded := [10] } 10 = E at r1 r2 r3 r4 r5
  have hEset : settings E = settings e := r5.trans (settings_of_logFrame e1log)
  have hET : E.mTabSize = M.mTabSize := by
    rw [(settings_eq hEset).2.1, (logFrame_eq hMlog).2.2.2.1]
  obtain ⟨u, hu⟩ : ∃ u : UndoRecord, u =
      { u0 with
        mAddedStart := coord, mAdded := [10],
        mAddedEnd := ⟨coord.mLine + 1, (colWalk M.mTabSize 0 B 0 : Nat)⟩,
        mAfter := E1.mState } := ⟨_, rfl⟩
  have hdel : SameText (DeleteRange E u.mAddedStart u.mAddedEnd) M := by
    rw [hu]
    show SameText (DeleteRange E coord ⟨coord.mLine + 1, (colWalk M.mTabSize 0 B 0 : Nat)⟩) M
    refine (DeleteRange_sameText (SameText_of_lines r1 (hET.trans e1T.symm)) _ _).trans ?_
    exact SameText_of_lines (hdl.trans hl.symm) (by rw [DeleteRange_mTabSize, e1T])
  have hune : u.mAdded ≠ [] := by rw [hu]; simp
  have hU := undo_added_logged e M E u
    (fun x hx => hrl.1 _ x rfl (by rw [hu]; exact hr0) (by rw [hu]; exact hra) hx) hune hdel
  refine ⟨u, ⟨hv, by rw [hu]; exact r3, r4, hEset, by rw [hu]; exact hbefore,
    by rw [hu]; exact r2.symm, hU⟩, ?_⟩
  intro hblank
  have hBnil : B = [] := by
    rw [hB]
    split_ifs with h
    · exact hblank h
    · rfl
  have hins : SameText (InsertTextAt M u.mAddedStart (cstr u.mAdded) false).1 E := by
    rw [hu]
    show SameText (InsertTextAt M coord (cstr [10]) false).1 E
    have hc : cstr [10] = [10] := by decide
    rw [hc]
    refine SameText_of_lines ?_ (by rw [InsertTextAt_mTabSize, hET])
    rw [InsertTextAt_newline M coord pre x post k hl hline hi hile, r1, q1, hBnil]
    rfl
  have hR := redo_added_logged e M E u
    (fun y hy => hrl.2 _ y rfl (by rw [hu]; exact hr0) (by rw [hu]; exact hra)
      (by rw [hu]; exact hrb) hy) hune hins
  exact ⟨hv, by rw [hu]; exact r3, r4, hEset, by rw [hu]; exact hbefore,
    by rw [hu]; exact r2.symm, hU, hR⟩

/-- The call `EnterCharacter('\n')`: the selection, if any, is deleted, the line is broken
at the cursor and the line break is recorded. -/
theorem EnterCharacter_newline (e : TextEditor) (aShift : Bool)
    (hM : (EnterCharacter.deleteSelected e).1.mLines ≠ []) :
    EnterCharacter e 10 aShift
      = EnterCharacter.record
          (EnterCharacter.newLine (EnterCharacter.deleteSelected e).1
            (GetActualCursorCoordinates (EnterCharacter.deleteSelected e).1))
          (GetActualCursorCoordinates (EnterCharacter.deleteSelected e).1)
          { (EnterCharacter.deleteSelected e).2 with
            mAddedStart := GetActualCursorCoordinates (EnterCharacter.deleteSelected e).1,
            mAdded := [10] } 10 := by
  obtain ⟨M, hMdef⟩ : ∃ M, M = (EnterCharacter.deleteSelected e).1 := ⟨_, rfl⟩
  obtain ⟨u0, hu0⟩ : ∃ u0, u0 = (EnterCharacter.deleteSelected e).2 := ⟨_, rfl⟩
  rw [← hMdef] at hM ⊢
  rw [← hu0]
  have hemp : M.mLines.isEmpty = false := by
    cases h : M.mLines with
    | nil => exact absurd h hM
    | cons a b => rfl
  unfold EnterCharacter
  rw [EnterCharacter.go]
  rw [if_neg (by rintro ⟨_, h2, _⟩; exact absurd h2 (by decide))]
  simp only []
  rw [← hMdef, ← hu0]
  simp only [hemp, Bool.false_eq_true, if_false, if_true]
  split_ifs <;> first | rfl | (exfalso; omega)

/-- `EnterCharacter('\n')` without a selection is logged so that it can be undone, and
faithfully when the new line is not given leading blanks. -/
theorem EnterCharacter_newline_logged (e : TextEditor) (aShift : Bool)
    (hv : ValidLog e) (hne : e.mLines ≠ []) (hsel : HasSelection e = false)
    (hl0 : 0 ≤ e.mState.mCursorPosition.mLine) (hc0 : 0 ≤ e.mState.mCursorPosition.mColumn)
    (hcM : Complete (lineAt e.mLines (GetActualCursorCoordinates e).mLine))
    (htM : TabStopsDefined e.mTabSize (lineAt e.mLines (GetActualCursorCoordinates e).mLine)) :
    ∃ u, UndoFaithful e (EnterCharacter e 10 aShift) u
      ∧ (((e.mLanguageDefinition.mAutoIndentation && e.mSmartIndent) = true →
            EnterCharacter.leadingBlanks (lineAt e.mLines (GetActualCursorCoordinates e).mLine) = []) →
          TextFaithful e (EnterCharacter e 10 aShift) u) := by
  have hdel : EnterCharacter.deleteSelected e = (e, { mBefore := e.mState }) := by
    unfold EnterCharacter.deleteSelected
    rw [if_neg (by rw [hsel]; simp)]
  rw [EnterCharacter_newline e aShift (by rw [hdel]; exact hne), hdel]
  simp only []
  exact newline_logged e e [] ⟨0, 0⟩ ⟨0, 0⟩ { mBefore := e.mState } hv rfl
    (RemovalLogged_none e _ _) rfl rfl rfl rfl
    (SanitizeCoordinates_sanitized e _ hne hl0 hc0) hcM htM

/-- `EnterCharacter('\n')` over a removable selection is logged so that it can be undone,
and faithfully when the new line is not given leading blanks. -/
theorem EnterCharacter_newline_replace_logged (e : TextEditor) (aShift : Bool)
    (hv : ValidLog e) (hs : RemovableSelection e) (hnb : NoLineBreak e.mLines) :
    ∃ u, UndoFaithful e (EnterCharacter e 10 aShift) u
      ∧ ((((DeleteSelection e).mLanguageDefinition.mAutoIndentation
              && (DeleteSelection e).mSmartIndent) = true →
            EnterCharacter.leadingBlanks
              (lineAt (DeleteSelection e).mLines
                (GetActualCursorCoordinates (DeleteSelection e)).mLine) = []) →
          TextFaithful e (EnterCharacter e 10 aShift) u) := by
  have hrl := RemovalLogged_selection e hs hnb
  obtain ⟨hsel, ha, hbs, hc, htabs, hnul, hcr, hval⟩ := hs
  have hab := (gt_le _ _ hsel).1
  have hdel : EnterCharacter.deleteSelected e = (DeleteSelection e,
      { mBefore := e.mState, mRemoved := GetSelectedText e,
        mRemovedStart := e.mState.mSelectionStart, mRemovedEnd := e.mState.mSelectionEnd }) := by
    unfold EnterCharacter.deleteSelected
    rw [if_pos hsel]
  obtain ⟨M, hM⟩ : ∃ M, M = DeleteSelection e := ⟨_, rfl⟩
  have hMlog : logFrame M = logFrame e := by rw [hM]; exact DeleteSelection_logFrame e
  have hMT : M.mTabSize = e.mTabSize := (logFrame_eq hMlog).2.2.2.1
  have hML : M.mLines = (DeleteRange e e.mState.mSelectionStart e.mState.mSelectionEnd).mLines := by
    rw [hM]; exact DeleteSelection_mLines e
  obtain ⟨m1, m2, m3⟩ := removed_sanitized e M _ _ hc htabs ha hbs hab hML hMT
  have hcur : GetActualCursorCoordinates M = e.mState.mSelectionStart := by
    rw [hM]
    exact DeleteSelection_cursor e hsel (by rw [← hM]; exact m1)
  have hMne : M.mLines ≠ [] := nonempty_of_sanitized m1
  have hunf := EnterCharacter_newline e aShift (by rw [hdel, ← hM]; exact hMne)
  rw [hdel] at hunf
  simp only [] at hunf
  rw [← hM] at hunf ⊢
  rw [hunf]
  have hrl2 : RemovalLogged e M (GetSelectedText e) e.mState.mSelectionStart
      e.mState.mSelectionEnd := by rw [hM]; exact hrl
  exact newline_logged e M (GetSelectedText e) e.mState.mSelectionStart e.mState.mSelectionEnd
    { mBefore := e.mState, mRemoved := GetSelectedText e,
      mRemovedStart := e.mState.mSelectionStart, mRemovedEnd := e.mState.mSelectionEnd }
    hv hMlog hrl2 rfl rfl rfl rfl
    (by rw [hcur]; exact m1) (by rw [hcur]; exact m2) (by rw [hcur]; exact m3)

/-! ## Typing over a character in overwrite mode -/

/-- The branch of `typeChar` that overwrites the character `g :: tl` at the cursor: its
bytes are recorded as removed and the typed bytes take their place. -/
theorem typeChar_overwrite (M : TextEditor) (coord : Coordinates) (u : UndoRecord)
    (buf : List Nat) (pre : Lines) (A : Line) (g : Glyph) (tl suf : Line) (post : Lines)
    (hl : M.mLines = pre ++ (A ++ g :: (tl ++ suf)) :: post) (hline : coord.mLine = pre.length)
    (hi : GetCharacterIndex M coord = (A.length : Nat))
    (htl : tl.length = UTF8CharLength g.mChar - 1)
    (hov : M.mOverwrite = true) (h0 : 0 ∉ buf) :
    (EnterCharacter.typeChar M coord u buf).1.mLines
        = pre ++ (A ++ toLine buf ++ suf) :: post
      ∧ (EnterCharacter.typeChar M coord u buf).1.mState
        = { M.mState with mCursorPosition :=
            ⟨coord.mLine, (colWalk M.mTabSize 0 (A ++ toLine buf) 0 : Nat)⟩ }
      ∧ logFrame (EnterCharacter.typeChar M coord u buf).1 = logFrame M
      ∧ (EnterCharacter.typeChar M coord u buf).2
        = { u with
            mRemovedStart := M.mState.mCursorPosition,
            mRemovedEnd := ⟨coord.mLine, (colWalk M.mTabSize 0 (A ++ g :: tl) 0 : Nat)⟩,
            mRemoved := u.mRemoved ++ lineText (g :: tl),
            mAdded := buf } := by
  have hnat : coord.mLine.toNat = pre.length := by omega
  have h0l : 0 ≤ coord.mLine := by omega
  have hx : lineAt M.mLines coord.mLine = A ++ g :: (tl ++ suf) := by
    rw [hl, hline, lineAt_append_length]
  have hpos := UTF8CharLength_pos g.mChar
  have hd : UTF8CharLength g.mChar = (g :: tl).length := by simp; omega
  have hcond : M.mOverwrite = true
      ∧ GetCharacterIndex M coord < (lineAt M.mLines coord.mLine).length := by
    refine ⟨hov, ?_⟩
    rw [hi, hx]
    simp
    omega
  have hg : glyphAt (A ++ g :: (tl ++ suf)) A.length = g := glyphAt_append_length A g _
  have herase : eraseChars A.length (UTF8CharLength g.mChar) (A ++ g :: (tl ++ suf)) u.mRemoved
      = (A ++ suf, u.mRemoved ++ lineText (g :: tl)) := by
    have h3 : A ++ g :: (tl ++ suf) = A ++ (g :: tl) ++ suf := by simp
    rw [hd, h3]
    exact eraseChars_spec A.length (g :: tl) A suf u.mRemoved rfl
  have hlen : (A ++ toLine buf).length = A.length + buf.length := by
    rw [List.length_append, toLine_length]
  have hins : EnterCharacter.insertBuf buf (A ++ suf) A.length
      = (A ++ toLine buf ++ suf, A.length + buf.length) := by
    rw [insertBuf_spec buf (A ++ suf) A.length h0 (by simp), take_decomp, drop_decomp]
  obtain ⟨ls, hls⟩ : ∃ ls : Lines, ls = pre ++ (A ++ toLine buf ++ suf) :: post := ⟨_, rfl⟩
  have hset : M.mLines.set pre.length (A ++ toLine buf ++ suf) = ls := by
    rw [hl, set_decomp, hls]
  have hcolumn : GetCharacterColumn { M with mLines := ls } coord.mLine
        ((A.length + buf.length : Nat) : Int)
      = (colWalk M.mTabSize 0 (A ++ toLine buf) 0 : Nat) := by
    rw [GetCharacterColumn_eq { M with mLines := ls } coord.mLine _ h0l
      (by show coord.mLine < (ls.length : Int); rw [hls, hline]; simp)]
    simp only [Int.toNat_ofNat]
    rw [hls, hline, lineAt_append_length, ← hlen, take_decomp]
  have hcolend : GetCharacterColumn M coord.mLine
        ((A.length : Nat) + (UTF8CharLength g.mChar : Nat) : Int)
      = (colWalk M.mTabSize 0 (A ++ g :: tl) 0 : Nat) := by
    rw [GetCharacterColumn_eq M coord.mLine _ h0l (by rw [hl, hline]; simp), hx]
    have h3 : A ++ g :: (tl ++ suf) = (A ++ g :: tl) ++ suf := by simp
    have h4 : ((A.length : Nat) + (UTF8CharLength g.mChar : Nat) : Int).toNat
        = (A ++ g :: tl).length := by
      rw [List.length_append, ← hd]; omega
    rw [h4, h3, take_decomp]
  unfold EnterCharacter.typeChar
  simp only []
  rw [if_pos hcond, hx, hi, Int.toNat_ofNat, hg, herase]
  simp only []
  rw [hins, hnat]
  simp only []
  rw [hset, hcolumn, hcolend, ← hls]
  refine ⟨?_, ?_, ?_, ?_⟩
  · rw [SetCursorPosition_mLines]
  · rw [SetCursorPosition_mState]
  · rw [SetCursorPosition_logFrame]; rfl
  · rw [cstr_of_not_mem buf h0]

theorem validFrom_append (b : List Nat) : ∀ (a : List Nat) (s : Nat), validFrom s a = true →
    validFrom s (a ++ b) = validFrom 0 b := by
  intro a
  induction a with
  | nil =>
    intro s h
    cases s with
    | zero => rfl
    | succ s => simp [validFrom] at h
  | cons c a ih =>
    intro s h
    cases s with
    | zero =>
      simp only [validFrom] at h
      show validFrom (UTF8CharLength c - 1) (a ++ b) = validFrom 0 b
      exact ih _ h
    | succ s =>
      simp only [validFrom, Bool.and_eq_true] at h
      show (IsUTFSequence c && validFrom s (a ++ b)) = validFrom 0 b
      rw [h.1, ih _ h.2]
      simp

theorem complete_pending : ∀ (rest : Line) (s : Nat), completeFrom s rest = true →
    s ≤ rest.length ∧ completeFrom 0 (rest.drop s) = true := by
  intro rest
  induction rest with
  | nil =>
    intro s h
    cases s with
    | zero => exact ⟨Nat.le_refl _, rfl⟩
    | succ s => simp [completeFrom] at h
  | cons g rest ih =>
    intro s h
    cases s with
    | zero => exact ⟨Nat.zero_le _, h⟩
    | succ s =>
      simp only [completeFrom] at h
      obtain ⟨h1, h2⟩ := ih s h
      exact ⟨by simp; omega, by simpa using h2⟩

/-- The character that begins at the character start `k` of a line. -/
theorem char_here (x : Line) (k : Nat) (hd : completeFrom 0 (x.drop k) = true)
    (hlt : k < x.length) :
    ∃ (g : Glyph) (tl suf : Line), x = x.take k ++ g :: (tl ++ suf)
      ∧ tl.length = UTF8CharLength g.mChar - 1 ∧ completeFrom 0 suf = true := by
  cases hdr : x.drop k with
  | nil =>
    have := congrArg List.length hdr
    simp at this
    omega
  | cons g rest =>
    rw [hdr] at hd
    simp only [completeFrom] at hd
    obtain ⟨h1, h2⟩ := complete_pending rest _ hd
    refine ⟨g, rest.take (UTF8CharLength g.mChar - 1), rest.drop (UTF8CharLength g.mChar - 1),
      ?_, ?_, h2⟩
    · rw [List.take_append_drop, ← hdr, List.take_append_drop]
    · rw [List.length_take]; omega

theorem eraseChars_char (A : Line) (g : Glyph) (tl suf : Line) (removed : List Nat)
    (htl : tl.length = UTF8CharLength g.mChar - 1) :
    eraseChars A.length (UTF8CharLength g.mChar) (A ++ g :: (tl ++ suf)) removed
      = (A ++ suf, removed ++ lineText (g :: tl)) := by
  have hpos := UTF8CharLength_pos g.mChar
  have hd : UTF8CharLength g.mChar = (g :: tl).length := by simp; omega
  have h3 : A ++ g :: (tl ++ suf) = A ++ (g :: tl) ++ suf := by simp
  rw [hd, h3]
  exact eraseChars_spec A.length (g :: tl) A suf removed rfl

/-- Undoing a record that only removed the text `R1` at the position `a`, on a document
that has the text left by the removal, gives the text before the removal. -/
theorem overwrite_undone (e M1 : TextEditor) (R1 : List Nat) (a : Coordinates)
    (pre : Lines) (A suf : Line) (post : Lines)
    (hl : M1.mLines = pre ++ (A ++ suf) :: post) (hline : a.mLine = pre.length)
    (hia : A.length = idxWalk M1.mTabSize a.mColumn 0 A 0)
    (hcA : completeFrom 0 A = true) (hcs : completeFrom 0 suf = true)
    (hcol : a.mColumn ≤ (colWalk M1.mTabSize 0 A 0 : Nat))
    (hT : M1.mTabSize = e.mTabSize)
    (hne : e.mLines ≠ []) (hnbe : NoLineBreak e.mLines) (hnbM : NoLineBreak M1.mLines)
    (h0 : 0 ∉ R1) (h13 : 13 ∉ R1) (hvR : validFrom 0 R1 = true) (hR1 : R1 ≠ [])
    (htext : docText e.mLines
      = joinPre pre ++ (lineText A ++ (R1 ++ (lineText suf ++ joinPost post)))) :
    RemovalUndone e M1 R1 a := by
  intro v x hadd hrem hst hx
  refine (UndoRecord_Undo_sameText v hx).trans ?_
  have hlines := Undo_removed_mLines v M1 hadd
  rw [hrem, if_neg hR1, hst, cstr_of_not_mem _ h0] at hlines
  have hl2 : M1.mLines = pre ++ (A.take A.length ++ suf.drop 0) :: post := by
    rw [List.take_length, List.drop_zero]; exact hl
  have hdoc := insert_back M1 a R1 pre A suf post A.length 0 hl2 hline hia hcA
    (by rw [List.drop_zero]; exact hcs) hcol h0 h13 hvR
  rw [List.take_length, List.drop_zero] at hdoc
  have hne2 : (v.Undo M1).mLines ≠ [] := by
    rw [hlines]
    intro h
    have := InsertTextAt_length_le M1 a R1 false
    rw [h, hl] at this
    simp at this
  have hnb2 : NoLineBreak (v.Undo M1).mLines := by
    rw [hlines]; exact InsertTextAt_noLineBreak _ _ _ h0 hvR hnbM
  refine ⟨lineTexts_of_docText _ _ hne2 hne hnb2 hnbe ?_, ?_⟩
  · rw [hlines, hdoc, htext]
  · rw [UndoRecord_Undo_mTabSize, hT]

/-- Redoing a record that only removed the character at the position `a`, on a document
that has the text before the removal, gives the text without the character. -/
theorem overwrite_redone (e M1 : TextEditor) (a b : Coordinates) (pre : Lines) (A : Line)
    (g : Glyph) (tl suf : Line) (post : Lines)
    (hl : e.mLines = pre ++ (A ++ g :: (tl ++ suf)) :: post) (hline : a.mLine = pre.length)
    (hb : b = ⟨a.mLine, (colWalk e.mTabSize 0 (A ++ g :: tl) 0 : Nat)⟩)
    (hia : GetCharacterIndex e a = (A.length : Nat))
    (hcA : completeFrom 0 A = true) (htl : tl.length = UTF8CharLength g.mChar - 1)
    (hcs : completeFrom 0 suf = true)
    (htab : TabStopsDefined e.mTabSize (A ++ g :: (tl ++ suf)))
    (hcol : a.mColumn ≤ (colWalk e.mTabSize 0 A 0 : Nat))
    (hM1 : M1.mLines = pre ++ (A ++ suf) :: post) (hT : M1.mTabSize = e.mTabSize) :
    RemovalRedone e M1 (lineText (g :: tl)) a b := by
  intro v y hadd hrem hst hen hy
  refine (UndoRecord_Redo_sameText v hy).trans ?_
  refine SameText_of_lines ?_ (by rw [UndoRecord_Redo_mTabSize, hT])
  rw [Redo_removed_mLines v e hadd, hrem, if_neg (by simp [lineText]), hst, hen, hM1]
  have hx3 : A ++ g :: (tl ++ suf) = (A ++ g :: tl) ++ suf := by simp
  have hcgt : completeFrom 0 (g :: tl) = true := by
    have := complete_cons g tl [] htl
    rw [List.append_nil] at this
    rw [this]; rfl
  have hcAg : completeFrom 0 (A ++ g :: tl) = true := by
    rw [complete_append _ _ hcA]; exact hcgt
  rw [hx3] at htab
  have htAg : TabStopsDefined e.mTabSize (A ++ g :: tl) := TabStopsDefined_append_left htab
  have hts : TabStopsDefined e.mTabSize suf := TabStopsDefined_append_right htab
  have htg : TabStopsDefined e.mTabSize (g :: tl) := TabStopsDefined_append_right htAg
  have h0 : 0 ≤ a.mLine := by omega
  have h1 : a.mLine < e.mLines.length := by rw [hl, hline]; simp
  have hL : lineAt e.mLines a.mLine = (A ++ g :: tl) ++ suf := by
    rw [hl, hline, lineAt_append_length, hx3]
  have hcx : completeFrom 0 ((A ++ g :: tl) ++ suf) = true := by
    rw [complete_append _ _ hcAg]; exact hcs
  have hbl : b.mLine = a.mLine := by rw [hb]
  have hbc : b.mColumn = (colWalk e.mTabSize 0 (A ++ g :: tl) 0 : Nat) := by rw [hb]
  have hib : GetCharacterIndex e b = ((A ++ g :: tl).length : Nat) := by
    rw [GetCharacterIndex_eq e b (by rw [hbl]; exact h0) (by rw [hbl]; exact h1)
      (by rw [hbl, hL]; exact hcx), hbl, hbc, hL, idxWalk_colWalk _ _ hcAg htAg 0]
  have hlt : colWalk e.mTabSize 0 A 0 < colWalk e.mTabSize 0 (A ++ g :: tl) 0 := by
    rw [colWalk_complete_append _ _ hcA]
    exact colWalk_lt _ (g :: tl) hcgt htg (by simp) _
  have hne : b ≠ a := by
    intro h
    have := congrArg Coordinates.mColumn h
    rw [hbc] at this
    have h2 : (colWalk e.mTabSize 0 A 0 : Int) < (colWalk e.mTabSize 0 (A ++ g :: tl) 0 : Nat) := by
      exact_mod_cast hlt
    omega
  have hend : b.mColumn ≥ GetLineMaxColumn e a.mLine
      → ((A ++ g :: tl) ++ suf).drop (A ++ g :: tl).length = [] := by
    intro hge
    rw [drop_decomp]
    by_contra hne3
    have := colWalk_lt e.mTabSize suf hcs hts hne3 (colWalk e.mTabSize 0 (A ++ g :: tl) 0)
    rw [GetLineMaxColumn_eq e a.mLine h0 h1, hL, colWalk_complete_append _ _ hcAg, hbc] at hge
    omega
  rw [hx3] at hl
  rw [DeleteRange_line e a b pre _ post A.length (A ++ g :: tl).length hl hline hbl.symm hne hia
    hib hend, drop_decomp, List.append_assoc, take_decomp]

/-- Where `EnterCharacter` finds a character under the cursor, the cursor is at a position
of the document. -/
theorem cursor_sanitized (e : TextEditor) (hne : e.mLines ≠ [])
    (h0 : 0 ≤ e.mState.mCursorPosition.mLine) (hc0 : 0 ≤ e.mState.mCursorPosition.mColumn)
    (hc : ∀ line ∈ e.mLines, Complete line)
    (htab : ∀ line ∈ e.mLines, TabStopsDefined e.mTabSize line)
    (hlt : GetCharacterIndex e (GetActualCursorCoordinates e)
      < ((lineAt e.mLines (GetActualCursorCoordinates e).mLine).length : Nat)) :
    Sanitized e e.mState.mCursorPosition := by
  have hs := SanitizeCoordinates_sanitized e e.mState.mCursorPosition hne h0 hc0
  have hemp : e.mLines.isEmpty = false := by
    cases h : e.mLines with
    | nil => exact absurd h hne
    | cons a b => rfl
  have hfull : ∀ p : Coordinates, Sanitized e p → p.mColumn = GetLineMaxColumn e p.mLine →
      GetCharacterIndex e p = ((lineAt e.mLines p.mLine).length : Nat) := by
    intro p hp hcol
    have hm := lineAt_mem e.mLines p.mLine hp.1 hp.2.1
    rw [GetCharacterIndex_eq e p hp.1 hp.2.1 (hc _ hm), hcol, GetLineMaxColumn_eq e p.mLine hp.1 hp.2.1,
      idxWalk_eq_length _ _ _ (hc _ hm) (htab _ hm) 0 (Int.le_refl _)]
  unfold GetActualCursorCoordinates at hlt hs
  by_cases hl : e.mState.mCursorPosition.mLine ≥ e.mLines.length
  · exfalso
    have hf := hfull _ hs (by
      unfold SanitizeCoordinates
      rw [if_pos hl, hemp]
      simp)
    rw [hf] at hlt
    omega
  · by_cases hcol : e.mState.mCursorPosition.mColumn
        ≤ GetLineMaxColumn e e.mState.mCursorPosition.mLine
    · exact ⟨h0, by omega, hc0, hcol⟩
    · exfalso
      have hf := hfull _ hs (by
        unfold SanitizeCoordinates
        rw [if_neg hl, hemp]
        simp only [Bool.false_eq_true, if_false]
        omega)
      rw [hf] at hlt
      omega

/-- The record of text typed over the character under the cursor of the document `M`,
left of `e` by the removal of the text `R` at the cursor: the edit can be undone, and it
is faithfully logged when the typed text is `'\r'`-free and nothing was removed before. -/
theorem overwrite_faithful (e M : TextEditor) (R : List Nat) (u0 : UndoRecord)
    (c : Nat) (t : List Nat)
    (hv : ValidLog e) (hMlog : logFrame M = logFrame e)
    (hr0 : u0.mRemoved = R) (hbefore : u0.mBefore = e.mState)
    (hcur : M.mState.mCursorPosition = GetActualCursorCoordinates M)
    (hp : Sanitized M (GetActualCursorCoordinates M))
    (hcM : Complete (lineAt M.mLines (GetActualCursorCoordinates M).mLine))
    (htM : TabStopsDefined M.mTabSize (lineAt M.mLines (GetActualCursorCoordinates M).mLine))
    (hov : EnterCharacter.overwrites M)
    (hne : e.mLines ≠ []) (hnbe : NoLineBreak e.mLines) (hnbM : NoLineBreak M.mLines)
    (hR0 : 0 ∉ R) (hR13 : 13 ∉ R) (hRv : validFrom 0 R = true)
    (hch : RestorableText (EnterCharacter.overwritten M))
    (htext : ∀ (pre : Lines) (x : Line) (post : Lines), M.mLines = pre ++ x :: post →
      (GetActualCursorCoordinates M).mLine = pre.length →
      docText e.mLines = joinPre pre
        ++ (lineText (x.take (idxWalk M.mTabSize (GetActualCursorCoordinates M).mColumn 0 x 0))
          ++ (R ++ (lineText (x.drop
            (idxWalk M.mTabSize (GetActualCursorCoordinates M).mColumn 0 x 0))
              ++ joinPost post))))
    (h0 : 0 ∉ t) (h10 : 10 ∉ t) (hvt : validFrom 0 t = true) (hnet : t ≠ [])
    (h9 : 9 ∈ t → 0 < M.mTabSize) :
    ∃ u, UndoFaithful e
        (EnterCharacter.record
          (EnterCharacter.typeChar M (GetActualCursorCoordinates M)
            { u0 with mAddedStart := GetActualCursorCoordinates M } t).1
          (GetActualCursorCoordinates M)
          (EnterCharacter.typeChar M (GetActualCursorCoordinates M)
            { u0 with mAddedStart := GetActualCursorCoordinates M } t).2 c) u
      ∧ (13 ∉ t → R = [] → M.mLines = e.mLines →
          TextFaithful e
            (EnterCharacter.record
              (EnterCharacter.typeChar M (GetActualCursorCoordinates M)
                { u0 with mAddedStart := GetActualCursorCoordinates M } t).1
              (GetActualCursorCoordinates M)
              (EnterCharacter.typeChar M (GetActualCursorCoordinates M)
                { u0 with mAddedStart := GetActualCursorCoordinates M } t).2 c) u) := by
  have hover : EnterCharacter.overwritten M
      = (eraseChars (GetCharacterIndex M (GetActualCursorCoordinates M)).toNat
          (UTF8CharLength (glyphAt (lineAt M.mLines (GetActualCursorCoordinates M).mLine)
            (GetCharacterIndex M (GetActualCursorCoordinates M)).toNat).mChar)
          (lineAt M.mLines (GetActualCursorCoordinates M).mLine) []).2 := rfl
  obtain ⟨hovm, hlt⟩ := hov
  obtain ⟨coord, hcoord⟩ : ∃ coord, coord = GetActualCursorCoordinates M := ⟨_, rfl⟩
  rw [← hcoord] at hp hcM htM hlt hcur htext hover ⊢
  obtain ⟨pre, x, post, hl, hlen, hnat, hx, hcx, hi, hile, hmax⟩ := sanitized_decomp M coord hp hcM
  have htext2 := htext pre x post hl hlen.symm
  obtain ⟨k, hk⟩ : ∃ k, k = idxWalk M.mTabSize coord.mColumn 0 x 0 := ⟨_, rfl⟩
  rw [← hk] at hi hile htext2
  have hline : coord.mLine = pre.length := hlen.symm
  have htx : TabStopsDefined M.mTabSize x := by rw [← hx]; exact htM
  have hcolx : coord.mColumn ≤ (colWalk M.mTabSize 0 x 0 : Nat) := by
    rw [← hmax]; exact hp.2.2.2
  have hklt : k < x.length := by
    rw [hi, hx] at hlt
    exact_mod_cast hlt
  obtain ⟨bk1, bk2⟩ := idxWalk_boundary M.mTabSize coord.mColumn x hcx 0
  rw [← hk] at bk1 bk2
  obtain ⟨g, tl, suf, hxd, htl, hcs⟩ := char_here x k bk2 hklt
  have hcolA0 := le_colWalk_take_idxWalk M.mTabSize coord.mColumn x hcx 0 hcolx
  rw [← hk] at hcolA0
  obtain ⟨A, hA⟩ : ∃ A, A = x.take k := ⟨_, rfl⟩
  have hAlen : A.length = k := by rw [hA, List.length_take]; omega
  rw [← hA] at hxd bk1 hcolA0 htext2
  have hdrop : x.drop k = g :: (tl ++ suf) := by
    rw [hxd, ← hAlen]; exact drop_decomp _ _
  rw [hdrop] at htext2
  have hidxA : idxWalk M.mTabSize coord.mColumn 0 A 0 = A.length := by
    have h2 := idxWalk_append_of_le M.mTabSize coord.mColumn A bk1 0 (g :: (tl ++ suf)) hcolA0
    rw [← hxd, ← hk] at h2
    rw [← h2, hAlen]
  have hl2 : M.mLines = pre ++ (A ++ g :: (tl ++ suf)) :: post := by rw [hl, ← hxd]
  have hi2 : GetCharacterIndex M coord = (A.length : Nat) := by rw [hi, hAlen]
  have htx2 : TabStopsDefined M.mTabSize (A ++ g :: (tl ++ suf)) := by rw [← hxd]; exact htx
  have hx3 : A ++ g :: (tl ++ suf) = (A ++ g :: tl) ++ suf := by simp
  have htA : TabStopsDefined M.mTabSize A := TabStopsDefined_append_left htx2
  have hts : TabStopsDefined M.mTabSize suf := by
    rw [hx3] at htx2; exact TabStopsDefined_append_right htx2
  have hMT : M.mTabSize = e.mTabSize := (logFrame_eq hMlog).2.2.2.1
  rw [hx, hi2, Int.toNat_ofNat, hxd, glyphAt_append_length, eraseChars_char A g tl suf [] htl,
    List.nil_append] at hover
  obtain ⟨c0, c13, cv⟩ := hch
  rw [hover] at c0 c13 cv
  obtain ⟨q1, q2, q3, q4⟩ := typeChar_overwrite M coord { u0 with mAddedStart := coord } t
    pre A g tl suf post hl2 hline hi2 htl hovm h0
  obtain ⟨u1, hu1def⟩ : ∃ u1 : UndoRecord,
      u1 = (EnterCharacter.typeChar M coord { u0 with mAddedStart := coord } t).2 := ⟨_, rfl⟩
  rw [← hu1def]
  rw [q4] at hu1def
  obtain ⟨M1, hM1⟩ : ∃ M1 : TextEditor, M1 = { M with mLines := pre ++ (A ++ suf) :: post } :=
    ⟨_, rfl⟩
  have hM1l : M1.mLines = pre ++ (A ++ suf) :: post := by rw [hM1]
  have hM1T : M1.mTabSize = M.mTabSize := by rw [hM1]
  have hnbM1 : NoLineBreak M1.mLines := by
    intro line hmem
    rw [hM1l] at hmem
    have hxm : 10 ∉ lineText (A ++ g :: (tl ++ suf)) := hnbM _ (by rw [hl2]; simp)
    rcases List.mem_append.mp hmem with h | h
    · exact hnbM _ (by rw [hl2]; exact List.mem_append_left _ h)
    · rcases List.mem_cons.mp h with h | h
      · rw [h]
        intro h10'
        apply hxm
        simp only [lineText, List.map_append, List.mem_append, List.map_cons,
          List.mem_cons] at h10' ⊢
        tauto
      · exact hnbM _ (by rw [hl2]; exact List.mem_append_right _ (List.mem_cons_of_mem _ h))
  have hru : RemovalUndone e M1 (R ++ lineText (g :: tl)) coord :=
    overwrite_undone e M1 _ coord pre A suf post hM1l hline (by rw [hM1T]; exact hidxA.symm)
      bk1 hcs (by rw [hM1T]; exact hcolA0) (hM1T.trans hMT) hne hnbe hnbM1
      (by
        intro h
        rcases List.mem_append.mp h with h | h
        · exact hR0 h
        · exact c0 h)
      (by
        intro h
        rcases List.mem_append.mp h with h | h
        · exact hR13 h
        · exact c13 h)
      (by rw [validFrom_append _ _ _ hRv]; exact cv)
      (by simp [lineText])
      (by
        rw [htext2]
        simp [lineText])
  have hcx1 : completeFrom 0 (A ++ suf) = true := by
    rw [complete_append _ _ bk1]; exact hcs
  obtain ⟨u, hu1, hu2⟩ := typed_core e M1
    (EnterCharacter.typeChar M coord { u0 with mAddedStart := coord } t).1
    (R ++ lineText (g :: tl)) coord
    ⟨coord.mLine, (colWalk M.mTabSize 0 (A ++ g :: tl) 0 : Nat)⟩ u1 c t coord pre (A ++ suf) post
    A.length hv hru hM1l hline hcx1 (by rw [hM1T]; exact TabStopsDefined_append htA hts)
    (by
      rw [hM1T, colWalk_complete_append _ _ bk1]
      have := le_colWalk M.mTabSize suf hcs hts (colWalk M.mTabSize 0 A 0)
      have h2 : ((colWalk M.mTabSize 0 A 0 : Nat) : Int)
          ≤ (colWalk M.mTabSize 0 suf (colWalk M.mTabSize 0 A 0) : Nat) := by exact_mod_cast this
      omega)
    (by rw [hM1T, idxWalk_append_of_le M.mTabSize coord.mColumn A bk1 0 suf hcolA0, hidxA])
    (hM1T.trans hMT)
    (by rw [take_decomp, drop_decomp]; exact q1)
    (by rw [take_decomp, hM1T, q2])
    (q3.trans hMlog) (by rw [hu1def]) (by rw [hu1def]) (by rw [hu1def, ← hr0])
    (by rw [hu1def]; exact hcur) (by rw [hu1def]) (by rw [hu1def]; exact hbefore) h0 h10 hvt hnet
    (by rw [hM1T]; exact h9)
  refine ⟨u, hu1, fun h13 hR hMe => hu2 h13 ?_⟩
  rw [hR, List.nil_append]
  have hred := overwrite_redone M M1 coord
    ⟨coord.mLine, (colWalk M.mTabSize 0 (A ++ g :: tl) 0 : Nat)⟩ pre A g tl suf post hl2 hline rfl
    hi2 bk1 htl hcs htx2 hcolA0 hM1l hM1T
  exact fun v y a1 a2 a3 a4 hy =>
    hred v y a1 a2 a3 a4 (hy.trans (SameText_of_lines hMe.symm hMT.symm))

theorem DeleteSelection_cursorPosition (e : TextEditor) (hsel : HasSelection e = true)
    (hS : Sanitized (DeleteSelection e) e.mState.mSelectionStart) :
    (DeleteSelection e).mState.mCursorPosition = e.mState.mSelectionStart := by
  have hT : (DeleteSelection e).mTabSize = e.mTabSize := DeleteSelection_mTabSize e
  have hL := DeleteSelection_mLines e
  have hne : e.mState.mSelectionEnd ≠ e.mState.mSelectionStart := by
    intro h
    unfold HasSelection at hsel
    rw [h] at hsel
    unfold Coordinates.gt at hsel
    simp at hsel
  have hst : (DeleteRange e e.mState.mSelectionStart e.mState.mSelectionEnd).mState = e.mState :=
    (editFrame_eq (DeleteRange_editFrame e _ _)).1
  have hsan : SanitizeCoordinates (DeleteRange e e.mState.mSelectionStart e.mState.mSelectionEnd)
      e.mState.mSelectionStart = e.mState.mSelectionStart :=
    SanitizeCoordinates_of_sanitized _ _ _ hS hL.symm
      (by rw [hT, DeleteRange_mTabSize])
  unfold DeleteSelection
  rw [if_neg hne]
  simp only []
  rw [Colorize_mState, SetCursorPosition_mState]
  show (SetSelection _ _ _ _).mState.mSelectionStart = _
  unfold SetSelection
  simp only [hst, hsan]
  split_ifs <;> rfl

/-- `EnterCharacter` of a character over the character under the cursor (overwrite mode,
no selection) is logged so that it can be undone, and faithfully when the character is
not `'\r'`. -/
theorem EnterCharacter_overwrite_logged (e : TextEditor) (c : Nat) (aShift : Bool)
    (hv : ValidLog e) (hne : e.mLines ≠ []) (hsel : HasSelection e = false)
    (hl0 : 0 ≤ e.mState.mCursorPosition.mLine) (hc0' : 0 ≤ e.mState.mCursorPosition.mColumn)
    (hc : ∀ line ∈ e.mLines, Complete line)
    (htab : ∀ line ∈ e.mLines, TabStopsDefined e.mTabSize line)
    (hnb : NoLineBreak e.mLines)
    (hov : EnterCharacter.overwrites e) (hch : RestorableText (EnterCharacter.overwritten e))
    (hc0 : c ≠ 0) (hc10 : c ≠ 10) (hlt : c < 0x10000)
    (hs : ¬ (0xdc00 ≤ c ∧ c < 0xe000)) (h9 : c = 9 → 0 < e.mTabSize)
    (hbr : e.mCompleteBraces = true → c ≠ 123 ∧ c ≠ 40 ∧ c ≠ 91) :
    ∃ u, UndoFaithful e (EnterCharacter e c aShift) u
      ∧ (c ≠ 13 → TextFaithful e (EnterCharacter e c aShift) u) := by
  have hdel : EnterCharacter.deleteSelected e = (e, { mBefore := e.mState }) := by
    unfold EnterCharacter.deleteSelected
    rw [if_neg (by rw [hsel]; simp)]
  obtain ⟨t, ht⟩ : ∃ t, t = if e.mInsertSpaces = true ∧ ImTextCharToUtf8 c = [9]
      then List.replicate e.mTabSize 32 else ImTextCharToUtf8 c := ⟨_, rfl⟩
  obtain ⟨b0, b1, b2, b3, b4, b5, b6⟩ :=
    typed_bytes e.mTabSize e.mInsertSpaces c hc0 hc10 hlt hs h9 t ht
  rw [EnterCharacter_typed e c aShift (by rw [hsel]; simp) hc10 b0 (by rw [hdel]; exact hne) hbr,
    hdel]
  simp only []
  rw [← ht]
  have hsan := cursor_sanitized e hne hl0 hc0' hc htab hov.2
  have hcur : e.mState.mCursorPosition = GetActualCursorCoordinates e := by
    unfold GetActualCursorCoordinates
    exact (SanitizeCoordinates_of_sanitized e e _ hsan rfl rfl).symm
  have hp : Sanitized e (GetActualCursorCoordinates e) := by rw [← hcur]; exact hsan
  have hm := lineAt_mem e.mLines _ hp.1 hp.2.1
  obtain ⟨u, hu1, hu2⟩ := overwrite_faithful e e [] { mBefore := e.mState } c t hv rfl rfl rfl
    hcur hp (hc _ hm) (htab _ hm) hov hne hnb hnb (by simp) (by simp) rfl hch
    (by
      intro pre x post hl _
      rw [hl, docText_decomp, List.nil_append, ← List.append_assoc (lineText _), ← lineText_append,
        List.take_append_drop])
    b1 b2 b4 b5 b6
  exact ⟨u, hu1, fun h13 => hu2 (b3 h13) rfl rfl⟩

/-- `EnterCharacter` of a character over a removable selection and the character that
follows it (overwrite mode), outside the block indent, is logged so that it can be
undone. -/
theorem EnterCharacter_replace_overwrite_logged (e : TextEditor) (c : Nat) (aShift : Bool)
    (hv : ValidLog e) (hs : RemovableSelection e) (hnb : NoLineBreak e.mLines)
    (hblock : c = 9 → e.mState.mSelectionStart.mLine = e.mState.mSelectionEnd.mLine)
    (hov : EnterCharacter.overwrites (DeleteSelection e))
    (hch : RestorableText (EnterCharacter.overwritten (DeleteSelection e)))
    (hc0 : c ≠ 0) (hc10 : c ≠ 10) (hlt : c < 0x10000)
    (hsur : ¬ (0xdc00 ≤ c ∧ c < 0xe000)) (h9 : c = 9 → 0 < e.mTabSize)
    (hbr : e.mCompleteBraces = true → c ≠ 123 ∧ c ≠ 40 ∧ c ≠ 91) :
    ∃ u, UndoFaithful e (EnterCharacter e c aShift) u := by
  obtain ⟨hsel, ha, hbs, hc, htabs, hnul, hcr, hval⟩ := hs
  have hab := (gt_le _ _ hsel).1
  have hdel : EnterCharacter.deleteSelected e = (DeleteSelection e,
      { mBefore := e.mState, mRemoved := GetSelectedText e,
        mRemovedStart := e.mState.mSelectionStart, mRemovedEnd := e.mState.mSelectionEnd }) := by
    unfold EnterCharacter.deleteSelected
    rw [if_pos hsel]
  have hcp := DeleteSelection_cursorPosition e hsel
  have hcc := DeleteSelection_cursor e hsel
  obtain ⟨M, hM⟩ : ∃ M, M = DeleteSelection e := ⟨_, rfl⟩
  rw [← hM] at hov hch hcp hcc
  have hMlog : logFrame M = logFrame e := by rw [hM]; exact DeleteSelection_logFrame e
  have hMT : M.mTabSize = e.mTabSize := (logFrame_eq hMlog).2.2.2.1
  have hML : M.mLines = (DeleteRange e e.mState.mSelectionStart e.mState.mSelectionEnd).mLines := by
    rw [hM]; exact DeleteSelection_mLines e
  obtain ⟨m1, m2, m3⟩ := removed_sanitized e M _ _ hc htabs ha hbs hab hML hMT
  have hcur : GetActualCursorCoordinates M = e.mState.mSelectionStart := hcc m1
  have hMne : M.mLines ≠ [] := nonempty_of_sanitized m1
  have hene : e.mLines ≠ [] := nonempty_of_sanitized ha
  have hnbM : NoLineBreak M.mLines := by rw [hML]; exact DeleteRange_noLineBreak e _ _ hnb
  obtain ⟨t, ht⟩ : ∃ t, t = if M.mInsertSpaces = true ∧ ImTextCharToUtf8 c = [9]
      then List.replicate M.mTabSize 32 else ImTextCharToUtf8 c := ⟨_, rfl⟩
  obtain ⟨b0, b1, b2, b3, b4, b5, b6⟩ :=
    typed_bytes M.mTabSize M.mInsertSpaces c hc0 hc10 hlt hsur (by rw [hMT]; exact h9) t ht
  have hunf := EnterCharacter_typed e c aShift (fun h => h.2.2 (hblock h.2.1)) hc10 b0
    (by rw [hdel, ← hM]; exact hMne) hbr
  rw [hdel] at hunf
  simp only [] at hunf
  rw [← hM, ← ht] at hunf
  rw [hunf]
  have htext : ∀ (pre : Lines) (x : Line) (post : Lines), M.mLines = pre ++ x :: post →
      (GetActualCursorCoordinates M).mLine = pre.length →
      docText e.mLines = joinPre pre
        ++ (lineText (x.take (idxWalk M.mTabSize (GetActualCursorCoordinates M).mColumn 0 x 0))
          ++ (GetSelectedText e ++ (lineText (x.drop
            (idxWalk M.mTabSize (GetActualCursorCoordinates M).mColumn 0 x 0))
              ++ joinPost post))) := by
    intro pre x post hl hline
    rw [hcur] at hline ⊢
    have hx : lineAt M.mLines e.mState.mSelectionStart.mLine = x := by
      rw [hl, hline, lineAt_append_length]
    have hcx : completeFrom 0 x = true := by rw [← hx]; exact m2
    have hcolx : e.mState.mSelectionStart.mColumn ≤ (colWalk M.mTabSize 0 x 0 : Nat) := by
      have := m1.2.2.2
      rw [GetLineMaxColumn_eq M _ m1.1 m1.2.1, hx] at this
      exact this
    obtain ⟨k, hk⟩ : ∃ k, k = idxWalk M.mTabSize e.mState.mSelectionStart.mColumn 0 x 0 :=
      ⟨_, rfl⟩
    rw [← hk]
    obtain ⟨v, hv1⟩ : ∃ v : UndoRecord, v =
        { mRemoved := GetSelectedText e, mRemovedStart := e.mState.mSelectionStart } :=
      ⟨_, rfl⟩
    have hadd : v.mAdded = [] := by rw [hv1]
    have hrem : v.mRemoved = GetSelectedText e := by rw [hv1]
    have hst : v.mRemovedStart = e.mState.mSelectionStart := by rw [hv1]
    have hall := undo_removed_text e _ _ v M hc htabs ha hbs hab hML hMT hadd hrem hst hnul hcr
      hval
    rw [GetTextAll_eq, GetTextAll_eq, Undo_removed_mLines v M hadd, hrem] at hall
    rw [← hall]
    split_ifs with hnil
    · rw [hnil, List.nil_append, hl, docText_decomp, ← List.append_assoc (lineText _),
        ← lineText_append, List.take_append_drop]
    · rw [hst, cstr_of_not_mem _ hnul]
      exact insert_back M _ _ pre x x post k k (by rw [List.take_append_drop]; exact hl) hline hk
        hcx (by
          have := (idxWalk_boundary M.mTabSize e.mState.mSelectionStart.mColumn x hcx 0).2
          rw [← hk] at this
          exact this) hcolx hnul hcr hval
  obtain ⟨u, hu1, -⟩ := overwrite_faithful e M (GetSelectedText e)
    { mBefore := e.mState, mRemoved := GetSelectedText e,
      mRemovedStart := e.mState.mSelectionStart, mRemovedEnd := e.mState.mSelectionEnd }
    c t hv hMlog rfl rfl (by rw [hcur]; exact hcp m1) (by rw [hcur]; exact m1)
    (by rw [hcur]; exact m2) (by rw [hcur]; exact m3) hov hene hnb hnbM hnul hcr hval hch htext
    b1 b2 b4 b5 b6
  exact ⟨u, hu1⟩

theorem not_overwrites (M : TextEditor) (hp : Sanitized M (GetActualCursorCoordinates M))
    (hcM : Complete (lineAt M.mLines (GetActualCursorCoordinates M).mLine))
    (h : ¬ EnterCharacter.overwrites M) :
    M.mOverwrite = false ∨ GetCharacterIndex M (GetActualCursorCoordinates M)
      = ((lineAt M.mLines (GetActualCursorCoordinates M).mLine).length : Nat) := by
  obtain ⟨pre, x, post, hl, hlen, hnat, hx, hcx, hi, hile, hmax⟩ :=
    sanitized_decomp M _ hp hcM
  by_cases hov : M.mOverwrite = true
  · right
    rw [hi, hx]
    by_contra hne
    apply h
    refine ⟨hov, ?_⟩
    rw [hi, hx]
    have : idxWalk M.mTabSize (GetActualCursorCoordinates M).mColumn 0 x 0 ≠ x.length :=
      fun h => hne (by rw [h])
    exact_mod_cast (by omega : idxWalk M.mTabSize (GetActualCursorCoordinates M).mColumn 0 x 0
      < x.length)
  · left
    simpa using hov

/-! ## Block indent: the record and its undo -/

theorem complete_drop_spaces : ∀ (line : Line) (n : Nat), n ≤ leadingSpaces line →
    completeFrom 0 line = true → completeFrom 0 (line.drop n) = true := by
  intro line
  induction line with
  | nil => intro n _ h; simpa using h
  | cons g rest ih =>
    intro n hn h
    cases n with
    | zero => exact h
    | succ n =>
      simp only [leadingSpaces] at hn
      by_cases hg : g.mChar = 32
      · rw [if_pos hg] at hn
        simp only [completeFrom, hg] at h
        have h1 : UTF8CharLength 32 - 1 = 0 := by decide
        rw [h1] at h
        simp only [List.drop_succ_cons]
        exact ih n (by omega) h
      · rw [if_neg hg] at hn
        omega

theorem indentLine_complete (T : Nat) (sp sh : Bool) (line : Line)
    (h : completeFrom 0 line = true) :
    completeFrom 0 (EnterCharacter.indentLine T sp sh line).1 = true := by
  cases sh with
  | true =>
    rw [indentLine_shift]
    unfold unindentLine
    cases line with
    | nil => rfl
    | cons g rest =>
      simp only []
      split_ifs with hg
      · simp only [completeFrom, hg] at h
        have h1 : UTF8CharLength 9 - 1 = 0 := by decide
        rw [h1] at h
        exact h
      · exact complete_drop_spaces _ _ (Nat.min_le_right _ _) h
  | false =>
    unfold EnterCharacter.indentLine
    simp only [Bool.false_eq_true, if_false]
    have h32 : UTF8CharLength 32 - 1 = 0 := by decide
    have h9 : UTF8CharLength 9 - 1 = 0 := by decide
    split_ifs
    · induction T with
      | zero => simpa using h
      | succ n ih =>
        rw [List.replicate_succ, List.cons_append]
        simp only [completeFrom, h32]
        exact ih
    · simp only [completeFrom, h9]
      exact h

theorem indentLine_noLineBreak (T : Nat) (sp sh : Bool) (line : Line)
    (h : 10 ∉ lineText line) : 10 ∉ lineText (EnterCharacter.indentLine T sp sh line).1 := by
  cases sh with
  | true =>
    rw [indentLine_shift]
    unfold unindentLine
    cases line with
    | nil => exact h
    | cons g rest =>
      simp only []
      split_ifs
      · intro hm
        exact h (by simp only [lineText, List.map_cons, List.mem_cons] at hm ⊢; exact Or.inr hm)
      · exact not_mem_lineText_drop h _
  | false =>
    unfold EnterCharacter.indentLine
    simp only [Bool.false_eq_true, if_false]
    split_ifs
    · intro hm
      simp only [lineText, List.map_append, List.map_replicate, List.mem_append,
        List.mem_replicate] at hm h
      rcases hm with hm | hm
      · have := hm.2
        omega
      · exact h hm
    · intro hm
      simp only [lineText, List.map_cons, List.mem_cons] at hm h
      rcases hm with hm | hm
      · omega
      · exact h hm

/-- The lines after the block (un)indent loop: those of the block are changed by
`indentLine`, the others are kept. -/
theorem indentLines_block (T : Nat) (sp sh : Bool) (lo hi : Int) (block post : Lines) :
    ∀ (pre : Lines) (i : Int), lo = i + pre.length → hi + 1 = lo + block.length →
      (EnterCharacter.indentLines T sp sh lo hi i (pre ++ block ++ post)).1
        = pre ++ block.map (fun l => (EnterCharacter.indentLine T sp sh l).1) ++ post := by
  have hpost : ∀ (post : Lines) (i : Int), hi < i →
      (EnterCharacter.indentLines T sp sh lo hi i post).1 = post := by
    intro post
    induction post with
    | nil => intro i _; rfl
    | cons l rest ih =>
      intro i hi2
      rw [EnterCharacter.indentLines]
      simp only []
      rw [if_neg (by omega), ih (i + 1) (by omega)]
  have hblock : ∀ (block : Lines) (i : Int), lo ≤ i → hi + 1 = i + block.length →
      (EnterCharacter.indentLines T sp sh lo hi i (block ++ post)).1
        = block.map (fun l => (EnterCharacter.indentLine T sp sh l).1) ++ post := by
    intro block
    induction block with
    | nil =>
      intro i _ h2
      simp only [List.nil_append, List.map_nil]
      exact hpost post i (by simp at h2; omega)
    | cons l rest ih =>
      intro i h1 h2
      rw [List.cons_append, EnterCharacter.indentLines]
      simp only []
      rw [if_pos (by simp at h2; omega), ih (i + 1) (by omega) (by simp at h2 ⊢; omega)]
      rfl
  intro pre
  induction pre with
  | nil =>
    intro i h1 h2
    simp only [List.nil_append]
    exact hblock block i (by simp at h1; omega) (by simp at h1; omega)
  | cons l rest ih =>
    intro i h1 h2
    rw [List.cons_append, List.cons_append, EnterCharacter.indentLines]
    simp only []
    rw [if_neg (by simp at h1; omega), ih (i + 1) (by simp at h1 ⊢; omega) h2]
    rfl

theorem index_at_line_start (e : TextEditor) (pre : Lines) (x : Line) (post : Lines)
    (a : Coordinates) (hl : e.mLines = pre ++ x :: post) (hline : a.mLine = pre.length)
    (hcol : a.mColumn = 0) (hc : completeFrom 0 x = true) :
    GetCharacterIndex e a = ((0 : Nat) : Int) := by
  have hx : lineAt e.mLines a.mLine = x := by rw [hl, hline, lineAt_append_length]
  rw [GetCharacterIndex_eq e a (by omega) (by rw [hl, hline]; simp) (by rw [hx]; exact hc), hx,
    hcol, idxWalk_stop _ _ _ _ (by simp)]

theorem index_at_line_end (e : TextEditor) (pre : Lines) (x : Line) (post : Lines)
    (b : Coordinates) (hl : e.mLines = pre ++ x :: post) (hline : b.mLine = pre.length)
    (hcol : b.mColumn = GetLineMaxColumn e b.mLine) (hc : completeFrom 0 x = true)
    (ht : TabStopsDefined e.mTabSize x) :
    GetCharacterIndex e b = (x.length : Int) := by
  have hx : lineAt e.mLines b.mLine = x := by rw [hl, hline, lineAt_append_length]
  have h0 : 0 ≤ b.mLine := by omega
  have h1 : b.mLine < e.mLines.length := by rw [hl, hline]; simp
  rw [GetCharacterIndex_eq e b h0 h1 (by rw [hx]; exact hc), hx, hcol,
    GetLineMaxColumn_eq e b.mLine h0 h1, hx, idxWalk_eq_length _ _ _ hc ht 0 (Int.le_refl _)]

/-- Deleting the range from column 0 of the first line of a block of lines to the end of
its last line leaves one empty line in the place of the block. -/
theorem DeleteRange_block (e : TextEditor) (pre block post : Lines) (a b : Coordinates)
    (hl : e.mLines = pre ++ block ++ post) (hne : block ≠ [])
    (hc : ∀ line ∈ block, completeFrom 0 line = true)
    (ht : ∀ line ∈ block, TabStopsDefined e.mTabSize line)
    (ha1 : a.mLine = pre.length) (ha2 : a.mColumn = 0)
    (hb1 : b.mLine = ((pre.length + block.length - 1 : Nat) : Int))
    (hb2 : b.mColumn = GetLineMaxColumn e b.mLine) :
    (DeleteRange e a b).mLines = pre ++ [] :: post := by
  cases block with
  | nil => exact absurd rfl hne
  | cons x rest =>
    have hcx := hc x (List.mem_cons_self _ _)
    have htx := ht x (List.mem_cons_self _ _)
    rcases List.eq_nil_or_concat rest with hr | ⟨mid, y, hr⟩
    · subst hr
      have hl2 : e.mLines = pre ++ x :: post := by rw [hl]; simp
      have hb1' : b.mLine = pre.length := by rw [hb1]; simp
      have h0 : 0 ≤ b.mLine := by omega
      have h1 : b.mLine < e.mLines.length := by rw [hl2, hb1']; simp
      have hx : lineAt e.mLines b.mLine = x := by rw [hl2, hb1', lineAt_append_length]
      have hmax : b.mColumn = (colWalk e.mTabSize 0 x 0 : Nat) := by
        rw [hb2, GetLineMaxColumn_eq e b.mLine h0 h1, hx]
      by_cases hx0 : x = []
      · have hba : b = a := by
          cases a; cases b
          simp only [Coordinates.mk.injEq] at *
          rw [hx0] at hmax
          simp only [colWalk] at hmax
          omega
        unfold DeleteRange
        rw [if_pos hba, hl2, hx0]
      · have hpos := colWalk_lt e.mTabSize x hcx htx hx0 0
        have hba : b ≠ a := by
          intro h
          rw [h, ha2] at hmax
          omega
        rw [DeleteRange_line e a b pre x post 0 x.length hl2 ha1 (by rw [ha1, hb1']) hba
          (index_at_line_start e pre x post a hl2 ha1 ha2 hcx)
          (index_at_line_end e pre x post b hl2 hb1' hb2 hcx htx) (fun _ => by simp)]
        simp
    · subst hr
      have hcy := hc y (by simp)
      have hty := ht y (by simp)
      have hl2 : e.mLines = pre ++ x :: (mid ++ y :: post) := by rw [hl]; simp
      have hl3 : e.mLines = (pre ++ x :: mid) ++ y :: post := by rw [hl]; simp
      have hb1' : b.mLine = ((pre.length + 1 + mid.length : Nat) : Int) := by
        rw [hb1]; simp; omega
      have hb3 : b.mLine = ((pre ++ x :: mid).length : Nat) := by
        rw [hb1']; simp; omega
      rw [DeleteRange_cross_lines e a b pre mid post x y 0 y.length hl2 ha1 hb1'
        (index_at_line_start e pre x _ a hl2 ha1 ha2 hcx)
        (index_at_line_end e _ y post b hl3 hb3 hb2 hcy hty)]
      simp

theorem block_range_sanitized (e : TextEditor) (pre block post : Lines) (a b : Coordinates)
    (hl : e.mLines = pre ++ block ++ post) (hne : block ≠ [])
    (ha1 : a.mLine = pre.length) (ha2 : a.mColumn = 0)
    (hb1 : b.mLine = ((pre.length + block.length - 1 : Nat) : Int))
    (hb2 : b.mColumn = GetLineMaxColumn e b.mLine) :
    Sanitized e a ∧ Sanitized e b ∧ a.le b = true := by
  have hpos : 0 < block.length := List.length_pos.mpr hne
  have hlen : e.mLines.length = pre.length + block.length + post.length := by
    rw [hl]; simp; omega
  have hmax := GetLineMaxColumn_nonneg e
  refine ⟨⟨by omega, by rw [ha1, hlen]; push_cast; omega, by omega, by rw [ha2]; exact hmax _⟩,
    ⟨by omega, by rw [hb1, hlen]; push_cast; omega, by rw [hb2]; exact hmax _, by rw [hb2]⟩, ?_⟩
  unfold Coordinates.le
  split_ifs with h
  · simp only [decide_eq_true_eq]
    rw [ha1, hb1] at h ⊢
    omega
  · simp only [decide_eq_true_eq]
    rw [ha2, hb2]
    exact hmax _

/-- Undoing the record of a block indent: the record holds the text of the block before
and after the change, from column 0 of its first line to the end of its last line. -/
theorem block_undone (e e1 : TextEditor) (pre block block1 post : Lines) (u : UndoRecord)
    (rS rE aS aE : Coordinates)
    (hl : e.mLines = pre ++ block ++ post) (hl1 : e1.mLines = pre ++ block1 ++ post)
    (hT : e1.mTabSize = e.mTabSize) (hTpos : 0 < e.mTabSize)
    (hlen : block1.length = block.length) (hne : block ≠ [])
    (hc : ∀ line ∈ e.mLines, Complete line) (hnb : NoLineBreak e.mLines)
    (hc1 : ∀ line ∈ block1, completeFrom 0 line = true)
    (hnb1 : ∀ line ∈ block1, 10 ∉ lineText line)
    (hrS1 : rS.mLine = pre.length) (hrS2 : rS.mColumn = 0)
    (hrE1 : rE.mLine = ((pre.length + block.length - 1 : Nat) : Int))
    (hrE2 : rE.mColumn = GetLineMaxColumn e rE.mLine)
    (haS1 : aS.mLine = pre.length) (haS2 : aS.mColumn = 0)
    (haE1 : aE.mLine = ((pre.length + block.length - 1 : Nat) : Int))
    (haE2 : aE.mColumn = GetLineMaxColumn e1 aE.mLine)
    (hrem : u.mRemoved = GetText e rS rE) (hrs : u.mRemovedStart = rS)
    (hadd : u.mAdded = GetText e1 aS aE) (has : u.mAddedStart = aS) (hae : u.mAddedEnd = aE)
    (hR : RestorableText (GetText e rS rE)) :
    ∀ x, SameText x e1 → SameText (u.Undo x) e := by
  have hne1 : block1 ≠ [] := by
    intro h
    rw [h] at hlen
    exact hne (List.length_eq_zero.mp hlen.symm)
  have htab : ∀ line ∈ e.mLines, TabStopsDefined e.mTabSize line :=
    fun line _ => TabStopsDefined_of_pos hTpos line
  have htab1 : ∀ line ∈ e1.mLines, TabStopsDefined e1.mTabSize line :=
    fun line _ => TabStopsDefined_of_pos (by rw [hT]; exact hTpos) line
  have hcpre : ∀ line ∈ pre, Complete line := fun line hm => hc line (by rw [hl]; simp [hm])
  have hcpost : ∀ line ∈ post, Complete line := fun line hm => hc line (by rw [hl]; simp [hm])
  have hcE : ∀ line ∈ e1.mLines, Complete line := by
    intro line hm
    rw [hl1] at hm
    simp only [List.mem_append] at hm
    rcases hm with (hm | hm) | hm
    · exact hcpre line hm
    · exact hc1 line hm
    · exact hcpost line hm
  have hnbE : NoLineBreak e1.mLines := by
    intro line hm
    rw [hl1] at hm
    simp only [List.mem_append] at hm
    rcases hm with (hm | hm) | hm
    · exact hnb line (by rw [hl]; simp [hm])
    · exact hnb1 line hm
    · exact hnb line (by rw [hl]; simp [hm])
  have hdelE : (DeleteRange e rS rE).mLines = pre ++ [] :: post :=
    DeleteRange_block e pre block post rS rE hl hne
      (fun line hm => hc line (by rw [hl]; simp [hm])) (fun line _ => htab line (by
        rw [hl]; simp only [List.mem_append]; exact Or.inl (Or.inr ‹_›))) hrS1 hrS2 hrE1 hrE2
  have hdel1 : (DeleteRange e1 aS aE).mLines = pre ++ [] :: post :=
    DeleteRange_block e1 pre block1 post aS aE hl1 hne1 hc1
      (fun line _ => TabStopsDefined_of_pos (by rw [hT]; exact hTpos) line) haS1 haS2
      (by rw [haE1, hlen]) haE2
  obtain ⟨hSa, hSb, hab⟩ := block_range_sanitized e pre block post rS rE hl hne hrS1 hrS2 hrE1 hrE2
  obtain ⟨hSa1, hSb1, hab1⟩ := block_range_sanitized e1 pre block1 post aS aE hl1 hne1 haS1 haS2
    (by rw [haE1, hlen]) haE2
  have hMM : SameText (DeleteRange e1 aS aE) (DeleteRange e rS rE) :=
    SameText_of_lines (by rw [hdel1, hdelE]) (by rw [DeleteRange_mTabSize, DeleteRange_mTabSize, hT])
  intro x hx
  by_cases hnil : u.mAdded = []
  · have h1 : SameText e1 (DeleteRange e1 aS aE) := by
      obtain ⟨P, xa, xb, Q, ia, ib, r1, r2, r3, r4, r5, r6, r7⟩ :=
        range_removed e1 aS aE hcE htab1 hSa1 hSb1 hab1
      rw [← hadd, hnil, List.nil_append, ← List.append_assoc (lineText _), ← lineText_append,
        ← docText_decomp, ← r6] at r7
      refine ⟨lineTexts_of_docText _ _ (nonempty_of_sanitized hSa1) (by rw [hdel1]; simp) hnbE
        (DeleteRange_noLineBreak e1 aS aE hnbE) r7, ?_⟩
      rw [DeleteRange_mTabSize]
    exact undo_removed_sameText e rS rE u x hc htab hnb hSa hSb hab ((hx.trans h1).trans hMM)
      hnil hrem hrs hR.1 hR.2.1 hR.2.2
  · exact undo_added_logged e (DeleteRange e rS rE) e1 u
      (fun y hy => undo_removed_sameText e rS rE { u with mAdded := [] } y hc htab hnb hSa hSb
        hab hy rfl hrem hrs hR.1 hR.2.1 hR.2.2)
      hnil (by rw [has, hae]; exact hMM) x hx

theorem lastRecord_appended (e E : TextEditor) (u : UndoRecord) (hv : ValidLog e)
    (hbuf : E.mUndoBuffer = e.mUndoBuffer.take e.mUndoIndex.toNat ++ [u])
    (hidx : E.mUndoIndex = e.mUndoIndex + 1) : lastRecord E = u := by
  unfold lastRecord
  rw [hbuf, hidx]
  have h0 := hv.2.1
  have hlen : (e.mUndoBuffer.take e.mUndoIndex.toNat).length = e.mUndoIndex.toNat := by
    rw [List.length_take]
    have := hv.2.2
    omega
  have : (e.mUndoIndex + 1 - 1).toNat = (e.mUndoBuffer.take e.mUndoIndex.toNat).length := by
    rw [hlen]; omega
  rw [this, List.getD_eq_getElem?_getD, List.getElem?_append_right (Nat.le_refl _)]
  simp

theorem lastRecord_commit (e0 e2 : TextEditor) (U : UndoRecord) (hv : ValidLog e0)
    (hlog : logFrame e2 = logFrame e0) :
    lastRecord (EnsureCursorVisible { AddUndo e2 U with
      mTextChanged := true
      mEvents := (AddUndo e2 U).mEvents ++ [Event.ContentUpdate] }) = U := by
  obtain ⟨b1, b2, _⟩ := AddUndo_log e0 e2 U hlog hv
  obtain ⟨l1, l2, _⟩ := logFrame_eq (EnsureCursorVisible_logFrame { AddUndo e2 U with
    mTextChanged := true
    mEvents := (AddUndo e2 U).mEvents ++ [Event.ContentUpdate] })
  exact lastRecord_appended e0 _ U hv (l1.trans b1) (l2.trans b2)

/-- The record that the block indent appends. -/
theorem blockCommit_lastRecord (e0 e : TextEditor) (start end2 originalEnd : Coordinates)
    (hv : ValidLog e0) (hlog : logFrame e = logFrame e0) :
    ∃ u, lastRecord (EnterCharacter.blockCommit e0 e start end2 originalEnd) = u
      ∧ u.mRemoved = GetText e0 start end2 ∧ u.mRemovedStart = start
      ∧ u.mAddedStart = ⟨start.mLine, GetCharacterColumn e start.mLine 0⟩
      ∧ u.mAddedEnd = (if originalEnd.mColumn ≠ 0 then
            ⟨end2.mLine, GetLineMaxColumn e end2.mLine⟩
          else ⟨originalEnd.mLine - 1, GetLineMaxColumn e (originalEnd.mLine - 1)⟩)
      ∧ u.mAdded = GetText e u.mAddedStart u.mAddedEnd := by
  unfold EnterCharacter.blockCommit
  simp only []
  refine ⟨_, lastRecord_commit e0 _ _ hv hlog, rfl, rfl, rfl, ?_, ?_⟩
  · simp only []
    split_ifs <;> rfl
  · rfl

theorem lines_block_decomp (lines : Lines) (lo hi : Int) (h0 : 0 ≤ lo) (h1 : lo ≤ hi)
    (h2 : hi < lines.length) :
    ∃ pre block post, lines = pre ++ block ++ post ∧ (pre.length : Int) = lo
      ∧ hi + 1 = lo + block.length ∧ block ≠ [] := by
  have hb : ((lines.drop lo.toNat).take (hi - lo + 1).toNat).length = (hi - lo + 1).toNat := by
    rw [List.length_take, List.length_drop]; omega
  refine ⟨lines.take lo.toNat, (lines.drop lo.toNat).take (hi - lo + 1).toNat,
    (lines.drop lo.toNat).drop (hi - lo + 1).toNat, ?_, ?_, ?_, ?_⟩
  · rw [List.append_assoc, List.take_append_drop, List.take_append_drop]
  · rw [List.length_take]; omega
  · rw [hb]; omega
  · intro h
    rw [h] at hb
    simp at hb
    omega

/-- The bounds of the block for a selection that spans several lines of the document. -/
theorem blockBounds_eq (e : TextEditor) (hsel : HasSelection e = true)
    (hml : e.mState.mSelectionStart.mLine ≠ e.mState.mSelectionEnd.mLine)
    (h0 : 0 ≤ e.mState.mSelectionStart.mLine)
    (h2 : e.mState.mSelectionEnd.mLine < e.mLines.length) :
    EnterCharacter.blockBounds e
      = (⟨e.mState.mSelectionStart.mLine, 0⟩,
        ⟨(if e.mState.mSelectionEnd.mColumn = 0 then e.mState.mSelectionEnd.mLine - 1
            else e.mState.mSelectionEnd.mLine),
          GetLineMaxColumn e (if e.mState.mSelectionEnd.mColumn = 0
            then e.mState.mSelectionEnd.mLine - 1 else e.mState.mSelectionEnd.mLine)⟩,
        e.mState.mSelectionEnd) := by
  unfold HasSelection at hsel
  have hlt : e.mState.mSelectionStart.mLine < e.mState.mSelectionEnd.mLine := by
    have := gt_line_le _ _ hsel
    omega
  unfold EnterCharacter.blockBounds
  simp only [gt_asymm _ _ hsel, Bool.false_eq_true, if_false]
  by_cases hc : e.mState.mSelectionEnd.mColumn = 0
  · have hc2 : e.mState.mSelectionEnd.mColumn = 0 ∧ e.mState.mSelectionEnd.mLine > 0 :=
      ⟨hc, by omega⟩
    simp only [if_pos hc2, if_pos hc]
    rw [if_neg (by omega)]
  · have hc2 : ¬ (e.mState.mSelectionEnd.mColumn = 0 ∧ e.mState.mSelectionEnd.mLine > 0) :=
      fun h => hc h.1
    simp only [if_neg hc2, if_neg hc]
    rw [if_neg (by omega)]

theorem blockCommit_mTabSize (e0 e : TextEditor) (a b c : Coordinates) :
    (EnterCharacter.blockCommit e0 e a b c).mTabSize = e.mTabSize := by
  unfold EnterCharacter.blockCommit
  simp only []
  rw [(logFrame_eq (EnsureCursorVisible_logFrame _)).2.2.2.1]
  rfl

/-- After a block indent that was recorded, `Undo()` gives the text back. -/
theorem blockIndent_undo (e : TextEditor) (c : Nat) (aShift : Bool) (hv : ValidLog e)
    (hib : EnterCharacter.indentsBlock e c) (hd : TextDocument e)
    (hb : EnterCharacter.BlockRestorable e)
    (hrec : (EnterCharacter e c aShift).mUndoIndex ≠ e.mUndoIndex) :
    GetTextAll (Undo (EnterCharacter e c aShift) 1) = GetTextAll e := by
  obtain ⟨hsel, hc9, hml⟩ := hib
  subst hc9
  obtain ⟨hc, -, hnb⟩ := hd
  obtain ⟨h0, h2, hT, hR⟩ := hb
  have hgo : EnterCharacter e 9 aShift = EnterCharacter.blockIndent e aShift := by
    unfold EnterCharacter
    rw [EnterCharacter.go, if_pos ⟨hsel, rfl, hml⟩]
  rw [hgo] at hrec ⊢
  obtain ⟨hvE, hpos, -⟩ := blockIndent_recordedBefore e aShift hv hrec
  rw [Undo_one _ hvE hpos]
  have hlt : e.mState.mSelectionStart.mLine < e.mState.mSelectionEnd.mLine := by
    have := gt_line_le _ _ (by unfold HasSelection at hsel; exact hsel)
    omega
  have hbb := blockBounds_eq e hsel hml h0 h2
  obtain ⟨hi, hhi⟩ : ∃ hi : Int, hi = if e.mState.mSelectionEnd.mColumn = 0
      then e.mState.mSelectionEnd.mLine - 1 else e.mState.mSelectionEnd.mLine := ⟨_, rfl⟩
  rw [← hhi] at hbb
  have hlohi : e.mState.mSelectionStart.mLine ≤ hi := by
    rw [hhi]; split_ifs <;> omega
  have hhilt : hi < e.mLines.length := by
    rw [hhi]; split_ifs <;> omega
  obtain ⟨pre, block, post, hl, hpre, hblk, hne⟩ :=
    lines_block_decomp e.mLines _ hi h0 hlohi hhilt
  have hlines := indentLines_block e.mTabSize e.mInsertSpaces aShift
    e.mState.mSelectionStart.mLine hi block post pre 0 (by omega) hblk
  rw [← hl] at hlines
  rw [hbb] at hR
  simp only [] at hR
  unfold EnterCharacter.blockIndent at hrec ⊢
  rw [hbb] at hrec ⊢
  simp only [] at hrec ⊢
  by_cases hmod : (EnterCharacter.indentLines e.mTabSize e.mInsertSpaces aShift
      e.mState.mSelectionStart.mLine hi 0 e.mLines).2 = true
  · rw [if_pos hmod] at hrec ⊢
    obtain ⟨e1, he1⟩ : ∃ e1 : TextEditor, e1 = { e with mLines :=
        (EnterCharacter.indentLines e.mTabSize e.mInsertSpaces aShift
          e.mState.mSelectionStart.mLine hi 0 e.mLines).1 } := ⟨_, rfl⟩
    rw [← he1]
    have hl1 : e1.mLines = pre ++ block.map
        (fun l => (EnterCharacter.indentLine e.mTabSize e.mInsertSpaces aShift l).1) ++ post := by
      rw [he1]; exact hlines
    have hT1 : e1.mTabSize = e.mTabSize := by rw [he1]
    obtain ⟨u, hu, u1, u2, u3, u4, u5⟩ := blockCommit_lastRecord e e1
      ⟨e.mState.mSelectionStart.mLine, 0⟩ ⟨hi, GetLineMaxColumn e hi⟩ e.mState.mSelectionEnd hv
      (by rw [he1]; rfl)
    rw [hu]
    have hline2 : hi = ((pre.length + block.length - 1 : Nat) : Int) := by
      have : 0 < block.length := List.length_pos.mpr hne
      omega
    have hend : u.mAddedEnd = ⟨hi, GetLineMaxColumn e1 hi⟩ := by
      rw [u4]
      simp only []
      by_cases hc0 : e.mState.mSelectionEnd.mColumn = 0
      · rw [if_neg (by simpa using hc0)]
        have : e.mState.mSelectionEnd.mLine - 1 = hi := by rw [hhi, if_pos hc0]
        rw [this]
      · rw [if_pos hc0]
    have hstart : u.mAddedStart = ⟨e.mState.mSelectionStart.mLine, 0⟩ := by
      rw [u3]
      simp only []
      rw [GetCharacterColumn_eq e1 _ 0 h0 (by
        rw [hl1]
        simp only [List.length_append, List.length_map]
        have : 0 < block.length := List.length_pos.mpr hne
        push_cast
        omega)]
      simp [colWalk]
    refine GetTextAll_of_sameText (block_undone e e1 pre block _ post u
      ⟨e.mState.mSelectionStart.mLine, 0⟩ ⟨hi, GetLineMaxColumn e hi⟩
      ⟨e.mState.mSelectionStart.mLine, 0⟩ ⟨hi, GetLineMaxColumn e1 hi⟩ hl hl1 hT1 hT
      (by simp) hne hc hnb ?_ ?_ hpre.symm rfl hline2 rfl hpre.symm rfl hline2 rfl u1 u2
      (by rw [u5, hstart, hend]) hstart hend hR _ ?_)
    · intro line hm
      obtain ⟨l0, hl0, rfl⟩ := List.mem_map.mp hm
      exact indentLine_complete _ _ _ _ (hc l0 (by rw [hl]; simp [hl0]))
    · intro line hm
      obtain ⟨l0, hl0, rfl⟩ := List.mem_map.mp hm
      exact indentLine_noLineBreak _ _ _ _ (hnb l0 (by rw [hl]; simp [hl0]))
    · exact SameText_of_lines (by simp only []; rw [blockCommit_mLines])
        (by simp only []; rw [blockCommit_mTabSize])
  · rw [if_neg hmod] at hrec
    exact absurd rfl hrec

/-! ## Auto-indenting insertion: the inserted text lies between the start and the returned position -/

theorem complete_replicate (g : Glyph) (hg : UTF8CharLength g.mChar - 1 = 0) (rest : Line) :
    ∀ n : Nat, completeFrom 0 (List.replicate n g ++ rest) = completeFrom 0 rest := by
  intro n
  induction n with
  | zero => rfl
  | succ n ih =>
    rw [List.replicate_succ, List.cons_append]
    simp only [completeFrom]
    rw [hg, ih]

/-- The `if (indent)` block after a line break puts indentation in front of the new line:
the returned column is the width of that indentation and the returned index its length. -/
theorem indentNewLine_indent (e : TextEditor) (lineNo : Int) (rest : List Nat) (s ai : Int)
    (pre : Lines) (x : Line) (post : Lines) (hs : 0 ≤ s) (hai : 0 ≤ ai) (hT : 0 < e.mTabSize)
    (hl : e.mLines = pre ++ x :: post) (hline : lineNo = pre.length) :
    ∃ (ind : Line) (act : Nat),
      (InsertTextAt.indentNewLine e lineNo rest s ai).1.mLines = pre ++ (ind ++ x) :: post
      ∧ (InsertTextAt.indentNewLine e lineNo rest s ai).2.1 = (act : Int)
      ∧ (InsertTextAt.indentNewLine e lineNo rest s ai).2.2.1 = (ind.length : Int)
      ∧ 0 ≤ (InsertTextAt.indentNewLine e lineNo rest s ai).2.2.2
      ∧ colWalk e.mTabSize 0 ind 0 = act ∧ completeFrom 0 ind = true := by
  unfold InsertTextAt.indentNewLine
  simp only []
  have hA : 0 ≤ (if (isspace (rest.headD 0) && decide (rest.headD 0 ≠ 10)
        && decide (rest.headD 0 ≠ 13)) = true then s
      else if InsertTextAt.bracketSearch rest = 125 then max 0 (ai - (e.mTabSize : Int))
        else ai) := by
    split_ifs
    · exact hs
    · exact le_max_left _ _
    · exact hai
  have hB : 0 ≤ (if InsertTextAt.bracketSearch rest = 125 then max 0 (ai - (e.mTabSize : Int))
      else ai) := by
    split_ifs
    · exact le_max_left _ _
    · exact hai
  generalize (if (isspace (rest.headD 0) && decide (rest.headD 0 ≠ 10)
        && decide (rest.headD 0 ≠ 13)) = true then s
      else if InsertTextAt.bracketSearch rest = 125 then max 0 (ai - (e.mTabSize : Int))
        else ai) = A at hA ⊢
  obtain ⟨act, rfl⟩ := Int.eq_ofNat_of_zero_le hA
  have h32 : UTF8CharLength ({ mChar := 32 } : Glyph).mChar - 1 = 0 := by decide
  have h9 : UTF8CharLength ({ mChar := 9 } : Glyph).mChar - 1 = 0 := by decide
  cases hsp : e.mInsertSpaces with
  | true =>
    simp only [if_true, Int.toNat_zero, Int.toNat_ofNat, InsertTextAt.addIndent]
    refine ⟨List.replicate act { mChar := 32 }, act,
      addIndent_mLines 32 1 act e lineNo pre x post hl hline, rfl, by simp, hB, ?_, ?_⟩
    · rw [colWalk_spaces]; omega
    · have := complete_replicate { mChar := 32 } h32 [] act
      rw [List.append_nil] at this
      rw [this]; rfl
  | false =>
    simp only [Bool.false_eq_true, if_false]
    have htab : ((act : Int) / (e.mTabSize : Int)).toNat = act / e.mTabSize := by
      rw [← Int.natCast_div]; rfl
    have h2 : (act : Int) - (act : Int) / (e.mTabSize : Int) * (e.mTabSize : Int)
        = ((act % e.mTabSize : Nat) : Int) := by
      rw [Int.natCast_mod]
      have := Int.emod_add_ediv (act : Int) (e.mTabSize : Int)
      linarith [mul_comm ((act : Int) / (e.mTabSize : Int)) (e.mTabSize : Int)]
    rw [htab, h2, Int.toNat_ofNat]
    refine ⟨indentation e.mTabSize act, act, ?_, rfl, ?_, hB, indentation_width _ _ hT, ?_⟩
    · have h1 := addIndent_mLines 32 1 (act % e.mTabSize) e lineNo pre x post hl hline
      have h3 := addIndent_mLines 9 (e.mTabSize : Int) (act / e.mTabSize)
        (InsertTextAt.addIndent 32 1 lineNo (act % e.mTabSize) e) lineNo pre _ post h1 hline
      rw [h3]
      unfold indentation
      simp
    · unfold indentation
      simp only [List.length_append, List.length_replicate]
      push_cast
      rfl
    · unfold indentation
      rw [complete_replicate _ h9]
      have := complete_replicate { mChar := 32 } h32 [] (act % e.mTabSize)
      rw [List.append_nil] at this
      rw [this]; rfl

/-- The loop of `InsertTextAt` with auto-indent on a NUL-free valid UTF-8 text without
tabs keeps the state spliced around the insertion point (tab size `≥ 1`). -/
theorem InsertTextAt_loop_spliced_indent (T : Nat) (hT : 0 < T) (pre0 : Lines) (pfx sfx : Line)
    (post0 : Lines) (s : Int) (hs : 0 ≤ s) (fuel : Nat) :
    ∀ (t : List Nat) (e : TextEditor) (W : Coordinates) (K : Nat) (total ai : Int),
      t.length ≤ fuel → 0 ∉ t → 9 ∉ t → validFrom 0 t = true → 0 ≤ ai → e.mTabSize = T →
      Spliced T pre0 pfx sfx post0 e.mLines W K →
      ∃ K2, Spliced T pre0 pfx sfx post0
        (InsertTextAt.loop true s fuel t e W K total ai).1.mLines
        (InsertTextAt.loop true s fuel t e W K total ai).2.1 K2 := by
  induction fuel with
  | zero =>
    intro t e W K total ai hf _ _ _ _ _ hS
    have : t = [] := List.length_eq_zero.mp (Nat.le_zero.mp hf)
    subst this
    exact ⟨K, by simpa [InsertTextAt.loop] using hS⟩
  | succ n ih =>
    intro t e W K total ai hf hnul htab hvalid hai heT hS
    cases t with
    | nil => exact ⟨K, by simpa [InsertTextAt.loop] using hS⟩
    | cons c rest =>
      have hc0 : c ≠ 0 := fun h => hnul (by simp [h])
      have hc9 : c ≠ 9 := fun h => htab (by simp [h])
      have hrest0 : 0 ∉ rest := fun h => hnul (by simp [h])
      have hrest9 : 9 ∉ rest := fun h => htab (by simp [h])
      have hfr : rest.length ≤ n := by simp at hf; omega
      simp only [InsertTextAt.loop]
      rw [if_neg hc0]
      by_cases h13 : c = 13
      · subst h13
        rw [if_pos rfl]
        have hv : validFrom 0 rest = true := by simpa [validFrom, UTF8CharLength] using hvalid
        exact ih rest e W K total ai hfr hrest0 hrest9 hv hai heT hS
      rw [if_neg h13]
      obtain ⟨PRE, X, hl, hW, hK, hcomp, hts, hsfx, hdis⟩ := hS
      have hline : W.mLine = PRE.length := by rw [hW]
      have hcol : W.mColumn = (colWalk T 0 (X.take K) 0 : Nat) := by rw [hW]
      by_cases h10 : c = 10
      · subst h10
        rw [if_pos rfl]
        have hv : validFrom 0 rest = true := by simpa [validFrom, UTF8CharLength] using hvalid
        simp only [if_true]
        have hbl := breakLine_mLines e W K PRE X post0 hl hline hK
        have hbT : (InsertTextAt.breakLine e W K).mTabSize = T := by
          rw [(logFrame_eq (logFrame_of_editFrame (breakLine_editFrame e W K))).2.2.2.1, heT]
        have hbl2 : (InsertTextAt.breakLine e W K).mLines
            = (PRE ++ [X.take K]) ++ X.drop K :: post0 := by rw [hbl]; simp
        obtain ⟨ind, act, i1, i2, i3, i4, i5, i6⟩ := indentNewLine_indent
          (InsertTextAt.breakLine e W K) (W.mLine + 1) rest s ai (PRE ++ [X.take K]) (X.drop K)
          post0 hs hai (by rw [hbT]; exact hT) hbl2 (by rw [hline]; simp)
        rw [hbT] at i5
        rw [i2, i3]
        have key := ih rest
          (InsertTextAt.indentNewLine (InsertTextAt.breakLine e W K) (W.mLine + 1) rest s ai).1
          ⟨W.mLine + 1, (act : Int)⟩ ind.length (total + 1)
          (InsertTextAt.indentNewLine (InsertTextAt.breakLine e W K) (W.mLine + 1) rest s ai).2.2.2
          hfr hrest0 hrest9 hv i4
          (by
            rw [(logFrame_eq (logFrame_of_editFrame (indentNewLine_editFrame _ _ _ _ _))).2.2.2.1]
            exact hbT)
        apply key
        have hind9 : TabStopsDefined T ind := TabStopsDefined_of_pos hT ind
        refine ⟨PRE ++ [X.take K], ind ++ X.drop K, i1, ?_, ?_, ?_, ?_, ?_, ?_⟩
        · rw [hline, take_decomp, i5]; simp
        · simp
        · rw [take_decomp]; exact i6
        · rw [take_decomp]; exact hind9
        · rw [drop_decomp]; exact hsfx
        · right
          rcases hdis with ⟨h1, h2, h3⟩ | ⟨F, mid, h1, h2, h3, h4, h5⟩
          · refine ⟨X.take K, [], by rw [h1], ?_, ?_, hcomp, hts⟩
            · rw [List.take_take, Nat.min_eq_left h3, h2]
            · rw [List.length_take]; omega
          · exact ⟨F, mid ++ [X.take K], by rw [h1]; simp, h2, h3, h4, h5⟩
      · rw [if_neg h10]
        simp only [validFrom] at hvalid
        obtain ⟨tl, rest2, hsplit, htl, hcont, hv⟩ := validFrom_split _ _ hvalid
        subst hsplit
        have hx : lineAt e.mLines W.mLine = X := by
          rw [hl, hline, lineAt_append_length]
        have hnat : W.mLine.toNat = PRE.length := by omega
        have hpos := UTF8CharLength_pos c
        have hlen : UTF8CharLength c = (c :: tl).length := by simp; omega
        have hins := insertChars_spec (c :: tl) rest2 X K
          (by
            intro d hd
            rcases List.mem_cons.mp hd with rfl | hd
            · exact hc0
            · exact (IsUTFSequence_ne d (hcont d hd)).1) hK
        rw [← hlen] at hins
        have hcons : c :: (tl ++ rest2) = (c :: tl) ++ rest2 := rfl
        rw [hx, hcons, hins]
        simp only [if_neg hc9]
        obtain ⟨htake, hdrop⟩ := take_splice X (toLine (c :: tl)) K hK
        have hlen2 : (toLine (c :: tl)).length = (c :: tl).length := by simp [toLine]
        rw [hlen2] at htake hdrop
        obtain ⟨hcw, hcc⟩ := colWalk_char T (X.take K) c tl hcomp (by omega) hc9
        have key := ih rest2
          { e with mLines := e.mLines.set W.mLine.toNat (X.take K ++ toLine (c :: tl) ++ X.drop K) }
          ⟨W.mLine, W.mColumn + 1⟩ (K + (c :: tl).length) total
          (if c = 123 then ai + e.mTabSize else ai)
          (by simp at hfr; omega) (fun h => hrest0 (by simp [h])) (fun h => hrest9 (by simp [h])) hv
          (by split_ifs <;> omega) heT
        rw [hlen]
        apply key
        refine ⟨PRE, X.take K ++ toLine (c :: tl) ++ X.drop K, ?_, ?_, ?_, ?_, ?_, ?_, ?_⟩
        · simp only []
          rw [hnat, hl, set_decomp]
        · rw [htake, hcw, hline, hcol]
          simp
        · simp only [List.length_append, List.length_take, List.length_drop, hlen2]
          omega
        · rw [htake]; exact hcc
        · rw [htake]
          exact TabStopsDefined_of_pos hT _
        · rw [hdrop]; exact hsfx
        · rcases hdis with ⟨h1, h2, h3⟩ | ⟨F, mid, h1, h2, h3, h4, h5⟩
          · left
            refine ⟨h1, ?_, by omega⟩
            rw [List.append_assoc, List.take_append_of_le_length
              (by rw [List.length_take]; omega), List.take_take, Nat.min_eq_left h3, h2]
          · right
            exact ⟨F, mid, h1, h2, h3, h4, h5⟩

/-- The text `t` inserted with auto-indent at a character start `p`: the range from `p` to
the position that `InsertTextAt` returns is what went in, and that position is
sanitized. -/
theorem InsertTextAt_end_indent (e : TextEditor) (p : Coordinates) (t : List Nat)
    (hp : Sanitized e p) (hc : Complete (lineAt e.mLines p.mLine))
    (htab : TabStopsDefined e.mTabSize (lineAt e.mLines p.mLine))
    (hb : p.mColumn = GetCharacterColumn e p.mLine (GetCharacterIndex e p))
    (h0 : 0 ∉ t) (h9 : 9 ∉ t) (hv : ValidUTF8 t) (hTpos : 0 < e.mTabSize) (X : TextEditor)
    (hX : X.mLines = (InsertTextAt e p t true).1.mLines) (hT : X.mTabSize = e.mTabSize) :
    (DeleteRange X p (InsertTextAt e p t true).2.1).mLines = e.mLines
      ∧ Sanitized X (InsertTextAt e p t true).2.1 := by
  obtain ⟨pre, x, post, hl, hlen, hnat, hx, hcx, hia, hiale, _⟩ := sanitized_decomp e p hp hc
  have hbd := idxWalk_boundary e.mTabSize p.mColumn x hcx 0
  have htx : TabStopsDefined e.mTabSize x := by rw [← hx]; exact htab
  have hcol : p.mColumn
      = (colWalk e.mTabSize 0 (x.take (idxWalk e.mTabSize p.mColumn 0 x 0)) 0 : Nat) := by
    conv_lhs => rw [hb, hia, GetCharacterColumn_eq e p.mLine _ hp.1 hp.2.1, hx]
    simp
  have hplen : (x.take (idxWalk e.mTabSize p.mColumn 0 x 0)).length
      = idxWalk e.mTabSize p.mColumn 0 x 0 := by
    rw [List.length_take]; omega
  have hpeq : p = ⟨(pre.length : Int),
      (colWalk e.mTabSize 0 (x.take (idxWalk e.mTabSize p.mColumn 0 x 0)) 0 : Nat)⟩ := by
    cases p with
    | mk l c =>
      simp only [] at hlen hcol
      rw [← hlen, ← hcol]
  have hinit : Spliced e.mTabSize pre (x.take (idxWalk e.mTabSize p.mColumn 0 x 0))
      (x.drop (idxWalk e.mTabSize p.mColumn 0 x 0)) post e.mLines p
      (idxWalk e.mTabSize p.mColumn 0 x 0) :=
    ⟨pre, x, hl, hpeq, hiale, hbd.1, TabStopsDefined_take htx _, rfl,
      Or.inl ⟨rfl, by rw [hplen], by rw [hplen]⟩⟩
  have hs := indentStart_nonneg e.mTabSize (lineAt e.mLines p.mLine)
  obtain ⟨K2, hfin⟩ := InsertTextAt_loop_spliced_indent e.mTabSize hTpos pre _ _ post
    (InsertTextAt.indentStart e.mTabSize (lineAt e.mLines p.mLine)) hs t.length t e p
    (idxWalk e.mTabSize p.mColumn 0 x 0) 0
    (InsertTextAt.indentStart e.mTabSize (lineAt e.mLines p.mLine)) (le_refl _) h0 h9 hv hs rfl
    hinit
  have hfin2 : Spliced X.mTabSize pre
      (x.take (idxWalk e.mTabSize p.mColumn 0 x 0))
      (x.drop (idxWalk e.mTabSize p.mColumn 0 x 0)) post
      X.mLines (InsertTextAt e p t true).2.1 K2 := by
    rw [hT, hX]
    unfold InsertTextAt
    simp only [if_true]
    rw [hia]
    exact hfin
  have key := DeleteRange_spliced X pre _ _ post _ K2 hfin2 hbd.1 hbd.2
    (by rw [hT]; exact TabStopsDefined_drop htx _)
  rw [hT, ← hpeq, List.take_append_drop, ← hl] at key
  exact ⟨key, Spliced_sanitized X pre _ _ post _ K2 hfin2 hbd.2
    (by rw [hT]; exact TabStopsDefined_drop htx _)⟩

/-- The cursor that `InsertText` leaves after a tab-free text put with auto-indent at a
character start: the position returned by `InsertTextAt`, which is sanitized. -/
theorem InsertText_actual_cursor_indent (e : TextEditor) (t : List Nat)
    (hp : Sanitized e (GetActualCursorCoordinates e))
    (hc : Complete (lineAt e.mLines (GetActualCursorCoordinates e).mLine))
    (htab : TabStopsDefined e.mTabSize (lineAt e.mLines (GetActualCursorCoordinates e).mLine))
    (hb : (GetActualCursorCoordinates e).mColumn
      = GetCharacterColumn e (GetActualCursorCoordinates e).mLine
          (GetCharacterIndex e (GetActualCursorCoordinates e)))
    (h0 : 0 ∉ t) (h9 : 9 ∉ t) (hv : ValidUTF8 t) (hTpos : 0 < e.mTabSize) :
    GetActualCursorCoordinates (InsertText e t true)
      = (InsertTextAt e (GetActualCursorCoordinates e) t true).2.1 := by
  have hT : (InsertText e t true).mTabSize = e.mTabSize :=
    (logFrame_eq (InsertText_logFrame e t true)).2.2.2.1
  have hs := (InsertTextAt_end_indent e _ t hp hc htab hb h0 h9 hv hTpos (InsertText e t true)
    (InsertText_mLines e t true) hT).2
  unfold GetActualCursorCoordinates at hs ⊢
  rw [InsertText_cursor]
  exact SanitizeCoordinates_of_sanitized _ _ _ hs rfl rfl

/-- A command that, after a removal logged by the record without its added text, inserts
the text `t` with auto-indent at a character start `p` of the document `M` left by the
removal, and logs `t`, `p` and the position returned by `InsertTextAt`: undoing gives back
the text before the command. -/
theorem insertion_undone (e M E : TextEditor) (u : UndoRecord) (p : Coordinates) (t : List Nat)
    (hU0 : ∀ x, SameText x M → SameText (UndoRecord.Undo { u with mAdded := [] } x) e)
    (hp : Sanitized M p) (hc : Complete (lineAt M.mLines p.mLine))
    (htab : TabStopsDefined M.mTabSize (lineAt M.mLines p.mLine))
    (hb : p.mColumn = GetCharacterColumn M p.mLine (GetCharacterIndex M p))
    (h0 : 0 ∉ t) (h9 : 9 ∉ t) (hvt : ValidUTF8 t) (hne : t ≠ []) (hTpos : 0 < M.mTabSize)
    (hadd : u.mAdded = t) (hstart : u.mAddedStart = p)
    (hend : u.mAddedEnd = (InsertTextAt M p t true).2.1)
    (hE : SameText E (InsertTextAt M p t true).1) :
    ∀ x, SameText x E → SameText (u.Undo x) e := by
  intro x hx
  rw [Undo_added u x (by rw [hadd]; exact hne)]
  apply hU0
  refine (Colorize_sameText _ _ _).trans ?_
  rw [hstart, hend]
  refine (DeleteRange_sameText (hx.trans hE) _ _).trans ?_
  exact SameText_of_lines
    (InsertTextAt_end_indent M p t hp hc htab hb h0 h9 hvt hTpos _ rfl
      (InsertTextAt_mTabSize M p t true)).1
    (by rw [DeleteRange_mTabSize, InsertTextAt_mTabSize])

/-- `Paste` with auto-indent, without a selection, of a tab-free valid UTF-8 clipboard
text at a character start is logged so that it can be undone (tab size `≥ 1`). -/
theorem Paste_insert_undone (e : TextEditor) (clip : List Nat) (hv : ValidLog e)
    (hclip : e.mClipboard = some clip) (hlen : cstr clip ≠ [])
    (hind : e.mAutoindentOnPaste = true) (hTpos : 0 < e.mTabSize)
    (hsel : HasSelection e = false)
    (hp : Sanitized e (GetActualCursorCoordinates e))
    (hc : Complete (lineAt e.mLines (GetActualCursorCoordinates e).mLine))
    (htab : TabStopsDefined e.mTabSize (lineAt e.mLines (GetActualCursorCoordinates e).mLine))
    (hb : (GetActualCursorCoordinates e).mColumn
      = GetCharacterColumn e (GetActualCursorCoordinates e).mLine
          (GetCharacterIndex e (GetActualCursorCoordinates e)))
    (h9 : 9 ∉ cstr clip) (hvalid : ValidUTF8 (cstr clip)) :
    ∃ u, UndoFaithful e (Paste e) u := by
  have h0 := cstr_no_nul clip
  have hdef : Paste e = AddUndo (InsertText e (cstr clip) true)
      { mBefore := e.mState, mAdded := cstr clip, mAddedStart := GetActualCursorCoordinates e,
        mAddedEnd := GetActualCursorCoordinates (InsertText e (cstr clip) true),
        mAfter := (InsertText e (cstr clip) true).mState } := by
    unfold Paste
    rw [if_neg (by rw [hv.1]; simp), hclip]
    simp only []
    rw [if_pos (by
      cases h : cstr clip with
      | nil => exact absurd h hlen
      | cons a b => simp)]
    simp only [hsel, Bool.false_eq_true, if_false, hind]
  have hlog := InsertText_logFrame e (cstr clip) true
  obtain ⟨b1, b2, b3⟩ := AddUndo_log e (InsertText e (cstr clip) true)
    { mBefore := e.mState, mAdded := cstr clip, mAddedStart := GetActualCursorCoordinates e,
      mAddedEnd := GetActualCursorCoordinates (InsertText e (cstr clip) true),
      mAfter := (InsertText e (cstr clip) true).mState } hlog hv
  rw [hdef]
  have k1 := insertion_undone e e (InsertText e (cstr clip) true)
    { mBefore := e.mState, mAdded := cstr clip, mAddedStart := GetActualCursorCoordinates e,
      mAddedEnd := GetActualCursorCoordinates (InsertText e (cstr clip) true),
      mAfter := (InsertText e (cstr clip) true).mState }
    (GetActualCursorCoordinates e) (cstr clip)
    (fun x hx => (Undo_nothing _ x rfl rfl).trans hx)
    hp hc htab hb h0 h9 hvalid hlen hTpos rfl rfl
    (InsertText_actual_cursor_indent e (cstr clip) hp hc htab hb h0 h9 hvalid hTpos)
    (SameText_of_lines (InsertText_mLines e (cstr clip) true)
      (by rw [(logFrame_eq hlog).2.2.2.1, InsertTextAt_mTabSize]))
  exact ⟨_, hv, b1, b2, b3, rfl, rfl, fun x hx => k1 x ⟨hx.1, hx.2⟩⟩

/-- `Paste` with auto-indent over a removable selection that starts at a character start,
of a tab-free valid UTF-8 clipboard text, is logged so that it can be undone (tab size
`≥ 1`). -/
theorem Paste_replace_undone (e : TextEditor) (clip : List Nat) (hv : ValidLog e)
    (hclip : e.mClipboard = some clip) (hlen : cstr clip ≠ [])
    (hind : e.mAutoindentOnPaste = true) (hTpos : 0 < e.mTabSize)
    (hs : RemovableSelection e) (hnb : NoLineBreak e.mLines)
    (hb : e.mState.mSelectionStart.mColumn
      = GetCharacterColumn e e.mState.mSelectionStart.mLine
          (GetCharacterIndex e e.mState.mSelectionStart))
    (h9 : 9 ∉ cstr clip) (hvalid : ValidUTF8 (cstr clip)) :
    ∃ u, UndoFaithful e (Paste e) u := by
  have h0 := cstr_no_nul clip
  obtain ⟨hsel, ha, hbs, hc, htabs, hnul, hcr, hval⟩ := hs
  have hab := (gt_le _ _ hsel).1
  obtain ⟨M, hM⟩ : ∃ M, M = DeleteSelection e := ⟨_, rfl⟩
  have hMlog : logFrame M = logFrame e := by rw [hM]; exact DeleteSelection_logFrame e
  have hMT : M.mTabSize = e.mTabSize := (logFrame_eq hMlog).2.2.2.1
  have hML : M.mLines = (DeleteRange e e.mState.mSelectionStart e.mState.mSelectionEnd).mLines := by
    rw [hM]; exact DeleteSelection_mLines e
  have hMind : M.mAutoindentOnPaste = true := by
    have := hMlog
    simp only [logFrame, Prod.mk.injEq] at this
    rw [this.2.2.2.2.2.2.2.2.1, hind]
  obtain ⟨m1, m2, m3, m4⟩ := removed_insertable e M _ _ hc htabs ha hbs hab hb hML hMT
  have hcur : GetActualCursorCoordinates M = e.mState.mSelectionStart := by
    rw [hM]
    exact DeleteSelection_cursor e hsel (by rw [← hM]; exact m1)
  obtain ⟨E1, hE1⟩ : ∃ E1, E1 = InsertText M (cstr clip) true := ⟨_, rfl⟩
  obtain ⟨u, hu⟩ : ∃ u : UndoRecord, u =
      { mBefore := e.mState, mRemoved := GetSelectedText e,
        mRemovedStart := e.mState.mSelectionStart, mRemovedEnd := e.mState.mSelectionEnd,
        mAdded := cstr clip, mAddedStart := GetActualCursorCoordinates M,
        mAddedEnd := GetActualCursorCoordinates E1, mAfter := E1.mState } := ⟨_, rfl⟩
  have hdef : Paste e = AddUndo E1 u := by
    unfold Paste
    rw [if_neg (by rw [hv.1]; simp), hclip]
    simp only []
    rw [if_pos (by
      cases h : cstr clip with
      | nil => exact absurd h hlen
      | cons a b => simp)]
    simp only [hsel, if_true]
    rw [← hM, hMind, ← hE1, hu]
  have hlog : logFrame E1 = logFrame e := by
    rw [hE1]; exact (InsertText_logFrame M (cstr clip) true).trans hMlog
  obtain ⟨b1, b2, b3⟩ := AddUndo_log e E1 u hlog hv
  rw [hdef]
  have hMD : SameText M (DeleteRange e e.mState.mSelectionStart e.mState.mSelectionEnd) :=
    SameText_of_lines hML (by rw [hMT, DeleteRange_mTabSize])
  have hp2 : Sanitized M (GetActualCursorCoordinates M) := by rw [hcur]; exact m1
  have hc2 : Complete (lineAt M.mLines (GetActualCursorCoordinates M).mLine) := by
    rw [hcur]; exact m2
  have ht2 : TabStopsDefined M.mTabSize (lineAt M.mLines (GetActualCursorCoordinates M).mLine) := by
    rw [hcur]; exact m3
  have hb2 : (GetActualCursorCoordinates M).mColumn
      = GetCharacterColumn M (GetActualCursorCoordinates M).mLine
          (GetCharacterIndex M (GetActualCursorCoordinates M)) := by
    rw [hcur]; exact m4
  have k1 := insertion_undone e M E1 u (GetActualCursorCoordinates M) (cstr clip)
    (fun x hx => undo_removed_sameText e _ _ _ x hc htabs hnb ha hbs hab (hx.trans hMD)
      (by rw [hu]) (by rw [hu]; rfl) (by rw [hu]) hnul hcr hval)
    hp2 hc2 ht2 hb2 h0 h9 hvalid hlen (by rw [hMT]; exact hTpos) (by rw [hu]) (by rw [hu])
    (by
      rw [hu]
      show GetActualCursorCoordinates E1 = _
      rw [hE1]
      exact InsertText_actual_cursor_indent M (cstr clip) hp2 hc2 ht2 hb2 h0 h9 hvalid
        (by rw [hMT]; exact hTpos))
    (by
      rw [hE1]
      exact SameText_of_lines (InsertText_mLines M (cstr clip) true)
        (by rw [(logFrame_eq (InsertText_logFrame M (cstr clip) true)).2.2.2.1,
          InsertTextAt_mTabSize]))
  exact ⟨u, hv, b1, b2, b3, by rw [hu], by rw [hu]; rfl, fun x hx => k1 x ⟨hx.1, hx.2⟩⟩

/-! ## Evaluations: edits outside the restorable and the redoable states

Between a pair of brackets `Backspace` makes two edits with a record each, and with the
cursor inside a tab `Paste` records a range that holds no character.  In the other states
below the record that the command appends lets `Undo()` give the text back, but `Redo()`
replays it with `DeleteRange` and `InsertTextAt` alone, which do not repeat what the
command did. -/

/-- With brace completion on, `Backspace` between the brackets of "a()b" first calls
`Delete()` for the `')'`, which appends a record of its own, and then erases the `'('`;
one `Undo()` puts back the `'('` only. -/
theorem Backspace_bracket_pair_then_undo :
    (Backspace (ofLinesAt [[97, 40, 41, 98]] ⟨0, 2⟩)).mUndoIndex = 2
      ∧ GetTextAll (Backspace (ofLinesAt [[97, 40, 41, 98]] ⟨0, 2⟩)) = [97, 98]
      ∧ GetTextAll (Undo (Backspace (ofLinesAt [[97, 40, 41, 98]] ⟨0, 2⟩)) 1) = [97, 40, 98] := by
  decide

/-- A typed `'\r'` is stored in the line and in the record; `Redo()` puts the recorded
text back with `InsertTextAt`, which drops `'\r'`. -/
theorem EnterCharacter_return_then_undo_redo :
    GetTextAll (EnterCharacter (ofLinesAt [[97, 98]] ⟨0, 1⟩) 13 false) = [97, 13, 98]
      ∧ GetTextAll (Undo (EnterCharacter (ofLinesAt [[97, 98]] ⟨0, 1⟩) 13 false) 1) = [97, 98]
      ∧ GetTextAll (Redo (Undo (EnterCharacter (ofLinesAt [[97, 98]] ⟨0, 1⟩) 13 false) 1) 1)
          = [97, 98] := by
  decide

/-- In overwrite mode, `'x'` typed over the selected first `'a'` of "aab" also replaces
the second `'a'`; the record holds "aa" as removed with the range of one character, so
`Undo()` gives "aab" back and `Redo()` gives "xab" instead of "xb". -/
theorem EnterCharacter_overwrite_selection_then_undo_redo :
    GetTextAll (EnterCharacter
        { SetSelection (ofLines [[97, 97, 98]]) ⟨0, 0⟩ ⟨0, 1⟩ SelectionMode.Normal with
          mOverwrite := true } 120 false) = [120, 98]
      ∧ GetTextAll (Undo (EnterCharacter
        { SetSelection (ofLines [[97, 97, 98]]) ⟨0, 0⟩ ⟨0, 1⟩ SelectionMode.Normal with
          mOverwrite := true } 120 false) 1) = [97, 97, 98]
      ∧ GetTextAll (Redo (Undo (EnterCharacter
        { SetSelection (ofLines [[97, 97, 98]]) ⟨0, 0⟩ ⟨0, 1⟩ SelectionMode.Normal with
          mOverwrite := true } 120 false) 1) 1) = [120, 97, 98] := by
  decide

/-- A tab typed over the selection from (0,0) to (1,1) of "a", "b", "c" indents the two
lines and extends the selection to (1,5); the record keeps as "after" snapshot the
selection from before that change, so after `Undo()` and `Redo()` the text is the indented
one but the selection ends at (1,1). -/
theorem EnterCharacter_blockIndent_then_undo_redo :
    GetTextAll (EnterCharacter
        (SetSelection (ofLines [[97], [98], [99]]) ⟨0, 0⟩ ⟨1, 1⟩ SelectionMode.Normal) 9 false)
        = [9, 97, 10, 9, 98, 10, 99]
      ∧ GetTextAll (Undo (EnterCharacter
        (SetSelection (ofLines [[97], [98], [99]]) ⟨0, 0⟩ ⟨1, 1⟩ SelectionMode.Normal) 9 false) 1)
        = [97, 10, 98, 10, 99]
      ∧ GetTextAll (Redo (Undo (EnterCharacter
        (SetSelection (ofLines [[97], [98], [99]]) ⟨0, 0⟩ ⟨1, 1⟩ SelectionMode.Normal) 9 false) 1) 1)
        = [9, 97, 10, 9, 98, 10, 99]
      ∧ (EnterCharacter
        (SetSelection (ofLines [[97], [98], [99]]) ⟨0, 0⟩ ⟨1, 1⟩ SelectionMode.Normal) 9
          false).mState.mSelectionEnd = ⟨1, 5⟩
      ∧ (Redo (Undo (EnterCharacter
        (SetSelection (ofLines [[97], [98], [99]]) ⟨0, 0⟩ ⟨1, 1⟩ SelectionMode.Normal) 9 false) 1)
          1).mState.mSelectionEnd = ⟨1, 1⟩ := by
  decide

/-- With auto-indent on paste, "x\ny" pasted into " ab" gives " ax", " yb": the second
line is indented like the first. The record holds "x\ny"; `Undo()` gives " ab" back, and
`Redo()` inserts the recorded text without indentation. -/
theorem Paste_autoindent_then_undo_redo :
    GetTextAll (Paste { ofLinesAt [[32, 97, 98]] ⟨0, 2⟩ with
        mClipboard := some [120, 10, 121], mAutoindentOnPaste := true })
        = [32, 97, 120, 10, 32, 121, 98]
      ∧ GetTextAll (Undo (Paste { ofLinesAt [[32, 97, 98]] ⟨0, 2⟩ with
        mClipboard := some [120, 10, 121], mAutoindentOnPaste := true }) 1) = [32, 97, 98]
      ∧ GetTextAll (Redo (Undo (Paste { ofLinesAt [[32, 97, 98]] ⟨0, 2⟩ with
        mClipboard := some [120, 10, 121], mAutoindentOnPaste := true }) 1) 1)
        = [32, 97, 120, 10, 121, 98] := by
  decide

/-- With the cursor at column 2, inside the tab of "\tb", `Paste` of "x" puts the text
behind the tab and records the range from column 2 to column 3, which holds no character
of the new line "\txb"; `Undo()` deletes nothing. -/
theorem Paste_inside_tab_then_undo :
    GetTextAll (Paste { ofLinesAt [[9, 98]] ⟨0, 2⟩ with mClipboard := some [120] })
        = [9, 120, 98]
      ∧ GetTextAll (Undo (Paste { ofLinesAt [[9, 98]] ⟨0, 2⟩ with mClipboard := some [120] }) 1)
        = [9, 120, 98] := by
  decide

/-! ## The edit commands are logged so that `Undo` and `Redo` restore the text -/

theorem deletePair_inactive (e : TextEditor) (h : ¬ Backspace.betweenBrackets e) :
    Backspace.deletePair (SetCursorPosition e (GetActualCursorCoordinates e))
        (lineAt e.mLines (GetActualCursorCoordinates e).mLine) (GetActualCursorCoordinates e)
      = SetCursorPosition e (GetActualCursorCoordinates e) := by
  have hlog := SetCursorPosition_logFrame e (GetActualCursorCoordinates e)
  have hT := (logFrame_eq hlog).2.2.2.1
  have hB := (logFrame_eq hlog).2.2.2.2.2.2
  unfold Backspace.deletePair
  simp only []
  rw [hT, hB]
  unfold Backspace.betweenBrackets at h
  split_ifs with h1 h2
  · exact absurd ⟨h1.1, h1.2.1, h1.2.2, h2⟩ h
  · rfl
  · rfl

theorem lineAt_cursor_mem (e : TextEditor) (hcur : CursorInDocument e) :
    Sanitized e (GetActualCursorCoordinates e)
      ∧ lineAt e.mLines (GetActualCursorCoordinates e).mLine ∈ e.mLines := by
  have hs := SanitizeCoordinates_sanitized e e.mState.mCursorPosition hcur.1 hcur.2.1 hcur.2.2
  exact ⟨hs, lineAt_mem _ _ hs.1 hs.2.1⟩

/-- `Delete` in a restorable state is faithfully logged. -/
theorem Delete_restorable (e : TextEditor) (hv : ValidLog e) (hd : TextDocument e)
    (h : Delete.Restorable e) : ∃ u, TextFaithful e (Delete e) u := by
  obtain ⟨hc, htab, hnb⟩ := hd
  unfold Delete.Restorable at h
  by_cases hsel : HasSelection e = true
  · rw [if_pos hsel] at h
    exact Delete_selection_faithful e hv h hnb
  · rw [if_neg hsel] at h
    obtain ⟨⟨hne, h0, h1⟩, h2⟩ := h
    have hsel2 : HasSelection e = false := by simpa using hsel
    by_cases hcol : (GetActualCursorCoordinates e).mColumn
        = GetLineMaxColumn e (GetActualCursorCoordinates e).mLine
    · rw [if_pos hcol] at h2
      exact Delete_join_faithful e hv hne hsel2 h0 h1 hc htab hnb hcol h2
    · rw [if_neg hcol] at h2
      obtain ⟨hat, hnul, hcr, hvalid⟩ := h2
      exact Delete_char_faithful e hv hne hsel2 h0 h1 hc htab hnb hat hcol hnul hcr hvalid

/-- `Backspace` in a restorable state is faithfully logged. -/
theorem Backspace_restorable (e : TextEditor) (hv : ValidLog e) (hd : TextDocument e)
    (h : Backspace.Restorable e) : ∃ u, TextFaithful e (Backspace e) u := by
  obtain ⟨hc, htab, hnb⟩ := hd
  unfold Backspace.Restorable at h
  by_cases hsel : HasSelection e = true
  · rw [if_pos hsel] at h
    exact Backspace_selection_faithful e hv h hnb
  · rw [if_neg hsel] at h
    obtain ⟨⟨hne, h0, h1⟩, h2⟩ := h
    have hsel2 : HasSelection e = false := by simpa using hsel
    by_cases hcol : (GetActualCursorCoordinates e).mColumn = 0
    · rw [if_pos hcol] at h2
      exact Backspace_join_faithful e hv hne hsel2 h0 h1 hc htab hnb hcol h2
    · rw [if_neg hcol] at h2
      obtain ⟨hatp, hata, hia, hch0, hch128, hch13, hpair⟩ := h2
      exact Backspace_erase_faithful e hv hne hsel2 h0 h1 hc htab hnb
        (Backspace.erasedFrom e) (Backspace.erasedChar e) rfl rfl hcol hatp hata hia hch0 hch128
        hch13 (deletePair_inactive e hpair)

/-- `Paste` in a restorable state, with auto-indent off or a text of one line, is
faithfully logged. -/
theorem Paste_restorable (e : TextEditor) (hv : ValidLog e) (hd : TextDocument e)
    (h : Paste.Restorable e) (hind : e.mAutoindentOnPaste = false ∨ 10 ∉ Paste.text e) :
    ∃ u, TextFaithful e (Paste e) u := by
  obtain ⟨hc, htab, hnb⟩ := hd
  obtain ⟨hne, h9, hvalid, -, h2⟩ := h
  unfold Paste.text at hne h9 hvalid hind
  cases hclip : e.mClipboard with
  | none => rw [hclip] at hne; exact absurd rfl hne
  | some clip =>
    rw [hclip] at hne h9 hvalid hind
    simp only [] at hne h9 hvalid hind
    by_cases hsel : HasSelection e = true
    · rw [if_pos hsel] at h2
      exact Paste_replace_faithful e clip hv hclip hne hind h2.1 hnb h2.2 h9 hvalid
    · rw [if_neg hsel] at h2
      have hsel2 : HasSelection e = false := by simpa using hsel
      obtain ⟨hs, hmem⟩ := lineAt_cursor_mem e h2.1
      exact Paste_insert_faithful e clip hv hclip hne hind hsel2 hs (hc _ hmem) (htab _ hmem)
        h2.2 h9 hvalid

/-- `Paste` in a restorable state is logged so that it can be undone. -/
theorem Paste_undoFaithful (e : TextEditor) (hv : ValidLog e) (hd : TextDocument e)
    (h : Paste.Restorable e) : ∃ u, UndoFaithful e (Paste e) u := by
  by_cases hind : e.mAutoindentOnPaste = false ∨ 10 ∉ Paste.text e
  · obtain ⟨u, hu⟩ := Paste_restorable e hv hd h hind
    exact ⟨u, hu.undoFaithful⟩
  · have hon : e.mAutoindentOnPaste = true := by
      cases hb : e.mAutoindentOnPaste with
      | true => rfl
      | false => exact absurd (Or.inl hb) hind
    have hmulti : 10 ∈ Paste.text e := by
      by_contra hno
      exact hind (Or.inr hno)
    obtain ⟨hc, htab, hnb⟩ := hd
    obtain ⟨hne, h9, hvalid, hT, h2⟩ := h
    have hTpos := hT hon hmulti
    unfold Paste.text at hne h9 hvalid
    cases hclip : e.mClipboard with
    | none => rw [hclip] at hne; exact absurd rfl hne
    | some clip =>
      rw [hclip] at hne h9 hvalid
      simp only [] at hne h9 hvalid
      by_cases hsel : HasSelection e = true
      · rw [if_pos hsel] at h2
        exact Paste_replace_undone e clip hv hclip hne hon hTpos h2.1 hnb h2.2 h9 hvalid
      · rw [if_neg hsel] at h2
        have hsel2 : HasSelection e = false := by simpa using hsel
        obtain ⟨hs, hmem⟩ := lineAt_cursor_mem e h2.1
        exact Paste_insert_undone e clip hv hclip hne hon hTpos hsel2 hs (hc _ hmem)
          (htab _ hmem) h2.2 h9 hvalid

theorem deleteSelected_none (e : TextEditor) (hsel : HasSelection e = false) :
    EnterCharacter.deleteSelected e = (e, { mBefore := e.mState }) := by
  unfold EnterCharacter.deleteSelected
  rw [if_neg (by rw [hsel]; simp)]

theorem deleteSelected_some (e : TextEditor) (hsel : HasSelection e = true) :
    (EnterCharacter.deleteSelected e).1 = DeleteSelection e := by
  unfold EnterCharacter.deleteSelected
  rw [if_pos hsel]

/-- `EnterCharacter` in a restorable state is logged so that it can be undone, and
faithfully when it types no `'\r'`, no line break that copies leading blanks, and nothing
over a character that follows a selection. -/
theorem EnterCharacter_restorable (e : TextEditor) (c : Nat) (aShift : Bool) (hv : ValidLog e)
    (hd : TextDocument e) (hnib : ¬ EnterCharacter.indentsBlock e c)
    (h : EnterCharacter.Restorable e c) :
    ∃ u, UndoFaithful e (EnterCharacter e c aShift) u
      ∧ (c ≠ 13 → (c = 10 → EnterCharacter.copiedBlanks e = []) →
          (c ≠ 10 → HasSelection e = true → ¬ EnterCharacter.overwrites (DeleteSelection e)) →
          TextFaithful e (EnterCharacter e c aShift) u) := by
  obtain ⟨hc, htab, hnb⟩ := hd
  unfold EnterCharacter.Restorable at h
  rw [if_neg hnib] at h
  by_cases hc10 : c = 10
  · rw [if_pos hc10] at h
    subst hc10
    by_cases hsel : HasSelection e = true
    · rw [if_pos hsel] at h
      obtain ⟨u, hu1, hu2⟩ := EnterCharacter_newline_replace_logged e aShift hv h hnb
      refine ⟨u, hu1, fun _ hb _ => hu2 ?_⟩
      intro hauto
      have := hb rfl
      unfold EnterCharacter.copiedBlanks at this
      rw [deleteSelected_some e hsel, if_pos hauto] at this
      exact this
    · rw [if_neg hsel] at h
      have hsel2 : HasSelection e = false := by simpa using hsel
      obtain ⟨hs, hmem⟩ := lineAt_cursor_mem e h
      obtain ⟨u, hu1, hu2⟩ := EnterCharacter_newline_logged e aShift hv h.1 hsel2 h.2.1 h.2.2
        (hc _ hmem) (htab _ hmem)
      refine ⟨u, hu1, fun _ hb _ => hu2 ?_⟩
      intro hauto
      have := hb rfl
      unfold EnterCharacter.copiedBlanks at this
      rw [deleteSelected_none e hsel2] at this
      simp only [] at this
      rw [if_pos hauto] at this
      exact this
  · rw [if_neg hc10] at h
    obtain ⟨⟨t0, tlt, tsur, t9, tbr⟩, h2⟩ := h
    by_cases hsel : HasSelection e = true
    · rw [if_pos hsel] at h2
      have hblock : c = 9 → e.mState.mSelectionStart.mLine = e.mState.mSelectionEnd.mLine :=
        fun h9 => by
          by_contra hne
          exact hnib ⟨hsel, h9, hne⟩
      by_cases hov : EnterCharacter.overwrites (DeleteSelection e)
      · obtain ⟨u, hu⟩ := EnterCharacter_replace_overwrite_logged e c aShift hv h2.1 hnb hblock
          hov (h2.2 hov) t0 hc10 tlt tsur t9 tbr
        exact ⟨u, hu, fun _ _ hno => absurd hov (hno hc10 hsel)⟩
      · obtain ⟨_, ha, hbs, hcs, htabs, _⟩ := h2.1
        have hab := (gt_le _ _ hsel).1
        obtain ⟨m1, m2, m3⟩ := removed_sanitized e (DeleteSelection e) _ _ hcs htabs ha hbs hab
          (DeleteSelection_mLines e) (DeleteSelection_mTabSize e)
        have hcur := DeleteSelection_cursor e hsel m1
        have hno := not_overwrites (DeleteSelection e) (by rw [hcur]; exact m1)
          (by rw [hcur]; exact m2) hov
        obtain ⟨u, hu1, hu2⟩ := EnterCharacter_replace_logged e c aShift hv h2.1 hnb hblock
          (by
            rcases hno with h | h
            · left
              rw [← (logFrame_eq (DeleteSelection_logFrame e)).2.2.2.2.2.1]
              exact h
            · exact Or.inr h)
          t0 hc10 tlt tsur t9 tbr
        exact ⟨u, hu1, fun h13 _ _ => hu2 h13⟩
    · rw [if_neg hsel] at h2
      have hsel2 : HasSelection e = false := by simpa using hsel
      obtain ⟨hs, hmem⟩ := lineAt_cursor_mem e h2.1
      by_cases hov : EnterCharacter.overwrites e
      · obtain ⟨u, hu1, hu2⟩ := EnterCharacter_overwrite_logged e c aShift hv h2.1.1 hsel2
          h2.1.2.1 h2.1.2.2 hc htab hnb hov (h2.2 hov) t0 hc10 tlt tsur t9 tbr
        exact ⟨u, hu1, fun h13 _ _ => hu2 h13⟩
      · obtain ⟨u, hu1, hu2⟩ := EnterCharacter_char_logged e c aShift hv h2.1.1 hsel2 h2.1.2.1
          h2.1.2.2 (hc _ hmem) (htab _ hmem) (not_overwrites e hs (hc _ hmem) hov)
          t0 hc10 tlt tsur t9 tbr
        exact ⟨u, hu1, fun h13 _ _ => hu2 h13⟩

/-- An edit command run in a state in which its edit can be undone and redone is
faithfully logged. -/
theorem Redoable_faithful (e : TextEditor) (cmd : EditCommand) (hv : ValidLog e)
    (hd : TextDocument e) (h : cmd.Redoable e) : ∃ u, TextFaithful e (cmd.run e) u := by
  cases cmd with
  | enterCharacter c s =>
    obtain ⟨u, _, hu⟩ := EnterCharacter_restorable e c s hv hd h.2.1 h.1
    exact ⟨u, hu h.2.2.1 h.2.2.2.1 h.2.2.2.2⟩
  | backspace => exact Backspace_restorable e hv hd h
  | delete => exact Delete_restorable e hv hd h
  | cut => exact Cut_selection_faithful e hv h hd.2.2
  | paste => exact Paste_restorable e hv hd h.1 h.2

theorem UndoFaithful.validLog {e E : TextEditor} {u : UndoRecord} (hf : UndoFaithful e E u) :
    ValidLog E ∧ 0 < E.mUndoIndex := by
  obtain ⟨hv, hbuf, hidx, hset, _⟩ := hf
  have h0 := hv.2.1
  have h1 := hv.2.2
  have hlen : (e.mUndoBuffer.take e.mUndoIndex.toNat).length = e.mUndoIndex.toNat := by
    rw [List.length_take]; omega
  refine ⟨⟨by rw [(settings_eq hset).1]; exact hv.1, by rw [hidx]; omega, ?_⟩, by rw [hidx]; omega⟩
  rw [hbuf, hidx, List.length_append, hlen]
  simp only [List.length_singleton]
  omega

/-- After an edit logged so that it can be undone, `Undo()` gives back the text and the
selection and cursor. -/
theorem UndoFaithful.undo_one {e E : TextEditor} {u : UndoRecord} (hf : UndoFaithful e E u) :
    GetTextAll (Undo E 1) = GetTextAll e ∧ (Undo E 1).mState = e.mState := by
  obtain ⟨hvE, hpos⟩ := hf.validLog
  have hlog := hf.undoLogged
  rw [Undo_one E hvE hpos]
  have hlast : (lastRecord E).mBefore = e.mState := by
    obtain ⟨hv, hbuf, hidx, _, hb, _, _⟩ := hf
    have hlen : (e.mUndoBuffer.take e.mUndoIndex.toNat).length = e.mUndoIndex.toNat := by
      rw [List.length_take]
      have := hv.2.1
      have := hv.2.2
      omega
    unfold lastRecord
    rw [hbuf, hidx]
    have h0 := hv.2.1
    have : (e.mUndoIndex + 1 - 1).toNat = (e.mUndoBuffer.take e.mUndoIndex.toNat).length := by
      rw [hlen]; omega
    rw [this, List.getD_eq_getElem?_getD, List.getElem?_append_right (Nat.le_refl _)]
    simpa using hb
  exact ⟨GetTextAll_of_sameText (hlog _ ⟨rfl, rfl⟩), by rw [UndoRecord_Undo_mState, hlast]⟩

/-- After an edit command that was run in a state in which its edit can be undone and
that appended a record, `Undo()` gives the text back. -/
theorem Restorable_undo_text (e : TextEditor) (cmd : EditCommand) (hv : ValidLog e)
    (hd : TextDocument e) (h : cmd.Restorable e)
    (hrec : (cmd.run e).mUndoIndex ≠ e.mUndoIndex) :
    GetTextAll (Undo (cmd.run e) 1) = GetTextAll e := by
  cases cmd with
  | enterCharacter c s =>
    by_cases hib : EnterCharacter.indentsBlock e c
    · have hb : EnterCharacter.BlockRestorable e := by
        have h2 : EnterCharacter.Restorable e c := h
        unfold EnterCharacter.Restorable at h2
        rw [if_pos hib] at h2
        exact h2
      exact blockIndent_undo e c s hv hib hd hb hrec
    · obtain ⟨u, hu, _⟩ := EnterCharacter_restorable e c s hv hd hib h
      exact hu.undo_one.1
  | backspace =>
    obtain ⟨u, hu⟩ := Backspace_restorable e hv hd h
    exact hu.undoFaithful.undo_one.1
  | delete =>
    obtain ⟨u, hu⟩ := Delete_restorable e hv hd h
    exact hu.undoFaithful.undo_one.1
  | cut =>
    obtain ⟨u, hu⟩ := Cut_selection_faithful e hv h hd.2.2
    exact hu.undoFaithful.undo_one.1
  | paste =>
    obtain ⟨u, hu⟩ := Paste_undoFaithful e hv hd h
    exact hu.undo_one.1

theorem runAll_cons (e : TextEditor) (cmd : EditCommand) (rest : List EditCommand) :
    runAll e (cmd :: rest) = runAll (cmd.run e) rest := rfl

/-- Commands that are each run in a state in which the edit can be undone and redone
make a run of faithfully logged edits. -/
theorem RedoableRun_textRun (cmds : List EditCommand) : ∀ e : TextEditor, ValidLog e →
    RedoableRun e cmds → TextRun e cmds.length (runAll e cmds) ∧ ValidLog (runAll e cmds) := by
  induction cmds with
  | nil => intro e hv _; exact ⟨TextRun.nil e, hv⟩
  | cons cmd rest ih =>
    intro e hv h
    obtain ⟨hd, hr, hrest⟩ := h
    obtain ⟨u, hu⟩ := Redoable_faithful e cmd hv hd hr
    obtain ⟨r1, r2⟩ := ih (cmd.run e) hu.undoFaithful.validLog.1 hrest
    exact ⟨TextRun_cons u hu r1, r2⟩


/-! ## C4 and C5: undo and redo after the edit commands -/

end TextEditor
